import Mathlib

/-!
ComPy: the lexer and the recursive-descent parser, embedded in Lean

Conventions of the embedding.

* A C++ `std::string` is a Lean `String`; the source text is read as a list of
  characters, one `Char` per byte (ASCII input).
* `int` counters (line, column, indentation width, symbol ids) are unbounded
  integers: inputs are taken to be shorter than 2^29 bytes, where none of them
  can overflow.
* `rest` is the unread suffix `input[pos..]` of the lexer, so that `pos` is
  `input.length - rest.length`; for the parser, `rest` is the suffix
  `tokens[currentTokenIndex..]`.
* A `std::vector` used as a stack is a list whose head is `back()`.
-/

namespace ComPy

/-! ## AST_Node.h: tokens -/

inductive TokenType
  | Keyword | Identifier | Number | String | Operator | Delimiter
  | Assignment | Boolean | Arithmetic | EOFToken | Error | Indent
deriving DecidableEq, Repr

structure Token where
  type : TokenType
  value : String
  line : Int
  column : Int
  symbolId : Int := -1
deriving DecidableEq, Repr

/-! ## `<cctype>` in the "C" locale -/

def NUL : Char := Char.ofNat 0
def DQUOTE : Char := Char.ofNat 34

def isdigit (c : Char) : Bool := '0' ≤ c && c ≤ '9'
def isalpha (c : Char) : Bool := ('a' ≤ c && c ≤ 'z') || ('A' ≤ c && c ≤ 'Z')
def isalnum (c : Char) : Bool := isalpha c || isdigit c
def isxdigit (c : Char) : Bool :=
  isdigit c || ('a' ≤ c && c ≤ 'f') || ('A' ≤ c && c ≤ 'F')
def isspace (c : Char) : Bool :=
  c == ' ' || c == '\t' || c == '\n' || c == Char.ofNat 11 || c == Char.ofNat 12 || c == '\r'
def tolower (c : Char) : Char :=
  if 'A' ≤ c && c ≤ 'Z' then Char.ofNat (c.toNat + 32) else c

/-- A letter or `_`: the test `isalpha(c) || c == '_'`. -/
def isIdentStart (c : Char) : Bool := isalpha c || c == '_'
/-- A letter, a digit or `_`: the test `isalnum(c) || c == '_'`. -/
def isIdentChar (c : Char) : Bool := isalnum c || c == '_'
/-- A space or a tab. -/
def isBlank (c : Char) : Bool := c == ' ' || c == '\t'
/-- The test `isspace(c) && c != '\n'` of `skipWhitespace`. -/
def isInlineSpace (c : Char) : Bool := isspace c && c != '\n'
/-- The test `c != '\n' && c != '\0'` of `skipComment`. -/
def isCommentChar (c : Char) : Bool := c != '\n' && c != NUL

/-- The text of `std::to_string(int)`. -/
def intToString (i : Int) : String :=
  if i < 0 then "-" ++ toString i.natAbs else toString i.toNat

/-! ## The C++ library: `double`, `std::stod`, `std::stoi`, `std::to_string`

A `double` is an IEEE-754 binary64 value: `fin neg m e` is `(-1)^neg * m * 2^e` with
`m < 2^53` and `-1074 ≤ e ≤ 971`. Every operation is the exact result rounded to the
nearest value, ties to even. -/

inductive Dbl
  | fin (neg : Bool) (m : Nat) (e : Int)
  | inf (neg : Bool)
  | nan (neg : Bool)
deriving DecidableEq, Repr

def bitLenAux : Nat → Nat → Nat
  | 0, _ => 0
  | f + 1, n => if n = 0 then 0 else bitLenAux f (n / 2) + 1

/-- The number of binary digits of `n`. -/
def bitLen (n : Nat) : Nat := bitLenAux n n

/-- The fraction `n / (d * 2^e)` as a pair numerator, denominator. -/
def scaleBy (n d : Nat) (e : Int) : Nat × Nat :=
  if e ≥ 0 then (n, d * 2 ^ e.toNat) else (n * 2 ^ (-e).toNat, d)

/-- Quotient `n / d` rounded to the nearest integer, ties to even. -/
def divRoundEven (n d : Nat) : Nat :=
  let q := n / d
  let r := n % d
  if 2 * r > d ∨ (2 * r = d ∧ q % 2 = 1) then q + 1 else q

/-- The binary64 value nearest to `(-1)^neg * n / d` (`d > 0`); infinite on overflow. -/
def roundRat (neg : Bool) (n d : Nat) : Dbl :=
  if n = 0 then .fin neg 0 0 else
  let e0 : Int := (bitLen n : Int) - (bitLen d : Int) - 52
  let q0 := (scaleBy n d e0).1 / (scaleBy n d e0).2
  let e1 : Int := if q0 ≥ 2 ^ 53 then e0 + 1 else if q0 < 2 ^ 52 then e0 - 1 else e0
  let e : Int := if e1 < -1074 then -1074 else e1
  let q := divRoundEven (scaleBy n d e).1 (scaleBy n d e).2
  if e > 971 ∨ (e = 971 ∧ q ≥ 2 ^ 53) then .inf neg else .fin neg q e

/-- The value `m * 2^e` as a fraction. -/
def finRat (m : Nat) (e : Int) : Nat × Nat := scaleBy m 1 (-e)

def Dbl.isZero : Dbl → Bool
  | .fin _ m _ => m == 0
  | _ => false

def Dbl.neg : Dbl → Dbl
  | .fin s m e => .fin (!s) m e
  | .inf s => .inf (!s)
  | .nan s => .nan (!s)

/-- The signed numerator of a finite value over the denominator `2^k`. -/
def signedAt (s : Bool) (m : Nat) (e : Int) (emin : Int) : Int :=
  let v : Int := (m * 2 ^ (e - emin).toNat : Nat)
  if s then -v else v

def Dbl.add : Dbl → Dbl → Dbl
  | .nan s, _ => .nan s
  | _, .nan s => .nan s
  | .inf s, .inf t => if s = t then .inf s else .nan true
  | .inf s, _ => .inf s
  | _, .inf t => .inf t
  | .fin s m e, .fin t k f =>
      let emin := min e f
      let v := signedAt s m e emin + signedAt t k f emin
      if v = 0 then .fin (s && t) 0 0
      else roundRat (decide (v < 0)) (scaleBy v.natAbs 1 (-emin)).1 (scaleBy v.natAbs 1 (-emin)).2

def Dbl.sub (a b : Dbl) : Dbl :=
  match b with
  | .nan s => (match a with | .nan t => .nan t | _ => .nan s)
  | _ => a.add b.neg

def Dbl.mul : Dbl → Dbl → Dbl
  | .nan s, _ => .nan s
  | _, .nan s => .nan s
  | .inf s, .inf t => .inf (xor s t)
  | .inf s, .fin t k _ => if k = 0 then .nan true else .inf (xor s t)
  | .fin s m _, .inf t => if m = 0 then .nan true else .inf (xor s t)
  | .fin s m e, .fin t k f =>
      roundRat (xor s t) (scaleBy (m * k) 1 (-(e + f))).1 (scaleBy (m * k) 1 (-(e + f))).2

def Dbl.div : Dbl → Dbl → Dbl
  | .nan s, _ => .nan s
  | _, .nan s => .nan s
  | .inf _, .inf _ => .nan true
  | .inf s, .fin t _ _ => .inf (xor s t)
  | .fin s _ _, .inf t => .fin (xor s t) 0 0
  | .fin s m e, .fin t k f =>
      if k = 0 then (if m = 0 then .nan true else .inf (xor s t))
      else roundRat (xor s t) (scaleBy m k (-(e - f))).1 (scaleBy m k (-(e - f))).2

/-- Comparison of two values, `none` when one of them is a NaN. -/
def Dbl.cmp : Dbl → Dbl → Option Ordering
  | .nan _, _ => none
  | _, .nan _ => none
  | .inf s, .inf t => some (if s = t then .eq else if s then .lt else .gt)
  | .inf s, .fin _ _ _ => some (if s then .lt else .gt)
  | .fin _ _ _, .inf t => some (if t then .gt else .lt)
  | .fin s m e, .fin t k f =>
      let emin := min e f
      some (compare (signedAt s m e emin) (signedAt t k f emin))

def Dbl.eq (a b : Dbl) : Bool := a.cmp b == some .eq
def Dbl.ne (a b : Dbl) : Bool := !(a.eq b)
def Dbl.lt (a b : Dbl) : Bool := a.cmp b == some .lt
def Dbl.gt (a b : Dbl) : Bool := a.cmp b == some .gt
def Dbl.le (a b : Dbl) : Bool := a.lt b || a.eq b
def Dbl.ge (a b : Dbl) : Bool := a.gt b || a.eq b

/-- The conversion `(int)x`: truncation toward zero; `none` where it is undefined (the
truncated value is not an `int`). -/
def Dbl.toInt : Dbl → Option Int
  | .fin s m e =>
      let t : Nat := (finRat m e).1 / (finRat m e).2
      let v : Int := if s then -(t : Int) else t
      if -2147483648 ≤ v ∧ v ≤ 2147483647 then some v else none
  | _ => none

/-- Left-pads `s` with zeros to `n` characters. -/
def padZeros (n : Nat) (s : String) : String :=
  String.mk (List.replicate (n - s.length) '0') ++ s

/-- The text of `std::to_string(double)`, which is `printf("%f")`. -/
def doubleToString : Dbl → String
  | .fin s m e =>
      let q := divRoundEven ((finRat m e).1 * 1000000) (finRat m e).2
      (if s then "-" else "") ++ toString (q / 1000000) ++ "." ++ padZeros 6 (toString (q % 1000000))
  | .inf s => if s then "-inf" else "inf"
  | .nan s => if s then "-nan" else "nan"

/-! ### `strtod` -/

def digitVal (c : Char) : Nat :=
  if isdigit c then c.toNat - 48
  else if 'a' ≤ c && c ≤ 'f' then c.toNat - 87
  else if 'A' ≤ c && c ≤ 'F' then c.toNat - 55
  else 0

/-- Reads the longest run of digits accepted by `p`: their value in `base`, how many, and
what follows. -/
def readDigits (p : Char → Bool) (base : Nat) : List Char → Nat → Nat → Nat × Nat × List Char
  | c :: cs, acc, cnt => if p c then readDigits p base cs (acc * base + digitVal c) (cnt + 1) else (acc, cnt, c :: cs)
  | [], acc, cnt => (acc, cnt, [])

/-- An exponent part `[+-]digits` after its letter, if one is there. -/
def readExponent (cs : List Char) : Option Int :=
  let (neg, ds) : Bool × List Char :=
    match cs with
    | '-' :: r => (true, r)
    | '+' :: r => (false, r)
    | r => (false, r)
  match readDigits isdigit 10 ds 0 0 with
  | (_, 0, _) => none
  | (v, _, _) => some (if neg then -(v : Int) else v)

def lowerPrefix (n : Nat) (cs : List Char) : List Char := (cs.take n).map tolower

/-- The value rounded from the exact fraction `mant * base^(-fracDigits) * radix^exp`, or
`none` when `strtod` reports `ERANGE`. -/
def finishStrtod (neg : Bool) (mant : Nat) (den : Nat) (radix : Nat) (exp : Int) : Option Dbl :=
  let n := if exp ≥ 0 then mant * radix ^ exp.toNat else mant
  let d := if exp ≥ 0 then den else den * radix ^ (-exp).toNat
  match roundRat neg n d with
  | .fin s m e =>
      if mant ≠ 0 ∧ m < 2 ^ 52 ∧ (scaleBy n d 0).1 * (finRat m e).2 ≠ (finRat m e).1 * (scaleBy n d 0).2
      then none else some (.fin s m e)
  | _ => none

/-- The function `std::stod`: `none` when it throws (`invalid_argument`: no number at the
start; `out_of_range`: the value overflows, or underflows inexactly). -/
def stod (str : String) : Option Dbl :=
  let cs := str.data.dropWhile isspace
  let (neg, r) : Bool × List Char :=
    match cs with
    | '-' :: r => (true, r)
    | '+' :: r => (false, r)
    | r => (false, r)
  if lowerPrefix 3 r = ['i', 'n', 'f'] then some (.inf neg)
  else if lowerPrefix 3 r = ['n', 'a', 'n'] then some (.nan neg)
  else if lowerPrefix 2 r = ['0', 'x'] ∧
      ((r.drop 2).head?.any isxdigit ∨
       ((r.drop 2).head? = some '.' ∧ (r.drop 3).head?.any isxdigit)) then
    let (ip, _, r1) := readDigits isxdigit 16 (r.drop 2) 0 0
    let (mant, fcnt, r2) : Nat × Nat × List Char :=
      match r1 with
      | '.' :: r1t => readDigits isxdigit 16 r1t ip 0
      | _ => (ip, 0, r1)
    let exp : Int :=
      match r2 with
      | c :: r2t => if tolower c = 'p' then (readExponent r2t).getD 0 else 0
      | [] => 0
    finishStrtod neg mant (16 ^ fcnt) 2 exp
  else
    let (ip, icnt, r1) := readDigits isdigit 10 r 0 0
    let (mant, fcnt, r2) : Nat × Nat × List Char :=
      match r1 with
      | '.' :: r1t => readDigits isdigit 10 r1t ip 0
      | _ => (ip, 0, r1)
    if icnt + fcnt = 0 then none
    else
      let exp : Int :=
        match r2 with
        | c :: r2t => if tolower c = 'e' then (readExponent r2t).getD 0 else 0
        | [] => 0
      finishStrtod neg mant (10 ^ fcnt) 10 exp

/-- The function `std::stoi`: `none` when it throws (`invalid_argument`: no digits after
optional blanks and sign; `out_of_range`: the value is not an `int`). -/
def stoi (str : String) : Option Int :=
  let cs := str.data.dropWhile isspace
  let (neg, r) : Bool × List Char :=
    match cs with
    | '-' :: r => (true, r)
    | '+' :: r => (false, r)
    | r => (false, r)
  match readDigits isdigit 10 r 0 0 with
  | (_, 0, _) => none
  | (v, _, _) =>
      let i : Int := if neg then -(v : Int) else v
      if -2147483648 ≤ i ∧ i ≤ 2147483647 then some i else none

/-! ## SymbolTable.h / SymbolTable.cpp -/

structure SymbolTableEntry where
  id : Int
  name : String
  dataType : String
  value : String
deriving DecidableEq, Repr

structure SymbolTable where
  nameToId : List (String × Int) := []
  entries : List SymbolTableEntry := []
  nextId : Int := 0
deriving DecidableEq, Repr

def SymbolTable.insert (t : SymbolTable) (name : String)
    (dataType : String := "unknown") (value : String := "unknown") : Int × SymbolTable :=
  match t.nameToId.lookup name with
  | none =>
      (t.nextId,
       { nameToId := t.nameToId ++ [(name, t.nextId)],
         entries := t.entries ++ [{ id := t.nextId, name := name, dataType := dataType, value := value }],
         nextId := t.nextId + 1 })
  | some id => (id, t)

/-- The two guarded assignments of `SymbolTable::updateType` on the entry found. -/
def SymbolTableEntry.refine (e : SymbolTableEntry) (type value : String) : SymbolTableEntry :=
  let e1 := if e.dataType = "unknown" then { e with dataType := type } else e
  if e1.value = "unknown" ∧ value ≠ "unknown" then { e1 with value := value } else e1

def SymbolTable.updateType (t : SymbolTable) (name : String) (type : String)
    (value : String := "unknown") : SymbolTable :=
  match t.nameToId.lookup name with
  | none => t
  | some index => { t with entries := List.modify (fun e => e.refine type value) index.toNat t.entries }

/-! ## lexer.h / lexer.cpp -/

structure Lexer where
  input : List Char
  rest : List Char
  line : Int := 1
  column : Int := 1
  symbolTable : SymbolTable := {}
  newLine : Bool := false
deriving DecidableEq, Repr

/-- A lexer as constructed by `Lexer(const std::string& input)`. -/
def Lexer.mk0 (input : List Char) : Lexer := { input := input, rest := input }

def keywords : List String :=
  ["False", "None", "True", "and", "as", "assert",
   "async", "await", "break", "class", "continue",
   "def", "del", "elif", "else", "except", "finally",
   "for", "from", "global", "if", "import", "in",
   "is", "lambda", "nonlocal", "not", "or", "pass",
   "raise", "return", "try", "while", "with", "yield"]

def Lexer.peek (lx : Lexer) (offset : Nat := 0) : Char := lx.rest.getD offset NUL

def Lexer.advance (lx : Lexer) : Char × Lexer :=
  let c := lx.peek
  let lx1 := { lx with rest := lx.rest.tail, column := lx.column + 1 }
  if c = '\n' then
    (c, { lx1 with line := lx1.line + 1, column := 1, newLine := true })
  else if lx1.newLine ∧ c ≠ ' ' ∧ c ≠ '\t' then
    (c, { lx1 with newLine := false })
  else (c, lx1)

def isKeyword (word : String) : Bool := keywords.contains word

/-- The loop `while (p(peek())) advance();`, at most `n` rounds. It is always run with
`n = rest.length`, which is never exhausted (`advanceWhile_eq`). -/
def advanceWhile (p : Char → Bool) : Nat → Lexer → Lexer
  | 0, lx => lx
  | n + 1, lx => if p lx.peek then advanceWhile p n lx.advance.2 else lx

/-- The loop `while (p(peek())) value += advance();`, at most `n` rounds. -/
def collectWhile (p : Char → Bool) : Nat → Lexer → String → String × Lexer
  | 0, lx, value => (value, lx)
  | n + 1, lx, value =>
      if p lx.peek then collectWhile p n lx.advance.2 (value.push lx.advance.1) else (value, lx)

def Lexer.skipWhitespace (lx : Lexer) : Lexer :=
  advanceWhile isInlineSpace lx.rest.length lx

def Lexer.skipComment (lx : Lexer) : Lexer :=
  if lx.peek = '#' then advanceWhile isCommentChar lx.rest.length lx else lx

def Lexer.getIdentifier (lx : Lexer) : Token × Lexer :=
  let startCol := lx.column
  let (value, lx1) := collectWhile isIdentChar lx.rest.length lx ""
  if isKeyword value then
    ({ type := .Keyword, value := value, line := lx1.line, column := startCol }, lx1)
  else
    let (id, st) := lx1.symbolTable.insert value
    ({ type := .Identifier, value := value, line := lx1.line, column := startCol, symbolId := id },
     { lx1 with symbolTable := st })

/-- The digit loop of a prefixed literal (`0x`, `0o`, `0b`): it returns the Error token of
the first invalid digit, or the digits read and whether there was one. -/
def baseDigits (base : Nat) (startCol : Int) :
    Nat → Lexer → String → Bool → (Option Token) × String × Bool × Lexer
  | 0, lx, value, has => (none, value, has, lx)
  | n + 1, lx, value, has =>
      if isalnum lx.peek then
        let c := lx.peek
        if (base = 2 ∧ (c ≠ '0' ∧ c ≠ '1')) ∨
           (base = 8 ∧ (c < '0' ∨ c > '7')) ∨
           (base = 16 ∧ ¬ isxdigit c) then
          (some { type := .Error,
                  value := "Invalid digit for base " ++ toString base ++ ": " ++ value ++ String.singleton c,
                  line := lx.line, column := startCol }, value, has, lx)
        else
          baseDigits base startCol n lx.advance.2 (value.push lx.advance.1) true
      else (none, value, has, lx)

/-- The tail of `getNumber` from the comment `// Decimal number` on. -/
def Lexer.getDecimal (lx : Lexer) (value : String) (startCol : Int) : Token × Lexer :=
  let (value1, lx1) := collectWhile isdigit lx.rest.length lx value
  let (value2, lx2) :=
    if lx1.peek = '.' then
      collectWhile isdigit lx1.advance.2.rest.length lx1.advance.2 (value1.push lx1.advance.1)
    else (value1, lx1)
  if isIdentStart lx2.peek then
    let (value3, lx3) := collectWhile isIdentChar lx2.rest.length lx2 value2
    ({ type := .Error, value := value3, line := lx3.line, column := startCol }, lx3)
  else
    ({ type := .Number, value := value2, line := lx2.line, column := startCol }, lx2)

def Lexer.getNumber (lx : Lexer) : Token × Lexer :=
  let startCol := lx.column
  if lx.peek = '0' then
    let lx1 := lx.advance.2
    let value := "".push lx.advance.1
    let next := tolower lx1.peek
    if next = 'x' ∨ next = 'o' ∨ next = 'b' then
      let lx2 := lx1.advance.2
      let value2 := value.push lx1.advance.1
      let base : Nat := if next = 'x' then 16 else if next = 'o' then 8 else 2
      match baseDigits base startCol lx2.rest.length lx2 value2 false with
      | (some err, _, _, lx3) => (err, lx3)
      | (none, value3, hasValidDigit, lx3) =>
          if ¬ hasValidDigit then
            ({ type := .Error, value := "Expected digits after prefix: " ++ value3,
               line := lx3.line, column := startCol }, lx3)
          else ({ type := .Number, value := value3, line := lx3.line, column := startCol }, lx3)
    else if isdigit lx1.peek then
      let (value2, lx2) := collectWhile isdigit lx1.rest.length lx1 value
      ({ type := .Error, value := "Invalid number with leading zero: " ++ value2,
         line := lx2.line, column := startCol }, lx2)
    else lx1.getDecimal value startCol
  else lx.getDecimal "" startCol

/-- The loop `while (true)` of `getString`, at most `n` rounds (run with `n = rest.length`,
one more than the characters it can take). -/
def stringBody (isTriple : Bool) (startCol : Int) : Nat → Lexer → String → Token × Lexer
  | 0, lx, _ => ({ type := .Error, value := "Unterminated string", line := lx.line, column := startCol }, lx)
  | n + 1, lx, value =>
      if lx.peek = NUL then
        ({ type := .Error, value := "Unterminated string", line := lx.line, column := startCol }, lx)
      else if ¬ isTriple ∧ lx.peek = '\n' then
        ({ type := .Error, value := "Unterminated string", line := lx.line, column := startCol }, lx)
      else if isTriple ∧ lx.peek = DQUOTE ∧ lx.peek 1 = DQUOTE ∧ lx.peek 2 = DQUOTE then
        let lx3 := lx.advance.2.advance.2.advance.2
        ({ type := .String, value := value, line := lx3.line, column := startCol }, lx3)
      else if ¬ isTriple ∧ lx.peek = DQUOTE then
        let lx1 := lx.advance.2
        ({ type := .String, value := value, line := lx1.line, column := startCol }, lx1)
      else stringBody isTriple startCol n lx.advance.2 (value.push lx.advance.1)

def Lexer.getString (lx : Lexer) : Token × Lexer :=
  let startCol := lx.column
  let lx1 := lx.advance.2
  if lx1.peek = DQUOTE then
    let lx2 := lx1.advance.2
    if lx2.peek = DQUOTE then
      let lx3 := lx2.advance.2
      stringBody true startCol (lx3.rest.length + 1) lx3 ""
    else
      ({ type := .String, value := "", line := lx2.line, column := startCol }, lx2)
  else stringBody false startCol (lx1.rest.length + 1) lx1 ""

def Lexer.getOperator (lx : Lexer) : Token × Lexer :=
  let startCol := lx.column
  let c := lx.advance.1
  let lx1 := lx.advance.2
  let value := "".push c
  let (value1, lx2) :=
    if (c = '=' ∨ c = '!' ∨ c = '<' ∨ c = '>') ∧ lx1.peek = '=' then
      (value.push lx1.advance.1, lx1.advance.2)
    else (value, lx1)
  if c = '.' then
    ({ type := .Operator, value := ".", line := lx2.line, column := startCol }, lx2)
  else
    ({ type := .Operator, value := value1, line := lx2.line, column := startCol }, lx2)

/-- The width counted by `getIndentLevel` from the characters at `pos` on. -/
def indentWidth : List Char → Int → Int
  | c :: cs, level =>
      if c = ' ' then indentWidth cs (level + 1)
      else if c = '\t' then indentWidth cs (level + 4)
      else level
  | [], level => level

def Lexer.getIndentLevel (lx : Lexer) : Int := indentWidth lx.rest 0

/-- Lines 16-27 of `tokenize`: the work done when `newLine` is set. -/
def Lexer.indentPhase (lx : Lexer) : List Token × Lexer :=
  if lx.newLine then
    let currentIndent := lx.getIndentLevel
    let lx1 := advanceWhile isBlank lx.rest.length lx
    let toks : List Token :=
      if currentIndent ≥ 0 then
        [{ type := .Indent, value := intToString (currentIndent / 4), line := lx1.line, column := lx1.column }]
      else []
    (toks, { lx1 with newLine := false })
  else ([], lx)

/-- One round of the loop of `tokenize`: the tokens it appends, the lexer after it, and
whether the loop was left (`break`). -/
def Lexer.scanStep (lx : Lexer) : List Token × Lexer × Bool :=
  let (ind, lx0) := lx.indentPhase
  let lx1 := lx0.skipWhitespace
  let lx2 := lx1.skipComment
  let c := lx2.peek
  let startCol := lx2.column
  if c = NUL then
    (ind ++ [{ type := .EOFToken, value := "EOF", line := lx2.line, column := lx2.column }], lx2, true)
  else if isIdentStart c then
    (ind ++ [lx2.getIdentifier.1], lx2.getIdentifier.2, false)
  else if isdigit c then
    (ind ++ [lx2.getNumber.1], lx2.getNumber.2, false)
  else if c = DQUOTE then
    (ind ++ [lx2.getString.1], lx2.getString.2, false)
  else if c = '+' ∨ c = '-' ∨ c = '*' ∨ c = '/' ∨ c = '=' ∨
          c = '<' ∨ c = '>' ∨ c = '!' ∨ c = '.' then
    (ind ++ [lx2.getOperator.1], lx2.getOperator.2, false)
  else if c = '(' ∨ c = ')' ∨ c = ':' ∨ c = ',' then
    let lx3 := lx2.advance.2
    (ind ++ [{ type := .Delimiter, value := String.singleton lx2.advance.1,
               line := lx3.line, column := startCol }], lx3, false)
  else if c = '\n' then
    (ind, { lx2.advance.2 with newLine := true }, false)
  else
    let lx3 := lx2.advance.2
    (ind ++ [{ type := .Error, value := String.singleton lx2.advance.1,
               line := lx3.line, column := startCol }], lx3, false)

/-- The loop `while (true)` of `tokenize`; `none` when `fuel` rounds did not reach the
`break`. -/
def scan : Nat → Lexer → List Token → Option (List Token × Lexer)
  | 0, _, _ => none
  | fuel + 1, lx, tokens =>
      match lx.scanStep with
      | (new, lx1, true) => some (tokens ++ new, lx1)
      | (new, lx1, false) => scan fuel lx1 (tokens ++ new)

/-! ### `detectTypes`: the three `std::regex` patterns, matched by hand -/

/-- The class `[^\n#]` of the assignment pattern. -/
def isExprChar (c : Char) : Bool := c != '\n' && c != '#'

/-- The backtracking of `\s*([^\n#]+)`: the text is `ws ++ s` with `ws` the blanks an
attempt gives to `\s*`; the longest `ws` wins for which an expression character
follows. The result is the expression and what is left after it. -/
def matchExprPart : List Char → Option (List Char × List Char)
  | [] => none
  | c :: cs =>
      if isspace c then
        match matchExprPart cs with
        | some r => some r
        | none =>
            if isExprChar c then some ((c :: cs).takeWhile isExprChar, (c :: cs).dropWhile isExprChar)
            else none
      else if isExprChar c then
        some ((c :: cs).takeWhile isExprChar, (c :: cs).dropWhile isExprChar)
      else none

/-- A match of `([a-zA-Z_][a-zA-Z0-9_]*)\s*=\s*([^\n#]+)` at the head of the text: the
name, the expression, and the text after the match. -/
def matchAssignAt (s : List Char) : Option (List Char × List Char × List Char) :=
  match s with
  | [] => none
  | c :: _ =>
      if isIdentStart c then
        match (s.dropWhile isIdentChar).dropWhile isspace with
        | '=' :: r =>
            match matchExprPart r with
            | some (expr, after) => some (s.takeWhile isIdentChar, expr, after)
            | none => none
        | _ => none
      else none

/-- The call `regex_search` with the assignment pattern: the leftmost match. -/
def searchAssign : List Char → Option (List Char × List Char × List Char)
  | [] => none
  | c :: cs =>
      match matchAssignAt (c :: cs) with
      | some r => some r
      | none => searchAssign cs

/-- A full match of `\".*\"|\'.*\'`. -/
def isQuoted (s : List Char) : Bool :=
  let q := fun (d : Char) =>
    s.length ≥ 2 && s.head? == some d && s.getLast? == some d &&
      (s.drop 1).dropLast.all (fun c => c != '\n' && c != '\r')
  q DQUOTE || q (Char.ofNat 39)

/-- A full match of `[0-9]+\.[0-9]+`. -/
def isFloatText (s : List Char) : Bool :=
  let ip := s.takeWhile isdigit
  match s.dropWhile isdigit with
  | '.' :: fp => !ip.isEmpty && !fp.isEmpty && fp.all isdigit
  | _ => false

/-- The body of the first loop of `detectTypes` for one match. -/
def seedAssign (t : SymbolTable) (var expr : List Char) : SymbolTable :=
  let cleanedExpr := expr.filter (fun c => !isspace c)
  if !cleanedExpr.isEmpty && cleanedExpr.all isdigit then
    t.updateType (String.mk var) "int" (String.mk cleanedExpr)
  else if isFloatText cleanedExpr then
    t.updateType (String.mk var) "float" (String.mk cleanedExpr)
  else if isQuoted cleanedExpr then
    t.updateType (String.mk var) "string" (String.mk cleanedExpr)
  else if cleanedExpr = "True".data ∨ cleanedExpr = "False".data then
    t.updateType (String.mk var) "bool" (String.mk cleanedExpr)
  else t.updateType (String.mk var) "unknown"

/-- The first loop of `detectTypes`; every match is at least two characters long, so
`text.length` rounds are never exhausted. -/
def assignLoop : Nat → List Char → SymbolTable → SymbolTable
  | 0, _, t => t
  | n + 1, text, t =>
      match searchAssign text with
      | none => t
      | some (var, expr, after) => assignLoop n after (seedAssign t var expr)

/-- A match of `([a-zA-Z_][a-zA-Z0-9_]*)\s*\(` at the head of the text (the `\b` in front
of it is checked by the search): the name and the text after the match. -/
def matchCallAt (s : List Char) : Option (List Char × List Char) :=
  match s with
  | [] => none
  | c :: _ =>
      if isIdentStart c then
        match (s.dropWhile isIdentChar).dropWhile isspace with
        | '(' :: r => some (s.takeWhile isIdentChar, r)
        | _ => none
      else none

/-- The call `regex_search` with the call pattern; `prevWord` tells whether the character
before the text is a word character (never at the start of a search). -/
def searchCall : List Char → Bool → Option (List Char × List Char)
  | [], _ => none
  | c :: cs, prevWord =>
      match (if prevWord then none else matchCallAt (c :: cs)) with
      | some r => some r
      | none => searchCall cs (isIdentChar c)

/-- The second loop of `detectTypes`. -/
def callLoop : Nat → List Char → SymbolTable → SymbolTable
  | 0, _, t => t
  | n + 1, text, t =>
      match searchCall text false with
      | none => t
      | some (funcName, after) => callLoop n after (t.updateType (String.mk funcName) "function")

def Lexer.detectTypes (lx : Lexer) : Lexer :=
  { lx with symbolTable :=
      callLoop lx.input.length lx.input (assignLoop lx.input.length lx.input lx.symbolTable) }

/-- The method `tokenize`: the tokens and the lexer after the call; `none` if the loop
did not reach its `break` within `rest.length + 1` rounds (it always does,
`tokenize_returns`). -/
def Lexer.tokenize (lx : Lexer) : Option (List Token × Lexer) :=
  match scan (lx.rest.length + 1) { lx with newLine := true } [] with
  | none => none
  | some (tokens, lx1) => some (tokens, lx1.detectTypes)

/-! ## ParserSymbolTable.h -/

structure ParserSymbolTableEntry where
  id : Int
  name : String
  dataType : String
  value : String
  role : String
  scope : String
deriving DecidableEq, Repr

/-- The table of the parser. `scopes` and `scopeNames` are the two parallel vectors of the
source, innermost frame first; an `unordered_map` is an association list. -/
structure ParserSymbolTable where
  nameToIds : List (String × List Int) := []
  entries : List ParserSymbolTableEntry := []
  scopes : List (List (String × Int)) := [[]]
  scopeNames : List String := ["global"]
  nextId : Int := 0
deriving DecidableEq, Repr

namespace ParserSymbolTable

def beginScope (t : ParserSymbolTable) (scopeName : String := "") : ParserSymbolTable :=
  { t with scopes := [] :: t.scopes, scopeNames := scopeName :: t.scopeNames }

def endScope (t : ParserSymbolTable) : ParserSymbolTable :=
  if t.scopes.length > 1 then
    { t with scopes := t.scopes.tail, scopeNames := t.scopeNames.tail }
  else t

def getCurrentScope (t : ParserSymbolTable) : String :=
  match t.scopeNames with
  | [] => "global"
  | n :: _ => n

/-- The assignment `m[name].push_back(id)` / `m[name] = vector{id}` on `nameToIds`. -/
def noteId (m : List (String × List Int)) (name : String) (id : Int) : List (String × List Int) :=
  match m.lookup name with
  | none => m ++ [(name, [id])]
  | some _ => m.map (fun kv => if kv.1 = name then (kv.1, kv.2 ++ [id]) else kv)

/-- The refinement `declare` makes of the entry of a name already bound in the current
frame. -/
def refineEntry (e : ParserSymbolTableEntry) (type role value : String) : ParserSymbolTableEntry :=
  let e1 := if e.dataType = "unknown" then { e with dataType := type } else e
  let e2 := { e1 with role := role }
  if value ≠ "unknown" then { e2 with value := value } else e2

def declare (t0 : ParserSymbolTable) (name type role : String) (value : String := "unknown") :
    ParserSymbolTable :=
  let t : ParserSymbolTable :=
    if t0.scopes.isEmpty then
      { t0 with scopes := [[]], scopeNames := "global" :: t0.scopeNames }
    else t0
  let currentScope := t.scopes.headD []
  let currentScopeName := t.scopeNames.headD ""
  match currentScope.lookup name with
  | some id =>
      { t with entries := List.modify (fun e => refineEntry e type role value) id.toNat t.entries }
  | none =>
      let id := t.nextId
      { t with
          nextId := t.nextId + 1
          entries := t.entries ++
            [{ id := id, name := name, dataType := type, value := value, role := role,
               scope := currentScopeName }]
          nameToIds := noteId t.nameToIds name id
          scopes := (currentScope ++ [(name, id)]) :: t.scopes.tail }

/-- The walk `for (i = scopes.size() - 1; i >= 0; --i)` of `lookup`, `updateValue` and
`updateType`: the id bound to `name` in the innermost frame that has it. -/
def findId (name : String) : List (List (String × Int)) → Option Int
  | [] => none
  | scope :: outer =>
      match scope.lookup name with
      | some id => some id
      | none => findId name outer

def updateValue (t : ParserSymbolTable) (name value : String) : ParserSymbolTable :=
  match findId name t.scopes with
  | some id => { t with entries := List.modify (fun e => { e with value := value }) id.toNat t.entries }
  | none => t

def updateType (t : ParserSymbolTable) (name type : String) : ParserSymbolTable :=
  match findId name t.scopes with
  | some id => { t with entries := List.modify (fun e => { e with dataType := type }) id.toNat t.entries }
  | none => t

def lookup (t : ParserSymbolTable) (name : String) : Int :=
  match findId name t.scopes with
  | some id => id
  | none => -1

/-- The walk of `lookupEntry`, which goes on to the outer frames when the id found is not
an index of `entries`. -/
def lookupEntryIn (entries : List ParserSymbolTableEntry) (name : String) :
    List (List (String × Int)) → Option ParserSymbolTableEntry
  | [] => none
  | scope :: outer =>
      match scope.lookup name with
      | some id =>
          if id ≥ 0 ∧ id < entries.length then
            match entries.get? id.toNat with
            | some e => some e
            | none => lookupEntryIn entries name outer
          else lookupEntryIn entries name outer
      | none => lookupEntryIn entries name outer

def lookupEntry (t : ParserSymbolTable) (name : String) : Option ParserSymbolTableEntry :=
  lookupEntryIn t.entries name t.scopes

end ParserSymbolTable

/-! ## AST_Node.h: nodes -/

/-- The class of a node, with the data members its class adds (`NumberNode::value`,
`NumberNode::type`, `FunctionDefNode::paramNames`). -/
inductive NodeKind
  | Program | BinaryOp | UnaryOp
  | Number (value : Dbl) (type : String)
  | String | Identifier | Assign | Elif | If | For | While
  | FunctionDef (paramNames : List String)
  | Return | Block | Call | Boolean
deriving DecidableEq, Repr

/-- A `unique_ptr<ASTNode>`: `null`, or a node with its token and its children. -/
inductive ASTNode
  | null
  | node (kind : NodeKind) (token : Token) (children : List ASTNode)
deriving Repr

namespace ASTNode

def isNull : ASTNode → Bool
  | null => true
  | node _ _ _ => false

def children? : ASTNode → List ASTNode
  | null => []
  | node _ _ cs => cs

/-- The class of the node a pointer holds. -/
def kind? : ASTNode → Option NodeKind
  | null => none
  | node k _ _ => some k

/-- The method `getToken`. -/
def token? : ASTNode → Option Token
  | null => none
  | node _ t _ => some t

def getNodeType : ASTNode → String
  | null => ""
  | node k token _ =>
      match k with
      | .Program => "Program"
      | .BinaryOp => "BinaryOp"
      | .UnaryOp => "UnaryOp"
      | .Number _ _ => "Number"
      | .String => "String"
      | .Identifier => "Identifier"
      | .Assign => "Assign"
      | .Elif => "Elif"
      | .If => "If"
      | .For => "For"
      | .While => "While"
      | .FunctionDef _ => "FunctionDef"
      | .Return => "Return"
      | .Block => if token.value = "else" then "Else" else "Block"
      | .Call => "Call"
      | .Boolean => "Boolean"

end ASTNode

def ProgramNode (children : List ASTNode) : ASTNode :=
  .node .Program { type := .EOFToken, value := "Program", line := 1, column := 1 } children

def BinaryOpNode (op : Token) (left right : ASTNode) : ASTNode := .node .BinaryOp op [left, right]

def UnaryOpNode (op : Token) (operand : ASTNode) : ASTNode := .node .UnaryOp op [operand]

/-- The constructor of `NumberNode`; `none` when `std::stod` throws. -/
def NumberNode (numToken : Token) : Option ASTNode :=
  match stod numToken.value with
  | none => none
  | some v =>
      some (.node (.Number v (if numToken.value.data.contains '.' then "float" else "int")) numToken [])

def StringNode (strToken : Token) : ASTNode := .node .String strToken []
def IdentifierNode (idToken : Token) : ASTNode := .node .Identifier idToken []
def BooleanNode (boolToken : Token) : ASTNode := .node .Boolean boolToken []
def BlockNode (blockToken : Token) (children : List ASTNode := []) : ASTNode :=
  .node .Block blockToken children

def AssignNode (assignToken : Token) (target value : ASTNode) : ASTNode :=
  .node .Assign assignToken [target, value]

def ElifNode (token : Token) (condition thenBranch : ASTNode) : ASTNode :=
  .node .Elif token [condition, thenBranch]

def IfNode (token : Token) (condition thenBranch elseBranch : ASTNode)
    (elifBranches : List ASTNode) : ASTNode :=
  .node .If token
    ([condition, thenBranch] ++ elifBranches ++ (if elseBranch.isNull then [] else [elseBranch]))

def ForNode (forToken : Token) (var iterable body : ASTNode) : ASTNode :=
  .node .For forToken [var, iterable, body]

def WhileNode (whileToken : Token) (condition body : ASTNode) : ASTNode :=
  .node .While whileToken [condition, body]

def FunctionDefNode (defToken : Token) (name : String) (params : List String) (body : ASTNode) :
    ASTNode :=
  .node (.FunctionDef params) defToken
    [IdentifierNode { type := .Identifier, value := name, line := defToken.line, column := defToken.column },
     body]

def ReturnNode (returnToken : Token) (value : ASTNode) : ASTNode :=
  .node .Return returnToken (if value.isNull then [] else [value])

def CallNode (callToken : Token) (func : ASTNode) (args : List ASTNode) : ASTNode :=
  .node .Call callToken (func :: args)

namespace ASTNode

def getLeft : ASTNode → ASTNode
  | node .BinaryOp _ (l :: _) => l
  | _ => null

def getRight : ASTNode → ASTNode
  | node .BinaryOp _ (_ :: r :: _) => r
  | _ => null

def getOperand : ASTNode → ASTNode
  | node .UnaryOp _ (o :: _) => o
  | _ => null

/-- The method `IfNode::getElseBranch`. -/
def getElseBranch (n : ASTNode) : ASTNode :=
  let cs := n.children?
  let idx := cs.length - 1
  if cs.length > 2 ∧ (cs.getD idx null).getNodeType = "Else" then cs.getD idx null else null

end ASTNode

/-! ## parser.h / parser.cpp -/

structure ParseError where
  line : Int
  col : Int
  message : String
deriving DecidableEq, Repr

/-- How a run can fail to return: an exception nobody catches, an operation whose
behaviour is undefined, a loop that never ends, or the step budget of the embedding. -/
inductive Fault
  | exception | undefined | diverges | outOfFuel
deriving DecidableEq, Repr

structure Parser where
  rest : List Token
  currentToken : Token
  errors : List ParseError := []
  indentStack : List Int := []
  symbolTable : ParserSymbolTable
deriving Repr

abbrev Res (α : Type) := Except Fault (α × Parser)

namespace Parser

def advance (p : Parser) : Parser :=
  match p.rest with
  | [] => p
  | t :: r => { p with currentToken := t, rest := r }

/-- The constructor `Parser(tokens, symTab)`. The member `currentToken` starts as the
token below; the source leaves it indeterminate when `tokens` is empty. -/
def new (tokens : List Token) (symTab : ParserSymbolTable) : Parser :=
  advance { rest := tokens, currentToken := { type := .Keyword, value := "", line := 0, column := 0 },
            indentStack := [0], symbolTable := symTab }

def peekNextToken (p : Parser) : Token :=
  match p.rest with
  | t :: _ => t
  | [] => { type := .EOFToken, value := "EOF", line := 0, column := 0 }

def errorAt (p : Parser) (line col : Int) (msg : String) : Parser :=
  { p with errors := p.errors ++ [{ line := line, col := col, message := msg }] }

/-- The statement `errors.emplace_back(currentToken.line, currentToken.column, msg)`. -/
def errorHere (p : Parser) (msg : String) : Parser :=
  p.errorAt p.currentToken.line p.currentToken.column msg

def isTok (p : Parser) (type : TokenType) (value : String := "") : Bool :=
  p.currentToken.type = type ∧ (value.isEmpty ∨ p.currentToken.value = value)

/-- The method `match`. -/
def accept (p : Parser) (type : TokenType) (value : String := "") : Bool × Parser :=
  if p.isTok type value then (true, p.advance) else (false, p)

def syncKeywords : List String := ["def", "if", "while", "return"]

/-- Whether the loop of `synchronize` stops at this token. -/
def syncStop (t : Token) : Bool :=
  !(t.type ≠ .EOFToken ∧ t.type ≠ .Indent ∧ (t.type ≠ .Keyword ∨ ¬ syncKeywords.contains t.value))

/-- The loop of `synchronize` on `currentToken` and the tokens after it. At the last
token `advance` changes nothing, so the loop never ends if it does not stop there. -/
def syncLoop : List Token → Token → Except Fault (Token × List Token)
  | [], cur => if syncStop cur then .ok (cur, []) else .error .diverges
  | t :: r, cur => if syncStop cur then .ok (cur, t :: r) else syncLoop r t

def synchronize (p : Parser) : Except Fault Parser :=
  match syncLoop p.rest p.currentToken with
  | .ok (cur, rest) => .ok { p with currentToken := cur, rest := rest }
  | .error f => .error f

def expect (p : Parser) (type : TokenType) (errorMsg : String) (value : String := "") :
    Except Fault Parser :=
  if (p.accept type value).1 then .ok (p.accept type value).2
  else (p.errorHere errorMsg).synchronize

/-- The method `expectIndent` on `currentToken`, the tokens after it and the errors so
far. At the last token `advance` changes nothing, so an IndentMarker there is checked
again and again. -/
def expectIndentLoop : List Token → Token → Int → List ParseError →
    Except Fault (Token × List Token × List ParseError)
  | rest, cur, expectedLevel, errs =>
      if cur.type ≠ .Indent then
        .ok (cur, rest, errs ++ [{ line := cur.line, col := cur.column,
                                   message := "Expected indentation at start of block" }])
      else
        match stoi cur.value with
        | none => .error .exception
        | some actualLevel =>
            let errs1 :=
              if actualLevel ≠ expectedLevel then
                errs ++ [{ line := cur.line, col := cur.column, message := "Incorrect indentation level" }]
              else errs
            match rest with
            | [] => .error .diverges
            | t :: r =>
                if t.type = .Indent then expectIndentLoop r t actualLevel errs1
                else .ok (t, r, errs1)

def expectIndent (p : Parser) (expectedLevel : Int) : Except Fault Parser :=
  match expectIndentLoop p.rest p.currentToken expectedLevel p.errors with
  | .ok (cur, rest, errs) => .ok { p with currentToken := cur, rest := rest, errors := errs }
  | .error f => .error f

/-- The top of the indent stack: `indentStack.empty() ? 0 : indentStack.back()`. -/
def currentIndent (p : Parser) : Int := p.indentStack.headD 0

def pushIndent (p : Parser) (level : Int) : Parser := { p with indentStack := level :: p.indentStack }

/-- The call `indentStack.pop_back()`, undefined on an empty vector. -/
def popIndent (p : Parser) : Except Fault Parser :=
  match p.indentStack with
  | [] => .error .undefined
  | _ :: s => .ok { p with indentStack := s }

def withTable (p : Parser) (t : ParserSymbolTable) : Parser := { p with symbolTable := t }

/-! ### Folding and type inference -/

def getValueFromNode (p : Parser) : ASTNode → String
  | .null => "unknown"
  | .node k token _ =>
      match k with
      | .Number v _ => doubleToString v
      | .String => token.value
      | .Boolean => token.value
      | .Identifier => token.value
      | .Call =>
          match p.symbolTable.lookupEntry token.value with
          | some e => if e.role = "function" then e.value else "unknown"
          | none => "unknown"
      | _ => "unknown"

def getTypeFromNode (p : Parser) : ASTNode → String
  | .null => "unknown"
  | .node k token _ =>
      match k with
      | .Number _ t => t
      | .String => "string"
      | .Boolean => "boolean"
      | .Identifier =>
          match p.symbolTable.lookupEntry token.value with
          | some e => e.dataType
          | none => "unknown"
      | .Call =>
          match p.symbolTable.lookupEntry token.value with
          | some e => if e.role = "function" then e.dataType else "unknown"
          | none => "unknown"
      | _ => "unknown"

def boolText (b : Bool) : String := if b then "True" else "False"

/-- The `try` block of the binary case of `evaluateExpression` once both operands are
converted: `none` when no operator matches, a fault when `%` is undefined. -/
def foldBinary (op : String) (leftNum rightNum : Dbl) : Except Fault (Option String) :=
  if op = "+" then .ok (some (doubleToString (leftNum.add rightNum)))
  else if op = "-" then .ok (some (doubleToString (leftNum.sub rightNum)))
  else if op = "*" then .ok (some (doubleToString (leftNum.mul rightNum)))
  else if op = "/" then
    if rightNum.isZero then .ok (some "DivisionByZeroError")
    else .ok (some (doubleToString (leftNum.div rightNum)))
  else if op = "%" then
    match leftNum.toInt, rightNum.toInt with
    | some a, some b =>
        if b = 0 ∨ (a = -2147483648 ∧ b = -1) then .error .undefined
        else .ok (some (intToString (Int.tmod a b)))
    | _, _ => .error .undefined
  else if op = "==" then .ok (some (boolText (leftNum.eq rightNum)))
  else if op = "!=" then .ok (some (boolText (leftNum.ne rightNum)))
  else if op = "<" then .ok (some (boolText (leftNum.lt rightNum)))
  else if op = ">" then .ok (some (boolText (leftNum.gt rightNum)))
  else if op = "<=" then .ok (some (boolText (leftNum.le rightNum)))
  else if op = ">=" then .ok (some (boolText (leftNum.ge rightNum)))
  else .ok none

def isTrueText (s : String) : Bool := s = "True" ∨ s = "1"

/-- The binary case of `evaluateExpression` after both operands are folded. -/
def evaluateBinary (p : Parser) (node : ASTNode) (op left right : String) : Except Fault String :=
  if op = "and" then .ok (boolText (isTrueText left && isTrueText right))
  else if op = "or" then .ok (boolText (isTrueText left || isTrueText right))
  else
    match stod left with
    | none => .ok (left ++ " " ++ op ++ " " ++ right)
    | some leftNum =>
      match stod right with
      | none => .ok (left ++ " " ++ op ++ " " ++ right)
      | some rightNum =>
        match foldBinary op leftNum rightNum with
        | .error f => .error f
        | .ok (some s) => .ok s
        | .ok none => .ok (getValueFromNode p node)

/-- The unary case of `evaluateExpression` after the operand is folded. -/
def evaluateUnary (p : Parser) (node : ASTNode) (op operand : String) : Except Fault String :=
  if op = "not" then .ok (boolText (!(isTrueText operand)))
  else
    match stod operand with
    | none => .ok (op ++ " " ++ operand)
    | some num =>
        if op = "-" then .ok (doubleToString num.neg)
        else if op = "+" then .ok operand
        else .ok (getValueFromNode p node)

def evaluateExpression (p : Parser) : ASTNode → Except Fault String
  | .null => .ok "unknown"
  | .node .BinaryOp token (l :: r :: cs) =>
      match evaluateExpression p l with
      | .error f => .error f
      | .ok left =>
        match evaluateExpression p r with
        | .error f => .error f
        | .ok right => evaluateBinary p (.node .BinaryOp token (l :: r :: cs)) token.value left right
  | .node .BinaryOp token [l] =>
      match evaluateExpression p l with
      | .error f => .error f
      | .ok left => evaluateBinary p (.node .BinaryOp token [l]) token.value left "unknown"
  | .node .BinaryOp token [] =>
      evaluateBinary p (.node .BinaryOp token []) token.value "unknown" "unknown"
  | .node .UnaryOp token (o :: cs) =>
      match evaluateExpression p o with
      | .error f => .error f
      | .ok operand => evaluateUnary p (.node .UnaryOp token (o :: cs)) token.value operand
  | .node .UnaryOp token [] => evaluateUnary p (.node .UnaryOp token []) token.value "unknown"
  | .node .Identifier token _ =>
      match p.symbolTable.lookupEntry token.value with
      | some e =>
          if e.value = "true" then .ok "True"
          else if e.value = "false" then .ok "False"
          else .ok e.value
      | none => .ok token.value
  | .node .Boolean token _ => .ok token.value
  | .node k token cs => .ok (getValueFromNode p (.node k token cs))

end Parser

namespace Parser

/-! ### Expressions

Every parsing function takes a step budget first: one unit is spent at each call, and
`Fault.outOfFuel` is returned when none is left. -/

mutual

def parseExpr : Nat → Parser → Res ASTNode
  | 0, _ => .error .outOfFuel
  | fuel + 1, p =>
      if p.currentToken.type = .EOFToken then
        .ok (.null, p.errorHere "Unexpected end of file while parsing expression")
      else parseLogicalOr fuel p

def parseLogicalOr : Nat → Parser → Res ASTNode
  | 0, _ => .error .outOfFuel
  | fuel + 1, p =>
      match parseLogicalAnd fuel p with
      | .error f => .error f
      | .ok (node, p1) =>
          if node.isNull then .ok (.null, p1)
          else orLoop fuel p1.currentToken node p1

/-- The loop `while (match(Keyword, "or"))` of `parseLogicalOr`. -/
def orLoop : Nat → Token → ASTNode → Parser → Res ASTNode
  | 0, _, _, _ => .error .outOfFuel
  | fuel + 1, op, node, p =>
      if (p.accept .Keyword "or").1 then
        match parseLogicalAnd fuel (p.accept .Keyword "or").2 with
        | .error f => .error f
        | .ok (right, p1) =>
            if right.isNull then
              .ok (node, p1.errorHere "Expected right-hand expression after \'or\'")
            else orLoop fuel op (BinaryOpNode op node right) p1
      else .ok (node, p)

def parseLogicalAnd : Nat → Parser → Res ASTNode
  | 0, _ => .error .outOfFuel
  | fuel + 1, p =>
      match parseEquality fuel p with
      | .error f => .error f
      | .ok (node, p1) =>
          if node.isNull then .ok (.null, p1)
          else andLoop fuel p1.currentToken node p1

/-- The loop `while (match(Keyword, "and"))` of `parseLogicalAnd`. -/
def andLoop : Nat → Token → ASTNode → Parser → Res ASTNode
  | 0, _, _, _ => .error .outOfFuel
  | fuel + 1, op, node, p =>
      if (p.accept .Keyword "and").1 then
        match parseEquality fuel (p.accept .Keyword "and").2 with
        | .error f => .error f
        | .ok (right, p1) =>
            if right.isNull then
              .ok (node, p1.errorHere "Expected right-hand expression after \'and\'")
            else andLoop fuel op (BinaryOpNode op node right) p1
      else .ok (node, p)

def parseEquality : Nat → Parser → Res ASTNode
  | 0, _ => .error .outOfFuel
  | fuel + 1, p =>
      match parseRelational fuel p with
      | .error f => .error f
      | .ok (node, p1) =>
          if node.isNull then .ok (.null, p1)
          else equalityLoop fuel node p1

/-- The loop `while (true)` of `parseEquality`. -/
def equalityLoop : Nat → ASTNode → Parser → Res ASTNode
  | 0, _, _ => .error .outOfFuel
  | fuel + 1, node, p =>
      let op := p.currentToken
      if p.isTok .Operator "==" || p.isTok .Operator "!=" then
        match parseRelational fuel p.advance with
        | .error f => .error f
        | .ok (right, p1) =>
            if right.isNull then
              .ok (.null, p1.errorHere "Expected right-hand expression after operator")
            else equalityLoop fuel (BinaryOpNode op node right) p1
      else .ok (node, p)

def parseRelational : Nat → Parser → Res ASTNode
  | 0, _ => .error .outOfFuel
  | fuel + 1, p =>
      match parseTerm fuel p with
      | .error f => .error f
      | .ok (node, p1) =>
          if node.isNull then .ok (.null, p1)
          else relationalLoop fuel node p1

/-- The loop `while (true)` of `parseRelational`. -/
def relationalLoop : Nat → ASTNode → Parser → Res ASTNode
  | 0, _, _ => .error .outOfFuel
  | fuel + 1, node, p =>
      let op := p.currentToken
      if p.isTok .Operator "<" || p.isTok .Operator ">" ||
         p.isTok .Operator "<=" || p.isTok .Operator ">=" then
        match parseTerm fuel p.advance with
        | .error f => .error f
        | .ok (right, p1) =>
            if right.isNull then
              .ok (.null, p1.errorHere "Expected right-hand expression after comparison")
            else relationalLoop fuel (BinaryOpNode op node right) p1
      else .ok (node, p)

def parseTerm : Nat → Parser → Res ASTNode
  | 0, _ => .error .outOfFuel
  | fuel + 1, p =>
      match parseFactor fuel p with
      | .error f => .error f
      | .ok (node, p1) =>
          if node.isNull then .ok (.null, p1)
          else termLoop fuel node p1

/-- The loop `while (true)` of `parseTerm`. -/
def termLoop : Nat → ASTNode → Parser → Res ASTNode
  | 0, _, _ => .error .outOfFuel
  | fuel + 1, node, p =>
      let op := p.currentToken
      if p.isTok .Operator "+" || p.isTok .Operator "-" then
        match parseFactor fuel p.advance with
        | .error f => .error f
        | .ok (right, p1) =>
            if right.isNull then
              .ok (.null, p1.errorHere "Expected right-hand expression after operator")
            else termLoop fuel (BinaryOpNode op node right) p1
      else .ok (node, p)

def parseFactor : Nat → Parser → Res ASTNode
  | 0, _ => .error .outOfFuel
  | fuel + 1, p =>
      match parseUnary fuel p with
      | .error f => .error f
      | .ok (node, p1) =>
          if node.isNull then .ok (.null, p1)
          else factorLoop fuel node p1

/-- The loop `while (true)` of `parseFactor`. -/
def factorLoop : Nat → ASTNode → Parser → Res ASTNode
  | 0, _, _ => .error .outOfFuel
  | fuel + 1, node, p =>
      let op := p.currentToken
      if p.isTok .Operator "*" || p.isTok .Operator "/" || p.isTok .Operator "%" then
        match parseUnary fuel p.advance with
        | .error f => .error f
        | .ok (right, p1) =>
            if right.isNull then
              .ok (.null, p1.errorHere "Expected right-hand expression after operator")
            else factorLoop fuel (BinaryOpNode op node right) p1
      else .ok (node, p)

def parseUnary : Nat → Parser → Res ASTNode
  | 0, _ => .error .outOfFuel
  | fuel + 1, p =>
      let op := p.currentToken
      if p.isTok .Operator "-" || p.isTok .Keyword "not" then
        match parseUnary fuel p.advance with
        | .error f => .error f
        | .ok (right, p1) =>
            if right.isNull then
              .ok (.null, p1.errorHere "Expected expression after unary operator")
            else .ok (UnaryOpNode op right, p1)
      else parsePrimary fuel p

def parsePrimary : Nat → Parser → Res ASTNode
  | 0, _ => .error .outOfFuel
  | fuel + 1, p =>
      if p.currentToken.type = .Number then
        let numToken := p.currentToken
        match NumberNode numToken with
        | some n => .ok (n, p.advance)
        | none => .ok (.null, p.advance.errorAt numToken.line numToken.column "Invalid number format")
      else if p.currentToken.type = .String then
        .ok (StringNode p.currentToken, p.advance)
      else if p.currentToken.type = .Keyword ∧
          (p.currentToken.value = "True" ∨ p.currentToken.value = "False") then
        .ok (BooleanNode p.currentToken, p.advance)
      else if p.currentToken.type = .Identifier then
        if p.peekNextToken.value = "(" then parseFuncCall fuel p
        else .ok (IdentifierNode p.currentToken, p.advance)
      else if (p.accept .Delimiter "(").1 then
        match parseExpr fuel (p.accept .Delimiter "(").2 with
        | .error f => .error f
        | .ok (expr, p1) =>
            match p1.expect .Delimiter "Expected \')\' after expression" ")" with
            | .error f => .error f
            | .ok p2 => .ok (expr, p2)
      else .ok (.null, (p.errorHere "Unexpected token in expression").advance)

/-- The loop `do ... while (match(Delimiter, ","))` that reads the arguments of a call, in
`parseFuncCall` and in `parseFuncCallStmt`. -/
def parseArgs : Nat → List ASTNode → Parser → Res (List ASTNode)
  | 0, _, _ => .error .outOfFuel
  | fuel + 1, args, p =>
      match parseExpr fuel p with
      | .error f => .error f
      | .ok (arg, p1) =>
          if arg.isNull then
            .ok (args, p1.errorHere "Expected expression in function arguments")
          else if (p1.accept .Delimiter ",").1 then
            parseArgs fuel (args ++ [arg]) (p1.accept .Delimiter ",").2
          else .ok (args ++ [arg], p1)

def parseFuncCall : Nat → Parser → Res ASTNode
  | 0, _ => .error .outOfFuel
  | fuel + 1, p =>
      let funcNameToken := p.currentToken
      match p.expect .Identifier "Expected function name" with
      | .error f => .error f
      | .ok p1 =>
          if ¬ (p1.accept .Delimiter "(").1 then
            .ok (.null, p1.errorHere "Expected \'(\' after function name")
          else
            let p2 := (p1.accept .Delimiter "(").2
            if (p2.accept .Delimiter ")").1 then
              .ok (CallNode funcNameToken (IdentifierNode funcNameToken) [], (p2.accept .Delimiter ")").2)
            else
              match parseArgs fuel [] p2 with
              | .error f => .error f
              | .ok (args, p3) =>
                  if ¬ (p3.accept .Delimiter ")").1 then
                    .ok (.null, p3.errorHere "Expected \')\' after function arguments")
                  else
                    .ok (CallNode funcNameToken (IdentifierNode funcNameToken) args,
                         (p3.accept .Delimiter ")").2)

end

end Parser

namespace Parser

/-! ### Statements -/

def isValidStatementStart (p : Parser) : Bool :=
  p.peekNextToken.value = "=" || p.peekNextToken.value = "("

def parseAssignStmt (fuel : Nat) (p : Parser) : Res ASTNode :=
  let idToken := p.currentToken
  match p.expect .Identifier "Expected identifier for assignment" with
  | .error f => .error f
  | .ok p1 =>
    match (if p1.currentToken.type = .Operator ∧ p1.currentToken.value = "=" then
             p1.expect .Operator "Expected '=' in assignment" "="
           else p1.expect .Assignment "Expected '=' in assignment" "=") with
    | .error f => .error f
    | .ok p2 =>
      match parseExpr fuel p2 with
      | .error f => .error f
      | .ok (expr, p3) =>
        if expr.isNull then .ok (.null, p3.errorHere "Expected expression after '='")
        else
          match p3.evaluateExpression expr with
          | .error f => .error f
          | .ok value =>
              let type := p3.getTypeFromNode expr
              let type1 := if type = "unknown" then "expr" else type
              .ok (AssignNode idToken (IdentifierNode idToken) expr,
                   p3.withTable (p3.symbolTable.declare idToken.value type1 "variable" value))

/-- The position `s.find(pat)` of the first occurrence of `pat` in `s`. -/
def findSub (pat : List Char) : List Char → Nat → Option Nat
  | [], i => if pat = [] then some i else none
  | c :: cs, i => if pat.isPrefixOf (c :: cs) then some i else findSub pat cs (i + 1)

/-- The lines of `parseReturnStmt` after `// Extract function name from current scope`:
the entry of the function whose scope is the current one takes the type and the value
of the returned expression. -/
def recordReturn (p : Parser) (returnType returnValue : String) : Parser :=
  let currentScope := p.symbolTable.getCurrentScope
  match findSub " (function)".data currentScope.data 0 with
  | some funcSuffixPos =>
      let functionName := String.mk (currentScope.data.take funcSuffixPos)
      match p.symbolTable.lookupEntry functionName with
      | some entry =>
          if entry.role = "function" then
            p.withTable ((p.symbolTable.updateType functionName returnType).updateValue
              functionName returnValue)
          else p
      | none => p
  | none => p

def parseReturnStmt (fuel : Nat) (p : Parser) : Res ASTNode :=
  let returnToken := p.currentToken
  match p.expect .Keyword "Expected 'return' keyword" "return" with
  | .error f => .error f
  | .ok p1 =>
    match parseExpr fuel p1 with
    | .error f => .error f
    | .ok (expr, p2) =>
        let returnValue := if expr.isNull then "void" else p2.getValueFromNode expr
        let returnType := if expr.isNull then "void" else p2.getTypeFromNode expr
        .ok (ReturnNode returnToken expr, p2.recordReturn returnType returnValue)

def parseFuncCallStmt (fuel : Nat) (p : Parser) : Res ASTNode :=
  let funcNameToken := p.currentToken
  match p.expect .Identifier "Expected identifier for function call" with
  | .error f => .error f
  | .ok p1 =>
    match p1.expect .Delimiter "Expected '(' in function call" "(" with
    | .error f => .error f
    | .ok p2 =>
      match (if (p2.accept .Delimiter ")").1 then
               (.ok ([], (p2.accept .Delimiter ")").2) : Res (List ASTNode))
             else
               match parseArgs fuel [] p2 with
               | .error f => .error f
               | .ok (args, p3) =>
                   match p3.expect .Delimiter "Expected ')' after arguments" ")" with
                   | .error f => .error f
                   | .ok p4 => .ok (args, p4)) with
      | .error f => .error f
      | .ok (args, p5) =>
          let declared : Bool :=
            match p5.symbolTable.lookupEntry funcNameToken.value with
            | some funcEntry => funcEntry.role = "function"
            | none => false
          let p6 :=
            if declared then p5
            else p5.withTable (p5.symbolTable.declare funcNameToken.value "unknown" "function" "unknown")
          .ok (CallNode funcNameToken (IdentifierNode funcNameToken) args, p6)

/-- The loop `while (match(Delimiter, ","))` over the parameters of `parseFuncDef`. -/
def paramLoop : Nat → List String → Parser → Except Fault (List String × Parser)
  | 0, _, _ => .error .outOfFuel
  | fuel + 1, paramNames, p =>
      if (p.accept .Delimiter ",").1 then
        let p1 := (p.accept .Delimiter ",").2
        if p1.currentToken.type ≠ .Identifier then
          .ok (paramNames, p1.errorHere "Expected parameter name after ','")
        else
          paramLoop fuel (paramNames ++ [p1.currentToken.value])
            (p1.withTable (p1.symbolTable.declare p1.currentToken.value "unknown" "parameter")).advance
      else .ok (paramNames, p)

mutual

def parseStmt : Nat → Parser → Res ASTNode
  | 0, _ => .error .outOfFuel
  | fuel + 1, p =>
      if p.currentToken.type = .EOFToken then .ok (.null, p)
      else if p.currentToken.type = .Identifier ∧ ¬ p.isValidStatementStart then
        .ok (.null, (p.errorHere
          ("Invalid statement starting with identifier: " ++ p.currentToken.value)).advance)
      else
        match p.currentToken.type with
        | .Keyword =>
            if p.currentToken.value = "if" then parseIfStmt fuel p
            else if p.currentToken.value = "while" then parseWhileStmt fuel p
            else if p.currentToken.value = "def" then parseFuncDef fuel p
            else if p.currentToken.value = "return" then parseReturnStmt fuel p
            else if p.currentToken.value = "for" then parseForStmt fuel p
            else if p.currentToken.value = "elif" ∨ p.currentToken.value = "else" then
              if p.symbolTable.getCurrentScope = "if block" then .ok (.null, p)
              else
                match (p.errorHere
                  ("Unexpected token at start of statement: " ++ p.currentToken.value)).synchronize with
                | .error f => .error f
                | .ok p1 => .ok (.null, p1)
            else .ok (.null, (p.errorHere "Invalid statement").advance)
        | .Identifier =>
            if p.peekNextToken.value = "(" then parseFuncCallStmt fuel p
            else parseAssignStmt fuel p
        | _ =>
            .ok (.null, (p.errorHere
              ("Unexpected token at start of statement: " ++ p.currentToken.value)).advance)

/-- The loop over the statements of a block, which is written six times in the source
(`if`, `elif`, `else`, `for`, `while`, `def`); only the copy of the `if` block leaves the
loop when `parseStmt` returns no node (`breakOnNull`). -/
def blockLoop : Nat → Bool → Int → List ASTNode → Parser → Res (List ASTNode)
  | 0, _, _, _, _ => .error .outOfFuel
  | fuel + 1, breakOnNull, blockIndent, children, p =>
      if p.currentToken.type = .EOFToken then .ok (children, p)
      else if p.currentToken.type = .Indent then
        match stoi p.currentToken.value with
        | none => .error .exception
        | some level =>
            if level ≥ blockIndent then
              match p.expectIndent blockIndent with
              | .error f => .error f
              | .ok p1 => blockLoop fuel breakOnNull blockIndent children p1
            else .ok (children, p)
      else
        match parseStmt fuel p with
        | .error f => .error f
        | .ok (stmt, p1) =>
            if ¬ stmt.isNull then blockLoop fuel breakOnNull blockIndent (children ++ [stmt]) p1
            else if breakOnNull then .ok (children, p1)
            else blockLoop fuel breakOnNull blockIndent children p1

/-- The part shared by the six block parsers once the indent level is pushed and the
scope is open: `BlockNode(currentToken)`, the loop, `endScope()`, `pop_back()`. -/
def parseBlockBody : Nat → Bool → Int → Parser → Res ASTNode
  | 0, _, _, _ => .error .outOfFuel
  | fuel + 1, breakOnNull, blockIndent, p =>
      let blockToken := p.currentToken
      match blockLoop fuel breakOnNull blockIndent [] p with
      | .error f => .error f
      | .ok (children, p1) =>
          match (p1.withTable p1.symbolTable.endScope).popIndent with
          | .error f => .error f
          | .ok p2 => .ok (BlockNode blockToken children, p2)

/-- The loop `while (true)` of `parseIfStmt` over the `elif` branches. -/
def elifLoop : Nat → Int → List ASTNode → Parser → Res (List ASTNode)
  | 0, _, _, _ => .error .outOfFuel
  | fuel + 1, ifIndent, elifBranches, p =>
      match (if p.currentToken.type = .Indent then
               match stoi p.currentToken.value with
               | none => (.error .exception : Except Fault (Option Parser))
               | some currentIndent => if currentIndent ≠ ifIndent then .ok none else .ok (some p.advance)
             else .ok (some p)) with
      | .error f => .error f
      | .ok none => .ok (elifBranches, p)
      | .ok (some p0) =>
          if p0.currentToken.type ≠ .Keyword ∨ p0.currentToken.value ≠ "elif" then
            .ok (elifBranches, p0)
          else
            let elifToken := p0.currentToken
            match p0.expect .Keyword "Expected 'elif' keyword" "elif" with
            | .error f => .error f
            | .ok p1 =>
              match parseExpr fuel p1 with
              | .error f => .error f
              | .ok (elifCondition, p2) =>
                match p2.expect .Delimiter "Expected ':' after elif condition" ":" with
                | .error f => .error f
                | .ok p3 =>
                  let elifBlockIndent := ifIndent + 1
                  match (p3.pushIndent elifBlockIndent).expectIndent elifBlockIndent with
                  | .error f => .error f
                  | .ok p4 =>
                    match parseBlockBody fuel false elifBlockIndent
                        (p4.withTable (p4.symbolTable.beginScope "elif block")) with
                    | .error f => .error f
                    | .ok (elifBlock, p5) =>
                        elifLoop fuel ifIndent
                          (elifBranches ++ [ElifNode elifToken elifCondition elifBlock]) p5

def parseElseStmt : Nat → Parser → Res ASTNode
  | 0, _ => .error .outOfFuel
  | fuel + 1, p =>
      match p.expect .Keyword "Expected 'else' keyword" "else" with
      | .error f => .error f
      | .ok p1 =>
        match p1.expect .Delimiter "Expected ':' after else" ":" with
        | .error f => .error f
        | .ok p2 =>
          let blockIndent := p2.currentIndent + 1
          match (p2.pushIndent blockIndent).expectIndent blockIndent with
          | .error f => .error f
          | .ok p3 =>
              parseBlockBody fuel false blockIndent (p3.withTable (p3.symbolTable.beginScope "else block"))

def parseIfStmt : Nat → Parser → Res ASTNode
  | 0, _ => .error .outOfFuel
  | fuel + 1, p =>
      let ifToken := p.currentToken
      match p.expect .Keyword "Expected 'if' keyword" "if" with
      | .error f => .error f
      | .ok p1 =>
        match parseExpr fuel p1 with
        | .error f => .error f
        | .ok (condition, p2) =>
          match p2.expect .Delimiter "Expected ':' after if condition" ":" with
          | .error f => .error f
          | .ok p3 =>
            let ifIndent := p3.currentIndent
            let blockIndent := ifIndent + 1
            match (p3.pushIndent blockIndent).expectIndent blockIndent with
            | .error f => .error f
            | .ok p4 =>
              match parseBlockBody fuel true blockIndent
                  (p4.withTable (p4.symbolTable.beginScope "if block")) with
              | .error f => .error f
              | .ok (thenBlock, p5) =>
                match elifLoop fuel ifIndent [] p5 with
                | .error f => .error f
                | .ok (elifBranches, p6) =>
                  match (if p6.currentToken.type = .Indent then
                           match stoi p6.currentToken.value with
                           | none => (.error .exception : Res ASTNode)
                           | some currentIndent =>
                               if currentIndent = ifIndent then
                                 if p6.advance.currentToken.type = .Keyword ∧
                                    p6.advance.currentToken.value = "else" then
                                   parseElseStmt fuel p6.advance
                                 else .ok (.null, p6.advance)
                               else .ok (.null, p6)
                         else if p6.currentToken.type = .Keyword ∧ p6.currentToken.value = "else" then
                           parseElseStmt fuel p6
                         else .ok (.null, p6)) with
                  | .error f => .error f
                  | .ok (elseBlock, p7) =>
                      .ok (IfNode ifToken condition thenBlock elseBlock elifBranches, p7)

def parseForStmt : Nat → Parser → Res ASTNode
  | 0, _ => .error .outOfFuel
  | fuel + 1, p =>
      let forToken := p.currentToken
      match p.expect .Keyword "Expected 'for' keyword" "for" with
      | .error f => .error f
      | .ok p1 =>
        match parsePrimary fuel p1 with
        | .error f => .error f
        | .ok (var, p2) =>
          if var.getNodeType ≠ "Identifier" then
            .ok (.null, p2.errorHere "Expected identifier after 'for'")
          else
            match p2.expect .Keyword "Expected 'in' after loop variable" "in" with
            | .error f => .error f
            | .ok p3 =>
              match parseExpr fuel p3 with
              | .error f => .error f
              | .ok (iterable, p4) =>
                if iterable.isNull then
                  .ok (.null, p4.errorHere "Expected iterable expression after 'in'")
                else
                  match p4.expect .Delimiter "Expected ':' after for loop header" ":" with
                  | .error f => .error f
                  | .ok p5 =>
                    let blockIndent := p5.currentIndent + 1
                    match (p5.pushIndent blockIndent).expectIndent blockIndent with
                    | .error f => .error f
                    | .ok p6 =>
                      match parseBlockBody fuel false blockIndent
                          (p6.withTable (p6.symbolTable.beginScope "for loop")) with
                      | .error f => .error f
                      | .ok (body, p7) => .ok (ForNode forToken var iterable body, p7)

def parseWhileStmt : Nat → Parser → Res ASTNode
  | 0, _ => .error .outOfFuel
  | fuel + 1, p =>
      let whileToken := p.currentToken
      match p.expect .Keyword "Expected 'while' keyword" "while" with
      | .error f => .error f
      | .ok p1 =>
        match parseExpr fuel p1 with
        | .error f => .error f
        | .ok (condition, p2) =>
          match p2.expect .Delimiter "Expected ':' after while condition" ":" with
          | .error f => .error f
          | .ok p3 =>
            let blockIndent := p3.currentIndent + 1
            match (p3.pushIndent blockIndent).expectIndent blockIndent with
            | .error f => .error f
            | .ok p4 =>
              match parseBlockBody fuel false blockIndent
                  (p4.withTable (p4.symbolTable.beginScope "while block")) with
              | .error f => .error f
              | .ok (body, p5) => .ok (WhileNode whileToken condition body, p5)

def parseFuncDef : Nat → Parser → Res ASTNode
  | 0, _ => .error .outOfFuel
  | fuel + 1, p =>
      let defToken := p.currentToken
      match p.expect .Keyword "Expected 'def' keyword" "def" with
      | .error f => .error f
      | .ok p1 =>
        let funcNameToken := p1.currentToken
        match p1.expect .Identifier "Expected function name after 'def'" with
        | .error f => .error f
        | .ok p2 =>
          let p3 := p2.withTable
            ((p2.symbolTable.declare funcNameToken.value "function" "function" "unknown").beginScope
              (funcNameToken.value ++ " (function)"))
          match p3.expect .Delimiter "Expected '(' after function name" "(" with
          | .error f => .error f
          | .ok p4 =>
            match (if p4.currentToken.type = .Identifier then
                     paramLoop fuel [p4.currentToken.value]
                       (p4.withTable (p4.symbolTable.declare p4.currentToken.value "unknown" "parameter")).advance
                   else .ok ([], p4)) with
            | .error f => .error f
            | .ok (paramNames, p5) =>
              match p5.expect .Delimiter "Expected ')' after parameter list" ")" with
              | .error f => .error f
              | .ok p6 =>
                match p6.expect .Delimiter "Expected ':' after function definition" ":" with
                | .error f => .error f
                | .ok p7 =>
                  let blockIndent := p7.currentIndent + 1
                  match (p7.pushIndent blockIndent).expectIndent blockIndent with
                  | .error f => .error f
                  | .ok p8 =>
                    match parseBlockBody fuel false blockIndent p8 with
                    | .error f => .error f
                    | .ok (body, p9) =>
                        .ok (FunctionDefNode defToken funcNameToken.value paramNames body, p9)

end

/-- The loop of `parseProgram`. -/
def programLoop : Nat → List ASTNode → Parser → Res (List ASTNode)
  | 0, _, _ => .error .outOfFuel
  | fuel + 1, children, p =>
      if p.currentToken.type = .EOFToken then .ok (children, p)
      else
        match (if p.currentToken.type = .Indent then p.expectIndent 0 else .ok p) with
        | .error f => .error f
        | .ok p1 =>
          match parseStmt fuel p1 with
          | .error f => .error f
          | .ok (stmt, p2) =>
              programLoop fuel (if stmt.isNull then children else children ++ [stmt]) p2

def parseProgram (fuel : Nat) (p : Parser) : Res ASTNode :=
  match programLoop fuel [] p with
  | .error f => .error f
  | .ok (children, p1) => .ok (ProgramNode children, p1)

end Parser

/-- The value passed for `fuel` to parse `tokens`: it is never used up
(`parseProgram_returns`). -/
def parseFuel (tokens : List Token) : Nat := 64 * (tokens.length + 1)

/-- The body of `Controller::runParser` up to the call of `parseProgram`: a new table, a
new parser on the tokens, and the parse. -/
def runParser (tokens : List Token) : Res ASTNode :=
  (Parser.new tokens {}).parseProgram (parseFuel tokens)

/-- The tokens of `tokenize` on a lexer just built on `source`; no token when it does not
return. -/
def lexTokens (source : String) : List Token :=
  match (Lexer.mk0 source.data).tokenize with
  | some r => r.1
  | none => []

/-! ## Predicates of the specification -/

/-- `Adv a cs b`: the lexer `b` is reached from `a` by calls of `advance` that read the
characters `cs`, none of them NUL, possibly with updates of the symbol table and resets of
`newLine` in between. -/
inductive Adv : Lexer → List Char → Lexer → Prop
  | refl (a : Lexer) : Adv a [] a
  | step {a b : Lexer} {cs : List Char} (c : Char) (r : List Char) :
      Adv a cs b → b.rest = c :: r → c ≠ NUL → Adv a (cs ++ [c]) b.advance.2
  | table {a b : Lexer} {cs : List Char} (st : SymbolTable) :
      Adv a cs b → Adv a cs { b with symbolTable := st }
  | unflag {a b : Lexer} {cs : List Char} :
      Adv a cs b → Adv a cs { b with newLine := false }

/-- No three double quotes in a row: no triple-quoted string starts in the text. -/
def NoTriple (s : List Char) : Prop := ¬ ([DQUOTE, DQUOTE, DQUOTE] <:+: s)

/-- What every token reader does: it reads at least one character, the token carries
the line reached and the column of its first character, it is neither an IndentMarker nor
EndOfInput, and no newline is read unless a triple-quoted string starts here. -/
def TokOK (lx : Lexer) (r : Token × Lexer) : Prop :=
  ∃ cs, cs ≠ [] ∧ Adv lx cs r.2 ∧ r.1.line = r.2.line ∧ r.1.column = lx.column ∧
    r.1.type ≠ .Indent ∧ r.1.type ≠ .EOFToken ∧ (NoTriple lx.rest → '\n' ∉ cs)

/-- A weaker form of `TokOK` for the parts of a reader: characters read, none a newline. -/
def PartOK (lx lx' : Lexer) : Prop := ∃ cs, Adv lx cs lx' ∧ '\n' ∉ cs

def stepLine (line : Int) (c : Char) : Int := if c = '\n' then line + 1 else line

def stepColumn (column : Int) (c : Char) : Int := if c = '\n' then 1 else column + 1

def stepFlag (newLine : Bool) (c : Char) : Bool :=
  if c = '\n' then true else if newLine ∧ c ≠ ' ' ∧ c ≠ '\t' then false else newLine

/-- The IndentMarker that `tokenize` pushes when it has read the blanks of a line. -/
def indentToken (width : Int) (lx0 : Lexer) : Token :=
  { type := .Indent, value := intToString (width / 4), line := lx0.line, column := lx0.column }

/-- The token `EOF` pushed when the loop is left. -/
def eofToken (lx : Lexer) : Token :=
  { type := .EOFToken, value := "EOF", line := lx.line, column := lx.column }

/-- The lexer that `tokenize` starts from. -/
def startOf (lx : Lexer) : Lexer := { lx with newLine := true }

/-- Two neighbours of the token list: where the line changes, the second one is an
IndentMarker. -/
def LineStart (t1 t2 : Token) : Prop := t1.line ≠ t2.line → t2.type = .Indent

def isIndent (t : Token) : Bool := t.type = .Indent

/-- A line start: nothing before it, or a newline right before it. -/
def AtLineStart (pre : List Char) : Prop := pre = [] ∨ pre.getLast? = some '\n'

/-- The token marks a physical line of the text: `pre` is the text before that line,
`post` the text from its first character on; the token carries the number of the line and
the column that follows the leading blanks of the line. -/
def MarksLine (source : List Char) (t : Token) : Prop :=
  ∃ pre post, source = pre ++ post ∧ AtLineStart pre ∧
    t.line = 1 + (pre.count '\n' : Nat) ∧ t.column = 1 + ((post.takeWhile isBlank).length : Nat)

namespace Parser

/-- The tokens still to be looked at: the current one and those after the cursor. -/
def stream (p : Parser) : List Token := p.currentToken :: p.rest

/-- The cursor of `q` is at or after the cursor of `p`. -/
def Follows (q p : Parser) : Prop := q.stream <:+ p.stream

/-- A token list the parser can run on: the IndentMarker lexemes are read by `std::stoi`
and no token is the operator `%`. -/
def GoodTokens (ts : List Token) : Prop :=
  (∀ t ∈ ts, t.type = .Indent → (stoi t.value).isSome = true) ∧
  (∀ t ∈ ts, ¬ (t.type = .Operator ∧ t.value = "%"))

/-- The last token is EndOfInput. -/
def EndsEOF (ts : List Token) : Prop := ∃ init eof, ts = init ++ [eof] ∧ eof.type = .EOFToken

def Inv (p : Parser) : Prop := EndsEOF p.stream ∧ GoodTokens p.stream

/-- The parts of the state that the expression parsers leave alone. -/
def SameFrame (q p : Parser) : Prop :=
  q.symbolTable = p.symbolTable ∧ q.indentStack = p.indentStack

/-- The cursor moved on and nothing but the cursor and the errors changed. -/
def Later (q p : Parser) : Prop := Follows q p ∧ SameFrame q p

/-- No operator `%` where `evaluateExpression` folds: it goes down the operands of binary
and unary operators only. -/
def safeFold : ASTNode → Bool
  | .node .BinaryOp token (l :: r :: _) => token.value ≠ "%" && safeFold l && safeFold r
  | .node .BinaryOp token [l] => token.value ≠ "%" && safeFold l
  | .node .BinaryOp token [] => token.value ≠ "%"
  | .node .UnaryOp _ (o :: _) => safeFold o
  | _ => true

/-- What an expression parser returns: a node (maybe null) that folds safely, the cursor
moved on, the table and the indent stack untouched. -/
def ExprPost (p : Parser) (r : Res ASTNode) : Prop :=
  ∃ node q, r = .ok (node, q) ∧ Later q p ∧ safeFold node = true

def ExprLE (f : Nat → Parser → Res ASTNode) (k n : Nat) : Prop :=
  ∀ fuel p, Inv p → p.rest.length ≤ n → 64 * n + k ≤ fuel → ExprPost p (f fuel p)

def LoopLE (f : Nat → ASTNode → Parser → Res ASTNode) (k n : Nat) : Prop :=
  ∀ fuel node p, Inv p → safeFold node = true → p.rest.length ≤ n → 64 * n + k ≤ fuel →
    ExprPost p (f fuel node p)

def OpLoopLE (f : Nat → Token → ASTNode → Parser → Res ASTNode) (k n : Nat) : Prop :=
  ∀ fuel op node p, Inv p → safeFold node = true → (op = p.currentToken ∨ op.value ≠ "%") →
    p.rest.length ≤ n → 64 * n + k ≤ fuel → ExprPost p (f fuel op node p)

def ArgsLE (k n : Nat) : Prop :=
  ∀ fuel args p, Inv p → p.rest.length ≤ n → 64 * n + k ≤ fuel →
    ∃ args' q, parseArgs fuel args p = .ok (args', q) ∧ Later q p

structure ExprSpecs (n : Nat) : Prop where
  funcCall : ExprLE parseFuncCall 1 n
  primary : ExprLE parsePrimary 2 n
  unary : ExprLE parseUnary 3 n
  factorLoop : LoopLE factorLoop 1 n
  factor : ExprLE parseFactor 4 n
  termLoop : LoopLE termLoop 1 n
  term : ExprLE parseTerm 5 n
  relationalLoop : LoopLE relationalLoop 1 n
  relational : ExprLE parseRelational 6 n
  equalityLoop : LoopLE equalityLoop 1 n
  equality : ExprLE parseEquality 7 n
  andLoop : OpLoopLE andLoop 1 n
  logicalAnd : ExprLE parseLogicalAnd 8 n
  orLoop : OpLoopLE orLoop 1 n
  logicalOr : ExprLE parseLogicalOr 9 n
  expr : ExprLE parseExpr 10 n
  args : ArgsLE 11 n

/-- The two parallel vectors of the table have the same length, and the global frame is
there. -/
def TInv (t : ParserSymbolTable) : Prop :=
  t.scopes.length = t.scopeNames.length ∧ t.scopes ≠ []

/-- What a statement parser leaves: the cursor moved on, the scope stack as it was (and
well formed), the indent stack as it was. -/
def Frame (q p : Parser) : Prop :=
  Follows q p ∧ q.symbolTable.scopeNames = p.symbolTable.scopeNames ∧ TInv q.symbolTable ∧
    q.indentStack = p.indentStack

/-- A statement parser entered at its keyword: it returns, the stacks are as they were, and
the cursor moved. -/
def StmtLE (f : Nat → Parser → Res ASTNode) (kw : String) (n : Nat) : Prop :=
  ∀ fuel p, Inv p → TInv p.symbolTable → p.isTok .Keyword kw = true → p.rest.length ≤ n →
    64 * n + 1 ≤ fuel →
    ∃ node q, f fuel p = .ok (node, q) ∧ Frame q p ∧ q.rest.length < p.rest.length

/-- The method `parseStmt` returns; the cursor moved unless the input is at its end, or the
statement is the `elif` or `else` that ends the block of an `if`. -/
def ParseStmtLE (n : Nat) : Prop :=
  ∀ fuel p, Inv p → TInv p.symbolTable → p.rest.length ≤ n → 64 * n + 12 ≤ fuel →
    ∃ node q, parseStmt fuel p = .ok (node, q) ∧ Frame q p ∧
      (p.currentToken.type ≠ .EOFToken →
        (node.isNull = false ∨ p.symbolTable.getCurrentScope ≠ "if block") →
        q.rest.length < p.rest.length)

def BlockLoopLE (n : Nat) : Prop :=
  ∀ fuel b lvl cs p, Inv p → TInv p.symbolTable →
    (b = false → p.symbolTable.getCurrentScope ≠ "if block") → p.rest.length ≤ n →
    64 * n + 13 ≤ fuel →
    ∃ r q, blockLoop fuel b lvl cs p = .ok (r, q) ∧ Frame q p

/-- The body of a block returns with the scope and the indent level of the block popped. -/
def BlockBodyLE (n : Nat) : Prop :=
  ∀ fuel b lvl p, Inv p → TInv p.symbolTable → 2 ≤ p.symbolTable.scopeNames.length →
    p.indentStack ≠ [] → (b = false → p.symbolTable.getCurrentScope ≠ "if block") →
    p.rest.length ≤ n → 64 * n + 14 ≤ fuel →
    ∃ node q, parseBlockBody fuel b lvl p = .ok (node, q) ∧ Follows q p ∧
      q.symbolTable.scopeNames = p.symbolTable.scopeNames.tail ∧ TInv q.symbolTable ∧
      q.indentStack = p.indentStack.tail

def ElifLoopLE (n : Nat) : Prop :=
  ∀ fuel lvl cs p, Inv p → TInv p.symbolTable → p.rest.length ≤ n → 64 * n + 1 ≤ fuel →
    ∃ r q, elifLoop fuel lvl cs p = .ok (r, q) ∧ Frame q p

structure StmtSpecs (n : Nat) : Prop where
  stmt : ParseStmtLE n
  loop : BlockLoopLE n
  body : BlockBodyLE n
  elifs : ElifLoopLE n
  elseS : StmtLE parseElseStmt "else" n
  ifS : StmtLE parseIfStmt "if" n
  forS : StmtLE parseForStmt "for" n
  whileS : StmtLE parseWhileStmt "while" n
  defS : StmtLE parseFuncDef "def" n

/-- The token ends a line or the input. -/
def endsLine (t : Token) : Prop := t.type = .Indent ∨ t.type = .EOFToken

end Parser

/-- A token at a position, with no symbol id. -/
def tok (type : TokenType) (value : String) (line column : Int) : Token :=
  { type := type, value := value, line := line, column := column }

/-- A token of the lexer that carries the id of its symbol. -/
def symTok (type : TokenType) (value : String) (line column symbolId : Int) : Token :=
  { type := type, value := value, line := line, column := column, symbolId := symbolId }

/-- Scenario 1 of the specification. -/
def scenarioFold : String := "x = 1 + 2"

/-- Scenario 3 of the specification. -/
def scenarioIf : String := "if a == 1:\n    b = 2\nelif a == 2:\n    b = 3\nelse:\n    b = 4"

/-- Scenario 2 of the specification. -/
def scenarioDef : String := "def f(a, b):\n    return a + b\nx = f(2, 3)"

/-- The first two lines of scenario 2: the function definition alone. -/
def scenarioDefOnly : String := "def f(a, b):\n    return a + b"

/-- A triple-quoted string that spans two physical lines. -/
def tripleQuoted : List Char := [DQUOTE, DQUOTE, DQUOTE, '\n', DQUOTE, DQUOTE, DQUOTE]

/-- Three double quotes that open a string which is never closed, a newline, four
spaces. -/
def unterminatedString : List Char := [DQUOTE, DQUOTE, DQUOTE, '\n', ' ', ' ', ' ', ' ']

/-- A parser on the tokens of `b = 2`, at the name. -/
def assignParser : Parser :=
  { rest := [tok .Operator "=" 1 3, tok .Number "2" 1 5, tok .EOFToken "EOF" 1 6],
    currentToken := tok .Identifier "b" 1 1, symbolTable := {} }

namespace Parser

/-- The parser `p` moved to the token `cur`, with `rest` after it. -/
def moveTo (p : Parser) (cur : Token) (rest : List Token) : Parser :=
  { p with currentToken := cur, rest := rest }

/-- The operators that the loops of `parseFactor`, `parseTerm` and `parseRelational` take. -/
def tightOps : List String := ["*", "/", "%", "+", "-", "<", ">", "<=", ">="]

/-- The table after a block that only assigns `name`: the scope is begun, the name
declared, the scope ended. -/
def branchTable (t : ParserSymbolTable) (scope name type value : String) : ParserSymbolTable :=
  ((t.beginScope scope).declare name type "variable" value).endScope

/-- The token after a block of level `lvl`: the end of the input, or the IndentMarker of a
line at a lower level. -/
def closesBlock (lvl : Int) (t : Token) : Prop :=
  t.type = .EOFToken ∨ (t.type = .Indent ∧ ∃ l, stoi t.value = some l ∧ l < lvl)

/-- The type the parser gives to a Number literal. -/
def numberType (lit : Token) : String := if lit.value.data.contains '.' then "float" else "int"

/-- The tokens `name = lit` of a block of one assignment, after the IndentMarker `ind` of
its line, which is at the level `lvl`, and before the token `next` that closes the block. -/
structure AssignLine (lvl : Int) (ind name eq lit next : Token) (d : Dbl) : Prop where
  ind_type : ind.type = .Indent
  ind_level : stoi ind.value = some lvl
  name_type : name.type = .Identifier
  eq_type : eq.type = .Operator
  eq_value : eq.value = "="
  lit_type : lit.type = .Number
  lit_value : stod lit.value = some d
  closes : closesBlock lvl next

/-- The tokens of a condition `x == c` and of the colon after it. -/
structure CondLine (x op c colon : Token) : Prop where
  x_type : x.type = .Identifier
  op_type : op.type = .Operator
  op_value : op.value = "=="
  c_type : c.type = .Number
  c_value : (stod c.value).isSome = true
  colon_type : colon.type = .Delimiter
  colon_value : colon.value = ":"

end Parser

/-- The type of a token and, where it matters, its lexeme. -/
abbrev TokenShape := TokenType × Option String

/-- The token has the type of the shape and, when the shape names a lexeme, that lexeme. -/
def Token.fits (t : Token) (s : TokenShape) : Bool :=
  decide (t.type = s.1) &&
    (match s.2 with
     | none => true
     | some v => decide (t.value = v))

/-- The token list has the shape, token by token. -/
def fitsShape : List Token → List TokenShape → Bool
  | [], [] => true
  | t :: ts, s :: ss => t.fits s && fitsShape ts ss
  | _, _ => false

/-- The shape of `x == c :`. -/
def condShape : List TokenShape :=
  [(.Identifier, none), (.Operator, some "=="), (.Number, none), (.Delimiter, some ":")]

/-- The shape of the line `b = LIT` at indent level 1. -/
def assignShape (b : String) : List TokenShape :=
  [(.Indent, some "1"), (.Identifier, some b), (.Operator, some "="), (.Number, none)]

/-- The shape of a branch `kw x == c:` at level 0 with its block `b = LIT`. -/
def branchShape (kw b : String) : List TokenShape :=
  [(.Indent, some "0"), (.Keyword, some kw)] ++ condShape ++ assignShape b

/-- The shape of the branch `else:` with its block `b = LIT`. -/
def elseShape (b : String) : List TokenShape :=
  [(.Indent, some "0"), (.Keyword, some "else"), (.Delimiter, some ":")] ++ assignShape b

/-- The shape of `k` branches `elif`. -/
def elifsShape (b : String) : Nat → List TokenShape
  | 0 => []
  | k + 1 => branchShape "elif" b ++ elifsShape b k

/-- The shape of the tokens of a chain `if` / `elif` (`k` times) / `else` at the top level,
each block assigning a Number literal to `b`. -/
def chainShape (b : String) (k : Nat) : List TokenShape :=
  branchShape "if" b ++ (elifsShape b k ++ (elseShape b ++ [(.EOFToken, none)]))

/-- What the claims read of an entry: its id, its name and the label of its scope. -/
def entrySummary (e : ParserSymbolTableEntry) : Int × String × String := (e.id, e.name, e.scope)

/-- The shape of `else: / b = LIT` from the keyword on, with the EndOfInput token. -/
def elseTailShape (b : String) : List TokenShape :=
  [(.Keyword, some "else"), (.Delimiter, some ":")] ++ assignShape b ++ [(.EOFToken, none)]

/-- The parser that `runParser` starts from, before its first `advance`. -/
def startParser (tokens : List Token) : Parser :=
  { rest := tokens, currentToken := { type := .Keyword, value := "", line := 0, column := 0 },
    indentStack := [0], symbolTable := {} }

/-- The token marks a physical line of the text and carries its indent level: `pre` is
the text before that line, `run` the leading spaces and tabs of the line, `post` the rest
of the text, which starts with another character or is empty. -/
def MarksLevel (source : List Char) (t : Token) : Prop :=
  ∃ pre run post, source = pre ++ (run ++ post) ∧ AtLineStart pre ∧
    (∀ c ∈ run, c = ' ' ∨ c = '\t') ∧ (∀ c ∈ post.head?, c ≠ ' ' ∧ c ≠ '\t') ∧
    t.line = 1 + (pre.count '\n' : Nat) ∧ t.column = 1 + (run.length : Nat) ∧
    t.value = toString ((run.count ' ' + 4 * run.count '\t') / 4)

namespace ParserSymbolTable

/-- One call of an operation of the table that can change it. -/
inductive Step : ParserSymbolTable → ParserSymbolTable → Prop
  | beginScope (t : ParserSymbolTable) (scopeName : String) : Step t (t.beginScope scopeName)
  | endScope (t : ParserSymbolTable) : Step t t.endScope
  | declare (t : ParserSymbolTable) (name type role value : String) :
      Step t (t.declare name type role value)
  | updateType (t : ParserSymbolTable) (name type : String) : Step t (t.updateType name type)
  | updateValue (t : ParserSymbolTable) (name value : String) : Step t (t.updateValue name value)

/-- The states of a table reachable from its construction by the five operations. -/
inductive Reachable : ParserSymbolTable → Prop
  | init : Reachable {}
  | step {t u : ParserSymbolTable} : Reachable t → Step t u → Reachable u

/-- The invariant of the table: the id of an entry is its index, `nextId` is the number of
entries, an id bound in a live frame is the index of an entry with the bound name, and
the scope stack is not empty, as long as its labels, with the label "global" at the
bottom. -/
def WellFormed (t : ParserSymbolTable) : Prop :=
  (∀ (i : Nat) e, t.entries[i]? = some e → e.id = (i : Int)) ∧
  t.nextId = (t.entries.length : Int) ∧
  (∀ frame ∈ t.scopes, ∀ name id, frame.lookup name = some id →
    0 ≤ id ∧ ∃ e, t.entries[id.toNat]? = some e ∧ e.name = name) ∧
  t.scopes ≠ [] ∧ t.scopes.length = t.scopeNames.length ∧
  t.scopeNames.getLast? = some "global"

/-- No entry of `t` is removed in `u`, and none changes its id, its name or its scope. -/
def Keeps (t u : ParserSymbolTable) : Prop :=
  ∀ (i : Nat) e, t.entries[i]? = some e →
    ∃ e', u.entries[i]? = some e' ∧ e'.id = e.id ∧ e'.name = e.name ∧ e'.scope = e.scope

/-- The name is bound to `id` in the innermost live frame that has the name. -/
def BoundTo (t : ParserSymbolTable) (name : String) (id : Int) : Prop :=
  ∃ inner frame outer, t.scopes = inner ++ frame :: outer ∧
    (∀ f ∈ inner, f.lookup name = none) ∧ frame.lookup name = some id

/-- No live frame has the name. -/
def Unbound (t : ParserSymbolTable) (name : String) : Prop :=
  ∀ f ∈ t.scopes, f.lookup name = none

/-- The table after one declaration of `x`, of unknown type and value. -/
def declaredTable : ParserSymbolTable :=
  ({} : ParserSymbolTable).declare "x" "unknown" "variable" "unknown"

/-- The table `declaredTable` after a scope has been opened. -/
def sampleTable : ParserSymbolTable := declaredTable.beginScope "if block"

end ParserSymbolTable

namespace Parser

/-- Scenario of the division by zero. -/
def scenarioDiv : String := "x = 1/0"

end Parser

namespace ASTNode

/-- What is asked of the children of a node of a kind: two children for a BinaryOp and
for an Assign, one for a UnaryOp, none of them null; nothing for the other kinds. -/
def arityOK (k : NodeKind) (cs : List ASTNode) : Bool :=
  match k with
  | .BinaryOp => cs.length == 2 && cs.all (fun c => !c.isNull)
  | .UnaryOp => cs.length == 1 && cs.all (fun c => !c.isNull)
  | .Assign => cs.length == 2 && cs.all (fun c => !c.isNull)
  | _ => true

mutual

/-- Every node of the tree has the children asked of its kind. -/
def shaped : ASTNode → Bool
  | .null => true
  | .node k _ cs => arityOK k cs && shapedAll cs

def shapedAll : List ASTNode → Bool
  | [] => true
  | c :: cs => shaped c && shapedAll cs

end

end ASTNode

namespace Parser

/-- The tree of a result, if there is one, is well shaped. -/
def ShapedRes (r : Res ASTNode) : Prop := ∀ n q, r = .ok (n, q) → n.shaped = true

def ExprShaped (f : Nat → Parser → Res ASTNode) (fuel : Nat) : Prop :=
  ∀ p, ShapedRes (f fuel p)

def LoopShaped (f : Nat → ASTNode → Parser → Res ASTNode) (fuel : Nat) : Prop :=
  ∀ node p, node.shaped = true → node.isNull = false → ShapedRes (f fuel node p)

def OpLoopShaped (f : Nat → Token → ASTNode → Parser → Res ASTNode) (fuel : Nat) : Prop :=
  ∀ op node p, node.shaped = true → node.isNull = false → ShapedRes (f fuel op node p)

def ArgsShaped (fuel : Nat) : Prop :=
  ∀ args p r q, ASTNode.shapedAll args = true → parseArgs fuel args p = .ok (r, q) →
    ASTNode.shapedAll r = true

structure ExprShapes (fuel : Nat) : Prop where
  funcCall : ExprShaped parseFuncCall fuel
  primary : ExprShaped parsePrimary fuel
  unary : ExprShaped parseUnary fuel
  factorLoop : LoopShaped factorLoop fuel
  factor : ExprShaped parseFactor fuel
  termLoop : LoopShaped termLoop fuel
  term : ExprShaped parseTerm fuel
  relationalLoop : LoopShaped relationalLoop fuel
  relational : ExprShaped parseRelational fuel
  equalityLoop : LoopShaped equalityLoop fuel
  equality : ExprShaped parseEquality fuel
  andLoop : OpLoopShaped andLoop fuel
  logicalAnd : ExprShaped parseLogicalAnd fuel
  orLoop : OpLoopShaped orLoop fuel
  logicalOr : ExprShaped parseLogicalOr fuel
  expr : ExprShaped parseExpr fuel
  args : ArgsShaped fuel

def StmtShaped (f : Nat → Parser → Res ASTNode) (fuel : Nat) : Prop :=
  ∀ p, ShapedRes (f fuel p)

def BlockLoopShaped (fuel : Nat) : Prop :=
  ∀ b lvl cs p r q, ASTNode.shapedAll cs = true → blockLoop fuel b lvl cs p = .ok (r, q) →
    ASTNode.shapedAll r = true

def ElifLoopShaped (fuel : Nat) : Prop :=
  ∀ lvl cs p r q, ASTNode.shapedAll cs = true → elifLoop fuel lvl cs p = .ok (r, q) →
    ASTNode.shapedAll r = true

structure StmtShapes (fuel : Nat) : Prop where
  stmt : StmtShaped parseStmt fuel
  loop : BlockLoopShaped fuel
  body : ∀ b lvl, StmtShaped (fun fuel p => parseBlockBody fuel b lvl p) fuel
  elifs : ElifLoopShaped fuel
  elseS : StmtShaped parseElseStmt fuel
  ifS : StmtShaped parseIfStmt fuel
  forS : StmtShaped parseForStmt fuel
  whileS : StmtShaped parseWhileStmt fuel
  defS : StmtShaped parseFuncDef fuel

end Parser

namespace ASTNode

/-- The node `n` is `tree` or lies below it. -/
inductive Inside (n : ASTNode) : ASTNode → Prop
  | self : Inside n n
  | child {k : NodeKind} {t : Token} {cs : List ASTNode} {c : ASTNode} :
      c ∈ cs → Inside n c → Inside n (.node k t cs)

end ASTNode

/-- The result of the parser on scenario 1 (with a default that is never used). -/
def foldRun : ASTNode × Parser :=
  match runParser (lexTokens scenarioFold) with
  | .ok r => r
  | .error _ => (.null, startParser [])

namespace Parser

/-- With enough fuel, `f` at `p` returns the node `e` and leaves the parser `q`. -/
def Returns (f : Nat → Parser → Res ASTNode) (p : Parser) (e : ASTNode) (q : Parser) : Prop :=
  ∃ k, ∀ fuel, k ≤ fuel → f fuel p = .ok (e, q)

/-- The same for a loop that carries the node built so far. -/
def LoopReturns (f : Nat → ASTNode → Parser → Res ASTNode) (node : ASTNode) (p : Parser)
    (e : ASTNode) (q : Parser) : Prop :=
  ∃ k, ∀ fuel, k ≤ fuel → f fuel node p = .ok (e, q)

/-- A primary operand: `parsePrimary` at `p` returns the node `e`, which is not null, and
leaves the parser `q`. -/
def Primary (p : Parser) (e : ASTNode) (q : Parser) : Prop :=
  e.isNull = false ∧ Returns parsePrimary p e q

/-- The precedence level of a binary operator token, from the loosest (0, `or`) to the
tightest (5, `*`, `/`, `%`); `none` for every other token. -/
def opLevel (t : Token) : Option Nat :=
  if t.type = .Keyword ∧ t.value = "or" then some 0
  else if t.type = .Keyword ∧ t.value = "and" then some 1
  else if t.type = .Operator ∧ (t.value = "==" ∨ t.value = "!=") then some 2
  else if t.type = .Operator ∧
      (t.value = "<" ∨ t.value = ">" ∨ t.value = "<=" ∨ t.value = ">=") then some 3
  else if t.type = .Operator ∧ (t.value = "+" ∨ t.value = "-") then some 4
  else if t.type = .Operator ∧ (t.value = "*" ∨ t.value = "/" ∨ t.value = "%") then some 5
  else none

/-- The parsing function of a level: `parseLogicalOr` at level 0 down to `parseFactor` at
level 5, and `parseUnary` for the operands of level 5. -/
def levelParser : Nat → Nat → Parser → Res ASTNode
  | 0 => parseLogicalOr
  | 1 => parseLogicalAnd
  | 2 => parseEquality
  | 3 => parseRelational
  | 4 => parseTerm
  | 5 => parseFactor
  | _ => parseUnary

/-- The token is a prefix operator: the Operator `-` or the Keyword `not`. -/
def isPrefixOp (t : Token) : Prop :=
  (t.type = .Operator ∧ t.value = "-") ∨ (t.type = .Keyword ∧ t.value = "not")

/-- What the levels share: a node that goes through, one operator, two operators. -/
structure LevelFacts (f sub : Nat → Parser → Res ASTNode) (test : Parser → Bool) : Prop where
  pass : ∀ {p q : Parser} {e : ASTNode}, Returns sub p e q → e.isNull = false →
    test q = false → Returns f p e q
  one : ∀ {p p1 p2 : Parser} {a b : ASTNode}, Returns sub p a p1 → a.isNull = false →
    test p1 = true → Returns sub p1.advance b p2 → b.isNull = false → test p2 = false →
    Returns f p (BinaryOpNode p1.currentToken a b) p2
  two : ∀ {p p1 p2 p3 : Parser} {a b c : ASTNode}, Returns sub p a p1 → a.isNull = false →
    test p1 = true → Returns sub p1.advance b p2 → b.isNull = false → test p2 = true →
    Returns sub p2.advance c p3 → c.isNull = false → test p3 = false →
    ∃ top, top.value = p2.currentToken.value ∧
      Returns f p (BinaryOpNode top (BinaryOpNode p1.currentToken a b) c) p3

end Parser

/-- The tokens of `1 - 2 - 3`. -/
def subtractionTokens : List Token :=
  [tok .Number "1" 1 1, tok .Operator "-" 1 3, tok .Number "2" 1 5, tok .Operator "-" 1 7,
   tok .Number "3" 1 9, tok .EOFToken "EOF" 1 10]

/-- The parser on `subtractionTokens` after `n` tokens. -/
def subtractionParser (n : Nat) : Parser := Parser.new (subtractionTokens.drop n) {}

/-- The tokens of the parameters after the first, with their names: a comma and an
Identifier for each. -/
inductive MoreParams : List Token → List String → Prop
  | done : MoreParams [] []
  | next (comma y : Token) (ts : List Token) (names : List String) :
      comma.type = .Delimiter ∧ comma.value = "," → y.type = .Identifier →
      MoreParams ts names → MoreParams (comma :: y :: ts) (y.value :: names)

/-- The tokens between the parentheses of a well-formed header of a function definition,
with the names of the parameters: nothing, or Identifiers separated by commas. -/
inductive ParamTokens : List Token → List String → Prop
  | none : ParamTokens [] []
  | some (x : Token) (ts : List Token) (names : List String) :
      x.type = .Identifier → MoreParams ts names → ParamTokens (x :: ts) (x.value :: names)

namespace Parser

/-- The lines of `parseFuncDef` after the header, from `// Get current indentation level`
on: the block of the function is read, and the node is built with the token of `def`,
the name and the names of the parameters. -/
def funcDefBody (fuel : Nat) (defToken : Token) (name : String) (paramNames : List String)
    (p7 : Parser) : Res ASTNode :=
  let blockIndent := p7.currentIndent + 1
  match (p7.pushIndent blockIndent).expectIndent blockIndent with
  | .error f => .error f
  | .ok p8 =>
    match parseBlockBody fuel false blockIndent p8 with
    | .error f => .error f
    | .ok (body, p9) => .ok (FunctionDefNode defToken name paramNames body, p9)

/-- The table once the header `def name(params):` is read: `name` declared as a function
in the scope that was current, the scope of the function pushed, and each parameter
declared in it, in order. -/
def headerTable (t : ParserSymbolTable) (name : String) (params : List String) :
    ParserSymbolTable :=
  params.foldl (fun u x => u.declare x "unknown" "parameter")
    ((t.declare name "function" "function" "unknown").beginScope (name ++ " (function)"))

end Parser

/-- The entries that the declarations of the parameters `names` append in the scope
`scope`, the first with the id `id`. -/
def paramEntries (scope : String) : Int → List String → List ParserSymbolTableEntry
  | _, [] => []
  | id, x :: xs =>
      { id := id, name := x, dataType := "unknown", value := "unknown", role := "parameter",
        scope := scope } :: paramEntries scope (id + 1) xs

/-- The parser on the tokens of the definition of scenario 2, at the keyword `def`. -/
def headerParser : Parser := (Parser.new (lexTokens scenarioDefOnly) {}).advance

/-- The literals of the lines `x = LIT`: an integer, a decimal float, a double-quoted
string, `True` or `False`. -/
inductive Lit
  | int (digits : List Char)
  | float (whole frac : List Char)
  | str (content : List Char)
  | bool (b : Bool)

/-- The text of a literal in the source. -/
def Lit.text : Lit → List Char
  | .int ds => ds
  | .float w f => w ++ '.' :: f
  | .str cs => DQUOTE :: (cs ++ [DQUOTE])
  | .bool true => ['T', 'r', 'u', 'e']
  | .bool false => ['F', 'a', 'l', 's', 'e']

/-- A run of decimal digits that does not start with a zero followed by a digit. -/
def isNumeral (ds : List Char) : Prop :=
  ds ≠ [] ∧ (∀ c ∈ ds, isdigit c = true) ∧ (ds.head? = some '0' → ds = ['0'])

/-- The literals that are well formed: the digits of a number are a numeral that
`std::stod` reads, the fraction of a float is not empty, and a string has no double
quote, no newline, no NUL and no `#` between its quotes. -/
def Lit.wellFormed : Lit → Prop
  | .int ds => isNumeral ds ∧ (stod (String.mk ds)).isSome = true
  | .float w f => isNumeral w ∧ f ≠ [] ∧ (∀ c ∈ f, isdigit c = true) ∧
      (stod (String.mk (w ++ '.' :: f))).isSome = true
  | .str cs => ∀ c ∈ cs, c ≠ DQUOTE ∧ c ≠ '\n' ∧ c ≠ NUL ∧ c ≠ '#'
  | .bool _ => True

/-- A name: a letter or `_`, then letters, digits and `_`, and not a keyword. -/
def isName (x : List Char) : Prop :=
  (∃ c r, x = c :: r ∧ isIdentStart c = true) ∧ (∀ c ∈ x, isIdentChar c = true) ∧
    isKeyword (String.mk x) = false

/-- The line `x = LIT`. -/
def litLine (x : List Char) (l : Lit) : List Char := x ++ ' ' :: '=' :: ' ' :: l.text

/-- The lines after the first, each after a newline. -/
def moreLines : List (List Char × Lit) → List Char
  | [] => []
  | (x, l) :: more => '\n' :: (litLine x l ++ moreLines more)

/-- The source that consists of the lines `x = LIT`, separated by newlines. -/
def litSource : List (List Char × Lit) → List Char
  | [] => []
  | (x, l) :: more => litLine x l ++ moreLines more

/-- The token that the lexer makes of a literal. -/
def Lit.readAs (l : Lit) (t : Token) : Prop :=
  match l with
  | .int ds => t.type = .Number ∧ t.value = String.mk ds
  | .float w f => t.type = .Number ∧ t.value = String.mk (w ++ '.' :: f)
  | .str cs => t.type = .String ∧ t.value = String.mk cs
  | .bool b => t.type = .Keyword ∧ t.value = String.mk (Lit.bool b).text

/-- The tokens of the lines `x = LIT`: for each line an IndentMarker of level 0, the
name, the operator `=` and the literal; after the last line, EndOfInput. -/
def LitTokens : List (List Char × Lit) → List Token → Prop
  | [], ts => ∃ e, ts = [e] ∧ e.type = .EOFToken
  | (x, l) :: more, ts =>
      ∃ ind nm eq lit rest, ts = ind :: nm :: eq :: lit :: rest ∧
        (ind.type = .Indent ∧ ind.value = "0") ∧
        (nm.type = .Identifier ∧ nm.value = String.mk x) ∧
        (eq.type = .Operator ∧ eq.value = "=") ∧ l.readAs lit ∧ LitTokens more rest

/-- The type that `detectTypes` gives to the name of a line, by the literal. -/
def Lit.lexerType : Lit → String
  | .int _ => "int"
  | .float _ _ => "float"
  | .str _ => "string"
  | .bool _ => "bool"

/-- The value that `detectTypes` gives to the name of a line: the text of the literal
without its whitespace. -/
def Lit.lexerValue (l : Lit) : String := String.mk (l.text.filter (fun c => !isspace c))

/-- The type that the parser gives to the name of a line. -/
def Lit.parserType : Lit → String
  | .int _ => "int"
  | .float _ _ => "float"
  | .str _ => "string"
  | .bool _ => "boolean"

/-- The value that the parser gives to the name of a line: the text of the double for a
number, the characters between the quotes for a string, the keyword for a boolean. -/
def Lit.parserValue : Lit → String
  | .str cs => String.mk cs
  | .bool b => String.mk (Lit.bool b).text
  | l => ((stod (String.mk l.text)).map doubleToString).getD ""

/-- The entries of the lexer table for the lines, the first with the id `id`. -/
def lexerEntries : Int → List (List Char × Lit) → List SymbolTableEntry
  | _, [] => []
  | id, (x, l) :: more =>
      { id := id, name := String.mk x, dataType := l.lexerType, value := l.lexerValue } ::
        lexerEntries (id + 1) more

/-- The entries of the parser table for the lines, the first with the id `id`. -/
def parserEntries : Int → List (List Char × Lit) → List ParserSymbolTableEntry
  | _, [] => []
  | id, (x, l) :: more =>
      { id := id, name := String.mk x, dataType := l.parserType, value := l.parserValue,
        role := "variable", scope := "global" } :: parserEntries (id + 1) more

/-- The entries that the scan leaves for the names of the lines, before `detectTypes`. -/
def scannedEntries : Int → List (List Char × Lit) → List SymbolTableEntry
  | _, [] => []
  | id, (x, _) :: more =>
      { id := id, name := String.mk x, dataType := "unknown", value := "unknown" } ::
        scannedEntries (id + 1) more

/-- The ids that the scan gives to the names of the lines. -/
def scannedIds : Int → List (List Char × Lit) → List (String × Int)
  | _, [] => []
  | id, (x, _) :: more => (String.mk x, id) :: scannedIds (id + 1) more

/-- The end of a line: the end of the text, or a newline. -/
def LineEnd (tail : List Char) : Prop := tail = [] ∨ ∃ r, tail = '\n' :: r

/-- The table after the declarations of the lines, in order. -/
def declareLines (t : ParserSymbolTable) (lines : List (List Char × Lit)) : ParserSymbolTable :=
  lines.foldl (fun u p => u.declare (String.mk p.1) p.2.parserType "variable" p.2.parserValue) t

/-- The four lines `a = 2`, `b = 2.5`, `c = "hi"`, `d = True`. -/
def sampleLines : List (List Char × Lit) :=
  [(['a'], .int ['2']), (['b'], .float ['2'] ['5']), (['c'], .str ['h', 'i']),
   (['d'], .bool true)]

/-- The source of `sampleLines`, as a string. -/
def sampleSource : String := "a = 2\nb = 2.5\nc = \"hi\"\nd = True"

/-- A call inside an expression: the right-hand side of an assignment. -/
def scenarioCallExpr : String := "x = g(1)"

/-- A call as a statement. -/
def scenarioCallStmt : String := "g(1)"

/-- The function `f` whose body is a `return` with no expression. -/
def scenarioBareReturn : String := "def f():\n    return"

/-- A literal with a leading zero. -/
def scenarioLeadingZero : String := "0123"

/-- The test of `getNumber` that rejects a character as a digit of the base. -/
def InvalidDigit (base : Nat) (c : Char) : Prop :=
  (base = 2 ∧ (c ≠ '0' ∧ c ≠ '1')) ∨
  (base = 8 ∧ (c < '0' ∨ c > '7')) ∨
  (base = 16 ∧ ¬ isxdigit c)

/-- The base that `getNumber` takes from the letter after the zero. -/
def prefixBase (p : Char) : Nat :=
  if tolower p = 'x' then 16 else if tolower p = 'o' then 8 else 2

/-- The letters that make a prefix after a zero. -/
def prefixLetters : List Char := ['x', 'X', 'o', 'O', 'b', 'B']

/-- Prefixed literals, one of each base. -/
def scenarioPrefixed : String := "0x1F 0o17 0b101"

/-- Prefixed literals that are refused. -/
def scenarioBadPrefixed : String := "0x 0b12"

/-- The characters that the loop of `getString` takes into a string in double quotes: not
the quote, not a newline, not NUL. -/
def isStringChar (c : Char) : Bool := c != DQUOTE && c != '\n' && c != NUL

/-- A string that is left open. -/
def scenarioOpenString : String := "\"hello"

/-- A string with a backslash in it. -/
def scenarioBackslash : String := "\"a\\nb\" c"

/-- A string with a NUL byte in it. -/
def scenarioNulString : List Char := [DQUOTE, 'a', NUL, 'b', DQUOTE]

/-- A number with a dot and no digit after it. -/
def scenarioTrailingDot : String := "1."

/-- Numbers with and without a fraction. -/
def scenarioDecimals : String := "7 2.5 0 0.25 10."

/-- The test of `getNumber` for a prefixed literal, on a lexeme: a zero and a letter that
`tolower` makes `x`, `o` or `b`. -/
def isPrefixed : List Char → Bool
  | '0' :: p :: _ => decide (tolower p = 'x' ∨ tolower p = 'o' ∨ tolower p = 'b')
  | _ => false

/-- The form of a decimal lexeme: digits, or digits, a dot and digits that may be missing. -/
def DecimalLexeme (s : List Char) : Prop :=
  ∃ ds fs, ds ≠ [] ∧ (∀ c ∈ ds, isdigit c = true) ∧ (∀ c ∈ fs, isdigit c = true) ∧
    (s = ds ∨ s = ds ++ '.' :: fs)

/-- The type tag of a Number node. -/
def ASTNode.numberTag? : ASTNode → Option String
  | .node (.Number _ t) _ _ => some t
  | _ => none

/-- The names in the order of their first occurrence. -/
def firstNames (ws : List String) : List String :=
  ws.foldl (fun ns w => if w ∈ ns then ns else ns ++ [w]) []

/-- The lexemes of the Identifier tokens, in order. -/
def identLexemes (ts : List Token) : List String :=
  (ts.filter (fun t => t.type = .Identifier)).map (fun t => t.value)

/-- A text with names that come again. -/
def scenarioNames : String := "a b a if c b"

/-- The pairs (name, id) of the entries of the lexer symbol table. -/
def SymbolTable.pairs (t : SymbolTable) : List (String × Int) :=
  t.entries.map (fun e => (e.name, e.id))

/-- The ids `k`, `k + 1`, ... of `n` entries. -/
def idsFrom (k n : Nat) : List Int := (List.range' k n).map Int.ofNat

/-- The invariant of the lexer symbol table: the map from names to ids holds the pairs of
the entries, the ids are 0, 1, 2, ... in the order of the entries, and `nextId` is their
number. -/
def SymbolTable.Sound (t : SymbolTable) : Prop :=
  t.nameToId = t.pairs ∧ t.pairs.map Prod.snd = idsFrom 0 t.pairs.length ∧
  t.nextId = (t.pairs.length : Int)

/-- What holds of the tokens read so far and the table: the table is sound, its names are
the lexemes of the Identifier tokens in the order of their first occurrence, and the id of
an Identifier token is the place of its lexeme among the names. -/
def ScanInv (acc : List Token) (t : SymbolTable) : Prop :=
  t.Sound ∧ t.pairs.map Prod.fst = firstNames (identLexemes acc) ∧
  ∀ x ∈ acc, x.type = .Identifier →
    0 ≤ x.symbolId ∧ (t.pairs.map Prod.fst)[x.symbolId.toNat]? = some x.value

/-- An assignment, lexed twice by the same lexer. -/
def scenarioTwice : String := "x = 1"

/-- Two calls of `Controller::runLexer` on the same loaded file: `m_lexer->tokenize()`
twice on the same lexer object, the second call on the lexer that the first call leaves. -/
def Lexer.tokenizeTwice (lx : Lexer) : Option ((List Token × Lexer) × (List Token × Lexer)) :=
  match lx.tokenize with
  | none => none
  | some (tokens, lx1) =>
      match lx1.tokenize with
      | none => none
      | some r => some ((tokens, lx1), r)

/-- Two lexers at the same place of two texts: what is left to read is `r ++ post` for the
one and `r ++ post'` for the other, for some `r`; the line, the symbol table and the flag
`newLine` are the same, and so is the column when `k` is set. -/
def Rel (k : Bool) (post post' : List Char) (a b : Lexer) : Prop :=
  (∃ r, a.rest = r ++ post ∧ b.rest = r ++ post') ∧ a.line = b.line ∧
  a.symbolTable = b.symbolTable ∧ a.newLine = b.newLine ∧ (k = true → a.column = b.column)

/-- Two tokens with the same type, lexeme, line and symbol id, and the same column when `k`
is set. -/
def TokEq (k : Bool) (t t' : Token) : Prop :=
  t.type = t'.type ∧ t.value = t'.value ∧ t.line = t'.line ∧ t.symbolId = t'.symbolId ∧
  (k = true → t.column = t'.column)

/-- A character at which every reader of a token stops, and which starts no prefix and no
operator of two characters. -/
structure Inert (c : Char) : Prop where
  digit : isdigit c = false
  ident : isIdentChar c = false
  start : isIdentStart c = false
  alnum : isalnum c = false
  dot : c ≠ '.'
  eq : c ≠ '='
  quote : c ≠ DQUOTE
  pre : ¬ (tolower c = 'x' ∨ tolower c = 'o' ∨ tolower c = 'b')

/-- The lines of `getNumber` under `// Handle float`: the dot and the digits after it. -/
def Lexer.decimalFraction (lx : Lexer) (value : String) : String × Lexer :=
  if lx.peek = '.' then
    collectWhile isdigit lx.advance.2.rest.length lx.advance.2 (value.push lx.advance.1)
  else (value, lx)

/-- The lines of `getNumber` from `// Check for invalid trailing characters` on. -/
def Lexer.decimalEnd (lx : Lexer) (value : String) (startCol : Int) : Token × Lexer :=
  if isIdentStart lx.peek then
    ({ type := .Error, value := (collectWhile isIdentChar lx.rest.length lx value).1,
       line := (collectWhile isIdentChar lx.rest.length lx value).2.line, column := startCol },
     (collectWhile isIdentChar lx.rest.length lx value).2)
  else
    ({ type := .Number, value := value, line := lx.line, column := startCol }, lx)

/-- The Error token of `getNumber` for a character that is not a digit of the base. -/
def BadDigit (t : Token) : Prop :=
  t.type = .Error ∧ "Invalid digit for base ".data <+: t.value.data

/-- The end of the branch of `getNumber` for a prefixed literal, from what the digit loop
returns. -/
def prefixedResult (r : Option Token × String × Bool × Lexer) (startCol : Int) : Token × Lexer :=
  match r with
  | (some err, _, _, lx3) => (err, lx3)
  | (none, value3, hasValidDigit, lx3) =>
      if ¬ hasValidDigit then
        ({ type := .Error, value := "Expected digits after prefix: " ++ value3,
           line := lx3.line, column := startCol }, lx3)
      else ({ type := .Number, value := value3, line := lx3.line, column := startCol }, lx3)

/-- The lines of `getNumber` after the leading zero has been read. -/
def Lexer.afterZero (lx1 : Lexer) (value : String) (startCol : Int) : Token × Lexer :=
  if tolower lx1.peek = 'x' ∨ tolower lx1.peek = 'o' ∨ tolower lx1.peek = 'b' then
    prefixedResult
      (baseDigits (if tolower lx1.peek = 'x' then 16 else if tolower lx1.peek = 'o' then 8 else 2)
        startCol lx1.advance.2.rest.length lx1.advance.2 (value.push lx1.advance.1) false)
      startCol
  else if isdigit lx1.peek then
    ({ type := .Error,
       value := "Invalid number with leading zero: " ++
         (collectWhile isdigit lx1.rest.length lx1 value).1,
       line := (collectWhile isdigit lx1.rest.length lx1 value).2.line, column := startCol },
     (collectWhile isdigit lx1.rest.length lx1 value).2)
  else lx1.getDecimal value startCol

/-- The test of `getString` for the closing quotes of a triple-quoted string. -/
def Lexer.atTriple (a : Lexer) : Prop :=
  a.peek = DQUOTE ∧ a.peek 1 = DQUOTE ∧ a.peek 2 = DQUOTE

/-- The lines of `getString` after the opening quote has been read. -/
def Lexer.stringFrom (lx1 : Lexer) (startCol : Int) : Token × Lexer :=
  if lx1.peek = DQUOTE then
    if lx1.advance.2.peek = DQUOTE then
      stringBody true startCol (lx1.advance.2.advance.2.rest.length + 1) lx1.advance.2.advance.2 ""
    else
      ({ type := .String, value := "", line := lx1.advance.2.line, column := startCol },
       lx1.advance.2)
  else stringBody false startCol (lx1.rest.length + 1) lx1 ""

/-- The Error token of a string literal that is not closed. -/
def Unterminated (t : Token) : Prop := t.type = .Error ∧ t.value = "Unterminated string"

/-- The loop of `tokenize` after `k` rounds none of which left it: all the tokens pushed,
those pushed by the last of these rounds, and the lexer reached; `none` if one of the
rounds left the loop. -/
def rounds : Nat → Lexer → Option (List Token × List Token × Lexer)
  | 0, lx => some ([], [], lx)
  | k + 1, lx =>
      match rounds k lx with
      | none => none
      | some (acc, _, lxk) =>
          if lxk.scanStep.2.2 = true then none
          else some (acc ++ lxk.scanStep.1, lxk.scanStep.1, lxk.scanStep.2.1)

/-- The loop of `tokenize` on the two lines `x` and `y` after its first round, which reads
`x`: it stands at the end of the first line. -/
def scenarioCommentState : List Token × List Token × Lexer :=
  (rounds 1 (startOf (Lexer.mk0 (['x'] ++ ['\n', 'y'])))).getD ([], [], Lexer.mk0 [])

/-- The loop of `tokenize` on `x=1` after its first round, which reads `x`: it stands
between `x` and `=`. -/
def scenarioBlankState : List Token × List Token × Lexer :=
  (rounds 1 (startOf (Lexer.mk0 (['x'] ++ ['=', '1'])))).getD ([], [], Lexer.mk0 [])

/-- The source of a chain of two `or`. -/
def scenarioOrChain : String := "x = a or b or c"

/-- The source of a chain of two `and`. -/
def scenarioAndChain : String := "x = a and b and c"

/-- The source of a chain of two `+`. -/
def scenarioPlusChain : String := "x = a + b + c"

namespace ASTNode

/-- The operator tokens of a tree of binary operators, the one of the root first, then
those of the left operand, with their columns. -/
def opColumns : ASTNode → List (String × Int)
  | .node .BinaryOp token (l :: _) => (token.value, token.column) :: opColumns l
  | _ => []

end ASTNode

/-- The source of an `if` whose block starts after an empty line. -/
def scenarioBlankAfterIf : String := "if a:\n\n    b = 1"

namespace Parser

/-- The level an IndentMarker carries, as `std::stoi` reads it. -/
def markerLevel (t : Token) : Int := (stoi t.value).getD 0

/-- The errors `expectIndent` records on a run of IndentMarkers: each marker is compared with
the level passed down, which is `expected` for the first marker and the level of the marker
before it for every other one. -/
def runErrors : Int → List Token → List ParseError
  | _, [] => []
  | expected, m :: ms =>
      (if markerLevel m ≠ expected then
        [{ line := m.line, col := m.column, message := "Incorrect indentation level" }]
       else []) ++ runErrors (markerLevel m) ms

/-- The errors the run would get if every marker were compared with the same level. -/
def sameLevelErrors (expected : Int) (ms : List Token) : List ParseError :=
  (ms.filter (fun m => markerLevel m ≠ expected)).map
    (fun m => { line := m.line, col := m.column, message := "Incorrect indentation level" })

end Parser

/-- An `if` with no condition. -/
def scenarioIfNoCondition : String := "if :\n    x = 1"

/-- A `while` with no condition. -/
def scenarioWhileNoCondition : String := "while :\n    x = 1"

/-- An `elif` with no condition. -/
def scenarioElifNoCondition : String := "if a:\n    x = 1\nelif :\n    y = 2"

/-- A `for` with no iterable. -/
def scenarioForNoIterable : String := "for i in :\n    x = 1"

namespace ASTNode

mutual

/-- Some node of the tree has a null pointer among its children: `toParseTreeString`, which
calls `children[i]->toParseTreeString(...)` on every child, dereferences it. -/
def hasNullChild : ASTNode → Bool
  | .null => false
  | .node _ _ cs => anyNullChild cs

def anyNullChild : List ASTNode → Bool
  | [] => false
  | c :: cs => c.isNull || c.hasNullChild || anyNullChild cs

end

end ASTNode

/-- A `while` block of two statements. -/
def scenarioBlock : String := "while a:\n    b = 1\n    c = 2"

/-- The same block with an empty line between its two statements. -/
def scenarioBlockBlank : String := "while a:\n    b = 1\n\n    c = 2"

/-- A function whose body ends with a bare `return`, followed by a statement of the
enclosing level. -/
def scenarioReturnThenStmt : String := "def f():\n    return\nx = 1"

/-- A triple-quoted string that spans two physical lines. -/
def scenarioTripleTwoLines : String := "x = \"\"\"a\nb\"\"\""

/-- An unterminated triple-quoted string that spans two physical lines. -/
def scenarioTripleOpenTwoLines : String := "x = \"\"\"a\nb"

namespace ASTNode

mutual

/-- No BinaryOp node of the tree has the operator `%`. -/
def noRemainder : ASTNode → Bool
  | .null => true
  | .node k token cs => !(decide (k = .BinaryOp ∧ token.value = "%")) && noRemainderAll cs

def noRemainderAll : List ASTNode → Bool
  | [] => true
  | c :: cs => noRemainder c && noRemainderAll cs

end

end ASTNode

namespace Parser

/-- No token of the list is the operator `%`. -/
def NoRemTokens (ts : List Token) : Prop := ∀ t ∈ ts, ¬ (t.type = .Operator ∧ t.value = "%")

/-- What a parsing function leaves when it returns: the cursor moved on, the table and the
indent stack are untouched, and, if no token is the operator `%` and `pre` holds of what it
was given, no BinaryOp of the tree has the operator `%`. -/
def Kept (pre : Prop) (p : Parser) (r : Res ASTNode) : Prop :=
  ∀ n q, r = .ok (n, q) → Later q p ∧ (NoRemTokens p.stream → pre → n.noRemainder = true)

def ExprKept (f : Nat → Parser → Res ASTNode) (fuel : Nat) : Prop :=
  ∀ p, Kept True p (f fuel p)

def LoopKept (f : Nat → ASTNode → Parser → Res ASTNode) (fuel : Nat) : Prop :=
  ∀ node p, Kept (node.noRemainder = true) p (f fuel node p)

def OpLoopKept (f : Nat → Token → ASTNode → Parser → Res ASTNode) (fuel : Nat) : Prop :=
  ∀ op node p, Kept (node.noRemainder = true ∧ (op = p.currentToken ∨ op.value ≠ "%")) p
    (f fuel op node p)

def ArgsKept (fuel : Nat) : Prop :=
  ∀ args p r q, parseArgs fuel args p = .ok (r, q) →
    Later q p ∧ (NoRemTokens p.stream → ASTNode.noRemainderAll args = true →
      ASTNode.noRemainderAll r = true)

structure ExprKeeps (fuel : Nat) : Prop where
  funcCall : ExprKept parseFuncCall fuel
  primary : ExprKept parsePrimary fuel
  unary : ExprKept parseUnary fuel
  factorLoop : LoopKept factorLoop fuel
  factor : ExprKept parseFactor fuel
  termLoop : LoopKept termLoop fuel
  term : ExprKept parseTerm fuel
  relationalLoop : LoopKept relationalLoop fuel
  relational : ExprKept parseRelational fuel
  equalityLoop : LoopKept equalityLoop fuel
  equality : ExprKept parseEquality fuel
  andLoop : OpLoopKept andLoop fuel
  logicalAnd : ExprKept parseLogicalAnd fuel
  orLoop : OpLoopKept orLoop fuel
  logicalOr : ExprKept parseLogicalOr fuel
  expr : ExprKept parseExpr fuel
  args : ArgsKept fuel

/-- What a statement parser leaves when it returns: the cursor moved on, both stacks are as
they were, and no BinaryOp of the tree has the operator `%` if no token is that operator. -/
def Held (p : Parser) (n : ASTNode) (q : Parser) : Prop :=
  Frame q p ∧ (NoRemTokens p.stream → n.noRemainder = true)

def StmtHeld (f : Nat → Parser → Res ASTNode) (fuel : Nat) : Prop :=
  ∀ p n q, TInv p.symbolTable → f fuel p = .ok (n, q) → Held p n q

def BlockLoopHeld (fuel : Nat) : Prop :=
  ∀ b lvl cs p r q, TInv p.symbolTable → blockLoop fuel b lvl cs p = .ok (r, q) →
    Frame q p ∧ (NoRemTokens p.stream → ASTNode.noRemainderAll cs = true →
      ASTNode.noRemainderAll r = true)

/-- The body of a block, when it returns, has popped the scope and the indent level of the
block. -/
def BlockBodyHeld (fuel : Nat) : Prop :=
  ∀ b lvl p n q, TInv p.symbolTable → 2 ≤ p.symbolTable.scopeNames.length →
    parseBlockBody fuel b lvl p = .ok (n, q) →
    Follows q p ∧ q.symbolTable.scopeNames = p.symbolTable.scopeNames.tail ∧
      TInv q.symbolTable ∧ q.indentStack = p.indentStack.tail ∧
      (NoRemTokens p.stream → n.noRemainder = true)

def ElifLoopHeld (fuel : Nat) : Prop :=
  ∀ lvl cs p r q, TInv p.symbolTable → elifLoop fuel lvl cs p = .ok (r, q) →
    Frame q p ∧ (NoRemTokens p.stream → ASTNode.noRemainderAll cs = true →
      ASTNode.noRemainderAll r = true)

structure StmtKeeps (fuel : Nat) : Prop where
  stmt : StmtHeld parseStmt fuel
  loop : BlockLoopHeld fuel
  body : BlockBodyHeld fuel
  elifs : ElifLoopHeld fuel
  elseS : StmtHeld parseElseStmt fuel
  ifS : StmtHeld parseIfStmt fuel
  forS : StmtHeld parseForStmt fuel
  whileS : StmtHeld parseWhileStmt fuel
  defS : StmtHeld parseFuncDef fuel

end Parser

namespace ASTNode

/-- A Number node carries the tag "int" or "float". -/
def numberTagged : ASTNode → Bool
  | .node (.Number _ tag) _ _ => tag = "int" || tag = "float"
  | _ => true

end ASTNode

namespace Parser

/-- The node of a result, if it is a Number, is tagged "int" or "float". -/
def TaggedRes (r : Res ASTNode) : Prop := ∀ n q, r = .ok (n, q) → n.numberTagged = true

def ExprTagged (f : Nat → Parser → Res ASTNode) (fuel : Nat) : Prop :=
  ∀ p, TaggedRes (f fuel p)

def LoopTagged (f : Nat → ASTNode → Parser → Res ASTNode) (fuel : Nat) : Prop :=
  ∀ node p, node.numberTagged = true → TaggedRes (f fuel node p)

def OpLoopTagged (f : Nat → Token → ASTNode → Parser → Res ASTNode) (fuel : Nat) : Prop :=
  ∀ op node p, node.numberTagged = true → TaggedRes (f fuel op node p)

structure ExprTags (fuel : Nat) : Prop where
  funcCall : ExprTagged parseFuncCall fuel
  primary : ExprTagged parsePrimary fuel
  unary : ExprTagged parseUnary fuel
  factorLoop : LoopTagged factorLoop fuel
  factor : ExprTagged parseFactor fuel
  termLoop : LoopTagged termLoop fuel
  term : ExprTagged parseTerm fuel
  relationalLoop : LoopTagged relationalLoop fuel
  relational : ExprTagged parseRelational fuel
  equalityLoop : LoopTagged equalityLoop fuel
  equality : ExprTagged parseEquality fuel
  andLoop : OpLoopTagged andLoop fuel
  logicalAnd : ExprTagged parseLogicalAnd fuel
  orLoop : OpLoopTagged orLoop fuel
  logicalOr : ExprTagged parseLogicalOr fuel
  expr : ExprTagged parseExpr fuel

end Parser

/-- The dataType that the specification gives to a name assigned the expression `expr`, in
the table `t`: the tag of a Number, "string" for a String, "boolean" for a Boolean, the
dataType of the entry for an identifier and of the callee for a call when it is known, and
"expr" in every other case. -/
def specAssignType (t : ParserSymbolTable) : ASTNode → String
  | .node (.Number _ tag) _ _ => tag
  | .node .String _ _ => "string"
  | .node .Boolean _ _ => "boolean"
  | .node .Identifier token _ =>
      match t.lookupEntry token.value with
      | some e => if e.dataType = "unknown" then "expr" else e.dataType
      | none => "expr"
  | .node .Call token _ =>
      match t.lookupEntry token.value with
      | some e => if e.role = "function" ∧ e.dataType ≠ "unknown" then e.dataType else "expr"
      | none => "expr"
  | _ => "expr"

/-- A parser on the tokens of `c = a + 1`, at the name, with `a` declared as an int. -/
def assignSumParser : Parser :=
  { rest := [tok .Operator "=" 1 3, tok .Identifier "a" 1 5, tok .Operator "+" 1 7,
             tok .Number "1" 1 9, tok .EOFToken "EOF" 1 10],
    currentToken := tok .Identifier "c" 1 1,
    symbolTable := ({} : ParserSymbolTable).declare "a" "int" "variable" "2.000000" }

/-- A source with the character `%` between two numbers. -/
def scenarioRemainder : String := "x = 7 % 2"

/-- How a run of the checked parser can fail to return: the assertion at the entry of
`parseStmt` fails, or the parser itself faults. -/
inductive CheckedFault
  | unbalanced
  | fault (f : Fault)
deriving DecidableEq, Repr

abbrev CheckedRes (α : Type) := Except CheckedFault (α × Parser)

/-- A result of the parser as a result of the checked parser. -/
def liftRes {α : Type} : Except Fault α → Except CheckedFault α
  | .ok v => .ok v
  | .error f => .error (.fault f)

namespace Parser

/-- The two stacks have the same depth:
`symbolTable.scopeNames.size() == indentStack.size()`. -/
def balanced (p : Parser) : Bool := p.symbolTable.scopeNames.length = p.indentStack.length

mutual

/-- The method `parseStmt` with the assertion `balanced` added at its entry; the functions
below are the statement parsers with their calls of `parseStmt` going to this one. -/
def parseStmtChecked : Nat → Parser → CheckedRes ASTNode
  | 0, _ => .error (.fault .outOfFuel)
  | fuel + 1, p =>
      if ¬ p.balanced then .error .unbalanced
      else if p.currentToken.type = .EOFToken then .ok (.null, p)
      else if p.currentToken.type = .Identifier ∧ ¬ p.isValidStatementStart then
        .ok (.null, (p.errorHere
          ("Invalid statement starting with identifier: " ++ p.currentToken.value)).advance)
      else
        match p.currentToken.type with
        | .Keyword =>
            if p.currentToken.value = "if" then parseIfStmtChecked fuel p
            else if p.currentToken.value = "while" then parseWhileStmtChecked fuel p
            else if p.currentToken.value = "def" then parseFuncDefChecked fuel p
            else if p.currentToken.value = "return" then liftRes (parseReturnStmt fuel p)
            else if p.currentToken.value = "for" then parseForStmtChecked fuel p
            else if p.currentToken.value = "elif" ∨ p.currentToken.value = "else" then
              if p.symbolTable.getCurrentScope = "if block" then .ok (.null, p)
              else
                match liftRes (p.errorHere
                  ("Unexpected token at start of statement: " ++ p.currentToken.value)).synchronize with
                | .error f => .error f
                | .ok p1 => .ok (.null, p1)
            else .ok (.null, (p.errorHere "Invalid statement").advance)
        | .Identifier =>
            if p.peekNextToken.value = "(" then liftRes (parseFuncCallStmt fuel p)
            else liftRes (parseAssignStmt fuel p)
        | _ =>
            .ok (.null, (p.errorHere
              ("Unexpected token at start of statement: " ++ p.currentToken.value)).advance)

def blockLoopChecked : Nat → Bool → Int → List ASTNode → Parser → CheckedRes (List ASTNode)
  | 0, _, _, _, _ => .error (.fault .outOfFuel)
  | fuel + 1, breakOnNull, blockIndent, children, p =>
      if p.currentToken.type = .EOFToken then .ok (children, p)
      else if p.currentToken.type = .Indent then
        match stoi p.currentToken.value with
        | none => .error (.fault .exception)
        | some level =>
            if level ≥ blockIndent then
              match liftRes (p.expectIndent blockIndent) with
              | .error f => .error f
              | .ok p1 => blockLoopChecked fuel breakOnNull blockIndent children p1
            else .ok (children, p)
      else
        match parseStmtChecked fuel p with
        | .error f => .error f
        | .ok (stmt, p1) =>
            if ¬ stmt.isNull then
              blockLoopChecked fuel breakOnNull blockIndent (children ++ [stmt]) p1
            else if breakOnNull then .ok (children, p1)
            else blockLoopChecked fuel breakOnNull blockIndent children p1

def parseBlockBodyChecked : Nat → Bool → Int → Parser → CheckedRes ASTNode
  | 0, _, _, _ => .error (.fault .outOfFuel)
  | fuel + 1, breakOnNull, blockIndent, p =>
      let blockToken := p.currentToken
      match blockLoopChecked fuel breakOnNull blockIndent [] p with
      | .error f => .error f
      | .ok (children, p1) =>
          match liftRes (p1.withTable p1.symbolTable.endScope).popIndent with
          | .error f => .error f
          | .ok p2 => .ok (BlockNode blockToken children, p2)

def elifLoopChecked : Nat → Int → List ASTNode → Parser → CheckedRes (List ASTNode)
  | 0, _, _, _ => .error (.fault .outOfFuel)
  | fuel + 1, ifIndent, elifBranches, p =>
      match (if p.currentToken.type = .Indent then
               match stoi p.currentToken.value with
               | none => (.error (.fault .exception) : Except CheckedFault (Option Parser))
               | some currentIndent => if currentIndent ≠ ifIndent then .ok none else .ok (some p.advance)
             else .ok (some p)) with
      | .error f => .error f
      | .ok none => .ok (elifBranches, p)
      | .ok (some p0) =>
          if p0.currentToken.type ≠ .Keyword ∨ p0.currentToken.value ≠ "elif" then
            .ok (elifBranches, p0)
          else
            let elifToken := p0.currentToken
            match liftRes (p0.expect .Keyword "Expected 'elif' keyword" "elif") with
            | .error f => .error f
            | .ok p1 =>
              match liftRes (parseExpr fuel p1) with
              | .error f => .error f
              | .ok (elifCondition, p2) =>
                match liftRes (p2.expect .Delimiter "Expected ':' after elif condition" ":") with
                | .error f => .error f
                | .ok p3 =>
                  let elifBlockIndent := ifIndent + 1
                  match liftRes ((p3.pushIndent elifBlockIndent).expectIndent elifBlockIndent) with
                  | .error f => .error f
                  | .ok p4 =>
                    match parseBlockBodyChecked fuel false elifBlockIndent
                        (p4.withTable (p4.symbolTable.beginScope "elif block")) with
                    | .error f => .error f
                    | .ok (elifBlock, p5) =>
                        elifLoopChecked fuel ifIndent
                          (elifBranches ++ [ElifNode elifToken elifCondition elifBlock]) p5

def parseElseStmtChecked : Nat → Parser → CheckedRes ASTNode
  | 0, _ => .error (.fault .outOfFuel)
  | fuel + 1, p =>
      match liftRes (p.expect .Keyword "Expected 'else' keyword" "else") with
      | .error f => .error f
      | .ok p1 =>
        match liftRes (p1.expect .Delimiter "Expected ':' after else" ":") with
        | .error f => .error f
        | .ok p2 =>
          let blockIndent := p2.currentIndent + 1
          match liftRes ((p2.pushIndent blockIndent).expectIndent blockIndent) with
          | .error f => .error f
          | .ok p3 =>
              parseBlockBodyChecked fuel false blockIndent
                (p3.withTable (p3.symbolTable.beginScope "else block"))

def parseIfStmtChecked : Nat → Parser → CheckedRes ASTNode
  | 0, _ => .error (.fault .outOfFuel)
  | fuel + 1, p =>
      let ifToken := p.currentToken
      match liftRes (p.expect .Keyword "Expected 'if' keyword" "if") with
      | .error f => .error f
      | .ok p1 =>
        match liftRes (parseExpr fuel p1) with
        | .error f => .error f
        | .ok (condition, p2) =>
          match liftRes (p2.expect .Delimiter "Expected ':' after if condition" ":") with
          | .error f => .error f
          | .ok p3 =>
            let ifIndent := p3.currentIndent
            let blockIndent := ifIndent + 1
            match liftRes ((p3.pushIndent blockIndent).expectIndent blockIndent) with
            | .error f => .error f
            | .ok p4 =>
              match parseBlockBodyChecked fuel true blockIndent
                  (p4.withTable (p4.symbolTable.beginScope "if block")) with
              | .error f => .error f
              | .ok (thenBlock, p5) =>
                match elifLoopChecked fuel ifIndent [] p5 with
                | .error f => .error f
                | .ok (elifBranches, p6) =>
                  match (if p6.currentToken.type = .Indent then
                           match stoi p6.currentToken.value with
                           | none => (.error (.fault .exception) : CheckedRes ASTNode)
                           | some currentIndent =>
                               if currentIndent = ifIndent then
                                 if p6.advance.currentToken.type = .Keyword ∧
                                    p6.advance.currentToken.value = "else" then
                                   parseElseStmtChecked fuel p6.advance
                                 else .ok (.null, p6.advance)
                               else .ok (.null, p6)
                         else if p6.currentToken.type = .Keyword ∧ p6.currentToken.value = "else" then
                           parseElseStmtChecked fuel p6
                         else .ok (.null, p6)) with
                  | .error f => .error f
                  | .ok (elseBlock, p7) =>
                      .ok (IfNode ifToken condition thenBlock elseBlock elifBranches, p7)

def parseForStmtChecked : Nat → Parser → CheckedRes ASTNode
  | 0, _ => .error (.fault .outOfFuel)
  | fuel + 1, p =>
      let forToken := p.currentToken
      match liftRes (p.expect .Keyword "Expected 'for' keyword" "for") with
      | .error f => .error f
      | .ok p1 =>
        match liftRes (parsePrimary fuel p1) with
        | .error f => .error f
        | .ok (var, p2) =>
          if var.getNodeType ≠ "Identifier" then
            .ok (.null, p2.errorHere "Expected identifier after 'for'")
          else
            match liftRes (p2.expect .Keyword "Expected 'in' after loop variable" "in") with
            | .error f => .error f
            | .ok p3 =>
              match liftRes (parseExpr fuel p3) with
              | .error f => .error f
              | .ok (iterable, p4) =>
                if iterable.isNull then
                  .ok (.null, p4.errorHere "Expected iterable expression after 'in'")
                else
                  match liftRes (p4.expect .Delimiter "Expected ':' after for loop header" ":") with
                  | .error f => .error f
                  | .ok p5 =>
                    let blockIndent := p5.currentIndent + 1
                    match liftRes ((p5.pushIndent blockIndent).expectIndent blockIndent) with
                    | .error f => .error f
                    | .ok p6 =>
                      match parseBlockBodyChecked fuel false blockIndent
                          (p6.withTable (p6.symbolTable.beginScope "for loop")) with
                      | .error f => .error f
                      | .ok (body, p7) => .ok (ForNode forToken var iterable body, p7)

def parseWhileStmtChecked : Nat → Parser → CheckedRes ASTNode
  | 0, _ => .error (.fault .outOfFuel)
  | fuel + 1, p =>
      let whileToken := p.currentToken
      match liftRes (p.expect .Keyword "Expected 'while' keyword" "while") with
      | .error f => .error f
      | .ok p1 =>
        match liftRes (parseExpr fuel p1) with
        | .error f => .error f
        | .ok (condition, p2) =>
          match liftRes (p2.expect .Delimiter "Expected ':' after while condition" ":") with
          | .error f => .error f
          | .ok p3 =>
            let blockIndent := p3.currentIndent + 1
            match liftRes ((p3.pushIndent blockIndent).expectIndent blockIndent) with
            | .error f => .error f
            | .ok p4 =>
              match parseBlockBodyChecked fuel false blockIndent
                  (p4.withTable (p4.symbolTable.beginScope "while block")) with
              | .error f => .error f
              | .ok (body, p5) => .ok (WhileNode whileToken condition body, p5)

def parseFuncDefChecked : Nat → Parser → CheckedRes ASTNode
  | 0, _ => .error (.fault .outOfFuel)
  | fuel + 1, p =>
      let defToken := p.currentToken
      match liftRes (p.expect .Keyword "Expected 'def' keyword" "def") with
      | .error f => .error f
      | .ok p1 =>
        let funcNameToken := p1.currentToken
        match liftRes (p1.expect .Identifier "Expected function name after 'def'") with
        | .error f => .error f
        | .ok p2 =>
          let p3 := p2.withTable
            ((p2.symbolTable.declare funcNameToken.value "function" "function" "unknown").beginScope
              (funcNameToken.value ++ " (function)"))
          match liftRes (p3.expect .Delimiter "Expected '(' after function name" "(") with
          | .error f => .error f
          | .ok p4 =>
            match liftRes (if p4.currentToken.type = .Identifier then
                     paramLoop fuel [p4.currentToken.value]
                       (p4.withTable (p4.symbolTable.declare p4.currentToken.value "unknown" "parameter")).advance
                   else .ok ([], p4)) with
            | .error f => .error f
            | .ok (paramNames, p5) =>
              match liftRes (p5.expect .Delimiter "Expected ')' after parameter list" ")") with
              | .error f => .error f
              | .ok p6 =>
                match liftRes (p6.expect .Delimiter "Expected ':' after function definition" ":") with
                | .error f => .error f
                | .ok p7 =>
                  let blockIndent := p7.currentIndent + 1
                  match liftRes ((p7.pushIndent blockIndent).expectIndent blockIndent) with
                  | .error f => .error f
                  | .ok p8 =>
                    match parseBlockBodyChecked fuel false blockIndent p8 with
                    | .error f => .error f
                    | .ok (body, p9) =>
                        .ok (FunctionDefNode defToken funcNameToken.value paramNames body, p9)

end

/-- The loop of `parseProgram`, with its calls of `parseStmt` checked. -/
def programLoopChecked : Nat → List ASTNode → Parser → CheckedRes (List ASTNode)
  | 0, _, _ => .error (.fault .outOfFuel)
  | fuel + 1, children, p =>
      if p.currentToken.type = .EOFToken then .ok (children, p)
      else
        match liftRes (if p.currentToken.type = .Indent then p.expectIndent 0 else .ok p) with
        | .error f => .error f
        | .ok p1 =>
          match parseStmtChecked fuel p1 with
          | .error f => .error f
          | .ok (stmt, p2) =>
              programLoopChecked fuel (if stmt.isNull then children else children ++ [stmt]) p2

def parseProgramChecked (fuel : Nat) (p : Parser) : CheckedRes ASTNode :=
  match programLoopChecked fuel [] p with
  | .error f => .error f
  | .ok (children, p1) => .ok (ProgramNode children, p1)

/-- The checked parser and the parser agree: the assertion never fails. -/
def Agrees {α : Type} (c : CheckedRes α) (r : Res α) : Prop := c = liftRes r

def StmtChecked (fc : Nat → Parser → CheckedRes ASTNode) (f : Nat → Parser → Res ASTNode)
    (fuel : Nat) : Prop :=
  ∀ p, p.balanced = true → TInv p.symbolTable → fc fuel p = liftRes (f fuel p)

structure StmtChecks (fuel : Nat) : Prop where
  stmt : StmtChecked parseStmtChecked parseStmt fuel
  loop : ∀ b lvl cs p, p.balanced = true → TInv p.symbolTable →
    blockLoopChecked fuel b lvl cs p = liftRes (blockLoop fuel b lvl cs p)
  body : ∀ b lvl p, p.balanced = true → TInv p.symbolTable →
    parseBlockBodyChecked fuel b lvl p = liftRes (parseBlockBody fuel b lvl p)
  elifs : ∀ lvl cs p, p.balanced = true → TInv p.symbolTable →
    elifLoopChecked fuel lvl cs p = liftRes (elifLoop fuel lvl cs p)
  elseS : StmtChecked parseElseStmtChecked parseElseStmt fuel
  ifS : StmtChecked parseIfStmtChecked parseIfStmt fuel
  forS : StmtChecked parseForStmtChecked parseForStmt fuel
  whileS : StmtChecked parseWhileStmtChecked parseWhileStmt fuel
  defS : StmtChecked parseFuncDefChecked parseFuncDef fuel

end Parser

/-- A program with nested blocks of every kind and two statements in error. -/
def scenarioNested : String :=
  "def f(a):\n    if a:\n        return 1\n    elif :\n        b c\n    else:\n        x = 2\n" ++
  "for i in a:\n    while i:\n        y = 1\n    z 3\nw = 4"

/-- The run stopped at the assertion. -/
def CheckedRes.failedCheck {α : Type} : CheckedRes α → Bool
  | .error .unbalanced => true
  | _ => false

namespace Parser

/-- Both stacks of `q` are those of `p`: the names of the scopes, the number of frames, and
the indent levels. -/
def SameStacks (q p : Parser) : Prop :=
  q.symbolTable.scopeNames = p.symbolTable.scopeNames ∧
    q.symbolTable.scopes.length = p.symbolTable.scopes.length ∧
    q.indentStack = p.indentStack

end Parser

/-- A statement in error, then a good one, in a `while` block. -/
def scenarioRecoverWhile : String := "while a:\n    b c\n    d = 1"

/-- The same two statements in a `for` block. -/
def scenarioRecoverFor : String := "for i in a:\n    b c\n    d = 1"

/-- The same two statements in the body of a function. -/
def scenarioRecoverDef : String := "def f():\n    b c\n    d = 1"

/-- The same two statements in an `else` block. -/
def scenarioRecoverElse : String := "if a:\n    x = 1\nelse:\n    b c\n    d = 1"

/-- The same two statements in an `elif` block. -/
def scenarioRecoverElif : String := "if a:\n    x = 1\nelif a:\n    b c\n    d = 1"

/-- The same two statements in the block of an `if`. -/
def scenarioRecoverIf : String := "if a:\n    b c\n    d = 1"

namespace ASTNode

mutual

/-- The kinds of the nodes of a tree, written as a term: the kind of the node, then its
children between parentheses. -/
def outline : ASTNode → String
  | .null => "null"
  | .node k t [] => (ASTNode.node k t []).getNodeType
  | .node k t (c :: cs) => (ASTNode.node k t []).getNodeType ++ "(" ++ outlineAll (c :: cs) ++ ")"

def outlineAll : List ASTNode → String
  | [] => ""
  | [c] => outline c
  | c :: d :: cs => outline c ++ ", " ++ outlineAll (d :: cs)

end

end ASTNode

namespace Parser

/-- The names and scopes of the entries of the table after a parse, and the number of
errors. -/
def scopesAfter (source : String) : Option (List (String × String) × Nat) :=
  (runParser (lexTokens source)).toOption.map
    (fun r => (r.2.symbolTable.entries.map (fun e => (e.name, e.scope)), r.2.errors.length))

/-- The outline of the tree after a parse. -/
def treeAfter (source : String) : Option String :=
  (runParser (lexTokens source)).toOption.map (fun r => r.1.outline)

end Parser

/-- Scenario 3 with a comment line between the then-block and the `elif`. -/
def scenarioIfCommentElif : String :=
  "if a == 1:\n    b = 2\n# second case\nelif a == 2:\n    b = 3\nelse:\n    b = 4"

/-- Scenario 3 with an empty line between the then-block and the `elif`. -/
def scenarioIfBlankElif : String :=
  "if a == 1:\n    b = 2\n\nelif a == 2:\n    b = 3\nelse:\n    b = 4"

/-- Scenario 3 with a comment line between the elif block and the `else`. -/
def scenarioIfCommentElse : String :=
  "if a == 1:\n    b = 2\nelif a == 2:\n    b = 3\n# last case\nelse:\n    b = 4"

/-- Two assignments to the same name, the second of the String literal `unknown`. -/
def scenarioAssignUnknown : String := "x = 1\nx = \"unknown\""

namespace ASTNode

mutual

/-- The text of an expression tree with every operation between parentheses: a leaf is
the lexeme of its token, a node with children is its own lexeme between its children
(before its child when there is one). -/
def exprText : ASTNode → String
  | .null => "null"
  | .node _ t [] => t.value
  | .node _ t [c] => "(" ++ t.value ++ " " ++ exprText c ++ ")"
  | .node _ t (c :: d :: cs) =>
      "(" ++ exprText c ++ " " ++ t.value ++ " " ++ exprTextAll (d :: cs) ++ ")"

def exprTextAll : List ASTNode → String
  | [] => ""
  | [c] => exprText c
  | c :: d :: cs => exprText c ++ " " ++ exprTextAll (d :: cs)

end

end ASTNode

namespace Parser

/-- The node `parsePrimary` builds from one token that is a literal or a name: its first
four cases. `none` for every other token, and for a Number that `std::stod` rejects. -/
def atomNode (t : Token) : Option ASTNode :=
  if t.type = .Number then NumberNode t
  else if t.type = .String then some (StringNode t)
  else if t.type = .Keyword ∧ (t.value = "True" ∨ t.value = "False") then some (BooleanNode t)
  else if t.type = .Identifier then some (IdentifierNode t)
  else none

/-- The texts of the right-hand sides of the assignments of a source, with the number of
errors of the parse. -/
def exprsOf (source : String) : Option (List String × Nat) :=
  (runParser (lexTokens source)).toOption.map (fun r =>
    (r.1.children?.map (fun s => ASTNode.exprTextAll (s.children?.drop 1)), r.2.errors.length))

/-- The tokens of `a + b * c`. -/
def precedenceTokens : List Token :=
  [tok .Identifier "a" 1 1, tok .Operator "+" 1 3, tok .Identifier "b" 1 5,
   tok .Operator "*" 1 7, tok .Identifier "c" 1 9, tok .EOFToken "EOF" 1 10]

end Parser

/-! # Theorems -/

/-! ## The lexer only moves by `advance`, over characters other than NUL -/

theorem Adv.trans {a b c : Lexer} {cs ds : List Char} (h1 : Adv a cs b) (h2 : Adv b ds c) :
    Adv a (cs ++ ds) c := by
  induction h2 with
  | refl => simpa using h1
  | step c r _ hr hc ih => rw [← List.append_assoc]; exact Adv.step c r ih hr hc
  | table st _ ih => exact Adv.table st ih
  | unflag _ ih => exact Adv.unflag ih

theorem Lexer.peek_eq_of_rest {lx : Lexer} {c : Char} {r : List Char} (h : lx.rest = c :: r) :
    lx.peek = c := by
  simp [Lexer.peek, h]

theorem Lexer.peek_nil {lx : Lexer} (h : lx.rest = []) : lx.peek = NUL := by
  simp [Lexer.peek, h]

theorem Lexer.rest_of_peek_ne {lx : Lexer} (h : lx.peek ≠ NUL) :
    ∃ r, lx.rest = lx.peek :: r := by
  cases hr : lx.rest with
  | nil => exact absurd (Lexer.peek_nil hr) h
  | cons c r => exact ⟨r, by rw [Lexer.peek_eq_of_rest hr]⟩

theorem Adv.one {lx : Lexer} (h : lx.peek ≠ NUL) : Adv lx [lx.peek] lx.advance.2 := by
  obtain ⟨r, hr⟩ := Lexer.rest_of_peek_ne h
  simpa using Adv.step lx.peek r (Adv.refl lx) hr h

@[simp] theorem Lexer.advance_rest (lx : Lexer) : lx.advance.2.rest = lx.rest.tail := by
  unfold Lexer.advance; dsimp only; split_ifs <;> rfl

@[simp] theorem Lexer.advance_input (lx : Lexer) : lx.advance.2.input = lx.input := by
  unfold Lexer.advance; dsimp only; split_ifs <;> rfl

@[simp] theorem Lexer.advance_fst (lx : Lexer) : lx.advance.1 = lx.peek := by
  unfold Lexer.advance; dsimp only; split_ifs <;> rfl

theorem Adv.rest_eq {a b : Lexer} {cs : List Char} (h : Adv a cs b) : a.rest = cs ++ b.rest := by
  induction h with
  | refl => simp
  | step c r _ hr _ ih => simp [ih, hr]
  | table st _ ih => simpa using ih
  | unflag _ ih => simpa using ih

theorem Adv.input_eq {a b : Lexer} {cs : List Char} (h : Adv a cs b) : b.input = a.input := by
  induction h with
  | refl => rfl
  | step c r _ _ _ ih => simpa using ih
  | table st _ ih => simpa using ih
  | unflag _ ih => simpa using ih

theorem Adv.length_le {a b : Lexer} {cs : List Char} (h : Adv a cs b) :
    b.rest.length + cs.length = a.rest.length := by
  rw [h.rest_eq]; simp; omega

/-! ### The loops -/

theorem advanceWhile_adv (p : Char → Bool) (hp : p NUL = false) :
    ∀ (n : Nat) (lx : Lexer), lx.rest.length ≤ n →
      ∃ cs, Adv lx cs (advanceWhile p n lx) ∧ (∀ c ∈ cs, p c = true) ∧
        p (advanceWhile p n lx).peek = false ∧ (p lx.peek = true → cs ≠ []) := by
  intro n
  induction n with
  | zero =>
      intro lx h
      have : lx.rest = [] := List.length_eq_zero.mp (Nat.le_zero.mp h)
      exact ⟨[], Adv.refl lx, by simp, by simp [advanceWhile, Lexer.peek_nil this, hp],
        by simp [Lexer.peek_nil this, hp]⟩
  | succ n ih =>
      intro lx h
      unfold advanceWhile
      by_cases hpk : p lx.peek = true
      · have hne : lx.peek ≠ NUL := fun e => by rw [e, hp] at hpk; exact Bool.noConfusion hpk
        obtain ⟨r, hr⟩ := Lexer.rest_of_peek_ne hne
        have hlen : lx.advance.2.rest.length ≤ n := by
          simp [hr] at h ⊢; omega
        obtain ⟨cs, hadv, hall, hstop, -⟩ := ih lx.advance.2 hlen
        refine ⟨lx.peek :: cs, ?_, ?_, ?_, by simp⟩
        · rw [if_pos hpk]; simpa using (Adv.one hne).trans hadv
        · intro c hc
          rcases List.mem_cons.mp hc with rfl | hc
          · exact hpk
          · exact hall c hc
        · rw [if_pos hpk]; exact hstop
      · refine ⟨[], ?_, by simp, ?_, fun h => absurd h hpk⟩
        · rw [if_neg hpk]; exact Adv.refl lx
        · rw [if_neg hpk]; simpa using hpk

theorem collectWhile_adv (p : Char → Bool) (hp : p NUL = false) :
    ∀ (n : Nat) (lx : Lexer) (v : String), lx.rest.length ≤ n →
      ∃ cs, Adv lx cs (collectWhile p n lx v).2 ∧ (∀ c ∈ cs, p c = true) ∧
        p (collectWhile p n lx v).2.peek = false ∧
        (collectWhile p n lx v).1 = v ++ String.mk cs ∧ (p lx.peek = true → cs ≠ []) := by
  intro n
  induction n with
  | zero =>
      intro lx v h
      have : lx.rest = [] := List.length_eq_zero.mp (Nat.le_zero.mp h)
      refine ⟨[], Adv.refl lx, by simp, by simp [collectWhile, Lexer.peek_nil this, hp], ?_,
        by simp [Lexer.peek_nil this, hp]⟩
      simp [collectWhile]
  | succ n ih =>
      intro lx v h
      unfold collectWhile
      by_cases hpk : p lx.peek = true
      · have hne : lx.peek ≠ NUL := fun e => by rw [e, hp] at hpk; exact Bool.noConfusion hpk
        obtain ⟨r, hr⟩ := Lexer.rest_of_peek_ne hne
        have hlen : lx.advance.2.rest.length ≤ n := by
          simp [hr] at h ⊢; omega
        obtain ⟨cs, hadv, hall, hstop, hval, -⟩ := ih lx.advance.2 (v.push lx.advance.1) hlen
        refine ⟨lx.peek :: cs, ?_, ?_, ?_, ?_, by simp⟩
        · rw [if_pos hpk]; simpa using (Adv.one hne).trans hadv
        · intro c hc
          rcases List.mem_cons.mp hc with rfl | hc
          · exact hpk
          · exact hall c hc
        · rw [if_pos hpk]; exact hstop
        · rw [if_pos hpk, hval]
          simp only [Lexer.advance_fst]
          apply String.ext
          simp [String.push]
      · refine ⟨[], ?_, by simp, ?_, ?_, fun h => absurd h hpk⟩
        · rw [if_neg hpk]; exact Adv.refl lx
        · rw [if_neg hpk]; simpa using hpk
        · rw [if_neg hpk]; simp

/-! ### The token readers -/

theorem nl_not_mem_of_all {p : Char → Bool} (hp : p '\n' = false) {cs : List Char}
    (h : ∀ c ∈ cs, p c = true) : '\n' ∉ cs := by
  intro hm
  have := h _ hm
  rw [hp] at this
  exact Bool.noConfusion this

theorem isIdentChar_nul : isIdentChar NUL = false := by decide

theorem isIdentChar_nl : isIdentChar '\n' = false := by decide

theorem isdigit_nul : isdigit NUL = false := by decide

theorem isdigit_nl : isdigit '\n' = false := by decide

theorem isBlank_nul : isBlank NUL = false := by decide

theorem isBlank_nl : isBlank '\n' = false := by decide

theorem isInlineSpace_nul : isInlineSpace NUL = false := by decide

theorem isInlineSpace_nl : isInlineSpace '\n' = false := by decide

theorem isCommentChar_nul : isCommentChar NUL = false := by decide

theorem isCommentChar_nl : isCommentChar '\n' = false := by decide

theorem isIdentChar_of_start {c : Char} (h : isIdentStart c = true) : isIdentChar c = true := by
  simp only [isIdentStart, isIdentChar, isalnum, Bool.or_eq_true] at h ⊢
  rcases h with h | h
  · exact Or.inl (Or.inl h)
  · exact Or.inr h

theorem getIdentifier_ok (lx : Lexer) (h : isIdentStart lx.peek = true) :
    TokOK lx lx.getIdentifier := by
  obtain ⟨cs, hadv, hall, -, -, hne⟩ :=
    collectWhile_adv isIdentChar isIdentChar_nul lx.rest.length lx "" (le_refl _)
  have hcs := hne (isIdentChar_of_start h)
  unfold Lexer.getIdentifier
  simp only
  split_ifs
  · exact ⟨cs, hcs, hadv, rfl, rfl, by simp, by simp,
      fun _ => nl_not_mem_of_all isIdentChar_nl hall⟩
  · exact ⟨cs, hcs, Adv.table _ hadv, rfl, rfl, by simp, by simp,
      fun _ => nl_not_mem_of_all isIdentChar_nl hall⟩

theorem Adv.mem_nl {a b : Lexer} {cs : List Char} {p : Char → Bool} (_h : Adv a cs b)
    (hp : p '\n' = false) (hall : ∀ c ∈ cs, p c = true) : '\n' ∉ cs :=
  nl_not_mem_of_all hp hall

theorem PartOK.nil (lx : Lexer) : PartOK lx lx := ⟨[], Adv.refl lx, by simp⟩

theorem PartOK.append {a b c : Lexer} (h1 : PartOK a b) (h2 : PartOK b c) : PartOK a c := by
  obtain ⟨cs, h1, n1⟩ := h1
  obtain ⟨ds, h2, n2⟩ := h2
  exact ⟨cs ++ ds, h1.trans h2, by simp [n1, n2]⟩

theorem PartOK.single {lx : Lexer} (h : lx.peek ≠ NUL) (hn : lx.peek ≠ '\n') :
    PartOK lx lx.advance.2 := ⟨[lx.peek], Adv.one h, by simpa using hn.symm⟩

theorem PartOK.collect (p : Char → Bool) (hp : p NUL = false) (hn : p '\n' = false)
    (lx : Lexer) (v : String) : PartOK lx (collectWhile p lx.rest.length lx v).2 := by
  obtain ⟨cs, hadv, hall, -⟩ := collectWhile_adv p hp lx.rest.length lx v (le_refl _)
  exact ⟨cs, hadv, nl_not_mem_of_all hn hall⟩

/-- From the parts to the whole: a first character that is read, then parts. -/
theorem TokOK.of_parts {lx : Lexer} {r : Token × Lexer} (h : lx.peek ≠ NUL) (hn : lx.peek ≠ '\n')
    (hp : PartOK lx.advance.2 r.2) (hl : r.1.line = r.2.line) (hc : r.1.column = lx.column)
    (h1 : r.1.type ≠ .Indent) (h2 : r.1.type ≠ .EOFToken) : TokOK lx r := by
  obtain ⟨cs, hadv, hnl⟩ := (PartOK.single h hn).append hp
  refine ⟨cs, ?_, hadv, hl, hc, h1, h2, fun _ => hnl⟩
  rintro rfl
  have h3 := hadv.length_le
  obtain ⟨ds, hd, -⟩ := hp
  have h4 := hd.length_le
  obtain ⟨t, ht⟩ := Lexer.rest_of_peek_ne h
  simp [ht] at h3 h4
  omega

theorem getOperator_ok (lx : Lexer)
    (h : lx.peek = '+' ∨ lx.peek = '-' ∨ lx.peek = '*' ∨ lx.peek = '/' ∨ lx.peek = '=' ∨
      lx.peek = '<' ∨ lx.peek = '>' ∨ lx.peek = '!' ∨ lx.peek = '.') :
    TokOK lx lx.getOperator := by
  have hne : lx.peek ≠ NUL := by
    rcases h with h | h | h | h | h | h | h | h | h <;> rw [h] <;> decide
  have hnl : lx.peek ≠ '\n' := by
    rcases h with h | h | h | h | h | h | h | h | h <;> rw [h] <;> decide
  unfold Lexer.getOperator
  simp only
  by_cases hc : (lx.advance.1 = '=' ∨ lx.advance.1 = '!' ∨ lx.advance.1 = '<' ∨ lx.advance.1 = '>') ∧
      lx.advance.2.peek = '='
  · have h2 : lx.advance.2.peek ≠ NUL := by rw [hc.2]; decide
    have h3 : lx.advance.2.peek ≠ '\n' := by rw [hc.2]; decide
    rw [if_pos hc]
    split_ifs <;>
      exact TokOK.of_parts hne hnl (PartOK.single h2 h3) rfl rfl (by simp) (by simp)
  · rw [if_neg hc]
    split_ifs <;>
      exact TokOK.of_parts hne hnl (PartOK.nil _) rfl rfl (by simp) (by simp)

theorem baseDigits_ok (base : Nat) (startCol : Int) :
    ∀ (n : Nat) (lx : Lexer) (v : String) (has : Bool), lx.rest.length ≤ n →
      PartOK lx (baseDigits base startCol n lx v has).2.2.2 ∧
      ∀ t, (baseDigits base startCol n lx v has).1 = some t →
        t.line = (baseDigits base startCol n lx v has).2.2.2.line ∧ t.column = startCol ∧
        t.type = .Error := by
  intro n
  induction n with
  | zero => intro lx v has _; exact ⟨by simpa [baseDigits] using PartOK.nil lx, by simp [baseDigits]⟩
  | succ n ih =>
      intro lx v has hlen
      unfold baseDigits
      by_cases h1 : isalnum lx.peek = true
      · rw [if_pos h1]
        simp only
        split_ifs with h2
        · exact ⟨PartOK.nil lx, by intro t ht; cases ht; exact ⟨rfl, rfl, rfl⟩⟩
        · have hne : lx.peek ≠ NUL := by intro e; rw [e] at h1; revert h1; decide
          have hnl : lx.peek ≠ '\n' := by intro e; rw [e] at h1; revert h1; decide
          obtain ⟨r, hr⟩ := Lexer.rest_of_peek_ne hne
          have hl : lx.advance.2.rest.length ≤ n := by simp [hr] at hlen ⊢; omega
          obtain ⟨hp, ht⟩ := ih lx.advance.2 (v.push lx.advance.1) true hl
          exact ⟨(PartOK.single hne hnl).append hp, ht⟩
      · rw [if_neg h1]
        exact ⟨PartOK.nil lx, by simp⟩

theorem getDecimal_ok (lx : Lexer) (v : String) (startCol : Int) :
    PartOK lx (lx.getDecimal v startCol).2 ∧
      (lx.getDecimal v startCol).1.line = (lx.getDecimal v startCol).2.line ∧
      (lx.getDecimal v startCol).1.column = startCol ∧
      (lx.getDecimal v startCol).1.type ≠ .Indent ∧
      (lx.getDecimal v startCol).1.type ≠ .EOFToken := by
  unfold Lexer.getDecimal
  simp only
  have p1 := PartOK.collect isdigit isdigit_nul isdigit_nl lx v
  generalize collectWhile isdigit lx.rest.length lx v = r1 at p1 ⊢
  obtain ⟨v1, lx1⟩ := r1
  simp only at p1 ⊢
  have p2 : PartOK lx (if lx1.peek = '.' then
      collectWhile isdigit lx1.advance.2.rest.length lx1.advance.2 (v1.push lx1.advance.1)
      else (v1, lx1)).2 := by
    split_ifs with hd
    · have h2 : lx1.peek ≠ NUL := by rw [hd]; decide
      have h3 : lx1.peek ≠ '\n' := by rw [hd]; decide
      exact (p1.append (PartOK.single h2 h3)).append (PartOK.collect isdigit isdigit_nul isdigit_nl _ _)
    · exact p1
  generalize (if lx1.peek = '.' then
      collectWhile isdigit lx1.advance.2.rest.length lx1.advance.2 (v1.push lx1.advance.1)
      else (v1, lx1)) = r2 at p2 ⊢
  obtain ⟨v2, lx2⟩ := r2
  simp only at p2 ⊢
  split_ifs
  · exact ⟨p2.append (PartOK.collect isIdentChar isIdentChar_nul isIdentChar_nl _ _),
      rfl, rfl, by simp, by simp⟩
  · exact ⟨p2, rfl, rfl, by simp, by simp⟩

theorem getNumber_ok (lx : Lexer) (h : isdigit lx.peek = true) : TokOK lx lx.getNumber := by
  have hne : lx.peek ≠ NUL := by intro e; rw [e] at h; revert h; decide
  have hnl : lx.peek ≠ '\n' := by intro e; rw [e] at h; revert h; decide
  unfold Lexer.getNumber
  simp only
  by_cases h0 : lx.peek = '0'
  · rw [if_pos h0]
    by_cases hx : tolower lx.advance.2.peek = 'x' ∨ tolower lx.advance.2.peek = 'o' ∨
        tolower lx.advance.2.peek = 'b'
    · rw [if_pos hx]
      have h2 : lx.advance.2.peek ≠ NUL := by
        intro e; rw [e] at hx; revert hx; decide
      have h3 : lx.advance.2.peek ≠ '\n' := by
        intro e; rw [e] at hx; revert hx; decide
      obtain ⟨hp, ht⟩ := baseDigits_ok
        (if tolower lx.advance.2.peek = 'x' then 16 else if tolower lx.advance.2.peek = 'o' then 8 else 2)
        lx.column lx.advance.2.advance.2.rest.length lx.advance.2.advance.2
        (("".push lx.advance.1).push lx.advance.2.advance.1) false (le_refl _)
      generalize baseDigits _ lx.column lx.advance.2.advance.2.rest.length lx.advance.2.advance.2
        (("".push lx.advance.1).push lx.advance.2.advance.1) false = r at hp ht ⊢
      obtain ⟨e, v3, has, lx3⟩ := r
      simp only at hp ht ⊢
      cases e with
      | some err =>
          obtain ⟨hl, hc, hty⟩ := ht err rfl
          exact TokOK.of_parts hne hnl ((PartOK.single h2 h3).append hp) hl hc (by simp [hty]) (by simp [hty])
      | none =>
          simp only
          split_ifs <;>
            exact TokOK.of_parts hne hnl ((PartOK.single h2 h3).append hp) rfl rfl (by simp) (by simp)
    · rw [if_neg hx]
      split_ifs
      · exact TokOK.of_parts hne hnl (PartOK.collect isdigit isdigit_nul isdigit_nl _ _)
          rfl rfl (by simp) (by simp)
      · obtain ⟨hp, hl, hc, h1, h2⟩ := getDecimal_ok lx.advance.2 ("".push lx.advance.1) lx.column
        exact TokOK.of_parts hne hnl hp hl hc h1 h2
  · rw [if_neg h0]
    obtain ⟨⟨cs, hadv, hnl2⟩, hl, hc, h1, h2⟩ := getDecimal_ok lx "" lx.column
    refine ⟨cs, ?_, hadv, hl, hc, h1, h2, fun _ => hnl2⟩
    rintro rfl
    -- the first digit is read by the first loop of `getDecimal`
    have hlen := hadv.length_le
    obtain ⟨r, hr⟩ := Lexer.rest_of_peek_ne hne
    have key : (lx.getDecimal "" lx.column).2.rest.length < lx.rest.length := by
      unfold Lexer.getDecimal
      simp only
      obtain ⟨ds, hd, -, -, -, hds⟩ :=
        collectWhile_adv isdigit isdigit_nul lx.rest.length lx "" (le_refl _)
      have hds := hds h
      have l1 := hd.length_le
      have : ds.length ≠ 0 := fun e => hds (List.length_eq_zero.mp e)
      generalize collectWhile isdigit lx.rest.length lx "" = r1 at hd l1 ⊢
      obtain ⟨v1, lx1⟩ := r1
      simp only at hd l1 ⊢
      have l2 : (if lx1.peek = '.' then
          collectWhile isdigit lx1.advance.2.rest.length lx1.advance.2 (v1.push lx1.advance.1)
          else (v1, lx1)).2.rest.length ≤ lx1.rest.length := by
        split_ifs with hdot
        · obtain ⟨es, he, -⟩ := collectWhile_adv isdigit isdigit_nul lx1.advance.2.rest.length
            lx1.advance.2 (v1.push lx1.advance.1) (le_refl _)
          have := he.length_le
          simp at this ⊢
          omega
        · exact le_refl _
      generalize (if lx1.peek = '.' then
          collectWhile isdigit lx1.advance.2.rest.length lx1.advance.2 (v1.push lx1.advance.1)
          else (v1, lx1)) = r2 at l2 ⊢
      obtain ⟨v2, lx2⟩ := r2
      simp only at l2 ⊢
      split_ifs
      · obtain ⟨es, he, -⟩ := collectWhile_adv isIdentChar isIdentChar_nul lx2.rest.length
          lx2 v2 (le_refl _)
        have := he.length_le
        simp only
        omega
      · simp only
        omega
    simp at hlen
    omega

theorem stringBody_ok (isTriple : Bool) (startCol : Int) :
    ∀ (n : Nat) (lx : Lexer) (v : String), lx.rest.length < n →
      ∃ cs, Adv lx cs (stringBody isTriple startCol n lx v).2 ∧ (isTriple = false → '\n' ∉ cs) ∧
        (stringBody isTriple startCol n lx v).1.line = (stringBody isTriple startCol n lx v).2.line ∧
        (stringBody isTriple startCol n lx v).1.column = startCol ∧
        (stringBody isTriple startCol n lx v).1.type ≠ .Indent ∧
        (stringBody isTriple startCol n lx v).1.type ≠ .EOFToken := by
  intro n
  induction n with
  | zero => intro lx v h; exact absurd h (Nat.not_lt_zero _)
  | succ n ih =>
      intro lx v hlen
      unfold stringBody
      by_cases h1 : lx.peek = NUL
      · rw [if_pos h1]
        exact ⟨[], Adv.refl lx, by simp, rfl, rfl, by simp, by simp⟩
      rw [if_neg h1]
      by_cases h2 : ¬ isTriple = true ∧ lx.peek = '\n'
      · rw [if_pos h2]
        exact ⟨[], Adv.refl lx, by simp, rfl, rfl, by simp, by simp⟩
      rw [if_neg h2]
      by_cases h3 : isTriple = true ∧ lx.peek = DQUOTE ∧ lx.peek 1 = DQUOTE ∧ lx.peek 2 = DQUOTE
      · rw [if_pos h3]
        obtain ⟨ht, q0, q1, q2⟩ := h3
        have e1 : lx.advance.2.peek = DQUOTE := by
          simp only [Lexer.peek, Lexer.advance_rest] at q1 ⊢
          cases hr : lx.rest with
          | nil => simp [hr] at q1; exact absurd q1.symm (by decide)
          | cons c r => simpa [hr] using q1
        have e2 : lx.advance.2.advance.2.peek = DQUOTE := by
          simp only [Lexer.peek, Lexer.advance_rest] at q2 ⊢
          cases hr : lx.rest with
          | nil => simp [hr] at q2; exact absurd q2.symm (by decide)
          | cons c r =>
              cases r with
              | nil => simp [hr] at q2; exact absurd q2.symm (by decide)
              | cons d r => simpa [hr] using q2
        have a0 := Adv.one h1
        have a1 : Adv lx.advance.2 [lx.advance.2.peek] lx.advance.2.advance.2 :=
          Adv.one (by rw [e1]; decide)
        have a2 : Adv lx.advance.2.advance.2 [lx.advance.2.advance.2.peek]
            lx.advance.2.advance.2.advance.2 := Adv.one (by rw [e2]; decide)
        exact ⟨_, (a0.trans a1).trans a2, by simp [ht], rfl, rfl, by simp, by simp⟩
      rw [if_neg h3]
      by_cases h4 : ¬ isTriple = true ∧ lx.peek = DQUOTE
      · rw [if_pos h4]
        refine ⟨[lx.peek], Adv.one h1, ?_, rfl, rfl, by simp, by simp⟩
        intro _
        rw [h4.2]
        decide
      rw [if_neg h4]
      obtain ⟨r, hr⟩ := Lexer.rest_of_peek_ne h1
      have hl : lx.advance.2.rest.length < n := by simp [hr] at hlen ⊢; omega
      obtain ⟨cs, hadv, hnl, hline, hcol, ht1, ht2⟩ := ih lx.advance.2 (v.push lx.advance.1) hl
      refine ⟨lx.peek :: cs, by simpa using (Adv.one h1).trans hadv, ?_, hline, hcol, ht1, ht2⟩
      intro hf
      have h5 : lx.peek ≠ '\n' := fun e => h2 ⟨by simp [hf], e⟩
      simp only [List.mem_cons, not_or]
      exact ⟨fun e => h5 e.symm, hnl hf⟩

theorem getString_ok (lx : Lexer) (h : lx.peek = DQUOTE) : TokOK lx lx.getString := by
  have hne : lx.peek ≠ NUL := by rw [h]; decide
  have hnl : lx.peek ≠ '\n' := by rw [h]; decide
  obtain ⟨r, hr⟩ := Lexer.rest_of_peek_ne hne
  unfold Lexer.getString
  simp only
  by_cases h1 : lx.advance.2.peek = DQUOTE
  · rw [if_pos h1]
    have hne1 : lx.advance.2.peek ≠ NUL := by rw [h1]; decide
    have hnl1 : lx.advance.2.peek ≠ '\n' := by rw [h1]; decide
    obtain ⟨r1, hr1⟩ := Lexer.rest_of_peek_ne hne1
    by_cases h2 : lx.advance.2.advance.2.peek = DQUOTE
    · rw [if_pos h2]
      have hne2 : lx.advance.2.advance.2.peek ≠ NUL := by rw [h2]; decide
      obtain ⟨r2, hr2⟩ := Lexer.rest_of_peek_ne hne2
      obtain ⟨cs, hadv, -, hline, hcol, ht1, ht2⟩ :=
        stringBody_ok true lx.column (lx.advance.2.advance.2.advance.2.rest.length + 1)
          lx.advance.2.advance.2.advance.2 "" (Nat.lt_succ_self _)
      have a := (((Adv.one hne).trans (Adv.one hne1)).trans (Adv.one hne2)).trans hadv
      refine ⟨_, ?_, a, hline, hcol, ht1, ht2, ?_⟩
      · simp
      · intro hno
        exfalso
        apply hno
        have e0 : lx.rest = DQUOTE :: DQUOTE :: DQUOTE :: r2 := by
          rw [hr, h]
          simp only [Lexer.advance_rest, hr, List.tail_cons] at hr1
          rw [hr1, h1]
          simp only [Lexer.advance_rest, hr, hr1, List.tail_cons] at hr2
          rw [hr2, h2]
        rw [e0]
        exact ⟨[], r2, by simp⟩
    · rw [if_neg h2]
      exact TokOK.of_parts hne hnl (PartOK.single hne1 hnl1) rfl rfl (by simp) (by simp)
  · rw [if_neg h1]
    obtain ⟨cs, hadv, hnl2, hline, hcol, ht1, ht2⟩ :=
      stringBody_ok false lx.column (lx.advance.2.rest.length + 1) lx.advance.2 ""
        (Nat.lt_succ_self _)
    exact TokOK.of_parts hne hnl ⟨cs, hadv, hnl2 rfl⟩ hline hcol ht1 ht2

/-! ### Lines, columns and the `newLine` flag along `Adv` -/

theorem Lexer.advance_line {lx : Lexer} {c : Char} {r : List Char} (h : lx.rest = c :: r) :
    lx.advance.2.line = stepLine lx.line c := by
  unfold Lexer.advance stepLine
  simp only [Lexer.peek_eq_of_rest h]
  split_ifs <;> rfl

theorem Lexer.advance_column {lx : Lexer} {c : Char} {r : List Char} (h : lx.rest = c :: r) :
    lx.advance.2.column = stepColumn lx.column c := by
  unfold Lexer.advance stepColumn
  simp only [Lexer.peek_eq_of_rest h]
  split_ifs <;> rfl

theorem Lexer.advance_newLine {lx : Lexer} {c : Char} {r : List Char} (h : lx.rest = c :: r) :
    lx.advance.2.newLine = stepFlag lx.newLine c := by
  unfold Lexer.advance stepFlag
  simp only [Lexer.peek_eq_of_rest h]
  split_ifs <;> rfl

theorem Adv.line_eq {a b : Lexer} {cs : List Char} (h : Adv a cs b) :
    b.line = cs.foldl stepLine a.line := by
  induction h with
  | refl => rfl
  | step c r _ hr _ ih => rw [List.foldl_append, Lexer.advance_line hr, ih]; rfl
  | table st _ ih => exact ih
  | unflag _ ih => exact ih

theorem Adv.column_eq {a b : Lexer} {cs : List Char} (h : Adv a cs b) :
    b.column = cs.foldl stepColumn a.column := by
  induction h with
  | refl => rfl
  | step c r _ hr _ ih => rw [List.foldl_append, Lexer.advance_column hr, ih]; rfl
  | table st _ ih => exact ih
  | unflag _ ih => exact ih

theorem stepFlag_mono {x y : Bool} (h : x = true → y = true) (c : Char) :
    stepFlag x c = true → stepFlag y c = true := by
  unfold stepFlag
  cases x <;> cases y <;> simp_all

theorem Adv.newLine_imp {a b : Lexer} {cs : List Char} (h : Adv a cs b) :
    b.newLine = true → cs.foldl stepFlag a.newLine = true := by
  induction h with
  | refl => exact id
  | step c r _ hr _ ih =>
      rw [List.foldl_append, Lexer.advance_newLine hr]
      exact stepFlag_mono ih c
  | table st _ ih => exact ih
  | unflag _ ih => intro h; exact absurd h (by simp)

theorem foldl_stepLine_of_no_nl {cs : List Char} (h : '\n' ∉ cs) (l : Int) :
    cs.foldl stepLine l = l := by
  induction cs generalizing l with
  | nil => rfl
  | cons c cs ih =>
      simp only [List.mem_cons, not_or] at h
      simp only [List.foldl_cons, stepLine, if_neg (Ne.symm h.1)]
      exact ih h.2 l

theorem foldl_stepFlag_false {cs : List Char} (h : '\n' ∉ cs) :
    cs.foldl stepFlag false = false := by
  induction cs with
  | nil => rfl
  | cons c cs ih =>
      simp only [List.mem_cons, not_or] at h
      have : stepFlag false c = false := by
        unfold stepFlag
        rw [if_neg (Ne.symm h.1)]
        simp
      simp only [List.foldl_cons, this]
      exact ih h.2

theorem Adv.line_same {a b : Lexer} {cs : List Char} (h : Adv a cs b) (hn : '\n' ∉ cs) :
    b.line = a.line := by
  rw [h.line_eq, foldl_stepLine_of_no_nl hn]

theorem Adv.flag_false {a b : Lexer} {cs : List Char} (h : Adv a cs b) (hn : '\n' ∉ cs)
    (ha : a.newLine = false) : b.newLine = false := by
  cases hb : b.newLine with
  | false => rfl
  | true =>
      have := h.newLine_imp hb
      rw [ha, foldl_stepFlag_false hn] at this
      exact Bool.noConfusion this

/-! ### One round of the loop of `tokenize` -/

theorem indentWidth_ge : ∀ (cs : List Char) (l : Int), l ≤ indentWidth cs l
  | [], l => by simp [indentWidth]
  | c :: cs, l => by
      unfold indentWidth
      split_ifs
      · have := indentWidth_ge cs (l + 1); omega
      · have := indentWidth_ge cs (l + 4); omega
      · exact le_refl _

theorem indentPhase_spec (lx : Lexer) :
    (lx.indentPhase.1 = if lx.newLine then [indentToken lx.getIndentLevel lx.indentPhase.2] else []) ∧
    lx.indentPhase.2.newLine = false ∧
    ∃ ws, Adv lx ws lx.indentPhase.2 ∧ (∀ c ∈ ws, isBlank c = true) ∧
      (lx.newLine = true → isBlank lx.indentPhase.2.peek = false) := by
  unfold Lexer.indentPhase
  by_cases h : lx.newLine = true
  · rw [if_pos h]
    obtain ⟨ws, hadv, hall, hstop, -⟩ :=
      advanceWhile_adv isBlank isBlank_nul lx.rest.length lx (le_refl _)
    have hge : lx.getIndentLevel ≥ 0 := indentWidth_ge lx.rest 0
    refine ⟨?_, rfl, ws, Adv.unflag hadv, hall, fun _ => ?_⟩
    · simp only [h, if_true]; rw [if_pos hge]; rfl
    · simpa [Lexer.peek] using hstop
  · rw [if_neg h]
    simp only [Bool.not_eq_true] at h
    exact ⟨by simp [h], h, [], Adv.refl lx, by simp, by simp [h]⟩

theorem skip_partOK (lx : Lexer) : PartOK lx lx.skipWhitespace.skipComment := by
  have p1 : PartOK lx lx.skipWhitespace := by
    obtain ⟨cs, hadv, hall, -⟩ :=
      advanceWhile_adv isInlineSpace isInlineSpace_nul lx.rest.length lx (le_refl _)
    exact ⟨cs, hadv, nl_not_mem_of_all isInlineSpace_nl hall⟩
  refine p1.append ?_
  unfold Lexer.skipComment
  split_ifs
  · obtain ⟨cs, hadv, hall, -⟩ :=
      advanceWhile_adv isCommentChar isCommentChar_nul lx.skipWhitespace.rest.length
        lx.skipWhitespace (le_refl _)
    exact ⟨cs, hadv, nl_not_mem_of_all isCommentChar_nl hall⟩
  · exact PartOK.nil _

theorem Lexer.advance_nl {lx : Lexer} (h : lx.peek = '\n') :
    { lx.advance.2 with newLine := true } = lx.advance.2 := by
  unfold Lexer.advance
  simp only [h, if_true]

/-- The three ways a round of the loop goes, after the indent phase `lx0` and the
skipped blanks and comment `lx2`: the end of the input, a token, or a newline. -/
theorem scanStep_spec (lx : Lexer) :
    ∃ lx2, PartOK lx.indentPhase.2 lx2 ∧
      ((lx.scanStep = (lx.indentPhase.1 ++ [eofToken lx2], lx2, true) ∧ lx2.peek = NUL) ∨
       (∃ tok lx3, lx.scanStep = (lx.indentPhase.1 ++ [tok], lx3, false) ∧ TokOK lx2 (tok, lx3)) ∨
       (lx.scanStep = (lx.indentPhase.1, lx2.advance.2, false) ∧ lx2.peek = '\n')) := by
  refine ⟨lx.indentPhase.2.skipWhitespace.skipComment, skip_partOK _, ?_⟩
  generalize hl : lx.indentPhase.2.skipWhitespace.skipComment = lx2
  have hs : lx.scanStep =
      (if lx2.peek = NUL then
        (lx.indentPhase.1 ++ [eofToken lx2], lx2, true)
      else if isIdentStart lx2.peek then
        (lx.indentPhase.1 ++ [lx2.getIdentifier.1], lx2.getIdentifier.2, false)
      else if isdigit lx2.peek then
        (lx.indentPhase.1 ++ [lx2.getNumber.1], lx2.getNumber.2, false)
      else if lx2.peek = DQUOTE then
        (lx.indentPhase.1 ++ [lx2.getString.1], lx2.getString.2, false)
      else if lx2.peek = '+' ∨ lx2.peek = '-' ∨ lx2.peek = '*' ∨ lx2.peek = '/' ∨ lx2.peek = '=' ∨
              lx2.peek = '<' ∨ lx2.peek = '>' ∨ lx2.peek = '!' ∨ lx2.peek = '.' then
        (lx.indentPhase.1 ++ [lx2.getOperator.1], lx2.getOperator.2, false)
      else if lx2.peek = '(' ∨ lx2.peek = ')' ∨ lx2.peek = ':' ∨ lx2.peek = ',' then
        (lx.indentPhase.1 ++
          [(⟨.Delimiter, String.singleton lx2.advance.1, (lx2.advance.2).line, lx2.column, -1⟩ : Token)],
          lx2.advance.2, false)
      else if lx2.peek = '\n' then
        (lx.indentPhase.1, { lx2.advance.2 with newLine := true }, false)
      else
        (lx.indentPhase.1 ++
          [(⟨.Error, String.singleton lx2.advance.1, (lx2.advance.2).line, lx2.column, -1⟩ : Token)],
          lx2.advance.2, false)) := by
    rw [← hl]; rfl
  rw [hs]
  by_cases h0 : lx2.peek = NUL
  · rw [if_pos h0]; exact Or.inl ⟨rfl, h0⟩
  rw [if_neg h0]
  by_cases h1 : isIdentStart lx2.peek = true
  · rw [if_pos h1]; exact Or.inr (Or.inl ⟨_, _, rfl, getIdentifier_ok lx2 h1⟩)
  rw [if_neg h1]
  by_cases h2 : isdigit lx2.peek = true
  · rw [if_pos h2]; exact Or.inr (Or.inl ⟨_, _, rfl, getNumber_ok lx2 h2⟩)
  rw [if_neg h2]
  by_cases h3 : lx2.peek = DQUOTE
  · rw [if_pos h3]; exact Or.inr (Or.inl ⟨_, _, rfl, getString_ok lx2 h3⟩)
  rw [if_neg h3]
  by_cases h4 : lx2.peek = '+' ∨ lx2.peek = '-' ∨ lx2.peek = '*' ∨ lx2.peek = '/' ∨ lx2.peek = '=' ∨
              lx2.peek = '<' ∨ lx2.peek = '>' ∨ lx2.peek = '!' ∨ lx2.peek = '.'
  · rw [if_pos h4]; exact Or.inr (Or.inl ⟨_, _, rfl, getOperator_ok lx2 h4⟩)
  rw [if_neg h4]
  by_cases h5 : lx2.peek = '(' ∨ lx2.peek = ')' ∨ lx2.peek = ':' ∨ lx2.peek = ','
  · rw [if_pos h5]
    have hnl : lx2.peek ≠ '\n' := by
      rcases h5 with h | h | h | h <;> rw [h] <;> decide
    exact Or.inr (Or.inl ⟨_, _, rfl,
      TokOK.of_parts h0 hnl (PartOK.nil _) rfl rfl (by simp) (by simp)⟩)
  rw [if_neg h5]
  by_cases h6 : lx2.peek = '\n'
  · rw [if_pos h6, Lexer.advance_nl h6]; exact Or.inr (Or.inr ⟨rfl, h6⟩)
  rw [if_neg h6]
  exact Or.inr (Or.inl ⟨_, _, rfl,
    TokOK.of_parts h0 h6 (PartOK.nil _) rfl rfl (by simp) (by simp)⟩)

/-- Every round moves by `advance` only; a round that does not leave the loop reads a
character. -/
theorem scanStep_adv (lx : Lexer) :
    ∃ cs, Adv lx cs lx.scanStep.2.1 ∧ (lx.scanStep.2.2 = false → cs ≠ []) ∧
      (lx.scanStep.2.2 = true → lx.scanStep.2.1.peek = NUL) := by
  obtain ⟨-, -, ws, hws, -, -⟩ := indentPhase_spec lx
  obtain ⟨lx2, ⟨ms, hms, -⟩, h | ⟨tok, lx3, h, cs, hcs, hadv, -⟩ | ⟨h, hnl⟩⟩ := scanStep_spec lx
  · rw [h.1]
    exact ⟨_, hws.trans hms, by simp, fun _ => h.2⟩
  · rw [h]
    exact ⟨_, (hws.trans hms).trans hadv, fun _ => by simp [hcs], by simp⟩
  · rw [h]
    have : lx2.peek ≠ NUL := by rw [hnl]; decide
    exact ⟨_, (hws.trans hms).trans (Adv.one this), fun _ => by simp, by simp⟩

theorem scan_acc : ∀ (fuel : Nat) (lx : Lexer) (acc : List Token),
    scan fuel lx acc = (scan fuel lx []).map (fun r => (acc ++ r.1, r.2))
  | 0, _, _ => rfl
  | fuel + 1, lx, acc => by
      unfold scan
      obtain ⟨new, lx1, done⟩ := lx.scanStep
      cases done with
      | true => simp
      | false =>
          simp only [List.nil_append]
          rw [scan_acc fuel lx1 (acc ++ new), scan_acc fuel lx1 new]
          cases scan fuel lx1 [] with
          | none => rfl
          | some r => simp

/-- The unfolding of `scan` used in the proofs below. -/
theorem scan_succ (fuel : Nat) (lx : Lexer) :
    scan (fuel + 1) lx [] =
      if lx.scanStep.2.2 = true then some (lx.scanStep.1, lx.scanStep.2.1)
      else (scan fuel lx.scanStep.2.1 []).map (fun r => (lx.scanStep.1 ++ r.1, r.2)) := by
  conv => lhs; unfold scan
  obtain ⟨new, lx1, done⟩ := lx.scanStep
  cases done with
  | true => simp
  | false => simp only [List.nil_append]; rw [scan_acc]; simp

/-! ### The whole loop -/

theorem indentPhase_types (lx : Lexer) : ∀ t ∈ lx.indentPhase.1, t.type = .Indent := by
  intro t ht
  rw [(indentPhase_spec lx).1] at ht
  split_ifs at ht
  · simp only [List.mem_singleton] at ht; rw [ht]; rfl
  · simp at ht

/-- With more fuel than unread characters, the loop reaches its `break`; its tokens end in
the only EndOfInput token, and the lexer stands in front of a NUL or of the end. -/
theorem scan_returns : ∀ (fuel : Nat) (lx : Lexer), lx.rest.length < fuel →
    ∃ toks lx', scan fuel lx [] = some (toks, lx') ∧
      (∃ init eof, toks = init ++ [eof] ∧ eof.type = .EOFToken ∧ ∀ t ∈ init, t.type ≠ .EOFToken) ∧
      ∃ cs, Adv lx cs lx' ∧ lx'.peek = NUL := by
  intro fuel
  induction fuel with
  | zero => intro lx h; exact absurd h (Nat.not_lt_zero _)
  | succ fuel ih =>
      intro lx hlen
      have hind := indentPhase_types lx
      obtain ⟨-, -, ws, hws, -, -⟩ := indentPhase_spec lx
      rw [scan_succ]
      obtain ⟨lx2, ⟨ms, hms, -⟩, h | ⟨tok, lx3, h, cs, hcs, hadv, -, -, -, hne, -⟩ | ⟨h, hnl⟩⟩ :=
        scanStep_spec lx
      · rw [h.1]
        simp only [if_true]
        refine ⟨_, _, rfl, ⟨lx.indentPhase.1, eofToken lx2, rfl, rfl, ?_⟩, _, hws.trans hms, h.2⟩
        intro t ht
        rw [hind t ht]
        decide
      · rw [h]
        simp only [Bool.false_eq_true, if_false]
        have a := (hws.trans hms).trans hadv
        have hl := a.length_le
        have hcl : cs.length ≠ 0 := fun e => hcs (List.length_eq_zero.mp e)
        have : lx3.rest.length < fuel := by simp at hl; omega
        obtain ⟨toks, lx', hs, ⟨init, eof, he, hty, hinit⟩, ds, hd, hpk⟩ := ih lx3 this
        rw [hs]
        refine ⟨_, _, rfl, ⟨lx.indentPhase.1 ++ [tok] ++ init, eof, by simp [he], hty, ?_⟩,
          _, a.trans hd, hpk⟩
        intro t ht
        simp only [List.mem_append, List.mem_singleton] at ht
        rcases ht with (ht | ht) | ht
        · rw [hind t ht]; decide
        · rw [ht]; exact hne
        · exact hinit t ht
      · rw [h]
        simp only [Bool.false_eq_true, if_false]
        have hn0 : lx2.peek ≠ NUL := by rw [hnl]; decide
        have a := (hws.trans hms).trans (Adv.one hn0)
        have hl := a.length_le
        have : lx2.advance.2.rest.length < fuel := by simp at hl ⊢; omega
        obtain ⟨toks, lx', hs, ⟨init, eof, he, hty, hinit⟩, ds, hd, hpk⟩ := ih lx2.advance.2 this
        rw [hs]
        refine ⟨_, _, rfl, ⟨lx.indentPhase.1 ++ init, eof, by simp [he], hty, ?_⟩,
          _, a.trans hd, hpk⟩
        intro t ht
        simp only [List.mem_append] at ht
        rcases ht with ht | ht
        · rw [hind t ht]; decide
        · exact hinit t ht

theorem tokenize_eq (lx : Lexer) :
    lx.tokenize = (scan (lx.rest.length + 1) (startOf lx) []).map (fun r => (r.1, r.2.detectTypes)) := by
  unfold Lexer.tokenize startOf
  cases scan (lx.rest.length + 1) { lx with newLine := true } [] <;> rfl

theorem NoTriple.of_append {a b : List Char} (h : NoTriple (a ++ b)) : NoTriple b := by
  intro hb
  apply h
  obtain ⟨s, t, e⟩ := hb
  exact ⟨a ++ s, t, by simp [← e]⟩

theorem count_nl_of_not_mem {cs : List Char} (h : '\n' ∉ cs) : cs.count '\n' = 0 :=
  List.count_eq_zero_of_not_mem h

theorem scan_indents : ∀ (fuel : Nat) (lx : Lexer) (toks : List Token) (lx' : Lexer),
    scan fuel lx [] = some (toks, lx') → NoTriple lx.rest → NUL ∉ lx.rest →
      toks.countP isIndent = (if lx.newLine then 1 else 0) + lx.rest.count '\n' ∧
      List.Chain' LineStart toks ∧
      ∀ t ∈ toks.head?, t.type = .Indent ∨ (lx.newLine = false ∧ t.line = lx.line) := by
  intro fuel
  induction fuel with
  | zero => intro lx toks lx' h; simp [scan] at h
  | succ fuel ih =>
      intro lx toks lx' hs h3 h0
      obtain ⟨hind, hf0, ws, hws, hwb, -⟩ := indentPhase_spec lx
      have hwn : '\n' ∉ ws := nl_not_mem_of_all isBlank_nl hwb
      rw [scan_succ] at hs
      obtain ⟨lx2, ⟨ms, hms, hmn⟩, h | ⟨tok, lx3, h, cs, hcs, hadv, hline, -, hni, -, hcn⟩ | ⟨h, hnl⟩⟩ :=
        scanStep_spec lx
      · -- the end of the input
        rw [h.1] at hs
        simp only [if_true, Option.some.injEq, Prod.mk.injEq] at hs
        obtain ⟨rfl, -⟩ := hs
        have hrest : lx.rest = (ws ++ ms) ++ lx2.rest := (hws.trans hms).rest_eq
        have h2e : lx2.rest = [] := by
          cases hr : lx2.rest with
          | nil => rfl
          | cons c r =>
              exfalso
              have hc : c = NUL := by rw [← Lexer.peek_eq_of_rest hr]; exact h.2
              apply h0
              rw [hrest, hr, hc]
              simp
        have hcount : lx.rest.count '\n' = 0 := by
          rw [hrest, h2e]
          simp [count_nl_of_not_mem hwn, count_nl_of_not_mem hmn]
        have hl0 : lx.indentPhase.2.line = lx.line := hws.line_same hwn
        have hl2 : lx2.line = lx.line := by rw [hms.line_same hmn, hl0]
        rw [hind, hcount]
        by_cases hb : lx.newLine = true
        · simp only [hb, if_true]
          refine ⟨by simp [List.countP_cons, isIndent, indentToken, eofToken], ?_, ?_⟩
          · simp only [List.singleton_append, List.chain'_cons, List.chain'_singleton, and_true]
            intro hne
            exact absurd (by simp [indentToken, eofToken, hl0, hl2]) hne
          · intro t ht
            simp only [List.singleton_append, List.head?_cons, Option.mem_def,
              Option.some.injEq] at ht
            left; rw [← ht]; rfl
        · simp only [Bool.not_eq_true] at hb
          simp only [hb, Bool.false_eq_true, if_false, List.nil_append]
          refine ⟨by simp [List.countP_cons, isIndent, eofToken], List.chain'_singleton _, ?_⟩
          intro t ht
          simp only [List.head?_cons, Option.mem_def, Option.some.injEq] at ht
          right; rw [← ht]; exact ⟨trivial, hl2⟩
      · -- a token
        rw [h] at hs
        simp only [Bool.false_eq_true, if_false, Option.map_eq_some', Prod.mk.injEq,
          Prod.exists] at hs
        obtain ⟨toks', lxe, hs', rfl, rfl⟩ := hs
        have hrest2 : lx.rest = (ws ++ ms) ++ lx2.rest := (hws.trans hms).rest_eq
        have h32 : NoTriple lx2.rest := by rw [hrest2] at h3; exact h3.of_append
        have hcn := hcn h32
        have hrest : lx.rest = ((ws ++ ms) ++ cs) ++ lx3.rest := ((hws.trans hms).trans hadv).rest_eq
        have h33 : NoTriple lx3.rest := by rw [hrest] at h3; exact h3.of_append
        have h03 : NUL ∉ lx3.rest := by
          intro hm; apply h0; rw [hrest]; exact List.mem_append_right _ hm
        obtain ⟨ihc, ihch, ihh⟩ := ih lx3 toks' _ hs' h33 h03
        have hl0 : lx.indentPhase.2.line = lx.line := hws.line_same hwn
        have hl2 : lx2.line = lx.line := by rw [hms.line_same hmn, hl0]
        have hl3 : lx3.line = lx.line := by rw [hadv.line_same hcn, hl2]
        have hf2 : lx2.newLine = false := hms.flag_false hmn hf0
        have hf3 : lx3.newLine = false := hadv.flag_false hcn hf2
        have htl : tok.line = lx.line := by rw [hline]; exact hl3
        have hcount : lx.rest.count '\n' = lx3.rest.count '\n' := by
          rw [hrest]
          simp [count_nl_of_not_mem hwn, count_nl_of_not_mem hmn, count_nl_of_not_mem hcn]
        have htokI : isIndent tok = false := by simpa [isIndent] using hni
        have hlink : ∀ x ∈ [tok].getLast?, ∀ y ∈ toks'.head?, LineStart x y := by
          intro x hx y hy
          simp only [List.getLast?_singleton, Option.mem_def, Option.some.injEq] at hx
          subst hx
          rcases ihh y hy with hy1 | ⟨-, hy2⟩
          · exact fun _ => hy1
          · intro hne; exact absurd (by rw [htl, hy2, hl3]) hne
        have hch1 : List.Chain' LineStart ([tok] ++ toks') :=
          List.Chain'.append (List.chain'_singleton _) ihch hlink
        rw [hind, hcount]
        simp only [hf3, Bool.false_eq_true, if_false, zero_add] at ihc
        by_cases hb : lx.newLine = true
        · simp only [hb, if_true]
          refine ⟨?_, ?_, ?_⟩
          · simp [List.countP_cons, List.countP_append, isIndent, indentToken, ihc, htokI]
            simp [isIndent] at htokI
            simp [htokI]
            omega
          · rw [List.append_assoc]
            refine List.Chain'.append (List.chain'_singleton _) hch1 ?_
            intro x hx y hy
            simp only [List.getLast?_singleton, Option.mem_def, Option.some.injEq] at hx
            simp only [List.singleton_append, List.head?_cons, Option.mem_def,
              Option.some.injEq] at hy
            subst hx hy
            intro hne
            exact absurd (by simp [indentToken, hl0, htl]) hne
          · intro t ht
            simp only [List.singleton_append, List.cons_append, List.head?_cons, Option.mem_def,
              Option.some.injEq] at ht
            left; rw [← ht]; rfl
        · simp only [Bool.not_eq_true] at hb
          simp only [hb, Bool.false_eq_true, if_false, List.nil_append]
          refine ⟨?_, hch1, ?_⟩
          · simp [List.countP_cons, ihc]
            simp [isIndent] at htokI
            simp [isIndent, htokI]
          · intro t ht
            simp only [List.singleton_append, List.head?_cons, Option.mem_def,
              Option.some.injEq] at ht
            right; rw [← ht]; exact ⟨trivial, htl⟩
      · -- a newline
        rw [h] at hs
        simp only [Bool.false_eq_true, if_false, Option.map_eq_some', Prod.mk.injEq,
          Prod.exists] at hs
        obtain ⟨toks', lxe, hs', rfl, rfl⟩ := hs
        have hn0 : lx2.peek ≠ NUL := by rw [hnl]; decide
        obtain ⟨r, hr⟩ := Lexer.rest_of_peek_ne hn0
        have hrest2 : lx.rest = (ws ++ ms) ++ lx2.rest := (hws.trans hms).rest_eq
        have hr3 : lx2.advance.2.rest = r := by simp [hr]
        have hrest : lx.rest = ((ws ++ ms) ++ ['\n']) ++ lx2.advance.2.rest := by
          rw [hrest2, hr, hr3, hnl]; simp
        have h33 : NoTriple lx2.advance.2.rest := by rw [hrest] at h3; exact h3.of_append
        have h03 : NUL ∉ lx2.advance.2.rest := by
          intro hm; apply h0; rw [hrest]; exact List.mem_append_right _ hm
        obtain ⟨ihc, ihch, ihh⟩ := ih lx2.advance.2 toks' _ hs' h33 h03
        have hf3 : lx2.advance.2.newLine = true := by
          rw [Lexer.advance_newLine hr, hnl]; rfl
        have hcount : lx.rest.count '\n' = 1 + lx2.advance.2.rest.count '\n' := by
          rw [hrest]
          simp [count_nl_of_not_mem hwn, count_nl_of_not_mem hmn]
          omega
        have hhead : ∀ y ∈ toks'.head?, y.type = .Indent := by
          intro y hy
          rcases ihh y hy with hy1 | ⟨hy2, -⟩
          · exact hy1
          · rw [hf3] at hy2; exact Bool.noConfusion hy2
        simp only [hf3, if_true] at ihc
        rw [hind, hcount]
        by_cases hb : lx.newLine = true
        · simp only [hb, if_true]
          refine ⟨?_, ?_, ?_⟩
          · simp [List.countP_cons, isIndent, indentToken]
            simp [isIndent] at ihc
            omega
          · refine List.Chain'.append (List.chain'_singleton _) ihch ?_
            intro x _ y hy _
            exact hhead y hy
          · intro t ht
            simp only [List.singleton_append, List.head?_cons, Option.mem_def,
              Option.some.injEq] at ht
            left; rw [← ht]; rfl
        · simp only [Bool.not_eq_true] at hb
          simp only [hb, Bool.false_eq_true, if_false, List.nil_append]
          refine ⟨by rw [ihc]; omega, ihch, ?_⟩
          intro t ht
          exact Or.inl (hhead t ht)

/-- C3 (amended). For a source text without a NUL byte and without three double quotes
in a row, `tokenize` emits one IndentMarker per physical line: their number is one more
than the number of newlines, the token list starts with one, and wherever the line
number changes between two neighbouring tokens the second one is an IndentMarker. -/
theorem indent_marker_per_line (source : List Char) (h0 : NUL ∉ source)
    (h3 : NoTriple source) :
    ∃ tokens lx', (Lexer.mk0 source).tokenize = some (tokens, lx') ∧
      tokens.countP isIndent = 1 + source.count '\n' ∧
      (∃ t rest, tokens = t :: rest ∧ t.type = .Indent) ∧
      List.Chain' LineStart tokens := by
  obtain ⟨toks, lx', hs, ⟨init, eof, he, -, -⟩, -⟩ :=
    scan_returns ((Lexer.mk0 source).rest.length + 1) (startOf (Lexer.mk0 source))
      (Nat.lt_succ_self _)
  obtain ⟨hc, hch, hh⟩ := scan_indents _ _ _ _ hs h3 h0
  refine ⟨toks, lx'.detectTypes, by rw [tokenize_eq, hs]; rfl, hc, ?_, hch⟩
  cases toks with
  | nil => simp at he
  | cons t rest =>
      refine ⟨t, rest, rfl, ?_⟩
      rcases hh t rfl with h | ⟨h, -⟩
      · exact h
      · exact absurd h (by simp [startOf])

/-! ### The indent phase on a run of blanks -/

theorem Lexer.advance_blank {lx : Lexer} {c : Char} {r : List Char} (h : lx.rest = c :: r)
    (hc : isBlank c = true) :
    lx.advance.2 = { lx with rest := r, column := lx.column + 1 } := by
  have hc' : c = ' ' ∨ c = '\t' := by simpa [isBlank] using hc
  have hn : c ≠ '\n' := by rcases hc' with rfl | rfl <;> decide
  unfold Lexer.advance
  simp only [Lexer.peek_eq_of_rest h, if_neg hn, h, List.tail_cons]
  rw [if_neg]
  rintro ⟨-, h1, h2⟩
  rcases hc' with e | e
  · exact h1 e
  · exact h2 e

theorem advanceWhile_blanks : ∀ (ws : List Char) (n : Nat) (lx : Lexer) (tail : List Char),
    lx.rest = ws ++ tail → (∀ c ∈ ws, isBlank c = true) → isBlank (tail.getD 0 NUL) = false →
    ws.length ≤ n →
    advanceWhile isBlank n lx = { lx with rest := tail, column := lx.column + ws.length }
  | [], n, lx, tail, hr, _, ht, _ => by
      simp only [List.nil_append] at hr
      have hp : isBlank lx.peek = false := by rw [Lexer.peek, hr]; exact ht
      cases n with
      | zero => simp [advanceWhile, ← hr]
      | succ n =>
          unfold advanceWhile
          rw [if_neg (by simp [hp])]
          simp [← hr]
  | c :: ws, n, lx, tail, hr, hws, ht, hn => by
      cases n with
      | zero => simp at hn
      | succ n =>
          have hr' : lx.rest = c :: (ws ++ tail) := by simpa using hr
          have hc : isBlank c = true := hws c (List.mem_cons_self _ _)
          unfold advanceWhile
          rw [if_pos (by rw [Lexer.peek_eq_of_rest hr']; exact hc), Lexer.advance_blank hr' hc]
          rw [advanceWhile_blanks ws n _ tail rfl (fun d hd => hws d (List.mem_cons_of_mem _ hd)) ht
            (by simpa using hn)]
          simp only [List.length_cons, Nat.cast_add, Nat.cast_one]
          congr 1
          omega

theorem indentWidth_blanks : ∀ (ws tail : List Char) (l : Int),
    (∀ c ∈ ws, isBlank c = true) → isBlank (tail.getD 0 NUL) = false →
    indentWidth (ws ++ tail) l = l + ((ws.count ' ' + 4 * ws.count '\t' : Nat) : Int)
  | [], tail, l, _, ht => by
      cases tail with
      | nil => simp [indentWidth]
      | cons c r =>
          have hc : isBlank c = false := by simpa using ht
          have h1 : c ≠ ' ' := by rintro rfl; revert hc; decide
          have h2 : c ≠ '\t' := by rintro rfl; revert hc; decide
          simp [indentWidth, h1, h2]
  | c :: ws, tail, l, hws, ht => by
      have hc : c = ' ' ∨ c = '\t' := by
        simpa [isBlank] using hws c (List.mem_cons_self _ _)
      have ih := indentWidth_blanks ws tail
      have hws' : ∀ d ∈ ws, isBlank d = true := fun d hd => hws d (List.mem_cons_of_mem _ hd)
      rcases hc with rfl | rfl
      · have e : indentWidth (' ' :: ws ++ tail) l = indentWidth (ws ++ tail) (l + 1) := by
          simp [indentWidth]
        rw [e, ih (l + 1) hws' ht]
        have : (' ' : Char) ≠ '\t' := by decide
        simp [List.count_cons, this]
        omega
      · have hne : ('\t' : Char) ≠ ' ' := by decide
        have e : indentWidth ('\t' :: ws ++ tail) l = indentWidth (ws ++ tail) (l + 4) := by
          simp [indentWidth, hne]
        rw [e, ih (l + 4) hws' ht]
        simp [List.count_cons, hne]
        omega

theorem intToString_natCast (n : Nat) : intToString ((n : Int) / 4) = toString (n / 4) := by
  unfold intToString
  have h : ¬ ((n : Int) / 4 < 0) := by omega
  rw [if_neg h]
  congr 1

/-- The indent phase in closed form: with `newLine` set, in front of a run of `s` spaces
and `t` tabs followed by a character that is neither (or by the end), it pushes exactly
one token, the IndentMarker whose lexeme is the decimal string of `(s + 4 * t) / 4`, and
reads exactly the run: only the position (the unread text and the column) and the flag
change. -/
theorem indentPhase_closed (lx : Lexer) (ws tail : List Char) (hnl : lx.newLine = true)
    (hr : lx.rest = ws ++ tail) (hws : ∀ c ∈ ws, c = ' ' ∨ c = '\t')
    (ht : ∀ c ∈ tail.head?, c ≠ ' ' ∧ c ≠ '\t') :
    lx.indentPhase =
      ([{ type := .Indent, value := toString ((ws.count ' ' + 4 * ws.count '\t') / 4),
          line := lx.line, column := lx.column + ws.length }],
       { lx with rest := tail, column := lx.column + ws.length, newLine := false }) := by
  have hws' : ∀ c ∈ ws, isBlank c = true := by
    intro c hc; simpa [isBlank] using hws c hc
  have ht' : isBlank (tail.getD 0 NUL) = false := by
    cases tail with
    | nil => decide
    | cons c r =>
        have := ht c rfl
        simp [isBlank, this.1, this.2]
  have ha := advanceWhile_blanks ws lx.rest.length lx tail hr hws' ht' (by simp [hr])
  have hw := indentWidth_blanks ws tail 0 hws' ht'
  unfold Lexer.indentPhase
  rw [if_pos hnl]
  simp only [Lexer.getIndentLevel, hr] at ha ⊢
  rw [ha, hw]
  have hge : (0 : Int) + ((ws.count ' ' + 4 * ws.count '\t' : Nat) : Int) ≥ 0 := by omega
  rw [if_pos hge]
  simp only [zero_add, intToString_natCast, hnl]

/-! ### Where an IndentMarker stands -/

theorem foldl_stepLine_count (cs : List Char) (l : Int) :
    cs.foldl stepLine l = l + (cs.count '\n' : Nat) := by
  induction cs generalizing l with
  | nil => simp
  | cons c cs ih =>
      simp only [List.foldl_cons, ih, stepLine]
      by_cases h : c = '\n'
      · subst h; simp; omega
      · simp [h, List.count_cons]

theorem stepFlag_true {x : Bool} {a : Char} (ha : a ≠ '\n') (h : stepFlag x a = true) :
    x = true ∧ isBlank a = true := by
  unfold stepFlag at h
  rw [if_neg ha] at h
  cases x with
  | false => simp at h
  | true =>
      refine ⟨rfl, ?_⟩
      by_contra hb
      have : a ≠ ' ' ∧ a ≠ '\t' := by
        simp only [isBlank, Bool.or_eq_true, beq_iff_eq, not_or] at hb
        exact hb
      rw [if_pos ⟨rfl, this.1, this.2⟩] at h
      exact Bool.noConfusion h

theorem flag_decomp (cs : List Char) (h : cs.foldl stepFlag true = true) :
    ∃ pre seg, cs = pre ++ seg ∧ AtLineStart pre ∧ ∀ c ∈ seg, isBlank c = true := by
  induction cs using List.reverseRecOn with
  | nil => exact ⟨[], [], rfl, Or.inl rfl, by simp⟩
  | append_singleton l a ih =>
      rw [List.foldl_append] at h
      simp only [List.foldl_cons, List.foldl_nil] at h
      by_cases ha : a = '\n'
      · exact ⟨l ++ [a], [], by simp, Or.inr (by simp [ha]), by simp⟩
      · obtain ⟨hf, hb⟩ := stepFlag_true ha h
        obtain ⟨pre, seg, e, hp, hs⟩ := ih hf
        refine ⟨pre, seg ++ [a], by simp [e], hp, ?_⟩
        intro c hc
        rcases List.mem_append.mp hc with hc | hc
        · exact hs c hc
        · simp only [List.mem_singleton] at hc; rw [hc]; exact hb

theorem foldl_stepColumn_blank (seg : List Char) (col : Int)
    (h : ∀ c ∈ seg, isBlank c = true) : seg.foldl stepColumn col = col + seg.length := by
  induction seg generalizing col with
  | nil => simp
  | cons c cs ih =>
      have hc : c ≠ '\n' := by
        intro e
        have := h c (List.mem_cons_self _ _)
        rw [e] at this
        revert this
        decide
      simp only [List.foldl_cons, stepColumn, if_neg hc]
      rw [ih _ (fun d hd => h d (List.mem_cons_of_mem _ hd))]
      simp only [List.length_cons, Nat.cast_add, Nat.cast_one]
      omega

theorem foldl_stepColumn_lineStart {pre : List Char} (h : AtLineStart pre) :
    pre.foldl stepColumn 1 = 1 := by
  rcases h with rfl | h
  · rfl
  · obtain ⟨l, rfl⟩ : ∃ l, pre = l ++ ['\n'] := by
      cases hd : pre.reverse with
      | nil =>
          have : pre = [] := List.reverse_eq_nil_iff.mp hd
          rw [this] at h
          simp at h
      | cons a r =>
          have e : pre = r.reverse ++ [a] := by
            rw [← List.reverse_reverse pre, hd, List.reverse_cons]
          rw [e] at h
          simp at h
          exact ⟨r.reverse, by rw [e, h]⟩
    rw [List.foldl_append]
    rfl

theorem takeWhile_blank_append {seg rest : List Char} (h : ∀ c ∈ seg, isBlank c = true)
    (hr : isBlank (rest.getD 0 NUL) = false) : (seg ++ rest).takeWhile isBlank = seg := by
  induction seg with
  | nil =>
      cases rest with
      | nil => rfl
      | cons c r =>
          simp only [List.getD_cons_zero] at hr
          simp [List.takeWhile, hr]
  | cons c cs ih =>
      simp only [List.cons_append, List.takeWhile_cons, h c (List.mem_cons_self _ _), if_true]
      rw [ih (fun d hd => h d (List.mem_cons_of_mem _ hd))]

theorem scanStep_new (lx : Lexer) :
    ∃ others, lx.scanStep.1 = lx.indentPhase.1 ++ others ∧ ∀ t ∈ others, t.type ≠ .Indent := by
  obtain ⟨lx2, -, h | ⟨tok, lx3, h, -, -, -, -, -, hni, -⟩ | ⟨h, -⟩⟩ := scanStep_spec lx
  · rw [h.1]; exact ⟨_, rfl, by simp [eofToken]⟩
  · rw [h]; exact ⟨_, rfl, by simpa using hni⟩
  · rw [h]; exact ⟨[], by simp, by simp⟩

theorem indent_marksLine (l0 lx : Lexer) (cs0 : List Char) (hl : l0.line = 1)
    (hc : l0.column = 1) (hf : l0.newLine = true) (hadv : Adv l0 cs0 lx)
    (hb : lx.newLine = true) :
    MarksLine l0.rest (indentToken lx.getIndentLevel lx.indentPhase.2) := by
  obtain ⟨-, -, ws, hws, hwb, hstop⟩ := indentPhase_spec lx
  have hstop := hstop hb
  have hflag := hadv.newLine_imp hb
  rw [hf] at hflag
  obtain ⟨pre, seg, e, hp, hs⟩ := flag_decomp cs0 hflag
  have a := hadv.trans hws
  have hrest : l0.rest = pre ++ ((seg ++ ws) ++ lx.indentPhase.2.rest) := by
    rw [a.rest_eq, e]; simp
  have hsw : ∀ c ∈ seg ++ ws, isBlank c = true := by
    intro c hc
    rcases List.mem_append.mp hc with hc | hc
    · exact hs c hc
    · exact hwb c hc
  refine ⟨pre, (seg ++ ws) ++ lx.indentPhase.2.rest, hrest, hp, ?_, ?_⟩
  · show lx.indentPhase.2.line = _
    rw [a.line_eq, foldl_stepLine_count, hl, e]
    have : (seg ++ ws).count '\n' = 0 :=
      count_nl_of_not_mem (nl_not_mem_of_all isBlank_nl hsw)
    simp only [List.count_append] at this ⊢
    omega
  · show lx.indentPhase.2.column = _
    rw [a.column_eq, hc, e, List.append_assoc, List.foldl_append, foldl_stepColumn_lineStart hp,
      foldl_stepColumn_blank _ _ hsw, takeWhile_blank_append hsw hstop]

theorem scan_positions (l0 : Lexer) (hl : l0.line = 1) (hc : l0.column = 1)
    (hf : l0.newLine = true) :
    ∀ (fuel : Nat) (lx : Lexer) (cs0 : List Char) (toks : List Token) (lx' : Lexer),
      Adv l0 cs0 lx → scan fuel lx [] = some (toks, lx') →
      ∀ t ∈ toks, t.type = .Indent → MarksLine l0.rest t := by
  intro fuel
  induction fuel with
  | zero => intro lx cs0 toks lx' _ h; simp [scan] at h
  | succ fuel ih =>
      intro lx cs0 toks lx' hadv hs t ht hty
      rw [scan_succ] at hs
      obtain ⟨others, hnew, hoth⟩ := scanStep_new lx
      obtain ⟨ds, hstep, -, -⟩ := scanStep_adv lx
      have hhere : ∀ u ∈ lx.scanStep.1, u.type = .Indent → MarksLine l0.rest u := by
        intro u hu huty
        rw [hnew] at hu
        rcases List.mem_append.mp hu with hu | hu
        · rw [(indentPhase_spec lx).1] at hu
          by_cases hb : lx.newLine = true
          · simp only [hb, if_true, List.mem_singleton] at hu
            rw [hu]
            exact indent_marksLine l0 lx cs0 hl hc hf hadv hb
          · simp [hb] at hu
        · exact absurd huty (hoth u hu)
      by_cases hd : lx.scanStep.2.2 = true
      · rw [if_pos hd] at hs
        simp only [Option.some.injEq, Prod.mk.injEq] at hs
        rw [← hs.1] at ht
        exact hhere t ht hty
      · rw [if_neg hd] at hs
        simp only [Option.map_eq_some', Prod.mk.injEq, Prod.exists] at hs
        obtain ⟨toks', lxe, hs', rfl, rfl⟩ := hs
        rcases List.mem_append.mp ht with ht | ht
        · exact hhere t ht hty
        · exact ih _ _ _ _ (hadv.trans hstep) hs' t ht hty

/-- C4 (amended). Every IndentMarker that `tokenize` emits carries the line number of
the physical line it marks and the column that follows the leading run of spaces and
tabs of that line: column 1 only when the line starts with no blank. -/
theorem indent_marker_position (source : List Char) (tokens : List Token) (lx' : Lexer)
    (h : (Lexer.mk0 source).tokenize = some (tokens, lx')) (t : Token) (ht : t ∈ tokens)
    (hty : t.type = .Indent) :
    ∃ pre post, source = pre ++ post ∧ (pre = [] ∨ pre.getLast? = some '\n') ∧
      t.line = 1 + (pre.count '\n' : Nat) ∧
      t.column = 1 + ((post.takeWhile isBlank).length : Nat) := by
  rw [tokenize_eq] at h
  simp only [Option.map_eq_some', Prod.mk.injEq, Prod.exists] at h
  obtain ⟨toks, lxe, hs, rfl, -⟩ := h
  exact scan_positions (startOf (Lexer.mk0 source)) rfl rfl rfl _ _ [] _ _ (Adv.refl _) hs t ht hty

/-! ### The level that an IndentMarker carries -/

theorem foldl_stepColumn_of_no_nl {cs : List Char} (h : '\n' ∉ cs) (col : Int) :
    cs.foldl stepColumn col = col + cs.length := by
  induction cs generalizing col with
  | nil => simp
  | cons c cs ih =>
      simp only [List.mem_cons, not_or] at h
      simp only [List.foldl_cons, stepColumn, if_neg (Ne.symm h.1)]
      rw [ih h.2]
      simp only [List.length_cons, Nat.cast_add, Nat.cast_one]
      omega

theorem Adv.column_same {a b : Lexer} {cs : List Char} (h : Adv a cs b) (hn : '\n' ∉ cs) :
    b.column = a.column + cs.length := by
  rw [h.column_eq, foldl_stepColumn_of_no_nl hn]

theorem isBlank_iff (c : Char) : isBlank c = true ↔ c = ' ' ∨ c = '\t' := by
  simp [isBlank]

theorem head_not_blank {post : List Char} (h : isBlank (post.getD 0 NUL) = false) :
    ∀ c ∈ post.head?, c ≠ ' ' ∧ c ≠ '\t' := by
  intro c hc
  cases post with
  | nil => simp at hc
  | cons d r =>
      simp only [List.head?_cons, Option.mem_def, Option.some.injEq] at hc
      subst hc
      simp only [List.getD_cons_zero] at h
      have : ¬ (isBlank d = true) := by rw [h]; simp
      rw [isBlank_iff] at this
      exact not_or.mp this

theorem indent_level (l0 lx : Lexer) (cs0 : List Char) (hl : l0.line = 1)
    (hc : l0.column = 1) (hadv : Adv l0 cs0 lx) (hb : lx.newLine = true)
    (hst : AtLineStart cs0) :
    MarksLevel l0.rest (indentToken lx.getIndentLevel lx.indentPhase.2) := by
  obtain ⟨-, -, ws, hws, hwb, hstop⟩ := indentPhase_spec lx
  have hstop : isBlank (lx.indentPhase.2.rest.getD 0 NUL) = false := by
    simpa [Lexer.peek] using hstop hb
  have hwn : '\n' ∉ ws := nl_not_mem_of_all isBlank_nl hwb
  have a := hadv.trans hws
  have hr : lx.rest = ws ++ lx.indentPhase.2.rest := hws.rest_eq
  refine ⟨cs0, ws, lx.indentPhase.2.rest, ?_, hst, fun c h => (isBlank_iff c).mp (hwb c h),
    head_not_blank hstop, ?_, ?_, ?_⟩
  · rw [hadv.rest_eq, hr]
  · show lx.indentPhase.2.line = _
    rw [a.line_eq, foldl_stepLine_count, hl, List.count_append, count_nl_of_not_mem hwn]
    simp
  · show lx.indentPhase.2.column = _
    rw [a.column_eq, hc, List.foldl_append, foldl_stepColumn_lineStart hst,
      foldl_stepColumn_of_no_nl hwn]
  · show intToString (lx.getIndentLevel / 4) = _
    unfold Lexer.getIndentLevel
    rw [hr, indentWidth_blanks ws _ 0 hwb hstop, zero_add, intToString_natCast]

theorem scan_levels (l0 : Lexer) (hl : l0.line = 1) (hc : l0.column = 1) :
    ∀ (fuel : Nat) (lx : Lexer) (cs0 : List Char) (toks : List Token) (lx' : Lexer),
      Adv l0 cs0 lx → NoTriple lx.rest → (lx.newLine = true → AtLineStart cs0) →
      scan fuel lx [] = some (toks, lx') →
      ∀ t ∈ toks, t.type = .Indent → MarksLevel l0.rest t := by
  intro fuel
  induction fuel with
  | zero => intro lx cs0 toks lx' _ _ _ h; simp [scan] at h
  | succ fuel ih =>
      intro lx cs0 toks lx' hadv h3 hst hs t ht hty
      obtain ⟨hind, hf0, ws, hws, hwb, -⟩ := indentPhase_spec lx
      have hwn : '\n' ∉ ws := nl_not_mem_of_all isBlank_nl hwb
      have hhere : ∀ u ∈ lx.indentPhase.1, MarksLevel l0.rest u := by
        intro u hu
        rw [hind] at hu
        by_cases hb : lx.newLine = true
        · simp only [hb, if_true, List.mem_singleton] at hu
          rw [hu]
          exact indent_level l0 lx cs0 hl hc hadv hb (hst hb)
        · simp [hb] at hu
      rw [scan_succ] at hs
      obtain ⟨lx2, ⟨ms, hms, hmn⟩, h | ⟨tok, lx3, h, cs, hcs, hadv3, hline, -, hni, -, hcn⟩ |
        ⟨h, hnl⟩⟩ := scanStep_spec lx
      · -- the end of the input
        rw [h.1] at hs
        simp only [if_true, Option.some.injEq, Prod.mk.injEq] at hs
        obtain ⟨rfl, -⟩ := hs
        rcases List.mem_append.mp ht with ht | ht
        · exact hhere t ht
        · simp only [List.mem_singleton] at ht
          rw [ht] at hty
          exact absurd hty (by simp [eofToken])
      · -- a token
        rw [h] at hs
        simp only [Bool.false_eq_true, if_false, Option.map_eq_some', Prod.mk.injEq,
          Prod.exists] at hs
        obtain ⟨toks', lxe, hs', rfl, rfl⟩ := hs
        have hrest2 : lx.rest = (ws ++ ms) ++ lx2.rest := (hws.trans hms).rest_eq
        have h32 : NoTriple lx2.rest := by rw [hrest2] at h3; exact h3.of_append
        have hcn := hcn h32
        have hrest : lx.rest = ((ws ++ ms) ++ cs) ++ lx3.rest :=
          ((hws.trans hms).trans hadv3).rest_eq
        have h33 : NoTriple lx3.rest := by rw [hrest] at h3; exact h3.of_append
        have hf2 : lx2.newLine = false := hms.flag_false hmn hf0
        have hf3 : lx3.newLine = false := hadv3.flag_false hcn hf2
        rcases List.mem_append.mp ht with ht | ht
        · rcases List.mem_append.mp ht with ht | ht
          · exact hhere t ht
          · simp only [List.mem_singleton] at ht
            rw [ht] at hty
            exact absurd hty hni
        · exact ih lx3 _ toks' _ (hadv.trans ((hws.trans hms).trans hadv3)) h33
            (fun hb => by rw [hf3] at hb; exact Bool.noConfusion hb) hs' t ht hty
      · -- a newline
        rw [h] at hs
        simp only [Bool.false_eq_true, if_false, Option.map_eq_some', Prod.mk.injEq,
          Prod.exists] at hs
        obtain ⟨toks', lxe, hs', rfl, rfl⟩ := hs
        have hn0 : lx2.peek ≠ NUL := by rw [hnl]; decide
        have a := (hws.trans hms).trans (Adv.one hn0)
        have hrest : lx.rest = ((ws ++ ms) ++ [lx2.peek]) ++ lx2.advance.2.rest := a.rest_eq
        have h33 : NoTriple lx2.advance.2.rest := by rw [hrest] at h3; exact h3.of_append
        rcases List.mem_append.mp ht with ht | ht
        · exact hhere t ht
        · refine ih lx2.advance.2 _ toks' _ (hadv.trans a) h33 (fun _ => Or.inr ?_) hs' t ht hty
          rw [hnl]
          simp

/-! ### No token stands within the leading blanks of a line -/

theorem scan_order : ∀ (fuel : Nat) (lx : Lexer) (toks : List Token) (lx' : Lexer),
    scan fuel lx [] = some (toks, lx') → NoTriple lx.rest →
      (∀ u ∈ toks, lx.line ≤ u.line ∧ (u.line = lx.line → lx.column ≤ u.column)) ∧
      (lx.newLine = false → ∀ t ∈ toks, t.type = .Indent → lx.line < t.line) ∧
      (∀ t ∈ toks, t.type = .Indent → ∀ u ∈ toks, u.line = t.line → t.column ≤ u.column) := by
  intro fuel
  induction fuel with
  | zero => intro lx toks lx' h; simp [scan] at h
  | succ fuel ih =>
      intro lx toks lx' hs h3
      obtain ⟨hind, hf0, ws, hws, hwb, -⟩ := indentPhase_spec lx
      have hwn : '\n' ∉ ws := nl_not_mem_of_all isBlank_nl hwb
      have hl0 : lx.indentPhase.2.line = lx.line := hws.line_same hwn
      have hc0 : lx.indentPhase.2.column = lx.column + ws.length := hws.column_same hwn
      -- the tokens of the indent phase: the IndentMarker, when the flag is set
      have hip : ∀ u ∈ lx.indentPhase.1, lx.newLine = true ∧ u.line = lx.line ∧
          u.column = lx.indentPhase.2.column := by
        intro u hu
        rw [hind] at hu
        by_cases hb : lx.newLine = true
        · simp only [hb, if_true, List.mem_singleton] at hu
          rw [hu]
          exact ⟨hb, hl0, rfl⟩
        · simp [hb] at hu
      rw [scan_succ] at hs
      obtain ⟨lx2, ⟨ms, hms, hmn⟩, h | ⟨tok, lx3, h, cs, hcs, hadv3, hline, hcol, hni, -, hcn⟩ |
        ⟨h, hnl⟩⟩ := scanStep_spec lx
      · -- the end of the input
        rw [h.1] at hs
        simp only [if_true, Option.some.injEq, Prod.mk.injEq] at hs
        obtain ⟨rfl, -⟩ := hs
        have hl2 : lx2.line = lx.line := by rw [hms.line_same hmn, hl0]
        have hc2 : lx2.column = lx.indentPhase.2.column + ms.length := hms.column_same hmn
        have he : ∀ u ∈ [eofToken lx2], u.type ≠ .Indent ∧ u.line = lx.line ∧
            u.column = lx2.column := by
          intro u hu
          simp only [List.mem_singleton] at hu
          rw [hu]
          exact ⟨by simp [eofToken], hl2, rfl⟩
        refine ⟨?_, ?_, ?_⟩
        · intro u hu
          rcases List.mem_append.mp hu with hu | hu
          · obtain ⟨-, h1, h2⟩ := hip u hu
            exact ⟨by omega, fun _ => by omega⟩
          · obtain ⟨-, h1, h2⟩ := he u hu
            exact ⟨by omega, fun _ => by omega⟩
        · intro hb t ht hty
          rcases List.mem_append.mp ht with ht | ht
          · rw [(hip t ht).1] at hb; exact Bool.noConfusion hb
          · exact absurd hty (he t ht).1
        · intro t ht hty u hu hul
          rcases List.mem_append.mp ht with ht | ht
          · obtain ⟨-, -, t2⟩ := hip t ht
            rcases List.mem_append.mp hu with hu | hu
            · obtain ⟨-, -, u2⟩ := hip u hu
              omega
            · obtain ⟨-, -, u2⟩ := he u hu
              omega
          · exact absurd hty (he t ht).1
      · -- a token
        rw [h] at hs
        simp only [Bool.false_eq_true, if_false, Option.map_eq_some', Prod.mk.injEq,
          Prod.exists] at hs
        obtain ⟨toks', lxe, hs', rfl, rfl⟩ := hs
        have hrest2 : lx.rest = (ws ++ ms) ++ lx2.rest := (hws.trans hms).rest_eq
        have h32 : NoTriple lx2.rest := by rw [hrest2] at h3; exact h3.of_append
        have hcn := hcn h32
        have hrest : lx.rest = ((ws ++ ms) ++ cs) ++ lx3.rest :=
          ((hws.trans hms).trans hadv3).rest_eq
        have h33 : NoTriple lx3.rest := by rw [hrest] at h3; exact h3.of_append
        have hf2 : lx2.newLine = false := hms.flag_false hmn hf0
        have hf3 : lx3.newLine = false := hadv3.flag_false hcn hf2
        have hl2 : lx2.line = lx.line := by rw [hms.line_same hmn, hl0]
        have hc2 : lx2.column = lx.indentPhase.2.column + ms.length := hms.column_same hmn
        have hl3 : lx3.line = lx.line := by rw [hadv3.line_same hcn, hl2]
        have hc3 : lx3.column = lx2.column + cs.length := hadv3.column_same hcn
        have htl : tok.line = lx.line := by rw [← hl3]; exact hline
        have htc : tok.column = lx2.column := hcol
        obtain ⟨iha, ihb, ihc⟩ := ih lx3 toks' _ hs' h33
        have ihb := ihb hf3
        have hk : ∀ u ∈ [tok], u.type ≠ .Indent ∧ u.line = lx.line ∧ u.column = lx2.column := by
          intro u hu
          simp only [List.mem_singleton] at hu
          rw [hu]
          exact ⟨hni, htl, htc⟩
        refine ⟨?_, ?_, ?_⟩
        · intro u hu
          rcases List.mem_append.mp hu with hu | hu
          · rcases List.mem_append.mp hu with hu | hu
            · obtain ⟨-, h1, h2⟩ := hip u hu
              exact ⟨by omega, fun _ => by omega⟩
            · obtain ⟨-, h1, h2⟩ := hk u hu
              exact ⟨by omega, fun _ => by omega⟩
          · obtain ⟨h1, h2⟩ := iha u hu
            exact ⟨by omega, fun e => by have := h2 (by omega); omega⟩
        · intro hb t ht hty
          rcases List.mem_append.mp ht with ht | ht
          · rcases List.mem_append.mp ht with ht | ht
            · rw [(hip t ht).1] at hb; exact Bool.noConfusion hb
            · exact absurd hty (hk t ht).1
          · have := ihb t ht hty
            omega
        · intro t ht hty u hu hul
          rcases List.mem_append.mp ht with ht | ht
          · rcases List.mem_append.mp ht with ht | ht
            · obtain ⟨-, t1, t2⟩ := hip t ht
              rcases List.mem_append.mp hu with hu | hu
              · rcases List.mem_append.mp hu with hu | hu
                · obtain ⟨-, -, u2⟩ := hip u hu
                  omega
                · obtain ⟨-, -, u2⟩ := hk u hu
                  omega
              · obtain ⟨-, u2⟩ := iha u hu
                have := u2 (by omega)
                omega
            · exact absurd hty (hk t ht).1
          · have tl := ihb t ht hty
            rcases List.mem_append.mp hu with hu | hu
            · rcases List.mem_append.mp hu with hu | hu
              · obtain ⟨-, u1, -⟩ := hip u hu
                omega
              · obtain ⟨-, u1, -⟩ := hk u hu
                omega
            · exact ihc t ht hty u hu hul
      · -- a newline
        rw [h] at hs
        simp only [Bool.false_eq_true, if_false, Option.map_eq_some', Prod.mk.injEq,
          Prod.exists] at hs
        obtain ⟨toks', lxe, hs', rfl, rfl⟩ := hs
        have hn0 : lx2.peek ≠ NUL := by rw [hnl]; decide
        obtain ⟨r, hr⟩ := Lexer.rest_of_peek_ne hn0
        have a := (hws.trans hms).trans (Adv.one hn0)
        have hrest : lx.rest = ((ws ++ ms) ++ [lx2.peek]) ++ lx2.advance.2.rest := a.rest_eq
        have h33 : NoTriple lx2.advance.2.rest := by rw [hrest] at h3; exact h3.of_append
        have hl2 : lx2.line = lx.line := by rw [hms.line_same hmn, hl0]
        have hln : lx2.advance.2.line = lx.line + 1 := by
          rw [Lexer.advance_line hr, hnl, hl2]; rfl
        obtain ⟨iha, -, ihc⟩ := ih lx2.advance.2 toks' _ hs' h33
        refine ⟨?_, ?_, ?_⟩
        · intro u hu
          rcases List.mem_append.mp hu with hu | hu
          · obtain ⟨-, h1, h2⟩ := hip u hu
            exact ⟨by omega, fun _ => by omega⟩
          · obtain ⟨h1, -⟩ := iha u hu
            exact ⟨by omega, fun e => by omega⟩
        · intro hb t ht hty
          rcases List.mem_append.mp ht with ht | ht
          · rw [(hip t ht).1] at hb; exact Bool.noConfusion hb
          · have := (iha t ht).1
            omega
        · intro t ht hty u hu hul
          rcases List.mem_append.mp ht with ht | ht
          · obtain ⟨-, t1, t2⟩ := hip t ht
            rcases List.mem_append.mp hu with hu | hu
            · obtain ⟨-, -, u2⟩ := hip u hu
              omega
            · have := (iha u hu).1
              omega
          · have tl := (iha t ht).1
            rcases List.mem_append.mp hu with hu | hu
            · obtain ⟨-, u1, -⟩ := hip u hu
              omega
            · exact ihc t ht hty u hu hul

/-- C5 (amended). For a source text without three double quotes in a row, `tokenize`
returns, and every IndentMarker it emits is the marker of a physical line of the text
(`pre` is the text before the line, `run` the leading spaces and tabs of the line, `post`
what follows them): its lexeme is the decimal string of `(s + 4 * t) / 4` for the `s`
spaces and `t` tabs of `run`, and no token of that line stands within the run: each one,
the marker included, has a column past it. -/
theorem indent_marker_level (source : List Char) (h3 : NoTriple source) :
    ∃ tokens lx', (Lexer.mk0 source).tokenize = some (tokens, lx') ∧
      ∀ t ∈ tokens, t.type = .Indent →
        ∃ pre run post, source = pre ++ (run ++ post) ∧
          (pre = [] ∨ pre.getLast? = some '\n') ∧
          (∀ c ∈ run, c = ' ' ∨ c = '\t') ∧ (∀ c ∈ post.head?, c ≠ ' ' ∧ c ≠ '\t') ∧
          t.line = 1 + (pre.count '\n' : Nat) ∧
          t.value = toString ((run.count ' ' + 4 * run.count '\t') / 4) ∧
          ∀ u ∈ tokens, u.line = t.line → 1 + (run.length : Int) ≤ u.column := by
  obtain ⟨toks, lx', hs, -, -⟩ :=
    scan_returns ((Lexer.mk0 source).rest.length + 1) (startOf (Lexer.mk0 source))
      (Nat.lt_succ_self _)
  refine ⟨toks, lx'.detectTypes, by rw [tokenize_eq, hs]; rfl, ?_⟩
  intro t ht hty
  obtain ⟨pre, run, post, e, hp, hrun, hpost, hline, hcol, hval⟩ :=
    scan_levels (startOf (Lexer.mk0 source)) rfl rfl _ _ [] _ _ (Adv.refl _) h3
      (fun _ => Or.inl rfl) hs t ht hty
  refine ⟨pre, run, post, e, hp, hrun, hpost, hline, hval, ?_⟩
  intro u hu hul
  have := (scan_order _ _ _ _ hs h3).2.2 t ht hty u hu hul
  rw [hcol] at this
  simpa using this

/-! ## The parser returns: no fault, on every token list that ends in EndOfInput -/

namespace Parser

theorem Follows.self (p : Parser) : Follows p p := List.suffix_refl _

theorem Follows.chain {a b c : Parser} (h1 : Follows a b) (h2 : Follows b c) : Follows a c :=
  List.IsSuffix.trans h1 h2

theorem Follows.of_stream {q p : Parser} (h : q.stream = p.stream) : Follows q p := by
  unfold Follows; rw [h]

theorem Follows.rest_le {q p : Parser} (h : Follows q p) : q.rest.length ≤ p.rest.length := by
  have := List.IsSuffix.length_le h
  simpa [stream] using this

theorem EndsEOF.suffix_ends {s t : List Token} (h : EndsEOF t) (hs : s <:+ t) (hne : s ≠ []) :
    EndsEOF s := by
  obtain ⟨init, eof, e, hty⟩ := h
  obtain ⟨pre, hp⟩ := hs
  obtain ⟨init', last, e'⟩ : ∃ i l, s = i ++ [l] := by
    rcases List.eq_nil_or_concat s with h | ⟨i, l, h⟩
    · exact absurd h hne
    · exact ⟨i, l, by simpa using h⟩
  refine ⟨init', last, e', ?_⟩
  have : pre ++ init' ++ [last] = init ++ [eof] := by rw [← e, ← hp, e']; simp
  have := List.append_inj_right' this rfl
  simp only [List.cons.injEq, and_true] at this
  rw [this]; exact hty

theorem GoodTokens.suffix_good {s t : List Token} (h : GoodTokens t) (hs : s <:+ t) :
    GoodTokens s :=
  ⟨fun x hx => h.1 x (hs.subset hx), fun x hx => h.2 x (hs.subset hx)⟩

theorem Inv.of_follows {q p : Parser} (h : Inv p) (hf : Follows q p) : Inv q :=
  ⟨h.1.suffix_ends hf (by simp [stream]), h.2.suffix_good hf⟩

theorem Inv.rest_ne_nil {p : Parser} (h : Inv p) (hc : p.currentToken.type ≠ .EOFToken) :
    p.rest ≠ [] := by
  intro hr
  obtain ⟨init, eof, e, hty⟩ := h.1
  simp only [stream, hr] at e
  cases init with
  | nil => simp at e; rw [e] at hc; exact hc hty
  | cons a l =>
      have := congrArg List.length e
      simp at this

theorem advance_follows (p : Parser) : Follows p.advance p := by
  unfold advance Follows stream
  cases hr : p.rest with
  | nil => simp [hr]
  | cons t r => simp

theorem advance_lt {p : Parser} (h : Inv p) (hc : p.currentToken.type ≠ .EOFToken) :
    p.advance.rest.length < p.rest.length := by
  have := h.rest_ne_nil hc
  unfold advance
  cases hr : p.rest with
  | nil => exact absurd hr this
  | cons t r => simp

@[simp] theorem advance_symbolTable (p : Parser) : p.advance.symbolTable = p.symbolTable := by
  unfold advance; cases p.rest <;> rfl

@[simp] theorem advance_indentStack (p : Parser) : p.advance.indentStack = p.indentStack := by
  unfold advance; cases p.rest <;> rfl

@[simp] theorem errorHere_stream (p : Parser) (m : String) : (p.errorHere m).stream = p.stream := rfl

@[simp] theorem errorAt_stream (p : Parser) (l c : Int) (m : String) :
    (p.errorAt l c m).stream = p.stream := rfl

@[simp] theorem errorHere_symbolTable (p : Parser) (m : String) :
    (p.errorHere m).symbolTable = p.symbolTable := rfl

@[simp] theorem errorHere_indentStack (p : Parser) (m : String) :
    (p.errorHere m).indentStack = p.indentStack := rfl

@[simp] theorem errorAt_symbolTable (p : Parser) (l c : Int) (m : String) :
    (p.errorAt l c m).symbolTable = p.symbolTable := rfl

@[simp] theorem errorAt_indentStack (p : Parser) (l c : Int) (m : String) :
    (p.errorAt l c m).indentStack = p.indentStack := rfl

@[simp] theorem errorHere_rest (p : Parser) (m : String) : (p.errorHere m).rest = p.rest := rfl

@[simp] theorem errorHere_currentToken (p : Parser) (m : String) :
    (p.errorHere m).currentToken = p.currentToken := rfl

@[simp] theorem withTable_stream (p : Parser) (t : ParserSymbolTable) :
    (p.withTable t).stream = p.stream := rfl

@[simp] theorem withTable_rest (p : Parser) (t : ParserSymbolTable) :
    (p.withTable t).rest = p.rest := rfl

@[simp] theorem withTable_currentToken (p : Parser) (t : ParserSymbolTable) :
    (p.withTable t).currentToken = p.currentToken := rfl

@[simp] theorem withTable_symbolTable (p : Parser) (t : ParserSymbolTable) :
    (p.withTable t).symbolTable = t := rfl

@[simp] theorem withTable_indentStack (p : Parser) (t : ParserSymbolTable) :
    (p.withTable t).indentStack = p.indentStack := rfl

@[simp] theorem pushIndent_stream (p : Parser) (l : Int) : (p.pushIndent l).stream = p.stream := rfl

@[simp] theorem pushIndent_symbolTable (p : Parser) (l : Int) :
    (p.pushIndent l).symbolTable = p.symbolTable := rfl

@[simp] theorem pushIndent_indentStack (p : Parser) (l : Int) :
    (p.pushIndent l).indentStack = l :: p.indentStack := rfl

theorem SameFrame.same (p : Parser) : SameFrame p p := ⟨rfl, rfl⟩

theorem SameFrame.both {a b c : Parser} (h1 : SameFrame a b) (h2 : SameFrame b c) :
    SameFrame a c := ⟨h1.1.trans h2.1, h1.2.trans h2.2⟩

theorem Later.here (p : Parser) : Later p p := ⟨Follows.self p, SameFrame.same p⟩

theorem Later.after {a b c : Parser} (h1 : Later a b) (h2 : Later b c) : Later a c :=
  ⟨h1.1.trans h2.1, h1.2.both h2.2⟩

theorem Later.advance (p : Parser) : Later p.advance p :=
  ⟨advance_follows p, by simp [SameFrame]⟩

theorem Later.errorHere (p : Parser) (m : String) : Later (p.errorHere m) p :=
  ⟨Follows.of_stream rfl, rfl, rfl⟩

theorem Later.errorAt (p : Parser) (l c : Int) (m : String) : Later (p.errorAt l c m) p :=
  ⟨Follows.of_stream rfl, rfl, rfl⟩

theorem Later.not_longer {q p : Parser} (h : Later q p) : q.rest.length ≤ p.rest.length :=
  h.1.rest_le

theorem Later.keeps_inv {q p : Parser} (h : Later q p) (hi : Inv p) : Inv q := hi.of_follows h.1

theorem isTok_type {p : Parser} {ty : TokenType} {v : String} (h : p.isTok ty v = true) :
    p.currentToken.type = ty := by
  simp only [isTok, decide_eq_true_eq] at h
  exact h.1

theorem isTok_value {p : Parser} {ty : TokenType} {v : String} (h : p.isTok ty v = true)
    (hv : v.isEmpty = false) : p.currentToken.value = v := by
  simp only [isTok, decide_eq_true_eq] at h
  rcases h.2 with h2 | h2
  · rw [hv] at h2; exact Bool.noConfusion h2
  · exact h2

theorem accept_fst (p : Parser) (ty : TokenType) (v : String) :
    (p.accept ty v).1 = p.isTok ty v := by
  unfold accept; split_ifs with h <;> simp [h]

theorem accept_snd_pos {p : Parser} {ty : TokenType} {v : String} (h : p.isTok ty v = true) :
    (p.accept ty v).2 = p.advance := by
  unfold accept; rw [if_pos h]

theorem accept_snd_neg {p : Parser} {ty : TokenType} {v : String} (h : ¬ p.isTok ty v = true) :
    (p.accept ty v).2 = p := by
  unfold accept; rw [if_neg h]

/-- A token of a type other than EndOfInput was accepted: the cursor moved. -/
theorem advance_lt_of_isTok {p : Parser} {ty : TokenType} {v : String} (hi : Inv p)
    (h : p.isTok ty v = true) (hty : ty ≠ .EOFToken) :
    p.advance.rest.length < p.rest.length :=
  advance_lt hi (by rw [isTok_type h]; exact hty)

theorem syncLoop_spec : ∀ (rest : List Token) (cur : Token), EndsEOF (cur :: rest) →
    ∃ cur' rest', syncLoop rest cur = .ok (cur', rest') ∧ (cur' :: rest') <:+ (cur :: rest)
  | [], cur, h => by
      have hc : cur.type = .EOFToken := by
        obtain ⟨init, eof, e, hty⟩ := h
        cases init with
        | nil => simp at e; rw [e]; exact hty
        | cons a l => have := congrArg List.length e; simp at this
      refine ⟨cur, [], ?_, List.suffix_refl _⟩
      unfold syncLoop
      rw [if_pos]
      simp [syncStop, hc]
  | t :: r, cur, h => by
      unfold syncLoop
      by_cases hs : syncStop cur = true
      · rw [if_pos hs]; exact ⟨cur, t :: r, rfl, List.suffix_refl _⟩
      · rw [if_neg hs]
        obtain ⟨c', r', e, hsuf⟩ := syncLoop_spec r t (h.suffix_ends (List.suffix_cons _ _) (by simp))
        exact ⟨c', r', e, hsuf.trans (List.suffix_cons _ _)⟩

theorem synchronize_spec {p : Parser} (hi : Inv p) :
    ∃ q, p.synchronize = .ok q ∧ Later q p := by
  obtain ⟨c, r, e, hs⟩ := syncLoop_spec p.rest p.currentToken hi.1
  refine ⟨{ p with currentToken := c, rest := r }, ?_, hs, rfl, rfl⟩
  unfold synchronize
  rw [e]

theorem expect_spec {p : Parser} (hi : Inv p) (ty : TokenType) (m v : String) :
    ∃ q, p.expect ty m v = .ok q ∧ Later q p ∧
      (p.isTok ty v = true → q = p.advance) := by
  unfold expect
  by_cases h : p.isTok ty v = true
  · rw [accept_fst, if_pos h, accept_snd_pos h]
    exact ⟨_, rfl, Later.advance p, fun _ => rfl⟩
  · rw [accept_fst, if_neg h]
    obtain ⟨q, e, hl⟩ := @synchronize_spec (p.errorHere m) (Inv.of_follows hi (Follows.of_stream rfl))
    exact ⟨q, e, hl.after (Later.errorHere p m), fun h' => absurd h' h⟩

theorem expectIndentLoop_spec : ∀ (rest : List Token) (cur : Token) (lvl : Int)
    (errs : List ParseError), EndsEOF (cur :: rest) → GoodTokens (cur :: rest) →
    ∃ cur' rest' errs', expectIndentLoop rest cur lvl errs = .ok (cur', rest', errs') ∧
      (cur' :: rest') <:+ (cur :: rest) ∧ (cur.type = .Indent → rest'.length < rest.length)
  | rest, cur, lvl, errs, he, hg => by
      unfold expectIndentLoop
      by_cases hc : cur.type = .Indent
      · rw [if_neg (by simpa using hc)]
        have hs := hg.1 cur (List.mem_cons_self _ _) hc
        obtain ⟨a, ha⟩ := Option.isSome_iff_exists.mp hs
        simp only [ha]
        cases rest with
        | nil =>
            exfalso
            obtain ⟨init, eof, e, hty⟩ := he
            cases init with
            | nil => simp at e; rw [e, hty] at hc; exact TokenType.noConfusion hc
            | cons a l => have := congrArg List.length e; simp at this
        | cons t r =>
            simp only
            by_cases ht : t.type = .Indent
            · rw [if_pos ht]
              obtain ⟨c', r', e', h1, h2, h3⟩ := expectIndentLoop_spec r t a _
                (he.suffix_ends (List.suffix_cons _ _) (by simp)) (hg.suffix_good (List.suffix_cons _ _))
              refine ⟨c', r', e', h1, h2.trans (List.suffix_cons _ _), fun _ => ?_⟩
              have := h3 ht
              simp only [List.length_cons]
              omega
            · rw [if_neg ht]
              exact ⟨t, r, _, rfl, List.suffix_cons _ _, fun _ => by simp⟩
      · rw [if_pos (by simpa using hc)]
        exact ⟨cur, rest, _, rfl, List.suffix_refl _, fun h => absurd h hc⟩
termination_by rest => rest.length

theorem expectIndent_spec {p : Parser} (hi : Inv p) (lvl : Int) :
    ∃ q, p.expectIndent lvl = .ok q ∧ Later q p ∧
      (p.currentToken.type = .Indent → q.rest.length < p.rest.length) := by
  obtain ⟨c, r, e, h1, h2, h3⟩ := expectIndentLoop_spec p.rest p.currentToken lvl p.errors hi.1 hi.2
  refine ⟨{ p with currentToken := c, rest := r, errors := e }, ?_, ⟨h2, rfl, rfl⟩, h3⟩
  unfold expectIndent
  rw [h1]

/-! ### Expressions -/

theorem safeFold_binary {op : Token} {l r : ASTNode} (h : op.value ≠ "%")
    (hl : safeFold l = true) (hr : safeFold r = true) : safeFold (BinaryOpNode op l r) = true := by
  simp [BinaryOpNode, safeFold, h, hl, hr]

theorem safeFold_unary {op : Token} {o : ASTNode} (ho : safeFold o = true) :
    safeFold (UnaryOpNode op o) = true := by
  simp [UnaryOpNode, safeFold, ho]

theorem ExprPost.mono {p p0 : Parser} {r : Res ASTNode} (h : ExprPost p r) (hl : Later p p0) :
    ExprPost p0 r := by
  obtain ⟨node, q, e, hq, hs⟩ := h
  exact ⟨node, q, e, hq.after hl, hs⟩

theorem ExprPost.null {p q : Parser} (hl : Later q p) : ExprPost p (.ok (.null, q)) :=
  ⟨.null, q, rfl, hl, rfl⟩

/-- A level of the precedence climb: the operand parser, then the loop. -/
theorem level_spec {f sub : Nat → Parser → Res ASTNode}
    {loop : Nat → ASTNode → Parser → Res ASTNode} {k ks kl n : Nat}
    (hunf : ∀ fuel p, f (fuel + 1) p =
      match sub fuel p with
      | .error e => .error e
      | .ok (node, p1) => if node.isNull then .ok (.null, p1) else loop fuel node p1)
    (hs : ExprLE sub ks n) (hl : LoopLE loop kl n) (hks : ks < k) (hkl : kl < k) :
    ExprLE f k n := by
  intro fuel p hi hn hf
  obtain ⟨fuel, rfl⟩ : ∃ f', fuel = f' + 1 := ⟨fuel - 1, by omega⟩
  rw [hunf]
  obtain ⟨node, p1, e1, l1, s1⟩ := hs fuel p hi hn (by omega)
  rw [e1]
  simp only
  split_ifs
  · exact ExprPost.null l1
  · exact (hl fuel node p1 (l1.keeps_inv hi) s1 (le_trans l1.not_longer hn) (by omega)).mono l1

/-- The same with the operator token taken before the loop (`or`, `and`). -/
theorem level_spec_op {f sub : Nat → Parser → Res ASTNode}
    {loop : Nat → Token → ASTNode → Parser → Res ASTNode} {k ks kl n : Nat}
    (hunf : ∀ fuel p, f (fuel + 1) p =
      match sub fuel p with
      | .error e => .error e
      | .ok (node, p1) => if node.isNull then .ok (.null, p1) else loop fuel p1.currentToken node p1)
    (hs : ExprLE sub ks n) (hl : OpLoopLE loop kl n) (hks : ks < k) (hkl : kl < k) :
    ExprLE f k n := by
  intro fuel p hi hn hf
  obtain ⟨fuel, rfl⟩ : ∃ f', fuel = f' + 1 := ⟨fuel - 1, by omega⟩
  rw [hunf]
  obtain ⟨node, p1, e1, l1, s1⟩ := hs fuel p hi hn (by omega)
  rw [e1]
  simp only
  split_ifs
  · exact ExprPost.null l1
  · exact (hl fuel _ node p1 (l1.keeps_inv hi) s1 (Or.inl rfl) (le_trans l1.not_longer hn)
      (by omega)).mono l1

/-- A loop over binary operators of one level, the operator taken in the loop. -/
theorem loop_spec {loop : Nat → ASTNode → Parser → Res ASTNode}
    (sub : Nat → Parser → Res ASTNode) (test : Parser → Bool) (msg : String) {ks n : Nat}
    (hunf : ∀ fuel node p, loop (fuel + 1) node p =
      if test p then
        match sub fuel p.advance with
        | .error e => .error e
        | .ok (right, p1) =>
            if right.isNull then .ok (.null, p1.errorHere msg)
            else loop fuel (BinaryOpNode p.currentToken node right) p1
      else .ok (node, p))
    (htest : ∀ p, test p = true → p.currentToken.type = .Operator)
    (hs : ∀ m < n, ExprLE sub ks m) (ih : ∀ m < n, LoopLE loop 1 m) (hks : ks ≤ 63) :
    LoopLE loop 1 n := by
  intro fuel node p hi hnode hn hf
  obtain ⟨fuel, rfl⟩ : ∃ f', fuel = f' + 1 := ⟨fuel - 1, by omega⟩
  rw [hunf]
  by_cases ht : test p = true
  · rw [if_pos ht]
    have hty := htest p ht
    have hlt : p.advance.rest.length < p.rest.length :=
      advance_lt hi (by rw [hty]; decide)
    have hv : p.currentToken.value ≠ "%" := by
      intro hv
      exact hi.2.2 p.currentToken (List.mem_cons_self _ _) ⟨hty, hv⟩
    have la := Later.advance p
    obtain ⟨right, p1, e1, l1, s1⟩ :=
      hs (n - 1) (by omega) fuel p.advance (la.keeps_inv hi) (by omega) (by omega)
    rw [e1]
    simp only
    split_ifs
    · exact ExprPost.null ((Later.errorHere p1 msg).after (l1.after la))
    · have l2 := l1.after la
      exact (ih (n - 1) (by omega) fuel _ p1 (l2.keeps_inv hi) (safeFold_binary hv hnode s1)
        (by have := l1.not_longer; omega) (by omega)).mono l2
  · rw [if_neg ht]
    exact ⟨node, p, rfl, Later.here p, hnode⟩

/-- A loop over `or` or `and`, the operator token taken before the loop. -/
theorem loop_spec_op {loop : Nat → Token → ASTNode → Parser → Res ASTNode}
    (sub : Nat → Parser → Res ASTNode) (kw msg : String) {ks n : Nat}
    (hunf : ∀ fuel op node p, loop (fuel + 1) op node p =
      if (p.accept .Keyword kw).1 then
        match sub fuel (p.accept .Keyword kw).2 with
        | .error e => .error e
        | .ok (right, p1) =>
            if right.isNull then .ok (node, p1.errorHere msg)
            else loop fuel op (BinaryOpNode op node right) p1
      else .ok (node, p))
    (hkw : kw.isEmpty = false) (hkw2 : kw ≠ "%")
    (hs : ∀ m < n, ExprLE sub ks m) (ih : ∀ m < n, OpLoopLE loop 1 m) (hks : ks ≤ 63) :
    OpLoopLE loop 1 n := by
  intro fuel op node p hi hnode hop hn hf
  obtain ⟨fuel, rfl⟩ : ∃ f', fuel = f' + 1 := ⟨fuel - 1, by omega⟩
  rw [hunf]
  by_cases ht : p.isTok .Keyword kw = true
  · rw [accept_fst, if_pos ht, accept_snd_pos ht]
    have hlt : p.advance.rest.length < p.rest.length :=
      advance_lt_of_isTok hi ht (by decide)
    have hv : op.value ≠ "%" := by
      rcases hop with rfl | h
      · rw [isTok_value ht hkw]; exact hkw2
      · exact h
    have la := Later.advance p
    obtain ⟨right, p1, e1, l1, s1⟩ :=
      hs (n - 1) (by omega) fuel p.advance (la.keeps_inv hi) (by omega) (by omega)
    rw [e1]
    simp only
    split_ifs
    · exact ⟨node, _, rfl, (Later.errorHere p1 msg).after (l1.after la), hnode⟩
    · have l2 := l1.after la
      exact (ih (n - 1) (by omega) fuel op _ p1 (l2.keeps_inv hi) (safeFold_binary hv hnode s1)
        (Or.inr hv) (by have := l1.not_longer; omega) (by omega)).mono l2
  · rw [accept_fst, if_neg ht]
    exact ⟨node, p, rfl, Later.here p, hnode⟩

theorem safeFold_call (t : Token) (f : ASTNode) (args : List ASTNode) :
    safeFold (CallNode t f args) = true := by
  simp [CallNode, safeFold]

theorem safeFold_number {t : Token} {n : ASTNode} (h : NumberNode t = some n) :
    safeFold n = true := by
  unfold NumberNode at h
  split at h
  · exact Option.noConfusion h
  · simp only [Option.some.injEq] at h
    rw [← h]
    simp [safeFold]

theorem parseFuncCall_spec {n : Nat} (ih : ∀ m < n, ExprSpecs m) : ExprLE parseFuncCall 1 n := by
  intro fuel p hi hn hf
  obtain ⟨fuel, rfl⟩ : ∃ f', fuel = f' + 1 := ⟨fuel - 1, by omega⟩
  unfold parseFuncCall
  simp only
  obtain ⟨p1, e1, l1, -⟩ := expect_spec hi .Identifier "Expected function name" ""
  rw [e1]
  simp only
  have hi1 := l1.keeps_inv hi
  by_cases h2 : p1.isTok .Delimiter "(" = true
  · rw [accept_fst, if_neg (by simp [h2]), accept_snd_pos h2]
    have hlt := advance_lt_of_isTok hi1 h2 (by decide)
    have l2 := (Later.advance p1).after l1
    have hi2 := l2.keeps_inv hi
    have hn1 := l1.not_longer
    by_cases h3 : p1.advance.isTok .Delimiter ")" = true
    · rw [accept_fst, if_pos h3, accept_snd_pos h3]
      exact ⟨_, _, rfl, (Later.advance _).after l2, safeFold_call _ _ _⟩
    · rw [accept_fst, if_neg h3]
      obtain ⟨args, p3, e3, l3⟩ :=
        (ih (n - 1) (by omega)).args fuel [] p1.advance hi2 (by omega) (by omega)
      rw [e3]
      simp only
      by_cases h4 : p3.isTok .Delimiter ")" = true
      · rw [accept_fst, if_neg (by simp [h4]), accept_snd_pos h4]
        exact ⟨_, _, rfl, ((Later.advance _).after l3).after l2, safeFold_call _ _ _⟩
      · rw [accept_fst, if_pos (by simpa using h4)]
        exact ExprPost.null ((Later.errorHere _ _).after (l3.after l2))
  · rw [accept_fst, if_pos (by simpa using h2)]
    exact ExprPost.null ((Later.errorHere _ _).after l1)

theorem parsePrimary_spec {n : Nat} (ih : ∀ m < n, ExprSpecs m)
    (hfc : ExprLE parseFuncCall 1 n) : ExprLE parsePrimary 2 n := by
  intro fuel p hi hn hf
  obtain ⟨fuel, rfl⟩ : ∃ f', fuel = f' + 1 := ⟨fuel - 1, by omega⟩
  unfold parsePrimary
  simp only
  split_ifs with h1 h2 h3 h4 h5 h6
  · cases hnum : NumberNode p.currentToken with
    | some nd => exact ⟨_, _, rfl, Later.advance p, safeFold_number hnum⟩
    | none => exact ExprPost.null ((Later.errorAt _ _ _ _).after (Later.advance p))
  · exact ⟨_, _, rfl, Later.advance p, by simp [StringNode, safeFold]⟩
  · exact ⟨_, _, rfl, Later.advance p, by simp [BooleanNode, safeFold]⟩
  · exact hfc fuel p hi hn (by omega)
  · exact ⟨_, _, rfl, Later.advance p, by simp [IdentifierNode, safeFold]⟩
  · rw [accept_fst] at h6
    rw [accept_snd_pos h6]
    have hlt := advance_lt_of_isTok hi h6 (by decide)
    have la := Later.advance p
    obtain ⟨expr, p1, e1, l1, s1⟩ :=
      (ih (n - 1) (by omega)).expr fuel p.advance (la.keeps_inv hi) (by omega) (by omega)
    rw [e1]
    simp only
    obtain ⟨p2, e2, l2, -⟩ := expect_spec ((l1.after la).keeps_inv hi) .Delimiter
      "Expected ')' after expression" ")"
    rw [e2]
    exact ⟨_, _, rfl, l2.after (l1.after la), s1⟩
  · exact ExprPost.null ((Later.advance _).after (Later.errorHere _ _))

theorem parseUnary_spec {n : Nat} (ih : ∀ m < n, ExprSpecs m)
    (hp : ExprLE parsePrimary 2 n) : ExprLE parseUnary 3 n := by
  intro fuel p hi hn hf
  obtain ⟨fuel, rfl⟩ : ∃ f', fuel = f' + 1 := ⟨fuel - 1, by omega⟩
  unfold parseUnary
  simp only
  by_cases h : (p.isTok .Operator "-" || p.isTok .Keyword "not") = true
  · rw [if_pos h]
    have hne : p.currentToken.type ≠ .EOFToken := by
      rcases Bool.or_eq_true _ _ |>.mp h with h | h
      · rw [isTok_type h]; decide
      · rw [isTok_type h]; decide
    have hlt := advance_lt hi hne
    have la := Later.advance p
    obtain ⟨right, p1, e1, l1, s1⟩ :=
      (ih (n - 1) (by omega)).unary fuel p.advance (la.keeps_inv hi) (by omega) (by omega)
    rw [e1]
    simp only
    split_ifs
    · exact ExprPost.null ((Later.errorHere _ _).after (l1.after la))
    · exact ⟨_, _, rfl, l1.after la, safeFold_unary s1⟩
  · rw [if_neg h]
    exact hp fuel p hi hn (by omega)

theorem parseExpr_spec {n : Nat} (h : ExprLE parseLogicalOr 9 n) : ExprLE parseExpr 10 n := by
  intro fuel p hi hn hf
  obtain ⟨fuel, rfl⟩ : ∃ f', fuel = f' + 1 := ⟨fuel - 1, by omega⟩
  unfold parseExpr
  split_ifs
  · exact ExprPost.null (Later.errorHere _ _)
  · exact h fuel p hi hn (by omega)

theorem parseArgs_spec {n : Nat} (ih : ∀ m < n, ExprSpecs m) (he : ExprLE parseExpr 10 n) :
    ArgsLE 11 n := by
  intro fuel args p hi hn hf
  obtain ⟨fuel, rfl⟩ : ∃ f', fuel = f' + 1 := ⟨fuel - 1, by omega⟩
  unfold parseArgs
  obtain ⟨arg, p1, e1, l1, -⟩ := he fuel p hi hn (by omega)
  rw [e1]
  simp only
  split_ifs with h1 h2
  · exact ⟨_, _, rfl, (Later.errorHere _ _).after l1⟩
  · rw [accept_fst] at h2
    rw [accept_snd_pos h2]
    have hi1 := l1.keeps_inv hi
    have hlt := advance_lt_of_isTok hi1 h2 (by decide)
    have hn1 := l1.not_longer
    have la := (Later.advance p1).after l1
    obtain ⟨args', q, e, l⟩ :=
      (ih (n - 1) (by omega)).args fuel (args ++ [arg]) p1.advance (la.keeps_inv hi) (by omega) (by omega)
    exact ⟨args', q, e, l.after la⟩
  · exact ⟨_, _, rfl, l1⟩

theorem isTok_operator_type {p : Parser} {a b : String}
    (h : (p.isTok .Operator a || p.isTok .Operator b) = true) :
    p.currentToken.type = .Operator := by
  rcases Bool.or_eq_true _ _ |>.mp h with h | h <;> exact isTok_type h

theorem expr_specs : ∀ n, ExprSpecs n := by
  intro n
  induction n using Nat.strong_induction_on with
  | _ n ih =>
    have hfc := parseFuncCall_spec ih
    have hpr := parsePrimary_spec ih hfc
    have hun := parseUnary_spec ih hpr
    have hfl : LoopLE factorLoop 1 n :=
      loop_spec parseUnary (fun p => p.isTok .Operator "*" || p.isTok .Operator "/" ||
          p.isTok .Operator "%")
        "Expected right-hand expression after operator"
        (fun fuel node p => by rw [factorLoop])
        (fun p h => by
          rcases Bool.or_eq_true _ _ |>.mp h with h | h
          · exact isTok_operator_type h
          · exact isTok_type h)
        (fun m hm => (ih m hm).unary) (fun m hm => (ih m hm).factorLoop) (by decide)
    have hfa : ExprLE parseFactor 4 n :=
      level_spec (fun fuel p => by rw [parseFactor]) hun hfl (by decide) (by decide)
    have htl : LoopLE termLoop 1 n :=
      loop_spec parseFactor (fun p => p.isTok .Operator "+" || p.isTok .Operator "-")
        "Expected right-hand expression after operator"
        (fun fuel node p => by rw [termLoop])
        (fun p h => isTok_operator_type h)
        (fun m hm => (ih m hm).factor) (fun m hm => (ih m hm).termLoop) (by decide)
    have hte : ExprLE parseTerm 5 n :=
      level_spec (fun fuel p => by rw [parseTerm]) hfa htl (by decide) (by decide)
    have hrl : LoopLE relationalLoop 1 n :=
      loop_spec parseTerm (fun p => p.isTok .Operator "<" || p.isTok .Operator ">" ||
          p.isTok .Operator "<=" || p.isTok .Operator ">=")
        "Expected right-hand expression after comparison"
        (fun fuel node p => by rw [relationalLoop])
        (fun p h => by
          rcases Bool.or_eq_true _ _ |>.mp h with h | h
          · rcases Bool.or_eq_true _ _ |>.mp h with h | h
            · exact isTok_operator_type h
            · exact isTok_type h
          · exact isTok_type h)
        (fun m hm => (ih m hm).term) (fun m hm => (ih m hm).relationalLoop) (by decide)
    have hre : ExprLE parseRelational 6 n :=
      level_spec (fun fuel p => by rw [parseRelational]) hte hrl
        (by decide) (by decide)
    have hel : LoopLE equalityLoop 1 n :=
      loop_spec parseRelational (fun p => p.isTok .Operator "==" || p.isTok .Operator "!=")
        "Expected right-hand expression after operator"
        (fun fuel node p => by rw [equalityLoop])
        (fun p h => isTok_operator_type h)
        (fun m hm => (ih m hm).relational) (fun m hm => (ih m hm).equalityLoop) (by decide)
    have heq : ExprLE parseEquality 7 n :=
      level_spec (fun fuel p => by rw [parseEquality]) hre hel
        (by decide) (by decide)
    have hal : OpLoopLE andLoop 1 n :=
      loop_spec_op parseEquality "and" "Expected right-hand expression after 'and'"
        (fun fuel op node p => by rw [andLoop])
        (by decide) (by decide)
        (fun m hm => (ih m hm).equality) (fun m hm => (ih m hm).andLoop) (by decide)
    have han : ExprLE parseLogicalAnd 8 n :=
      level_spec_op (fun fuel p => by rw [parseLogicalAnd]) heq hal
        (by decide) (by decide)
    have hol : OpLoopLE orLoop 1 n :=
      loop_spec_op parseLogicalAnd "or" "Expected right-hand expression after 'or'"
        (fun fuel op node p => by rw [orLoop])
        (by decide) (by decide)
        (fun m hm => (ih m hm).logicalAnd) (fun m hm => (ih m hm).orLoop) (by decide)
    have hor : ExprLE parseLogicalOr 9 n :=
      level_spec_op (fun fuel p => by rw [parseLogicalOr]) han hol
        (by decide) (by decide)
    have hex := parseExpr_spec hor
    exact ⟨hfc, hpr, hun, hfl, hfa, htl, hte, hrl, hre, hel, heq, hal, han, hol, hor, hex,
      parseArgs_spec ih hex⟩

/-! ### Folding does not fault without `%` -/

theorem foldBinary_ok {op : String} (h : op ≠ "%") (a b : Dbl) :
    ∃ r, foldBinary op a b = .ok r := by
  unfold foldBinary
  by_cases h1 : op = "+"
  · rw [if_pos h1]; exact ⟨_, rfl⟩
  rw [if_neg h1]
  by_cases h2 : op = "-"
  · rw [if_pos h2]; exact ⟨_, rfl⟩
  rw [if_neg h2]
  by_cases h3 : op = "*"
  · rw [if_pos h3]; exact ⟨_, rfl⟩
  rw [if_neg h3]
  by_cases h4 : op = "/"
  · rw [if_pos h4]; split_ifs <;> exact ⟨_, rfl⟩
  rw [if_neg h4, if_neg h]
  split_ifs <;> exact ⟨_, rfl⟩

theorem evaluateBinary_ok (p : Parser) (node : ASTNode) {op : String} (h : op ≠ "%")
    (l r : String) : ∃ s, evaluateBinary p node op l r = .ok s := by
  unfold evaluateBinary
  split_ifs
  · exact ⟨_, rfl⟩
  · exact ⟨_, rfl⟩
  · cases stod l with
    | none => exact ⟨_, rfl⟩
    | some a =>
        cases stod r with
        | none => exact ⟨_, rfl⟩
        | some b =>
            obtain ⟨res, e⟩ := foldBinary_ok h a b
            simp only [e]
            cases res <;> exact ⟨_, rfl⟩

theorem evaluateUnary_ok (p : Parser) (node : ASTNode) (op o : String) :
    ∃ s, evaluateUnary p node op o = .ok s := by
  unfold evaluateUnary
  cases stod o with
  | none => simp only; split_ifs <;> exact ⟨_, rfl⟩
  | some a => simp only; split_ifs <;> exact ⟨_, rfl⟩

theorem evaluateExpression_ok (p : Parser) :
    ∀ node : ASTNode, safeFold node = true → ∃ s, p.evaluateExpression node = .ok s
  | .null, _ => ⟨_, rfl⟩
  | .node .BinaryOp token (l :: r :: cs), h => by
      simp only [safeFold, Bool.and_eq_true, decide_eq_true_eq] at h
      obtain ⟨a, ea⟩ := evaluateExpression_ok p l h.1.2
      obtain ⟨b, eb⟩ := evaluateExpression_ok p r h.2
      unfold evaluateExpression
      simp only [ea, eb]
      exact evaluateBinary_ok p _ h.1.1 a b
  | .node .BinaryOp token [l], h => by
      simp only [safeFold, Bool.and_eq_true, decide_eq_true_eq] at h
      obtain ⟨a, ea⟩ := evaluateExpression_ok p l h.2
      unfold evaluateExpression
      simp only [ea]
      exact evaluateBinary_ok p _ h.1 a _
  | .node .BinaryOp token [], h => by
      simp only [safeFold, decide_eq_true_eq] at h
      unfold evaluateExpression
      exact evaluateBinary_ok p _ h _ _
  | .node .UnaryOp token (o :: cs), h => by
      simp only [safeFold] at h
      obtain ⟨a, ea⟩ := evaluateExpression_ok p o h
      unfold evaluateExpression
      simp only [ea]
      exact evaluateUnary_ok p _ _ a
  | .node .UnaryOp token [], _ => by
      unfold evaluateExpression
      exact evaluateUnary_ok p _ _ _
  | .node .Identifier token _, _ => by
      unfold evaluateExpression
      cases p.symbolTable.lookupEntry token.value with
      | none => exact ⟨_, rfl⟩
      | some e => simp only; split_ifs <;> exact ⟨_, rfl⟩
  | .node .Boolean token _, _ => ⟨_, rfl⟩
  | .node .Program _ _, _ => ⟨_, rfl⟩
  | .node (.Number _ _) _ _, _ => ⟨_, rfl⟩
  | .node .String _ _, _ => ⟨_, rfl⟩
  | .node .Assign _ _, _ => ⟨_, rfl⟩
  | .node .Elif _ _, _ => ⟨_, rfl⟩
  | .node .If _ _, _ => ⟨_, rfl⟩
  | .node .For _ _, _ => ⟨_, rfl⟩
  | .node .While _ _, _ => ⟨_, rfl⟩
  | .node (.FunctionDef _) _ _, _ => ⟨_, rfl⟩
  | .node .Return _ _, _ => ⟨_, rfl⟩
  | .node .Block _ _, _ => ⟨_, rfl⟩
  | .node .Call _ _, _ => ⟨_, rfl⟩

/-! ### The scope stack -/

theorem TInv.fresh : TInv {} := ⟨rfl, by simp⟩

theorem declare_scopeNames {t : ParserSymbolTable} (h : TInv t) (n ty r v : String) :
    (t.declare n ty r v).scopeNames = t.scopeNames ∧ TInv (t.declare n ty r v) := by
  obtain ⟨hl, hne⟩ := h
  have he : t.scopes.isEmpty = false := by
    cases hs : t.scopes with
    | nil => exact absurd hs hne
    | cons a l => rfl
  unfold ParserSymbolTable.declare
  simp only [he, Bool.false_eq_true, if_false]
  cases hs : t.scopes with
  | nil => exact absurd hs hne
  | cons a l =>
      simp only [List.headD_cons]
      cases a.lookup n with
      | some id => exact ⟨rfl, by simpa [TInv, hs] using hl⟩
      | none =>
          refine ⟨rfl, ?_⟩
          simp only [TInv, List.tail_cons, List.length_cons, ne_eq, reduceCtorEq,
            not_false_eq_true, and_true]
          rw [hs] at hl
          simpa using hl

theorem updateType_scopeNames (t : ParserSymbolTable) (n ty : String) :
    (t.updateType n ty).scopeNames = t.scopeNames ∧ (t.updateType n ty).scopes = t.scopes := by
  unfold ParserSymbolTable.updateType
  cases ParserSymbolTable.findId n t.scopes <;> exact ⟨rfl, rfl⟩

theorem updateValue_scopeNames (t : ParserSymbolTable) (n v : String) :
    (t.updateValue n v).scopeNames = t.scopeNames ∧ (t.updateValue n v).scopes = t.scopes := by
  unfold ParserSymbolTable.updateValue
  cases ParserSymbolTable.findId n t.scopes <;> exact ⟨rfl, rfl⟩

theorem TInv.of_eq {t u : ParserSymbolTable} (h : TInv t) (h1 : u.scopeNames = t.scopeNames)
    (h2 : u.scopes = t.scopes) : TInv u := by
  unfold TInv; rw [h1, h2]; exact h

theorem TInv.beginScope {t : ParserSymbolTable} (h : TInv t) (n : String) :
    TInv (t.beginScope n) := by
  simp [TInv, ParserSymbolTable.beginScope, h.1]

theorem endScope_spec {t : ParserSymbolTable} (h : TInv t) (h2 : 2 ≤ t.scopeNames.length) :
    t.endScope.scopeNames = t.scopeNames.tail ∧ TInv t.endScope := by
  obtain ⟨hl, hne⟩ := h
  have h3 : t.scopes.length > 1 := by omega
  unfold ParserSymbolTable.endScope
  rw [if_pos h3]
  refine ⟨rfl, ?_, ?_⟩
  · simp only [List.length_tail]; omega
  · intro e
    have := congrArg List.length e
    simp only [List.length_tail, List.length_nil] at this
    omega

theorem Frame.still {p : Parser} (h : TInv p.symbolTable) : Frame p p :=
  ⟨Follows.self p, rfl, h, rfl⟩

theorem Frame.comp {a b c : Parser} (h1 : Frame a b) (h2 : Frame b c) : Frame a c :=
  ⟨h1.1.trans h2.1, h1.2.1.trans h2.2.1, h1.2.2.1, h1.2.2.2.trans h2.2.2.2⟩

theorem Later.frame {q p : Parser} (h : Later q p) (ht : TInv p.symbolTable) : Frame q p :=
  ⟨h.1, by rw [h.2.1], by rw [h.2.1]; exact ht, h.2.2⟩

theorem Frame.len_le {q p : Parser} (h : Frame q p) : q.rest.length ≤ p.rest.length :=
  h.1.rest_le

theorem Frame.inv {q p : Parser} (h : Frame q p) (hi : Inv p) : Inv q := hi.of_follows h.1

theorem Frame.scope {q p : Parser} (h : Frame q p) :
    q.symbolTable.getCurrentScope = p.symbolTable.getCurrentScope := by
  unfold ParserSymbolTable.getCurrentScope; rw [h.2.1]

/-- A change of the table that keeps the scope stack. -/
theorem Frame.withTable {p : Parser} {t : ParserSymbolTable}
    (h1 : t.scopeNames = p.symbolTable.scopeNames) (h2 : TInv t) : Frame (p.withTable t) p :=
  ⟨Follows.of_stream rfl, h1, h2, rfl⟩

theorem Frame.declare {p : Parser} (ht : TInv p.symbolTable) (n ty r v : String) :
    Frame (p.withTable (p.symbolTable.declare n ty r v)) p :=
  Frame.withTable (declare_scopeNames ht n ty r v).1 (declare_scopeNames ht n ty r v).2

/-! ### Statements -/

theorem isTok_empty {p : Parser} {ty : TokenType} (h : p.currentToken.type = ty) :
    p.isTok ty "" = true := by
  simp only [isTok, h, true_and, decide_eq_true_eq]
  exact Or.inl rfl

theorem isTok_of {p : Parser} {ty : TokenType} {v : String} (h : p.currentToken.type = ty)
    (hv : p.currentToken.value = v) : p.isTok ty v = true := by
  simp [isTok, h, hv]

theorem parseAssignStmt_spec (n fuel : Nat) (p : Parser) (hi : Inv p)
    (ht : TInv p.symbolTable) (hn : p.rest.length ≤ n) (hf : 64 * n + 10 ≤ fuel) :
    ∃ node q, parseAssignStmt fuel p = .ok (node, q) ∧ Frame q p ∧
      (p.currentToken.type = .Identifier → q.rest.length < p.rest.length) := by
  unfold parseAssignStmt
  simp only
  obtain ⟨p1, e1, l1, a1⟩ := expect_spec hi .Identifier "Expected identifier for assignment" ""
  rw [e1]
  simp only
  have hi1 := l1.keeps_inv hi
  have prog1 : p.currentToken.type = .Identifier → p1.rest.length < p.rest.length := by
    intro h
    rw [a1 (isTok_empty h)]
    exact advance_lt hi (by rw [h]; decide)
  obtain ⟨p2, e2, l2⟩ : ∃ p2, (if p1.currentToken.type = .Operator ∧ p1.currentToken.value = "=" then
      p1.expect .Operator "Expected '=' in assignment" "="
      else p1.expect .Assignment "Expected '=' in assignment" "=") = .ok p2 ∧ Later p2 p1 := by
    split_ifs
    · obtain ⟨q, e, l, -⟩ := expect_spec hi1 .Operator "Expected '=' in assignment" "="
      exact ⟨q, e, l⟩
    · obtain ⟨q, e, l, -⟩ := expect_spec hi1 .Assignment "Expected '=' in assignment" "="
      exact ⟨q, e, l⟩
  rw [e2]
  simp only
  have l12 := l2.after l1
  obtain ⟨expr, p3, e3, l3, s3⟩ :=
    (expr_specs n).expr fuel p2 (l12.keeps_inv hi) (le_trans l12.not_longer hn) hf
  rw [e3]
  simp only
  have l123 := l3.after l12
  have hlen : p3.rest.length ≤ p1.rest.length := (l3.after l2).not_longer
  by_cases hnull : expr.isNull = true
  · rw [if_pos hnull]
    exact ⟨_, _, rfl, ((Later.errorHere _ _).after l123).frame ht,
      fun h => lt_of_le_of_lt hlen (prog1 h)⟩
  · rw [if_neg hnull]
    obtain ⟨v, ev⟩ := evaluateExpression_ok p3 expr s3
    rw [ev]
    simp only
    have ht3 : TInv p3.symbolTable := by rw [l123.2.1]; exact ht
    exact ⟨_, _, rfl, (Frame.declare ht3 _ _ _ _).comp (l123.frame ht),
      fun h => lt_of_le_of_lt hlen (prog1 h)⟩

theorem recordReturn_spec {p : Parser} (ht : TInv p.symbolTable) (ty v : String) :
    Frame (p.recordReturn ty v) p ∧ (p.recordReturn ty v).rest = p.rest := by
  unfold recordReturn
  simp only
  cases findSub " (function)".data p.symbolTable.getCurrentScope.data 0 with
  | none => exact ⟨Frame.still ht, rfl⟩
  | some pos =>
      simp only
      cases p.symbolTable.lookupEntry (String.mk (p.symbolTable.getCurrentScope.data.take pos)) with
      | none => exact ⟨Frame.still ht, rfl⟩
      | some e =>
          simp only
          split_ifs
          · refine ⟨Frame.withTable ?_ (TInv.of_eq ht ?_ ?_), rfl⟩
            · rw [(updateValue_scopeNames _ _ _).1, (updateType_scopeNames _ _ _).1]
            · rw [(updateValue_scopeNames _ _ _).1, (updateType_scopeNames _ _ _).1]
            · rw [(updateValue_scopeNames _ _ _).2, (updateType_scopeNames _ _ _).2]
          · exact ⟨Frame.still ht, rfl⟩

theorem parseReturnStmt_spec (n fuel : Nat) (p : Parser) (hi : Inv p)
    (ht : TInv p.symbolTable) (hn : p.rest.length ≤ n) (hf : 64 * n + 10 ≤ fuel) :
    ∃ node q, parseReturnStmt fuel p = .ok (node, q) ∧ Frame q p ∧
      (p.isTok .Keyword "return" = true → q.rest.length < p.rest.length) := by
  unfold parseReturnStmt
  simp only
  obtain ⟨p1, e1, l1, a1⟩ := expect_spec hi .Keyword "Expected 'return' keyword" "return"
  rw [e1]
  simp only
  have prog1 : p.isTok .Keyword "return" = true → p1.rest.length < p.rest.length := by
    intro h
    rw [a1 h]
    exact advance_lt_of_isTok hi h (by decide)
  obtain ⟨expr, p2, e2, l2, -⟩ :=
    (expr_specs n).expr fuel p1 (l1.keeps_inv hi) (le_trans l1.not_longer hn) hf
  rw [e2]
  simp only
  have l12 := l2.after l1
  have ht2 : TInv p2.symbolTable := by rw [l12.2.1]; exact ht
  obtain ⟨fr, hr⟩ := recordReturn_spec ht2 (if expr.isNull then "void" else p2.getTypeFromNode expr)
    (if expr.isNull then "void" else p2.getValueFromNode expr)
  refine ⟨_, _, rfl, fr.comp (l12.frame ht), fun h => lt_of_le_of_lt ?_ (prog1 h)⟩
  rw [hr]
  exact l2.not_longer

theorem parseFuncCallStmt_spec (n fuel : Nat) (p : Parser) (hi : Inv p)
    (ht : TInv p.symbolTable) (hn : p.rest.length ≤ n) (hf : 64 * n + 11 ≤ fuel) :
    ∃ node q, parseFuncCallStmt fuel p = .ok (node, q) ∧ Frame q p ∧
      (p.currentToken.type = .Identifier → q.rest.length < p.rest.length) := by
  unfold parseFuncCallStmt
  simp only
  obtain ⟨p1, e1, l1, a1⟩ := expect_spec hi .Identifier "Expected identifier for function call" ""
  rw [e1]
  simp only
  have prog1 : p.currentToken.type = .Identifier → p1.rest.length < p.rest.length := by
    intro h
    rw [a1 (isTok_empty h)]
    exact advance_lt hi (by rw [h]; decide)
  obtain ⟨p2, e2, l2, -⟩ := expect_spec (l1.keeps_inv hi) .Delimiter "Expected '(' in function call" "("
  rw [e2]
  simp only
  have l12 := l2.after l1
  have hi2 := l12.keeps_inv hi
  have fin : ∀ (c : Bool) (p5 : Parser), Later p5 p2 →
      Frame (if c = true then p5
        else p5.withTable (p5.symbolTable.declare p.currentToken.value "unknown" "function")) p ∧
      (if c = true then p5
        else p5.withTable (p5.symbolTable.declare p.currentToken.value "unknown" "function")).rest.length
        ≤ p1.rest.length := by
    intro c p5 l5
    have l125 := l5.after l12
    have ht5 : TInv p5.symbolTable := by rw [l125.2.1]; exact ht
    have hlen : p5.rest.length ≤ p1.rest.length := (l5.after l2).not_longer
    cases c with
    | true => exact ⟨(Frame.still ht5).comp (l125.frame ht), hlen⟩
    | false => exact ⟨(Frame.declare ht5 _ _ _ _).comp (l125.frame ht), hlen⟩
  by_cases h : p2.isTok .Delimiter ")" = true
  · rw [accept_fst, if_pos h, accept_snd_pos h]
    simp only
    exact ⟨_, _, rfl, (fin _ _ (Later.advance _)).1,
      fun h => lt_of_le_of_lt (fin _ _ (Later.advance _)).2 (prog1 h)⟩
  · rw [accept_fst, if_neg h]
    obtain ⟨args, p3, e3, l3⟩ :=
      (expr_specs n).args fuel [] p2 hi2 (le_trans l12.not_longer hn) hf
    rw [e3]
    simp only
    obtain ⟨p4, e4, l4, -⟩ := expect_spec ((l3.after l12).keeps_inv hi) .Delimiter
      "Expected ')' after arguments" ")"
    rw [e4]
    simp only
    exact ⟨_, _, rfl, (fin _ _ (l4.after l3)).1,
      fun h => lt_of_le_of_lt (fin _ _ (l4.after l3)).2 (prog1 h)⟩

theorem paramLoop_spec : ∀ (fuel : Nat) (names : List String) (p : Parser), Inv p →
    TInv p.symbolTable → p.rest.length + 1 ≤ fuel →
    ∃ r q, paramLoop fuel names p = .ok (r, q) ∧ Frame q p := by
  intro fuel
  induction fuel with
  | zero => intro names p _ _ h; omega
  | succ fuel ih =>
      intro names p hi ht hf
      unfold paramLoop
      by_cases h : p.isTok .Delimiter "," = true
      · rw [accept_fst, if_pos h, accept_snd_pos h]
        simp only
        have hlt := advance_lt_of_isTok hi h (by decide)
        have la := Later.advance p
        have hta : TInv p.advance.symbolTable := by rw [la.2.1]; exact ht
        split_ifs
        · exact ⟨_, _, rfl, ((Later.errorHere _ _).after la).frame ht⟩
        · have f1 : Frame (p.advance.withTable
              (p.advance.symbolTable.declare p.advance.currentToken.value "unknown" "parameter")) p :=
            (Frame.declare hta _ _ _ _).comp (la.frame ht)
          have f2 : Frame (p.advance.withTable
              (p.advance.symbolTable.declare p.advance.currentToken.value "unknown" "parameter")).advance
              p := by
            refine ⟨(advance_follows _).trans f1.1, ?_, ?_, ?_⟩
            · simpa using f1.2.1
            · simpa using f1.2.2.1
            · simp
          have hl2 := (advance_follows (p.advance.withTable
              (p.advance.symbolTable.declare p.advance.currentToken.value "unknown" "parameter"))).rest_le
          simp only [withTable_rest] at hl2
          obtain ⟨r, q, e, fq⟩ := ih (names ++ [p.advance.currentToken.value]) _ (f2.inv hi)
            f2.2.2.1 (by omega)
          exact ⟨r, q, e, fq.comp f2⟩
      · rw [accept_fst, if_neg h]
        exact ⟨_, _, rfl, Frame.still ht⟩

theorem function_scope_ne (s : String) : s ++ " (function)" ≠ "if block" := by
  intro h
  have h1 := congrArg String.data h
  have h2 := congrArg List.getLast? h1
  rw [String.data_append] at h2
  simp at h2

/-! ### Statements and blocks -/

theorem synchronize_lt {p : Parser} (hi : Inv p) (h : syncStop p.currentToken = false) :
    ∃ q, p.synchronize = .ok q ∧ Later q p ∧ q.rest.length < p.rest.length := by
  have hne : p.currentToken.type ≠ .EOFToken := by
    intro e
    simp [syncStop, e] at h
  have hr := hi.rest_ne_nil hne
  unfold synchronize
  cases hrest : p.rest with
  | nil => exact absurd hrest hr
  | cons t r =>
      unfold syncLoop
      rw [if_neg (by rw [h]; decide)]
      have he : EndsEOF (t :: r) := by
        have := hi.1
        unfold stream at this
        rw [hrest] at this
        exact this.suffix_ends (List.suffix_cons _ _) (by simp)
      obtain ⟨c, r', e, hs⟩ := syncLoop_spec r t he
      rw [e]
      refine ⟨_, rfl, ⟨?_, rfl, rfl⟩, ?_⟩
      · unfold Follows stream
        rw [hrest]
        exact hs.trans (List.suffix_cons _ _)
      · have := hs.length_le
        simp only [List.length_cons] at this ⊢
        omega

theorem errorHere_inv {p : Parser} (hi : Inv p) (m : String) : Inv (p.errorHere m) :=
  hi.of_follows (Follows.of_stream rfl)

theorem parseStmt_spec {n : Nat} (hif : StmtLE parseIfStmt "if" n)
    (hwh : StmtLE parseWhileStmt "while" n) (hdef : StmtLE parseFuncDef "def" n)
    (hfor : StmtLE parseForStmt "for" n) : ParseStmtLE n := by
  intro fuel p hi ht hn hf
  obtain ⟨fuel, rfl⟩ : ∃ f', fuel = f' + 1 := ⟨fuel - 1, by omega⟩
  unfold parseStmt
  by_cases h0 : p.currentToken.type = .EOFToken
  · rw [if_pos h0]
    exact ⟨_, _, rfl, Frame.still ht, fun h => absurd h0 h⟩
  rw [if_neg h0]
  have adv : ∀ m, Frame (p.errorHere m).advance p ∧
      (p.errorHere m).advance.rest.length < p.rest.length := fun m =>
    ⟨((Later.advance _).after (Later.errorHere _ _)).frame ht,
      advance_lt (errorHere_inv hi m) h0⟩
  by_cases h1 : p.currentToken.type = .Identifier ∧ ¬ p.isValidStatementStart = true
  · rw [if_pos h1]
    exact ⟨_, _, rfl, (adv _).1, fun _ _ => (adv _).2⟩
  rw [if_neg h1]
  have kw : ∀ (f : Nat → Parser → Res ASTNode) (k : String), StmtLE f k n →
      p.currentToken.type = .Keyword → p.currentToken.value = k →
      ∃ node q, f fuel p = .ok (node, q) ∧ Frame q p ∧
        (p.currentToken.type ≠ .EOFToken →
          (node.isNull = false ∨ p.symbolTable.getCurrentScope ≠ "if block") →
          q.rest.length < p.rest.length) := by
    intro f k hk hty hv
    obtain ⟨node, q, e, fr, lt⟩ := hk fuel p hi ht (isTok_of hty hv) hn (by omega)
    exact ⟨node, q, e, fr, fun _ _ => lt⟩
  split
  · rename_i hty
    by_cases v1 : p.currentToken.value = "if"
    · rw [if_pos v1]; exact kw _ _ hif hty v1
    rw [if_neg v1]
    by_cases v2 : p.currentToken.value = "while"
    · rw [if_pos v2]; exact kw _ _ hwh hty v2
    rw [if_neg v2]
    by_cases v3 : p.currentToken.value = "def"
    · rw [if_pos v3]; exact kw _ _ hdef hty v3
    rw [if_neg v3]
    by_cases v4 : p.currentToken.value = "return"
    · rw [if_pos v4]
      obtain ⟨node, q, e, fr, lt⟩ := parseReturnStmt_spec n fuel p hi ht hn (by omega)
      exact ⟨node, q, e, fr, fun _ _ => lt (isTok_of hty v4)⟩
    rw [if_neg v4]
    by_cases v5 : p.currentToken.value = "for"
    · rw [if_pos v5]; exact kw _ _ hfor hty v5
    rw [if_neg v5]
    by_cases v6 : p.currentToken.value = "elif" ∨ p.currentToken.value = "else"
    · rw [if_pos v6]
      by_cases hs : p.symbolTable.getCurrentScope = "if block"
      · rw [if_pos hs]
        refine ⟨_, _, rfl, Frame.still ht, fun _ h => ?_⟩
        rcases h with h | h
        · exact absurd h (by simp [ASTNode.isNull])
        · exact absurd hs h
      · rw [if_neg hs]
        have hstop : syncStop (p.errorHere ("Unexpected token at start of statement: " ++
            p.currentToken.value)).currentToken = false := by
          rw [errorHere_currentToken]
          unfold syncStop
          rcases v6 with v | v <;> simp [hty, v, syncKeywords]
        obtain ⟨q, e, l, lt⟩ := synchronize_lt (errorHere_inv hi _) hstop
        rw [e]
        exact ⟨_, _, rfl, (l.after (Later.errorHere _ _)).frame ht, fun _ _ => lt⟩
    · rw [if_neg v6]
      exact ⟨_, _, rfl, (adv _).1, fun _ _ => (adv _).2⟩
  · rename_i hty
    by_cases hc : p.peekNextToken.value = "("
    · rw [if_pos hc]
      obtain ⟨node, q, e, fr, lt⟩ := parseFuncCallStmt_spec n fuel p hi ht hn (by omega)
      exact ⟨node, q, e, fr, fun _ _ => lt hty⟩
    · rw [if_neg hc]
      obtain ⟨node, q, e, fr, lt⟩ := parseAssignStmt_spec n fuel p hi ht hn (by omega)
      exact ⟨node, q, e, fr, fun _ _ => lt hty⟩
  · exact ⟨_, _, rfl, (adv _).1, fun _ _ => (adv _).2⟩

theorem blockLoop_spec {n : Nat} (ih : ∀ m < n, StmtSpecs m) (hs : ParseStmtLE n) :
    BlockLoopLE n := by
  intro fuel b lvl cs p hi ht hb hn hf
  obtain ⟨fuel, rfl⟩ : ∃ f', fuel = f' + 1 := ⟨fuel - 1, by omega⟩
  unfold blockLoop
  by_cases h0 : p.currentToken.type = .EOFToken
  · rw [if_pos h0]
    exact ⟨_, _, rfl, Frame.still ht⟩
  rw [if_neg h0]
  have again : ∀ (cs1 : List ASTNode) (p1 : Parser), Frame p1 p →
      p1.rest.length < p.rest.length →
      ∃ r q, blockLoop fuel b lvl cs1 p1 = .ok (r, q) ∧ Frame q p := by
    intro cs1 p1 fr lt
    have hb1 : b = false → p1.symbolTable.getCurrentScope ≠ "if block" := by
      intro e; rw [fr.scope]; exact hb e
    obtain ⟨r, q, e, fq⟩ := (ih (n - 1) (by omega)).loop fuel b lvl cs1 p1 (fr.inv hi)
      fr.2.2.1 hb1 (by omega) (by omega)
    exact ⟨r, q, e, fq.comp fr⟩
  by_cases h1 : p.currentToken.type = .Indent
  · rw [if_pos h1]
    have hg := hi.2.1 p.currentToken (List.mem_cons_self _ _) h1
    obtain ⟨a, ha⟩ := Option.isSome_iff_exists.mp hg
    rw [ha]
    simp only
    by_cases hl : a ≥ lvl
    · rw [if_pos hl]
      obtain ⟨p1, e1, l1, lt1⟩ := expectIndent_spec hi lvl
      rw [e1]
      exact again _ _ (l1.frame ht) (lt1 h1)
    · rw [if_neg hl]
      exact ⟨_, _, rfl, Frame.still ht⟩
  · rw [if_neg h1]
    obtain ⟨stmt, p1, e1, fr1, lt1⟩ := hs fuel p hi ht hn (by omega)
    rw [e1]
    simp only
    by_cases hnull : stmt.isNull = true
    · rw [if_neg (by simpa using hnull)]
      cases b with
      | true => exact ⟨_, _, rfl, fr1⟩
      | false =>
          simp only [Bool.false_eq_true, if_false]
          exact again _ _ fr1 (lt1 h0 (Or.inr (hb rfl)))
    · rw [if_pos (by simpa using hnull)]
      exact again _ _ fr1 (lt1 h0 (Or.inl (by simpa using hnull)))

theorem parseBlockBody_spec {n : Nat} (hl : BlockLoopLE n) : BlockBodyLE n := by
  intro fuel b lvl p hi ht h2 hst hb hn hf
  obtain ⟨fuel, rfl⟩ : ∃ f', fuel = f' + 1 := ⟨fuel - 1, by omega⟩
  unfold parseBlockBody
  simp only
  obtain ⟨cs, p1, e1, fr1⟩ := hl fuel b lvl [] p hi ht hb hn (by omega)
  rw [e1]
  simp only
  have hes := endScope_spec fr1.2.2.1 (by rw [fr1.2.1]; exact h2)
  unfold popIndent
  simp only [withTable_indentStack]
  rw [fr1.2.2.2]
  cases hst2 : p.indentStack with
  | nil => exact absurd hst2 hst
  | cons i s =>
      simp only
      refine ⟨_, _, rfl, ?_, ?_, ?_, ?_⟩
      · exact (Follows.of_stream rfl).trans fr1.1
      · show p1.symbolTable.endScope.scopeNames = _
        rw [hes.1, fr1.2.1]
      · exact hes.2
      · rfl

/-- A block is opened after its header: the level is pushed, the IndentMarker expected, the
scope begun, and the body parsed. -/
theorem openBlock_spec {m : Nat} (hb : BlockBodyLE m) (fuel : Nat) (b : Bool) (lvl : Int)
    (name : String) (p : Parser) (hi : Inv p) (ht : TInv p.symbolTable)
    (hname : b = false → name ≠ "if block") (hm : p.rest.length ≤ m)
    (hf : 64 * m + 14 ≤ fuel) :
    ∃ p4, (p.pushIndent lvl).expectIndent lvl = .ok p4 ∧
      ∃ node q, parseBlockBody fuel b lvl (p4.withTable (p4.symbolTable.beginScope name)) =
        .ok (node, q) ∧ Frame q p := by
  have hip : Inv (p.pushIndent lvl) := hi.of_follows (Follows.of_stream rfl)
  obtain ⟨p4, e4, l4, -⟩ := expectIndent_spec hip lvl
  refine ⟨p4, e4, ?_⟩
  have ht4 : TInv p4.symbolTable := by rw [l4.2.1]; exact ht
  have hne : p4.symbolTable.scopeNames ≠ [] := by
    intro e
    have h1 := ht4.1
    have h2 := ht4.2
    rw [e] at h1
    exact h2 (List.length_eq_zero.mp h1)
  obtain ⟨node, q, e, fo, hsn, htq, hst⟩ := hb fuel b lvl
    (p4.withTable (p4.symbolTable.beginScope name))
    ((l4.keeps_inv hip).of_follows (Follows.of_stream rfl)) (ht4.beginScope name)
    (by
      simp only [withTable_symbolTable, ParserSymbolTable.beginScope, List.length_cons]
      have := List.length_pos.mpr hne
      omega)
    (by simp [l4.2.2])
    (by
      intro e
      simp only [withTable_symbolTable, ParserSymbolTable.beginScope,
        ParserSymbolTable.getCurrentScope]
      exact hname e)
    (by simpa using le_trans l4.not_longer (by simpa using hm))
    hf
  refine ⟨node, q, e, ?_, ?_, htq, ?_⟩
  · exact fo.trans ((Follows.of_stream rfl).trans (l4.1.trans (Follows.of_stream rfl)))
  · rw [hsn]
    simp only [withTable_symbolTable, ParserSymbolTable.beginScope, List.tail_cons]
    rw [l4.2.1]
    rfl
  · rw [hst]
    simp only [withTable_indentStack]
    rw [l4.2.2]
    rfl

theorem elifLoop_spec {n : Nat} (ih : ∀ m < n, StmtSpecs m) : ElifLoopLE n := by
  intro fuel lvl cs p hi ht hn hf
  obtain ⟨fuel, rfl⟩ : ∃ f', fuel = f' + 1 := ⟨fuel - 1, by omega⟩
  unfold elifLoop
  have key : ∀ r, (if p.currentToken.type = .Indent then
               match stoi p.currentToken.value with
               | none => (.error .exception : Except Fault (Option Parser))
               | some currentIndent =>
                   if currentIndent ≠ lvl then .ok none else .ok (some p.advance)
             else .ok (some p)) = r →
      ∃ o, r = .ok o ∧ ∀ p0, o = some p0 → Later p0 p := by
    intro r hr
    by_cases hI : p.currentToken.type = .Indent
    · rw [if_pos hI] at hr
      have hg := hi.2.1 p.currentToken (List.mem_cons_self _ _) hI
      obtain ⟨a, ha⟩ := Option.isSome_iff_exists.mp hg
      rw [ha] at hr
      simp only at hr
      by_cases hl : a ≠ lvl
      · rw [if_pos hl] at hr
        exact ⟨_, hr.symm, fun p0 h => Option.noConfusion h⟩
      · rw [if_neg hl] at hr
        refine ⟨_, hr.symm, fun p0 h => ?_⟩
        cases h
        exact Later.advance p
    · rw [if_neg hI] at hr
      refine ⟨_, hr.symm, fun p0 h => ?_⟩
      cases h
      exact Later.here p
  split
  · rename_i f heq
    obtain ⟨o, h, -⟩ := key _ heq
    cases h
  · exact ⟨_, _, rfl, Frame.still ht⟩
  · rename_i p0 heq
    obtain ⟨o, h, ho⟩ := key _ heq
    cases h
    have l0 : Later p0 p := ho p0 rfl
    have hi0 := l0.keeps_inv hi
    have hlen0 := l0.not_longer
    by_cases hk : p0.currentToken.type ≠ .Keyword ∨ p0.currentToken.value ≠ "elif"
    · rw [if_pos hk]
      exact ⟨_, _, rfl, l0.frame ht⟩
    · rw [if_neg hk]
      simp only
      have hk1 : p0.isTok .Keyword "elif" = true := by
        apply isTok_of
        · by_contra h; exact hk (Or.inl h)
        · by_contra h; exact hk (Or.inr h)
      obtain ⟨p1, e1, l1, a1⟩ := expect_spec hi0 .Keyword "Expected 'elif' keyword" "elif"
      rw [e1]
      simp only
      have lt1 : p1.rest.length < p0.rest.length := by
        rw [a1 hk1]; exact advance_lt_of_isTok hi0 hk1 (by decide)
      have hi1 := l1.keeps_inv hi0
      obtain ⟨cond, p2, e2, l2, -⟩ :=
        (expr_specs (n - 1)).expr fuel p1 hi1 (by omega) (by omega)
      rw [e2]
      simp only
      have hi2 := l2.keeps_inv hi1
      obtain ⟨p3, e3, l3, -⟩ := expect_spec hi2 .Delimiter "Expected ':' after elif condition" ":"
      rw [e3]
      simp only
      have l30 : Later p3 p := l3.after (l2.after (l1.after l0))
      have ht3 : TInv p3.symbolTable := by rw [l30.2.1]; exact ht
      have hlen3 : p3.rest.length ≤ p1.rest.length := (l3.after l2).not_longer
      obtain ⟨p4, e4, body, p5, e5, f5⟩ := openBlock_spec (ih (n - 1) (by omega)).body fuel false
        (lvl + 1) "elif block" p3 (l30.keeps_inv hi) ht3 (fun _ => by decide) (by omega) (by omega)
      rw [e4]
      simp only
      rw [e5]
      simp only
      have f50 : Frame p5 p := f5.comp (l30.frame ht)
      have hlen5 := f5.len_le
      obtain ⟨r, q, e, fq⟩ := (ih (n - 1) (by omega)).elifs fuel lvl
        (cs ++ [ElifNode p0.currentToken cond body]) p5 (f50.inv hi) f50.2.2.1 (by omega)
        (by omega)
      exact ⟨r, q, e, fq.comp f50⟩

theorem parseElseStmt_spec {n : Nat} (ih : ∀ m < n, StmtSpecs m) :
    StmtLE parseElseStmt "else" n := by
  intro fuel p hi ht hk hn hf
  obtain ⟨fuel, rfl⟩ : ∃ f', fuel = f' + 1 := ⟨fuel - 1, by omega⟩
  unfold parseElseStmt
  obtain ⟨p1, e1, l1, a1⟩ := expect_spec hi .Keyword "Expected 'else' keyword" "else"
  rw [e1]
  simp only
  have lt1 : p1.rest.length < p.rest.length := by
    rw [a1 hk]; exact advance_lt_of_isTok hi hk (by decide)
  have hi1 := l1.keeps_inv hi
  obtain ⟨p2, e2, l2, -⟩ := expect_spec hi1 .Delimiter "Expected ':' after else" ":"
  rw [e2]
  simp only
  have l20 : Later p2 p := l2.after l1
  have ht2 : TInv p2.symbolTable := by rw [l20.2.1]; exact ht
  have hlen2 := l2.not_longer
  obtain ⟨p3, e3, body, p4, e4, f4⟩ := openBlock_spec (ih (n - 1) (by omega)).body fuel false
    (p2.currentIndent + 1) "else block" p2 (l20.keeps_inv hi) ht2 (fun _ => by decide) (by omega)
    (by omega)
  rw [e3]
  simp only
  have hlen4 := f4.len_le
  exact ⟨_, _, e4, f4.comp (l20.frame ht), by omega⟩

theorem parseWhileStmt_spec {n : Nat} (ih : ∀ m < n, StmtSpecs m) :
    StmtLE parseWhileStmt "while" n := by
  intro fuel p hi ht hk hn hf
  obtain ⟨fuel, rfl⟩ : ∃ f', fuel = f' + 1 := ⟨fuel - 1, by omega⟩
  unfold parseWhileStmt
  simp only
  obtain ⟨p1, e1, l1, a1⟩ := expect_spec hi .Keyword "Expected 'while' keyword" "while"
  rw [e1]
  simp only
  have lt1 : p1.rest.length < p.rest.length := by
    rw [a1 hk]; exact advance_lt_of_isTok hi hk (by decide)
  have hi1 := l1.keeps_inv hi
  obtain ⟨cond, p2, e2, l2, -⟩ := (expr_specs (n - 1)).expr fuel p1 hi1 (by omega) (by omega)
  rw [e2]
  simp only
  have hi2 := l2.keeps_inv hi1
  obtain ⟨p3, e3, l3, -⟩ := expect_spec hi2 .Delimiter "Expected ':' after while condition" ":"
  rw [e3]
  simp only
  have l30 : Later p3 p := l3.after (l2.after l1)
  have ht3 : TInv p3.symbolTable := by rw [l30.2.1]; exact ht
  have hlen3 : p3.rest.length ≤ p1.rest.length := (l3.after l2).not_longer
  obtain ⟨p4, e4, body, p5, e5, f5⟩ := openBlock_spec (ih (n - 1) (by omega)).body fuel false
    (p3.currentIndent + 1) "while block" p3 (l30.keeps_inv hi) ht3 (fun _ => by decide) (by omega)
    (by omega)
  rw [e4]
  simp only
  rw [e5]
  simp only
  have hlen5 := f5.len_le
  exact ⟨_, _, rfl, f5.comp (l30.frame ht), by omega⟩

theorem parseForStmt_spec {n : Nat} (ih : ∀ m < n, StmtSpecs m) :
    StmtLE parseForStmt "for" n := by
  intro fuel p hi ht hk hn hf
  obtain ⟨fuel, rfl⟩ : ∃ f', fuel = f' + 1 := ⟨fuel - 1, by omega⟩
  unfold parseForStmt
  simp only
  obtain ⟨p1, e1, l1, a1⟩ := expect_spec hi .Keyword "Expected 'for' keyword" "for"
  rw [e1]
  simp only
  have lt1 : p1.rest.length < p.rest.length := by
    rw [a1 hk]; exact advance_lt_of_isTok hi hk (by decide)
  have hi1 := l1.keeps_inv hi
  obtain ⟨var, p2, e2, l2, -⟩ := (expr_specs (n - 1)).primary fuel p1 hi1 (by omega) (by omega)
  rw [e2]
  simp only
  have hi2 := l2.keeps_inv hi1
  have hlen2 := l2.not_longer
  by_cases hv : var.getNodeType ≠ "Identifier"
  · rw [if_pos hv]
    exact ⟨_, _, rfl, ((Later.errorHere _ _).after (l2.after l1)).frame ht,
      by simp only [errorHere_rest]; omega⟩
  rw [if_neg hv]
  obtain ⟨p3, e3, l3, -⟩ := expect_spec hi2 .Keyword "Expected 'in' after loop variable" "in"
  rw [e3]
  simp only
  have hi3 := l3.keeps_inv hi2
  have hlen3 := l3.not_longer
  obtain ⟨iter, p4, e4, l4, -⟩ := (expr_specs (n - 1)).expr fuel p3 hi3 (by omega) (by omega)
  rw [e4]
  simp only
  have hi4 := l4.keeps_inv hi3
  have hlen4 := l4.not_longer
  have l40 : Later p4 p := l4.after (l3.after (l2.after l1))
  by_cases hnull : iter.isNull = true
  · rw [if_pos hnull]
    exact ⟨_, _, rfl, ((Later.errorHere _ _).after l40).frame ht,
      by simp only [errorHere_rest]; omega⟩
  rw [if_neg hnull]
  obtain ⟨p5, e5, l5, -⟩ := expect_spec hi4 .Delimiter "Expected ':' after for loop header" ":"
  rw [e5]
  simp only
  have l50 : Later p5 p := l5.after l40
  have ht5 : TInv p5.symbolTable := by rw [l50.2.1]; exact ht
  have hlen5 := l5.not_longer
  obtain ⟨p6, e6, body, p7, e7, f7⟩ := openBlock_spec (ih (n - 1) (by omega)).body fuel false
    (p5.currentIndent + 1) "for loop" p5 (l50.keeps_inv hi) ht5 (fun _ => by decide) (by omega)
    (by omega)
  rw [e6]
  simp only
  rw [e7]
  simp only
  have hlen7 := f7.len_le
  exact ⟨_, _, rfl, f7.comp (l50.frame ht), by omega⟩

theorem parseIfStmt_spec {n : Nat} (ih : ∀ m < n, StmtSpecs m) :
    StmtLE parseIfStmt "if" n := by
  intro fuel p hi ht hk hn hf
  obtain ⟨fuel, rfl⟩ : ∃ f', fuel = f' + 1 := ⟨fuel - 1, by omega⟩
  unfold parseIfStmt
  simp only
  obtain ⟨p1, e1, l1, a1⟩ := expect_spec hi .Keyword "Expected 'if' keyword" "if"
  rw [e1]
  simp only
  have lt1 : p1.rest.length < p.rest.length := by
    rw [a1 hk]; exact advance_lt_of_isTok hi hk (by decide)
  have hi1 := l1.keeps_inv hi
  obtain ⟨cond, p2, e2, l2, -⟩ := (expr_specs (n - 1)).expr fuel p1 hi1 (by omega) (by omega)
  rw [e2]
  simp only
  have hi2 := l2.keeps_inv hi1
  obtain ⟨p3, e3, l3, -⟩ := expect_spec hi2 .Delimiter "Expected ':' after if condition" ":"
  rw [e3]
  simp only
  have l30 : Later p3 p := l3.after (l2.after l1)
  have ht3 : TInv p3.symbolTable := by rw [l30.2.1]; exact ht
  have hlen3 : p3.rest.length ≤ p1.rest.length := (l3.after l2).not_longer
  obtain ⟨p4, e4, body, p5, e5, f5⟩ := openBlock_spec (ih (n - 1) (by omega)).body fuel true
    (p3.currentIndent + 1) "if block" p3 (l30.keeps_inv hi) ht3 (fun h => Bool.noConfusion h)
    (by omega) (by omega)
  rw [e4]
  simp only
  rw [e5]
  simp only
  have f50 : Frame p5 p := f5.comp (l30.frame ht)
  have hlen5 := f5.len_le
  obtain ⟨elifs, p6, e6, f6⟩ := (ih (n - 1) (by omega)).elifs fuel p3.currentIndent [] p5
    (f50.inv hi) f50.2.2.1 (by omega) (by omega)
  rw [e6]
  simp only
  have f60 : Frame p6 p := f6.comp f50
  have hi6 := f60.inv hi
  have hlen6 := f6.len_le
  have fin : ∀ p7, Frame p7 p6 → Frame p7 p ∧ p7.rest.length < p.rest.length := by
    intro p7 f7
    have := f7.len_le
    exact ⟨f7.comp f60, by omega⟩
  have la : Frame p6.advance p6 := (Later.advance p6).frame f60.2.2.1
  have els : ∀ q, Frame q p6 → q.currentToken.type = .Keyword ∧ q.currentToken.value = "else" →
      ∃ node q', parseElseStmt fuel q = .ok (node, q') ∧ Frame q' p6 := by
    intro q fq hq
    have := fq.len_le
    obtain ⟨node, q', e, f, -⟩ := (ih (n - 1) (by omega)).elseS fuel q (fq.inv hi6) fq.2.2.1
      (isTok_of hq.1 hq.2) (by omega) (by omega)
    exact ⟨node, q', e, f.comp fq⟩
  by_cases hI : p6.currentToken.type = .Indent
  · rw [if_pos hI]
    have hg := hi6.2.1 p6.currentToken (List.mem_cons_self _ _) hI
    obtain ⟨a, ha⟩ := Option.isSome_iff_exists.mp hg
    rw [ha]
    simp only
    by_cases hl : a = p3.currentIndent
    · rw [if_pos hl]
      by_cases he : p6.advance.currentToken.type = .Keyword ∧
          p6.advance.currentToken.value = "else"
      · rw [if_pos he]
        obtain ⟨node, q', e, f⟩ := els _ la he
        rw [e]
        exact ⟨_, _, rfl, fin _ f⟩
      · rw [if_neg he]
        exact ⟨_, _, rfl, fin _ la⟩
    · rw [if_neg hl]
      exact ⟨_, _, rfl, fin _ (Frame.still f60.2.2.1)⟩
  · rw [if_neg hI]
    by_cases he : p6.currentToken.type = .Keyword ∧ p6.currentToken.value = "else"
    · rw [if_pos he]
      obtain ⟨node, q', e, f⟩ := els _ (Frame.still f60.2.2.1) he
      rw [e]
      exact ⟨_, _, rfl, fin _ f⟩
    · rw [if_neg he]
      exact ⟨_, _, rfl, fin _ (Frame.still f60.2.2.1)⟩

theorem parseFuncDef_spec {n : Nat} (ih : ∀ m < n, StmtSpecs m) :
    StmtLE parseFuncDef "def" n := by
  intro fuel p hi ht hk hn hf
  obtain ⟨fuel, rfl⟩ : ∃ f', fuel = f' + 1 := ⟨fuel - 1, by omega⟩
  unfold parseFuncDef
  simp only
  obtain ⟨p1, e1, l1, a1⟩ := expect_spec hi .Keyword "Expected 'def' keyword" "def"
  rw [e1]
  simp only
  have lt1 : p1.rest.length < p.rest.length := by
    rw [a1 hk]; exact advance_lt_of_isTok hi hk (by decide)
  have hi1 := l1.keeps_inv hi
  obtain ⟨p2, e2, l2, -⟩ := expect_spec hi1 .Identifier "Expected function name after 'def'" ""
  rw [e2]
  simp only
  have l20 : Later p2 p := l2.after l1
  have hi2 := l20.keeps_inv hi
  have ht2 : TInv p2.symbolTable := by rw [l20.2.1]; exact ht
  have hlen2 := l2.not_longer
  have hne : p.symbolTable.scopeNames ≠ [] := by
    intro e
    have h1 := ht.1
    rw [e] at h1
    exact ht.2 (List.length_eq_zero.mp h1)
  -- the parser with the function declared and its scope begun
  obtain ⟨p3, hp3, hs3, ht3, hst3, hr3⟩ : ∃ p3 : Parser,
      p3 = p2.withTable ((p2.symbolTable.declare p1.currentToken.value "function" "function"
        "unknown").beginScope (p1.currentToken.value ++ " (function)")) ∧
      p3.symbolTable.scopeNames =
        (p1.currentToken.value ++ " (function)") :: p.symbolTable.scopeNames ∧
      TInv p3.symbolTable ∧ p3.indentStack = p.indentStack ∧ p3.stream = p2.stream := by
    refine ⟨_, rfl, ?_, ?_, ?_, rfl⟩
    · simp only [withTable_symbolTable, ParserSymbolTable.beginScope]
      rw [(declare_scopeNames ht2 _ _ _ _).1, l20.2.1]
    · exact (declare_scopeNames ht2 _ _ _ _).2.beginScope _
    · simp only [withTable_indentStack]
      exact l20.2.2
  rw [← hp3]
  have hi3 : Inv p3 := hi2.of_follows (Follows.of_stream hr3)
  have hlen3 : p3.rest.length = p2.rest.length := by
    have := congrArg List.length hr3
    simpa [stream] using this
  obtain ⟨p4, e4, l4, -⟩ := expect_spec hi3 .Delimiter "Expected '(' after function name" "("
  rw [e4]
  simp only
  have hi4 := l4.keeps_inv hi3
  have ht4 : TInv p4.symbolTable := by rw [l4.2.1]; exact ht3
  have hlen4 := l4.not_longer
  have key : ∀ r, (if p4.currentToken.type = .Identifier then
                     paramLoop fuel [p4.currentToken.value]
                       (p4.withTable (p4.symbolTable.declare p4.currentToken.value "unknown"
                         "parameter")).advance
                   else .ok ([], p4)) = r →
      ∃ names p5, r = .ok (names, p5) ∧ Frame p5 p4 := by
    intro r hr
    by_cases hI : p4.currentToken.type = .Identifier
    · rw [if_pos hI] at hr
      have f1 : Frame (p4.withTable (p4.symbolTable.declare p4.currentToken.value "unknown"
          "parameter")) p4 := Frame.declare ht4 _ _ _ _
      have f2 : Frame (p4.withTable (p4.symbolTable.declare p4.currentToken.value "unknown"
          "parameter")).advance p4 := by
        refine ⟨(advance_follows _).trans f1.1, ?_, ?_, ?_⟩
        · simpa using f1.2.1
        · simpa using f1.2.2.1
        · simp
      have hl2 := f2.len_le
      obtain ⟨names, q, e, fq⟩ := paramLoop_spec fuel [p4.currentToken.value] _ (f2.inv hi4)
        f2.2.2.1 (by omega)
      exact ⟨names, q, hr.symm.trans e, fq.comp f2⟩
    · rw [if_neg hI] at hr
      exact ⟨_, _, hr.symm, Frame.still ht4⟩
  split
  · rename_i f heq
    obtain ⟨_, _, h, -⟩ := key _ heq
    cases h
  · rename_i names p5 heq
    obtain ⟨_, _, h, f5⟩ := key _ heq
    cases h
    have hi5 := f5.inv hi4
    obtain ⟨p6, e6, l6, -⟩ := expect_spec hi5 .Delimiter "Expected ')' after parameter list" ")"
    rw [e6]
    simp only
    obtain ⟨p7, e7, l7, -⟩ := expect_spec (l6.keeps_inv hi5) .Delimiter
      "Expected ':' after function definition" ":"
    rw [e7]
    simp only
    have f73 : Frame p7 p3 := ((l7.after l6).frame f5.2.2.1).comp (f5.comp (l4.frame ht3))
    have hi7 := f73.inv hi3
    have hip : Inv (p7.pushIndent (p7.currentIndent + 1)) :=
      hi7.of_follows (Follows.of_stream rfl)
    obtain ⟨p8, e8, l8, -⟩ := expectIndent_spec hip (p7.currentIndent + 1)
    rw [e8]
    simp only
    have hs8 : p8.symbolTable.scopeNames =
        (p1.currentToken.value ++ " (function)") :: p.symbolTable.scopeNames := by
      rw [l8.2.1]
      simp only [pushIndent_symbolTable]
      rw [f73.2.1, hs3]
    have ht8 : TInv p8.symbolTable := by
      rw [l8.2.1]
      simp only [pushIndent_symbolTable]
      exact f73.2.2.1
    have hst8 : p8.indentStack = (p7.currentIndent + 1) :: p.indentStack := by
      rw [l8.2.2]
      simp only [pushIndent_indentStack]
      rw [f73.2.2.2, hst3]
    have hlen8 : p8.rest.length ≤ p3.rest.length := by
      have h1 := l8.not_longer
      have h2 := f73.len_le
      have h3 : (p7.pushIndent (p7.currentIndent + 1)).rest.length = p7.rest.length := rfl
      omega
    have fo8 : Follows p8 p :=
      l8.1.trans ((Follows.of_stream rfl).trans (f73.1.trans ((Follows.of_stream hr3).trans l20.1)))
    obtain ⟨body, p9, e9, fo9, hs9, ht9, hst9⟩ := (ih (n - 1) (by omega)).body fuel false
      (p7.currentIndent + 1) p8 (hi.of_follows fo8) ht8
      (by
        rw [hs8]
        have := List.length_pos.mpr hne
        simp only [List.length_cons]
        omega)
      (by rw [hst8]; simp)
      (by
        intro _
        unfold ParserSymbolTable.getCurrentScope
        rw [hs8]
        exact function_scope_ne _)
      (by omega) (by omega)
    rw [e9]
    simp only
    have hlen9 := fo9.rest_le
    refine ⟨_, _, rfl, ⟨fo9.trans fo8, ?_, ht9, ?_⟩, by omega⟩
    · rw [hs9, hs8]; rfl
    · rw [hst9, hst8]; rfl

theorem stmt_specs : ∀ n, StmtSpecs n := by
  intro n
  induction n using Nat.strong_induction_on with
  | _ n ih =>
    have hif := parseIfStmt_spec ih
    have hwh := parseWhileStmt_spec ih
    have hfor := parseForStmt_spec ih
    have hdef := parseFuncDef_spec ih
    have hstmt := parseStmt_spec hif hwh hdef hfor
    have hloop := blockLoop_spec ih hstmt
    exact ⟨hstmt, hloop, parseBlockBody_spec hloop, elifLoop_spec ih, parseElseStmt_spec ih,
      hif, hfor, hwh, hdef⟩

theorem programLoop_spec : ∀ (n fuel : Nat) (cs : List ASTNode) (p : Parser), Inv p →
    TInv p.symbolTable → p.symbolTable.getCurrentScope ≠ "if block" → p.rest.length ≤ n →
    64 * n + 13 ≤ fuel → ∃ r q, programLoop fuel cs p = .ok (r, q) ∧ Frame q p := by
  intro n
  induction n using Nat.strong_induction_on with
  | _ n ih =>
    intro fuel cs p hi ht hsc hn hf
    obtain ⟨fuel, rfl⟩ : ∃ f', fuel = f' + 1 := ⟨fuel - 1, by omega⟩
    unfold programLoop
    by_cases h0 : p.currentToken.type = .EOFToken
    · rw [if_pos h0]
      exact ⟨_, _, rfl, Frame.still ht⟩
    rw [if_neg h0]
    have again : ∀ (cs1 : List ASTNode) (p2 : Parser), Frame p2 p →
        p2.rest.length < p.rest.length →
        ∃ r q, programLoop fuel cs1 p2 = .ok (r, q) ∧ Frame q p := by
      intro cs1 p2 fr lt
      obtain ⟨r, q, e, fq⟩ := ih (n - 1) (by omega) fuel cs1 p2 (fr.inv hi) fr.2.2.1
        (by rw [fr.scope]; exact hsc) (by omega) (by omega)
      exact ⟨r, q, e, fq.comp fr⟩
    by_cases hI : p.currentToken.type = .Indent
    · rw [if_pos hI]
      obtain ⟨p1, e1, l1, lt1⟩ := expectIndent_spec hi 0
      rw [e1]
      simp only
      have ht1 : TInv p1.symbolTable := by rw [l1.2.1]; exact ht
      have hlen1 := l1.not_longer
      obtain ⟨stmt, p2, e2, f2, -⟩ := (stmt_specs n).stmt fuel p1 (l1.keeps_inv hi) ht1 (by omega)
        (by omega)
      rw [e2]
      simp only
      have hlen2 := f2.len_le
      have := lt1 hI
      exact again _ _ (f2.comp (l1.frame ht)) (by omega)
    · rw [if_neg hI]
      simp only
      obtain ⟨stmt, p2, e2, f2, lt2⟩ := (stmt_specs n).stmt fuel p hi ht hn (by omega)
      rw [e2]
      simp only
      exact again _ _ f2 (lt2 h0 (Or.inr hsc))

theorem new_stream {tokens : List Token} (h : tokens ≠ []) (t : ParserSymbolTable) :
    (Parser.new tokens t).stream = tokens := by
  cases tokens with
  | nil => exact absurd rfl h
  | cons a l => rfl

theorem EndsEOF.ne_nil {ts : List Token} (h : EndsEOF ts) : ts ≠ [] := by
  obtain ⟨init, eof, e, -⟩ := h
  rw [e]
  simp

theorem parseProgram_spec (fuel : Nat) (p : Parser) (hi : Inv p) (ht : TInv p.symbolTable)
    (hsc : p.symbolTable.getCurrentScope ≠ "if block") (hf : 64 * p.rest.length + 13 ≤ fuel) :
    ∃ children q, p.parseProgram fuel = .ok (ProgramNode children, q) ∧ Frame q p := by
  obtain ⟨r, q, e, fq⟩ := programLoop_spec p.rest.length fuel [] p hi ht hsc le_rfl hf
  unfold parseProgram
  rw [e]
  exact ⟨r, q, rfl, fq⟩

/-! ### A literal on the right of an assignment -/

theorem isTok_operator_endsLine {p : Parser} (h : endsLine p.currentToken) (v : String) :
    p.isTok .Operator v = false := by
  unfold isTok
  rcases h with h | h <;> simp [h]

theorem isTok_keyword_endsLine {p : Parser} (h : endsLine p.currentToken) (v : String) :
    p.isTok .Keyword v = false := by
  unfold isTok
  rcases h with h | h <;> simp [h]

theorem parseFactor_atom {f : Nat} {p q : Parser} {node : ASTNode}
    (h : parseUnary (f + 1) p = .ok (node, q)) (hn : node.isNull = false)
    (hq : endsLine q.currentToken) : parseFactor (f + 2) p = .ok (node, q) := by
  rw [parseFactor, h]
  simp only [hn, Bool.false_eq_true, if_false]
  rw [factorLoop]
  simp [isTok_operator_endsLine hq]

theorem parseTerm_atom {f : Nat} {p q : Parser} {node : ASTNode}
    (h : parseFactor (f + 1) p = .ok (node, q)) (hn : node.isNull = false)
    (hq : endsLine q.currentToken) : parseTerm (f + 2) p = .ok (node, q) := by
  rw [parseTerm, h]
  simp only [hn, Bool.false_eq_true, if_false]
  rw [termLoop]
  simp [isTok_operator_endsLine hq]

theorem parseRelational_atom {f : Nat} {p q : Parser} {node : ASTNode}
    (h : parseTerm (f + 1) p = .ok (node, q)) (hn : node.isNull = false)
    (hq : endsLine q.currentToken) : parseRelational (f + 2) p = .ok (node, q) := by
  rw [parseRelational, h]
  simp only [hn, Bool.false_eq_true, if_false]
  rw [relationalLoop]
  simp [isTok_operator_endsLine hq]

theorem parseEquality_atom {f : Nat} {p q : Parser} {node : ASTNode}
    (h : parseRelational (f + 1) p = .ok (node, q)) (hn : node.isNull = false)
    (hq : endsLine q.currentToken) : parseEquality (f + 2) p = .ok (node, q) := by
  rw [parseEquality, h]
  simp only [hn, Bool.false_eq_true, if_false]
  rw [equalityLoop]
  simp [isTok_operator_endsLine hq]

theorem parseLogicalAnd_atom {f : Nat} {p q : Parser} {node : ASTNode}
    (h : parseEquality (f + 1) p = .ok (node, q)) (hn : node.isNull = false)
    (hq : endsLine q.currentToken) : parseLogicalAnd (f + 2) p = .ok (node, q) := by
  rw [parseLogicalAnd, h]
  simp only [hn, Bool.false_eq_true, if_false]
  rw [andLoop]
  simp [accept, isTok_keyword_endsLine hq]

theorem parseLogicalOr_atom {f : Nat} {p q : Parser} {node : ASTNode}
    (h : parseLogicalAnd (f + 1) p = .ok (node, q)) (hn : node.isNull = false)
    (hq : endsLine q.currentToken) : parseLogicalOr (f + 2) p = .ok (node, q) := by
  rw [parseLogicalOr, h]
  simp only [hn, Bool.false_eq_true, if_false]
  rw [orLoop]
  simp [accept, isTok_keyword_endsLine hq]

/-- An operand that the primary parser reads, followed by the end of the line, is the
whole expression. -/
theorem parseExpr_atom {f : Nat} {p q : Parser} {node : ASTNode}
    (h : parsePrimary (f + 1) p = .ok (node, q)) (hn : node.isNull = false)
    (hq : endsLine q.currentToken) (h0 : p.currentToken.type ≠ .EOFToken)
    (h1 : p.isTok .Operator "-" = false) (h2 : p.isTok .Keyword "not" = false) :
    parseExpr (f + 9) p = .ok (node, q) := by
  have hu : parseUnary (f + 2) p = .ok (node, q) := by
    rw [parseUnary]
    simp only [h1, h2, Bool.or_self, Bool.false_eq_true, if_false]
    exact h
  rw [parseExpr, if_neg h0]
  exact parseLogicalOr_atom (parseLogicalAnd_atom (parseEquality_atom (parseRelational_atom
    (parseTerm_atom (parseFactor_atom hu hn hq) hn hq) hn hq) hn hq) hn hq) hn hq

theorem isTok_eq_false {p : Parser} {ty : TokenType} {v : String} (hv : v.isEmpty = false)
    (h : ¬ (p.currentToken.type = ty ∧ p.currentToken.value = v)) : p.isTok ty v = false := by
  unfold isTok
  rw [hv]
  simp only [Bool.false_eq_true, false_or, decide_eq_false_iff_not]
  exact h

theorem parseAssignStmt_atom (f : Nat) (p : Parser) (eq lit next : Token) (rest : List Token)
    (hname : p.currentToken.type = .Identifier) (hrest : p.rest = eq :: lit :: next :: rest)
    (heq : eq.type = .Operator ∧ eq.value = "=") (hnext : endsLine next)
    (node : ASTNode) (ty v : String) (hnn : node.isNull = false)
    (hprim : parsePrimary (f + 1) { p with currentToken := lit, rest := next :: rest } =
      .ok (node, { p with currentToken := next, rest := rest }))
    (hl0 : lit.type ≠ .EOFToken) (hl1 : ¬ (lit.type = .Operator ∧ lit.value = "-"))
    (hl2 : ¬ (lit.type = .Keyword ∧ lit.value = "not"))
    (hev : ∀ q : Parser, q.evaluateExpression node = .ok v)
    (hty : ∀ q : Parser, q.getTypeFromNode node = ty) (htyu : ty ≠ "unknown") :
    ∃ n q, parseAssignStmt (f + 9) p = .ok (n, q) ∧
      q.symbolTable = p.symbolTable.declare p.currentToken.value ty "variable" v := by
  have ha1 : p.advance = { p with currentToken := eq, rest := lit :: next :: rest } := by
    unfold advance; rw [hrest]
  have e1 : p.expect .Identifier "Expected identifier for assignment" "" =
      .ok { p with currentToken := eq, rest := lit :: next :: rest } := by
    unfold expect
    rw [accept_fst, if_pos (isTok_empty hname), accept_snd_pos (isTok_empty hname), ha1]
  have hk2 : ({ p with currentToken := eq, rest := lit :: next :: rest } : Parser).isTok
      .Operator "=" = true := isTok_of heq.1 heq.2
  have e2 : ({ p with currentToken := eq, rest := lit :: next :: rest } : Parser).expect .Operator
      "Expected '=' in assignment" "=" =
      .ok { p with currentToken := lit, rest := next :: rest } := by
    unfold expect
    rw [accept_fst, if_pos hk2, accept_snd_pos hk2]
    rfl
  have e3 : parseExpr (f + 9) { p with currentToken := lit, rest := next :: rest } =
      .ok (node, { p with currentToken := next, rest := rest }) := by
    refine parseExpr_atom hprim hnn hnext hl0 ?_ ?_
    · exact isTok_eq_false rfl hl1
    · exact isTok_eq_false rfl hl2
  unfold parseAssignStmt
  simp only
  rw [e1]
  simp only
  rw [if_pos heq, e2]
  simp only
  rw [e3]
  simp only [hnn, Bool.false_eq_true, if_false, hev, hty, if_neg htyu]
  exact ⟨_, _, rfl, rfl⟩

end Parser

namespace Parser

/-! ### Running the parser on a chain `if` / `elif` / `else` -/

@[simp] theorem moveTo_currentToken (p : Parser) (c : Token) (r : List Token) :
    (p.moveTo c r).currentToken = c := rfl

@[simp] theorem moveTo_rest (p : Parser) (c : Token) (r : List Token) :
    (p.moveTo c r).rest = r := rfl

@[simp] theorem moveTo_symbolTable (p : Parser) (c : Token) (r : List Token) :
    (p.moveTo c r).symbolTable = p.symbolTable := rfl

@[simp] theorem moveTo_indentStack (p : Parser) (c : Token) (r : List Token) :
    (p.moveTo c r).indentStack = p.indentStack := rfl

@[simp] theorem moveTo_errors (p : Parser) (c : Token) (r : List Token) :
    (p.moveTo c r).errors = p.errors := rfl

@[simp] theorem moveTo_moveTo (p : Parser) (c d : Token) (r s : List Token) :
    (p.moveTo c r).moveTo d s = p.moveTo d s := rfl

@[simp] theorem moveTo_advance (p : Parser) (c t : Token) (r : List Token) :
    (p.moveTo c (t :: r)).advance = p.moveTo t r := rfl

@[simp] theorem moveTo_peekNextToken (p : Parser) (c t : Token) (r : List Token) :
    (p.moveTo c (t :: r)).peekNextToken = t := rfl

theorem isTok_moveTo (p : Parser) (c : Token) (r : List Token) (ty : TokenType) (v : String) :
    (p.moveTo c r).isTok ty v = decide (c.type = ty ∧ (v.isEmpty = true ∨ c.value = v)) := rfl

theorem isTok_moveTo_pos {p : Parser} {c : Token} {r : List Token} {ty : TokenType}
    {v : String} (h1 : c.type = ty) (h2 : c.value = v) : (p.moveTo c r).isTok ty v = true := by
  rw [isTok_moveTo]; simp [h1, h2]

theorem isTok_moveTo_type {p : Parser} {c : Token} {r : List Token} {ty : TokenType}
    (v : String) (h1 : c.type ≠ ty) : (p.moveTo c r).isTok ty v = false := by
  rw [isTok_moveTo]; simp [h1]

theorem isTok_moveTo_value {p : Parser} {c : Token} {r : List Token} (ty : TokenType)
    {v : String} (hv : v.isEmpty = false) (h1 : c.value ≠ v) :
    (p.moveTo c r).isTok ty v = false := by
  rw [isTok_moveTo]; simp [h1, hv]

theorem expect_moveTo {p : Parser} {c t : Token} {r : List Token} {ty : TokenType}
    {v : String} (m : String) (h : (p.moveTo c (t :: r)).isTok ty v = true) :
    (p.moveTo c (t :: r)).expect ty m v = .ok (p.moveTo t r) := by
  unfold expect
  rw [accept_fst, if_pos h, accept_snd_pos h]
  rfl

/-- An operand read by `parsePrimary`, in front of a token that none of the loops up to
`parseRelational` takes, is what `parseRelational` returns. -/
theorem parseRelational_pass {f : Nat} {p q : Parser} {node : ASTNode}
    (h : parsePrimary (f + 1) p = .ok (node, q)) (hn : node.isNull = false)
    (h1 : p.isTok .Operator "-" = false) (h2 : p.isTok .Keyword "not" = false)
    (hq : ∀ v ∈ tightOps, q.isTok .Operator v = false) :
    parseRelational (f + 5) p = .ok (node, q) := by
  have hu : parseUnary (f + 2) p = .ok (node, q) := by
    rw [parseUnary]
    simp only [h1, h2, Bool.or_self, Bool.false_eq_true, if_false]
    exact h
  have hfa : parseFactor (f + 3) p = .ok (node, q) := by
    rw [parseFactor, hu]
    simp only [hn, Bool.false_eq_true, if_false]
    rw [factorLoop]
    simp [hq "*" (by decide), hq "/" (by decide), hq "%" (by decide)]
  have hte : parseTerm (f + 4) p = .ok (node, q) := by
    rw [parseTerm, hfa]
    simp only [hn, Bool.false_eq_true, if_false]
    rw [termLoop]
    simp [hq "+" (by decide), hq "-" (by decide)]
  rw [parseRelational, hte]
  simp only [hn, Bool.false_eq_true, if_false]
  rw [relationalLoop]
  simp [hq "<" (by decide), hq ">" (by decide), hq "<=" (by decide), hq ">=" (by decide)]

theorem parsePrimary_identifier (f : Nat) (p : Parser) (x t : Token) (r : List Token)
    (hx : x.type = .Identifier) (ht : t.value ≠ "(") :
    parsePrimary (f + 1) (p.moveTo x (t :: r)) = .ok (IdentifierNode x, p.moveTo t r) := by
  rw [parsePrimary]
  simp [hx, ht]

theorem parsePrimary_number (f : Nat) (p : Parser) (c t : Token) (r : List Token) (d : Dbl)
    (hc : c.type = .Number) (hd : stod c.value = some d) :
    parsePrimary (f + 1) (p.moveTo c (t :: r)) =
      .ok (.node (.Number d (if c.value.data.contains '.' then "float" else "int")) c [],
        p.moveTo t r) := by
  rw [parsePrimary]
  simp [hc, NumberNode, hd]

/-- The condition `x == c` in front of a delimiter: `parseExpr` reads the three tokens. -/
theorem parseExpr_cmp (fuel : Nat) (p : Parser) (x op c colon : Token) (tail : List Token)
    (hx : x.type = .Identifier) (hop : op.type = .Operator ∧ op.value = "==")
    (hc : c.type = .Number) (hnum : (stod c.value).isSome = true)
    (hcolon : colon.type = .Delimiter) (hf : 10 ≤ fuel) :
    ∃ node, parseExpr fuel (p.moveTo x (op :: c :: colon :: tail)) =
      .ok (node, p.moveTo colon tail) ∧ node.isNull = false := by
  obtain ⟨f, rfl⟩ : ∃ f, fuel = f + 10 := ⟨fuel - 10, by omega⟩
  obtain ⟨d, hd⟩ := Option.isSome_iff_exists.mp hnum
  have r1 : parseRelational (f + 6) (p.moveTo x (op :: c :: colon :: tail)) =
      .ok (IdentifierNode x, p.moveTo op (c :: colon :: tail)) := by
    refine parseRelational_pass (parsePrimary_identifier (f + 1) p x op _ hx ?_) rfl
      (isTok_moveTo_type _ (by rw [hx]; decide)) (isTok_moveTo_type _ (by rw [hx]; decide)) ?_
    · rw [hop.2]; decide
    · intro v hv
      refine isTok_moveTo_value _ ?_ ?_
      · revert v; decide
      · rw [hop.2]; revert v; decide
  have r2 : parseRelational (f + 5) (p.moveTo c (colon :: tail)) =
      .ok (.node (.Number d (if c.value.data.contains '.' then "float" else "int")) c [],
        p.moveTo colon tail) := by
    refine parseRelational_pass (parsePrimary_number f p c colon _ d hc hd) rfl
      (isTok_moveTo_type _ (by rw [hc]; decide)) (isTok_moveTo_type _ (by rw [hc]; decide)) ?_
    intro v _
    exact isTok_moveTo_type _ (by rw [hcolon]; decide)
  have hno : ∀ (ty : TokenType) (v : String), ty = .Operator ∨ ty = .Keyword →
      (p.moveTo colon tail).isTok ty v = false := by
    intro ty v h
    refine isTok_moveTo_type _ ?_
    rw [hcolon]
    rcases h with h | h <;> rw [h] <;> decide
  refine ⟨BinaryOpNode op (IdentifierNode x)
    (.node (.Number d (if c.value.data.contains '.' then "float" else "int")) c []), ?_, rfl⟩
  have e1 : parseEquality (f + 7) (p.moveTo x (op :: c :: colon :: tail)) =
      .ok (BinaryOpNode op (IdentifierNode x)
        (.node (.Number d (if c.value.data.contains '.' then "float" else "int")) c []),
        p.moveTo colon tail) := by
    rw [parseEquality, r1]
    simp only [IdentifierNode, ASTNode.isNull, Bool.false_eq_true, if_false]
    rw [equalityLoop]
    simp only [isTok_moveTo_pos hop.1 hop.2, Bool.true_or, if_true, moveTo_advance, r2,
      ASTNode.isNull, Bool.false_eq_true, if_false, moveTo_currentToken]
    rw [equalityLoop]
    simp [hno]
  have hbn : (BinaryOpNode op (IdentifierNode x)
      (.node (.Number d (if c.value.data.contains '.' then "float" else "int")) c [])).isNull =
      false := rfl
  have e2 : parseLogicalAnd (f + 8) (p.moveTo x (op :: c :: colon :: tail)) =
      .ok (BinaryOpNode op (IdentifierNode x)
        (.node (.Number d (if c.value.data.contains '.' then "float" else "int")) c []),
        p.moveTo colon tail) := by
    rw [parseLogicalAnd, e1]
    simp only [hbn, Bool.false_eq_true, if_false]
    rw [andLoop]
    simp [accept, hno]
  have e3 : parseLogicalOr (f + 9) (p.moveTo x (op :: c :: colon :: tail)) =
      .ok (BinaryOpNode op (IdentifierNode x)
        (.node (.Number d (if c.value.data.contains '.' then "float" else "int")) c []),
        p.moveTo colon tail) := by
    rw [parseLogicalOr, e2]
    simp only [hbn, Bool.false_eq_true, if_false]
    rw [orLoop]
    simp [accept, hno]
  rw [parseExpr, if_neg (by simp [hx]), e3]

theorem branchTable_spec (t : ParserSymbolTable) (scope name type value : String)
    (h : t.scopes ≠ []) :
    (branchTable t scope name type value).entries = t.entries ++
      [{ id := t.nextId, name := name, dataType := type, value := value, role := "variable",
         scope := scope }] ∧
    (branchTable t scope name type value).nextId = t.nextId + 1 ∧
    (branchTable t scope name type value).scopes = t.scopes ∧
    (branchTable t scope name type value).scopeNames = t.scopeNames := by
  have hl : 0 < t.scopes.length := List.length_pos.mpr h
  unfold branchTable ParserSymbolTable.endScope ParserSymbolTable.declare
    ParserSymbolTable.beginScope
  simp [hl]

theorem expectIndent_exact (p : Parser) (ind t : Token) (r : List Token) (lvl : Int)
    (hind : ind.type = .Indent) (hlvl : stoi ind.value = some lvl) (ht : t.type ≠ .Indent) :
    (p.moveTo ind (t :: r)).expectIndent lvl = .ok (p.moveTo t r) := by
  unfold expectIndent
  rw [expectIndentLoop]
  simp [hind, hlvl, ht]
  rfl

/-- The statement `name = lit` that ends its line, `lit` a Number: what `parseAssignStmt`
returns. -/
theorem parseAssignStmt_number (fuel : Nat) (p : Parser) (name eq lit next : Token)
    (tail : List Token) (d : Dbl) (hname : name.type = .Identifier)
    (heq : eq.type = .Operator ∧ eq.value = "=") (hlit : lit.type = .Number)
    (hd : stod lit.value = some d) (hnext : endsLine next) (hf : 9 ≤ fuel) :
    parseAssignStmt fuel (p.moveTo name (eq :: lit :: next :: tail)) =
      .ok (AssignNode name (IdentifierNode name)
            (.node (.Number d (if lit.value.data.contains '.' then "float" else "int")) lit []),
        (p.moveTo next tail).withTable (p.symbolTable.declare name.value
          (if lit.value.data.contains '.' then "float" else "int") "variable"
          (doubleToString d))) := by
  obtain ⟨f, rfl⟩ : ∃ f, fuel = f + 9 := ⟨fuel - 9, by omega⟩
  have e1 : (p.moveTo name (eq :: lit :: next :: tail)).expect .Identifier
      "Expected identifier for assignment" "" = .ok (p.moveTo eq (lit :: next :: tail)) :=
    expect_moveTo _ (isTok_empty hname)
  have e2 : (p.moveTo eq (lit :: next :: tail)).expect .Operator
      "Expected '=' in assignment" "=" = .ok (p.moveTo lit (next :: tail)) :=
    expect_moveTo _ (isTok_moveTo_pos heq.1 heq.2)
  have e3 : parseExpr (f + 9) (p.moveTo lit (next :: tail)) =
      .ok (.node (.Number d (if lit.value.data.contains '.' then "float" else "int")) lit [],
        p.moveTo next tail) :=
    parseExpr_atom (parsePrimary_number f p lit next tail d hlit hd) rfl hnext
      (by simp [hlit]) (isTok_moveTo_type _ (by rw [hlit]; decide))
      (isTok_moveTo_type _ (by rw [hlit]; decide))
  unfold parseAssignStmt
  simp only
  rw [e1]
  simp only [moveTo_currentToken]
  rw [if_pos heq, e2]
  simp only
  rw [e3]
  have hty : (if lit.value.data.contains '.' then "float" else "int") ≠ "unknown" := by
    split_ifs <;> decide
  have hev : (p.moveTo next tail).evaluateExpression
      (.node (.Number d (if lit.value.data.contains '.' then "float" else "int")) lit []) =
      .ok (doubleToString d) := by
    simp [evaluateExpression, getValueFromNode]
  have hgt : (p.moveTo next tail).getTypeFromNode
      (.node (.Number d (if lit.value.data.contains '.' then "float" else "int")) lit []) =
      (if lit.value.data.contains '.' then "float" else "int") := by
    simp [getTypeFromNode]
  simp only [ASTNode.isNull, Bool.false_eq_true, if_false, hev, hgt, if_neg hty,
    moveTo_symbolTable]

theorem closesBlock_endsLine {lvl : Int} {t : Token} (h : closesBlock lvl t) : endsLine t := by
  rcases h with h | h
  · exact Or.inr h
  · exact Or.inl h.1

/-- A block that holds the one statement `name = lit`: `parseBlockBody` returns the Block
with that Assign, the name declared in the scope of the block, and the scope and the
indent level popped. -/
theorem parseBlockBody_assign (fuel : Nat) (b : Bool) (p : Parser) (scope : String)
    (lvl : Int) (name eq lit next : Token) (tail : List Token) (d : Dbl)
    (hname : name.type = .Identifier) (heq : eq.type = .Operator ∧ eq.value = "=")
    (hlit : lit.type = .Number) (hd : stod lit.value = some d) (hnext : closesBlock lvl next)
    (hf : 12 ≤ fuel) :
    parseBlockBody fuel b lvl
        (((p.moveTo name (eq :: lit :: next :: tail)).pushIndent lvl).withTable
          (p.symbolTable.beginScope scope)) =
      .ok (BlockNode name [AssignNode name (IdentifierNode name)
            (.node (.Number d (numberType lit)) lit [])],
        (p.moveTo next tail).withTable
          (branchTable p.symbolTable scope name.value (numberType lit) (doubleToString d))) := by
  obtain ⟨f, rfl⟩ : ∃ f, fuel = f + 12 := ⟨fuel - 12, by omega⟩
  have ha := parseAssignStmt_number (f + 9)
    ((p.pushIndent lvl).withTable (p.symbolTable.beginScope scope)) name eq lit next tail d
    hname heq hlit hd (closesBlock_endsLine hnext) (by omega)
  have hs : parseStmt (f + 10) (((p.pushIndent lvl).withTable
      (p.symbolTable.beginScope scope)).moveTo name (eq :: lit :: next :: tail)) =
      .ok (AssignNode name (IdentifierNode name) (.node (.Number d (numberType lit)) lit []),
        (((p.pushIndent lvl).withTable (p.symbolTable.beginScope scope)).moveTo next
          tail).withTable ((p.symbolTable.beginScope scope).declare name.value (numberType lit)
            "variable" (doubleToString d))) := by
    rw [parseStmt]
    simp only [moveTo_currentToken, hname, isValidStatementStart, moveTo_peekNextToken, heq.2]
    simp only [reduceCtorEq, if_false, Bool.or_false, decide_True, decide_False, Bool.true_or,
      Bool.or_true, not_true_eq_false, and_false, String.reduceEq]
    exact ha
  have hl : blockLoop (f + 10) b lvl
      [AssignNode name (IdentifierNode name) (.node (.Number d (numberType lit)) lit [])]
      ((((p.pushIndent lvl).withTable (p.symbolTable.beginScope scope)).moveTo next
          tail).withTable ((p.symbolTable.beginScope scope).declare name.value (numberType lit)
            "variable" (doubleToString d))) =
      .ok ([AssignNode name (IdentifierNode name) (.node (.Number d (numberType lit)) lit [])],
        ((((p.pushIndent lvl).withTable (p.symbolTable.beginScope scope)).moveTo next
          tail).withTable ((p.symbolTable.beginScope scope).declare name.value (numberType lit)
            "variable" (doubleToString d)))) := by
    rw [blockLoop]
    rcases hnext with h | ⟨h, l, hl, hlt⟩
    · simp [h]
    · simp [h, hl, not_le.mpr hlt]
  change parseBlockBody (f + 12) b lvl (((p.pushIndent lvl).withTable
      (p.symbolTable.beginScope scope)).moveTo name (eq :: lit :: next :: tail)) = _
  rw [parseBlockBody]
  simp only [moveTo_currentToken]
  rw [blockLoop]
  simp only [moveTo_currentToken, hname, reduceCtorEq, if_false, hs, AssignNode,
    ASTNode.isNull, Bool.false_eq_true, not_false_eq_true, if_true, List.nil_append]
  rw [← AssignNode, hl]
  simp [popIndent, pushIndent, withTable, moveTo, branchTable]

/-- The block opened after a header: the level pushed, the IndentMarker read, the scope
begun, the body parsed. -/
theorem openBlock_assign (fuel : Nat) (b : Bool) (p : Parser) (scope : String) (lvl : Int)
    (ind name eq lit next : Token) (tail : List Token) (d : Dbl)
    (h : AssignLine lvl ind name eq lit next d) (hf : 12 ≤ fuel) :
    ((p.moveTo ind (name :: eq :: lit :: next :: tail)).pushIndent lvl).expectIndent lvl =
      .ok ((p.moveTo name (eq :: lit :: next :: tail)).pushIndent lvl) ∧
    parseBlockBody fuel b lvl
        (((p.moveTo name (eq :: lit :: next :: tail)).pushIndent lvl).withTable
          (((p.moveTo name (eq :: lit :: next :: tail)).pushIndent lvl).symbolTable.beginScope
            scope)) =
      .ok (BlockNode name [AssignNode name (IdentifierNode name)
            (.node (.Number d (numberType lit)) lit [])],
        (p.moveTo next tail).withTable
          (branchTable p.symbolTable scope name.value (numberType lit) (doubleToString d))) :=
  ⟨expectIndent_exact (p.pushIndent lvl) ind name _ lvl h.ind_type h.ind_level
      (by rw [h.name_type]; decide),
   parseBlockBody_assign fuel b p scope lvl name eq lit next tail d h.name_type
      ⟨h.eq_type, h.eq_value⟩ h.lit_type h.lit_value h.closes hf⟩

theorem parseElseStmt_assign (fuel : Nat) (p : Parser) (kw colon ind name eq lit next : Token)
    (tail : List Token) (d : Dbl) (hkw : kw.type = .Keyword ∧ kw.value = "else")
    (hcolon : colon.type = .Delimiter ∧ colon.value = ":")
    (h : AssignLine (p.currentIndent + 1) ind name eq lit next d) (hf : 13 ≤ fuel) :
    parseElseStmt fuel (p.moveTo kw (colon :: ind :: name :: eq :: lit :: next :: tail)) =
      .ok (BlockNode name [AssignNode name (IdentifierNode name)
            (.node (.Number d (numberType lit)) lit [])],
        (p.moveTo next tail).withTable
          (branchTable p.symbolTable "else block" name.value (numberType lit)
            (doubleToString d))) := by
  obtain ⟨f, rfl⟩ : ∃ f, fuel = f + 1 := ⟨fuel - 1, by omega⟩
  obtain ⟨e1, e2⟩ := openBlock_assign f false p "else block" (p.currentIndent + 1) ind name eq
    lit next tail d h (by omega)
  rw [parseElseStmt, expect_moveTo _ (isTok_moveTo_pos hkw.1 hkw.2)]
  simp only
  rw [expect_moveTo _ (isTok_moveTo_pos hcolon.1 hcolon.2)]
  simp only
  have hci : (p.moveTo ind (name :: eq :: lit :: next :: tail)).currentIndent =
      p.currentIndent := rfl
  rw [hci, e1]
  simp only
  exact e2

theorem elifLoop_stop (fuel : Nat) (p : Parser) (cs : List ASTNode) (lvl : Int)
    (i0 kw : Token) (rest : List Token) (hi0 : i0.type = .Indent)
    (hlvl : stoi i0.value = some lvl) (hkw : ¬ (kw.type = .Keyword ∧ kw.value = "elif")) :
    elifLoop (fuel + 1) lvl cs (p.moveTo i0 (kw :: rest)) = .ok (cs, p.moveTo kw rest) := by
  rw [elifLoop]
  simp only [moveTo_currentToken, hi0, if_true, hlvl, ne_eq, not_true_eq_false, if_false,
    moveTo_advance]
  rw [if_pos]
  by_contra h
  exact hkw ⟨by by_contra h1; exact h (Or.inl h1), by by_contra h1; exact h (Or.inr h1)⟩

theorem elifLoop_step (fuel : Nat) (p : Parser) (cs : List ASTNode) (lvl : Int)
    (i0 kw x op c colon ind name eq lit next : Token) (tail : List Token) (d : Dbl)
    (hi0 : i0.type = .Indent) (hlvl : stoi i0.value = some lvl)
    (hkw : kw.type = .Keyword ∧ kw.value = "elif") (hc : CondLine x op c colon)
    (h : AssignLine (lvl + 1) ind name eq lit next d) (hf : 12 ≤ fuel) :
    ∃ node, elifLoop (fuel + 1) lvl cs (p.moveTo i0
        (kw :: x :: op :: c :: colon :: ind :: name :: eq :: lit :: next :: tail)) =
      elifLoop fuel lvl (cs ++ [node]) ((p.moveTo next tail).withTable
        (branchTable p.symbolTable "elif block" name.value (numberType lit)
          (doubleToString d))) := by
  obtain ⟨cond, e2, -⟩ := parseExpr_cmp fuel p x op c colon
    (ind :: name :: eq :: lit :: next :: tail) hc.x_type ⟨hc.op_type, hc.op_value⟩ hc.c_type
    hc.c_value hc.colon_type (by omega)
  obtain ⟨e4, e5⟩ := openBlock_assign fuel false p "elif block" (lvl + 1) ind name eq
    lit next tail d h hf
  refine ⟨ElifNode kw cond (BlockNode name [AssignNode name (IdentifierNode name)
            (.node (.Number d (numberType lit)) lit [])]), ?_⟩
  rw [elifLoop]
  simp only [moveTo_currentToken, hi0, if_true, hlvl, ne_eq, not_true_eq_false, if_false,
    moveTo_advance]
  rw [if_neg (by simp [hkw.1, hkw.2])]
  rw [expect_moveTo _ (isTok_moveTo_pos hkw.1 hkw.2)]
  simp only
  rw [e2]
  simp only
  rw [expect_moveTo _ (isTok_moveTo_pos hc.colon_type hc.colon_value)]
  simp only
  rw [e4]
  simp only
  rw [e5]

end Parser

theorem fitsShape_cons {ts : List Token} {s : TokenShape} {ss : List TokenShape}
    (h : fitsShape ts (s :: ss) = true) :
    ∃ t ts', ts = t :: ts' ∧ t.type = s.1 ∧ (∀ v, s.2 = some v → t.value = v) ∧
      fitsShape ts' ss = true := by
  cases ts with
  | nil => simp [fitsShape] at h
  | cons t ts' =>
      simp only [fitsShape, Bool.and_eq_true, Token.fits, decide_eq_true_eq] at h
      refine ⟨t, ts', rfl, h.1.1, ?_, h.2⟩
      intro v hv
      have := h.1.2
      rw [hv] at this
      simpa using this

theorem stoi_zero : stoi "0" = some 0 := by decide

theorem stoi_one : stoi "1" = some 1 := by decide

/-- The tokens of a branch with a condition, taken apart. -/
theorem fits_branch {kwv b : String} {toks : List Token} {ss : List TokenShape}
    (h : fitsShape toks (branchShape kwv b ++ ss) = true)
    (hnum : ∀ t ∈ toks, t.type = .Number → (stod t.value).isSome = true) :
    ∃ i0 kw x op c colon ind name eq lit rest d,
      toks = i0 :: kw :: x :: op :: c :: colon :: ind :: name :: eq :: lit :: rest ∧
      i0.type = .Indent ∧ stoi i0.value = some 0 ∧ kw.type = .Keyword ∧ kw.value = kwv ∧
      Parser.CondLine x op c colon ∧ ind.type = .Indent ∧ stoi ind.value = some 1 ∧
      name.type = .Identifier ∧ name.value = b ∧ eq.type = .Operator ∧ eq.value = "=" ∧
      lit.type = .Number ∧ stod lit.value = some d ∧ fitsShape rest ss = true := by
  simp only [branchShape, condShape, assignShape, List.cons_append, List.nil_append] at h
  obtain ⟨i0, r, rfl, a0, b0, h⟩ := fitsShape_cons h
  obtain ⟨kw, r, rfl, a1, b1, h⟩ := fitsShape_cons h
  obtain ⟨x, r, rfl, a2, -, h⟩ := fitsShape_cons h
  obtain ⟨op, r, rfl, a3, b3, h⟩ := fitsShape_cons h
  obtain ⟨c, r, rfl, a4, -, h⟩ := fitsShape_cons h
  obtain ⟨colon, r, rfl, a5, b5, h⟩ := fitsShape_cons h
  obtain ⟨ind, r, rfl, a6, b6, h⟩ := fitsShape_cons h
  obtain ⟨name, r, rfl, a7, b7, h⟩ := fitsShape_cons h
  obtain ⟨eq, r, rfl, a8, b8, h⟩ := fitsShape_cons h
  obtain ⟨lit, r, rfl, a9, -, h⟩ := fitsShape_cons h
  obtain ⟨d, hd⟩ := Option.isSome_iff_exists.mp (hnum lit (by simp) a9)
  refine ⟨i0, kw, x, op, c, colon, ind, name, eq, lit, r, d, rfl, a0, ?_, a1, b1 _ rfl,
    ⟨a2, a3, b3 _ rfl, a4, hnum c (by simp) a4, a5, b5 _ rfl⟩, a6, ?_, a7, b7 _ rfl, a8,
    b8 _ rfl, a9, hd, h⟩
  · rw [b0 _ rfl]; exact stoi_zero
  · rw [b6 _ rfl]; exact stoi_one

/-- The tokens of the branch `else`, from the keyword to the EndOfInput token, taken
apart. -/
theorem fits_else_tail {b : String} {toks : List Token}
    (h : fitsShape toks (elseTailShape b) = true)
    (hnum : ∀ t ∈ toks, t.type = .Number → (stod t.value).isSome = true) :
    ∃ kw colon ind name eq lit eof d,
      toks = [kw, colon, ind, name, eq, lit, eof] ∧ kw.type = .Keyword ∧ kw.value = "else" ∧
      colon.type = .Delimiter ∧ colon.value = ":" ∧ ind.type = .Indent ∧
      stoi ind.value = some 1 ∧ name.type = .Identifier ∧ name.value = b ∧
      eq.type = .Operator ∧ eq.value = "=" ∧ lit.type = .Number ∧ stod lit.value = some d ∧
      eof.type = .EOFToken := by
  simp only [elseTailShape, assignShape, List.cons_append, List.nil_append] at h
  obtain ⟨kw, r, rfl, a1, b1, h⟩ := fitsShape_cons h
  obtain ⟨colon, r, rfl, a5, b5, h⟩ := fitsShape_cons h
  obtain ⟨ind, r, rfl, a6, b6, h⟩ := fitsShape_cons h
  obtain ⟨name, r, rfl, a7, b7, h⟩ := fitsShape_cons h
  obtain ⟨eq, r, rfl, a8, b8, h⟩ := fitsShape_cons h
  obtain ⟨lit, r, rfl, a9, -, h⟩ := fitsShape_cons h
  obtain ⟨eof, r, rfl, a10, -, h⟩ := fitsShape_cons h
  obtain ⟨d, hd⟩ := Option.isSome_iff_exists.mp (hnum lit (by simp) a9)
  have hr : r = [] := by
    cases r with
    | nil => rfl
    | cons a l => simp [fitsShape] at h
  subst hr
  refine ⟨kw, colon, ind, name, eq, lit, eof, d, rfl, a1, b1 _ rfl, a5, b5 _ rfl,
    a6, ?_, a7, b7 _ rfl, a8, b8 _ rfl, a9, hd, a10⟩
  rw [b6 _ rfl]; exact stoi_one

/-- The line of `else` starts with an IndentMarker of level 0. -/
theorem fits_else_head {b : String} {toks : List Token}
    (h : fitsShape toks (elseShape b ++ [(.EOFToken, none)]) = true) :
    ∃ i0 rest, toks = i0 :: rest ∧ i0.type = .Indent ∧ stoi i0.value = some 0 ∧
      fitsShape rest (elseTailShape b) = true := by
  obtain ⟨i0, rest, rfl, a0, b0, h⟩ := fitsShape_cons h
  refine ⟨i0, rest, rfl, a0, ?_, h⟩
  rw [b0 _ rfl]; exact stoi_zero

/-- After the branches `elif` comes a line at level 0. -/
theorem fits_elifs_head {b : String} (k : Nat) {toks : List Token}
    (h : fitsShape toks (elifsShape b k ++ (elseShape b ++ [(.EOFToken, none)])) = true) :
    ∃ next tail, toks = next :: tail ∧ Parser.closesBlock 1 next := by
  have key : ∃ ss, elifsShape b k ++ (elseShape b ++ [(.EOFToken, none)]) =
      (.Indent, some "0") :: ss := by
    cases k with
    | zero => exact ⟨_, rfl⟩
    | succ k => exact ⟨_, rfl⟩
  obtain ⟨ss, e⟩ := key
  rw [e] at h
  obtain ⟨next, tail, rfl, a, b0, -⟩ := fitsShape_cons h
  refine ⟨next, tail, rfl, Or.inr ⟨a, 0, ?_, by decide⟩⟩
  rw [b0 _ rfl]; exact stoi_zero

/-- The summaries of `k + 1` entries with consecutive ids. -/
theorem range_summaries (n0 : Int) (b s : String) (k : Nat) :
    (n0, b, s) :: (List.range k).map (fun (i : Nat) => (n0 + 1 + (i : Int), b, s)) =
      (List.range (k + 1)).map (fun (i : Nat) => (n0 + (i : Int), b, s)) := by
  rw [List.range_succ_eq_map, List.map_cons, List.map_map]
  congr 1
  · simp
  · apply List.map_congr_left
    intro i _
    show (n0 + 1 + (i : Int), b, s) = (n0 + ((i + 1 : Nat) : Int), b, s)
    congr 1
    push_cast
    ring

namespace Parser

theorem branchTable_summary (t : ParserSymbolTable) (scope name type value : String)
    (h : t.scopes ≠ []) :
    (branchTable t scope name type value).entries.map entrySummary =
      t.entries.map entrySummary ++ [(t.nextId, name, scope)] := by
  rw [(branchTable_spec t scope name type value h).1]
  simp [entrySummary]

/-- The loop over the `elif` branches of a chain: it returns at the keyword `else`, with
one entry more for each branch. -/
theorem elifLoop_chain (b : String) : ∀ (k fuel : Nat) (p : Parser) (cs : List ASTNode)
    (i0 : Token) (rest : List Token),
    fitsShape (i0 :: rest) (elifsShape b k ++ (elseShape b ++ [(.EOFToken, none)])) = true →
    (∀ t ∈ i0 :: rest, t.type = .Number → (stod t.value).isSome = true) →
    p.symbolTable.scopes ≠ [] → k + 13 ≤ fuel →
    ∃ cs' kw rest' T, elifLoop fuel 0 cs (p.moveTo i0 rest) =
        .ok (cs', (p.moveTo kw rest').withTable T) ∧
      fitsShape (kw :: rest') (elseTailShape b) = true ∧
      (∀ t ∈ kw :: rest', t.type = .Number → (stod t.value).isSome = true) ∧
      T.entries.map entrySummary = p.symbolTable.entries.map entrySummary ++
        (List.range k).map (fun (i : Nat) => (p.symbolTable.nextId + (i : Int), b, "elif block")) ∧
      T.nextId = p.symbolTable.nextId + (k : Int) ∧ T.scopes = p.symbolTable.scopes := by
  intro k
  induction k with
  | zero =>
      intro fuel p cs i0 rest hs hnum hsc hf
      obtain ⟨f, rfl⟩ : ∃ f, fuel = f + 1 := ⟨fuel - 1, by omega⟩
      have hs0 : fitsShape (i0 :: rest) (elseShape b ++ [(.EOFToken, none)]) = true := hs
      obtain ⟨j0, rest0, e, a0, l0, htail⟩ := fits_else_head hs0
      obtain ⟨rfl, rfl⟩ := List.cons.inj e
      have hnum0 : ∀ t ∈ rest, t.type = .Number → (stod t.value).isSome = true :=
        fun t ht => hnum t (List.mem_cons_of_mem _ ht)
      obtain ⟨kw, colon, ind, name, eq, lit, eof, d, e, a1, b1, -⟩ :=
        fits_else_tail htail hnum0
      subst e
      refine ⟨cs, kw, _, p.symbolTable, ?_, htail, hnum0, by simp, by simp, rfl⟩
      exact elifLoop_stop f p cs 0 i0 kw _ a0 l0 (by rw [b1]; simp)
  | succ k ih =>
      intro fuel p cs i0 rest hs hnum hsc hf
      obtain ⟨f, rfl⟩ : ∃ f, fuel = f + 1 := ⟨fuel - 1, by omega⟩
      have hs0 : fitsShape (i0 :: rest) (branchShape "elif" b ++
          (elifsShape b k ++ (elseShape b ++ [(.EOFToken, none)]))) = true := by
        simpa [elifsShape, List.append_assoc] using hs
      obtain ⟨j0, kw, x, op, c, colon, ind, name, eq, lit, rest1, d, e, a0, l0, a1, b1, hc,
        a6, l6, a7, b7, a8, b8, a9, hd, hrest⟩ := fits_branch hs0 hnum
      obtain ⟨rfl, rfl⟩ := List.cons.inj e
      obtain ⟨next, tail, rfl, hcl⟩ := fits_elifs_head k hrest
      have hline : AssignLine ((0 : Int) + 1) ind name eq lit next d :=
        ⟨a6, by simpa using l6, a7, a8, b8, a9, hd, by simpa using hcl⟩
      obtain ⟨node, estep⟩ := elifLoop_step f p cs 0 i0 kw x op c colon ind name eq lit next
        tail d a0 l0 ⟨a1, b1⟩ hc hline (by omega)
      have hsub : ∀ t ∈ next :: tail, t.type = .Number → (stod t.value).isSome = true := by
        intro t ht
        exact hnum t (by simp only [List.mem_cons] at ht ⊢; tauto)
      have hT := branchTable_spec p.symbolTable "elif block" name.value (numberType lit)
        (doubleToString d) hsc
      obtain ⟨cs', kw', rest', T, e1, hs1, hnum1, hent, hid, hscs⟩ := ih f
        (p.withTable (branchTable p.symbolTable "elif block" name.value (numberType lit)
          (doubleToString d))) (cs ++ [node]) next tail hrest hsub
        (by rw [withTable_symbolTable, hT.2.2.1]; exact hsc) (by omega)
      refine ⟨cs', kw', rest', T, ?_, hs1, hnum1, ?_, ?_, ?_⟩
      · rw [estep]
        exact e1
      · rw [hent, withTable_symbolTable, branchTable_summary _ _ _ _ _ hsc, hT.2.1, b7,
          List.append_assoc, List.singleton_append, range_summaries]
      · rw [hid, withTable_symbolTable, hT.2.1]
        push_cast
        omega
      · rw [hscs, withTable_symbolTable, hT.2.2.1]

/-- The statement `if` of a chain, from its keyword to the EndOfInput token: `parseIfStmt`
returns there, with one entry for each branch. -/
theorem parseIfStmt_chain (b : String) (k fuel : Nat) (p : Parser) (kw : Token)
    (rest : List Token) (i0 : Token)
    (hs : fitsShape (i0 :: kw :: rest) (chainShape b k) = true)
    (hnum : ∀ t ∈ i0 :: kw :: rest, t.type = .Number → (stod t.value).isSome = true)
    (hci : p.currentIndent = 0) (hsc : p.symbolTable.scopes ≠ []) (hf : k + 15 ≤ fuel) :
    ∃ node eof T, parseIfStmt fuel (p.moveTo kw rest) =
        .ok (node, (p.moveTo eof []).withTable T) ∧
      node.isNull = false ∧ eof.type = .EOFToken ∧
      T.entries.map entrySummary = p.symbolTable.entries.map entrySummary ++
        ((p.symbolTable.nextId, b, "if block") ::
          ((List.range k).map
              (fun (i : Nat) => (p.symbolTable.nextId + 1 + (i : Int), b, "elif block")) ++
            [(p.symbolTable.nextId + 1 + (k : Int), b, "else block")])) := by
  obtain ⟨f, rfl⟩ : ∃ f, fuel = f + 1 := ⟨fuel - 1, by omega⟩
  obtain ⟨j0, kw1, x, op, c, colon, ind, name, eq, lit, rest1, d, e, a0, l0, a1, b1, hc,
    a6, l6, a7, b7, a8, b8, a9, hd, hrest⟩ := fits_branch hs hnum
  obtain ⟨rfl, e'⟩ := List.cons.inj e
  obtain ⟨rfl, rfl⟩ := List.cons.inj e'
  obtain ⟨next, tail, rfl, hcl⟩ := fits_elifs_head k hrest
  have hline : AssignLine ((0 : Int) + 1) ind name eq lit next d :=
    ⟨a6, by simpa using l6, a7, a8, b8, a9, hd, by simpa using hcl⟩
  obtain ⟨cond, e2, -⟩ := parseExpr_cmp f p x op c colon
    (ind :: name :: eq :: lit :: next :: tail) hc.x_type ⟨hc.op_type, hc.op_value⟩ hc.c_type
    hc.c_value hc.colon_type (by omega)
  obtain ⟨e4, e5⟩ := openBlock_assign f true p "if block" ((0 : Int) + 1) ind name eq
    lit next tail d hline (by omega)
  have hT1 := branchTable_spec p.symbolTable "if block" name.value (numberType lit)
    (doubleToString d) hsc
  have hsub : ∀ t ∈ next :: tail, t.type = .Number → (stod t.value).isSome = true := by
    intro t ht
    exact hnum t (by simp only [List.mem_cons] at ht ⊢; tauto)
  obtain ⟨cs', kwe, reste, T2, e6, hs2, hnum2, hent2, hid2, hsc2⟩ := elifLoop_chain b k f
    (p.withTable (branchTable p.symbolTable "if block" name.value (numberType lit)
      (doubleToString d))) [] next tail hrest hsub
    (by rw [withTable_symbolTable, hT1.2.2.1]; exact hsc) (by omega)
  obtain ⟨kw2, colon2, ind2, name2, eq2, lit2, eof, d2, e, c1, c2, c3, c4, c5, c6, c7, c8, c9,
    c10, c11, c12, c13⟩ := fits_else_tail hs2 hnum2
  obtain ⟨rfl, rfl⟩ := List.cons.inj e
  have hline2 : AssignLine ((p.withTable T2).currentIndent + 1) ind2 name2 eq2 lit2 eof d2 :=
    ⟨c5, by
      have : (p.withTable T2).currentIndent = 0 := hci
      rw [this]; simpa using c6, c7, c9, c10, c11, c12, Or.inl c13⟩
  have e7 := parseElseStmt_assign f (p.withTable T2) kwe colon2 ind2 name2 eq2 lit2 eof [] d2
    ⟨c1, c2⟩ ⟨c3, c4⟩ hline2 (by omega)
  have hsc2' : T2.scopes ≠ [] := by
    rw [hsc2, withTable_symbolTable, hT1.2.2.1]; exact hsc
  have hT3 := branchTable_summary T2 "else block" name2.value (numberType lit2)
    (doubleToString d2) hsc2'
  have e6' : elifLoop f 0 [] ((p.moveTo next tail).withTable (branchTable p.symbolTable
      "if block" name.value (numberType lit) (doubleToString d))) =
      .ok (cs', (p.moveTo kwe [colon2, ind2, name2, eq2, lit2, eof]).withTable T2) := e6
  have e7' : parseElseStmt f ((p.moveTo kwe [colon2, ind2, name2, eq2, lit2, eof]).withTable
      T2) = .ok (BlockNode name2 [AssignNode name2 (IdentifierNode name2)
            (.node (.Number d2 (numberType lit2)) lit2 [])],
        (p.moveTo eof []).withTable (branchTable T2 "else block" name2.value
          (numberType lit2) (doubleToString d2))) := e7
  refine ⟨IfNode kw cond
      (BlockNode name [AssignNode name (IdentifierNode name)
        (.node (.Number d (numberType lit)) lit [])])
      (BlockNode name2 [AssignNode name2 (IdentifierNode name2)
        (.node (.Number d2 (numberType lit2)) lit2 [])]) cs',
    eof, branchTable T2 "else block" name2.value (numberType lit2) (doubleToString d2),
    ?_, ?_, c13, ?_⟩
  · rw [parseIfStmt, expect_moveTo _ (isTok_moveTo_pos a1 b1)]
    simp only
    rw [e2]
    simp only
    rw [expect_moveTo _ (isTok_moveTo_pos hc.colon_type hc.colon_value)]
    simp only
    have hci3 : (p.moveTo ind (name :: eq :: lit :: next :: tail)).currentIndent = 0 := hci
    rw [hci3, e4]
    simp only
    rw [e5]
    simp only
    rw [e6']
    simp only [withTable_currentToken, moveTo_currentToken, c1, reduceCtorEq, if_false, c2,
      and_self, if_true]
    rw [e7']
  · rfl
  · rw [hT3, hent2, withTable_symbolTable, branchTable_summary _ _ _ _ _ hsc, hT1.2.1, hid2,
      withTable_symbolTable, hT1.2.1, b7, c8]
    simp only [List.append_assoc, List.singleton_append, List.cons_append, List.nil_append]

end Parser

theorem new_cons (t : Token) (ts : List Token) :
    Parser.new (t :: ts) {} = (startParser (t :: ts)).moveTo t ts := rfl

theorem fitsShape_length : ∀ {ts : List Token} {ss : List TokenShape},
    fitsShape ts ss = true → ts.length = ss.length
  | [], [], _ => rfl
  | [], _ :: _, h => by simp [fitsShape] at h
  | _ :: _, [], h => by simp [fitsShape] at h
  | t :: ts, s :: ss, h => by
      simp only [fitsShape, Bool.and_eq_true] at h
      simp only [List.length_cons, fitsShape_length h.2]

theorem elifsShape_length (b : String) : ∀ k, (elifsShape b k).length = 10 * k
  | 0 => rfl
  | k + 1 => by
      simp only [elifsShape, List.length_append, elifsShape_length b k]
      simp only [branchShape, condShape, assignShape, List.cons_append, List.nil_append,
        List.length_cons, List.length_nil]
      omega

/-- The run of the parser on the tokens of a chain `if` / `elif` / `else` whose blocks
each assign a Number literal to `b`. -/
theorem runParser_chain (b : String) (k : Nat) (tokens : List Token)
    (hs : fitsShape tokens (chainShape b k) = true)
    (hnum : ∀ t ∈ tokens, t.type = .Number → (stod t.value).isSome = true) :
    ∃ node q, runParser tokens = .ok (node, q) ∧ q.errors = [] ∧
      q.symbolTable.entries.map entrySummary =
        (0, b, "if block") ::
          ((List.range k).map (fun (i : Nat) => ((1 : Int) + (i : Int), b, "elif block")) ++
            [((1 : Int) + (k : Int), b, "else block")]) := by
  have hs' := hs
  simp only [chainShape, branchShape, List.cons_append, List.nil_append] at hs'
  obtain ⟨i0, r, rfl, a0, b0, hs'⟩ := fitsShape_cons hs'
  obtain ⟨kw, rest, rfl, a1, b1, -⟩ := fitsShape_cons hs'
  have l0 : stoi i0.value = some 0 := by rw [b0 _ rfl]; exact stoi_zero
  have hlen : k + 18 ≤ (i0 :: kw :: rest).length := by
    rw [fitsShape_length hs]
    simp only [chainShape, List.length_append, elifsShape_length]
    simp only [branchShape, condShape, assignShape, elseShape, List.cons_append,
      List.nil_append, List.length_cons, List.length_nil]
    omega
  obtain ⟨F, hF⟩ : ∃ F, parseFuel (i0 :: kw :: rest) = F + 3 ∧ k + 15 ≤ F := by
    refine ⟨parseFuel (i0 :: kw :: rest) - 3, ?_, ?_⟩ <;> unfold parseFuel <;> omega
  obtain ⟨node, eof, T, e, hn, heof, hent⟩ := Parser.parseIfStmt_chain b k (F + 1)
    (startParser (i0 :: kw :: rest)) kw rest i0 hs hnum rfl (by simp [startParser])
    (by omega)
  refine ⟨ProgramNode [node], ((startParser (i0 :: kw :: rest)).moveTo eof []).withTable T,
    ?_, rfl, ?_⟩
  · unfold runParser Parser.parseProgram
    rw [new_cons, hF.1, show F + 3 = (F + 2) + 1 from rfl, Parser.programLoop]
    simp only [Parser.moveTo_currentToken, a0, reduceCtorEq, if_false, if_true]
    rw [Parser.expectIndent_exact _ i0 kw rest 0 a0 l0 (by rw [a1]; decide)]
    simp only
    rw [Parser.parseStmt]
    simp only [Parser.moveTo_currentToken, a1, reduceCtorEq, if_false, false_and,
      b1 _ rfl, if_true, e]
    rw [Parser.programLoop]
    simp [heof, hn]
  · rw [Parser.withTable_symbolTable, hent]
    simp [startParser]

/-! ## The claims about the parser and the scenarios of the specification -/

/-- C1 (amended). On every token list that ends in an EndOfInput token, whose IndentMarker
lexemes are read by `std::stoi` (decimal numerals within the range of `int`) and that holds
no operator token `%`, the run of `parseProgram` on a new parser returns: no exception,
no undefined operation, and the step budget `parseFuel` is not used up. What it returns
is a Program node, with the parser that holds the accumulated errors. -/
theorem parseProgram_returns (tokens : List Token) (he : Parser.EndsEOF tokens)
    (hg : Parser.GoodTokens tokens) :
    ∃ children q, runParser tokens = .ok (ProgramNode children, q) := by
  have hs := Parser.new_stream he.ne_nil {}
  have hi : Parser.Inv (Parser.new tokens {}) := by
    unfold Parser.Inv
    rw [hs]
    exact ⟨he, hg⟩
  have hlen : (Parser.new tokens {}).rest.length + 1 = tokens.length := by
    have := congrArg List.length hs
    simpa [Parser.stream] using this
  have htab : (Parser.new tokens {}).symbolTable = {} := by
    unfold Parser.new
    simp
  obtain ⟨cs, q, e, -⟩ := Parser.parseProgram_spec (parseFuel tokens) (Parser.new tokens {}) hi
    (by rw [htab]; exact Parser.TInv.fresh)
    (by rw [htab]; decide)
    (by unfold parseFuel; omega)
  exact ⟨cs, q, e⟩

theorem parseProgram_returns_witness :
    Parser.EndsEOF (lexTokens scenarioFold) ∧ Parser.GoodTokens (lexTokens scenarioFold) ∧
      ∃ children q, runParser (lexTokens scenarioFold) = .ok (ProgramNode children, q) :=
  have he : Parser.EndsEOF (lexTokens scenarioFold) :=
    ⟨(lexTokens scenarioFold).dropLast, tok .EOFToken "EOF" 1 10, by decide!, rfl⟩
  have hg : Parser.GoodTokens (lexTokens scenarioFold) := ⟨by decide!, by decide!⟩
  ⟨he, hg, parseProgram_returns (lexTokens scenarioFold) he hg⟩

/-- The run of `parseProgram` does not return on two token lists that end in EndOfInput:
the IndentMarker lexeme `2147483648` is a decimal numeral that `std::stoi` rejects with
`out_of_range`, which nothing catches; and folding `1 % 0` divides an `int` by zero. -/
theorem parseProgram_faults :
    runParser [tok .Indent "2147483648" 1 1, tok .EOFToken "EOF" 1 2] = .error .exception ∧
    runParser [tok .Identifier "x" 1 1, tok .Operator "=" 1 3, tok .Number "1" 1 5,
      tok .Operator "%" 1 7, tok .Number "0" 1 9, tok .EOFToken "EOF" 1 10] =
      .error .undefined := ⟨rfl, rfl⟩

theorem indent_marker_per_line_witness :
    NUL ∉ scenarioIf.data ∧ NoTriple scenarioIf.data ∧
      ∃ tokens lx', (Lexer.mk0 scenarioIf.data).tokenize = some (tokens, lx') ∧
        tokens.countP isIndent = 1 + scenarioIf.data.count '\n' ∧
        (∃ t rest, tokens = t :: rest ∧ t.type = .Indent) ∧ List.Chain' LineStart tokens :=
  have h0 : NUL ∉ scenarioIf.data := by decide!
  have h3 : NoTriple scenarioIf.data := by unfold NoTriple; decide!
  ⟨h0, h3, indent_marker_per_line scenarioIf.data h0 h3⟩

/-- The text `tripleQuoted` has two physical lines and `tokenize` emits one IndentMarker:
the newline inside the string is read by `getString`. -/
theorem indent_marker_missing_in_string :
    (Lexer.mk0 tripleQuoted).tokenize.map (fun r => r.1.countP isIndent) = some 1 ∧
    1 + tripleQuoted.count '\n' = 2 := by decide!

theorem indent_marker_position_witness :
    ∃ pre post, "  x".data = pre ++ post ∧ (pre = [] ∨ pre.getLast? = some '\n') ∧
      (tok .Indent "0" 1 3).line = 1 + (pre.count '\n' : Nat) ∧
      (tok .Indent "0" 1 3).column = 1 + ((post.takeWhile isBlank).length : Nat) :=
  indent_marker_position "  x".data
    (((Lexer.mk0 "  x".data).tokenize.getD ([], Lexer.mk0 [])).1)
    (((Lexer.mk0 "  x".data).tokenize.getD ([], Lexer.mk0 [])).2)
    (by decide!) (tok .Indent "0" 1 3) (by decide!) rfl

/-- The IndentMarker of the line `  x` carries column 3, not column 1. -/
theorem indent_marker_column_after_blanks :
    (lexTokens "  x").head? = some (tok .Indent "0" 1 3) := by decide!

theorem indent_marker_level_witness :
    NoTriple scenarioIf.data ∧
      ∃ tokens lx', (Lexer.mk0 scenarioIf.data).tokenize = some (tokens, lx') ∧
        ∀ t ∈ tokens, t.type = .Indent →
          ∃ pre run post, scenarioIf.data = pre ++ (run ++ post) ∧
            (pre = [] ∨ pre.getLast? = some '\n') ∧
            (∀ c ∈ run, c = ' ' ∨ c = '\t') ∧ (∀ c ∈ post.head?, c ≠ ' ' ∧ c ≠ '\t') ∧
            t.line = 1 + (pre.count '\n' : Nat) ∧
            t.value = toString ((run.count ' ' + 4 * run.count '\t') / 4) ∧
            ∀ u ∈ tokens, u.line = t.line → 1 + (run.length : Int) ≤ u.column :=
  have h3 : NoTriple scenarioIf.data := by unfold NoTriple; decide!
  ⟨h3, indent_marker_level scenarioIf.data h3⟩

/-- The second line of the text `unterminatedString` is a run of four spaces, of level 1,
yet the IndentMarker of line 2 (column 5, past the four spaces) carries the lexeme `0`:
`getString` has read the newline and the spaces, and the indent phase that runs at the end
of the text counts no blank. -/
theorem indent_marker_level_in_string :
    (Lexer.mk0 unterminatedString).tokenize.map
      (fun r => r.1.map (fun t => (t.type, t.value, t.line, t.column))) =
      some [(.Indent, "0", 1, 1), (.Error, "Unterminated string", 2, 1),
        (.Indent, "0", 2, 5), (.EOFToken, "EOF", 2, 5)] ∧
    toString (([' ', ' ', ' ', ' '].count ' ' + 4 * [' ', ' ', ' ', ' '].count '\t') / 4) = "1" := by
  decide!

/-- C6 (amended). Lexing and parsing scenario 1, `x = 1 + 2`: no token is an Error token;
the parser returns with no error; the Program has one child, the Assign of `x` whose right
child is the BinaryOp `+` over the Number nodes of 1 and 2 (the doubles 2^52 * 2^-52 and
2^52 * 2^-51, both of type "int"); and the table holds one entry, `x`, whose value is
"3.000000" and whose dataType is "expr", the type the parser gives to every operation. -/
theorem fold_scenario_parse :
    (∀ t ∈ lexTokens scenarioFold, t.type ≠ .Error) ∧
    (runParser (lexTokens scenarioFold)).toOption.map
      (fun r => (r.2.errors, r.2.symbolTable.entries)) =
      some ([], [{ id := 0, name := "x", dataType := "expr", value := "3.000000",
                   role := "variable", scope := "global" }]) ∧
    (runParser (lexTokens scenarioFold)).toOption.map (fun r => r.1) =
      some (ProgramNode [AssignNode (symTok .Identifier "x" 1 1 0)
        (IdentifierNode (symTok .Identifier "x" 1 1 0))
        (BinaryOpNode (tok .Operator "+" 1 7)
          (.node (.Number (.fin false 4503599627370496 (-52)) "int") (tok .Number "1" 1 5) [])
          (.node (.Number (.fin false 4503599627370496 (-51)) "int") (tok .Number "2" 1 9) []))]) :=
  ⟨by decide!, by decide!, rfl⟩

/-- The entry of `x` after scenario 1 has the dataType "expr", not "int". -/
theorem fold_scenario_type :
    (runParser (lexTokens scenarioFold)).toOption.map
      (fun r => r.2.symbolTable.entries.map (fun e => (e.name, e.dataType))) =
      some [("x", "expr")] := by decide!

/-- The chains of the shape of scenario 3. For every chain `if` / `elif` (any number `k`
of them) / `else` at the top level, with no line between a block and the keyword that
follows it, whose conditions are comparisons `x == c` and whose blocks each hold the one
assignment `b = LIT` of a Number literal to the same name `b` (the token list has the
shape `chainShape b k`, every Number lexeme read by `std::stod`), the parser returns with no
error and its table ends with exactly one entry for `b` per branch: entry 0 with the scope
"if block", the entries 1 to `k` with the scope "elif block", and entry `k + 1` with the
scope "else block"; the ids are the positions, so they are pairwise distinct. -/
theorem if_chain_scopes (b : String) (k : Nat) (tokens : List Token)
    (hs : fitsShape tokens (chainShape b k) = true)
    (hnum : ∀ t ∈ tokens, t.type = .Number → (stod t.value).isSome = true) :
    (runParser tokens).toOption.map
        (fun r => (r.2.errors, r.2.symbolTable.entries.map entrySummary)) =
      some ([], (0, b, "if block") ::
        ((List.range k).map (fun (i : Nat) => ((1 : Int) + (i : Int), b, "elif block")) ++
          [((1 : Int) + (k : Int), b, "else block")])) := by
  obtain ⟨node, q, e, he, hent⟩ := runParser_chain b k tokens hs hnum
  rw [e]
  simp only [Except.toOption, Option.map_some', he, hent]

theorem if_chain_scopes_witness :
    fitsShape (lexTokens scenarioIf) (chainShape "b" 1) = true ∧
    (∀ t ∈ lexTokens scenarioIf, t.type = .Number → (stod t.value).isSome = true) ∧
    (runParser (lexTokens scenarioIf)).toOption.map
        (fun r => (r.2.errors, r.2.symbolTable.entries.map entrySummary)) =
      some ([], [(0, "b", "if block"), (1, "b", "elif block"), (2, "b", "else block")]) :=
  have hs : fitsShape (lexTokens scenarioIf) (chainShape "b" 1) = true := by decide!
  have hnum : ∀ t ∈ lexTokens scenarioIf, t.type = .Number → (stod t.value).isSome = true := by
    decide!
  ⟨hs, hnum, if_chain_scopes "b" 1 (lexTokens scenarioIf) hs hnum⟩

/-- C8. Scenario 3: the If node has four children, the condition, the then-block, one Elif
and the block of the else branch; that block is built on the first token of its body (the
`b` of line 6), so its kind is "Block", not "Else", and `getElseBranch` returns null. -/
theorem else_branch_not_found :
    (runParser (lexTokens scenarioIf)).toOption.map (fun r => r.1.children?.map
      (fun s => (s.getNodeType, s.children?.map ASTNode.getNodeType))) =
      some [("If", ["BinaryOp", "Block", "Elif", "Block"])] ∧
    (runParser (lexTokens scenarioIf)).toOption.map (fun r => r.1.children?.map
      (fun s => s.children?.map (fun c => c.token?.map (fun t => (t.value, t.line))))) =
      some [[some ("==", 1), some ("b", 2), some ("elif", 3), some ("b", 6)]] ∧
    (runParser (lexTokens scenarioIf)).toOption.map (fun r => r.1.children?.map
      (fun s => s.getElseBranch.isNull)) = some [true] := by
  decide!

/-- C9 (amended). Parsing the tokens of scenario 2 returns with no error; the Program has
two children, the FunctionDef with the parameter names a, b and the Assign of `x`; `f` is
the entry 0, in scope "global" with role "function"; and its dataType and its value are
both "unknown", after the definition alone as well as after the whole program. -/
theorem return_scenario_parse :
    (runParser (lexTokens scenarioDef)).toOption.map
      (fun r => (r.2.errors, r.1.children?.map ASTNode.kind?)) =
      some ([], [some (.FunctionDef ["a", "b"]), some .Assign]) ∧
    (runParser (lexTokens scenarioDef)).toOption.map (fun r => r.2.symbolTable.entries) =
      some [{ id := 0, name := "f", dataType := "unknown", value := "unknown",
              role := "function", scope := "global" },
            { id := 1, name := "a", dataType := "unknown", value := "unknown",
              role := "parameter", scope := "f (function)" },
            { id := 2, name := "b", dataType := "unknown", value := "unknown",
              role := "parameter", scope := "f (function)" },
            { id := 3, name := "x", dataType := "expr", value := "unknown",
              role := "variable", scope := "global" }] ∧
    (runParser (lexTokens scenarioDefOnly)).toOption.map (fun r => r.2.symbolTable.entries.head?) =
      some (some { id := 0, name := "f", dataType := "unknown", value := "unknown",
                   role := "function", scope := "global" }) := by
  decide!

/-- The value of `f` after `return a + b` is "unknown", not the text "a + b". -/
theorem return_scenario_value :
    (runParser (lexTokens scenarioDefOnly)).toOption.map
      (fun r => r.2.symbolTable.entries.map (fun e => (e.name, e.value))) =
      some [("f", "unknown"), ("a", "unknown"), ("b", "unknown")] := by decide!

namespace ParserSymbolTable

/-! ### The table of the parser -/

theorem lookup_append_single {α : Type} (frame : List (String × α)) (name n : String) (v : α) :
    (frame ++ [(name, v)]).lookup n =
      match frame.lookup n with
      | some w => some w
      | none => if n = name then some v else none := by
  induction frame with
  | nil =>
      by_cases h : n = name
      · subst h; simp [List.lookup]
      · have : (n == name) = false := by simpa using h
        simp [List.lookup, this, h]
  | cons kv rest ih =>
      obtain ⟨k, w⟩ := kv
      simp only [List.cons_append, List.lookup]
      cases hk : (n == k) with
      | true => simp
      | false => simpa using ih

theorem modify_keeps (f : ParserSymbolTableEntry → ParserSymbolTableEntry)
    (hf : ∀ e, (f e).id = e.id ∧ (f e).name = e.name ∧ (f e).scope = e.scope)
    (n : Nat) (l : List ParserSymbolTableEntry) (i : Nat) (e : ParserSymbolTableEntry)
    (h : l[i]? = some e) :
    ∃ e', (List.modify f n l)[i]? = some e' ∧ e'.id = e.id ∧ e'.name = e.name ∧
      e'.scope = e.scope := by
  rw [List.getElem?_modify, h]
  by_cases hn : n = i
  · simp only [hn, if_true, Option.map_eq_map, Option.map_some']
    exact ⟨_, rfl, hf e⟩
  · simp only [hn, if_false, Option.map_eq_map, Option.map_some']
    exact ⟨_, rfl, rfl, rfl, rfl⟩

theorem refineEntry_keeps (type role value : String) (e : ParserSymbolTableEntry) :
    (refineEntry e type role value).id = e.id ∧ (refineEntry e type role value).name = e.name ∧
      (refineEntry e type role value).scope = e.scope := by
  unfold refineEntry
  by_cases h1 : e.dataType = "unknown" <;> by_cases h2 : value ≠ "unknown" <;>
    simp [h1, h2]

theorem refineEntry_eq (type role value : String) (e : ParserSymbolTableEntry) :
    refineEntry e type role value =
      { e with dataType := if e.dataType = "unknown" then type else e.dataType,
               role := role,
               value := if value ≠ "unknown" then value else e.value } := by
  unfold refineEntry
  by_cases h1 : e.dataType = "unknown" <;> by_cases h2 : value ≠ "unknown" <;>
    simp [h1, h2]

/-- The effect of `declare` on a name bound in the current frame. -/
theorem declare_of_bound (t : ParserSymbolTable) (name type role value : String) (id : Int)
    (hb : (t.scopes.headD []).lookup name = some id) :
    t.declare name type role value =
      { t with entries := List.modify (fun e => refineEntry e type role value) id.toNat
                 t.entries } := by
  have hne : t.scopes.isEmpty = false := by
    cases hs : t.scopes with
    | nil => rw [hs] at hb; simp [List.lookup] at hb
    | cons a l => rfl
  unfold declare
  simp only [hne, Bool.false_eq_true, if_false, hb]

/-- The effect of `declare` on a name not bound in the current frame. -/
theorem declare_of_fresh (t : ParserSymbolTable) (name type role value : String)
    (hs : t.scopes ≠ []) (hb : (t.scopes.headD []).lookup name = none) :
    t.declare name type role value =
      { t with
          nextId := t.nextId + 1
          entries := t.entries ++
            [{ id := t.nextId, name := name, dataType := type, value := value, role := role,
               scope := t.scopeNames.headD "" }]
          nameToIds := noteId t.nameToIds name t.nextId
          scopes := (t.scopes.headD [] ++ [(name, t.nextId)]) :: t.scopes.tail } := by
  have hne : t.scopes.isEmpty = false := by
    cases h : t.scopes with
    | nil => exact absurd h hs
    | cons a l => rfl
  unfold declare
  simp only [hne, Bool.false_eq_true, if_false, hb]

theorem findId_of_bound (name : String) (id : Int) :
    ∀ (inner : List (List (String × Int))) (frame : List (String × Int))
      (outer : List (List (String × Int))),
      (∀ f ∈ inner, f.lookup name = none) → frame.lookup name = some id →
      findId name (inner ++ frame :: outer) = some id
  | [], frame, outer, _, hf => by simp [findId, hf]
  | f :: inner, frame, outer, hi, hf => by
      have h1 : f.lookup name = none := hi f (List.mem_cons_self _ _)
      simp only [List.cons_append, findId, h1]
      exact findId_of_bound name id inner frame outer
        (fun g hg => hi g (List.mem_cons_of_mem _ hg)) hf

theorem findId_of_unbound (name : String) :
    ∀ (scopes : List (List (String × Int))), (∀ f ∈ scopes, f.lookup name = none) →
      findId name scopes = none
  | [], _ => rfl
  | f :: scopes, h => by
      have h1 : f.lookup name = none := h f (List.mem_cons_self _ _)
      simp only [findId, h1]
      exact findId_of_unbound name scopes (fun g hg => h g (List.mem_cons_of_mem _ hg))

theorem findId_mem (name : String) (id : Int) :
    ∀ (scopes : List (List (String × Int))), findId name scopes = some id →
      ∃ f ∈ scopes, f.lookup name = some id
  | [], h => by simp [findId] at h
  | f :: scopes, h => by
      simp only [findId] at h
      cases hf : f.lookup name with
      | some j =>
          rw [hf] at h
          simp only [Option.some.injEq] at h
          exact ⟨f, List.mem_cons_self _ _, by rw [hf, h]⟩
      | none =>
          rw [hf] at h
          obtain ⟨g, hg, hl⟩ := findId_mem name id scopes h
          exact ⟨g, List.mem_cons_of_mem _ hg, hl⟩

theorem Keeps.by_step {t u : ParserSymbolTable} (h : Step t u) : Keeps t u := by
  intro i e he
  cases h with
  | beginScope scopeName => exact ⟨e, he, rfl, rfl, rfl⟩
  | endScope =>
      unfold endScope
      split_ifs <;> exact ⟨e, he, rfl, rfl, rfl⟩
  | declare name type role value =>
      unfold declare
      simp only
      split
      · exact modify_keeps _ (refineEntry_keeps type role value) _ _ i e
          (by split_ifs <;> exact he)
      · refine ⟨e, ?_, rfl, rfl, rfl⟩
        have he' : (if t.scopes.isEmpty = true then
            ({ t with scopes := [[]], scopeNames := "global" :: t.scopeNames } : ParserSymbolTable)
            else t).entries[i]? = some e := by split_ifs <;> exact he
        have hlt : i < (if t.scopes.isEmpty = true then
            ({ t with scopes := [[]], scopeNames := "global" :: t.scopeNames } : ParserSymbolTable)
            else t).entries.length := by
          by_contra hc
          rw [List.getElem?_eq_none (by omega)] at he'
          exact Option.noConfusion he'
        show (_ ++ _)[i]? = some e
        rw [List.getElem?_append_left hlt]
        exact he'
  | updateType name type =>
      unfold updateType
      split
      · exact modify_keeps (fun e => { e with dataType := type }) (fun _ => ⟨rfl, rfl, rfl⟩)
          _ _ i e he
      · exact ⟨e, he, rfl, rfl, rfl⟩
  | updateValue name value =>
      unfold updateValue
      split
      · exact modify_keeps (fun e => { e with value := value }) (fun _ => ⟨rfl, rfl, rfl⟩)
          _ _ i e he
      · exact ⟨e, he, rfl, rfl, rfl⟩

/-- A modification of entries that keeps ids and names keeps the invariant. -/
theorem WellFormed.modify_entries {t : ParserSymbolTable} (h : WellFormed t)
    (f : ParserSymbolTableEntry → ParserSymbolTableEntry)
    (hf : ∀ e, (f e).id = e.id ∧ (f e).name = e.name ∧ (f e).scope = e.scope) (n : Nat) :
    WellFormed { t with entries := List.modify f n t.entries } := by
  obtain ⟨h1, h2, h3, h4, h5, h6⟩ := h
  refine ⟨?_, ?_, ?_, h4, h5, h6⟩
  · intro i e he
    simp only [List.getElem?_modify] at he
    cases hi : t.entries[i]? with
    | none => rw [hi] at he; simp at he
    | some e0 =>
        rw [hi] at he
        simp only [Option.map_eq_map, Option.map_some', Option.some.injEq] at he
        rw [← he]
        by_cases hn : n = i
        · simp only [hn, if_true]; rw [(hf e0).1]; exact h1 i e0 hi
        · simp only [hn, if_false]; exact h1 i e0 hi
  · simp only [List.length_modify]; exact h2
  · intro frame hfr name id hl
    obtain ⟨h0, e, he, hn⟩ := h3 frame hfr name id hl
    obtain ⟨e', he', -, hn', -⟩ := modify_keeps f hf n t.entries _ e he
    exact ⟨h0, e', he', by rw [hn', hn]⟩

theorem WellFormed.at_construction : WellFormed {} := by
  refine ⟨?_, rfl, ?_, by simp, rfl, rfl⟩
  · intro i e he; simp at he
  · intro frame hfr name id hl
    simp only [List.mem_singleton] at hfr
    rw [hfr] at hl
    simp [List.lookup] at hl

theorem WellFormed.after_step {t u : ParserSymbolTable} (hw : WellFormed t) (h : Step t u) :
    WellFormed u := by
  obtain ⟨h1, h2, h3, h4, h5, h6⟩ := hw
  cases h with
  | beginScope scopeName =>
      refine ⟨h1, h2, ?_, by simp [beginScope], by simp [beginScope, h5], ?_⟩
      · intro frame hfr name id hl
        simp only [beginScope, List.mem_cons] at hfr
        rcases hfr with rfl | hfr
        · simp [List.lookup] at hl
        · exact h3 frame hfr name id hl
      · simp only [beginScope]
        cases hs : t.scopeNames with
        | nil => rw [hs] at h6; simp at h6
        | cons a l => rw [hs] at h6; rw [List.getLast?_cons_cons]; exact h6
  | endScope =>
      unfold endScope
      split_ifs with hlen
      · cases hs : t.scopes with
        | nil => exact absurd hs h4
        | cons a l =>
          cases hn : t.scopeNames with
          | nil => rw [hs, hn] at h5; simp at h5
          | cons b m =>
            rw [hs] at hlen h5
            rw [hn] at h5 h6
            simp only [List.length_cons, gt_iff_lt, Nat.lt_add_left_iff_pos] at hlen
            simp only [List.length_cons, add_left_inj] at h5
            refine ⟨h1, h2, ?_, ?_, ?_, ?_⟩
            · intro frame hfr name id hl
              simp only [List.tail_cons] at hfr
              exact h3 frame (by rw [hs]; exact List.mem_cons_of_mem _ hfr) name id hl
            · simp only [List.tail_cons]
              intro e; rw [e] at hlen; simp at hlen
            · simp only [List.tail_cons]; exact h5
            · simp only [List.tail_cons]
              cases m with
              | nil => simp only [List.length_nil] at h5; omega
              | cons c m' => rw [List.getLast?_cons_cons] at h6; exact h6
      · exact ⟨h1, h2, h3, h4, h5, h6⟩
  | declare name type role value =>
      cases hb : (t.scopes.headD []).lookup name with
      | some id =>
          rw [declare_of_bound t name type role value id hb]
          exact WellFormed.modify_entries ⟨h1, h2, h3, h4, h5, h6⟩ _ (refineEntry_keeps type role value) _
      | none =>
          rw [declare_of_fresh t name type role value h4 hb]
          cases hs : t.scopes with
          | nil => exact absurd hs h4
          | cons cur outer =>
            refine ⟨?_, ?_, ?_, by simp, ?_, h6⟩
            · intro i e he
              simp only at he
              by_cases hlt : i < t.entries.length
              · rw [List.getElem?_append_left hlt] at he
                exact h1 i e he
              · rw [List.getElem?_append_right (by omega)] at he
                have hi : i - t.entries.length = 0 := by
                  by_contra hc
                  rw [List.getElem?_eq_none (by simp; omega)] at he
                  exact Option.noConfusion he
                rw [hi] at he
                simp only [List.getElem?_cons_zero, Option.some.injEq] at he
                rw [← he]
                simp only
                rw [h2]
                congr 1
                omega
            · simp only [List.length_append, List.length_singleton, Nat.cast_add, Nat.cast_one]
              rw [h2]
            · intro frame hfr n id hl
              simp only [List.headD_cons, List.tail_cons, List.mem_cons] at hfr
              have old : ∀ j : Int, (0 ≤ j ∧ ∃ e, t.entries[j.toNat]? = some e ∧ e.name = n) →
                  0 ≤ j ∧ ∃ e, (t.entries ++
                    [({ id := t.nextId, name := name, dataType := type, value := value,
                        role := role, scope := t.scopeNames.headD "" } :
                      ParserSymbolTableEntry)])[j.toNat]? = some e ∧ e.name = n := by
                rintro j ⟨h0, e, he, hn⟩
                refine ⟨h0, e, ?_, hn⟩
                have hlt : j.toNat < t.entries.length := by
                  by_contra hc
                  rw [List.getElem?_eq_none (by omega)] at he
                  exact Option.noConfusion he
                rw [List.getElem?_append_left hlt]
                exact he
              rcases hfr with rfl | hfr
              · rw [lookup_append_single] at hl
                cases hc : cur.lookup n with
                | some w =>
                    rw [hc] at hl
                    simp only [Option.some.injEq] at hl
                    subst hl
                    exact old w (h3 cur (by rw [hs]; exact List.mem_cons_self _ _) n w hc)
                | none =>
                    rw [hc] at hl
                    simp only at hl
                    split_ifs at hl with hnn
                    simp only [Option.some.injEq] at hl
                    subst hl
                    refine ⟨by rw [h2]; omega,
                      { id := t.nextId, name := name, dataType := type, value := value,
                        role := role, scope := t.scopeNames.headD "" }, ?_, hnn.symm⟩
                    rw [h2]
                    simp
              · exact old id (h3 frame (by rw [hs]; exact List.mem_cons_of_mem _ hfr) n id hl)
            · simp only [List.length_cons, List.tail_cons]
              rw [hs] at h5
              simpa using h5
  | updateType name type =>
      unfold updateType
      split
      · exact WellFormed.modify_entries ⟨h1, h2, h3, h4, h5, h6⟩ (fun e => { e with dataType := type })
          (fun _ => ⟨rfl, rfl, rfl⟩) _
      · exact ⟨h1, h2, h3, h4, h5, h6⟩
  | updateValue name value =>
      unfold updateValue
      split
      · exact WellFormed.modify_entries ⟨h1, h2, h3, h4, h5, h6⟩ (fun e => { e with value := value })
          (fun _ => ⟨rfl, rfl, rfl⟩) _
      · exact ⟨h1, h2, h3, h4, h5, h6⟩

theorem Reachable.wellFormed {t : ParserSymbolTable} (h : Reachable t) : WellFormed t := by
  induction h with
  | init => exact WellFormed.at_construction
  | step _ hs ih => exact ih.after_step hs

theorem modify_eq_set_of_get (f : ParserSymbolTableEntry → ParserSymbolTableEntry) (n : Nat)
    (l : List ParserSymbolTableEntry) (e : ParserSymbolTableEntry) (h : l[n]? = some e) :
    List.modify f n l = l.set n (f e) := by
  apply List.ext_getElem?
  intro i
  rw [List.getElem?_modify, List.getElem?_set]
  by_cases hn : n = i
  · subst hn
    have hlt : n < l.length := by
      by_contra hc
      rw [List.getElem?_eq_none (by omega)] at h
      exact Option.noConfusion h
    simp [h, hlt]
  · simp [hn]

theorem getCurrentScope_eq {t : ParserSymbolTable} (h : WellFormed t) :
    t.scopeNames.headD "" = t.getCurrentScope := by
  obtain ⟨-, -, -, h4, h5, -⟩ := h
  unfold getCurrentScope
  cases hn : t.scopeNames with
  | nil =>
      rw [hn] at h5
      exact absurd (List.length_eq_zero.mp h5) h4
  | cons a l => rfl

/-- C16. When `name` is already bound, to `id`, in the current (innermost) frame and `id`
is the index of the entry `e`, `declare(name, type, role, value)` allocates no entry and
changes only that entry: its dataType becomes `type` if and only if it was "unknown", its
role becomes `role`, its value becomes `value` if and only if `value` is not "unknown";
the id, the name and the scope of the entry, every other entry, the scope stack and the
rest of the table are unchanged. -/
theorem declare_refines_bound (t : ParserSymbolTable) (name type role value : String)
    (id : Int) (e : ParserSymbolTableEntry)
    (hb : (t.scopes.headD []).lookup name = some id) (_h0 : 0 ≤ id)
    (he : t.entries[id.toNat]? = some e) :
    t.declare name type role value =
      { t with
          entries := t.entries.set id.toNat
            { e with dataType := if e.dataType = "unknown" then type else e.dataType,
                     role := role,
                     value := if value ≠ "unknown" then value else e.value } } := by
  rw [declare_of_bound t name type role value id hb,
    modify_eq_set_of_get _ _ _ e he, refineEntry_eq]

/-- C17. In a reachable table, when `name` is not bound in the current frame,
`declare(name, type, role, value)` appends exactly one entry, whose id is the previous
number of entries and whose scope is the name of the current scope, binds `name` to that
id in the current frame only, and leaves the earlier entries and the outer frames as they
were, whether or not they bind the same name; the id differs from the id of every
earlier entry. -/
theorem declare_appends_fresh (t : ParserSymbolTable) (name type role value : String)
    (hr : Reachable t) (hb : (t.scopes.headD []).lookup name = none) :
    t.declare name type role value =
      { t with
          nextId := (t.entries.length : Int) + 1
          entries := t.entries ++
            [{ id := (t.entries.length : Int), name := name, dataType := type, value := value,
               role := role, scope := t.getCurrentScope }]
          nameToIds := noteId t.nameToIds name (t.entries.length : Int)
          scopes := (t.scopes.headD [] ++ [(name, (t.entries.length : Int))]) :: t.scopes.tail } ∧
    (t.scopes.headD [] ++ [(name, (t.entries.length : Int))]).lookup name =
      some (t.entries.length : Int) ∧
    ∀ e ∈ t.entries, e.id ≠ (t.entries.length : Int) := by
  have hw := hr.wellFormed
  obtain ⟨h1, h2, -, h4, -, -⟩ := hw
  refine ⟨?_, ?_, ?_⟩
  · rw [declare_of_fresh t name type role value h4 hb, h2, getCurrentScope_eq hr.wellFormed]
  · rw [lookup_append_single, hb]
    simp
  · intro e he
    obtain ⟨i, hi, rfl⟩ := List.getElem_of_mem he
    have := h1 i t.entries[i] (by simp [hi])
    rw [this]
    omega

/-- C18. The method `lookup` returns the id bound to `name` in the innermost live frame
that has the name, and -1 when no live frame has it. When that id is the index of the
entry `e`, `updateType` and `updateValue` overwrite the dataType, respectively the value,
of that entry and nothing else; when no live frame has the name they leave the table as
it is. -/
theorem lookup_innermost (t : ParserSymbolTable) (name : String) :
    (∀ id, BoundTo t name id →
      t.lookup name = id ∧
      ∀ e, 0 ≤ id → t.entries[id.toNat]? = some e → ∀ v,
        t.updateType name v =
          { t with entries := t.entries.set id.toNat { e with dataType := v } } ∧
        t.updateValue name v =
          { t with entries := t.entries.set id.toNat { e with value := v } }) ∧
    (Unbound t name →
      t.lookup name = -1 ∧ ∀ v, t.updateType name v = t ∧ t.updateValue name v = t) := by
  constructor
  · rintro id ⟨inner, frame, outer, hs, hin, hfr⟩
    have hf : findId name t.scopes = some id := by
      rw [hs]; exact findId_of_bound name id inner frame outer hin hfr
    refine ⟨by simp [lookup, hf], ?_⟩
    intro e _ he v
    constructor
    · simp only [updateType, hf]
      rw [modify_eq_set_of_get _ _ _ e he]
    · simp only [updateValue, hf]
      rw [modify_eq_set_of_get _ _ _ e he]
  · intro hu
    have hf : findId name t.scopes = none := findId_of_unbound name t.scopes hu
    refine ⟨by simp [lookup, hf], fun v => ⟨by simp [updateType, hf], by simp [updateValue, hf]⟩⟩

/-- C19. In every state of the table reachable from its construction by `beginScope`,
`endScope`, `declare`, `updateType` and `updateValue`: the id of the entry at index `i`
is `i` and `nextId` is the number of entries, so ids are given in allocation order and
never reused; every id bound in a live frame is the index of an entry that has the bound
name; the scope stack is not empty, has one label per frame, and its bottom label is
"global"; and no operation removes an entry or changes the id, the name or the scope of
an entry. -/
theorem reachable_invariant (t : ParserSymbolTable) (hr : Reachable t) :
    (∀ (i : Nat) e, t.entries[i]? = some e → e.id = (i : Int)) ∧
    t.nextId = (t.entries.length : Int) ∧
    (∀ frame ∈ t.scopes, ∀ name id, frame.lookup name = some id →
      0 ≤ id ∧ ∃ e, t.entries[id.toNat]? = some e ∧ e.name = name) ∧
    t.scopes ≠ [] ∧ t.scopes.length = t.scopeNames.length ∧
    t.scopeNames.getLast? = some "global" ∧
    ∀ u, Step t u → ∀ (i : Nat) e, t.entries[i]? = some e →
      ∃ e', u.entries[i]? = some e' ∧ e'.id = e.id ∧ e'.name = e.name ∧ e'.scope = e.scope := by
  obtain ⟨h1, h2, h3, h4, h5, h6⟩ := hr.wellFormed
  exact ⟨h1, h2, h3, h4, h5, h6, fun u hs => Keeps.by_step hs⟩

theorem declare_refines_bound_witness :
    (declaredTable.scopes.headD []).lookup "x" = some 0 ∧ (0 : Int) ≤ 0 ∧
    declaredTable.entries[(0 : Int).toNat]? =
      some { id := 0, name := "x", dataType := "unknown", value := "unknown",
             role := "variable", scope := "global" } ∧
    declaredTable.declare "x" "int" "variable" "2.000000" =
      { declaredTable with
          entries := declaredTable.entries.set (0 : Int).toNat
            { id := 0, name := "x", dataType := "int", value := "2.000000",
              role := "variable", scope := "global" } } :=
  ⟨rfl, le_refl _, rfl,
    declare_refines_bound declaredTable "x" "int" "variable" "2.000000" 0
      { id := 0, name := "x", dataType := "unknown", value := "unknown",
        role := "variable", scope := "global" } rfl (le_refl _) rfl⟩

theorem sampleTable_reachable : Reachable sampleTable :=
  .step (.step .init (.declare _ "x" "unknown" "variable" "unknown")) (.beginScope _ "if block")

theorem declare_appends_fresh_witness :
    Reachable sampleTable ∧ (sampleTable.scopes.headD []).lookup "x" = none ∧
    (sampleTable.declare "x" "int" "variable" "3.000000").entries =
      [{ id := 0, name := "x", dataType := "unknown", value := "unknown", role := "variable",
         scope := "global" },
       { id := 1, name := "x", dataType := "int", value := "3.000000", role := "variable",
         scope := "if block" }] :=
  ⟨sampleTable_reachable, rfl,
    (congrArg ParserSymbolTable.entries
      (declare_appends_fresh sampleTable "x" "int" "variable" "3.000000"
        sampleTable_reachable rfl).1).trans rfl⟩

theorem reachable_invariant_witness :
    Reachable sampleTable ∧
    (∀ (i : Nat) e, sampleTable.entries[i]? = some e → e.id = (i : Int)) ∧
    sampleTable.scopeNames = ["if block", "global"] :=
  ⟨sampleTable_reachable, (reachable_invariant sampleTable sampleTable_reachable).1, rfl⟩

end ParserSymbolTable

namespace Parser

/-- C12. For every BinaryOp with the operator `/` whose left operand folds to a text that
`std::stod` reads and whose right operand folds to a text that `std::stod` reads as zero
(of either sign), `evaluateExpression` returns exactly "DivisionByZeroError", whatever
the left number is: the branch returns before the division. In particular `x = 1/0`
stores that value for `x` and records no parse error. -/
theorem division_by_zero_text :
    (∀ (p : Parser) (op : Token) (l r : ASTNode) (left right : String) (a b : Dbl),
      op.value = "/" → p.evaluateExpression l = .ok left → p.evaluateExpression r = .ok right →
      stod left = some a → stod right = some b → b.isZero = true →
      p.evaluateExpression (BinaryOpNode op l r) = .ok "DivisionByZeroError") ∧
    (runParser (lexTokens scenarioDiv)).toOption.map
      (fun r => (r.2.errors, r.2.symbolTable.entries.map (fun e => (e.name, e.value)))) =
      some ([], [("x", "DivisionByZeroError")]) := by
  constructor
  · intro p op l r left right a b hop hl hr ha hb hz
    have hand : op.value ≠ "and" := by rw [hop]; decide
    have hor : op.value ≠ "or" := by rw [hop]; decide
    simp only [BinaryOpNode, evaluateExpression, hl, hr, evaluateBinary, hand, hor, if_false,
      ha, hb]
    simp [foldBinary, hop, hz]
  · decide!

/-! ## The shape of the trees -/

theorem shapedAll_append {a b : List ASTNode} (ha : ASTNode.shapedAll a = true)
    (hb : ASTNode.shapedAll b = true) : ASTNode.shapedAll (a ++ b) = true := by
  induction a with
  | nil => exact hb
  | cons c cs ih =>
      simp only [ASTNode.shapedAll, Bool.and_eq_true] at ha
      simp only [List.cons_append, ASTNode.shapedAll, Bool.and_eq_true]
      exact ⟨ha.1, ih ha.2⟩

theorem shapedAll_single {c : ASTNode} (h : c.shaped = true) : ASTNode.shapedAll [c] = true := by
  simp [ASTNode.shapedAll, h]

theorem shaped_binary (op : Token) {l r : ASTNode} (hl : l.shaped = true) (hr : r.shaped = true)
    (nl : l.isNull = false) (nr : r.isNull = false) : (BinaryOpNode op l r).shaped = true := by
  simp [BinaryOpNode, ASTNode.shaped, ASTNode.shapedAll, ASTNode.arityOK, hl, hr, nl, nr]

theorem shaped_unary (op : Token) {o : ASTNode} (ho : o.shaped = true) (no : o.isNull = false) :
    (UnaryOpNode op o).shaped = true := by
  simp [UnaryOpNode, ASTNode.shaped, ASTNode.shapedAll, ASTNode.arityOK, ho, no]

theorem shaped_identifier (t : Token) : (IdentifierNode t).shaped = true := by
  simp [IdentifierNode, ASTNode.shaped, ASTNode.shapedAll, ASTNode.arityOK]

theorem shaped_assign (t : Token) {v : ASTNode} (hv : v.shaped = true) (nv : v.isNull = false) :
    (AssignNode t (IdentifierNode t) v).shaped = true := by
  have hi : (ASTNode.node .Identifier t []).isNull = false := rfl
  simp [AssignNode, IdentifierNode, ASTNode.shaped, ASTNode.shapedAll, ASTNode.arityOK, hv, nv, hi]

theorem shaped_call (t : Token) {args : List ASTNode} (h : ASTNode.shapedAll args = true) :
    (CallNode t (IdentifierNode t) args).shaped = true := by
  simp [CallNode, IdentifierNode, ASTNode.shaped, ASTNode.shapedAll, ASTNode.arityOK, h]

theorem shaped_number {t : Token} {n : ASTNode} (h : NumberNode t = some n) : n.shaped = true := by
  unfold NumberNode at h
  cases hs : stod t.value with
  | none => rw [hs] at h; exact Option.noConfusion h
  | some v =>
      rw [hs] at h
      simp only [Option.some.injEq] at h
      rw [← h]
      simp [ASTNode.shaped, ASTNode.shapedAll, ASTNode.arityOK]

theorem not_null_binary (op : Token) (l r : ASTNode) : (BinaryOpNode op l r).isNull = false := rfl

theorem ShapedRes.of_null (q : Parser) : ShapedRes (.ok (.null, q)) := by
  intro n q' h
  simp only [Except.ok.injEq, Prod.mk.injEq] at h
  rw [← h.1]; rfl

theorem ShapedRes.of_ok {n : ASTNode} (q : Parser) (h : n.shaped = true) :
    ShapedRes (.ok (n, q)) := by
  intro n' q' e
  simp only [Except.ok.injEq, Prod.mk.injEq] at e
  rw [← e.1]; exact h

theorem ShapedRes.fault (f : Fault) : ShapedRes (.error f) := by
  intro n q h
  exact Except.noConfusion h

/-- A level of the precedence climb: the operand parser, then the loop. -/
theorem level_shaped {f sub : Nat → Parser → Res ASTNode}
    {loop : Nat → ASTNode → Parser → Res ASTNode} {fuel : Nat}
    (hunf : ∀ fuel p, f (fuel + 1) p =
      match sub fuel p with
      | .error e => .error e
      | .ok (node, p1) => if node.isNull then .ok (.null, p1) else loop fuel node p1)
    (hs : ExprShaped sub fuel) (hl : LoopShaped loop fuel) : ExprShaped f (fuel + 1) := by
  intro p
  rw [hunf]
  cases h1 : sub fuel p with
  | error e => exact ShapedRes.fault e
  | ok r =>
      obtain ⟨node, p1⟩ := r
      simp only
      split_ifs with hn
      · exact ShapedRes.of_null p1
      · exact hl node p1 (hs p node p1 h1) (by simpa using hn)

theorem level_shaped_op {f sub : Nat → Parser → Res ASTNode}
    {loop : Nat → Token → ASTNode → Parser → Res ASTNode} {fuel : Nat}
    (hunf : ∀ fuel p, f (fuel + 1) p =
      match sub fuel p with
      | .error e => .error e
      | .ok (node, p1) => if node.isNull then .ok (.null, p1) else loop fuel p1.currentToken node p1)
    (hs : ExprShaped sub fuel) (hl : OpLoopShaped loop fuel) : ExprShaped f (fuel + 1) := by
  intro p
  rw [hunf]
  cases h1 : sub fuel p with
  | error e => exact ShapedRes.fault e
  | ok r =>
      obtain ⟨node, p1⟩ := r
      simp only
      split_ifs with hn
      · exact ShapedRes.of_null p1
      · exact hl _ node p1 (hs p node p1 h1) (by simpa using hn)

theorem loop_shaped {loop : Nat → ASTNode → Parser → Res ASTNode}
    (sub : Nat → Parser → Res ASTNode) (test : Parser → Bool) (msg : String) {fuel : Nat}
    (hunf : ∀ fuel node p, loop (fuel + 1) node p =
      if test p then
        match sub fuel p.advance with
        | .error e => .error e
        | .ok (right, p1) =>
            if right.isNull then .ok (.null, p1.errorHere msg)
            else loop fuel (BinaryOpNode p.currentToken node right) p1
      else .ok (node, p))
    (hs : ExprShaped sub fuel) (ih : LoopShaped loop fuel) : LoopShaped loop (fuel + 1) := by
  intro node p hsh hnn
  rw [hunf]
  split_ifs with ht
  · cases h1 : sub fuel p.advance with
    | error e => exact ShapedRes.fault e
    | ok r =>
        obtain ⟨right, p1⟩ := r
        simp only
        split_ifs with hn
        · exact ShapedRes.of_null _
        · exact ih _ p1 (shaped_binary _ hsh (hs _ right p1 h1) hnn (by simpa using hn))
            (not_null_binary _ _ _)
  · exact ShapedRes.of_ok p hsh

theorem loop_shaped_op {loop : Nat → Token → ASTNode → Parser → Res ASTNode}
    (sub : Nat → Parser → Res ASTNode) (kw msg : String) {fuel : Nat}
    (hunf : ∀ fuel op node p, loop (fuel + 1) op node p =
      if (p.accept .Keyword kw).1 then
        match sub fuel (p.accept .Keyword kw).2 with
        | .error e => .error e
        | .ok (right, p1) =>
            if right.isNull then .ok (node, p1.errorHere msg)
            else loop fuel op (BinaryOpNode op node right) p1
      else .ok (node, p))
    (hs : ExprShaped sub fuel) (ih : OpLoopShaped loop fuel) : OpLoopShaped loop (fuel + 1) := by
  intro op node p hsh hnn
  rw [hunf]
  split_ifs with ht
  · cases h1 : sub fuel (p.accept .Keyword kw).2 with
    | error e => exact ShapedRes.fault e
    | ok r =>
        obtain ⟨right, p1⟩ := r
        simp only
        split_ifs with hn
        · exact ShapedRes.of_ok _ hsh
        · exact ih op _ p1 (shaped_binary _ hsh (hs _ right p1 h1) hnn (by simpa using hn))
            (not_null_binary _ _ _)
  · exact ShapedRes.of_ok p hsh

theorem parseFuncCall_shaped {fuel : Nat} (ha : ArgsShaped fuel) :
    ExprShaped parseFuncCall (fuel + 1) := by
  intro p
  unfold parseFuncCall
  simp only
  cases h1 : p.expect .Identifier "Expected function name" with
  | error e => exact ShapedRes.fault e
  | ok p1 =>
      simp only
      by_cases h2 : (p1.accept .Delimiter "(").1 = true
      · rw [if_neg (by simp [h2])]
        by_cases h3 : ((p1.accept .Delimiter "(").2.accept .Delimiter ")").1 = true
        · rw [if_pos h3]
          exact ShapedRes.of_ok _ (shaped_call _ (by rfl))
        · rw [if_neg h3]
          cases h4 : parseArgs fuel [] (p1.accept .Delimiter "(").2 with
          | error e => exact ShapedRes.fault e
          | ok r =>
              obtain ⟨args, p3⟩ := r
              simp only
              by_cases h5 : (p3.accept .Delimiter ")").1 = true
              · rw [if_neg (by simp [h5])]
                exact ShapedRes.of_ok _ (shaped_call _ (ha [] _ args p3 rfl h4))
              · rw [if_pos (by simpa using h5)]
                exact ShapedRes.of_null _
      · rw [if_pos (by simpa using h2)]
        exact ShapedRes.of_null _

theorem parsePrimary_shaped {fuel : Nat} (he : ExprShaped parseExpr fuel)
    (hfc : ExprShaped parseFuncCall fuel) : ExprShaped parsePrimary (fuel + 1) := by
  intro p
  unfold parsePrimary
  simp only
  split_ifs with h1 h2 h3 h4 h5 h6
  · cases hnum : NumberNode p.currentToken with
    | some nd => exact ShapedRes.of_ok _ (shaped_number hnum)
    | none => exact ShapedRes.of_null _
  · exact ShapedRes.of_ok _ (by simp [StringNode, ASTNode.shaped, ASTNode.shapedAll, ASTNode.arityOK])
  · exact ShapedRes.of_ok _ (by simp [BooleanNode, ASTNode.shaped, ASTNode.shapedAll, ASTNode.arityOK])
  · exact hfc p
  · exact ShapedRes.of_ok _ (shaped_identifier _)
  · cases h7 : parseExpr fuel (p.accept .Delimiter "(").2 with
    | error e => exact ShapedRes.fault e
    | ok r =>
        obtain ⟨expr, p1⟩ := r
        simp only
        cases h8 : p1.expect .Delimiter "Expected ')' after expression" ")" with
        | error e => exact ShapedRes.fault e
        | ok p2 => exact ShapedRes.of_ok _ (he _ expr p1 h7)
  · exact ShapedRes.of_null _

theorem parseUnary_shaped {fuel : Nat} (hu : ExprShaped parseUnary fuel)
    (hp : ExprShaped parsePrimary fuel) : ExprShaped parseUnary (fuel + 1) := by
  intro p
  unfold parseUnary
  simp only
  split_ifs with h
  · cases h1 : parseUnary fuel p.advance with
    | error e => exact ShapedRes.fault e
    | ok r =>
        obtain ⟨right, p1⟩ := r
        simp only
        split_ifs with hn
        · exact ShapedRes.of_null _
        · exact ShapedRes.of_ok _ (shaped_unary _ (hu _ right p1 h1) (by simpa using hn))
  · exact hp p

theorem parseExpr_shaped {fuel : Nat} (h : ExprShaped parseLogicalOr fuel) :
    ExprShaped parseExpr (fuel + 1) := by
  intro p
  unfold parseExpr
  split_ifs
  · exact ShapedRes.of_null _
  · exact h p

theorem parseArgs_shaped {fuel : Nat} (he : ExprShaped parseExpr fuel) (ih : ArgsShaped fuel) :
    ArgsShaped (fuel + 1) := by
  intro args p r q hsh h
  unfold parseArgs at h
  cases h1 : parseExpr fuel p with
  | error e => rw [h1] at h; exact Except.noConfusion h
  | ok x =>
      obtain ⟨arg, p1⟩ := x
      rw [h1] at h
      simp only at h
      split_ifs at h with h2 h3
      · simp only [Except.ok.injEq, Prod.mk.injEq] at h
        rw [← h.1]; exact hsh
      · exact ih _ _ r q (shapedAll_append hsh (shapedAll_single (he p arg p1 h1))) h
      · simp only [Except.ok.injEq, Prod.mk.injEq] at h
        rw [← h.1]
        exact shapedAll_append hsh (shapedAll_single (he p arg p1 h1))

theorem expr_shapes : ∀ fuel, ExprShapes fuel := by
  intro fuel
  induction fuel with
  | zero =>
      refine ⟨?_, ?_, ?_, ?_, ?_, ?_, ?_, ?_, ?_, ?_, ?_, ?_, ?_, ?_, ?_, ?_, ?_⟩
      all_goals first
        | (intro p n q h; simp [parseFuncCall, parsePrimary, parseUnary, parseFactor, parseTerm,
            parseRelational, parseEquality, parseLogicalAnd, parseLogicalOr, parseExpr] at h)
        | (intro node p _ _ n q h; simp [factorLoop, termLoop, relationalLoop, equalityLoop] at h)
        | (intro op node p _ _ n q h; simp [andLoop, orLoop] at h)
        | (intro args p r q _ h; simp [parseArgs] at h)
  | succ fuel ih =>
      have hfc := parseFuncCall_shaped ih.args
      have hpr := parsePrimary_shaped ih.expr ih.funcCall
      have hun := parseUnary_shaped ih.unary ih.primary
      have hfl : LoopShaped factorLoop (fuel + 1) :=
        loop_shaped parseUnary (fun p => p.isTok .Operator "*" || p.isTok .Operator "/" ||
            p.isTok .Operator "%")
          "Expected right-hand expression after operator"
          (fun fuel node p => by rw [factorLoop]) ih.unary ih.factorLoop
      have hfa : ExprShaped parseFactor (fuel + 1) :=
        level_shaped (fun fuel p => by rw [parseFactor]) ih.unary ih.factorLoop
      have htl : LoopShaped termLoop (fuel + 1) :=
        loop_shaped parseFactor (fun p => p.isTok .Operator "+" || p.isTok .Operator "-")
          "Expected right-hand expression after operator"
          (fun fuel node p => by rw [termLoop]) ih.factor ih.termLoop
      have hte : ExprShaped parseTerm (fuel + 1) :=
        level_shaped (fun fuel p => by rw [parseTerm]) ih.factor ih.termLoop
      have hrl : LoopShaped relationalLoop (fuel + 1) :=
        loop_shaped parseTerm (fun p => p.isTok .Operator "<" || p.isTok .Operator ">" ||
            p.isTok .Operator "<=" || p.isTok .Operator ">=")
          "Expected right-hand expression after comparison"
          (fun fuel node p => by rw [relationalLoop]) ih.term ih.relationalLoop
      have hre : ExprShaped parseRelational (fuel + 1) :=
        level_shaped (fun fuel p => by rw [parseRelational]) ih.term ih.relationalLoop
      have hel : LoopShaped equalityLoop (fuel + 1) :=
        loop_shaped parseRelational (fun p => p.isTok .Operator "==" || p.isTok .Operator "!=")
          "Expected right-hand expression after operator"
          (fun fuel node p => by rw [equalityLoop]) ih.relational ih.equalityLoop
      have heq : ExprShaped parseEquality (fuel + 1) :=
        level_shaped (fun fuel p => by rw [parseEquality]) ih.relational ih.equalityLoop
      have hal : OpLoopShaped andLoop (fuel + 1) :=
        loop_shaped_op parseEquality "and" "Expected right-hand expression after 'and'"
          (fun fuel op node p => by rw [andLoop]) ih.equality ih.andLoop
      have han : ExprShaped parseLogicalAnd (fuel + 1) :=
        level_shaped_op (fun fuel p => by rw [parseLogicalAnd]) ih.equality ih.andLoop
      have hol : OpLoopShaped orLoop (fuel + 1) :=
        loop_shaped_op parseLogicalAnd "or" "Expected right-hand expression after 'or'"
          (fun fuel op node p => by rw [orLoop]) ih.logicalAnd ih.orLoop
      have hor : ExprShaped parseLogicalOr (fuel + 1) :=
        level_shaped_op (fun fuel p => by rw [parseLogicalOr]) ih.logicalAnd ih.orLoop
      exact ⟨hfc, hpr, hun, hfl, hfa, htl, hte, hrl, hre, hel, heq, hal, han, hol, hor,
        parseExpr_shaped ih.logicalOr, parseArgs_shaped ih.expr ih.args⟩

theorem shaped_block (t : Token) {cs : List ASTNode} (h : ASTNode.shapedAll cs = true) :
    (BlockNode t cs).shaped = true := by
  simp [BlockNode, ASTNode.shaped, ASTNode.arityOK, h]

theorem shaped_elif (t : Token) {c b : ASTNode} (hc : c.shaped = true) (hb : b.shaped = true) :
    (ElifNode t c b).shaped = true := by
  simp [ElifNode, ASTNode.shaped, ASTNode.shapedAll, ASTNode.arityOK, hc, hb]

theorem shaped_if (t : Token) {c b e : ASTNode} {elifs : List ASTNode} (hc : c.shaped = true)
    (hb : b.shaped = true) (he : e.shaped = true) (hs : ASTNode.shapedAll elifs = true) :
    (IfNode t c b e elifs).shaped = true := by
  have h1 : ASTNode.shapedAll (if e.isNull then [] else [e]) = true := by
    split_ifs
    · rfl
    · exact shapedAll_single he
  have h2 : ASTNode.shapedAll ([c, b] ++ elifs ++ (if e.isNull then [] else [e])) = true :=
    shapedAll_append (shapedAll_append (by simp [ASTNode.shapedAll, hc, hb]) hs) h1
  simp only [IfNode, ASTNode.shaped, ASTNode.arityOK, Bool.true_and]
  exact h2

theorem shaped_for (t : Token) {v i b : ASTNode} (hv : v.shaped = true) (hi : i.shaped = true)
    (hb : b.shaped = true) : (ForNode t v i b).shaped = true := by
  simp [ForNode, ASTNode.shaped, ASTNode.shapedAll, ASTNode.arityOK, hv, hi, hb]

theorem shaped_while (t : Token) {c b : ASTNode} (hc : c.shaped = true) (hb : b.shaped = true) :
    (WhileNode t c b).shaped = true := by
  simp [WhileNode, ASTNode.shaped, ASTNode.shapedAll, ASTNode.arityOK, hc, hb]

theorem shaped_funcDef (t : Token) (name : String) (params : List String) {b : ASTNode}
    (hb : b.shaped = true) : (FunctionDefNode t name params b).shaped = true := by
  simp [FunctionDefNode, IdentifierNode, ASTNode.shaped, ASTNode.shapedAll, ASTNode.arityOK, hb]

theorem shaped_return (t : Token) {v : ASTNode} (hv : v.shaped = true) :
    (ReturnNode t v).shaped = true := by
  unfold ReturnNode
  split_ifs
  · simp [ASTNode.shaped, ASTNode.shapedAll, ASTNode.arityOK]
  · simp [ASTNode.shaped, ASTNode.shapedAll, ASTNode.arityOK, hv]

theorem shaped_program {cs : List ASTNode} (h : ASTNode.shapedAll cs = true) :
    (ProgramNode cs).shaped = true := by
  simp [ProgramNode, ASTNode.shaped, ASTNode.arityOK, h]

theorem parseAssignStmt_shaped (fuel : Nat) : StmtShaped parseAssignStmt fuel := by
  intro p
  unfold parseAssignStmt
  simp only
  cases h1 : p.expect .Identifier "Expected identifier for assignment" with
  | error e => exact ShapedRes.fault e
  | ok p1 =>
      simp only
      cases h2 : (if p1.currentToken.type = .Operator ∧ p1.currentToken.value = "=" then
             p1.expect .Operator "Expected '=' in assignment" "="
           else p1.expect .Assignment "Expected '=' in assignment" "=") with
      | error e => exact ShapedRes.fault e
      | ok p2 =>
          simp only
          cases h3 : parseExpr fuel p2 with
          | error e => exact ShapedRes.fault e
          | ok r =>
              obtain ⟨expr, p3⟩ := r
              simp only
              by_cases hn : expr.isNull = true
              · rw [if_pos hn]
                exact ShapedRes.of_null _
              · rw [if_neg hn]
                cases h4 : p3.evaluateExpression expr with
                | error e => exact ShapedRes.fault e
                | ok value =>
                    exact ShapedRes.of_ok _
                      (shaped_assign _ ((expr_shapes fuel).expr p2 expr p3 h3) (by simpa using hn))

theorem parseReturnStmt_shaped (fuel : Nat) : StmtShaped parseReturnStmt fuel := by
  intro p
  unfold parseReturnStmt
  simp only
  cases h1 : p.expect .Keyword "Expected 'return' keyword" "return" with
  | error e => exact ShapedRes.fault e
  | ok p1 =>
      simp only
      cases h3 : parseExpr fuel p1 with
      | error e => exact ShapedRes.fault e
      | ok r =>
          obtain ⟨expr, p2⟩ := r
          exact ShapedRes.of_ok _ (shaped_return _ ((expr_shapes fuel).expr p1 expr p2 h3))

theorem parseFuncCallStmt_shaped (fuel : Nat) : StmtShaped parseFuncCallStmt fuel := by
  intro p
  unfold parseFuncCallStmt
  simp only
  cases h1 : p.expect .Identifier "Expected identifier for function call" with
  | error e => exact ShapedRes.fault e
  | ok p1 =>
      simp only
      cases h2 : p1.expect .Delimiter "Expected '(' in function call" "(" with
      | error e => exact ShapedRes.fault e
      | ok p2 =>
          simp only
          have key : ∀ r, (if (p2.accept .Delimiter ")").1 then
               (.ok ([], (p2.accept .Delimiter ")").2) : Res (List ASTNode))
             else
               match parseArgs fuel [] p2 with
               | .error f => .error f
               | .ok (args, p3) =>
                   match p3.expect .Delimiter "Expected ')' after arguments" ")" with
                   | .error f => .error f
                   | .ok p4 => .ok (args, p4)) = r →
              ∀ args q, r = .ok (args, q) → ASTNode.shapedAll args = true := by
            intro r hr args q hq
            subst hr
            split_ifs at hq with h3
            · simp only [Except.ok.injEq, Prod.mk.injEq] at hq
              rw [← hq.1]; rfl
            · cases h4 : parseArgs fuel [] p2 with
              | error e => rw [h4] at hq; exact Except.noConfusion hq
              | ok x =>
                  obtain ⟨as, p3⟩ := x
                  rw [h4] at hq
                  simp only at hq
                  cases h5 : p3.expect .Delimiter "Expected ')' after arguments" ")" with
                  | error e => rw [h5] at hq; exact Except.noConfusion hq
                  | ok p4 =>
                      rw [h5] at hq
                      simp only [Except.ok.injEq, Prod.mk.injEq] at hq
                      rw [← hq.1]
                      exact (expr_shapes fuel).args [] p2 as p3 rfl h4
          split
          · exact ShapedRes.fault _
          · rename_i args p5 heq
            exact ShapedRes.of_ok _ (shaped_call _ (key _ heq args p5 rfl))

theorem parseStmt_shaped {fuel : Nat} (ih : StmtShapes fuel) : StmtShaped parseStmt (fuel + 1) := by
  intro p
  unfold parseStmt
  by_cases h1 : p.currentToken.type = .EOFToken
  · rw [if_pos h1]; exact ShapedRes.of_null _
  rw [if_neg h1]
  by_cases h2 : p.currentToken.type = .Identifier ∧ ¬ p.isValidStatementStart
  · rw [if_pos h2]; exact ShapedRes.of_null _
  rw [if_neg h2]
  split
  · split_ifs
    · exact ih.ifS p
    · exact ih.whileS p
    · exact ih.defS p
    · exact parseReturnStmt_shaped fuel p
    · exact ih.forS p
    · exact ShapedRes.of_null _
    · split
      · exact ShapedRes.fault _
      · exact ShapedRes.of_null _
    · exact ShapedRes.of_null _
  · split_ifs
    · exact parseFuncCallStmt_shaped fuel p
    · exact parseAssignStmt_shaped fuel p
  · exact ShapedRes.of_null _

theorem blockLoop_shaped {fuel : Nat} (ih : StmtShapes fuel) : BlockLoopShaped (fuel + 1) := by
  intro b lvl cs p r q hcs h
  unfold blockLoop at h
  by_cases h1 : p.currentToken.type = .EOFToken
  · rw [if_pos h1] at h
    simp only [Except.ok.injEq, Prod.mk.injEq] at h
    rw [← h.1]; exact hcs
  rw [if_neg h1] at h
  by_cases h2 : p.currentToken.type = .Indent
  · rw [if_pos h2] at h
    cases h3 : stoi p.currentToken.value with
    | none => rw [h3] at h; exact Except.noConfusion h
    | some level =>
        rw [h3] at h
        simp only at h
        by_cases h4 : level ≥ lvl
        · rw [if_pos h4] at h
          cases h5 : p.expectIndent lvl with
          | error e => rw [h5] at h; exact Except.noConfusion h
          | ok p1 =>
              rw [h5] at h
              exact ih.loop b lvl cs p1 r q hcs h
        · rw [if_neg h4] at h
          simp only [Except.ok.injEq, Prod.mk.injEq] at h
          rw [← h.1]; exact hcs
  · rw [if_neg h2] at h
    cases h3 : parseStmt fuel p with
    | error e => rw [h3] at h; exact Except.noConfusion h
    | ok x =>
        obtain ⟨stmt, p1⟩ := x
        rw [h3] at h
        simp only at h
        by_cases h4 : stmt.isNull = true
        · rw [if_neg (by simp [h4])] at h
          by_cases h5 : b = true
          · rw [if_pos h5] at h
            simp only [Except.ok.injEq, Prod.mk.injEq] at h
            rw [← h.1]; exact hcs
          · rw [if_neg h5] at h
            exact ih.loop b lvl cs p1 r q hcs h
        · rw [if_pos (by simpa using h4)] at h
          exact ih.loop b lvl _ p1 r q
            (shapedAll_append hcs (shapedAll_single (ih.stmt p stmt p1 h3))) h

theorem parseBlockBody_shaped {fuel : Nat} (ih : StmtShapes fuel) (b : Bool) (lvl : Int) :
    StmtShaped (fun fuel p => parseBlockBody fuel b lvl p) (fuel + 1) := by
  intro p
  show ShapedRes (parseBlockBody (fuel + 1) b lvl p)
  unfold parseBlockBody
  simp only
  cases h1 : blockLoop fuel b lvl [] p with
  | error e => exact ShapedRes.fault e
  | ok x =>
      obtain ⟨children, p1⟩ := x
      simp only
      cases h2 : (p1.withTable p1.symbolTable.endScope).popIndent with
      | error e => exact ShapedRes.fault e
      | ok p2 => exact ShapedRes.of_ok _ (shaped_block _ (ih.loop b lvl [] p children p1 rfl h1))

theorem elifLoop_shaped {fuel : Nat} (ih : StmtShapes fuel) : ElifLoopShaped (fuel + 1) := by
  intro lvl cs p r q hcs h
  unfold elifLoop at h
  split at h
  · exact Except.noConfusion h
  · simp only [Except.ok.injEq, Prod.mk.injEq] at h
    rw [← h.1]; exact hcs
  · rename_i p0 _
    by_cases h1 : p0.currentToken.type ≠ .Keyword ∨ p0.currentToken.value ≠ "elif"
    · rw [if_pos h1] at h
      simp only [Except.ok.injEq, Prod.mk.injEq] at h
      rw [← h.1]; exact hcs
    · rw [if_neg h1] at h
      simp only at h
      cases h2 : p0.expect .Keyword "Expected 'elif' keyword" "elif" with
      | error e => rw [h2] at h; exact Except.noConfusion h
      | ok p1 =>
        rw [h2] at h
        simp only at h
        cases h3 : parseExpr fuel p1 with
        | error e => rw [h3] at h; exact Except.noConfusion h
        | ok x =>
          obtain ⟨cond, p2⟩ := x
          rw [h3] at h
          simp only at h
          cases h4 : p2.expect .Delimiter "Expected ':' after elif condition" ":" with
          | error e => rw [h4] at h; exact Except.noConfusion h
          | ok p3 =>
            rw [h4] at h
            simp only at h
            cases h5 : (p3.pushIndent (lvl + 1)).expectIndent (lvl + 1) with
            | error e => rw [h5] at h; exact Except.noConfusion h
            | ok p4 =>
              rw [h5] at h
              simp only at h
              cases h6 : parseBlockBody fuel false (lvl + 1)
                  (p4.withTable (p4.symbolTable.beginScope "elif block")) with
              | error e => rw [h6] at h; exact Except.noConfusion h
              | ok y =>
                obtain ⟨blk, p5⟩ := y
                rw [h6] at h
                simp only at h
                exact ih.elifs lvl _ p5 r q
                  (shapedAll_append hcs (shapedAll_single
                    (shaped_elif _ ((expr_shapes fuel).expr p1 cond p2 h3)
                      (ih.body false (lvl + 1) _ blk p5 h6)))) h

theorem parseElseStmt_shaped {fuel : Nat} (ih : StmtShapes fuel) :
    StmtShaped parseElseStmt (fuel + 1) := by
  intro p
  unfold parseElseStmt
  cases h1 : p.expect .Keyword "Expected 'else' keyword" "else" with
  | error e => exact ShapedRes.fault e
  | ok p1 =>
    simp only
    cases h2 : p1.expect .Delimiter "Expected ':' after else" ":" with
    | error e => exact ShapedRes.fault e
    | ok p2 =>
      simp only
      cases h3 : (p2.pushIndent (p2.currentIndent + 1)).expectIndent (p2.currentIndent + 1) with
      | error e => exact ShapedRes.fault e
      | ok p3 => exact ih.body false _ _

theorem parseIfStmt_shaped {fuel : Nat} (ih : StmtShapes fuel) :
    StmtShaped parseIfStmt (fuel + 1) := by
  intro p
  unfold parseIfStmt
  simp only
  cases h1 : p.expect .Keyword "Expected 'if' keyword" "if" with
  | error e => exact ShapedRes.fault e
  | ok p1 =>
    simp only
    cases h2 : parseExpr fuel p1 with
    | error e => exact ShapedRes.fault e
    | ok x =>
      obtain ⟨cond, p2⟩ := x
      simp only
      cases h3 : p2.expect .Delimiter "Expected ':' after if condition" ":" with
      | error e => exact ShapedRes.fault e
      | ok p3 =>
        simp only
        cases h4 : (p3.pushIndent (p3.currentIndent + 1)).expectIndent (p3.currentIndent + 1) with
        | error e => exact ShapedRes.fault e
        | ok p4 =>
          simp only
          cases h5 : parseBlockBody fuel true (p3.currentIndent + 1)
              (p4.withTable (p4.symbolTable.beginScope "if block")) with
          | error e => exact ShapedRes.fault e
          | ok y =>
            obtain ⟨thenBlock, p5⟩ := y
            simp only
            cases h6 : elifLoop fuel p3.currentIndent [] p5 with
            | error e => exact ShapedRes.fault e
            | ok z =>
              obtain ⟨elifs, p6⟩ := z
              simp only
              have key : ∀ w, (if p6.currentToken.type = .Indent then
                           match stoi p6.currentToken.value with
                           | none => (.error .exception : Res ASTNode)
                           | some currentIndent =>
                               if currentIndent = p3.currentIndent then
                                 if p6.advance.currentToken.type = .Keyword ∧
                                    p6.advance.currentToken.value = "else" then
                                   parseElseStmt fuel p6.advance
                                 else .ok (.null, p6.advance)
                               else .ok (.null, p6)
                         else if p6.currentToken.type = .Keyword ∧ p6.currentToken.value = "else" then
                           parseElseStmt fuel p6
                         else .ok (.null, p6)) = w → ShapedRes w := by
                intro w hw
                subst hw
                by_cases c1 : p6.currentToken.type = .Indent
                · rw [if_pos c1]
                  cases stoi p6.currentToken.value with
                  | none => exact ShapedRes.fault _
                  | some currentIndent =>
                      simp only
                      by_cases c2 : currentIndent = p3.currentIndent
                      · rw [if_pos c2]
                        by_cases c3 : p6.advance.currentToken.type = .Keyword ∧
                            p6.advance.currentToken.value = "else"
                        · rw [if_pos c3]; exact ih.elseS _
                        · rw [if_neg c3]; exact ShapedRes.of_null _
                      · rw [if_neg c2]; exact ShapedRes.of_null _
                · rw [if_neg c1]
                  by_cases c4 : p6.currentToken.type = .Keyword ∧ p6.currentToken.value = "else"
                  · rw [if_pos c4]; exact ih.elseS _
                  · rw [if_neg c4]; exact ShapedRes.of_null _
              split
              · exact ShapedRes.fault _
              · rename_i elseBlock p7 heq
                exact ShapedRes.of_ok _ (shaped_if _ ((expr_shapes fuel).expr p1 cond p2 h2)
                  (ih.body true _ _ thenBlock p5 h5) (key _ heq elseBlock p7 rfl)
                  (ih.elifs _ [] p5 elifs p6 rfl h6))

theorem parseForStmt_shaped {fuel : Nat} (ih : StmtShapes fuel) :
    StmtShaped parseForStmt (fuel + 1) := by
  intro p
  unfold parseForStmt
  simp only
  cases h1 : p.expect .Keyword "Expected 'for' keyword" "for" with
  | error e => exact ShapedRes.fault e
  | ok p1 =>
    simp only
    cases h2 : parsePrimary fuel p1 with
    | error e => exact ShapedRes.fault e
    | ok x =>
      obtain ⟨var, p2⟩ := x
      simp only
      by_cases hv : var.getNodeType ≠ "Identifier"
      · rw [if_pos hv]; exact ShapedRes.of_null _
      rw [if_neg hv]
      cases h3 : p2.expect .Keyword "Expected 'in' after loop variable" "in" with
      | error e => exact ShapedRes.fault e
      | ok p3 =>
        simp only
        cases h4 : parseExpr fuel p3 with
        | error e => exact ShapedRes.fault e
        | ok y =>
          obtain ⟨iter, p4⟩ := y
          simp only
          by_cases hi : iter.isNull = true
          · rw [if_pos hi]; exact ShapedRes.of_null _
          rw [if_neg hi]
          cases h5 : p4.expect .Delimiter "Expected ':' after for loop header" ":" with
          | error e => exact ShapedRes.fault e
          | ok p5 =>
            simp only
            cases h6 : (p5.pushIndent (p5.currentIndent + 1)).expectIndent (p5.currentIndent + 1) with
            | error e => exact ShapedRes.fault e
            | ok p6 =>
              simp only
              cases h7 : parseBlockBody fuel false (p5.currentIndent + 1)
                  (p6.withTable (p6.symbolTable.beginScope "for loop")) with
              | error e => exact ShapedRes.fault e
              | ok z =>
                obtain ⟨body, p7⟩ := z
                exact ShapedRes.of_ok _ (shaped_for _ ((expr_shapes fuel).primary p1 var p2 h2)
                  ((expr_shapes fuel).expr p3 iter p4 h4) (ih.body false _ _ body p7 h7))

theorem parseWhileStmt_shaped {fuel : Nat} (ih : StmtShapes fuel) :
    StmtShaped parseWhileStmt (fuel + 1) := by
  intro p
  unfold parseWhileStmt
  simp only
  cases h1 : p.expect .Keyword "Expected 'while' keyword" "while" with
  | error e => exact ShapedRes.fault e
  | ok p1 =>
    simp only
    cases h2 : parseExpr fuel p1 with
    | error e => exact ShapedRes.fault e
    | ok x =>
      obtain ⟨cond, p2⟩ := x
      simp only
      cases h3 : p2.expect .Delimiter "Expected ':' after while condition" ":" with
      | error e => exact ShapedRes.fault e
      | ok p3 =>
        simp only
        cases h4 : (p3.pushIndent (p3.currentIndent + 1)).expectIndent (p3.currentIndent + 1) with
        | error e => exact ShapedRes.fault e
        | ok p4 =>
          simp only
          cases h5 : parseBlockBody fuel false (p3.currentIndent + 1)
              (p4.withTable (p4.symbolTable.beginScope "while block")) with
          | error e => exact ShapedRes.fault e
          | ok y =>
            obtain ⟨body, p5⟩ := y
            exact ShapedRes.of_ok _ (shaped_while _ ((expr_shapes fuel).expr p1 cond p2 h2)
              (ih.body false _ _ body p5 h5))

theorem parseFuncDef_shaped {fuel : Nat} (ih : StmtShapes fuel) :
    StmtShaped parseFuncDef (fuel + 1) := by
  intro p
  unfold parseFuncDef
  simp only
  cases h1 : p.expect .Keyword "Expected 'def' keyword" "def" with
  | error e => exact ShapedRes.fault e
  | ok p1 =>
    simp only
    cases h2 : p1.expect .Identifier "Expected function name after 'def'" with
    | error e => exact ShapedRes.fault e
    | ok p2 =>
      simp only
      split
      · exact ShapedRes.fault _
      · split
        · exact ShapedRes.fault _
        · split
          · exact ShapedRes.fault _
          · split
            · exact ShapedRes.fault _
            · split
              · exact ShapedRes.fault _
              · rename_i p8 _
                cases h9 : parseBlockBody fuel false _ p8 with
                | error e => exact ShapedRes.fault e
                | ok y =>
                  obtain ⟨body, p9⟩ := y
                  exact ShapedRes.of_ok _ (shaped_funcDef _ _ _ (ih.body false _ _ body p9 h9))

theorem stmt_shapes : ∀ fuel, StmtShapes fuel := by
  intro fuel
  induction fuel with
  | zero =>
      refine ⟨?_, ?_, ?_, ?_, ?_, ?_, ?_, ?_, ?_⟩
      · intro p n q h; simp [parseStmt] at h
      · intro b lvl cs p r q _ h; simp [blockLoop] at h
      · intro b lvl p n q h; simp [parseBlockBody] at h
      · intro lvl cs p r q _ h; simp [elifLoop] at h
      · intro p n q h; simp [parseElseStmt] at h
      · intro p n q h; simp [parseIfStmt] at h
      · intro p n q h; simp [parseForStmt] at h
      · intro p n q h; simp [parseWhileStmt] at h
      · intro p n q h; simp [parseFuncDef] at h
  | succ fuel ih =>
      exact ⟨parseStmt_shaped ih, blockLoop_shaped ih, parseBlockBody_shaped ih,
        elifLoop_shaped ih, parseElseStmt_shaped ih, parseIfStmt_shaped ih,
        parseForStmt_shaped ih, parseWhileStmt_shaped ih, parseFuncDef_shaped ih⟩

theorem programLoop_shaped : ∀ (fuel : Nat) (cs : List ASTNode) (p : Parser) (r : List ASTNode)
    (q : Parser), ASTNode.shapedAll cs = true → programLoop fuel cs p = .ok (r, q) →
    ASTNode.shapedAll r = true := by
  intro fuel
  induction fuel with
  | zero => intro cs p r q _ h; simp [programLoop] at h
  | succ fuel ih =>
      intro cs p r q hcs h
      unfold programLoop at h
      by_cases h1 : p.currentToken.type = .EOFToken
      · rw [if_pos h1] at h
        simp only [Except.ok.injEq, Prod.mk.injEq] at h
        rw [← h.1]; exact hcs
      rw [if_neg h1] at h
      cases h2 : (if p.currentToken.type = .Indent then p.expectIndent 0 else .ok p) with
      | error e => rw [h2] at h; exact Except.noConfusion h
      | ok p1 =>
          rw [h2] at h
          simp only at h
          cases h3 : parseStmt fuel p1 with
          | error e => rw [h3] at h; exact Except.noConfusion h
          | ok x =>
              obtain ⟨stmt, p2⟩ := x
              rw [h3] at h
              simp only at h
              refine ih _ p2 r q ?_ h
              split_ifs
              · exact hcs
              · exact shapedAll_append hcs (shapedAll_single ((stmt_shapes fuel).stmt p1 stmt p2 h3))

theorem shaped_of_mem {cs : List ASTNode} (h : ASTNode.shapedAll cs = true) {c : ASTNode}
    (hc : c ∈ cs) : c.shaped = true := by
  induction cs with
  | nil => simp at hc
  | cons d ds ih =>
      simp only [ASTNode.shapedAll, Bool.and_eq_true] at h
      rcases List.mem_cons.mp hc with rfl | hm
      · exact h.1
      · exact ih h.2 hm

theorem shaped_inside {n tree : ASTNode} (hi : ASTNode.Inside n tree) :
    tree.shaped = true → n.shaped = true := by
  induction hi with
  | self => exact id
  | child hc _ ih =>
      intro h
      simp only [ASTNode.shaped, Bool.and_eq_true] at h
      exact ih (shaped_of_mem h.2 hc)

theorem arity_of_shaped {k : NodeKind} {t : Token} {cs : List ASTNode}
    (h : (ASTNode.node k t cs).shaped = true) :
    (k = .BinaryOp → cs.length = 2 ∧ ∀ c ∈ cs, c.isNull = false) ∧
    (k = .UnaryOp → cs.length = 1 ∧ ∀ c ∈ cs, c.isNull = false) ∧
    (k = .Assign → cs.length = 2 ∧ ∀ c ∈ cs, c.isNull = false) := by
  simp only [ASTNode.shaped, Bool.and_eq_true] at h
  have ha := h.1
  refine ⟨?_, ?_, ?_⟩ <;>
  · intro hk
    subst hk
    simp only [ASTNode.arityOK, Bool.and_eq_true, beq_iff_eq, List.all_eq_true,
      Bool.not_eq_true'] at ha
    exact ha

/-- C13. In the tree that `parseProgram` returns on a token list, whatever the list,
every BinaryOp node has exactly two children, every UnaryOp node exactly one and every
Assign node exactly two, and none of those children is null. -/
theorem operator_node_arity (tokens : List Token) (tree : ASTNode) (q : Parser)
    (h : runParser tokens = .ok (tree, q)) (k : NodeKind) (t : Token) (cs : List ASTNode)
    (hin : ASTNode.Inside (.node k t cs) tree) :
    (k = .BinaryOp → cs.length = 2 ∧ ∀ c ∈ cs, c.isNull = false) ∧
    (k = .UnaryOp → cs.length = 1 ∧ ∀ c ∈ cs, c.isNull = false) ∧
    (k = .Assign → cs.length = 2 ∧ ∀ c ∈ cs, c.isNull = false) := by
  have hs : tree.shaped = true := by
    unfold runParser parseProgram at h
    cases h1 : programLoop (parseFuel tokens) [] (Parser.new tokens {}) with
    | error e => rw [h1] at h; exact Except.noConfusion h
    | ok x =>
        obtain ⟨children, p1⟩ := x
        rw [h1] at h
        simp only [Except.ok.injEq, Prod.mk.injEq] at h
        rw [← h.1]
        exact shaped_program (programLoop_shaped _ [] _ children p1 rfl h1)
  exact arity_of_shaped (shaped_inside hin hs)

theorem operator_node_arity_witness :
    runParser (lexTokens scenarioFold) = .ok (foldRun.1, foldRun.2) ∧
    ASTNode.Inside (.node .BinaryOp (tok .Operator "+" 1 7)
      [.node (.Number (.fin false 4503599627370496 (-52)) "int") (tok .Number "1" 1 5) [],
       .node (.Number (.fin false 4503599627370496 (-51)) "int") (tok .Number "2" 1 9) []])
      foldRun.1 ∧
    ((NodeKind.BinaryOp = .BinaryOp →
      [ASTNode.node (.Number (.fin false 4503599627370496 (-52)) "int") (tok .Number "1" 1 5) [],
       ASTNode.node (.Number (.fin false 4503599627370496 (-51)) "int") (tok .Number "2" 1 9) []].length
        = 2 ∧
      ∀ c ∈ [ASTNode.node (.Number (.fin false 4503599627370496 (-52)) "int") (tok .Number "1" 1 5) [],
       ASTNode.node (.Number (.fin false 4503599627370496 (-51)) "int") (tok .Number "2" 1 9) []],
        c.isNull = false)) :=
  have h : runParser (lexTokens scenarioFold) = .ok (foldRun.1, foldRun.2) := rfl
  have e : foldRun.1 = ProgramNode [AssignNode (symTok .Identifier "x" 1 1 0)
        (IdentifierNode (symTok .Identifier "x" 1 1 0))
        (BinaryOpNode (tok .Operator "+" 1 7)
          (.node (.Number (.fin false 4503599627370496 (-52)) "int") (tok .Number "1" 1 5) [])
          (.node (.Number (.fin false 4503599627370496 (-51)) "int") (tok .Number "2" 1 9) []))] :=
    rfl
  have hin : ASTNode.Inside (.node .BinaryOp (tok .Operator "+" 1 7)
      [.node (.Number (.fin false 4503599627370496 (-52)) "int") (tok .Number "1" 1 5) [],
       .node (.Number (.fin false 4503599627370496 (-51)) "int") (tok .Number "2" 1 9) []])
      foldRun.1 := by
    rw [e]
    exact .child (List.mem_singleton.mpr rfl)
      (.child (List.mem_cons_of_mem _ (List.mem_singleton.mpr rfl)) .self)
  ⟨h, hin, (operator_node_arity _ _ _ h .BinaryOp _ _ hin).1⟩

end Parser

namespace Parser

/-! ## Precedence and associativity -/

theorem Returns.more_fuel {f : Nat → Parser → Res ASTNode} {p q : Parser} {e : ASTNode} {k : Nat}
    (h : ∀ fuel, k ≤ fuel → f fuel p = .ok (e, q)) : Returns f p e q := ⟨k, h⟩

/-- The loop of a level stops at a token that is not an operator of the level. -/
theorem loop_stop {loop : Nat → ASTNode → Parser → Res ASTNode}
    {sub : Nat → Parser → Res ASTNode} {test : Parser → Bool} {msg : String}
    (hunf : ∀ fuel node p, loop (fuel + 1) node p =
      if test p then
        match sub fuel p.advance with
        | .error e => .error e
        | .ok (right, p1) =>
            if right.isNull then .ok (.null, p1.errorHere msg)
            else loop fuel (BinaryOpNode p.currentToken node right) p1
      else .ok (node, p))
    (node : ASTNode) {p : Parser} (ht : test p = false) : LoopReturns loop node p node p := by
  refine ⟨1, fun fuel hf => ?_⟩
  obtain ⟨n, rfl⟩ : ∃ n, fuel = n + 1 := ⟨fuel - 1, by omega⟩
  rw [hunf, ht]
  rfl

/-- The loop of a level takes an operator of the level and its right operand. -/
theorem loop_step {loop : Nat → ASTNode → Parser → Res ASTNode}
    {sub : Nat → Parser → Res ASTNode} {test : Parser → Bool} {msg : String}
    (hunf : ∀ fuel node p, loop (fuel + 1) node p =
      if test p then
        match sub fuel p.advance with
        | .error e => .error e
        | .ok (right, p1) =>
            if right.isNull then .ok (.null, p1.errorHere msg)
            else loop fuel (BinaryOpNode p.currentToken node right) p1
      else .ok (node, p))
    {node r e : ASTNode} {p p1 q : Parser} (ht : test p = true)
    (hs : Returns sub p.advance r p1) (hr : r.isNull = false)
    (hl : LoopReturns loop (BinaryOpNode p.currentToken node r) p1 e q) :
    LoopReturns loop node p e q := by
  obtain ⟨k1, h1⟩ := hs
  obtain ⟨k2, h2⟩ := hl
  refine ⟨k1 + k2 + 1, fun fuel hf => ?_⟩
  obtain ⟨n, rfl⟩ : ∃ n, fuel = n + 1 := ⟨fuel - 1, by omega⟩
  rw [hunf, ht, if_pos rfl, h1 n (by omega)]
  simp only [hr, Bool.false_eq_true, if_false]
  exact h2 n (by omega)

/-- A level: its first operand, then its loop. -/
theorem level_enter {f sub : Nat → Parser → Res ASTNode}
    {loop : Nat → ASTNode → Parser → Res ASTNode}
    (hunf : ∀ fuel p, f (fuel + 1) p =
      match sub fuel p with
      | .error e => .error e
      | .ok (node, p1) => if node.isNull then .ok (.null, p1) else loop fuel node p1)
    {n e : ASTNode} {p p1 q : Parser} (hs : Returns sub p n p1) (hn : n.isNull = false)
    (hl : LoopReturns loop n p1 e q) : Returns f p e q := by
  obtain ⟨k1, h1⟩ := hs
  obtain ⟨k2, h2⟩ := hl
  refine ⟨k1 + k2 + 1, fun fuel hf => ?_⟩
  obtain ⟨m, rfl⟩ : ∃ m, fuel = m + 1 := ⟨fuel - 1, by omega⟩
  rw [hunf, h1 m (by omega)]
  simp only [hn, Bool.false_eq_true, if_false]
  exact h2 m (by omega)

/-- The loop of `or` or of `and` stops at another token. -/
theorem op_loop_stop {loop : Nat → Token → ASTNode → Parser → Res ASTNode}
    {sub : Nat → Parser → Res ASTNode} {kw msg : String}
    (hunf : ∀ fuel op node p, loop (fuel + 1) op node p =
      if (p.accept .Keyword kw).1 then
        match sub fuel (p.accept .Keyword kw).2 with
        | .error e => .error e
        | .ok (right, p1) =>
            if right.isNull then .ok (node, p1.errorHere msg)
            else loop fuel op (BinaryOpNode op node right) p1
      else .ok (node, p))
    (op : Token) (node : ASTNode) {p : Parser} (ht : p.isTok .Keyword kw = false) :
    LoopReturns (fun fuel => loop fuel op) node p node p := by
  refine ⟨1, fun fuel hf => ?_⟩
  obtain ⟨n, rfl⟩ : ∃ n, fuel = n + 1 := ⟨fuel - 1, by omega⟩
  show loop (n + 1) op node p = _
  rw [hunf, accept_fst, ht]
  rfl

theorem op_loop_step {loop : Nat → Token → ASTNode → Parser → Res ASTNode}
    {sub : Nat → Parser → Res ASTNode} {kw msg : String}
    (hunf : ∀ fuel op node p, loop (fuel + 1) op node p =
      if (p.accept .Keyword kw).1 then
        match sub fuel (p.accept .Keyword kw).2 with
        | .error e => .error e
        | .ok (right, p1) =>
            if right.isNull then .ok (node, p1.errorHere msg)
            else loop fuel op (BinaryOpNode op node right) p1
      else .ok (node, p))
    {op : Token} {node r e : ASTNode} {p p1 q : Parser} (ht : p.isTok .Keyword kw = true)
    (hs : Returns sub p.advance r p1) (hr : r.isNull = false)
    (hl : LoopReturns (fun fuel => loop fuel op) (BinaryOpNode op node r) p1 e q) :
    LoopReturns (fun fuel => loop fuel op) node p e q := by
  obtain ⟨k1, h1⟩ := hs
  obtain ⟨k2, h2⟩ := hl
  refine ⟨k1 + k2 + 1, fun fuel hf => ?_⟩
  obtain ⟨n, rfl⟩ : ∃ n, fuel = n + 1 := ⟨fuel - 1, by omega⟩
  show loop (n + 1) op node p = _
  rw [hunf, accept_fst, ht, if_pos rfl, accept_snd_pos ht, h1 n (by omega)]
  simp only [hr, Bool.false_eq_true, if_false]
  exact h2 n (by omega)

theorem op_level_enter {f sub : Nat → Parser → Res ASTNode}
    {loop : Nat → Token → ASTNode → Parser → Res ASTNode}
    (hunf : ∀ fuel p, f (fuel + 1) p =
      match sub fuel p with
      | .error e => .error e
      | .ok (node, p1) => if node.isNull then .ok (.null, p1) else loop fuel p1.currentToken node p1)
    {n e : ASTNode} {p p1 q : Parser} (hs : Returns sub p n p1) (hn : n.isNull = false)
    (hl : LoopReturns (fun fuel => loop fuel p1.currentToken) n p1 e q) : Returns f p e q := by
  obtain ⟨k1, h1⟩ := hs
  obtain ⟨k2, h2⟩ := hl
  refine ⟨k1 + k2 + 1, fun fuel hf => ?_⟩
  obtain ⟨m, rfl⟩ : ∃ m, fuel = m + 1 := ⟨fuel - 1, by omega⟩
  rw [hunf, h1 m (by omega)]
  simp only [hn, Bool.false_eq_true, if_false]
  exact h2 m (by omega)

theorem levelFacts_plain {f sub : Nat → Parser → Res ASTNode}
    {loop : Nat → ASTNode → Parser → Res ASTNode} {test : Parser → Bool} {msg : String}
    (hf : ∀ fuel p, f (fuel + 1) p =
      match sub fuel p with
      | .error e => .error e
      | .ok (node, p1) => if node.isNull then .ok (.null, p1) else loop fuel node p1)
    (hl : ∀ fuel node p, loop (fuel + 1) node p =
      if test p then
        match sub fuel p.advance with
        | .error e => .error e
        | .ok (right, p1) =>
            if right.isNull then .ok (.null, p1.errorHere msg)
            else loop fuel (BinaryOpNode p.currentToken node right) p1
      else .ok (node, p)) : LevelFacts f sub test := by
  refine ⟨?_, ?_, ?_⟩
  · intro p q e hs he ht
    exact level_enter hf hs he (loop_stop hl e ht)
  · intro p p1 p2 a b ha na t1 hb nb t2
    exact level_enter hf ha na (loop_step hl t1 hb nb (loop_stop hl _ t2))
  · intro p p1 p2 p3 a b c ha na t1 hb nb t2 hc nc t3
    exact ⟨p2.currentToken, rfl, level_enter hf ha na
      (loop_step hl t1 hb nb (loop_step hl t2 hc nc (loop_stop hl _ t3)))⟩

theorem levelFacts_op {f sub : Nat → Parser → Res ASTNode}
    {loop : Nat → Token → ASTNode → Parser → Res ASTNode} {kw msg : String}
    (hkw : kw.isEmpty = false)
    (hf : ∀ fuel p, f (fuel + 1) p =
      match sub fuel p with
      | .error e => .error e
      | .ok (node, p1) => if node.isNull then .ok (.null, p1) else loop fuel p1.currentToken node p1)
    (hl : ∀ fuel op node p, loop (fuel + 1) op node p =
      if (p.accept .Keyword kw).1 then
        match sub fuel (p.accept .Keyword kw).2 with
        | .error e => .error e
        | .ok (right, p1) =>
            if right.isNull then .ok (node, p1.errorHere msg)
            else loop fuel op (BinaryOpNode op node right) p1
      else .ok (node, p)) : LevelFacts f sub (fun p => p.isTok .Keyword kw) := by
  refine ⟨?_, ?_, ?_⟩
  · intro p q e hs he ht
    exact op_level_enter hf hs he (op_loop_stop hl _ e ht)
  · intro p p1 p2 a b ha na t1 hb nb t2
    exact op_level_enter hf ha na (op_loop_step hl t1 hb nb (op_loop_stop hl _ _ t2))
  · intro p p1 p2 p3 a b c ha na t1 hb nb t2 hc nc t3
    refine ⟨p1.currentToken, ?_, op_level_enter hf ha na
      (op_loop_step hl t1 hb nb (op_loop_step hl t2 hc nc (op_loop_stop hl _ _ t3)))⟩
    rw [isTok_value t1 hkw, isTok_value t2 hkw]

theorem opLevel_zero (t : Token) :
    opLevel t = some 0 ↔ t.type = .Keyword ∧ t.value = "or" := by
  unfold opLevel
  constructor
  · intro h
    split_ifs at h <;> first | assumption | exact absurd h (by simp)
  · rintro ⟨ht, hv⟩
    simp [ht, hv]

theorem opLevel_one (t : Token) :
    opLevel t = some 1 ↔ t.type = .Keyword ∧ t.value = "and" := by
  unfold opLevel
  constructor
  · intro h
    split_ifs at h <;> first | assumption | exact absurd h (by simp)
  · rintro ⟨ht, hv⟩
    simp [ht, hv]

theorem opLevel_two (t : Token) :
    opLevel t = some 2 ↔ t.type = .Operator ∧ (t.value = "==" ∨ t.value = "!=") := by
  unfold opLevel
  constructor
  · intro h
    split_ifs at h <;> first | assumption | exact absurd h (by simp)
  · rintro ⟨ht, hv⟩
    rcases hv with hv | hv <;> simp [ht, hv]

theorem opLevel_three (t : Token) :
    opLevel t = some 3 ↔ t.type = .Operator ∧
      (t.value = "<" ∨ t.value = ">" ∨ t.value = "<=" ∨ t.value = ">=") := by
  unfold opLevel
  constructor
  · intro h
    split_ifs at h <;> first | assumption | exact absurd h (by simp)
  · rintro ⟨ht, hv⟩
    rcases hv with hv | hv | hv | hv <;> simp [ht, hv]

theorem opLevel_four (t : Token) :
    opLevel t = some 4 ↔ t.type = .Operator ∧ (t.value = "+" ∨ t.value = "-") := by
  unfold opLevel
  constructor
  · intro h
    split_ifs at h <;> first | assumption | exact absurd h (by simp)
  · rintro ⟨ht, hv⟩
    rcases hv with hv | hv <;> simp [ht, hv]

theorem opLevel_five (t : Token) :
    opLevel t = some 5 ↔ t.type = .Operator ∧ (t.value = "*" ∨ t.value = "/" ∨ t.value = "%") := by
  unfold opLevel
  constructor
  · intro h
    split_ifs at h <;> first | assumption | exact absurd h (by simp)
  · rintro ⟨ht, hv⟩
    rcases hv with hv | hv | hv <;> simp [ht, hv]

theorem opLevel_lt_six {t : Token} {l : Nat} (h : opLevel t = some l) : l < 6 := by
  unfold opLevel at h
  split_ifs at h <;> simp only [Option.some.injEq] at h <;> omega

theorem isTok_iff {p : Parser} {ty : TokenType} {v : String} (hv : v.isEmpty = false) :
    p.isTok ty v = true ↔ p.currentToken.type = ty ∧ p.currentToken.value = v := by
  unfold isTok
  rw [hv]
  simp

theorem test_or : (fun p : Parser => p.isTok .Keyword "or") =
    fun p => decide (opLevel p.currentToken = some 0) := by
  funext p
  rw [Bool.eq_iff_iff, isTok_iff (by decide), decide_eq_true_eq, opLevel_zero]

theorem test_and : (fun p : Parser => p.isTok .Keyword "and") =
    fun p => decide (opLevel p.currentToken = some 1) := by
  funext p
  rw [Bool.eq_iff_iff, isTok_iff (by decide), decide_eq_true_eq, opLevel_one]

theorem test_equality :
    (fun p : Parser => p.isTok .Operator "==" || p.isTok .Operator "!=") =
    fun p => decide (opLevel p.currentToken = some 2) := by
  funext p
  rw [Bool.eq_iff_iff, Bool.or_eq_true, isTok_iff (by decide), isTok_iff (by decide),
    decide_eq_true_eq, opLevel_two]
  tauto

theorem test_relational :
    (fun p : Parser => p.isTok .Operator "<" || p.isTok .Operator ">" ||
      p.isTok .Operator "<=" || p.isTok .Operator ">=") =
    fun p => decide (opLevel p.currentToken = some 3) := by
  funext p
  rw [Bool.eq_iff_iff, Bool.or_eq_true, Bool.or_eq_true, Bool.or_eq_true,
    isTok_iff (by decide), isTok_iff (by decide), isTok_iff (by decide), isTok_iff (by decide),
    decide_eq_true_eq, opLevel_three]
  tauto

theorem test_term :
    (fun p : Parser => p.isTok .Operator "+" || p.isTok .Operator "-") =
    fun p => decide (opLevel p.currentToken = some 4) := by
  funext p
  rw [Bool.eq_iff_iff, Bool.or_eq_true, isTok_iff (by decide), isTok_iff (by decide),
    decide_eq_true_eq, opLevel_four]
  tauto

theorem test_factor :
    (fun p : Parser => p.isTok .Operator "*" || p.isTok .Operator "/" ||
      p.isTok .Operator "%") =
    fun p => decide (opLevel p.currentToken = some 5) := by
  funext p
  rw [Bool.eq_iff_iff, Bool.or_eq_true, Bool.or_eq_true,
    isTok_iff (by decide), isTok_iff (by decide), isTok_iff (by decide),
    decide_eq_true_eq, opLevel_five]
  tauto

/-- Every level of binary operators, by its number. -/
theorem level_facts : ∀ l, l < 6 →
    LevelFacts (levelParser l) (levelParser (l + 1))
      (fun p => decide (opLevel p.currentToken = some l))
  | 0, _ => by
      rw [← test_or]
      exact @levelFacts_op parseLogicalOr parseLogicalAnd orLoop "or"
        "Expected right-hand expression after 'or'" (by decide)
        (fun fuel p => by rw [parseLogicalOr])
        (fun fuel op node p => by rw [orLoop])
  | 1, _ => by
      rw [← test_and]
      exact @levelFacts_op parseLogicalAnd parseEquality andLoop "and"
        "Expected right-hand expression after 'and'" (by decide)
        (fun fuel p => by rw [parseLogicalAnd])
        (fun fuel op node p => by rw [andLoop])
  | 2, _ => by
      rw [← test_equality]
      exact @levelFacts_plain parseEquality parseRelational equalityLoop _
        "Expected right-hand expression after operator"
        (fun fuel p => by rw [parseEquality])
        (fun fuel node p => by rw [equalityLoop])
  | 3, _ => by
      rw [← test_relational]
      exact @levelFacts_plain parseRelational parseTerm relationalLoop _
        "Expected right-hand expression after comparison"
        (fun fuel p => by rw [parseRelational])
        (fun fuel node p => by rw [relationalLoop])
  | 4, _ => by
      rw [← test_term]
      exact @levelFacts_plain parseTerm parseFactor termLoop _
        "Expected right-hand expression after operator"
        (fun fuel p => by rw [parseTerm])
        (fun fuel node p => by rw [termLoop])
  | 5, _ => by
      rw [← test_factor]
      exact @levelFacts_plain parseFactor parseUnary factorLoop _
        "Expected right-hand expression after operator"
        (fun fuel p => by rw [parseFactor])
        (fun fuel node p => by rw [factorLoop])
  | l + 6, h => absurd h (by omega)

/-- A node goes up through the levels whose operators do not follow it. -/
theorem climb {p q : Parser} {e : ASTNode} (he : e.isNull = false) :
    ∀ (d i : Nat), i + d ≤ 6 → Returns (levelParser (i + d)) p e q →
      (∀ l, i ≤ l → l < i + d → opLevel q.currentToken ≠ some l) →
      Returns (levelParser i) p e q
  | 0, _, _, h, _ => h
  | d + 1, i, hle, h, hno => by
      have h1 : Returns (levelParser (i + d)) p e q :=
        (level_facts (i + d) (by omega)).pass h he
          (by simpa using hno (i + d) (by omega) (by omega))
      exact climb he d i (by omega) h1 (fun l h1 h2 => hno l h1 (by omega))

theorem climb_from {p q : Parser} {e : ASTNode} (he : e.isNull = false) {i j : Nat}
    (hij : i ≤ j) (hj : j ≤ 6) (h : Returns (levelParser j) p e q)
    (hno : ∀ l, i ≤ l → l < j → opLevel q.currentToken ≠ some l) :
    Returns (levelParser i) p e q := by
  obtain ⟨d, rfl⟩ : ∃ d, j = i + d := ⟨j - i, by omega⟩
  exact climb he d i hj h hno

/-- The token at which `parsePrimary` returns a node is not a prefix operator, nor the
end of the input. -/
theorem Primary.start {p q : Parser} {e : ASTNode} (h : Primary p e q) :
    ¬ isPrefixOp p.currentToken ∧ p.currentToken.type ≠ .EOFToken := by
  obtain ⟨hn, k, hk⟩ := h
  have h1 := hk (k + 1) (by omega)
  have key : ∀ ty, p.currentToken.type = ty → ty ≠ .Number → ty ≠ .String →
      ty ≠ .Identifier → ty ≠ .Delimiter →
      (ty = .Keyword → p.currentToken.value ≠ "True" ∧ p.currentToken.value ≠ "False") →
      False := by
    intro ty hty n1 n2 n3 n4 n5
    rw [parsePrimary] at h1
    have a1 : ¬ p.currentToken.type = .Number := by rw [hty]; exact n1
    have a2 : ¬ p.currentToken.type = .String := by rw [hty]; exact n2
    have a3 : ¬ (p.currentToken.type = .Keyword ∧
        (p.currentToken.value = "True" ∨ p.currentToken.value = "False")) := by
      rintro ⟨c1, c2⟩
      have := n5 (hty ▸ c1)
      rcases c2 with c2 | c2
      · exact this.1 c2
      · exact this.2 c2
    have a4 : ¬ p.currentToken.type = .Identifier := by rw [hty]; exact n3
    have a5 : ¬ (p.accept .Delimiter "(").1 = true := by
      rw [accept_fst]
      intro c
      exact n4 (hty ▸ isTok_type c)
    rw [if_neg a1, if_neg a2, if_neg a3, if_neg a4, if_neg a5] at h1
    simp only [Except.ok.injEq, Prod.mk.injEq] at h1
    rw [← h1.1] at hn
    exact Bool.noConfusion hn
  constructor
  · rintro (⟨ht, hv⟩ | ⟨ht, hv⟩)
    · exact key _ ht (by decide) (by decide) (by decide) (by decide) (fun c => by cases c)
    · exact key _ ht (by decide) (by decide) (by decide) (by decide)
        (fun _ => by rw [hv]; decide)
  · intro ht
    exact key _ ht (by decide) (by decide) (by decide) (by decide) (fun c => by cases c)

theorem isPrefixOp_iff (p : Parser) :
    (p.isTok .Operator "-" || p.isTok .Keyword "not") = true ↔ isPrefixOp p.currentToken := by
  rw [Bool.or_eq_true, isTok_iff (by decide), isTok_iff (by decide)]
  rfl

/-- A primary operand is what `parseUnary` returns. -/
theorem Primary.unary {p q : Parser} {e : ASTNode} (h : Primary p e q) :
    Returns parseUnary p e q := by
  have hs := h.start.1
  obtain ⟨-, k, hk⟩ := h
  refine ⟨k + 1, fun fuel hf => ?_⟩
  obtain ⟨n, rfl⟩ : ∃ n, fuel = n + 1 := ⟨fuel - 1, by omega⟩
  rw [parseUnary]
  rw [if_neg (by rw [isPrefixOp_iff]; exact hs)]
  exact hk n (by omega)

/-- A prefix operator in front of what `parseUnary` returns. -/
theorem unary_prefix {p q : Parser} {e : ASTNode} (hp : isPrefixOp p.currentToken)
    (h : Returns parseUnary p.advance e q) (he : e.isNull = false) :
    Returns parseUnary p (UnaryOpNode p.currentToken e) q := by
  obtain ⟨k, hk⟩ := h
  refine ⟨k + 1, fun fuel hf => ?_⟩
  obtain ⟨n, rfl⟩ : ∃ n, fuel = n + 1 := ⟨fuel - 1, by omega⟩
  rw [parseUnary]
  rw [if_pos ((isPrefixOp_iff p).mpr hp), hk n (by omega)]
  simp only [he, Bool.false_eq_true, if_false]

theorem expr_of_or {p q : Parser} {e : ASTNode} (h : Returns parseLogicalOr p e q)
    (hne : p.currentToken.type ≠ .EOFToken) : Returns parseExpr p e q := by
  obtain ⟨k, hk⟩ := h
  refine ⟨k + 1, fun fuel hf => ?_⟩
  obtain ⟨n, rfl⟩ : ∃ n, fuel = n + 1 := ⟨fuel - 1, by omega⟩
  rw [parseExpr, if_neg hne]
  exact hk n (by omega)

/-- A parenthesised expression is what `parsePrimary` returns. -/
theorem primary_paren {p q : Parser} {e : ASTNode}
    (ho : p.currentToken.type = .Delimiter ∧ p.currentToken.value = "(")
    (h : Returns parseExpr p.advance e q)
    (hc : q.currentToken.type = .Delimiter ∧ q.currentToken.value = ")") :
    Returns parsePrimary p e q.advance := by
  obtain ⟨k, hk⟩ := h
  refine ⟨k + 1, fun fuel hf => ?_⟩
  obtain ⟨n, rfl⟩ : ∃ n, fuel = n + 1 := ⟨fuel - 1, by omega⟩
  have t1 : p.isTok .Delimiter "(" = true := (isTok_iff (by decide)).mpr ho
  have t2 : q.isTok .Delimiter ")" = true := (isTok_iff (by decide)).mpr hc
  rw [parsePrimary]
  rw [if_neg (by rw [ho.1]; decide), if_neg (by rw [ho.1]; decide),
    if_neg (by rw [ho.1]; simp), if_neg (by rw [ho.1]; decide), accept_fst, if_pos t1,
    accept_snd_pos t1, hk n (by omega)]
  simp only
  unfold expect
  rw [accept_fst, if_pos t2, accept_snd_pos t2]

/-- An operand of a level: a primary operand followed by a token that is not an operator
of a tighter level. -/
theorem Primary.at_level {p q : Parser} {e : ASTNode} (h : Primary p e q) {i : Nat}
    (hi : i ≤ 6) (hno : ∀ l, i ≤ l → opLevel q.currentToken ≠ some l) :
    Returns (levelParser i) p e q :=
  climb_from h.1 hi (le_refl 6) h.unary (fun l h1 _ => hno l h1)

theorem not_null_unary (op : Token) (e : ASTNode) : (UnaryOpNode op e).isNull = false := rfl

/-- A Number token that `std::stod` reads is a primary operand. -/
theorem primary_number {p : Parser} {d : Dbl} (ht : p.currentToken.type = .Number)
    (hd : stod p.currentToken.value = some d) :
    Primary p (.node (.Number d (if p.currentToken.value.data.contains '.' then "float"
      else "int")) p.currentToken []) p.advance := by
  refine ⟨rfl, 1, fun fuel hf => ?_⟩
  obtain ⟨n, rfl⟩ : ∃ n, fuel = n + 1 := ⟨fuel - 1, by omega⟩
  rw [parsePrimary]
  simp [ht, NumberNode, hd]

/-- C14. The binary operators of one precedence level associate to the left: for primary
operands `e1`, `e2`, `e3` (whatever `parsePrimary` returns that is not null) separated by
two operators `op1`, `op2` of the same level (`or`; `and`; `==`, `!=`; `<`, `>`, `<=`,
`>=`; `+`, `-`; `*`, `/`, `%`) and followed by a token that is no binary operator,
`parseExpr` returns, given enough fuel, a BinaryOp whose operator has the lexeme of `op2`,
whose left child is the BinaryOp of `op1` over `e1` and `e2`, and whose right child is
`e3`. -/
theorem binary_left_assoc (p p1 p2 p3 : Parser) (e1 e2 e3 : ASTNode) (l : Nat)
    (h1 : Primary p e1 p1) (o1 : opLevel p1.currentToken = some l)
    (h2 : Primary p1.advance e2 p2) (o2 : opLevel p2.currentToken = some l)
    (h3 : Primary p2.advance e3 p3) (o3 : opLevel p3.currentToken = none) :
    ∃ top, top.value = p2.currentToken.value ∧
      Returns parseExpr p (BinaryOpNode top (BinaryOpNode p1.currentToken e1 e2) e3) p3 := by
  have hl := opLevel_lt_six o1
  have a := h1.at_level (show l + 1 ≤ 6 by omega)
    (fun m hm => by rw [o1]; simp only [ne_eq, Option.some.injEq]; omega)
  have b := h2.at_level (show l + 1 ≤ 6 by omega)
    (fun m hm => by rw [o2]; simp only [ne_eq, Option.some.injEq]; omega)
  have c := h3.at_level (show l + 1 ≤ 6 by omega) (fun m _ => by rw [o3]; simp)
  obtain ⟨top, ht, r⟩ := (level_facts l hl).two a h1.1 (by simp [o1]) b h2.1 (by simp [o2])
    c h3.1 (by simp [o3])
  have r0 := climb_from (not_null_binary _ _ _) (Nat.zero_le l) (by omega) r
    (fun m _ _ => by rw [o3]; simp)
  exact ⟨top, ht, expr_of_or r0 h1.start.2⟩

theorem binary_left_assoc_witness :
    Primary (subtractionParser 0)
      (.node (.Number (.fin false 4503599627370496 (-52)) "int") (tok .Number "1" 1 1) [])
      (subtractionParser 1) ∧
    opLevel (subtractionParser 1).currentToken = some 4 ∧
    Primary (subtractionParser 1).advance
      (.node (.Number (.fin false 4503599627370496 (-51)) "int") (tok .Number "2" 1 5) [])
      (subtractionParser 3) ∧
    opLevel (subtractionParser 3).currentToken = some 4 ∧
    Primary (subtractionParser 3).advance
      (.node (.Number (.fin false 6755399441055744 (-51)) "int") (tok .Number "3" 1 9) [])
      (subtractionParser 5) ∧
    opLevel (subtractionParser 5).currentToken = none ∧
    ∃ top, top.value = "-" ∧
      Returns parseExpr (subtractionParser 0)
        (BinaryOpNode top
          (BinaryOpNode (tok .Operator "-" 1 3)
            (.node (.Number (.fin false 4503599627370496 (-52)) "int") (tok .Number "1" 1 1) [])
            (.node (.Number (.fin false 4503599627370496 (-51)) "int") (tok .Number "2" 1 5) []))
          (.node (.Number (.fin false 6755399441055744 (-51)) "int") (tok .Number "3" 1 9) []))
        (subtractionParser 5) :=
  have h1 : Primary (subtractionParser 0)
      (.node (.Number (.fin false 4503599627370496 (-52)) "int") (tok .Number "1" 1 1) [])
      (subtractionParser 1) :=
    @primary_number (subtractionParser 0) (.fin false 4503599627370496 (-52)) rfl (by decide!)
  have h2 : Primary (subtractionParser 1).advance
      (.node (.Number (.fin false 4503599627370496 (-51)) "int") (tok .Number "2" 1 5) [])
      (subtractionParser 3) :=
    @primary_number (subtractionParser 1).advance (.fin false 4503599627370496 (-51)) rfl
      (by decide!)
  have h3 : Primary (subtractionParser 3).advance
      (.node (.Number (.fin false 6755399441055744 (-51)) "int") (tok .Number "3" 1 9) [])
      (subtractionParser 5) :=
    @primary_number (subtractionParser 3).advance (.fin false 6755399441055744 (-51)) rfl
      (by decide!)
  ⟨h1, by decide, h2, by decide, h3, by decide,
    binary_left_assoc _ _ _ _ _ _ _ 4 h1 (by decide) h2 (by decide) h3 (by decide)⟩

/-! ## The header of a function definition -/

theorem withTable_moveTo (q : Parser) (t : ParserSymbolTable) (c : Token) (r : List Token) :
    (q.withTable t).moveTo c r = (q.moveTo c r).withTable t := rfl

theorem withTable_withTable (q : Parser) (t u : ParserSymbolTable) :
    (q.withTable t).withTable u = q.withTable u := rfl

theorem paramLoop_params {ts : List Token} {names : List String} (h : MoreParams ts names) :
    ∀ (fuel : Nat) (acc : List String) (q : Parser) (rp : Token) (tail : List Token)
      (c : Token) (r : List Token), c :: r = ts ++ rp :: tail →
      rp.type = .Delimiter ∧ rp.value = ")" → names.length + 1 ≤ fuel →
      paramLoop fuel acc (q.moveTo c r) =
        .ok (acc ++ names, (q.moveTo rp tail).withTable
          (names.foldl (fun u x => u.declare x "unknown" "parameter") q.symbolTable)) := by
  induction h with
  | done =>
      intro fuel acc q rp tail c r hc hrp hf
      simp only [List.nil_append, List.cons.injEq] at hc
      obtain ⟨rfl, rfl⟩ := hc
      obtain ⟨n, rfl⟩ : ∃ n, fuel = n + 1 := ⟨fuel - 1, by omega⟩
      rw [paramLoop]
      have h1 : (q.moveTo c r).isTok .Delimiter "," = false :=
        isTok_moveTo_value _ (by decide) (by rw [hrp.2]; decide)
      rw [accept_fst, h1]
      simp only [Bool.false_eq_true, if_false, List.append_nil, List.foldl_nil]
      rfl
  | next comma y ts names hcomma hy _ ih =>
      intro fuel acc q rp tail c r hc hrp hf
      simp only [List.cons_append, List.cons.injEq] at hc
      obtain ⟨rfl, rfl⟩ := hc
      obtain ⟨n, rfl⟩ : ∃ n, fuel = n + 1 := ⟨fuel - 1, by omega⟩
      rw [paramLoop]
      have h1 : (q.moveTo c (y :: (ts ++ rp :: tail))).isTok .Delimiter "," = true :=
        isTok_moveTo_pos hcomma.1 hcomma.2
      rw [accept_fst, h1, if_pos rfl, accept_snd_pos h1]
      simp only [moveTo_advance, moveTo_currentToken, moveTo_symbolTable]
      rw [if_neg (by simp [hy])]
      cases hts : ts ++ rp :: tail with
      | nil => simp at hts
      | cons c2 r2 =>
          have e : ((q.moveTo y (c2 :: r2)).withTable
              (q.symbolTable.declare y.value "unknown" "parameter")).advance =
              (q.withTable (q.symbolTable.declare y.value "unknown" "parameter")).moveTo c2 r2 :=
            rfl
          rw [e, ih n (acc ++ [y.value]) _ rp tail c2 r2 hts.symm hrp
            (by simp only [List.length_cons] at hf; omega)]
          simp only [List.append_assoc, List.singleton_append, List.foldl_cons]
          rfl

theorem parseFuncDef_header (fuel : Nat) (q : Parser) (defTok nameTok lp rp colon next : Token)
    (ts : List Token) (names : List String) (rest : List Token)
    (hdef : defTok.type = .Keyword ∧ defTok.value = "def") (hname : nameTok.type = .Identifier)
    (hlp : lp.type = .Delimiter ∧ lp.value = "(") (hps : ParamTokens ts names)
    (hrp : rp.type = .Delimiter ∧ rp.value = ")")
    (hcolon : colon.type = .Delimiter ∧ colon.value = ":") (hf : names.length ≤ fuel) :
    parseFuncDef (fuel + 1) (q.moveTo defTok (nameTok :: lp :: (ts ++ rp :: colon :: next :: rest))) =
      funcDefBody fuel defTok nameTok.value names
        ((q.moveTo next rest).withTable (headerTable q.symbolTable nameTok.value names)) := by
  rw [parseFuncDef]
  simp only [moveTo_currentToken]
  rw [expect_moveTo _ (isTok_moveTo_pos hdef.1 hdef.2)]
  simp only [moveTo_currentToken]
  rw [expect_moveTo _ (by rw [isTok_moveTo]; simp [hname]; exact Or.inl rfl)]
  simp only [moveTo_symbolTable]
  cases hps with
  | none =>
      simp only [List.nil_append]
      rw [← withTable_moveTo, expect_moveTo _ (isTok_moveTo_pos hlp.1 hlp.2)]
      simp only [moveTo_currentToken]
      rw [if_neg (by rw [hrp.1]; decide)]
      simp only
      rw [expect_moveTo _ (isTok_moveTo_pos hrp.1 hrp.2)]
      simp only
      rw [expect_moveTo _ (isTok_moveTo_pos hcolon.1 hcolon.2)]
      rfl
  | some x ts' names' hx hmore =>
      simp only [List.cons_append]
      rw [← withTable_moveTo, expect_moveTo _ (isTok_moveTo_pos hlp.1 hlp.2)]
      simp only [moveTo_currentToken]
      rw [if_pos hx]
      cases hts : ts' ++ rp :: colon :: next :: rest with
      | nil => simp at hts
      | cons c2 r2 =>
          have e : (((q.withTable ((q.symbolTable.declare nameTok.value "function" "function"
              "unknown").beginScope (nameTok.value ++ " (function)"))).moveTo x
                (c2 :: r2)).withTable
              (((q.withTable ((q.symbolTable.declare nameTok.value "function" "function"
                "unknown").beginScope (nameTok.value ++ " (function)"))).moveTo x
                  (c2 :: r2)).symbolTable.declare x.value "unknown" "parameter")).advance =
              (q.withTable (((q.symbolTable.declare nameTok.value "function" "function"
                "unknown").beginScope (nameTok.value ++ " (function)")).declare x.value
                  "unknown" "parameter")).moveTo c2 r2 := rfl
          rw [e, paramLoop_params hmore fuel [x.value] _ rp (colon :: next :: rest) c2 r2 hts.symm hrp
            (by simp only [List.length_cons] at hf; omega)]
          simp only
          rw [← withTable_moveTo, ← withTable_moveTo,
            expect_moveTo _ (isTok_moveTo_pos hrp.1 hrp.2)]
          simp only
          rw [expect_moveTo _ (isTok_moveTo_pos hcolon.1 hcolon.2)]
          rfl

theorem declare_params : ∀ (names : List String) (u : ParserSymbolTable), ParserSymbolTable.WellFormed u →
    names.Nodup → (∀ x ∈ names, (u.scopes.headD []).lookup x = none) →
    (names.foldl (fun v x => v.declare x "unknown" "parameter") u).entries =
      u.entries ++ paramEntries (u.scopeNames.headD "") u.nextId names ∧
    (names.foldl (fun v x => v.declare x "unknown" "parameter") u).scopeNames = u.scopeNames
  | [], u, _, _, _ => by simp [paramEntries]
  | x :: xs, u, hw, hnd, hfresh => by
      have hx := hfresh x (List.mem_cons_self _ _)
      have hs : u.scopes ≠ [] := hw.2.2.2.1
      have hd := ParserSymbolTable.declare_of_fresh u x "unknown" "parameter" "unknown" hs hx
      have hw' : ParserSymbolTable.WellFormed (u.declare x "unknown" "parameter") :=
        hw.after_step (ParserSymbolTable.Step.declare u x "unknown" "parameter" "unknown")
      have hnd' := (List.nodup_cons.mp hnd).2
      have hnx := (List.nodup_cons.mp hnd).1
      have hfresh' : ∀ y ∈ xs,
          ((u.declare x "unknown" "parameter").scopes.headD []).lookup y = none := by
        intro y hy
        rw [hd]
        simp only [List.headD_cons]
        rw [ParserSymbolTable.lookup_append_single, hfresh y (List.mem_cons_of_mem _ hy)]
        have : y ≠ x := fun e => hnx (e ▸ hy)
        simp [this]
      obtain ⟨ih1, ih2⟩ := declare_params xs _ hw' hnd' hfresh'
      simp only [List.foldl_cons]
      rw [ih1, ih2]
      rw [hd]
      simp [paramEntries]

theorem funcDefBody_node {fuel : Nat} {defToken : Token} {name : String}
    {paramNames : List String} {p7 : Parser} {node : ASTNode} {q : Parser}
    (h : funcDefBody fuel defToken name paramNames p7 = .ok (node, q)) :
    ∃ body, node = FunctionDefNode defToken name paramNames body := by
  unfold funcDefBody at h
  simp only at h
  split at h
  · exact Except.noConfusion h
  · split at h
    · exact Except.noConfusion h
    · simp only [Except.ok.injEq, Prod.mk.injEq] at h
      exact ⟨_, h.1.symm⟩

/-- C20. For every well-formed header `def NAME(P1, ..., Pn):` (the keyword, an
Identifier, the parentheses around Identifiers separated by commas, the colon), read by
`parseFuncDef` on a parser whose table is `t`: the rest of the function runs on the table
`headerTable t NAME [P1, ..., Pn]`, that is `t` with NAME declared with the type and the
role "function" and the value "unknown", then the scope "NAME (function)" pushed, then
each `Pi` declared in order with the type "unknown", the role "parameter" and the value
"unknown"; the node returned is a FunctionDef with the parameter list [P1, ..., Pn]; and
when `t` is reachable, NAME is not bound in its current frame and the parameters are
pairwise distinct, that table is `t` with one entry appended for NAME in the scope that
was current and one for each parameter in the new scope, which is on top of the stack. -/
theorem funcDef_header_effect (fuel : Nat) (p : Parser) (nameTok lp rp colon next : Token)
    (ts : List Token) (names : List String) (rest : List Token)
    (hdef : p.currentToken.type = .Keyword ∧ p.currentToken.value = "def")
    (hrest : p.rest = nameTok :: lp :: (ts ++ rp :: colon :: next :: rest))
    (hname : nameTok.type = .Identifier) (hlp : lp.type = .Delimiter ∧ lp.value = "(")
    (hps : ParamTokens ts names) (hrp : rp.type = .Delimiter ∧ rp.value = ")")
    (hcolon : colon.type = .Delimiter ∧ colon.value = ":") (hf : names.length ≤ fuel) :
    parseFuncDef (fuel + 1) p =
      funcDefBody fuel p.currentToken nameTok.value names
        ((p.moveTo next rest).withTable (headerTable p.symbolTable nameTok.value names)) ∧
    (∀ node q, parseFuncDef (fuel + 1) p = .ok (node, q) →
      ∃ body, node = FunctionDefNode p.currentToken nameTok.value names body) ∧
    (ParserSymbolTable.Reachable p.symbolTable →
      (p.symbolTable.scopes.headD []).lookup nameTok.value = none → names.Nodup →
      (headerTable p.symbolTable nameTok.value names).entries =
        p.symbolTable.entries ++
          [{ id := (p.symbolTable.entries.length : Int), name := nameTok.value,
             dataType := "function", value := "unknown", role := "function",
             scope := p.symbolTable.getCurrentScope }] ++
          paramEntries (nameTok.value ++ " (function)")
            ((p.symbolTable.entries.length : Int) + 1) names ∧
      (headerTable p.symbolTable nameTok.value names).scopeNames =
        (nameTok.value ++ " (function)") :: p.symbolTable.scopeNames) := by
  have hp : p.moveTo p.currentToken (nameTok :: lp :: (ts ++ rp :: colon :: next :: rest)) = p := by
    rw [← hrest]; rfl
  have heq := parseFuncDef_header fuel p p.currentToken nameTok lp rp colon next ts names rest
    hdef hname hlp hps hrp hcolon hf
  rw [hp] at heq
  refine ⟨heq, ?_, ?_⟩
  · intro node q h
    rw [heq] at h
    exact funcDefBody_node h
  · intro hr hfresh hnd
    have hw := hr.wellFormed
    have hd := ParserSymbolTable.declare_of_fresh p.symbolTable nameTok.value "function"
      "function" "unknown" hw.2.2.2.1 hfresh
    rw [hw.2.1, ParserSymbolTable.getCurrentScope_eq hw] at hd
    have hr1 : ParserSymbolTable.Reachable
        ((p.symbolTable.declare nameTok.value "function" "function" "unknown").beginScope
          (nameTok.value ++ " (function)")) :=
      .step (.step hr (.declare _ _ _ _ _)) (.beginScope _ _)
    obtain ⟨e1, e2⟩ := declare_params names _ hr1.wellFormed hnd
      (fun x _ => by simp [ParserSymbolTable.beginScope, List.lookup])
    unfold headerTable
    rw [e1, e2]
    simp only [ParserSymbolTable.beginScope, List.headD_cons]
    rw [hd]
    simp

theorem funcDef_header_effect_witness :
    (headerParser.currentToken.type = .Keyword ∧ headerParser.currentToken.value = "def") ∧
    (∀ node q, parseFuncDef 9 headerParser = .ok (node, q) →
      ∃ body, node = FunctionDefNode headerParser.currentToken "f" ["a", "b"] body) ∧
    (headerTable headerParser.symbolTable "f" ["a", "b"]).entries =
      [{ id := 0, name := "f", dataType := "function", value := "unknown", role := "function",
         scope := "global" },
       { id := 1, name := "a", dataType := "unknown", value := "unknown", role := "parameter",
         scope := "f (function)" },
       { id := 2, name := "b", dataType := "unknown", value := "unknown", role := "parameter",
         scope := "f (function)" }] ∧
    (headerTable headerParser.symbolTable "f" ["a", "b"]).scopeNames =
      ["f (function)", "global"] := by
  have h := funcDef_header_effect 8 headerParser
    { type := .Identifier, value := "f", line := 1, column := 5, symbolId := 0 }
    { type := .Delimiter, value := "(", line := 1, column := 6 }
    { type := .Delimiter, value := ")", line := 1, column := 11 }
    { type := .Delimiter, value := ":", line := 1, column := 12 }
    { type := .Indent, value := "1", line := 2, column := 5 }
    [{ type := .Identifier, value := "a", line := 1, column := 7, symbolId := 1 },
     { type := .Delimiter, value := ",", line := 1, column := 8 },
     { type := .Identifier, value := "b", line := 1, column := 10, symbolId := 2 }]
    ["a", "b"]
    [{ type := .Keyword, value := "return", line := 2, column := 5 },
     { type := .Identifier, value := "a", line := 2, column := 12, symbolId := 1 },
     { type := .Operator, value := "+", line := 2, column := 14 },
     { type := .Identifier, value := "b", line := 2, column := 16, symbolId := 2 },
     { type := .EOFToken, value := "EOF", line := 2, column := 17 }]
    (by decide!) (by decide!) rfl ⟨rfl, rfl⟩
    (.some _ _ _ rfl (.next _ _ _ _ ⟨rfl, rfl⟩ rfl .done)) ⟨rfl, rfl⟩ ⟨rfl, rfl⟩ (by decide)
  refine ⟨by decide!, h.2.1, ?_⟩
  have h3 := h.2.2 .init (by decide!) (by decide)
  exact h3

end Parser

/-! ## Reading a run of characters -/

theorem Lexer.advance_plain {lx : Lexer} {c : Char} {r : List Char} (h : lx.rest = c :: r)
    (hc : c ≠ '\n') (hf : lx.newLine = false) :
    lx.advance = (c, { lx with rest := r, column := lx.column + 1 }) := by
  unfold Lexer.advance
  simp only [Lexer.peek_eq_of_rest h, if_neg hc, h, List.tail_cons, hf]
  simp

theorem Lexer.eta_rest {lx : Lexer} {r : List Char} (h : lx.rest = r) :
    ({ lx with rest := r, column := lx.column + ((0 : Nat) : Int) } : Lexer) = lx := by
  cases lx
  simp only [Nat.cast_zero, add_zero] at *
  simp [h]

theorem collectWhile_run (p : Char → Bool) : ∀ (cs : List Char) (n : Nat) (lx : Lexer)
    (v : String) (r : List Char), lx.rest = cs ++ r → (∀ c ∈ cs, p c = true ∧ c ≠ '\n') →
    p (r.getD 0 NUL) = false → lx.newLine = false → cs.length ≤ n →
    collectWhile p n lx v =
      (v ++ String.mk cs, { lx with rest := r, column := lx.column + (cs.length : Int) })
  | [], n, lx, v, r, hr, _, hstop, _, _ => by
      simp only [List.nil_append] at hr
      have hp : p lx.peek = false := by rw [Lexer.peek, hr]; exact hstop
      have e : v ++ String.mk [] = v := by
        apply String.ext; simp
      rw [List.length_nil, Lexer.eta_rest hr, e]
      cases n with
      | zero => rfl
      | succ n => unfold collectWhile; rw [if_neg (by simp [hp])]
  | c :: cs, n, lx, v, r, hr, hall, hstop, hf, hn => by
      cases n with
      | zero => simp at hn
      | succ n =>
          have hc := hall c (List.mem_cons_self _ _)
          have hr' : lx.rest = c :: (cs ++ r) := by simpa using hr
          unfold collectWhile
          rw [if_pos (by rw [Lexer.peek_eq_of_rest hr']; exact hc.1),
            Lexer.advance_plain hr' hc.2 hf]
          simp only
          rw [collectWhile_run p cs n ({ lx with rest := cs ++ r, column := lx.column + 1 } : Lexer)
            (v.push c) r rfl (fun d hd => hall d (List.mem_cons_of_mem _ hd))
            hstop hf (by simpa using hn)]
          have e : v.push c ++ String.mk cs = v ++ String.mk (c :: cs) := by
            apply String.ext; simp
          rw [e]
          simp only [List.length_cons, Nat.cast_add, Nat.cast_one, Prod.mk.injEq, true_and]
          congr 1
          ring

theorem advanceWhile_run (p : Char → Bool) : ∀ (cs : List Char) (n : Nat) (lx : Lexer)
    (r : List Char), lx.rest = cs ++ r → (∀ c ∈ cs, p c = true ∧ c ≠ '\n') →
    p (r.getD 0 NUL) = false → lx.newLine = false → cs.length ≤ n →
    advanceWhile p n lx = { lx with rest := r, column := lx.column + (cs.length : Int) }
  | [], n, lx, r, hr, _, hstop, _, _ => by
      simp only [List.nil_append] at hr
      have hp : p lx.peek = false := by rw [Lexer.peek, hr]; exact hstop
      rw [List.length_nil, Lexer.eta_rest hr]
      cases n with
      | zero => rfl
      | succ n => unfold advanceWhile; rw [if_neg (by simp [hp])]
  | c :: cs, n, lx, r, hr, hall, hstop, hf, hn => by
      cases n with
      | zero => simp at hn
      | succ n =>
          have hc := hall c (List.mem_cons_self _ _)
          have hr' : lx.rest = c :: (cs ++ r) := by simpa using hr
          unfold advanceWhile
          rw [if_pos (by rw [Lexer.peek_eq_of_rest hr']; exact hc.1),
            Lexer.advance_plain hr' hc.2 hf]
          simp only
          rw [advanceWhile_run p cs n ({ lx with rest := cs ++ r, column := lx.column + 1 } : Lexer)
            r rfl (fun d hd => hall d (List.mem_cons_of_mem _ hd))
            hstop hf (by simpa using hn)]
          simp only [List.length_cons, Nat.cast_add, Nat.cast_one]
          congr 1
          ring

/-! ## One round of the scan, on a text that is known -/

theorem indentPhase_flat {lx : Lexer} (hf : lx.newLine = false) : lx.indentPhase = ([], lx) := by
  unfold Lexer.indentPhase
  simp [hf]

theorem advanceWhile_stop {p : Char → Bool} {lx : Lexer} (h : p lx.peek = false) (n : Nat) :
    advanceWhile p n lx = lx := by
  cases n with
  | zero => rfl
  | succ n => unfold advanceWhile; rw [if_neg (by simp [h])]

theorem indentPhase_start {lx : Lexer} (hn : lx.newLine = true) (hc : isBlank lx.peek = false) :
    lx.indentPhase =
      ([{ type := .Indent, value := "0", line := lx.line, column := lx.column }],
       { lx with newLine := false }) := by
  have hw : lx.getIndentLevel = 0 := by
    unfold Lexer.getIndentLevel
    unfold Lexer.peek at hc
    cases hr : lx.rest with
    | nil => rfl
    | cons c r =>
        rw [hr] at hc
        have hc' : isBlank c = false := by simpa using hc
        have h1 : c ≠ ' ' := by rintro rfl; revert hc'; decide
        have h2 : c ≠ '\t' := by rintro rfl; revert hc'; decide
        simp [indentWidth, h1, h2]
  unfold Lexer.indentPhase
  rw [if_pos hn]
  simp only [hw, advanceWhile_stop hc]
  rfl

theorem skipWhitespace_none {lx : Lexer} (h : isInlineSpace lx.peek = false) :
    lx.skipWhitespace = lx := advanceWhile_stop h _

theorem skipComment_none {lx : Lexer} (h : lx.peek ≠ '#') : lx.skipComment = lx := by
  unfold Lexer.skipComment
  rw [if_neg h]

theorem skipWhitespace_one {lx : Lexer} {c : Char} {r : List Char}
    (hr : lx.rest = ' ' :: c :: r) (hc : isInlineSpace c = false) (hf : lx.newLine = false) :
    lx.skipWhitespace = { lx with rest := c :: r, column := lx.column + 1 } := by
  unfold Lexer.skipWhitespace
  rw [advanceWhile_run isInlineSpace [' '] lx.rest.length lx (c :: r) hr
    (by intro d hd; simp only [List.mem_singleton] at hd; subst hd; exact ⟨by decide, by decide⟩)
    (by simpa using hc) hf (by rw [hr]; simp)]
  rfl

/-- The round of the loop of `tokenize` when nothing is skipped after the indent phase. -/
theorem scanStep_of {lx lx0 lx2 : Lexer} {ind : List Token} (h1 : lx.indentPhase = (ind, lx0))
    (h2 : lx0.skipWhitespace.skipComment = lx2) :
    lx.scanStep =
      (if lx2.peek = NUL then
        (ind ++ [{ type := .EOFToken, value := "EOF", line := lx2.line, column := lx2.column }],
          lx2, true)
      else if isIdentStart lx2.peek then
        (ind ++ [lx2.getIdentifier.1], lx2.getIdentifier.2, false)
      else if isdigit lx2.peek then
        (ind ++ [lx2.getNumber.1], lx2.getNumber.2, false)
      else if lx2.peek = DQUOTE then
        (ind ++ [lx2.getString.1], lx2.getString.2, false)
      else if lx2.peek = '+' ∨ lx2.peek = '-' ∨ lx2.peek = '*' ∨ lx2.peek = '/' ∨ lx2.peek = '=' ∨
              lx2.peek = '<' ∨ lx2.peek = '>' ∨ lx2.peek = '!' ∨ lx2.peek = '.' then
        (ind ++ [lx2.getOperator.1], lx2.getOperator.2, false)
      else if lx2.peek = '(' ∨ lx2.peek = ')' ∨ lx2.peek = ':' ∨ lx2.peek = ',' then
        (ind ++
          [(⟨.Delimiter, String.singleton lx2.advance.1, (lx2.advance.2).line, lx2.column, -1⟩ : Token)],
          lx2.advance.2, false)
      else if lx2.peek = '\n' then
        (ind, { lx2.advance.2 with newLine := true }, false)
      else
        (ind ++
          [(⟨.Error, String.singleton lx2.advance.1, (lx2.advance.2).line, lx2.column, -1⟩ : Token)],
          lx2.advance.2, false)) := by
  unfold Lexer.scanStep
  rw [h1]
  simp only
  rw [h2]

/-- The round that reads the end of the text. -/
theorem scanStep_end {lx : Lexer} (hr : lx.rest = []) (hf : lx.newLine = false) :
    ∃ e, lx.scanStep = ([e], lx, true) ∧ e.type = .EOFToken := by
  have hp : lx.peek = NUL := Lexer.peek_nil hr
  have h2 : lx.skipWhitespace.skipComment = lx := by
    rw [skipWhitespace_none (by rw [hp]; decide), skipComment_none (by rw [hp]; decide)]
  rw [scanStep_of (indentPhase_flat hf) h2, if_pos hp]
  exact ⟨_, rfl, rfl⟩

/-- The round that reads a newline. -/
theorem scanStep_newline {lx : Lexer} {r : List Char} (hr : lx.rest = '\n' :: r)
    (hf : lx.newLine = false) :
    ∃ lx', lx.scanStep = ([], lx', false) ∧ lx'.rest = r ∧ lx'.newLine = true ∧
      lx'.symbolTable = lx.symbolTable ∧ lx'.input = lx.input := by
  have hp : lx.peek = '\n' := Lexer.peek_eq_of_rest hr
  have h2 : lx.skipWhitespace.skipComment = lx := by
    rw [skipWhitespace_none (by rw [hp]; decide), skipComment_none (by rw [hp]; decide)]
  rw [scanStep_of (indentPhase_flat hf) h2]
  simp only [hp]
  refine ⟨_, by rfl, ?_, rfl, ?_, ?_⟩
  · simp [hr]
  · unfold Lexer.advance; simp [hp]
  · simp

theorem ne_of_pred {p : Char → Bool} {c d : Char} (h : p c = true) (hd : p d = false) : c ≠ d := by
  rintro rfl
  rw [h] at hd
  exact Bool.noConfusion hd

theorem isspace_of_ne {c : Char} (h1 : c ≠ ' ') (h2 : c ≠ '\t') (h3 : c ≠ '\n')
    (h4 : c ≠ Char.ofNat 11) (h5 : c ≠ Char.ofNat 12) (h6 : c ≠ '\r') : isspace c = false := by
  simp [isspace, h1, h2, h3, h4, h5, h6]

theorem isspace_of_identChar {c : Char} (h : isIdentChar c = true) : isspace c = false :=
  isspace_of_ne (ne_of_pred h (by decide)) (ne_of_pred h (by decide)) (ne_of_pred h (by decide))
    (ne_of_pred h (by decide)) (ne_of_pred h (by decide)) (ne_of_pred h (by decide))

theorem isInlineSpace_of_not_space {c : Char} (h : isspace c = false) : isInlineSpace c = false := by
  simp [isInlineSpace, h]

theorem isBlank_of_not_space {c : Char} (h : isspace c = false) : isBlank c = false := by
  cases hb : isBlank c with
  | false => rfl
  | true =>
      have : c = ' ' ∨ c = '\t' := by simpa [isBlank] using hb
      rcases this with rfl | rfl <;> exact absurd h (by decide)

theorem LineEnd.stop {p : Char → Bool} {tail : List Char} (h : LineEnd tail) (h0 : p NUL = false)
    (h1 : p '\n' = false) : p (tail.getD 0 NUL) = false := by
  rcases h with rfl | ⟨r, rfl⟩
  · exact h0
  · exact h1

theorem LineEnd.of_moreLines (more : List (List Char × Lit)) : LineEnd (moreLines more) := by
  cases more with
  | nil => exact Or.inl rfl
  | cons a more => exact Or.inr ⟨_, rfl⟩

theorem string_empty_append (cs : List Char) : "" ++ String.mk cs = String.mk cs := by
  apply String.ext; simp

/-- The round at the start of a line `x ...`: the IndentMarker of level 0 and the name,
which is new in the table. -/
theorem scanStep_name {lx : Lexer} {x r : List Char} (hx : isName x) (hr : lx.rest = x ++ r)
    (hstop : isIdentChar (r.getD 0 NUL) = false) (hn : lx.newLine = true)
    (hfresh : lx.symbolTable.nameToId.lookup (String.mk x) = none) :
    ∃ ind nm lx', lx.scanStep = ([ind, nm], lx', false) ∧
      (ind.type = .Indent ∧ ind.value = "0") ∧
      (nm.type = .Identifier ∧ nm.value = String.mk x) ∧
      lx'.rest = r ∧ lx'.newLine = false ∧
      lx'.symbolTable = (lx.symbolTable.insert (String.mk x)).2 ∧ lx'.input = lx.input := by
  obtain ⟨⟨c, x', rfl, hc⟩, hall, hkw⟩ := hx
  have hr' : lx.rest = c :: (x' ++ r) := by simpa using hr
  have hp : lx.peek = c := Lexer.peek_eq_of_rest hr'
  have hic : isIdentChar c = true := isIdentChar_of_start hc
  have hsp : isspace c = false := isspace_of_identChar hic
  have h1 := indentPhase_start hn (by rw [hp]; exact isBlank_of_not_space hsp)
  have hp0 : ({ lx with newLine := false } : Lexer).peek = c := Lexer.peek_eq_of_rest hr'
  have h2 : ({ lx with newLine := false } : Lexer).skipWhitespace.skipComment =
      { lx with newLine := false } := by
    rw [skipWhitespace_none (by rw [hp0]; exact isInlineSpace_of_not_space hsp),
      skipComment_none (by rw [hp0]; exact ne_of_pred hic (by decide))]
  rw [scanStep_of h1 h2, hp0, if_neg (ne_of_pred hic (by decide)), if_pos hc]
  have hcol := collectWhile_run isIdentChar (c :: x') lx.rest.length
    ({ lx with newLine := false } : Lexer) "" r hr
    (fun d hd => ⟨hall d hd, ne_of_pred (hall d hd) (by decide)⟩) hstop rfl
    (by rw [hr]; simp)
  have hg : ({ lx with newLine := false } : Lexer).getIdentifier =
      ({ type := .Identifier, value := String.mk (c :: x'), line := lx.line, column := lx.column,
         symbolId := (lx.symbolTable.insert (String.mk (c :: x'))).1 },
       { lx with newLine := false, rest := r, column := lx.column + ((c :: x').length : Int),
                 symbolTable := (lx.symbolTable.insert (String.mk (c :: x'))).2 }) := by
    unfold Lexer.getIdentifier
    simp only
    rw [hcol, string_empty_append]
    simp only [hkw, Bool.false_eq_true, if_false]
  rw [hg]
  exact ⟨_, _, _, rfl, ⟨rfl, rfl⟩, ⟨rfl, rfl⟩, rfl, rfl, rfl, rfl⟩

/-- The round that reads ` =` before a blank. -/
theorem scanStep_assign {lx : Lexer} {r : List Char} (hr : lx.rest = ' ' :: '=' :: ' ' :: r)
    (hf : lx.newLine = false) :
    ∃ eq lx', lx.scanStep = ([eq], lx', false) ∧ (eq.type = .Operator ∧ eq.value = "=") ∧
      lx'.rest = ' ' :: r ∧ lx'.newLine = false ∧ lx'.symbolTable = lx.symbolTable ∧
      lx'.input = lx.input := by
  have hs := skipWhitespace_one hr (by decide) hf
  have hp2 : ({ lx with rest := '=' :: ' ' :: r, column := lx.column + 1 } : Lexer).peek = '=' :=
    Lexer.peek_eq_of_rest rfl
  have h2 : lx.skipWhitespace.skipComment =
      { lx with rest := '=' :: ' ' :: r, column := lx.column + 1 } := by
    rw [hs, skipComment_none (by rw [hp2]; decide)]
  rw [scanStep_of (indentPhase_flat hf) h2]
  simp only [hp2]
  have ha : ({ lx with rest := '=' :: ' ' :: r, column := lx.column + 1 } : Lexer).advance =
      ('=', { lx with rest := ' ' :: r, column := lx.column + 1 + 1 }) :=
    Lexer.advance_plain rfl (by decide) hf
  have hg : ({ lx with rest := '=' :: ' ' :: r, column := lx.column + 1 } : Lexer).getOperator =
      ({ type := .Operator, value := "=", line := lx.line, column := lx.column + 1 },
       { lx with rest := ' ' :: r, column := lx.column + 1 + 1 }) := by
    unfold Lexer.getOperator
    simp only [ha]
    have hp3 : ({ lx with rest := ' ' :: r, column := lx.column + 1 + 1 } : Lexer).peek = ' ' :=
      Lexer.peek_eq_of_rest rfl
    simp only [hp3]
    rfl
  rw [hg, if_neg (by decide), if_neg (by decide), if_neg (by decide), if_neg (by decide),
    if_pos (by simp)]
  exact ⟨_, _, rfl, ⟨rfl, rfl⟩, rfl, hf, rfl, rfl⟩

theorem isIdentStart_of_digit {c : Char} (h : isdigit c = true) : isIdentStart c = false := by
  simp only [isdigit, Bool.and_eq_true, decide_eq_true_eq] at h
  have h2 : c.val.toNat ≤ 57 := h.2
  simp only [isIdentStart, isalpha, Bool.or_eq_false_iff, Bool.and_eq_false_iff,
    decide_eq_false_iff_not, beq_eq_false_iff_ne, ne_eq]
  refine ⟨⟨Or.inl ?_, Or.inl ?_⟩, ?_⟩
  · intro h3
    have : (97 : Nat) ≤ c.val.toNat := h3
    omega
  · intro h3
    have : (65 : Nat) ≤ c.val.toNat := h3
    omega
  · rintro rfl
    exact absurd h2 (by decide)

theorem isspace_of_digit {c : Char} (h : isdigit c = true) : isspace c = false :=
  isspace_of_ne (ne_of_pred h (by decide)) (ne_of_pred h (by decide)) (ne_of_pred h (by decide))
    (ne_of_pred h (by decide)) (ne_of_pred h (by decide)) (ne_of_pred h (by decide))

theorem string_append_mk (v : String) (cs ds : List Char) :
    v ++ String.mk cs ++ String.mk ds = v ++ String.mk (cs ++ ds) := by
  apply String.ext; simp

theorem string_push_append (v : String) (c : Char) (ds : List Char) :
    v.push c ++ String.mk ds = v ++ String.mk (c :: ds) := by
  apply String.ext; simp

/-- The reader `getDecimal` on digits that end the line. -/
theorem getDecimal_whole {a : Lexer} {ds tail : List Char} (v : String) (col : Int)
    (hr : a.rest = ds ++ tail) (hd : ∀ c ∈ ds, isdigit c = true) (ht : LineEnd tail)
    (hf : a.newLine = false) :
    a.getDecimal v col =
      ({ type := .Number, value := v ++ String.mk ds, line := a.line, column := col },
       { a with rest := tail, column := a.column + (ds.length : Int) }) := by
  have hc := collectWhile_run isdigit ds a.rest.length a v tail hr
    (fun d h => ⟨hd d h, ne_of_pred (hd d h) (by decide)⟩) (ht.stop (by decide) (by decide)) hf
    (by rw [hr]; simp)
  have hp : ({ a with rest := tail, column := a.column + (ds.length : Int) } : Lexer).peek =
      tail.getD 0 NUL := rfl
  have hne : tail.getD 0 NUL ≠ '.' := by
    intro h
    have := ht.stop (p := fun c => c == '.') (by decide) (by decide)
    rw [h] at this
    exact absurd this (by decide)
  unfold Lexer.getDecimal
  simp only [hc, hp, if_neg hne]
  rw [if_neg (by rw [ht.stop (p := isIdentStart) (by decide) (by decide)]; simp)]

/-- The reader `getDecimal` on digits, a dot and the digits that end the line. -/
theorem getDecimal_frac {a : Lexer} {ds f tail : List Char} (v : String) (col : Int)
    (hr : a.rest = ds ++ '.' :: (f ++ tail)) (hd : ∀ c ∈ ds, isdigit c = true)
    (hfd : ∀ c ∈ f, isdigit c = true) (ht : LineEnd tail) (hf : a.newLine = false) :
    a.getDecimal v col =
      ({ type := .Number, value := v ++ String.mk (ds ++ '.' :: f), line := a.line, column := col },
       { a with rest := tail, column := a.column + (ds.length : Int) + 1 + (f.length : Int) }) := by
  have hc := collectWhile_run isdigit ds a.rest.length a v ('.' :: (f ++ tail)) hr
    (fun d h => ⟨hd d h, ne_of_pred (hd d h) (by decide)⟩)
    (by show isdigit '.' = false; decide) hf (by rw [hr]; simp)
  have hp : ({ a with rest := '.' :: (f ++ tail), column := a.column + (ds.length : Int) } :
      Lexer).peek = '.' := rfl
  have ha : ({ a with rest := '.' :: (f ++ tail), column := a.column + (ds.length : Int) } :
      Lexer).advance =
      ('.', { a with rest := f ++ tail, column := a.column + (ds.length : Int) + 1 }) :=
    Lexer.advance_plain rfl (by decide) hf
  have hc2 := collectWhile_run isdigit f (f ++ tail).length
    ({ a with rest := f ++ tail, column := a.column + (ds.length : Int) + 1 } : Lexer)
    ((v ++ String.mk ds).push '.') tail rfl
    (fun d h => ⟨hfd d h, ne_of_pred (hfd d h) (by decide)⟩) (ht.stop (by decide) (by decide)) hf
    (by simp)
  have hp2 : ({ a with
      rest := tail
      column := a.column + (ds.length : Int) + 1 + (f.length : Int) } : Lexer).peek =
      tail.getD 0 NUL := rfl
  unfold Lexer.getDecimal
  simp only [hc, hp, ha, if_true]
  rw [hc2]
  simp only
  rw [hp2, if_neg (by rw [ht.stop (p := isIdentStart) (by decide) (by decide)]; simp)]
  rw [string_push_append, string_append_mk]

theorem getNumber_zero {a : Lexer} {after : List Char} (hr : a.rest = '0' :: after)
    (hf : a.newLine = false)
    (hn : after.getD 0 NUL = '.' ∨ after.getD 0 NUL = NUL ∨ after.getD 0 NUL = '\n') :
    a.getNumber =
      ({ a with rest := after, column := a.column + 1 } : Lexer).getDecimal "0" a.column := by
  have ha : a.advance = ('0', { a with rest := after, column := a.column + 1 }) :=
    Lexer.advance_plain hr (by decide) hf
  have hp : ({ a with rest := after, column := a.column + 1 } : Lexer).peek = after.getD 0 NUL :=
    rfl
  unfold Lexer.getNumber
  simp only [Lexer.peek_eq_of_rest hr, if_true, ha, hp]
  rcases hn with h | h | h <;> rw [h] <;>
    rw [if_neg (by decide), if_neg (by decide)] <;> rfl

theorem getNumber_nonzero {a : Lexer} (h : a.peek ≠ '0') :
    a.getNumber = a.getDecimal "" a.column := by
  unfold Lexer.getNumber
  simp only [if_neg h]

theorem LineEnd.getD {tail : List Char} (h : LineEnd tail) :
    tail.getD 0 NUL = NUL ∨ tail.getD 0 NUL = '\n' := by
  rcases h with rfl | ⟨r, rfl⟩
  · exact Or.inl rfl
  · exact Or.inr rfl

/-- The reader `getNumber` on an integer that ends the line. -/
theorem getNumber_whole {a : Lexer} {ds tail : List Char} (hn : isNumeral ds) (ht : LineEnd tail)
    (hr : a.rest = ds ++ tail) (hf : a.newLine = false) :
    ∃ tok lx', a.getNumber = (tok, lx') ∧ (tok.type = .Number ∧ tok.value = String.mk ds) ∧
      lx'.rest = tail ∧ lx'.newLine = false ∧ lx'.symbolTable = a.symbolTable ∧
      lx'.input = a.input := by
  obtain ⟨hne, hd, hz⟩ := hn
  cases ds with
  | nil => exact absurd rfl hne
  | cons c ds' =>
      by_cases hc : c = '0'
      · subst hc
        have := hz rfl
        simp only [List.cons.injEq, true_and] at this
        subst this
        rw [@getNumber_zero a tail (by simpa using hr) hf (Or.inr ht.getD),
          @getDecimal_whole ({ a with rest := tail, column := a.column + 1 } : Lexer) [] tail
            "0" a.column rfl (by simp) ht hf]
        exact ⟨_, _, rfl, ⟨rfl, by apply String.ext; simp⟩, rfl, hf, rfl, rfl⟩
      · rw [getNumber_nonzero (by rw [Lexer.peek_eq_of_rest (by simpa using hr)]; exact hc),
          getDecimal_whole "" a.column hr hd ht hf, string_empty_append]
        exact ⟨_, _, rfl, ⟨rfl, rfl⟩, rfl, hf, rfl, rfl⟩

/-- The reader `getNumber` on a decimal float that ends the line. -/
theorem getNumber_frac {a : Lexer} {ds f tail : List Char} (hn : isNumeral ds)
    (hfd : ∀ c ∈ f, isdigit c = true) (ht : LineEnd tail)
    (hr : a.rest = (ds ++ '.' :: f) ++ tail) (hf : a.newLine = false) :
    ∃ tok lx', a.getNumber = (tok, lx') ∧
      (tok.type = .Number ∧ tok.value = String.mk (ds ++ '.' :: f)) ∧
      lx'.rest = tail ∧ lx'.newLine = false ∧ lx'.symbolTable = a.symbolTable ∧
      lx'.input = a.input := by
  obtain ⟨hne, hd, hz⟩ := hn
  have hr' : a.rest = ds ++ '.' :: (f ++ tail) := by simpa using hr
  cases ds with
  | nil => exact absurd rfl hne
  | cons c ds' =>
      by_cases hc : c = '0'
      · subst hc
        have := hz rfl
        simp only [List.cons.injEq, true_and] at this
        subst this
        rw [@getNumber_zero a ('.' :: (f ++ tail)) (by simpa using hr') hf (Or.inl rfl),
          @getDecimal_frac
            ({ a with rest := '.' :: (f ++ tail), column := a.column + 1 } : Lexer)
            [] f tail "0" a.column rfl (by simp) hfd ht hf]
        exact ⟨_, _, rfl, ⟨rfl, by apply String.ext; simp⟩, rfl, hf, rfl, rfl⟩
      · rw [getNumber_nonzero (by rw [Lexer.peek_eq_of_rest (by simpa using hr')]; exact hc),
          getDecimal_frac "" a.column hr' hd hfd ht hf, string_empty_append]
        exact ⟨_, _, rfl, ⟨rfl, rfl⟩, rfl, hf, rfl, rfl⟩

/-- The loop of `getString` on the characters of a string and its closing quote. -/
theorem stringBody_content (col : Int) : ∀ (cs : List Char) (n : Nat) (a : Lexer) (v : String)
    (tail : List Char), a.rest = cs ++ DQUOTE :: tail →
    (∀ c ∈ cs, c ≠ DQUOTE ∧ c ≠ '\n' ∧ c ≠ NUL) → a.newLine = false → cs.length < n →
    stringBody false col n a v =
      ({ type := .String, value := v ++ String.mk cs, line := a.line, column := col },
       { a with rest := tail, column := a.column + (cs.length : Int) + 1 })
  | [], n, a, v, tail, hr, _, hf, hn => by
      cases n with
      | zero => simp at hn
      | succ n =>
          have hr' : a.rest = DQUOTE :: tail := by simpa using hr
          have ha : a.advance = (DQUOTE, { a with rest := tail, column := a.column + 1 }) :=
            Lexer.advance_plain hr' (by decide) hf
          unfold stringBody
          simp only [Lexer.peek_eq_of_rest hr', ha]
          rw [if_neg (by decide), if_neg (by decide), if_neg (by simp), if_pos (by simp)]
          simp only [List.length_nil, Nat.cast_zero, add_zero, Prod.mk.injEq, and_true]
          congr 1
          apply String.ext; simp
  | c :: cs, n, a, v, tail, hr, hall, hf, hn => by
      cases n with
      | zero => simp at hn
      | succ n =>
          have hc := hall c (List.mem_cons_self _ _)
          have hr' : a.rest = c :: (cs ++ DQUOTE :: tail) := by simpa using hr
          have ha : a.advance =
              (c, { a with rest := cs ++ DQUOTE :: tail, column := a.column + 1 }) :=
            Lexer.advance_plain hr' hc.2.1 hf
          unfold stringBody
          simp only [Lexer.peek_eq_of_rest hr', ha]
          rw [if_neg hc.2.2, if_neg (by simp [hc.2.1]), if_neg (by simp), if_neg (by simp [hc.1])]
          rw [stringBody_content col cs n
            ({ a with rest := cs ++ DQUOTE :: tail, column := a.column + 1 } : Lexer) (v.push c)
            tail rfl (fun d hd => hall d (List.mem_cons_of_mem _ hd)) hf (by simpa using hn),
            string_push_append]
          simp only [List.length_cons, Nat.cast_add, Nat.cast_one, Prod.mk.injEq, true_and]
          congr 1
          ring

/-- The reader `getString` on a string that ends the line. -/
theorem getString_content {a : Lexer} {cs tail : List Char}
    (hall : ∀ c ∈ cs, c ≠ DQUOTE ∧ c ≠ '\n' ∧ c ≠ NUL) (ht : LineEnd tail)
    (hr : a.rest = (DQUOTE :: (cs ++ [DQUOTE])) ++ tail) (hf : a.newLine = false) :
    ∃ tok lx', a.getString = (tok, lx') ∧ (tok.type = .String ∧ tok.value = String.mk cs) ∧
      lx'.rest = tail ∧ lx'.newLine = false ∧ lx'.symbolTable = a.symbolTable ∧
      lx'.input = a.input := by
  have hr' : a.rest = DQUOTE :: (cs ++ DQUOTE :: tail) := by simpa using hr
  have ha : a.advance =
      (DQUOTE, { a with rest := cs ++ DQUOTE :: tail, column := a.column + 1 }) :=
    Lexer.advance_plain hr' (by decide) hf
  unfold Lexer.getString
  simp only [ha]
  cases cs with
  | nil =>
      have hp : ({ a with rest := [] ++ DQUOTE :: tail, column := a.column + 1 } : Lexer).peek =
          DQUOTE := rfl
      have ha2 : ({ a with rest := [] ++ DQUOTE :: tail, column := a.column + 1 } : Lexer).advance =
          (DQUOTE, { a with rest := tail, column := a.column + 1 + 1 }) :=
        Lexer.advance_plain rfl (by decide) hf
      have hp2 : ({ a with rest := tail, column := a.column + 1 + 1 } : Lexer).peek ≠ DQUOTE := by
        show tail.getD 0 NUL ≠ DQUOTE
        rcases ht.getD with h | h <;> rw [h] <;> decide
      rw [if_pos hp]
      simp only [ha2]
      rw [if_neg hp2]
      exact ⟨_, _, rfl, ⟨rfl, rfl⟩, rfl, hf, rfl, rfl⟩
  | cons c cs' =>
      have hc := hall c (List.mem_cons_self _ _)
      have hp : ({ a with rest := (c :: cs') ++ DQUOTE :: tail, column := a.column + 1 } :
          Lexer).peek ≠ DQUOTE := by
        show c ≠ DQUOTE
        exact hc.1
      rw [if_neg hp]
      rw [stringBody_content a.column (c :: cs') _
        ({ a with rest := (c :: cs') ++ DQUOTE :: tail, column := a.column + 1 } : Lexer) ""
        tail rfl hall hf (by simp; omega), string_empty_append]
      exact ⟨_, _, rfl, ⟨rfl, rfl⟩, rfl, hf, rfl, rfl⟩

/-- The reader `getIdentifier` on `True` or `False` at the end of the line. -/
theorem getIdentifier_bool {a : Lexer} {tail : List Char} (b : Bool) (ht : LineEnd tail)
    (hr : a.rest = (Lit.bool b).text ++ tail) (hf : a.newLine = false) :
    ∃ tok lx', a.getIdentifier = (tok, lx') ∧
      (tok.type = .Keyword ∧ tok.value = String.mk (Lit.bool b).text) ∧
      lx'.rest = tail ∧ lx'.newLine = false ∧ lx'.symbolTable = a.symbolTable ∧
      lx'.input = a.input := by
  have hall : ∀ c ∈ (Lit.bool b).text, isIdentChar c = true ∧ c ≠ '\n' := by
    cases b <;> decide
  have hk : isKeyword (String.mk (Lit.bool b).text) = true := by
    cases b <;> decide
  have hcol := collectWhile_run isIdentChar (Lit.bool b).text a.rest.length a "" tail hr hall
    (ht.stop (by decide) (by decide)) hf (by rw [hr]; simp)
  unfold Lexer.getIdentifier
  simp only
  rw [hcol, string_empty_append]
  simp only [hk, if_true]
  exact ⟨_, _, rfl, ⟨rfl, rfl⟩, rfl, hf, rfl, rfl⟩

theorem skip_none {a : Lexer} (hs : isspace a.peek = false) (hc : a.peek ≠ '#') :
    a.skipWhitespace.skipComment = a := by
  rw [skipWhitespace_none (isInlineSpace_of_not_space hs), skipComment_none hc]

/-- A blank before a token is skipped. -/
theorem scanStep_blank {lx : Lexer} {c : Char} {r : List Char} (hr : lx.rest = ' ' :: c :: r)
    (hs : isspace c = false) (hc : c ≠ '#') (hf : lx.newLine = false) :
    lx.scanStep = ({ lx with rest := c :: r, column := lx.column + 1 } : Lexer).scanStep := by
  have hp2 : ({ lx with rest := c :: r, column := lx.column + 1 } : Lexer).peek = c :=
    Lexer.peek_eq_of_rest rfl
  have h2 : lx.skipWhitespace.skipComment =
      { lx with rest := c :: r, column := lx.column + 1 } := by
    rw [skipWhitespace_one hr (isInlineSpace_of_not_space hs) hf,
      skipComment_none (by rw [hp2]; exact hc)]
  rw [scanStep_of (indentPhase_flat hf) h2,
    scanStep_of (@indentPhase_flat ({ lx with rest := c :: r, column := lx.column + 1 } : Lexer) hf)
      (skip_none (by rw [hp2]; exact hs) (by rw [hp2]; exact hc))]

theorem scanStep_word {a : Lexer} (hp : isIdentStart a.peek = true) (hf : a.newLine = false) :
    a.scanStep = ([a.getIdentifier.1], a.getIdentifier.2, false) := by
  have hic := isIdentChar_of_start hp
  rw [scanStep_of (indentPhase_flat hf)
      (skip_none (isspace_of_identChar hic) (ne_of_pred hic (by decide))),
    if_neg (ne_of_pred hic (by decide)), if_pos hp]
  rfl

theorem scanStep_number {a : Lexer} (hp : isdigit a.peek = true) (hf : a.newLine = false) :
    a.scanStep = ([a.getNumber.1], a.getNumber.2, false) := by
  rw [scanStep_of (indentPhase_flat hf)
      (skip_none (isspace_of_digit hp) (ne_of_pred hp (by decide))),
    if_neg (ne_of_pred hp (by decide)), if_neg (by rw [isIdentStart_of_digit hp]; simp),
    if_pos hp]
  rfl

theorem scanStep_string {a : Lexer} (hp : a.peek = DQUOTE) (hf : a.newLine = false) :
    a.scanStep = ([a.getString.1], a.getString.2, false) := by
  rw [scanStep_of (indentPhase_flat hf)
      (skip_none (by rw [hp]; decide) (by rw [hp]; decide)),
    if_neg (by rw [hp]; decide), if_neg (by rw [hp]; decide), if_neg (by rw [hp]; decide),
    if_pos hp]
  rfl

/-- The round that reads a blank and the literal that ends the line. -/
theorem scanStep_literal {lx : Lexer} {l : Lit} {tail : List Char} (hl : l.wellFormed)
    (ht : LineEnd tail) (hr : lx.rest = ' ' :: (l.text ++ tail)) (hf : lx.newLine = false) :
    ∃ lit lx', lx.scanStep = ([lit], lx', false) ∧ l.readAs lit ∧ lx'.rest = tail ∧
      lx'.newLine = false ∧ lx'.symbolTable = lx.symbolTable ∧ lx'.input = lx.input := by
  cases l with
  | int ds =>
      obtain ⟨hn, -⟩ := hl
      obtain ⟨c, ds', rfl⟩ : ∃ c ds', ds = c :: ds' := by
        cases ds with
        | nil => exact absurd rfl hn.1
        | cons c ds' => exact ⟨c, ds', rfl⟩
      have hd : isdigit c = true := hn.2.1 c (List.mem_cons_self _ _)
      have hr' : lx.rest = ' ' :: c :: (ds' ++ tail) := by simpa [Lit.text] using hr
      rw [scanStep_blank hr' (isspace_of_digit hd) (ne_of_pred hd (by decide)) hf,
        @scanStep_number ({ lx with rest := c :: (ds' ++ tail), column := lx.column + 1 } : Lexer)
          hd hf]
      obtain ⟨tok, lx', h1, h2, h3, h4, h5, h6⟩ :=
        @getNumber_whole ({ lx with rest := c :: (ds' ++ tail), column := lx.column + 1 } : Lexer)
          (c :: ds') tail hn ht rfl hf
      rw [h1]
      exact ⟨tok, lx', rfl, h2, h3, h4, h5, h6⟩
  | float w f =>
      obtain ⟨hn, -, hfd, -⟩ := hl
      obtain ⟨c, w', rfl⟩ : ∃ c w', w = c :: w' := by
        cases w with
        | nil => exact absurd rfl hn.1
        | cons c w' => exact ⟨c, w', rfl⟩
      have hd : isdigit c = true := hn.2.1 c (List.mem_cons_self _ _)
      have hr' : lx.rest = ' ' :: c :: (w' ++ '.' :: (f ++ tail)) := by simpa [Lit.text] using hr
      rw [scanStep_blank hr' (isspace_of_digit hd) (ne_of_pred hd (by decide)) hf,
        @scanStep_number
          ({ lx with rest := c :: (w' ++ '.' :: (f ++ tail)), column := lx.column + 1 } : Lexer)
          hd hf]
      obtain ⟨tok, lx', h1, h2, h3, h4, h5, h6⟩ :=
        @getNumber_frac
          ({ lx with rest := c :: (w' ++ '.' :: (f ++ tail)), column := lx.column + 1 } : Lexer)
          (c :: w') f tail hn hfd ht (by simp) hf
      rw [h1]
      exact ⟨tok, lx', rfl, h2, h3, h4, h5, h6⟩
  | str cs =>
      have hall : ∀ c ∈ cs, c ≠ DQUOTE ∧ c ≠ '\n' ∧ c ≠ NUL :=
        fun c hc => ⟨(hl c hc).1, (hl c hc).2.1, (hl c hc).2.2.1⟩
      have hr' : lx.rest = ' ' :: DQUOTE :: (cs ++ DQUOTE :: tail) := by simpa [Lit.text] using hr
      rw [scanStep_blank hr' (by decide) (by decide) hf,
        @scanStep_string
          ({ lx with rest := DQUOTE :: (cs ++ DQUOTE :: tail), column := lx.column + 1 } : Lexer)
          rfl hf]
      obtain ⟨tok, lx', h1, h2, h3, h4, h5, h6⟩ :=
        @getString_content
          ({ lx with rest := DQUOTE :: (cs ++ DQUOTE :: tail), column := lx.column + 1 } : Lexer)
          cs tail hall ht (by simp) hf
      rw [h1]
      exact ⟨tok, lx', rfl, h2, h3, h4, h5, h6⟩
  | bool b =>
      obtain ⟨c, r, hcr, hc⟩ : ∃ c r, (Lit.bool b).text = c :: r ∧ isIdentStart c = true := by
        cases b
        · exact ⟨'F', _, rfl, by decide⟩
        · exact ⟨'T', _, rfl, by decide⟩
      have hic := isIdentChar_of_start hc
      have hr' : lx.rest = ' ' :: c :: (r ++ tail) := by rw [hr, hcr]; rfl
      rw [scanStep_blank hr' (isspace_of_identChar hic) (ne_of_pred hic (by decide)) hf,
        @scanStep_word ({ lx with rest := c :: (r ++ tail), column := lx.column + 1 } : Lexer)
          hc hf]
      obtain ⟨tok, lx', h1, h2, h3, h4, h5, h6⟩ :=
        @getIdentifier_bool ({ lx with rest := c :: (r ++ tail), column := lx.column + 1 } : Lexer)
          tail b ht (by rw [hcr]; rfl) hf
      rw [h1]
      exact ⟨tok, lx', rfl, h2, h3, h4, h5, h6⟩

theorem scan_round {lx lx1 : Lexer} {new : List Token} (h : lx.scanStep = (new, lx1, false))
    (fuel : Nat) (acc : List Token) : scan (fuel + 1) lx acc = scan fuel lx1 (acc ++ new) := by
  rw [scan, h]

theorem scan_last {lx lx1 : Lexer} {new : List Token} (h : lx.scanStep = (new, lx1, true))
    (fuel : Nat) (acc : List Token) : scan (fuel + 1) lx acc = some (acc ++ new, lx1) := by
  rw [scan, h]

/-- The three rounds that read a line `x = LIT`. -/
theorem scan_line {lx : Lexer} {x : List Char} {l : Lit} {tail : List Char} (hx : isName x)
    (hl : l.wellFormed) (ht : LineEnd tail) (hr : lx.rest = litLine x l ++ tail)
    (hn : lx.newLine = true)
    (hfresh : lx.symbolTable.nameToId.lookup (String.mk x) = none)
    (fuel : Nat) (acc : List Token) :
    ∃ ind nm eq lit lx', scan (fuel + 3) lx acc = scan fuel lx' (acc ++ [ind, nm, eq, lit]) ∧
      (ind.type = .Indent ∧ ind.value = "0") ∧
      (nm.type = .Identifier ∧ nm.value = String.mk x) ∧
      (eq.type = .Operator ∧ eq.value = "=") ∧ l.readAs lit ∧
      lx'.rest = tail ∧ lx'.newLine = false ∧
      lx'.symbolTable = (lx.symbolTable.insert (String.mk x)).2 ∧ lx'.input = lx.input := by
  have hr1 : lx.rest = x ++ (' ' :: '=' :: ' ' :: (l.text ++ tail)) := by
    rw [hr]; simp [litLine]
  obtain ⟨ind, nm, lx1, s1, hi, hnm, r1, f1, t1, i1⟩ :=
    scanStep_name hx hr1 (by show isIdentChar ' ' = false; decide) hn hfresh
  obtain ⟨eq, lx2, s2, he, r2, f2, t2, i2⟩ := scanStep_assign r1 f1
  obtain ⟨lit, lx3, s3, hlit, r3, f3, t3, i3⟩ := scanStep_literal hl ht r2 f2
  refine ⟨ind, nm, eq, lit, lx3, ?_, hi, hnm, he, hlit, r3, f3, by rw [t3, t2, t1],
    by rw [i3, i2, i1]⟩
  rw [scan_round s1, scan_round s2, scan_round s3]
  simp

theorem insert_fresh (t : SymbolTable) (name : String) (h : t.nameToId.lookup name = none) :
    (t.insert name).2 =
      { nameToId := t.nameToId ++ [(name, t.nextId)],
        entries := t.entries ++
          [{ id := t.nextId, name := name, dataType := "unknown", value := "unknown" }],
        nextId := t.nextId + 1 } := by
  unfold SymbolTable.insert
  rw [h]

theorem Lit.text_ne_nil {l : Lit} (h : l.wellFormed) : l.text ≠ [] := by
  cases l with
  | int ds => exact h.1.1
  | float w f => simp [Lit.text]
  | str cs => simp [Lit.text]
  | bool b => cases b <;> simp [Lit.text]

theorem litLine_length {x : List Char} {l : Lit} (hx : isName x) (hl : l.wellFormed) :
    5 ≤ (litLine x l).length := by
  obtain ⟨⟨c, r, rfl, -⟩, -⟩ := hx
  have := List.length_pos.mpr (Lit.text_ne_nil hl)
  simp only [litLine, List.length_append, List.length_cons]
  omega

/-- The scan of the lines `x = LIT`: the tokens, and the names entered in the table in
the order of the lines. -/
theorem scan_lines : ∀ (more : List (List Char × Lit)) (x : List Char) (l : Lit) (lx : Lexer)
    (acc : List Token) (fuel : Nat),
    (∀ p ∈ (x, l) :: more, isName p.1 ∧ p.2.wellFormed) →
    (((x, l) :: more).map (fun p => String.mk p.1)).Nodup →
    (∀ p ∈ (x, l) :: more, lx.symbolTable.nameToId.lookup (String.mk p.1) = none) →
    lx.rest = litSource ((x, l) :: more) → lx.newLine = true → 4 * (more.length + 1) ≤ fuel →
    ∃ toks lx', scan fuel lx acc = some (acc ++ toks, lx') ∧ LitTokens ((x, l) :: more) toks ∧
      lx'.symbolTable =
        { nameToId := lx.symbolTable.nameToId ++ scannedIds lx.symbolTable.nextId ((x, l) :: more),
          entries := lx.symbolTable.entries ++
            scannedEntries lx.symbolTable.nextId ((x, l) :: more),
          nextId := lx.symbolTable.nextId + ((more.length + 1 : Nat) : Int) } ∧
      lx'.input = lx.input
  | [], x, l, lx, acc, fuel, hok, _, hfresh, hr, hn, hfuel => by
      obtain ⟨f, rfl⟩ : ∃ f, fuel = f + 1 + 3 := ⟨fuel - 4, by simp at hfuel; omega⟩
      have hx := hok (x, l) (List.mem_cons_self _ _)
      obtain ⟨ind, nm, eq, lit, lx3, s, hi, hnm, he, hlit, r3, f3, t3, i3⟩ :=
        @scan_line lx x l [] hx.1 hx.2 (Or.inl rfl) (by rw [hr]; simp [litSource, moreLines]) hn
          (hfresh (x, l) (List.mem_cons_self _ _)) (f + 1) acc
      obtain ⟨e, s4, he4⟩ := scanStep_end r3 f3
      refine ⟨[ind, nm, eq, lit, e], lx3, ?_, ?_, ?_, i3⟩
      · rw [s, scan_last s4]
        simp
      · exact ⟨ind, nm, eq, lit, [e], rfl, hi, hnm, he, hlit, e, rfl, he4⟩
      · rw [t3, insert_fresh _ _ (hfresh (x, l) (List.mem_cons_self _ _))]
        simp [scannedIds, scannedEntries]
  | (y, m) :: more, x, l, lx, acc, fuel, hok, hnd, hfresh, hr, hn, hfuel => by
      obtain ⟨f, rfl⟩ : ∃ f, fuel = f + 1 + 3 :=
        ⟨fuel - 4, by simp only [List.length_cons] at hfuel; omega⟩
      have hx := hok (x, l) (List.mem_cons_self _ _)
      have hfx := hfresh (x, l) (List.mem_cons_self _ _)
      obtain ⟨ind, nm, eq, lit, lx3, s, hi, hnm, he, hlit, r3, f3, t3, i3⟩ :=
        @scan_line lx x l ('\n' :: litSource ((y, m) :: more)) hx.1 hx.2 (Or.inr ⟨_, rfl⟩)
          (by rw [hr]; simp [litSource, moreLines]) hn hfx (f + 1) acc
      obtain ⟨lx4, s4, r4, f4, t4, i4⟩ := scanStep_newline r3 f3
      have hnd' := List.nodup_cons.mp hnd
      have hfresh' : ∀ p ∈ (y, m) :: more,
          lx4.symbolTable.nameToId.lookup (String.mk p.1) = none := by
        intro p hp
        rw [t4, t3, insert_fresh _ _ hfx]
        simp only
        rw [ParserSymbolTable.lookup_append_single, hfresh p (List.mem_cons_of_mem _ hp)]
        have hne : String.mk p.1 ≠ String.mk x := by
          intro e
          exact hnd'.1 (List.mem_map.mpr ⟨p, hp, e⟩)
        simp [hne]
      obtain ⟨toks, lx', s5, htoks, t5, i5⟩ := scan_lines more y m lx4
        (acc ++ [ind, nm, eq, lit] ++ []) f
        (fun p hp => hok p (List.mem_cons_of_mem _ hp)) hnd'.2 hfresh' r4 f4
        (by simp only [List.length_cons] at hfuel ⊢; omega)
      refine ⟨ind :: nm :: eq :: lit :: toks, lx', ?_, ?_, ?_, by rw [i5, i4, i3]⟩
      · rw [s, scan_round s4, s5]
        simp
      · exact ⟨ind, nm, eq, lit, toks, rfl, hi, hnm, he, hlit, htoks⟩
      · rw [t5, t4, t3, insert_fresh _ _ hfx]
        simp [scannedIds, scannedEntries]
        omega

theorem litSource_length : ∀ (lines : List (List Char × Lit)),
    (∀ p ∈ lines, isName p.1 ∧ p.2.wellFormed) → 4 * lines.length ≤ (litSource lines).length + 1
  | [], _ => by simp
  | [(x, l)], h => by
      have : 5 ≤ (litLine x l).length :=
        litLine_length (h (x, l) (List.mem_cons_self _ _)).1 (h (x, l) (List.mem_cons_self _ _)).2
      simp only [litSource, moreLines, List.length_append, List.length_nil, List.length_cons]
      omega
  | (x, l) :: (y, m) :: more, h => by
      have h1 : 5 ≤ (litLine x l).length :=
        litLine_length (h (x, l) (List.mem_cons_self _ _)).1 (h (x, l) (List.mem_cons_self _ _)).2
      have h2 := litSource_length ((y, m) :: more) (fun p hp => h p (List.mem_cons_of_mem _ hp))
      simp only [litSource, moreLines, List.length_append, List.length_cons] at h2 ⊢
      omega

theorem takeWhile_run {p : Char → Bool} {cs tail : List Char} (h : ∀ c ∈ cs, p c = true)
    (ht : p (tail.getD 0 NUL) = false) : (cs ++ tail).takeWhile p = cs := by
  induction cs with
  | nil =>
      cases tail with
      | nil => rfl
      | cons c r =>
          simp only [List.getD_cons_zero] at ht
          simp [List.takeWhile, ht]
  | cons c cs ih =>
      simp only [List.cons_append, List.takeWhile_cons, h c (List.mem_cons_self _ _), if_true]
      rw [ih (fun d hd => h d (List.mem_cons_of_mem _ hd))]

theorem dropWhile_run {p : Char → Bool} {cs tail : List Char} (h : ∀ c ∈ cs, p c = true)
    (ht : p (tail.getD 0 NUL) = false) : (cs ++ tail).dropWhile p = tail := by
  induction cs with
  | nil =>
      cases tail with
      | nil => rfl
      | cons c r =>
          simp only [List.getD_cons_zero] at ht
          simp [List.dropWhile, ht]
  | cons c cs ih =>
      simp only [List.cons_append, List.dropWhile_cons, h c (List.mem_cons_self _ _), if_true]
      exact ih (fun d hd => h d (List.mem_cons_of_mem _ hd))

/-- The first character of a literal, which is no whitespace, and the characters of the
literal, none of which ends the expression of the assignment pattern. -/
theorem Lit.text_chars {l : Lit} (h : l.wellFormed) :
    (∃ c r, l.text = c :: r ∧ isspace c = false) ∧ ∀ c ∈ l.text, isExprChar c = true := by
  cases l with
  | int ds =>
      obtain ⟨⟨hne, hd, -⟩, -⟩ := h
      refine ⟨?_, fun c hc => ?_⟩
      · cases ds with
        | nil => exact absurd rfl hne
        | cons c r => exact ⟨c, r, rfl, isspace_of_digit (hd c (List.mem_cons_self _ _))⟩
      · have := hd c hc
        simp only [isExprChar, Bool.and_eq_true, bne_iff_ne, ne_eq]
        exact ⟨ne_of_pred this (by decide), ne_of_pred this (by decide)⟩
  | float w f =>
      obtain ⟨⟨hne, hd, -⟩, -, hfd, -⟩ := h
      refine ⟨?_, fun c hc => ?_⟩
      · cases w with
        | nil => exact absurd rfl hne
        | cons c r => exact ⟨c, _, rfl, isspace_of_digit (hd c (List.mem_cons_self _ _))⟩
      · simp only [Lit.text, List.mem_append, List.mem_cons] at hc
        rcases hc with hc | rfl | hc
        · have := hd c hc
          simp only [isExprChar, Bool.and_eq_true, bne_iff_ne, ne_eq]
          exact ⟨ne_of_pred this (by decide), ne_of_pred this (by decide)⟩
        · decide
        · have := hfd c hc
          simp only [isExprChar, Bool.and_eq_true, bne_iff_ne, ne_eq]
          exact ⟨ne_of_pred this (by decide), ne_of_pred this (by decide)⟩
  | str cs =>
      refine ⟨⟨DQUOTE, _, rfl, by decide⟩, fun c hc => ?_⟩
      simp only [Lit.text, List.mem_append, List.mem_cons, List.mem_singleton,
        List.not_mem_nil, or_false] at hc
      rcases hc with rfl | hc | rfl
      · decide
      · have := h c hc
        simp only [isExprChar, Bool.and_eq_true, bne_iff_ne, ne_eq]
        exact ⟨this.2.1, this.2.2.2⟩
      · decide
  | bool b =>
      cases b
      · exact ⟨⟨'F', _, rfl, by decide⟩, by decide⟩
      · exact ⟨⟨'T', _, rfl, by decide⟩, by decide⟩

/-- The assignment pattern matches a line `x = LIT` at its start: the name, the text of
the literal, and what follows the line. -/
theorem matchAssignAt_line {x : List Char} {l : Lit} {tail : List Char} (hx : isName x)
    (hl : l.wellFormed) (ht : LineEnd tail) :
    matchAssignAt (litLine x l ++ tail) = some (x, l.text, tail) := by
  obtain ⟨⟨c, x', rfl, hc⟩, hall, -⟩ := hx
  obtain ⟨⟨d, r, hdr, hd⟩, hexpr⟩ := Lit.text_chars hl
  have e1 : litLine (c :: x') l ++ tail = (c :: x') ++ (' ' :: '=' :: ' ' :: (l.text ++ tail)) := by
    simp [litLine]
  have e3 : (l.text ++ tail).takeWhile isExprChar = l.text ∧
      (l.text ++ tail).dropWhile isExprChar = tail := by
    rcases ht with rfl | ⟨r, rfl⟩
    · simp only [List.append_nil]
      exact ⟨List.takeWhile_eq_self_iff.mpr hexpr, List.dropWhile_eq_nil_iff.mpr hexpr⟩
    · exact ⟨takeWhile_run hexpr rfl, dropWhile_run hexpr rfl⟩
  have e2 : matchExprPart (' ' :: (l.text ++ tail)) = some (l.text, tail) := by
    have hin : matchExprPart (l.text ++ tail) = some (l.text, tail) := by
      have hde : isExprChar d = true := hexpr d (by rw [hdr]; exact List.mem_cons_self _ _)
      rw [hdr] at e3 ⊢
      simp only [List.cons_append] at e3 ⊢
      rw [matchExprPart]
      simp only [hd, Bool.false_eq_true, if_false, hde, if_true, e3.1, e3.2]
    rw [matchExprPart]
    simp only [show isspace ' ' = true by decide, if_true, hin]
  rw [e1]
  unfold matchAssignAt
  simp only [List.cons_append, hc, if_true]
  rw [← List.cons_append,
    dropWhile_run (p := isIdentChar) hall (by show isIdentChar ' ' = false; decide),
    takeWhile_run (p := isIdentChar) hall (by show isIdentChar ' ' = false; decide)]
  have e4 : (' ' :: '=' :: ' ' :: (l.text ++ tail)).dropWhile isspace =
      '=' :: ' ' :: (l.text ++ tail) := by
    simp [List.dropWhile, show isspace ' ' = true by decide, show isspace '=' = false by decide]
  rw [e4]
  simp only [e2]

theorem searchAssign_line {x : List Char} {l : Lit} {tail : List Char} (hx : isName x)
    (hl : l.wellFormed) (ht : LineEnd tail) :
    searchAssign (litLine x l ++ tail) = some (x, l.text, tail) := by
  have h := matchAssignAt_line hx hl ht
  obtain ⟨⟨c, x', rfl, -⟩, -⟩ := hx
  have e1 : litLine (c :: x') l ++ tail = c :: (x' ++ ' ' :: '=' :: ' ' :: (l.text ++ tail)) := by
    simp [litLine]
  rw [e1] at h ⊢
  rw [searchAssign, h]

theorem searchAssign_newline (s : List Char) : searchAssign ('\n' :: s) = searchAssign s := by
  rw [searchAssign]
  have : matchAssignAt ('\n' :: s) = none := by
    unfold matchAssignAt
    simp [show isIdentStart '\n' = false by decide]
  rw [this]

theorem filter_nonspace {cs : List Char} (h : ∀ c ∈ cs, isspace c = false) :
    cs.filter (fun c => !isspace c) = cs :=
  List.filter_eq_self.mpr (fun c hc => by simp [h c hc])

theorem mem_filter_nonspace {cs : List Char} {c : Char}
    (h : c ∈ cs.filter (fun c => !isspace c)) : isspace c = false := by
  have := (List.mem_filter.mp h).2
  simpa using this

/-- What `detectTypes` does with one match on a line `x = LIT`. -/
theorem seedAssign_lit (t : SymbolTable) (x : List Char) {l : Lit} (hl : l.wellFormed) :
    seedAssign t x l.text = t.updateType (String.mk x) l.lexerType l.lexerValue := by
  cases l with
  | int ds =>
      obtain ⟨⟨hne, hd, -⟩, -⟩ := hl
      have hf := filter_nonspace (fun c hc => isspace_of_digit (hd c hc))
      unfold seedAssign Lit.lexerValue
      simp only [Lit.text, Lit.lexerType, hf]
      rw [if_pos]
      simp only [Bool.and_eq_true, Bool.not_eq_true', List.isEmpty_eq_false, List.all_eq_true]
      exact ⟨hne, hd⟩
  | float w f =>
      obtain ⟨⟨hne, hd, -⟩, hfne, hfd, -⟩ := hl
      have hall : ∀ c ∈ w ++ '.' :: f, isspace c = false := by
        intro c hc
        simp only [List.mem_append, List.mem_cons] at hc
        rcases hc with hc | rfl | hc
        · exact isspace_of_digit (hd c hc)
        · decide
        · exact isspace_of_digit (hfd c hc)
      have hf := filter_nonspace hall
      have h1 : (w ++ '.' :: f).all isdigit = false := by
        rw [List.all_eq_false]
        exact ⟨'.', by simp, by decide⟩
      have h2 : isFloatText (w ++ '.' :: f) = true := by
        unfold isFloatText
        rw [@takeWhile_run isdigit w ('.' :: f) hd (by show isdigit '.' = false; decide),
          @dropWhile_run isdigit w ('.' :: f) hd (by show isdigit '.' = false; decide)]
        simp only [Bool.and_eq_true, Bool.not_eq_true', List.isEmpty_eq_false, List.all_eq_true]
        exact ⟨⟨hne, hfne⟩, hfd⟩
      unfold seedAssign Lit.lexerValue
      simp only [Lit.text, Lit.lexerType, hf, h1, Bool.and_false, Bool.false_eq_true, if_false, h2,
        if_true]
  | str cs =>
      have hf : (DQUOTE :: (cs ++ [DQUOTE])).filter (fun c => !isspace c) =
          DQUOTE :: (cs.filter (fun c => !isspace c) ++ [DQUOTE]) := by
        simp [List.filter_cons, List.filter_append, show isspace DQUOTE = false by decide]
      have h1 : (DQUOTE :: (cs.filter (fun c => !isspace c) ++ [DQUOTE])).all isdigit = false := by
        simp [show isdigit DQUOTE = false by decide]
      have h2 : isFloatText (DQUOTE :: (cs.filter (fun c => !isspace c) ++ [DQUOTE])) = false := by
        unfold isFloatText
        simp [List.takeWhile, List.dropWhile, show isdigit DQUOTE = false by decide]
        split <;> rfl
      have h3 : isQuoted (DQUOTE :: (cs.filter (fun c => !isspace c) ++ [DQUOTE])) = true := by
        unfold isQuoted
        simp only [Bool.or_eq_true]
        left
        simp only [Bool.and_eq_true, decide_eq_true_eq, beq_iff_eq, List.all_eq_true, bne_iff_ne,
          ne_eq]
        refine ⟨⟨⟨?_, ?_⟩, ?_⟩, ?_⟩
        · show 2 ≤ _
          simp only [List.length_cons, List.length_append, List.length_nil]
          omega
        · rfl
        · rw [← List.cons_append]
          exact List.getLast?_concat _
        intro c hc
        have hc' : c ∈ cs.filter (fun c => !isspace c) := by simpa using hc
        have := mem_filter_nonspace hc'
        exact ⟨ne_of_pred (p := fun c => !isspace c) (by simp [this]) (by decide),
          ne_of_pred (p := fun c => !isspace c) (by simp [this]) (by decide)⟩
      unfold seedAssign Lit.lexerValue
      simp only [Lit.text, Lit.lexerType, hf, h1, Bool.and_false, Bool.false_eq_true, if_false, h2,
        h3, if_true]
  | bool b =>
      cases b
      · unfold seedAssign Lit.lexerValue
        simp only [Lit.text, Lit.lexerType]
        rw [if_neg (by decide), if_neg (by decide), if_neg (by decide), if_pos (by decide)]
      · unfold seedAssign Lit.lexerValue
        simp only [Lit.text, Lit.lexerType]
        rw [if_neg (by decide), if_neg (by decide), if_neg (by decide), if_pos (by decide)]

/-- The value that `detectTypes` stores is never the text "unknown". -/
theorem Lit.lexerValue_known {l : Lit} (hl : l.wellFormed) : l.lexerValue ≠ "unknown" := by
  obtain ⟨⟨c, r, hcr, hc⟩, hexpr⟩ := Lit.text_chars hl
  have hne : c ≠ 'u' := by
    cases l with
    | int ds =>
        have hd : isdigit c = true := hl.1.2.1 c (by simp only [Lit.text] at hcr; rw [hcr]; simp)
        exact ne_of_pred hd (by decide)
    | float w f =>
        have hd : isdigit c = true := by
          obtain ⟨⟨hne, hd, -⟩, -⟩ := hl
          cases w with
          | nil => exact absurd rfl hne
          | cons c' w' =>
              simp only [Lit.text, List.cons_append, List.cons.injEq] at hcr
              rw [← hcr.1]
              exact hd c' (List.mem_cons_self _ _)
        exact ne_of_pred hd (by decide)
    | str cs =>
        simp only [Lit.text, List.cons.injEq] at hcr
        rw [← hcr.1]
        decide
    | bool b =>
        cases b <;> simp only [Lit.text, List.cons.injEq] at hcr <;> rw [← hcr.1] <;> decide
  intro h
  have h2 : (l.lexerValue).data = "unknown".data := by rw [h]
  unfold Lit.lexerValue at h2
  rw [hcr] at h2
  simp only [List.filter_cons, hc, Bool.not_false, if_true] at h2
  have : c = 'u' := by
    have := congrArg List.head? h2
    simpa using this
  exact hne this

theorem scannedIds_lookup : ∀ (pre : List (List Char × Lit)) (k : Int) (x : List Char) (l : Lit)
    (post : List (List Char × Lit)), String.mk x ∉ pre.map (fun p => String.mk p.1) →
    (scannedIds k (pre ++ (x, l) :: post)).lookup (String.mk x) = some (k + (pre.length : Int))
  | [], k, x, l, post, _ => by simp [scannedIds, List.lookup]
  | (y, m) :: pre, k, x, l, post, h => by
      have hne : String.mk x ≠ String.mk y := by
        intro e
        exact h (List.mem_map.mpr ⟨(y, m), List.mem_cons_self _ _, e.symm⟩)
      have hb : (String.mk x == String.mk y) = false := by simpa using hne
      have ih := scannedIds_lookup pre (k + 1) x l post
        (fun hm => h (List.mem_cons_of_mem _ hm))
      show List.lookup (String.mk x)
        ((String.mk y, k) :: scannedIds (k + 1) (pre ++ (x, l) :: post)) = _
      rw [List.lookup, hb, ih, List.length_cons]
      push_cast
      congr 1
      ring

theorem modify_at_length {α : Type} (f : α → α) : ∀ (a : List α) (e : α) (b : List α),
    List.modify f a.length (a ++ e :: b) = a ++ f e :: b
  | [], e, b => rfl
  | c :: a, e, b => by
      rw [List.length_cons, List.cons_append, List.modify_succ_cons, modify_at_length f a e b]
      rfl

theorem modify_fixed {α : Type} (f : α → α) : ∀ (n : Nat) (a : List α), (∀ e ∈ a, f e = e) →
    List.modify f n a = a
  | n, [], _ => List.modify_nil f n
  | 0, c :: a, h => by rw [List.modify_zero_cons, h c (List.mem_cons_self _ _)]
  | n + 1, c :: a, h => by
      rw [List.modify_succ_cons, modify_fixed f n a (fun e he => h e (List.mem_cons_of_mem _ he))]

theorem lexerEntries_length : ∀ (lines : List (List Char × Lit)) (k : Int),
    (lexerEntries k lines).length = lines.length
  | [], _ => rfl
  | (_, _) :: more, k => by simp [lexerEntries, lexerEntries_length more]

theorem lexerEntries_append : ∀ (a b : List (List Char × Lit)) (k : Int),
    lexerEntries k (a ++ b) = lexerEntries k a ++ lexerEntries (k + (a.length : Int)) b
  | [], b, k => by simp [lexerEntries]
  | (x, l) :: a, b, k => by
      show _ :: lexerEntries (k + 1) (a ++ b) = _
      rw [lexerEntries_append a b (k + 1), List.length_cons]
      push_cast
      have e : k + 1 + (a.length : Int) = k + ((a.length : Int) + 1) := by ring
      rw [e]
      rfl

theorem refine_unknown (id : Int) (name type value : String) (h : value ≠ "unknown") :
    ({ id := id, name := name, dataType := "unknown", value := "unknown" } :
      SymbolTableEntry).refine type value =
      { id := id, name := name, dataType := type, value := value } := by
  simp [SymbolTableEntry.refine, h]

theorem refine_known (e : SymbolTableEntry) (type : String) (h : e.dataType ≠ "unknown") :
    e.refine type "unknown" = e := by
  simp [SymbolTableEntry.refine, h]

/-- The update of `detectTypes` for the line after the lines `pre`. -/
theorem updateType_line (t : SymbolTable) (pre post : List (List Char × Lit)) (x : List Char)
    (l : Lit) (hl : l.wellFormed) (hids : t.nameToId = scannedIds 0 (pre ++ (x, l) :: post))
    (hent : t.entries = lexerEntries 0 pre ++ scannedEntries (pre.length : Int) ((x, l) :: post))
    (hfresh : String.mk x ∉ pre.map (fun p => String.mk p.1)) :
    t.updateType (String.mk x) l.lexerType l.lexerValue =
      { t with entries := lexerEntries 0 (pre ++ [(x, l)]) ++
          scannedEntries ((pre ++ [(x, l)]).length : Int) post } := by
  unfold SymbolTable.updateType
  rw [hids, scannedIds_lookup pre 0 x l post hfresh]
  simp only [zero_add, Int.toNat_ofNat]
  rw [hent]
  have hlen := lexerEntries_length pre 0
  simp only [scannedEntries]
  conv => lhs; rw [← hlen]
  rw [modify_at_length, refine_unknown _ _ _ _ (Lit.lexerValue_known hl), lexerEntries_append,
    hlen]
  simp [lexerEntries]

/-- The first loop of `detectTypes` on the lines after the lines `pre`. -/
theorem assignLoop_more : ∀ (post pre : List (List Char × Lit)) (t : SymbolTable) (n : Nat),
    (∀ p ∈ post, isName p.1 ∧ p.2.wellFormed) →
    ((pre ++ post).map (fun p => String.mk p.1)).Nodup →
    t.nameToId = scannedIds 0 (pre ++ post) →
    t.entries = lexerEntries 0 pre ++ scannedEntries (pre.length : Int) post →
    post.length ≤ n →
    assignLoop n (moreLines post) t = { t with entries := lexerEntries 0 (pre ++ post) }
  | [], pre, t, n, _, _, _, hent, _ => by
      have e : assignLoop n (moreLines []) t = t := by
        cases n with
        | zero => rfl
        | succ n => simp [assignLoop, moreLines, searchAssign]
      rw [e]
      cases t
      simp only [scannedEntries, List.append_nil] at hent ⊢
      simp [hent]
  | (x, l) :: post, pre, t, n, hok, hnd, hids, hent, hn => by
      cases n with
      | zero => simp at hn
      | succ n =>
          have hx := hok (x, l) (List.mem_cons_self _ _)
          have hfresh : String.mk x ∉ pre.map (fun p => String.mk p.1) := by
            intro hm
            rw [List.map_append, List.nodup_append] at hnd
            exact hnd.2.2 hm (List.mem_map.mpr ⟨(x, l), List.mem_cons_self _ _, rfl⟩)
          rw [assignLoop]
          simp only [moreLines]
          rw [searchAssign_newline, searchAssign_line hx.1 hx.2 (LineEnd.of_moreLines post)]
          simp only
          rw [seedAssign_lit t x hx.2, updateType_line t pre post x l hx.2 hids hent hfresh]
          rw [assignLoop_more post (pre ++ [(x, l)]) _ n
            (fun p hp => hok p (List.mem_cons_of_mem _ hp))
            (by simpa using hnd) (by simpa using hids) rfl (by simpa using hn)]
          simp

/-- The first loop of `detectTypes` on the source of the lines, from the table of the scan. -/
theorem assignLoop_source (lines : List (List Char × Lit)) (t : SymbolTable) (n : Nat)
    (hok : ∀ p ∈ lines, isName p.1 ∧ p.2.wellFormed)
    (hnd : (lines.map (fun p => String.mk p.1)).Nodup)
    (hids : t.nameToId = scannedIds 0 lines) (hent : t.entries = scannedEntries 0 lines)
    (hn : lines.length ≤ n) :
    assignLoop n (litSource lines) t = { t with entries := lexerEntries 0 lines } := by
  cases lines with
  | nil =>
      have e : assignLoop n (litSource []) t = t := by
        cases n with
        | zero => rfl
        | succ n => simp [assignLoop, litSource, searchAssign]
      rw [e]
      cases t
      simp only [scannedEntries] at hent
      simp [hent, lexerEntries]
  | cons p post =>
      obtain ⟨x, l⟩ := p
      cases n with
      | zero => simp at hn
      | succ n =>
          have hx := hok (x, l) (List.mem_cons_self _ _)
          rw [assignLoop]
          simp only [litSource]
          rw [searchAssign_line hx.1 hx.2 (LineEnd.of_moreLines post)]
          simp only
          rw [seedAssign_lit t x hx.2,
            updateType_line t [] post x l hx.2 (by simpa using hids) (by simpa using hent)
              (List.not_mem_nil _)]
          simp only [List.nil_append]
          rw [assignLoop_more post [(x, l)]
            ({ t with entries := lexerEntries 0 [(x, l)] ++
                scannedEntries (([(x, l)] : List (List Char × Lit)).length : Int) post } :
              SymbolTable) n
            (fun p hp => hok p (List.mem_cons_of_mem _ hp))
            hnd hids rfl (by simpa using hn)]
          simp

theorem Lit.lexerType_known (l : Lit) : l.lexerType ≠ "unknown" := by
  cases l <;> simp [Lit.lexerType]

theorem lexerEntries_known : ∀ (lines : List (List Char × Lit)) (k : Int),
    ∀ e ∈ lexerEntries k lines, e.dataType ≠ "unknown"
  | [], _, e, he => absurd he (List.not_mem_nil _)
  | (x, l) :: more, k, e, he => by
      simp only [lexerEntries, List.mem_cons] at he
      rcases he with rfl | he
      · exact Lit.lexerType_known l
      · exact lexerEntries_known more (k + 1) e he

/-- The second loop of `detectTypes` changes no entry whose type is known. -/
theorem callLoop_known : ∀ (n : Nat) (text : List Char) (t : SymbolTable),
    (∀ e ∈ t.entries, e.dataType ≠ "unknown") → callLoop n text t = t
  | 0, _, _, _ => rfl
  | n + 1, text, t, h => by
      rw [callLoop]
      cases hs : searchCall text false with
      | none => rfl
      | some r =>
          obtain ⟨name, after⟩ := r
          have e : t.updateType (String.mk name) "function" = t := by
            unfold SymbolTable.updateType
            cases t.nameToId.lookup (String.mk name) with
            | none => rfl
            | some idx =>
                simp only
                rw [modify_fixed _ _ _ (fun e he => refine_known e "function" (h e he))]
          simp only [e]
          exact callLoop_known n after t h

/-- The lexer on the lines `x = LIT`: the tokens, and the entries of its table after
`detectTypes`. -/
theorem tokenize_lines (lines : List (List Char × Lit)) (hne : lines ≠ [])
    (hok : ∀ p ∈ lines, isName p.1 ∧ p.2.wellFormed)
    (hnd : (lines.map (fun p => String.mk p.1)).Nodup) :
    ∃ toks lx, (Lexer.mk0 (litSource lines)).tokenize = some (toks, lx) ∧
      LitTokens lines toks ∧ lx.symbolTable.entries = lexerEntries 0 lines := by
  obtain ⟨⟨x, l⟩, more, rfl⟩ : ∃ p more, lines = p :: more := by
    cases lines with
    | nil => exact absurd rfl hne
    | cons p more => exact ⟨p, more, rfl⟩
  have hlen := litSource_length _ hok
  obtain ⟨toks, lx', hs, htoks, ht, hi⟩ := scan_lines more x l
    (startOf (Lexer.mk0 (litSource ((x, l) :: more)))) []
    ((Lexer.mk0 (litSource ((x, l) :: more))).rest.length + 1) hok hnd (fun p _ => rfl) rfl rfl
    (by
      have : (Lexer.mk0 (litSource ((x, l) :: more))).rest = litSource ((x, l) :: more) := rfl
      rw [this]
      simpa using hlen)
  refine ⟨toks, lx'.detectTypes, ?_, htoks, ?_⟩
  · rw [tokenize_eq, hs]
    rfl
  · have hi' : lx'.input = litSource ((x, l) :: more) := hi
    have hids : lx'.symbolTable.nameToId = scannedIds 0 ((x, l) :: more) := by
      rw [ht]; rfl
    have hent : lx'.symbolTable.entries = scannedEntries 0 ((x, l) :: more) := by
      rw [ht]; rfl
    have hn : ((x, l) :: more).length ≤ lx'.input.length := by
      rw [hi']
      simp only [List.length_cons] at hlen ⊢
      omega
    unfold Lexer.detectTypes
    simp only
    rw [hi', assignLoop_source _ _ _ hok hnd hids hent (by rw [← hi']; exact hn),
      callLoop_known _ _ _ (lexerEntries_known _ 0)]

namespace Parser

/-- The statement `name = lit` that ends its line, `lit` read by `parsePrimary` as `node`:
what `parseAssignStmt` returns. -/
theorem parseAssignStmt_moved (fuel : Nat) (p : Parser) (name eq lit next : Token)
    (tail : List Token) (node : ASTNode) (ty v : String) (hname : name.type = .Identifier)
    (heq : eq.type = .Operator ∧ eq.value = "=") (hnext : endsLine next) (hf : 9 ≤ fuel)
    (hnn : node.isNull = false)
    (hprim : ∀ f, parsePrimary (f + 1) (p.moveTo lit (next :: tail)) =
      .ok (node, p.moveTo next tail))
    (hl0 : lit.type ≠ .EOFToken) (hl1 : ¬ (lit.type = .Operator ∧ lit.value = "-"))
    (hl2 : ¬ (lit.type = .Keyword ∧ lit.value = "not"))
    (hev : ∀ q : Parser, q.evaluateExpression node = .ok v)
    (hty : ∀ q : Parser, q.getTypeFromNode node = ty) (htyu : ty ≠ "unknown") :
    parseAssignStmt fuel (p.moveTo name (eq :: lit :: next :: tail)) =
      .ok (AssignNode name (IdentifierNode name) node,
        (p.moveTo next tail).withTable (p.symbolTable.declare name.value ty "variable" v)) := by
  obtain ⟨f, rfl⟩ : ∃ f, fuel = f + 9 := ⟨fuel - 9, by omega⟩
  have e1 : (p.moveTo name (eq :: lit :: next :: tail)).expect .Identifier
      "Expected identifier for assignment" "" = .ok (p.moveTo eq (lit :: next :: tail)) :=
    expect_moveTo _ (isTok_empty hname)
  have e2 : (p.moveTo eq (lit :: next :: tail)).expect .Operator
      "Expected '=' in assignment" "=" = .ok (p.moveTo lit (next :: tail)) :=
    expect_moveTo _ (isTok_moveTo_pos heq.1 heq.2)
  have e3 : parseExpr (f + 9) (p.moveTo lit (next :: tail)) = .ok (node, p.moveTo next tail) :=
    parseExpr_atom (hprim f) hnn hnext hl0 (isTok_eq_false rfl hl1) (isTok_eq_false rfl hl2)
  unfold parseAssignStmt
  simp only
  rw [e1]
  simp only [moveTo_currentToken]
  rw [if_pos heq, e2]
  simp only
  rw [e3]
  simp only [hnn, Bool.false_eq_true, if_false, hev, hty, if_neg htyu]
  rfl

theorem contains_dot_of_digits {ds : List Char} (h : ∀ c ∈ ds, isdigit c = true) :
    ds.contains '.' = false := by
  rw [List.contains_eq_any_beq, List.any_eq_false]
  intro c hc
  have := ne_of_pred (h c hc) (show isdigit '.' = false by decide)
  simpa using this.symm

/-- The statement `name = LIT` that ends its line: what `parseAssignStmt` returns. -/
theorem parseAssignStmt_literal (fuel : Nat) (p : Parser) (name eq lit next : Token)
    (tail : List Token) (l : Lit) (hname : name.type = .Identifier)
    (heq : eq.type = .Operator ∧ eq.value = "=") (hlit : l.readAs lit) (hl : l.wellFormed)
    (hnext : endsLine next) (hf : 9 ≤ fuel) :
    ∃ node, node.isNull = false ∧
      parseAssignStmt fuel (p.moveTo name (eq :: lit :: next :: tail)) =
        .ok (node, (p.moveTo next tail).withTable
          (p.symbolTable.declare name.value l.parserType "variable" l.parserValue)) := by
  cases l with
  | int ds =>
      obtain ⟨hty, hv⟩ := hlit
      obtain ⟨hn, hs⟩ := hl
      obtain ⟨d, hd⟩ := Option.isSome_iff_exists.mp hs
      have h := parseAssignStmt_number fuel p name eq lit next tail d hname heq hty
        (by rw [hv]; exact hd) hnext hf
      have hc : lit.value.data.contains '.' = false := by
        rw [hv]; exact contains_dot_of_digits hn.2.1
      rw [hc] at h
      simp only [Bool.false_eq_true, if_false] at h
      refine ⟨AssignNode name (IdentifierNode name) (.node (.Number d "int") lit []), rfl, ?_⟩
      rw [h]
      simp [Lit.parserType, Lit.parserValue, Lit.text, hd]
  | float w f =>
      obtain ⟨hty, hv⟩ := hlit
      obtain ⟨hn, -, hfd, hs⟩ := hl
      obtain ⟨d, hd⟩ := Option.isSome_iff_exists.mp hs
      have h := parseAssignStmt_number fuel p name eq lit next tail d hname heq hty
        (by rw [hv]; exact hd) hnext hf
      have hc : lit.value.data.contains '.' = true := by
        rw [hv]; simp
      rw [hc] at h
      simp only [if_true] at h
      refine ⟨AssignNode name (IdentifierNode name) (.node (.Number d "float") lit []), rfl, ?_⟩
      rw [h]
      simp [Lit.parserType, Lit.parserValue, Lit.text, hd]
  | str cs =>
      obtain ⟨hty, hv⟩ := hlit
      refine ⟨AssignNode name (IdentifierNode name) (StringNode lit), rfl,
        (parseAssignStmt_moved fuel p name eq lit next tail (StringNode lit)
        "string" lit.value hname heq hnext hf rfl ?_ (by rw [hty]; decide) (by rw [hty]; simp)
        (by rw [hty]; simp) ?_ ?_ (by decide)).trans ?_⟩
      · intro f
        rw [parsePrimary]
        simp [hty]
      · intro q
        simp [StringNode, evaluateExpression, getValueFromNode]
      · intro q
        simp [StringNode, getTypeFromNode]
      · simp [Lit.parserType, Lit.parserValue, hv]
  | bool b =>
      obtain ⟨hty, hv⟩ := hlit
      have hv' : lit.value = "True" ∨ lit.value = "False" := by
        cases b
        · exact Or.inr hv
        · exact Or.inl hv
      refine ⟨AssignNode name (IdentifierNode name) (BooleanNode lit), rfl,
        (parseAssignStmt_moved fuel p name eq lit next tail (BooleanNode lit)
        "boolean" lit.value hname heq hnext hf rfl ?_ (by rw [hty]; decide) (by rw [hty]; simp)
        ?_ ?_ ?_ (by decide)).trans ?_⟩
      · intro f
        rw [parsePrimary]
        simp [hty, hv']
      · rintro ⟨-, h⟩
        rcases hv' with e | e <;> rw [e] at h <;> exact absurd h (by decide)
      · intro q
        simp [BooleanNode, evaluateExpression]
      · intro q
        simp [BooleanNode, getTypeFromNode]
      · simp [Lit.parserType, Lit.parserValue, hv]

/-- The statement that starts with a name and `=` is an assignment. -/
theorem parseStmt_assign (fuel : Nat) (p : Parser) (name eq : Token) (r : List Token)
    (hname : name.type = .Identifier) (heq : eq.value = "=") :
    parseStmt (fuel + 1) (p.moveTo name (eq :: r)) =
      parseAssignStmt fuel (p.moveTo name (eq :: r)) := by
  have hpk : (p.moveTo name (eq :: r)).peekNextToken.value = "=" := by
    rw [moveTo_peekNextToken]; exact heq
  rw [parseStmt]
  simp only [moveTo_currentToken, hname, isValidStatementStart, hpk]
  simp

theorem LitTokens.head_endsLine {lines : List (List Char × Lit)} {ts : List Token}
    (h : LitTokens lines ts) : ∃ next tail, ts = next :: tail ∧ endsLine next := by
  cases lines with
  | nil =>
      obtain ⟨e, rfl, he⟩ := h
      exact ⟨e, [], rfl, Or.inr he⟩
  | cons p more =>
      obtain ⟨x, l⟩ := p
      obtain ⟨ind, nm, eq, lit, rest, rfl, hi, -⟩ := h
      exact ⟨ind, _, rfl, Or.inl hi.1⟩

/-- The loop of `parseProgram` on the tokens of the lines `x = LIT`: one Assign node for
each line, no error, and the names declared in order. -/
theorem programLoop_lines : ∀ (lines : List (List Char × Lit)) (c : Token) (r : List Token)
    (p : Parser) (args : List ASTNode) (fuel : Nat),
    LitTokens lines (c :: r) → (∀ a ∈ lines, a.2.wellFormed) → lines.length + 11 ≤ fuel →
    ∃ nodes q, programLoop fuel args (p.moveTo c r) = .ok (args ++ nodes, q) ∧
      q.errors = p.errors ∧ q.symbolTable = declareLines p.symbolTable lines
  | [], c, r, p, args, fuel, h, _, hf => by
      obtain ⟨e, he, hty⟩ := h
      obtain ⟨f, rfl⟩ : ∃ f, fuel = f + 1 := ⟨fuel - 1, by omega⟩
      simp only [List.cons.injEq] at he
      obtain ⟨rfl, rfl⟩ := he
      refine ⟨[], p.moveTo c [], ?_, rfl, rfl⟩
      rw [programLoop, if_pos (by exact hty)]
      simp
  | (x, l) :: more, c, r, p, args, fuel, h, hok, hf => by
      obtain ⟨ind, nm, eq, lit, rest, hts, hi, hnm, he, hlit, hmore⟩ := h
      simp only [List.cons.injEq] at hts
      obtain ⟨rfl, rfl⟩ := hts
      obtain ⟨next, tail, rfl, hnext⟩ := LitTokens.head_endsLine hmore
      obtain ⟨f, rfl⟩ : ∃ f, fuel = f + 11 := ⟨fuel - 11, by simp at hf; omega⟩
      have hl := hok (x, l) (List.mem_cons_self _ _)
      obtain ⟨node, hnn, hassign⟩ := parseAssignStmt_literal (f + 9) p nm eq lit next tail l
        hnm.1 he hlit hl hnext (by omega)
      have e1 : (p.moveTo c (nm :: eq :: lit :: next :: tail)).expectIndent 0 =
          .ok (p.moveTo nm (eq :: lit :: next :: tail)) :=
        expectIndent_exact p c nm _ 0 hi.1 (by rw [hi.2]; exact stoi_zero)
          (by rw [hnm.1]; decide)
      obtain ⟨nodes, q, hq, herr, htab⟩ := programLoop_lines more next tail
        (p.withTable (p.symbolTable.declare nm.value l.parserType "variable" l.parserValue))
        (args ++ [node]) (f + 10) hmore (fun a ha => hok a (List.mem_cons_of_mem _ ha))
        (by simp only [List.length_cons] at hf; omega)
      refine ⟨node :: nodes, q, ?_, herr, ?_⟩
      · rw [programLoop]
        simp only [moveTo_currentToken]
        rw [if_neg (by rw [hi.1]; decide), if_pos hi.1, e1]
        simp only
        rw [parseStmt_assign (f + 9) p nm eq _ hnm.1 he.2, hassign]
        simp only [hnn, Bool.false_eq_true, if_false]
        rw [← withTable_moveTo, hq]
        simp
      · rw [htab, hnm.2]
        rfl

end Parser

/-- The entries of the table after the declarations of the lines, whose names are new and
pairwise distinct. -/
theorem declareLines_entries : ∀ (lines : List (List Char × Lit)) (t : ParserSymbolTable),
    ParserSymbolTable.WellFormed t → t.scopeNames.headD "" = "global" →
    (lines.map (fun p => String.mk p.1)).Nodup →
    (∀ p ∈ lines, (t.scopes.headD []).lookup (String.mk p.1) = none) →
    (declareLines t lines).entries = t.entries ++ parserEntries t.nextId lines
  | [], t, _, _, _, _ => by simp [declareLines, parserEntries]
  | (x, l) :: more, t, hw, hg, hnd, hfresh => by
      have hx := hfresh (x, l) (List.mem_cons_self _ _)
      have hs : t.scopes ≠ [] := hw.2.2.2.1
      have hd := ParserSymbolTable.declare_of_fresh t (String.mk x) l.parserType "variable"
        l.parserValue hs hx
      have hw' : ParserSymbolTable.WellFormed
          (t.declare (String.mk x) l.parserType "variable" l.parserValue) :=
        hw.after_step (ParserSymbolTable.Step.declare t _ _ _ _)
      have hnd' := List.nodup_cons.mp hnd
      have hfresh' : ∀ p ∈ more,
          ((t.declare (String.mk x) l.parserType "variable" l.parserValue).scopes.headD []).lookup
            (String.mk p.1) = none := by
        intro p hp
        rw [hd]
        simp only [List.headD_cons]
        rw [ParserSymbolTable.lookup_append_single, hfresh p (List.mem_cons_of_mem _ hp)]
        have hne : String.mk p.1 ≠ String.mk x := fun e =>
          hnd'.1 (List.mem_map.mpr ⟨p, hp, e⟩)
        simp [hne]
      have hg' : (t.declare (String.mk x) l.parserType "variable" l.parserValue).scopeNames.headD ""
          = "global" := by
        rw [hd]; exact hg
      have ih := declareLines_entries more _ hw' hg' hnd'.2 hfresh'
      show (declareLines (t.declare (String.mk x) l.parserType "variable" l.parserValue)
        more).entries = _
      rw [ih, hd]
      simp only [hg]
      simp [parserEntries]

/-- The entries of the two tables agree on the ids and the names; on the types they agree
but for the booleans, where the values agree. -/
theorem entries_agree : ∀ (lines : List (List Char × Lit)) (k : Int) (i : Nat)
    (e : SymbolTableEntry) (e' : ParserSymbolTableEntry),
    (lexerEntries k lines)[i]? = some e → (parserEntries k lines)[i]? = some e' →
    e.id = e'.id ∧ e.name = e'.name ∧
      (e.dataType = e'.dataType ∨
        (e.dataType = "bool" ∧ e'.dataType = "boolean" ∧ e.value = e'.value))
  | [], _, i, e, _, h, _ => by simp [lexerEntries] at h
  | (x, l) :: more, k, 0, e, e', h, h' => by
      simp only [lexerEntries, parserEntries, List.getElem?_cons_zero, Option.some.injEq] at h h'
      subst h; subst h'
      refine ⟨rfl, rfl, ?_⟩
      cases l with
      | int ds => exact Or.inl rfl
      | float w f => exact Or.inl rfl
      | str cs => exact Or.inl rfl
      | bool b =>
          cases b
          · exact Or.inr ⟨rfl, rfl, show Lit.lexerValue (.bool false) = Lit.parserValue (.bool false)
              by decide⟩
          · exact Or.inr ⟨rfl, rfl, show Lit.lexerValue (.bool true) = Lit.parserValue (.bool true)
              by decide⟩
  | (x, l) :: more, k, i + 1, e, e', h, h' => by
      simp only [lexerEntries, parserEntries, List.getElem?_cons_succ] at h h'
      exact entries_agree more (k + 1) i e e' h h'

/-- C11 (amended). For every source that consists of lines `x = LIT` separated by
newlines, with names that are pairwise distinct and no keyword, where LIT is an integer
or a decimal float without a superfluous leading zero that `std::stod` reads, a
double-quoted string without `#` in it, or `True` / `False`: `tokenize` and
`parseProgram` on its tokens both return, without a parse error, and the two tables
have one entry for each line, in the order of the lines, with the same id and name. The
lexer table has the type "int", "float", "string" or "bool" and as value the text of the
literal with its whitespace removed (the quotes of a string kept); the parser table has
the type "int", "float", "string" or "boolean" and as value the six-decimal text of the
double for a number, the characters between the quotes for a string, the keyword for a
boolean. So the types agree but for the booleans, where the values agree. -/
theorem literal_tables (lines : List (List Char × Lit))
    (hok : ∀ p ∈ lines, isName p.1 ∧ p.2.wellFormed)
    (hnd : (lines.map (fun p => String.mk p.1)).Nodup) :
    ∃ tokens lx tree q, (Lexer.mk0 (litSource lines)).tokenize = some (tokens, lx) ∧
      runParser tokens = .ok (tree, q) ∧ q.errors = [] ∧
      lx.symbolTable.entries = lexerEntries 0 lines ∧
      q.symbolTable.entries = parserEntries 0 lines ∧
      ∀ (i : Nat) (e : SymbolTableEntry) (e' : ParserSymbolTableEntry),
        lx.symbolTable.entries[i]? = some e → q.symbolTable.entries[i]? = some e' →
        e.id = e'.id ∧ e.name = e'.name ∧
          (e.dataType = e'.dataType ∨
            (e.dataType = "bool" ∧ e'.dataType = "boolean" ∧ e.value = e'.value)) := by
  by_cases hne : lines = []
  · subst hne
    have h0 : (Lexer.mk0 (litSource [])).tokenize =
        some ([{ type := .Indent, value := "0", line := 1, column := 1 },
               { type := .EOFToken, value := "EOF", line := 1, column := 1 }],
              { input := [], rest := [], line := 1, column := 1, symbolTable := {},
                newLine := false }) := by decide!
    obtain ⟨t, q, h1, h2, h3⟩ : ∃ t q,
        runParser [{ type := .Indent, value := "0", line := 1, column := 1 },
                   { type := .EOFToken, value := "EOF", line := 1, column := 1 }] = .ok (t, q) ∧
        q.errors = [] ∧ q.symbolTable.entries = [] := ⟨_, _, rfl, rfl, rfl⟩
    refine ⟨_, _, t, q, h0, h1, h2, rfl, h3, ?_⟩
    intro i e e' h
    exact absurd h (by simp)
  · obtain ⟨toks, lx, htok, hlt, hlex⟩ := tokenize_lines lines hne hok hnd
    obtain ⟨c, r, rfl, -⟩ := Parser.LitTokens.head_endsLine hlt
    have hlen : ∀ (ls : List (List Char × Lit)) (ts : List Token), LitTokens ls ts →
        ls.length ≤ ts.length := by
      intro ls
      induction ls with
      | nil => intro ts _; exact Nat.zero_le _
      | cons p more ih =>
          intro ts h
          obtain ⟨x, l⟩ := p
          obtain ⟨ind, nm, eq, lit, rest, rfl, -, -, -, -, hmore⟩ := h
          have := ih rest hmore
          simp only [List.length_cons]
          omega
    obtain ⟨nodes, q, hq, herr, htab⟩ := Parser.programLoop_lines lines c r (startParser (c :: r))
      [] (parseFuel (c :: r)) hlt (fun a ha => (hok a ha).2) (by
        have := hlen lines (c :: r) hlt
        unfold parseFuel
        omega)
    have hrun : runParser (c :: r) = .ok (ProgramNode nodes, q) := by
      unfold runParser
      rw [new_cons, Parser.parseProgram, hq]
      rfl
    have hpar : q.symbolTable.entries = parserEntries 0 lines := by
      rw [htab]
      exact declareLines_entries lines {} ParserSymbolTable.WellFormed.at_construction rfl hnd
        (fun p _ => rfl)
    refine ⟨c :: r, lx, ProgramNode nodes, q, htok, hrun, herr, hlex, hpar, ?_⟩
    intro i e e' h h'
    rw [hlex] at h
    rw [hpar] at h'
    exact entries_agree lines 0 i e e' h h'

theorem literal_tables_witness :
    ∃ tokens lx tree q, (Lexer.mk0 (litSource sampleLines)).tokenize = some (tokens, lx) ∧
      runParser tokens = .ok (tree, q) ∧ q.errors = [] ∧
      lx.symbolTable.entries = lexerEntries 0 sampleLines ∧
      q.symbolTable.entries = parserEntries 0 sampleLines ∧
      ∀ (i : Nat) (e : SymbolTableEntry) (e' : ParserSymbolTableEntry),
        lx.symbolTable.entries[i]? = some e → q.symbolTable.entries[i]? = some e' →
        e.id = e'.id ∧ e.name = e'.name ∧
          (e.dataType = e'.dataType ∨
            (e.dataType = "bool" ∧ e'.dataType = "boolean" ∧ e.value = e'.value)) :=
  literal_tables sampleLines
    (by
      intro p hp
      simp only [sampleLines, List.mem_cons, List.mem_singleton, List.not_mem_nil, or_false] at hp
      rcases hp with rfl | rfl | rfl | rfl
      · exact ⟨⟨⟨_, _, rfl, by decide⟩, by decide, by decide⟩,
          ⟨by decide, by decide, by decide⟩, by decide!⟩
      · exact ⟨⟨⟨_, _, rfl, by decide⟩, by decide, by decide⟩,
          ⟨by decide, by decide, by decide⟩, by decide, by decide, by decide!⟩
      · exact ⟨⟨⟨_, _, rfl, by decide⟩, by decide, by decide⟩,
          show ∀ c ∈ ['h', 'i'], c ≠ DQUOTE ∧ c ≠ '\n' ∧ c ≠ NUL ∧ c ≠ '#' by decide⟩
      · exact ⟨⟨⟨_, _, rfl, by decide⟩, by decide, by decide⟩, trivial⟩)
    (by decide)

/-- The two tables on the source of `sampleLines`: they differ on the value of the
integer, of the float and of the string, and on the type of the boolean. -/
theorem literal_tables_differ :
    sampleSource.data = litSource sampleLines ∧
    ((Lexer.mk0 sampleSource.data).tokenize).map
      (fun r => r.2.symbolTable.entries.map (fun e => (e.name, e.dataType, e.value))) =
      some [("a", "int", "2"), ("b", "float", "2.5"), ("c", "string", "\"hi\""),
            ("d", "bool", "True")] ∧
    (runParser (lexTokens sampleSource)).toOption.map
      (fun r => r.2.symbolTable.entries.map (fun e => (e.name, e.dataType, e.value))) =
      some [("a", "int", "2.000000"), ("b", "float", "2.500000"), ("c", "string", "hi"),
            ("d", "boolean", "True")] := by
  decide!

namespace Parser

/-- The table after `parseFuncCallStmt`, from the table before it. -/
theorem parseFuncCallStmt_table (fuel : Nat) (p : Parser) (hi : Inv p)
    (hf : 64 * p.rest.length + 11 ≤ fuel) :
    ∃ node q, parseFuncCallStmt fuel p = .ok (node, q) ∧
      q.symbolTable =
        if (match p.symbolTable.lookupEntry p.currentToken.value with
            | some funcEntry => decide (funcEntry.role = "function")
            | none => false) = true
        then p.symbolTable
        else p.symbolTable.declare p.currentToken.value "unknown" "function" "unknown" := by
  unfold parseFuncCallStmt
  simp only
  obtain ⟨p1, e1, l1, -⟩ := expect_spec hi .Identifier "Expected identifier for function call" ""
  rw [e1]
  simp only
  obtain ⟨p2, e2, l2, -⟩ := expect_spec (l1.keeps_inv hi) .Delimiter "Expected '(' in function call" "("
  rw [e2]
  simp only
  have l12 := l2.after l1
  have hi2 := l12.keeps_inv hi
  have fin : ∀ (p5 : Parser), Later p5 p2 →
      (if (match p5.symbolTable.lookupEntry p.currentToken.value with
            | some funcEntry => decide (funcEntry.role = "function")
            | none => false) = true then p5
        else p5.withTable
          (p5.symbolTable.declare p.currentToken.value "unknown" "function")).symbolTable =
        if (match p.symbolTable.lookupEntry p.currentToken.value with
            | some funcEntry => decide (funcEntry.role = "function")
            | none => false) = true
        then p.symbolTable
        else p.symbolTable.declare p.currentToken.value "unknown" "function" "unknown" := by
    intro p5 l5
    have ht : p5.symbolTable = p.symbolTable := (l5.after l12).2.1
    rw [ht]
    split_ifs
    · exact ht
    · rfl
  by_cases h : p2.isTok .Delimiter ")" = true
  · rw [accept_fst, if_pos h, accept_snd_pos h]
    simp only
    exact ⟨_, _, rfl, fin _ (Later.advance _)⟩
  · rw [accept_fst, if_neg h]
    obtain ⟨args, p3, e3, l3⟩ :=
      (expr_specs p.rest.length).args fuel [] p2 hi2 l12.not_longer hf
    rw [e3]
    simp only
    obtain ⟨p4, e4, l4, -⟩ := expect_spec ((l3.after l12).keeps_inv hi) .Delimiter
      "Expected ')' after arguments" ")"
    rw [e4]
    simp only
    exact ⟨_, _, rfl, fin _ (l4.after l3)⟩

/-- C21. A call `NAME(ARGS)` that is a statement declares NAME with the type "unknown"
and the role "function" when NAME resolves to no entry (or to an entry that is no
function); a call inside an expression declares nothing: `parseFuncCall`, like every
expression parser, leaves the table as it was. After `x = g(1)` the table holds `x`
alone, with no entry for `g`; after the statement `g(1)` it holds `g` with the role
"function" and the type "unknown". -/
theorem call_in_expression_undeclared :
    (∀ (fuel : Nat) (p : Parser), Inv p → 64 * p.rest.length + 11 ≤ fuel →
      (∃ node q, parseFuncCall fuel p = .ok (node, q) ∧ q.symbolTable = p.symbolTable) ∧
      (∃ node q, parseExpr fuel p = .ok (node, q) ∧ q.symbolTable = p.symbolTable) ∧
      (∃ node q, parseFuncCallStmt fuel p = .ok (node, q) ∧
        (p.symbolTable.lookupEntry p.currentToken.value = none →
          q.symbolTable =
            p.symbolTable.declare p.currentToken.value "unknown" "function" "unknown"))) ∧
    (runParser (lexTokens scenarioCallExpr)).toOption.map
      (fun r => (r.2.errors, r.2.symbolTable.entries.map (fun e => (e.name, e.dataType, e.role)))) =
      some ([], [("x", "expr", "variable")]) ∧
    (runParser (lexTokens scenarioCallStmt)).toOption.map
      (fun r => (r.2.errors, r.2.symbolTable.entries.map (fun e => (e.name, e.dataType, e.role)))) =
      some ([], [("g", "unknown", "function")]) := by
  refine ⟨fun fuel p hi hf => ⟨?_, ?_, ?_⟩, by decide!, by decide!⟩
  · obtain ⟨node, q, e, l, -⟩ := (expr_specs p.rest.length).funcCall fuel p hi (le_refl _)
      (by omega)
    exact ⟨node, q, e, l.2.1⟩
  · obtain ⟨node, q, e, l, -⟩ := (expr_specs p.rest.length).expr fuel p hi (le_refl _)
      (by omega)
    exact ⟨node, q, e, l.2.1⟩
  · obtain ⟨node, q, e, ht⟩ := parseFuncCallStmt_table fuel p hi hf
    refine ⟨node, q, e, fun hnone => ?_⟩
    rw [ht, hnone]
    rfl

end Parser

theorem findSub_suffix (c : Char) (pat : List Char) : ∀ (xs : List Char) (i : Nat), c ∉ xs →
    Parser.findSub (c :: pat) (xs ++ c :: pat) i = some (i + xs.length)
  | [], i, _ => by
      simp [Parser.findSub]
  | x :: xs, i, h => by
      have hx : x ≠ c := fun e => h (by simp [e])
      have hp : (c :: pat).isPrefixOf (x :: (xs ++ c :: pat)) = false := by
        simp [List.isPrefixOf, Ne.symm hx]
      rw [List.cons_append, Parser.findSub, hp]
      simp only [Bool.false_eq_true, if_false]
      rw [findSub_suffix c pat xs (i + 1) (fun hm => h (List.mem_cons_of_mem _ hm))]
      simp only [List.length_cons]
      congr 1
      omega

namespace ParserSymbolTable

/-- In a table whose bound ids are indices of entries, `lookupEntry` is the entry at the
id that `lookup` finds. -/
theorem lookupEntryIn_eq (entries : List ParserSymbolTableEntry) (name : String) :
    ∀ (scopes : List (List (String × Int))),
      (∀ frame ∈ scopes, ∀ id, frame.lookup name = some id →
        0 ≤ id ∧ ∃ e, entries[id.toNat]? = some e) →
      lookupEntryIn entries name scopes =
        match findId name scopes with
        | some id => entries[id.toNat]?
        | none => none
  | [], _ => rfl
  | frame :: outer, h => by
      have ih := lookupEntryIn_eq entries name outer
        (fun f hf => h f (List.mem_cons_of_mem _ hf))
      cases hl : frame.lookup name with
      | none => simp only [lookupEntryIn, findId, hl]; exact ih
      | some id =>
          obtain ⟨h0, e, he⟩ := h frame (List.mem_cons_self _ _) id hl
          have hlt : id.toNat < entries.length := by
            by_contra hc
            rw [List.getElem?_eq_none (by omega)] at he
            exact Option.noConfusion he
          have hlt' : id < (entries.length : Int) := by omega
          simp only [lookupEntryIn, findId, hl, h0, hlt', and_self, if_true, List.get?_eq_getElem?,
            he]

end ParserSymbolTable

namespace Parser

theorem parseExpr_null_of_primary {f : Nat} {p q : Parser}
    (h : parsePrimary (f + 1) p = .ok (.null, q)) (h0 : p.currentToken.type ≠ .EOFToken)
    (h1 : p.isTok .Operator "-" = false) (h2 : p.isTok .Keyword "not" = false) :
    parseExpr (f + 9) p = .ok (.null, q) := by
  have hu : parseUnary (f + 2) p = .ok (.null, q) := by
    rw [parseUnary]
    simp only [h1, h2, Bool.or_self, Bool.false_eq_true, if_false]
    exact h
  have h3 : parseFactor (f + 3) p = .ok (.null, q) := by rw [parseFactor, hu]; rfl
  have h4 : parseTerm (f + 4) p = .ok (.null, q) := by rw [parseTerm, h3]; rfl
  have h5 : parseRelational (f + 5) p = .ok (.null, q) := by rw [parseRelational, h4]; rfl
  have h6 : parseEquality (f + 6) p = .ok (.null, q) := by rw [parseEquality, h5]; rfl
  have h7 : parseLogicalAnd (f + 7) p = .ok (.null, q) := by rw [parseLogicalAnd, h6]; rfl
  have h8 : parseLogicalOr (f + 8) p = .ok (.null, q) := by rw [parseLogicalOr, h7]; rfl
  rw [parseExpr, if_neg h0]
  exact h8

/-- No expression at the end of a line or of the input: `parseExpr` returns no node, and
records an error. -/
theorem parseExpr_endsLine (f : Nat) (p : Parser) (h : endsLine p.currentToken) :
    ∃ q, parseExpr (f + 9) p = .ok (.null, q) ∧ q.symbolTable = p.symbolTable := by
  rcases h with h | h
  · have hp : parsePrimary (f + 1) p =
        .ok (.null, (p.errorHere "Unexpected token in expression").advance) := by
      rw [parsePrimary]
      simp [h, accept, isTok]
    refine ⟨_, parseExpr_null_of_primary hp (by rw [h]; decide) ?_ ?_, ?_⟩
    · simp [isTok, h]
    · simp [isTok, h]
    · exact (Later.advance _).2.1
  · refine ⟨p.errorHere "Unexpected end of file while parsing expression", ?_, rfl⟩
    rw [parseExpr, if_pos h]

/-- The table after `recordReturn`, in the scope of the function `F`. -/
theorem recordReturn_table (p : Parser) (F type value : String)
    (entry : ParserSymbolTableEntry)
    (hs : p.symbolTable.getCurrentScope = F ++ " (function)") (hF : ' ' ∉ F.data)
    (he : p.symbolTable.lookupEntry F = some entry) (hr : entry.role = "function") :
    (p.recordReturn type value).symbolTable =
      (p.symbolTable.updateType F type).updateValue F value := by
  have hfind : findSub " (function)".data p.symbolTable.getCurrentScope.data 0 =
      some F.data.length := by
    rw [hs]
    have := findSub_suffix ' ' "(function)".data F.data 0 hF
    rw [Nat.zero_add] at this
    exact this
  have hname : String.mk (List.take F.data.length (F ++ " (function)").data) = F := by
    show String.mk (List.take F.data.length (F.data ++ " (function)".data)) = F
    rw [List.take_left]
  unfold recordReturn
  simp only [hfind]
  rw [hs, hname]
  simp only [he, hr, if_true]
  rfl

/-- The entry of a bound name after `updateType` and `updateValue`. -/
theorem lookupEntry_updated {t : ParserSymbolTable} (hw : ParserSymbolTable.WellFormed t)
    (F type value : String) (entry : ParserSymbolTableEntry)
    (he : t.lookupEntry F = some entry) :
    ((t.updateType F type).updateValue F value).lookupEntry F =
      some { entry with dataType := type, value := value } := by
  have h1 := ParserSymbolTable.lookupEntryIn_eq t.entries F t.scopes
    (fun frame hf id hl => by
      obtain ⟨h0, e, h, _⟩ := hw.2.2.1 frame hf F id hl
      exact ⟨h0, e, h⟩)
  have hw2 : ParserSymbolTable.WellFormed ((t.updateType F type).updateValue F value) :=
    (hw.after_step (.updateType t F type)).after_step (.updateValue _ F value)
  have h2 := ParserSymbolTable.lookupEntryIn_eq
    ((t.updateType F type).updateValue F value).entries F
    ((t.updateType F type).updateValue F value).scopes
    (fun frame hf id hl => by
      obtain ⟨h0, e, h, _⟩ := hw2.2.2.1 frame hf F id hl
      exact ⟨h0, e, h⟩)
  unfold ParserSymbolTable.lookupEntry at he ⊢
  rw [h2]
  rw [h1] at he
  cases hid : ParserSymbolTable.findId F t.scopes with
  | none => rw [hid] at he; exact Option.noConfusion he
  | some id =>
      rw [hid] at he
      simp only at he
      have e1 : t.updateType F type =
          { t with
              entries := List.modify (fun e => { e with dataType := type }) id.toNat t.entries } := by
        unfold ParserSymbolTable.updateType; rw [hid]
      have e2 : (t.updateType F type).updateValue F value =
          { t with
              entries :=
                List.modify (fun e => { e with value := value }) id.toNat
                  (List.modify (fun e => { e with dataType := type }) id.toNat t.entries) } := by
        rw [e1]; unfold ParserSymbolTable.updateValue; simp only [hid]
      rw [e2]
      simp only [hid, List.getElem?_modify_eq, he, Option.map_eq_map, Option.map_some']

/-- C22. A `return` with no expression after it on its line, parsed while the current scope
is "F (function)" and `F` resolves to an entry with role "function": `parseReturnStmt`
returns a Return node with no child, the table is changed by `updateType(F, "void")` and
`updateValue(F, "void")` only, and the entry of `F` then has dataType "void" and value
"void". -/
theorem bare_return_void (fuel : Nat) (p : Parser) (next : Token) (tail : List Token)
    (F : String) (entry : ParserSymbolTableEntry)
    (hk : p.currentToken.type = .Keyword) (hv : p.currentToken.value = "return")
    (hrest : p.rest = next :: tail) (hn : endsLine next)
    (hs : p.symbolTable.getCurrentScope = F ++ " (function)") (hF : ' ' ∉ F.data)
    (hw : ParserSymbolTable.Reachable p.symbolTable)
    (he : p.symbolTable.lookupEntry F = some entry) (hr : entry.role = "function")
    (hf : 9 ≤ fuel) :
    ∃ q, parseReturnStmt fuel p = .ok (ReturnNode p.currentToken .null, q) ∧
      (ReturnNode p.currentToken .null).children? = [] ∧
      q.symbolTable = (p.symbolTable.updateType F "void").updateValue F "void" ∧
      q.symbolTable.lookupEntry F = some { entry with dataType := "void", value := "void" } := by
  obtain ⟨f, rfl⟩ : ∃ f, fuel = f + 9 := ⟨fuel - 9, by omega⟩
  have hp : p = p.moveTo p.currentToken (next :: tail) := by
    cases p; simp only [moveTo] at hrest ⊢; simp only [hrest]
  have hx : p.expect .Keyword "Expected 'return' keyword" "return" = .ok (p.moveTo next tail) := by
    have := @expect_moveTo p p.currentToken next tail .Keyword "return"
      "Expected 'return' keyword" (isTok_moveTo_pos hk hv)
    rw [← hp] at this
    exact this
  obtain ⟨p2, h2, ht⟩ := parseExpr_endsLine f (p.moveTo next tail) hn
  have ht2 : p2.symbolTable = p.symbolTable := ht
  have hrec := recordReturn_table p2 F "void" "void" entry (by rw [ht2]; exact hs) hF
    (by rw [ht2]; exact he) hr
  refine ⟨p2.recordReturn "void" "void", ?_, rfl, ?_, ?_⟩
  · unfold parseReturnStmt
    simp only [hx, h2]
    rfl
  · rw [hrec, ht2]
  · rw [hrec, ht2]
    exact lookupEntry_updated hw.wellFormed F "void" "void" entry he

/-- The theorem `bare_return_void` at the `return` of `def f():` / `    return`, where the
table holds `f` and the scope of `f` is open. -/
theorem bare_return_void_witness :
    ∃ q, parseReturnStmt 9
        { rest := [tok .EOFToken "EOF" 2 11], currentToken := tok .Keyword "return" 2 5,
          symbolTable := (({} : ParserSymbolTable).declare "f" "unknown" "function"
            "unknown").beginScope "f (function)" } =
        .ok (ReturnNode (tok .Keyword "return" 2 5) .null, q) ∧
      (ReturnNode (tok .Keyword "return" 2 5) .null).children? = [] ∧
      q.symbolTable = (((({} : ParserSymbolTable).declare "f" "unknown" "function"
            "unknown").beginScope "f (function)").updateType "f" "void").updateValue "f" "void" ∧
      q.symbolTable.lookupEntry "f" =
        some { id := 0, name := "f", dataType := "void", value := "void", role := "function",
               scope := "global" } :=
  bare_return_void 9
    { rest := [tok .EOFToken "EOF" 2 11], currentToken := tok .Keyword "return" 2 5,
      symbolTable := (({} : ParserSymbolTable).declare "f" "unknown" "function"
        "unknown").beginScope "f (function)" }
    (tok .EOFToken "EOF" 2 11) [] "f"
    { id := 0, name := "f", dataType := "unknown", value := "unknown", role := "function",
      scope := "global" }
    rfl rfl rfl (Or.inr rfl) (by decide) (by decide)
    (.step (.step .init (.declare _ "f" "unknown" "function" "unknown"))
      (.beginScope _ "f (function)"))
    (by decide) rfl (Nat.le_refl 9)

end Parser

/-! ## A round of the scan that reads a token, at any place of a line -/

theorem Lexer.unflag_eq {lx : Lexer} (hf : lx.newLine = false) :
    ({ lx with newLine := false } : Lexer) = lx := by
  cases lx
  simp only at hf
  simp [hf]

/-- The indent phase in front of a character that is not a blank: an IndentMarker of level 0
when a line starts here, nothing otherwise. -/
theorem indentPhase_token {lx : Lexer} (hb : isBlank lx.peek = false) :
    lx.indentPhase =
      (if lx.newLine then [tok .Indent "0" lx.line lx.column] else [],
       { lx with newLine := false }) := by
  cases hn : lx.newLine with
  | true => rw [indentPhase_start hn hb]; rfl
  | false => rw [indentPhase_flat hn, Lexer.unflag_eq hn]; rfl

theorem isBlank_of_digit {c : Char} (h : isdigit c = true) : isBlank c = false :=
  isBlank_of_not_space (isspace_of_digit h)

theorem scanStep_digit {lx : Lexer} (hp : isdigit lx.peek = true) :
    lx.scanStep =
      ((if lx.newLine then [tok .Indent "0" lx.line lx.column] else []) ++
        [({ lx with newLine := false } : Lexer).getNumber.1],
       ({ lx with newLine := false } : Lexer).getNumber.2, false) := by
  have hp2 : ({ lx with newLine := false } : Lexer).peek = lx.peek := rfl
  rw [scanStep_of (indentPhase_token (isBlank_of_digit hp))
      (skip_none (by rw [hp2]; exact isspace_of_digit hp)
        (by rw [hp2]; exact ne_of_pred hp (by decide))),
    hp2, if_neg (ne_of_pred hp (by decide)), if_neg (by rw [isIdentStart_of_digit hp]; simp),
    if_pos hp]

theorem tolower_of_digit {c : Char} (h : isdigit c = true) : tolower c = c := by
  simp only [isdigit, Bool.and_eq_true, decide_eq_true_eq] at h
  have h2 : c.val.toNat ≤ 57 := h.2
  unfold tolower
  rw [if_neg]
  simp only [Bool.and_eq_true, decide_eq_true_eq, not_and]
  intro h3
  have : (65 : Nat) ≤ c.val.toNat := h3
  omega

/-- The reader `getNumber` on a zero followed by digits. -/
theorem getNumber_leading_zero {a : Lexer} {d : Char} {ds tail : List Char}
    (hr : a.rest = '0' :: (d :: ds ++ tail)) (hd : ∀ c ∈ d :: ds, isdigit c = true)
    (ht : isdigit (tail.getD 0 NUL) = false) (hf : a.newLine = false) :
    a.getNumber =
      ({ type := .Error,
         value := "Invalid number with leading zero: " ++ String.mk ('0' :: d :: ds),
         line := a.line, column := a.column },
       { a with rest := tail, column := a.column + 1 + ((d :: ds).length : Int) }) := by
  have ha : a.advance = ('0', { a with rest := d :: ds ++ tail, column := a.column + 1 }) :=
    Lexer.advance_plain hr (by decide) hf
  have hp : ({ a with rest := d :: ds ++ tail, column := a.column + 1 } : Lexer).peek = d := rfl
  have hdd := hd d (List.mem_cons_self _ _)
  have hc := collectWhile_run isdigit (d :: ds) (d :: ds ++ tail).length
    ({ a with rest := d :: ds ++ tail, column := a.column + 1 } : Lexer) ("".push '0') tail rfl
    (fun c h => ⟨hd c h, ne_of_pred (hd c h) (by decide)⟩) ht hf (by simp)
  unfold Lexer.getNumber
  simp only [Lexer.peek_eq_of_rest hr, if_true, ha, hp, tolower_of_digit hdd]
  rw [if_neg (by
    rintro (h | h | h) <;> rw [h] at hdd <;> exact absurd hdd (by decide)), if_pos hdd]
  rw [hc]
  rfl

/-- C24. A zero followed by one or more digits, where a token starts: the round of the scan
emits one token for it (after the IndentMarker, when a line starts here), an Error token
whose lexeme is "Invalid number with leading zero: " followed by the whole digit run, at the
line and the column of the zero, and the scan goes on right after the last digit. So on
`0123` the lexer gives the IndentMarker, that Error token and EndOfInput. -/
theorem leading_zero_error :
    (∀ (lx : Lexer) (ds tail : List Char), lx.rest = '0' :: (ds ++ tail) → ds ≠ [] →
      (∀ c ∈ ds, isdigit c = true) → isdigit (tail.getD 0 NUL) = false →
      lx.scanStep =
        ((if lx.newLine then [tok .Indent "0" lx.line lx.column] else []) ++
          [tok .Error ("Invalid number with leading zero: " ++ String.mk ('0' :: ds))
            lx.line lx.column],
         { lx with rest := tail, column := lx.column + 1 + (ds.length : Int), newLine := false },
         false)) ∧
    lexTokens scenarioLeadingZero =
      [tok .Indent "0" 1 1, tok .Error "Invalid number with leading zero: 0123" 1 1,
       tok .EOFToken "EOF" 1 5] := by
  refine ⟨fun lx ds tail hr hne hd ht => ?_, by decide!⟩
  cases ds with
  | nil => exact absurd rfl hne
  | cons d ds =>
      have hp : isdigit lx.peek = true := by rw [Lexer.peek_eq_of_rest hr]; decide
      rw [scanStep_digit hp,
        @getNumber_leading_zero ({ lx with newLine := false } : Lexer) d ds tail hr hd ht rfl]
      rfl

theorem baseDigits_run (base : Nat) (col : Int) : ∀ (good : List Char) (n : Nat) (a : Lexer)
    (v : String) (has : Bool) (r : List Char), a.rest = good ++ r →
    (∀ c ∈ good, isalnum c = true ∧ ¬ InvalidDigit base c) → a.newLine = false →
    good.length ≤ n →
    baseDigits base col n a v has =
      baseDigits base col (n - good.length)
        { a with rest := r, column := a.column + (good.length : Int) } (v ++ String.mk good)
        (has || !good.isEmpty)
  | [], n, a, v, has, r, hr, _, _, _ => by
      simp only [List.nil_append] at hr
      have e : v ++ String.mk [] = v := by apply String.ext; simp
      rw [List.length_nil, Lexer.eta_rest hr, e]
      simp
  | c :: good, n, a, v, has, r, hr, hall, hf, hn => by
      cases n with
      | zero => simp at hn
      | succ n =>
          have hc := hall c (List.mem_cons_self _ _)
          have hr' : a.rest = c :: (good ++ r) := by simpa using hr
          have hinv : ¬ ((base = 2 ∧ (c ≠ '0' ∧ c ≠ '1')) ∨ (base = 8 ∧ (c < '0' ∨ c > '7')) ∨
              (base = 16 ∧ ¬ isxdigit c = true)) := hc.2
          conv_lhs => unfold baseDigits
          simp only [Lexer.peek_eq_of_rest hr', hc.1, if_true, if_neg hinv,
            Lexer.advance_plain hr' (ne_of_pred hc.1 (by decide)) hf]
          rw [baseDigits_run base col good n
            ({ a with rest := good ++ r, column := a.column + 1 } : Lexer)
            (v.push c) true r rfl (fun d hd => hall d (List.mem_cons_of_mem _ hd)) hf
            (by simpa using hn)]
          have e : v.push c ++ String.mk good = v ++ String.mk (c :: good) := by
            apply String.ext; simp
          have e2 : ((n + 1) - (c :: good).length) = n - good.length := by simp
          have e3 : (a.column + 1 + (good.length : Int)) =
              a.column + ((c :: good).length : Int) := by
            simp only [List.length_cons, Nat.cast_add, Nat.cast_one]; ring
          rw [e, e2]
          simp only [e3, Bool.true_or, List.isEmpty_cons, Bool.not_false, Bool.or_true]

theorem baseDigits_stop (base : Nat) (col : Int) (n : Nat) (a : Lexer) (v : String) (has : Bool)
    (h : isalnum a.peek = false) : baseDigits base col n a v has = (none, v, has, a) := by
  cases n with
  | zero => rfl
  | succ n => unfold baseDigits; simp [h]

theorem baseDigits_invalid (base : Nat) (col : Int) (n : Nat) (a : Lexer) (v : String)
    (has : Bool) (h : isalnum a.peek = true) (hi : InvalidDigit base a.peek) :
    baseDigits base col (n + 1) a v has =
      (some { type := .Error,
              value := "Invalid digit for base " ++ toString base ++ ": " ++ v ++
                String.singleton a.peek,
              line := a.line, column := col }, v, has, a) := by
  have hinv : (base = 2 ∧ (a.peek ≠ '0' ∧ a.peek ≠ '1')) ∨ (base = 8 ∧ (a.peek < '0' ∨ a.peek > '7')) ∨
      (base = 16 ∧ ¬ isxdigit a.peek = true) := hi
  unfold baseDigits
  simp only [h, if_true, if_pos hinv]

theorem tolower_of_prefix {p : Char} (hp : p ∈ prefixLetters) :
    (tolower p = 'x' ∨ tolower p = 'o' ∨ tolower p = 'b') ∧ p ≠ '\n' := by
  simp only [prefixLetters, List.mem_cons, List.mem_singleton, List.not_mem_nil, or_false] at hp
  rcases hp with rfl | rfl | rfl | rfl | rfl | rfl <;> decide

/-- The reader `getNumber` on a zero and a prefix letter: what the digit loop returns
decides. -/
theorem getNumber_prefixed {a : Lexer} {p : Char} {after : List Char}
    (hr : a.rest = '0' :: p :: after) (hp : p ∈ prefixLetters) (hf : a.newLine = false) :
    a.getNumber =
      match baseDigits (prefixBase p) a.column after.length
          { a with rest := after, column := a.column + 1 + 1 } (("".push '0').push p) false with
      | (some err, _, _, lx3) => (err, lx3)
      | (none, value3, hasValidDigit, lx3) =>
          if ¬ hasValidDigit then
            ({ type := .Error, value := "Expected digits after prefix: " ++ value3,
               line := lx3.line, column := a.column }, lx3)
          else ({ type := .Number, value := value3, line := lx3.line, column := a.column }, lx3) := by
  obtain ⟨hl, hnl⟩ := tolower_of_prefix hp
  have ha : a.advance = ('0', { a with rest := p :: after, column := a.column + 1 }) :=
    Lexer.advance_plain hr (by decide) hf
  have hp1 : ({ a with rest := p :: after, column := a.column + 1 } : Lexer).peek = p := rfl
  have ha2 : ({ a with rest := p :: after, column := a.column + 1 } : Lexer).advance =
      (p, { a with rest := after, column := a.column + 1 + 1 }) :=
    Lexer.advance_plain rfl hnl hf
  unfold Lexer.getNumber
  simp only [Lexer.peek_eq_of_rest hr, if_true, ha, hp1, if_pos hl, ha2]
  rfl

theorem prefix_string (p : Char) (good : List Char) :
    ("".push '0').push p ++ String.mk good = String.mk ('0' :: p :: good) := by
  apply String.ext; simp

/-- A list has an element with `P`, with none before it, or has none. -/
theorem first_with {α : Type} (P : α → Prop) : ∀ (l : List α),
    (∀ c ∈ l, ¬ P c) ∨ ∃ good c more, l = good ++ c :: more ∧ (∀ g ∈ good, ¬ P g) ∧ P c
  | [] => Or.inl (fun _ h => absurd h (List.not_mem_nil _))
  | x :: l => by
      by_cases hx : P x
      · exact Or.inr ⟨[], x, l, rfl, fun _ h => absurd h (List.not_mem_nil _), hx⟩
      · rcases first_with P l with h | ⟨good, c, more, e, hg, hc⟩
        · refine Or.inl (fun c hc => ?_)
          rcases List.mem_cons.mp hc with rfl | h'
          · exact hx
          · exact h c h'
        · refine Or.inr ⟨x :: good, c, more, by rw [e]; rfl, fun g hg' => ?_, hc⟩
          rcases List.mem_cons.mp hg' with rfl | h'
          · exact hx
          · exact hg g h'

/-- The reader `getNumber` on a prefix and digits of its base. -/
theorem getNumber_prefixed_valid {a : Lexer} {p : Char} {body tail : List Char}
    (hr : a.rest = '0' :: p :: (body ++ tail)) (hp : p ∈ prefixLetters)
    (hb : ∀ c ∈ body, isalnum c = true) (ht : isalnum (tail.getD 0 NUL) = false)
    (hf : a.newLine = false) (hne : body ≠ [])
    (hv : ∀ c ∈ body, ¬ InvalidDigit (prefixBase p) c) :
    a.getNumber =
      ({ type := .Number, value := String.mk ('0' :: p :: body), line := a.line,
         column := a.column },
       { a with rest := tail, column := a.column + 1 + 1 + (body.length : Int) }) := by
  have h1 := baseDigits_run (prefixBase p) a.column body (body ++ tail).length
    ({ a with rest := body ++ tail, column := a.column + 1 + 1 } : Lexer)
    (("".push '0').push p) false tail rfl (fun c h => ⟨hb c h, hv c h⟩) hf (by simp)
  have h2 := baseDigits_stop (prefixBase p) a.column ((body ++ tail).length - body.length)
    ({ a with rest := tail, column := a.column + 1 + 1 + (body.length : Int) } : Lexer)
    (("".push '0').push p ++ String.mk body) (false || !body.isEmpty) ht
  have h3 : (false || !body.isEmpty) = true := by
    cases body with
    | nil => exact absurd rfl hne
    | cons c body => rfl
  rw [getNumber_prefixed hr hp hf, h1, h2, prefix_string, h3]
  rfl

/-- The reader `getNumber` on a prefix with no letter or digit after it. -/
theorem getNumber_prefixed_empty {a : Lexer} {p : Char} {tail : List Char}
    (hr : a.rest = '0' :: p :: tail) (hp : p ∈ prefixLetters)
    (ht : isalnum (tail.getD 0 NUL) = false) (hf : a.newLine = false) :
    a.getNumber =
      ({ type := .Error, value := "Expected digits after prefix: " ++ String.mk ['0', p],
         line := a.line, column := a.column },
       { a with rest := tail, column := a.column + 1 + 1 }) := by
  have h2 := baseDigits_stop (prefixBase p) a.column tail.length
    ({ a with rest := tail, column := a.column + 1 + 1 } : Lexer)
    (("".push '0').push p) false ht
  rw [getNumber_prefixed hr hp hf, h2]
  rfl

/-- The reader `getNumber` on a prefix, digits of its base and a letter or digit that is
not one: the Error token names the lexeme up to that character, which is not read. -/
theorem getNumber_prefixed_invalid {a : Lexer} {p c : Char} {good more : List Char}
    (hr : a.rest = '0' :: p :: (good ++ c :: more)) (hp : p ∈ prefixLetters)
    (hg : ∀ g ∈ good, isalnum g = true ∧ ¬ InvalidDigit (prefixBase p) g)
    (hc : isalnum c = true) (hi : InvalidDigit (prefixBase p) c) (hf : a.newLine = false) :
    a.getNumber =
      ({ type := .Error,
         value := "Invalid digit for base " ++ toString (prefixBase p) ++ ": " ++
           String.mk ('0' :: p :: good) ++ String.singleton c,
         line := a.line, column := a.column },
       { a with rest := c :: more, column := a.column + 1 + 1 + (good.length : Int) }) := by
  have hlen : (good ++ c :: more).length - good.length = more.length + 1 := by simp
  have h1 := baseDigits_run (prefixBase p) a.column good (good ++ c :: more).length
    ({ a with rest := good ++ c :: more, column := a.column + 1 + 1 } : Lexer)
    (("".push '0').push p) false (c :: more) rfl hg hf (by simp)
  have h2 := baseDigits_invalid (prefixBase p) a.column more.length
    ({ a with rest := c :: more, column := a.column + 1 + 1 + (good.length : Int) } : Lexer)
    (("".push '0').push p ++ String.mk good) (false || !good.isEmpty) hc hi
  rw [getNumber_prefixed hr hp hf, h1, hlen, h2, prefix_string]
  rfl

/-- C25. A zero, a prefix letter `p` and the maximal run `body` of letters and digits after
it, where a token starts: the round of the scan emits one token for it, at the place of the
zero, a Number or an Error. It is a Number, with the whole literal as lexeme, iff `body` is
not empty and holds only digits of the base; with an empty `body` the Error says that digits
are expected; otherwise the Error names the first character that is not a digit of the base,
and that character is not read. -/
theorem prefixed_literal :
    (∀ (lx : Lexer) (p : Char) (body tail : List Char), lx.rest = '0' :: p :: (body ++ tail) →
      p ∈ prefixLetters → (∀ c ∈ body, isalnum c = true) → isalnum (tail.getD 0 NUL) = false →
      ∃ t lx', lx.scanStep =
          ((if lx.newLine then [tok .Indent "0" lx.line lx.column] else []) ++ [t], lx', false) ∧
        t.line = lx.line ∧ t.column = lx.column ∧ (t.type = .Number ∨ t.type = .Error) ∧
        (t.type = .Number ↔ body ≠ [] ∧ ∀ c ∈ body, ¬ InvalidDigit (prefixBase p) c) ∧
        (t.type = .Number → t.value = String.mk ('0' :: p :: body) ∧ lx'.rest = tail) ∧
        (body = [] →
          t.value = "Expected digits after prefix: " ++ String.mk ['0', p] ∧ lx'.rest = tail) ∧
        (∀ good c more, body = good ++ c :: more →
          (∀ g ∈ good, ¬ InvalidDigit (prefixBase p) g) → InvalidDigit (prefixBase p) c →
          t.value = "Invalid digit for base " ++ toString (prefixBase p) ++ ": " ++
              String.mk ('0' :: p :: good) ++ String.singleton c ∧
            lx'.rest = c :: more ++ tail)) ∧
    prefixBase 'x' = 16 ∧ prefixBase 'X' = 16 ∧ prefixBase 'o' = 8 ∧ prefixBase 'O' = 8 ∧
    prefixBase 'b' = 2 ∧ prefixBase 'B' = 2 ∧
    (lexTokens scenarioPrefixed).map (fun t => (t.type, t.value)) =
      [(.Indent, "0"), (.Number, "0x1F"), (.Number, "0o17"), (.Number, "0b101"),
       (.EOFToken, "EOF")] ∧
    (lexTokens scenarioBadPrefixed).map (fun t => (t.type, t.value)) =
      [(.Indent, "0"), (.Error, "Expected digits after prefix: 0x"),
       (.Error, "Invalid digit for base 2: 0b12"), (.Number, "2"), (.EOFToken, "EOF")] := by
  refine ⟨fun lx p body tail hr hp hb ht => ?_, by decide, by decide, by decide, by decide,
    by decide, by decide, by decide!, by decide!⟩
  have hd : isdigit lx.peek = true := by rw [Lexer.peek_eq_of_rest hr]; decide
  have valid := @getNumber_prefixed_valid ({ lx with newLine := false } : Lexer) p body tail hr
    hp hb ht rfl
  have invalid : ∀ good c more, body = good ++ c :: more →
      (∀ g ∈ good, ¬ InvalidDigit (prefixBase p) g) → InvalidDigit (prefixBase p) c →
      ({ lx with newLine := false } : Lexer).getNumber =
        ({ type := .Error,
           value := "Invalid digit for base " ++ toString (prefixBase p) ++ ": " ++
             String.mk ('0' :: p :: good) ++ String.singleton c,
           line := lx.line, column := lx.column },
         { lx with rest := c :: more ++ tail, column := lx.column + 1 + 1 + (good.length : Int),
                   newLine := false }) := by
    intro good c more e hg hc
    subst e
    exact @getNumber_prefixed_invalid ({ lx with newLine := false } : Lexer) p c good
      (more ++ tail) (by rw [hr]; simp) hp
      (fun g h => ⟨hb g (List.mem_append_left _ h), hg g h⟩)
      (hb c (List.mem_append_right _ (List.mem_cons_self _ _))) hc rfl
  have empty : body = [] → ({ lx with newLine := false } : Lexer).getNumber =
      ({ type := .Error, value := "Expected digits after prefix: " ++ String.mk ['0', p],
         line := lx.line, column := lx.column },
       { lx with rest := tail, column := lx.column + 1 + 1, newLine := false }) := by
    intro e
    subst e
    exact @getNumber_prefixed_empty ({ lx with newLine := false } : Lexer) p tail hr hp ht rfl
  refine ⟨_, _, scanStep_digit hd, ?_, ?_, ?_, ?_, ?_, ?_, ?_⟩
  · rcases first_with (InvalidDigit (prefixBase p)) body with h | ⟨good, c, more, e, hg, hc⟩
    · by_cases hne : body = []
      · rw [empty hne]
      · rw [valid hne h]
    · rw [invalid good c more e hg hc]
  · rcases first_with (InvalidDigit (prefixBase p)) body with h | ⟨good, c, more, e, hg, hc⟩
    · by_cases hne : body = []
      · rw [empty hne]
      · rw [valid hne h]
    · rw [invalid good c more e hg hc]
  · rcases first_with (InvalidDigit (prefixBase p)) body with h | ⟨good, c, more, e, hg, hc⟩
    · by_cases hne : body = []
      · rw [empty hne]; exact Or.inr rfl
      · rw [valid hne h]; exact Or.inl rfl
    · rw [invalid good c more e hg hc]; exact Or.inr rfl
  · constructor
    · intro hty
      rcases first_with (InvalidDigit (prefixBase p)) body with h | ⟨good, c, more, e, hg, hc⟩
      · by_cases hne : body = []
        · rw [empty hne] at hty; exact absurd hty (show TokenType.Error ≠ TokenType.Number by decide)
        · exact ⟨hne, h⟩
      · rw [invalid good c more e hg hc] at hty; exact absurd hty (show TokenType.Error ≠ TokenType.Number by decide)
    · rintro ⟨hne, h⟩
      rw [valid hne h]
  · intro hty
    rcases first_with (InvalidDigit (prefixBase p)) body with h | ⟨good, c, more, e, hg, hc⟩
    · by_cases hne : body = []
      · rw [empty hne] at hty; exact absurd hty (show TokenType.Error ≠ TokenType.Number by decide)
      · rw [valid hne h]; exact ⟨rfl, rfl⟩
    · rw [invalid good c more e hg hc] at hty; exact absurd hty (show TokenType.Error ≠ TokenType.Number by decide)
  · intro hne
    rw [empty hne]
    exact ⟨rfl, rfl⟩
  · intro good c more e hg hc
    rw [invalid good c more e hg hc]
    exact ⟨rfl, rfl⟩

theorem isStringChar_iff {c : Char} :
    isStringChar c = true ↔ c ≠ DQUOTE ∧ c ≠ '\n' ∧ c ≠ NUL := by
  simp [isStringChar, and_assoc]

theorem scanStep_quote {lx : Lexer} (hp : lx.peek = DQUOTE) :
    lx.scanStep =
      ((if lx.newLine then [tok .Indent "0" lx.line lx.column] else []) ++
        [({ lx with newLine := false } : Lexer).getString.1],
       ({ lx with newLine := false } : Lexer).getString.2, false) := by
  have hp2 : ({ lx with newLine := false } : Lexer).peek = lx.peek := rfl
  rw [scanStep_of (indentPhase_token (by rw [hp]; decide))
      (skip_none (by rw [hp2, hp]; decide) (by rw [hp2, hp]; decide)),
    hp2, if_neg (by rw [hp]; decide), if_neg (by rw [hp]; decide), if_neg (by rw [hp]; decide),
    if_pos hp]

/-- The loop of `getString` on the characters of a string that a newline, a NUL byte or the
end of the text leaves open. -/
theorem stringBody_open (col : Int) : ∀ (cs : List Char) (n : Nat) (a : Lexer) (v : String)
    (tail : List Char), a.rest = cs ++ tail →
    (∀ c ∈ cs, c ≠ DQUOTE ∧ c ≠ '\n' ∧ c ≠ NUL) →
    (tail.getD 0 NUL = NUL ∨ tail.getD 0 NUL = '\n') → a.newLine = false → cs.length < n →
    stringBody false col n a v =
      ({ type := .Error, value := "Unterminated string", line := a.line, column := col },
       { a with rest := tail, column := a.column + (cs.length : Int) })
  | [], n, a, v, tail, hr, _, ht, hf, hn => by
      cases n with
      | zero => simp at hn
      | succ n =>
          have hr' : a.rest = tail := by simpa using hr
          have hp : a.peek = tail.getD 0 NUL := by rw [Lexer.peek, hr']
          rw [List.length_nil, Lexer.eta_rest hr']
          unfold stringBody
          rcases ht with h | h
          · rw [if_pos (by rw [hp, h])]
          · rw [if_neg (by rw [hp, h]; decide), if_pos (by rw [hp, h]; simp)]
  | c :: cs, n, a, v, tail, hr, hall, ht, hf, hn => by
      cases n with
      | zero => simp at hn
      | succ n =>
          have hc := hall c (List.mem_cons_self _ _)
          have hr' : a.rest = c :: (cs ++ tail) := by simpa using hr
          have ha : a.advance = (c, { a with rest := cs ++ tail, column := a.column + 1 }) :=
            Lexer.advance_plain hr' hc.2.1 hf
          unfold stringBody
          simp only [Lexer.peek_eq_of_rest hr', ha]
          rw [if_neg hc.2.2, if_neg (by simp [hc.2.1]), if_neg (by simp), if_neg (by simp [hc.1])]
          rw [stringBody_open col cs n
            ({ a with rest := cs ++ tail, column := a.column + 1 } : Lexer) (v.push c)
            tail rfl (fun d hd => hall d (List.mem_cons_of_mem _ hd)) ht hf (by simpa using hn)]
          simp only [List.length_cons, Nat.cast_add, Nat.cast_one, Prod.mk.injEq, true_and]
          congr 1
          ring

/-- The reader `getString` on a string that is closed. -/
theorem getString_closed {a : Lexer} {c : Char} {cs tail : List Char}
    (hall : ∀ d ∈ c :: cs, d ≠ DQUOTE ∧ d ≠ '\n' ∧ d ≠ NUL)
    (hr : a.rest = DQUOTE :: (c :: cs ++ DQUOTE :: tail)) (hf : a.newLine = false) :
    a.getString =
      ({ type := .String, value := String.mk (c :: cs), line := a.line, column := a.column },
       { a with rest := tail, column := a.column + 1 + ((c :: cs).length : Int) + 1 }) := by
  have ha : a.advance =
      (DQUOTE, { a with rest := c :: cs ++ DQUOTE :: tail, column := a.column + 1 }) :=
    Lexer.advance_plain hr (by decide) hf
  have hc := hall c (List.mem_cons_self _ _)
  have hp : ({ a with rest := c :: cs ++ DQUOTE :: tail, column := a.column + 1 } :
      Lexer).peek ≠ DQUOTE := by
    show c ≠ DQUOTE
    exact hc.1
  unfold Lexer.getString
  simp only [ha]
  rw [if_neg hp, stringBody_content a.column (c :: cs) _
    ({ a with rest := c :: cs ++ DQUOTE :: tail, column := a.column + 1 } : Lexer) ""
    tail rfl hall hf (by simp; omega), string_empty_append]

/-- The reader `getString` on a string that is left open. -/
theorem getString_open {a : Lexer} {cs tail : List Char}
    (hall : ∀ d ∈ cs, d ≠ DQUOTE ∧ d ≠ '\n' ∧ d ≠ NUL)
    (ht : tail.getD 0 NUL = NUL ∨ tail.getD 0 NUL = '\n')
    (hr : a.rest = DQUOTE :: (cs ++ tail)) (hf : a.newLine = false) :
    a.getString =
      ({ type := .Error, value := "Unterminated string", line := a.line, column := a.column },
       { a with rest := tail, column := a.column + 1 + (cs.length : Int) }) := by
  have ha : a.advance = (DQUOTE, { a with rest := cs ++ tail, column := a.column + 1 }) :=
    Lexer.advance_plain hr (by decide) hf
  have hp : ({ a with rest := cs ++ tail, column := a.column + 1 } : Lexer).peek ≠ DQUOTE := by
    show (cs ++ tail).getD 0 NUL ≠ DQUOTE
    cases cs with
    | nil => rcases ht with h | h <;> rw [List.nil_append, h] <;> decide
    | cons c cs => exact (hall c (List.mem_cons_self _ _)).1
  unfold Lexer.getString
  simp only [ha]
  rw [if_neg hp, stringBody_open a.column cs _
    ({ a with rest := cs ++ tail, column := a.column + 1 } : Lexer) ""
    tail rfl hall ht hf (by simp; omega)]

theorem dropWhile_head {α : Type} (p : α → Bool) : ∀ (l : List α) (c : α) (r : List α),
    l.dropWhile p = c :: r → p c = false
  | [], _, _, h => by simp at h
  | x :: l, c, r, h => by
      by_cases hx : p x = true
      · rw [List.dropWhile_cons_of_pos hx] at h
        exact dropWhile_head p l c r h
      · rw [List.dropWhile_cons_of_neg hx] at h
        simp only [List.cons.injEq] at h
        rw [← h.1]
        simpa using hx

/-- C27 (amended). A double quote followed by a text `s` that does not start with a double
quote, where a token starts: the round of the scan emits one token for it, at the place of
the opening quote. It is a String token, whose lexeme is the characters of `s` before its
first double quote, unchanged, iff `s` has a double quote before any newline, any NUL byte
and the end of the text, and the scan goes on after that quote; otherwise it is an Error
token with the lexeme "Unterminated string", and the scan goes on at the newline, the NUL
byte or the end of the text. A backslash is a character like any other. -/
theorem string_literal_read :
    (∀ (lx : Lexer) (s : List Char), lx.rest = DQUOTE :: s → s.head? ≠ some DQUOTE →
      ∃ t lx', lx.scanStep =
          ((if lx.newLine then [tok .Indent "0" lx.line lx.column] else []) ++ [t], lx', false) ∧
        t.line = lx.line ∧ t.column = lx.column ∧
        (((s.dropWhile isStringChar).head? = some DQUOTE ∧ t.type = .String ∧
            t.value = String.mk (s.takeWhile isStringChar) ∧
            lx'.rest = (s.dropWhile isStringChar).tail) ∨
         ((s.dropWhile isStringChar).head? ≠ some DQUOTE ∧ t.type = .Error ∧
            t.value = "Unterminated string" ∧ lx'.rest = s.dropWhile isStringChar))) ∧
    (lexTokens scenarioOpenString) =
      [tok .Indent "0" 1 1, tok .Error "Unterminated string" 1 1, tok .EOFToken "EOF" 1 7] ∧
    (lexTokens scenarioBackslash).map (fun t => (t.type, t.value)) =
      [(.Indent, "0"), (.String, "a\\nb"), (.Identifier, "c"), (.EOFToken, "EOF")] := by
  refine ⟨fun lx s hr hs => ?_, by decide!, by decide!⟩
  have hp : lx.peek = DQUOTE := Lexer.peek_eq_of_rest hr
  have hall : ∀ d ∈ s.takeWhile isStringChar, d ≠ DQUOTE ∧ d ≠ '\n' ∧ d ≠ NUL :=
    fun d hd => isStringChar_iff.mp (List.mem_takeWhile_imp hd)
  have hsplit : s = s.takeWhile isStringChar ++ s.dropWhile isStringChar :=
    (List.takeWhile_append_dropWhile _ _).symm
  refine ⟨_, _, scanStep_quote hp, ?_⟩
  cases hd : s.dropWhile isStringChar with
  | nil =>
      rw [hd] at hsplit
      rw [@getString_open ({ lx with newLine := false } : Lexer) (s.takeWhile isStringChar) []
        hall (Or.inl rfl) (by rw [← hsplit]; exact hr) rfl]
      exact ⟨rfl, rfl, Or.inr ⟨by simp, rfl, rfl, rfl⟩⟩
  | cons c tail =>
      rw [hd] at hsplit
      have hc : ¬ (c ≠ DQUOTE ∧ c ≠ '\n' ∧ c ≠ NUL) := by
        rw [← isStringChar_iff, dropWhile_head isStringChar s c tail hd]
        simp
      by_cases hq : c = DQUOTE
      · subst hq
        cases hb : s.takeWhile isStringChar with
        | nil =>
            rw [hb] at hsplit
            rw [hsplit] at hs
            exact absurd rfl hs
        | cons b body =>
            rw [hb] at hsplit hall
            rw [@getString_closed ({ lx with newLine := false } : Lexer) b body tail hall
              (by rw [hr, hsplit]) rfl]
            exact ⟨rfl, rfl, Or.inl ⟨rfl, rfl, rfl, rfl⟩⟩
      · have ht : (c :: tail).getD 0 NUL = NUL ∨ (c :: tail).getD 0 NUL = '\n' := by
          show c = NUL ∨ c = '\n'
          by_contra hcon
          rw [not_or] at hcon
          exact hc ⟨hq, hcon.2, hcon.1⟩
        rw [@getString_open ({ lx with newLine := false } : Lexer) (s.takeWhile isStringChar)
          (c :: tail) hall ht (by rw [← hsplit]; exact hr) rfl]
        refine ⟨rfl, rfl, Or.inr ⟨?_, rfl, rfl, rfl⟩⟩
        simp only [List.head?_cons, ne_eq, Option.some.injEq]
        exact hq

/-- The text `scenarioNulString` is a double quote, `a`, a NUL byte, `b` and a double quote:
the closing quote comes before any newline and before the end of the text, and the lexer
gives an Error token and stops at the NUL byte. -/
theorem string_with_nul_unterminated :
    (Lexer.mk0 scenarioNulString).tokenize.map (fun r => r.1.map (fun t => (t.type, t.value))) =
      some [(.Indent, "0"), (.Error, "Unterminated string"), (.EOFToken, "EOF")] ∧
    scenarioNulString.tail.takeWhile (fun c => c != DQUOTE) = ['a', NUL, 'b'] ∧
    '\n' ∉ scenarioNulString := by decide!

/-! ## Every token of the scan comes from a round -/

theorem scan_tokens_all (P : Token → Prop) (h : ∀ (lx : Lexer), ∀ t ∈ lx.scanStep.1, P t) :
    ∀ (fuel : Nat) (lx : Lexer) (acc : List Token) (r : List Token × Lexer),
      scan fuel lx acc = some r → (∀ t ∈ acc, P t) → ∀ t ∈ r.1, P t
  | 0, _, _, _, hs, _ => by simp [scan] at hs
  | fuel + 1, lx, acc, r, hs, hacc => by
      have hnew := h lx
      rcases hst : lx.scanStep with ⟨new, lx1, done⟩
      rw [hst] at hnew
      have hall : ∀ t ∈ acc ++ new, P t := by
        intro t ht
        rcases List.mem_append.mp ht with h1 | h1
        · exact hacc t h1
        · exact hnew t h1
      cases done with
      | true =>
          rw [scan_last hst] at hs
          simp only [Option.some.injEq] at hs
          rw [← hs]
          exact hall
      | false =>
          rw [scan_round hst] at hs
          exact scan_tokens_all P h fuel lx1 (acc ++ new) r hs hall

theorem lexTokens_all (P : Token → Prop) (h : ∀ (lx : Lexer), ∀ t ∈ lx.scanStep.1, P t)
    (source : String) : ∀ t ∈ lexTokens source, P t := by
  unfold lexTokens
  rw [tokenize_eq]
  cases hs : scan ((Lexer.mk0 source.data).rest.length + 1) (startOf (Lexer.mk0 source.data)) [] with
  | none => intro t ht; simp at ht
  | some r =>
      intro t ht
      exact scan_tokens_all P h _ _ [] r hs (fun _ h0 => absurd h0 (List.not_mem_nil _)) t ht

/-! ## The types of the tokens of the readers -/

theorem getIdentifier_type (lx : Lexer) :
    lx.getIdentifier.1.type = .Keyword ∨ lx.getIdentifier.1.type = .Identifier := by
  unfold Lexer.getIdentifier
  simp only
  split_ifs
  · exact Or.inl rfl
  · exact Or.inr rfl

theorem stringBody_type (isTriple : Bool) (col : Int) : ∀ (n : Nat) (lx : Lexer) (v : String),
    (stringBody isTriple col n lx v).1.type = .String ∨
      (stringBody isTriple col n lx v).1.type = .Error
  | 0, _, _ => Or.inr rfl
  | n + 1, lx, v => by
      unfold stringBody
      split_ifs
      · exact Or.inr rfl
      · exact Or.inr rfl
      · exact Or.inl rfl
      · exact Or.inl rfl
      · exact stringBody_type isTriple col n _ _

theorem getString_type (lx : Lexer) :
    lx.getString.1.type = .String ∨ lx.getString.1.type = .Error := by
  unfold Lexer.getString
  simp only
  split_ifs
  · exact stringBody_type _ _ _ _ _
  · exact Or.inl rfl
  · exact stringBody_type _ _ _ _ _

theorem getOperator_type (lx : Lexer) : lx.getOperator.1.type = .Operator := by
  unfold Lexer.getOperator
  simp only
  split_ifs <;> rfl

/-- Every Number token of a round is the token of `getNumber`, called at a digit. -/
theorem scanStep_number_from (lx : Lexer) : ∀ t ∈ lx.scanStep.1, t.type = .Number →
    ∃ l : Lexer, isdigit l.peek = true ∧ t = l.getNumber.1 := by
  intro t ht hty
  have hs := @scanStep_of lx lx.indentPhase.2 lx.indentPhase.2.skipWhitespace.skipComment
    lx.indentPhase.1 rfl rfl
  generalize lx.indentPhase.2.skipWhitespace.skipComment = lx2 at hs
  have hind := indentPhase_types lx
  have key : ∀ (x : Token), x.type ≠ .Number → t ∈ lx.indentPhase.1 ++ [x] → False := by
    intro x hx hm
    rcases List.mem_append.mp hm with h1 | h1
    · have := hind t h1
      rw [hty] at this
      exact absurd this (by decide)
    · rw [List.mem_singleton] at h1
      rw [h1] at hty
      exact hx hty
  rw [hs] at ht
  split_ifs at ht with h1 h2 h3 h4 h5 h6 h7
  · exact (key _ (by simp) ht).elim
  · refine (key _ ?_ ht).elim
    rcases getIdentifier_type lx2 with h | h <;> rw [h] <;> decide
  · rcases List.mem_append.mp ht with h0 | h0
    · have := hind t h0
      rw [hty] at this
      exact absurd this (by decide)
    · exact ⟨lx2, h3, List.mem_singleton.mp h0⟩
  · refine (key _ ?_ ht).elim
    rcases getString_type lx2 with h | h <;> rw [h] <;> decide
  · refine (key _ ?_ ht).elim
    rw [getOperator_type]; decide
  · exact (key _ (by simp) ht).elim
  · have := hind t ht
    rw [hty] at this
    exact absurd this (by decide)
  · exact (key _ (by simp) ht).elim

/-! ## The lexeme of a Number token -/

theorem baseDigits_value (base : Nat) (col : Int) : ∀ (n : Nat) (lx : Lexer) (v : String)
    (has : Bool), ∃ cs, (baseDigits base col n lx v has).2.1 = v ++ String.mk cs
  | 0, _, v, _ => ⟨[], by apply String.ext; simp [baseDigits]⟩
  | n + 1, lx, v, has => by
      unfold baseDigits
      by_cases h1 : isalnum lx.peek = true
      · rw [if_pos h1]
        simp only
        by_cases h2 : (base = 2 ∧ (lx.peek ≠ '0' ∧ lx.peek ≠ '1')) ∨
            (base = 8 ∧ (lx.peek < '0' ∨ lx.peek > '7')) ∨ (base = 16 ∧ ¬ isxdigit lx.peek = true)
        · rw [if_pos h2]
          exact ⟨[], by apply String.ext; simp⟩
        · rw [if_neg h2]
          obtain ⟨cs, h⟩ := baseDigits_value base col n lx.advance.2 (v.push lx.advance.1) true
          exact ⟨lx.advance.1 :: cs, by rw [h]; apply String.ext; simp⟩
      · rw [if_neg h1]
        exact ⟨[], by apply String.ext; simp⟩

/-- The lexeme of a Number token of `getDecimal`: what was read before, digits, and then a
dot and digits if a dot follows the digits. -/
theorem getDecimal_shape (lx : Lexer) (v : String) (col : Int)
    (h : (lx.getDecimal v col).1.type = .Number) :
    ∃ ds fs, (∀ c ∈ ds, isdigit c = true) ∧ (∀ c ∈ fs, isdigit c = true) ∧
      (isdigit lx.peek = true → ds ≠ []) ∧
      ((lx.getDecimal v col).1.value = v ++ String.mk ds ∨
       (lx.getDecimal v col).1.value = v ++ String.mk (ds ++ '.' :: fs)) := by
  obtain ⟨ds, -, hds, -, hv1, hne⟩ := collectWhile_adv isdigit isdigit_nul lx.rest.length lx v
    (Nat.le_refl _)
  unfold Lexer.getDecimal at h ⊢
  generalize collectWhile isdigit lx.rest.length lx v = r1 at h hv1 ⊢
  obtain ⟨v1, lx1⟩ := r1
  simp only at h hv1 ⊢
  by_cases hdot : lx1.peek = '.'
  · obtain ⟨fs, -, hfs, -, hv2, -⟩ := collectWhile_adv isdigit isdigit_nul
      lx1.advance.2.rest.length lx1.advance.2 (v1.push lx1.advance.1) (Nat.le_refl _)
    simp only [if_pos hdot] at h ⊢
    generalize collectWhile isdigit lx1.advance.2.rest.length lx1.advance.2
      (v1.push lx1.advance.1) = r2 at h hv2 ⊢
    obtain ⟨v2, lx2⟩ := r2
    simp only at h hv2 ⊢
    refine ⟨ds, fs, hds, hfs, hne, Or.inr ?_⟩
    by_cases hi : isIdentStart lx2.peek = true
    · simp only [if_pos hi] at h
      exact absurd h (show TokenType.Error ≠ TokenType.Number by decide)
    · simp only [if_neg hi]
      show v2 = _
      rw [hv2, hv1, Lexer.advance_fst, hdot]
      apply String.ext; simp
  · simp only [if_neg hdot] at h ⊢
    refine ⟨ds, [], hds, fun _ hc => absurd hc (List.not_mem_nil _), hne, Or.inl ?_⟩
    by_cases hi : isIdentStart lx1.peek = true
    · simp only [if_pos hi] at h
      exact absurd h (show TokenType.Error ≠ TokenType.Number by decide)
    · simp only [if_neg hi]
      exact hv1

/-- The lexeme of a Number token of `getNumber` that is not a prefixed literal. -/
theorem getNumber_shape (lx : Lexer) (hd : isdigit lx.peek = true)
    (h : lx.getNumber.1.type = .Number) (hp : isPrefixed lx.getNumber.1.value.data = false) :
    DecimalLexeme lx.getNumber.1.value.data := by
  unfold Lexer.getNumber at h hp ⊢
  simp only at h hp ⊢
  by_cases h0 : lx.peek = '0'
  · simp only [if_pos h0] at h hp ⊢
    by_cases hx : tolower lx.advance.2.peek = 'x' ∨ tolower lx.advance.2.peek = 'o' ∨
        tolower lx.advance.2.peek = 'b'
    · exfalso
      simp only [if_pos hx] at h hp
      obtain ⟨cs, hcs⟩ := baseDigits_value
        (if tolower lx.advance.2.peek = 'x' then 16
          else if tolower lx.advance.2.peek = 'o' then 8 else 2) lx.column
        lx.advance.2.advance.2.rest.length lx.advance.2.advance.2
        (("".push lx.advance.1).push lx.advance.2.advance.1) false
      have herr := (baseDigits_ok
        (if tolower lx.advance.2.peek = 'x' then 16
          else if tolower lx.advance.2.peek = 'o' then 8 else 2) lx.column
        lx.advance.2.advance.2.rest.length lx.advance.2.advance.2
        (("".push lx.advance.1).push lx.advance.2.advance.1) false (Nat.le_refl _)).2
      generalize baseDigits
        (if tolower lx.advance.2.peek = 'x' then 16
          else if tolower lx.advance.2.peek = 'o' then 8 else 2) lx.column
        lx.advance.2.advance.2.rest.length lx.advance.2.advance.2
        (("".push lx.advance.1).push lx.advance.2.advance.1) false = r at h hp hcs herr
      obtain ⟨e, v3, has, lx3⟩ := r
      simp only at hcs
      cases e with
      | some err =>
          simp only at h
          have := (herr err rfl).2.2
          rw [this] at h
          exact absurd h (by decide)
      | none =>
          simp only at h hp
          by_cases hh : has = true
          · simp only [hh, not_true_eq_false, if_false] at hp
            rw [hcs, Lexer.advance_fst, Lexer.advance_fst, h0] at hp
            have : isPrefixed ('0' :: lx.advance.2.peek :: cs) = true := by
              simp only [isPrefixed, decide_eq_true_eq]
              exact hx
            have e : (("".push '0').push lx.advance.2.peek ++ String.mk cs).data =
                '0' :: lx.advance.2.peek :: cs := by simp
            rw [e, this] at hp
            exact absurd hp (by decide)
          · simp only [hh, not_false_eq_true, if_true] at h
            exact absurd h (show TokenType.Error ≠ TokenType.Number by decide)
    · simp only [if_neg hx] at h hp ⊢
      by_cases hdg : isdigit lx.advance.2.peek = true
      · simp only [if_pos hdg] at h
        exact absurd h (show TokenType.Error ≠ TokenType.Number by decide)
      · simp only [if_neg hdg] at h hp ⊢
        obtain ⟨ds, fs, hds, hfs, -, hv⟩ := getDecimal_shape lx.advance.2
          ("".push lx.advance.1) lx.column h
        rw [Lexer.advance_fst, h0] at hv
        refine ⟨'0' :: ds, fs, by simp, ?_, hfs, ?_⟩
        · intro c hc
          rcases List.mem_cons.mp hc with rfl | hc
          · decide
          · exact hds c hc
        · rcases hv with hv | hv
          · left; rw [Lexer.advance_fst, h0, hv]; simp
          · right; rw [Lexer.advance_fst, h0, hv]; simp
  · simp only [if_neg h0] at h hp ⊢
    obtain ⟨ds, fs, hds, hfs, hne, hv⟩ := getDecimal_shape lx "" lx.column h
    refine ⟨ds, fs, hne hd, hds, hfs, ?_⟩
    rcases hv with hv | hv
    · left; rw [hv]; simp
    · right; rw [hv]; simp

/-- The reader `getDecimal` on digits, a dot and digits, in front of a character that is
neither a digit, a letter nor `_`: the dot is read whether a digit follows it or not. -/
theorem getDecimal_dot {a : Lexer} {ds f tail : List Char} (v : String) (col : Int)
    (hr : a.rest = ds ++ '.' :: (f ++ tail)) (hd : ∀ c ∈ ds, isdigit c = true)
    (hfd : ∀ c ∈ f, isdigit c = true) (ht : isdigit (tail.getD 0 NUL) = false)
    (hi : isIdentStart (tail.getD 0 NUL) = false) (hf : a.newLine = false) :
    a.getDecimal v col =
      ({ type := .Number, value := v ++ String.mk (ds ++ '.' :: f), line := a.line, column := col },
       { a with rest := tail, column := a.column + (ds.length : Int) + 1 + (f.length : Int) }) := by
  have hc := collectWhile_run isdigit ds a.rest.length a v ('.' :: (f ++ tail)) hr
    (fun d h => ⟨hd d h, ne_of_pred (hd d h) (by decide)⟩)
    (by show isdigit '.' = false; decide) hf (by rw [hr]; simp)
  have hp : ({ a with rest := '.' :: (f ++ tail), column := a.column + (ds.length : Int) } :
      Lexer).peek = '.' := rfl
  have ha : ({ a with rest := '.' :: (f ++ tail), column := a.column + (ds.length : Int) } :
      Lexer).advance =
      ('.', { a with rest := f ++ tail, column := a.column + (ds.length : Int) + 1 }) :=
    Lexer.advance_plain rfl (by decide) hf
  have hc2 := collectWhile_run isdigit f (f ++ tail).length
    ({ a with rest := f ++ tail, column := a.column + (ds.length : Int) + 1 } : Lexer)
    ((v ++ String.mk ds).push '.') tail rfl
    (fun d h => ⟨hfd d h, ne_of_pred (hfd d h) (by decide)⟩) ht hf (by simp)
  have hp2 : ({ a with
      rest := tail
      column := a.column + (ds.length : Int) + 1 + (f.length : Int) } : Lexer).peek =
      tail.getD 0 NUL := rfl
  unfold Lexer.getDecimal
  simp only [hc, hp, ha, if_true]
  rw [hc2]
  simp only
  rw [hp2, if_neg (by rw [hi]; simp)]
  rw [string_push_append, string_append_mk]

/-- The reader `getNumber` on a numeral, a dot and digits. -/
theorem getNumber_dot {a : Lexer} {ds f tail : List Char} (hn : isNumeral ds)
    (hfd : ∀ c ∈ f, isdigit c = true) (ht : isdigit (tail.getD 0 NUL) = false)
    (hi : isIdentStart (tail.getD 0 NUL) = false)
    (hr : a.rest = ds ++ '.' :: (f ++ tail)) (hf : a.newLine = false) :
    a.getNumber =
      ({ type := .Number, value := String.mk (ds ++ '.' :: f), line := a.line,
         column := a.column },
       { a with rest := tail, column := a.column + (ds.length : Int) + 1 + (f.length : Int) }) := by
  obtain ⟨hne, hd, hz⟩ := hn
  cases ds with
  | nil => exact absurd rfl hne
  | cons c ds' =>
      by_cases hc : c = '0'
      · subst hc
        have := hz rfl
        simp only [List.cons.injEq, true_and] at this
        subst this
        rw [@getNumber_zero a ('.' :: (f ++ tail)) (by simpa using hr) hf (Or.inl rfl),
          @getDecimal_dot
            ({ a with rest := '.' :: (f ++ tail), column := a.column + 1 } : Lexer)
            [] f tail "0" a.column rfl (by simp) hfd ht hi hf]
        simp only [List.nil_append, List.length_nil, Nat.cast_zero, add_zero, List.length_singleton,
          Nat.cast_one, List.singleton_append, Prod.mk.injEq, and_true]
        congr 1
      · rw [getNumber_nonzero (by rw [Lexer.peek_eq_of_rest (by simpa using hr)]; exact hc),
          getDecimal_dot "" a.column hr hd hfd ht hi hf, string_empty_append]

/-- C26 (amended). Every Number token that the lexer emits for a literal without a prefix
has a lexeme of the form digits, or digits, a dot and digits, where the digits after the dot
may be missing; a dot right after the digits of a numeral is read as part of the number
whether a digit follows it or not; and the Number node is tagged "float" iff the lexeme has
a dot, "int" otherwise. -/
theorem decimal_number_lexeme :
    (∀ (source : String) (t : Token), t ∈ lexTokens source → t.type = .Number →
      isPrefixed t.value.data = false → DecimalLexeme t.value.data) ∧
    (∀ (lx : Lexer) (ds fs tail : List Char), lx.rest = ds ++ '.' :: (fs ++ tail) →
      isNumeral ds → (∀ c ∈ fs, isdigit c = true) → isdigit (tail.getD 0 NUL) = false →
      isIdentStart (tail.getD 0 NUL) = false →
      lx.scanStep =
        ((if lx.newLine then [tok .Indent "0" lx.line lx.column] else []) ++
          [tok .Number (String.mk (ds ++ '.' :: fs)) lx.line lx.column],
         { lx with rest := tail,
                   column := lx.column + (ds.length : Int) + 1 + (fs.length : Int),
                   newLine := false },
         false)) ∧
    (∀ (t : Token) (node : ASTNode), NumberNode t = some node →
      node.numberTag? = some (if t.value.data.contains '.' then "float" else "int")) ∧
    ((lexTokens scenarioDecimals).filter (fun t => t.type = .Number)).map
        (fun t => (t.value, (NumberNode t).bind ASTNode.numberTag?)) =
      [("7", some "int"), ("2.5", some "float"), ("0", some "int"), ("0.25", some "float"),
       ("10.", some "float")] := by
  refine ⟨fun source t ht hty hp => ?_, fun lx ds fs tail hr hn hfs ht hi => ?_,
    fun t node h => ?_, by decide!⟩
  · have hall := lexTokens_all
      (fun t => t.type = .Number → isPrefixed t.value.data = false → DecimalLexeme t.value.data)
      (fun lx t ht hty hp => by
        obtain ⟨l, hd, rfl⟩ := scanStep_number_from lx t ht hty
        exact getNumber_shape l hd hty hp) source
    exact hall t ht hty hp
  · have hd : isdigit lx.peek = true := by
      obtain ⟨hne, hds, -⟩ := hn
      cases ds with
      | nil => exact absurd rfl hne
      | cons c ds =>
          rw [Lexer.peek_eq_of_rest (by simpa using hr)]
          exact hds c (List.mem_cons_self _ _)
    rw [scanStep_digit hd,
      @getNumber_dot ({ lx with newLine := false } : Lexer) ds fs tail hn hfs ht hi hr rfl]
    rfl
  · unfold NumberNode at h
    cases hs : stod t.value with
    | none => rw [hs] at h; exact Option.noConfusion h
    | some v =>
        rw [hs] at h
        simp only [Option.some.injEq] at h
        rw [← h]
        rfl

/-- On `1.` the lexer gives a Number token with the lexeme `1.`, which has no digit after
its dot, and the Number node of that token is tagged "float". -/
theorem number_with_trailing_dot :
    (lexTokens scenarioTrailingDot).map (fun t => (t.type, t.value)) =
      [(.Indent, "0"), (.Number, "1."), (.EOFToken, "EOF")] ∧
    (NumberNode (tok .Number "1." 1 1)).bind ASTNode.numberTag? = some "float" ∧
    scenarioTrailingDot.data = ['1', '.'] := by decide!

/-! ## The symbol table of the lexer during the scan -/

theorem Lexer.advance_table (lx : Lexer) : lx.advance.2.symbolTable = lx.symbolTable := by
  unfold Lexer.advance
  simp only
  split_ifs <;> rfl

theorem advanceWhile_table (p : Char → Bool) : ∀ (n : Nat) (lx : Lexer),
    (advanceWhile p n lx).symbolTable = lx.symbolTable
  | 0, _ => rfl
  | n + 1, lx => by
      unfold advanceWhile
      split_ifs
      · rw [advanceWhile_table p n, Lexer.advance_table]
      · rfl

theorem collectWhile_table (p : Char → Bool) : ∀ (n : Nat) (lx : Lexer) (v : String),
    (collectWhile p n lx v).2.symbolTable = lx.symbolTable
  | 0, _, _ => rfl
  | n + 1, lx, v => by
      unfold collectWhile
      split_ifs
      · rw [collectWhile_table p n, Lexer.advance_table]
      · rfl

theorem baseDigits_table (base : Nat) (col : Int) : ∀ (n : Nat) (lx : Lexer) (v : String)
    (has : Bool), (baseDigits base col n lx v has).2.2.2.symbolTable = lx.symbolTable
  | 0, _, _, _ => rfl
  | n + 1, lx, v, has => by
      unfold baseDigits
      by_cases h1 : isalnum lx.peek = true
      · rw [if_pos h1]
        simp only
        split_ifs
        · rfl
        · rw [baseDigits_table base col n, Lexer.advance_table]
      · rw [if_neg h1]

theorem getDecimal_table (lx : Lexer) (v : String) (col : Int) :
    (lx.getDecimal v col).2.symbolTable = lx.symbolTable := by
  unfold Lexer.getDecimal
  simp only
  have h1 := collectWhile_table isdigit lx.rest.length lx v
  generalize collectWhile isdigit lx.rest.length lx v = r1 at h1 ⊢
  obtain ⟨v1, lx1⟩ := r1
  simp only at h1 ⊢
  have h2 : (if lx1.peek = '.' then
      collectWhile isdigit lx1.advance.2.rest.length lx1.advance.2 (v1.push lx1.advance.1)
      else (v1, lx1)).2.symbolTable = lx.symbolTable := by
    split_ifs
    · rw [collectWhile_table, Lexer.advance_table, h1]
    · exact h1
  generalize (if lx1.peek = '.' then
      collectWhile isdigit lx1.advance.2.rest.length lx1.advance.2 (v1.push lx1.advance.1)
      else (v1, lx1)) = r2 at h2 ⊢
  obtain ⟨v2, lx2⟩ := r2
  simp only at h2 ⊢
  split_ifs
  · show (collectWhile isIdentChar lx2.rest.length lx2 v2).2.symbolTable = _
    rw [collectWhile_table, h2]
  · exact h2

theorem getNumber_table (lx : Lexer) : lx.getNumber.2.symbolTable = lx.symbolTable := by
  unfold Lexer.getNumber
  simp only
  by_cases h0 : lx.peek = '0'
  · rw [if_pos h0]
    by_cases hx : tolower lx.advance.2.peek = 'x' ∨ tolower lx.advance.2.peek = 'o' ∨
        tolower lx.advance.2.peek = 'b'
    · rw [if_pos hx]
      have hb := baseDigits_table
        (if tolower lx.advance.2.peek = 'x' then 16
          else if tolower lx.advance.2.peek = 'o' then 8 else 2) lx.column
        lx.advance.2.advance.2.rest.length lx.advance.2.advance.2
        (("".push lx.advance.1).push lx.advance.2.advance.1) false
      rw [Lexer.advance_table, Lexer.advance_table] at hb
      generalize baseDigits
        (if tolower lx.advance.2.peek = 'x' then 16
          else if tolower lx.advance.2.peek = 'o' then 8 else 2) lx.column
        lx.advance.2.advance.2.rest.length lx.advance.2.advance.2
        (("".push lx.advance.1).push lx.advance.2.advance.1) false = r at hb ⊢
      obtain ⟨e, v3, has, lx3⟩ := r
      simp only at hb
      cases e with
      | some err => exact hb
      | none =>
          simp only
          split_ifs <;> exact hb
    · rw [if_neg hx]
      by_cases hdg : isdigit lx.advance.2.peek = true
      · rw [if_pos hdg]
        show (collectWhile isdigit lx.advance.2.rest.length lx.advance.2
          ("".push lx.advance.1)).2.symbolTable = _
        rw [collectWhile_table, Lexer.advance_table]
      · rw [if_neg hdg, getDecimal_table, Lexer.advance_table]
  · rw [if_neg h0, getDecimal_table]

theorem stringBody_table (isTriple : Bool) (col : Int) : ∀ (n : Nat) (lx : Lexer) (v : String),
    (stringBody isTriple col n lx v).2.symbolTable = lx.symbolTable
  | 0, _, _ => rfl
  | n + 1, lx, v => by
      unfold stringBody
      split_ifs
      · rfl
      · rfl
      · simp only [Lexer.advance_table]
      · simp only [Lexer.advance_table]
      · rw [stringBody_table isTriple col n, Lexer.advance_table]

theorem getString_table (lx : Lexer) : lx.getString.2.symbolTable = lx.symbolTable := by
  unfold Lexer.getString
  simp only
  split_ifs
  · rw [stringBody_table, Lexer.advance_table, Lexer.advance_table, Lexer.advance_table]
  · show lx.advance.2.advance.2.symbolTable = _
    rw [Lexer.advance_table, Lexer.advance_table]
  · rw [stringBody_table, Lexer.advance_table]

theorem getOperator_table (lx : Lexer) : lx.getOperator.2.symbolTable = lx.symbolTable := by
  unfold Lexer.getOperator
  simp only
  by_cases h : (lx.advance.1 = '=' ∨ lx.advance.1 = '!' ∨ lx.advance.1 = '<' ∨
      lx.advance.1 = '>') ∧ lx.advance.2.peek = '='
  · rw [if_pos h]
    split_ifs <;>
    · show lx.advance.2.advance.2.symbolTable = _
      rw [Lexer.advance_table, Lexer.advance_table]
  · rw [if_neg h]
    split_ifs <;>
    · show lx.advance.2.symbolTable = _
      rw [Lexer.advance_table]

theorem indentPhase_table (lx : Lexer) : lx.indentPhase.2.symbolTable = lx.symbolTable := by
  unfold Lexer.indentPhase
  split_ifs
  · show (advanceWhile isBlank lx.rest.length lx).symbolTable = _
    rw [advanceWhile_table]
  · rfl

theorem skip_table (lx : Lexer) : lx.skipWhitespace.skipComment.symbolTable = lx.symbolTable := by
  unfold Lexer.skipComment Lexer.skipWhitespace
  split_ifs
  · rw [advanceWhile_table, advanceWhile_table]
  · rw [advanceWhile_table]

/-- The reader `getIdentifier`: a Keyword token and the table as it was, or an Identifier
token whose id is what `insert` returns for its lexeme, and the table after that `insert`. -/
theorem getIdentifier_table (lx : Lexer) :
    (lx.getIdentifier.1.type = .Keyword ∧ isKeyword lx.getIdentifier.1.value = true ∧
      lx.getIdentifier.2.symbolTable = lx.symbolTable) ∨
    (lx.getIdentifier.1.type = .Identifier ∧ isKeyword lx.getIdentifier.1.value = false ∧
      lx.getIdentifier.1.symbolId = (lx.symbolTable.insert lx.getIdentifier.1.value).1 ∧
      lx.getIdentifier.2.symbolTable = (lx.symbolTable.insert lx.getIdentifier.1.value).2) := by
  unfold Lexer.getIdentifier
  simp only
  have h1 := collectWhile_table isIdentChar lx.rest.length lx ""
  generalize collectWhile isIdentChar lx.rest.length lx "" = r1 at h1 ⊢
  obtain ⟨v1, lx1⟩ := r1
  simp only at h1 ⊢
  by_cases hk : isKeyword v1 = true
  · rw [if_pos hk]
    exact Or.inl ⟨rfl, hk, h1⟩
  · rw [if_neg hk]
    refine Or.inr ⟨rfl, by simpa using hk, ?_, ?_⟩
    · show (lx1.symbolTable.insert v1).1 = _
      rw [h1]
    · show (lx1.symbolTable.insert v1).2 = _
      rw [h1]

theorem getDecimal_type (lx : Lexer) (v : String) (col : Int) :
    (lx.getDecimal v col).1.type = .Number ∨ (lx.getDecimal v col).1.type = .Error := by
  unfold Lexer.getDecimal
  generalize collectWhile isdigit lx.rest.length lx v = r1
  obtain ⟨v1, lx1⟩ := r1
  simp only
  generalize (if lx1.peek = '.' then
      collectWhile isdigit lx1.advance.2.rest.length lx1.advance.2 (v1.push lx1.advance.1)
      else (v1, lx1)) = r2
  obtain ⟨v2, lx2⟩ := r2
  simp only
  by_cases hi : isIdentStart lx2.peek = true
  · rw [if_pos hi]; exact Or.inr rfl
  · rw [if_neg hi]; exact Or.inl rfl

theorem getNumber_type (lx : Lexer) :
    lx.getNumber.1.type = .Number ∨ lx.getNumber.1.type = .Error := by
  unfold Lexer.getNumber
  simp only
  by_cases h0 : lx.peek = '0'
  · rw [if_pos h0]
    by_cases hx : tolower lx.advance.2.peek = 'x' ∨ tolower lx.advance.2.peek = 'o' ∨
        tolower lx.advance.2.peek = 'b'
    · rw [if_pos hx]
      have herr := (baseDigits_ok
        (if tolower lx.advance.2.peek = 'x' then 16
          else if tolower lx.advance.2.peek = 'o' then 8 else 2) lx.column
        lx.advance.2.advance.2.rest.length lx.advance.2.advance.2
        (("".push lx.advance.1).push lx.advance.2.advance.1) false (Nat.le_refl _)).2
      generalize baseDigits
        (if tolower lx.advance.2.peek = 'x' then 16
          else if tolower lx.advance.2.peek = 'o' then 8 else 2) lx.column
        lx.advance.2.advance.2.rest.length lx.advance.2.advance.2
        (("".push lx.advance.1).push lx.advance.2.advance.1) false = r at herr ⊢
      obtain ⟨e, v3, has, lx3⟩ := r
      cases e with
      | some err => exact Or.inr (herr err rfl).2.2
      | none =>
          simp only
          by_cases hh : has = true
          · rw [if_neg (by simp [hh])]; exact Or.inl rfl
          · rw [if_pos (by simpa using hh)]; exact Or.inr rfl
    · rw [if_neg hx]
      by_cases hdg : isdigit lx.advance.2.peek = true
      · rw [if_pos hdg]
        exact Or.inr rfl
      · rw [if_neg hdg]
        exact getDecimal_type _ _ _
  · rw [if_neg h0]
    exact getDecimal_type _ _ _

/-- A round of the scan leaves the symbol table as it was and emits no Identifier token, or
it emits one Identifier token, last, whose id is what `insert` returns for its lexeme, and
leaves the table after that `insert`. -/
theorem scanStep_table (lx : Lexer) :
    (lx.scanStep.2.1.symbolTable = lx.symbolTable ∧ ∀ t ∈ lx.scanStep.1, t.type ≠ .Identifier) ∨
    (∃ ind t, lx.scanStep.1 = ind ++ [t] ∧ (∀ x ∈ ind, x.type = .Indent) ∧
      t.type = .Identifier ∧ isKeyword t.value = false ∧
      t.symbolId = (lx.symbolTable.insert t.value).1 ∧
      lx.scanStep.2.1.symbolTable = (lx.symbolTable.insert t.value).2) := by
  have hs := @scanStep_of lx lx.indentPhase.2 lx.indentPhase.2.skipWhitespace.skipComment
    lx.indentPhase.1 rfl rfl
  have htab : lx.indentPhase.2.skipWhitespace.skipComment.symbolTable = lx.symbolTable := by
    rw [skip_table, indentPhase_table]
  generalize lx.indentPhase.2.skipWhitespace.skipComment = lx2 at hs htab
  have hind := indentPhase_types lx
  have key : ∀ (x : Token), x.type ≠ .Identifier →
      ∀ t ∈ lx.indentPhase.1 ++ [x], t.type ≠ .Identifier := by
    intro x hx t hm
    rcases List.mem_append.mp hm with h1 | h1
    · rw [hind t h1]; decide
    · rw [List.mem_singleton] at h1
      rw [h1]; exact hx
  rw [hs]
  split_ifs with h1 h2 h3 h4 h5 h6 h7
  · exact Or.inl ⟨htab, key _ (by simp)⟩
  · rcases getIdentifier_table lx2 with ⟨hty, -, ht⟩ | ⟨hty, hk, hid, ht⟩
    · exact Or.inl ⟨by rw [← htab]; exact ht, key _ (by rw [hty]; decide)⟩
    · refine Or.inr ⟨lx.indentPhase.1, lx2.getIdentifier.1, rfl, hind, hty, hk, ?_, ?_⟩
      · rw [← htab]; exact hid
      · rw [← htab]; exact ht
  · exact Or.inl ⟨by rw [← htab]; exact getNumber_table lx2, key _ (by
      rcases getNumber_type lx2 with h | h <;> rw [h] <;> decide)⟩
  · refine Or.inl ⟨by rw [← htab]; exact getString_table lx2, key _ ?_⟩
    rcases getString_type lx2 with h | h <;> rw [h] <;> decide
  · exact Or.inl ⟨by rw [← htab]; exact getOperator_table lx2, key _ (by
      rw [getOperator_type]; decide)⟩
  · exact Or.inl ⟨by rw [← htab]; exact Lexer.advance_table lx2, key _ (by simp)⟩
  · exact Or.inl ⟨by rw [← htab]; exact Lexer.advance_table lx2, fun t ht => by
      rw [hind t ht]; decide⟩
  · exact Or.inl ⟨by rw [← htab]; exact Lexer.advance_table lx2, key _ (by simp)⟩

theorem firstNames_append (ws : List String) (w : String) :
    firstNames (ws ++ [w]) =
      if w ∈ firstNames ws then firstNames ws else firstNames ws ++ [w] := by
  unfold firstNames
  rw [List.foldl_append]
  rfl

theorem firstNames_nodup (ws : List String) : (firstNames ws).Nodup := by
  induction ws using List.reverseRecOn with
  | nil => exact List.nodup_nil
  | append_singleton ws w ih =>
      rw [firstNames_append]
      split_ifs with h
      · exact ih
      · exact List.Nodup.append ih (List.nodup_singleton w) (by
          intro a ha hb
          rw [List.mem_singleton] at hb
          exact h (hb ▸ ha))

theorem lookup_none_of_not_mem : ∀ (l : List (String × Int)) (w : String),
    w ∉ l.map Prod.fst → l.lookup w = none
  | [], _, _ => rfl
  | (n, i) :: l, w, h => by
      have h1 : w ≠ n := fun e => h (by simp [e])
      have h2 : w ∉ l.map Prod.fst := fun hm => h (by simp at hm ⊢; exact Or.inr hm)
      rw [List.lookup_cons, show (w == n) = false from by simpa using h1]
      exact lookup_none_of_not_mem l w h2

theorem mem_of_lookup_some : ∀ (l : List (String × Int)) (w : String) (id : Int),
    l.lookup w = some id → w ∈ l.map Prod.fst
  | [], _, _, h => by simp at h
  | (n, i) :: l, w, id, h => by
      by_cases h1 : w = n
      · simp [h1]
      · rw [List.lookup_cons, show (w == n) = false from by simpa using h1] at h
        have := mem_of_lookup_some l w id h
        simp at this ⊢
        exact Or.inr this

/-- In a list of pairs whose ids count up from `k`, the id found for a name is the place
of the name. -/
theorem lookup_place : ∀ (l : List (String × Int)) (k : Nat) (w : String) (id : Int),
    l.map Prod.snd = idsFrom k l.length → l.lookup w = some id →
    (k : Int) ≤ id ∧ (l.map Prod.fst)[id.toNat - k]? = some w
  | [], _, _, _, _, h => by simp at h
  | (n, i) :: l, k, w, id, hids, h => by
      have hi : i = (k : Int) ∧ l.map Prod.snd = idsFrom (k + 1) l.length := by
        simpa [idsFrom, List.range'] using hids
      by_cases h1 : w = n
      · subst h1
        rw [List.lookup_cons, show (w == w) = true from by simp] at h
        simp only [Option.some.injEq] at h
        subst h
        rw [hi.1]
        refine ⟨le_refl _, ?_⟩
        simp
      · rw [List.lookup_cons, show (w == n) = false from by simpa using h1] at h
        obtain ⟨hle, hget⟩ := lookup_place l (k + 1) w id hi.2 h
        have hk : (k : Int) + 1 ≤ id := by exact_mod_cast hle
        refine ⟨by omega, ?_⟩
        have e : id.toNat - k = (id.toNat - (k + 1)) + 1 := by omega
        rw [e]
        simpa using hget

theorem idsFrom_succ (k n : Nat) : idsFrom k (n + 1) = idsFrom k n ++ [((k + n : Nat) : Int)] := by
  unfold idsFrom
  rw [List.range'_concat]
  simp

/-- The call `insert(w)` on a sound table. -/
theorem insert_sound (t : SymbolTable) (ws : List String) (w : String) (hs : t.Sound)
    (hn : t.pairs.map Prod.fst = firstNames ws) :
    (t.insert w).2.Sound ∧ (t.insert w).2.pairs.map Prod.fst = firstNames (ws ++ [w]) ∧
    0 ≤ (t.insert w).1 ∧
    ((t.insert w).2.pairs.map Prod.fst)[(t.insert w).1.toNat]? = some w ∧
    ∃ ext, (t.insert w).2.pairs.map Prod.fst = t.pairs.map Prod.fst ++ ext := by
  obtain ⟨h1, h2, h3⟩ := hs
  cases hl : t.nameToId.lookup w with
  | some id =>
      have hi : t.insert w = (id, t) := by unfold SymbolTable.insert; rw [hl]
      rw [hi]
      rw [h1] at hl
      have hm := mem_of_lookup_some _ _ _ hl
      obtain ⟨h0, hg⟩ := lookup_place t.pairs 0 w id h2 hl
      refine ⟨⟨h1, h2, h3⟩, ?_, by simpa using h0, by simpa using hg, [], by simp⟩
      rw [firstNames_append, ← hn, if_pos hm]
  | none =>
      have hi1 : (t.insert w).1 = t.nextId := by unfold SymbolTable.insert; rw [hl]
      have hp : (t.insert w).2.pairs = t.pairs ++ [(w, t.nextId)] := by
        rw [insert_fresh t w hl]; simp [SymbolTable.pairs]
      have hm : (t.insert w).2.nameToId = t.nameToId ++ [(w, t.nextId)] := by
        rw [insert_fresh t w hl]
      have hx : (t.insert w).2.nextId = t.nextId + 1 := by
        rw [insert_fresh t w hl]
      have hnm : w ∉ t.pairs.map Prod.fst := by
        intro hm
        rw [h1] at hl
        simp only [List.mem_map, Prod.exists, exists_and_right, exists_eq_right] at hm
        obtain ⟨i, hmi⟩ := hm
        have := List.lookup_eq_none_iff.mp hl (w, i) hmi
        simp at this
      have hlen : (t.pairs.map Prod.fst).length = t.pairs.length := List.length_map _ _
      refine ⟨⟨?_, ?_, ?_⟩, ?_, ?_, ?_, [w], ?_⟩
      · rw [hm, hp, h1]
      · rw [hp, List.map_append, h2, List.length_append, List.length_singleton, idsFrom_succ, h3]
        simp
      · rw [hx, hp, List.length_append, List.length_singleton, h3]
        simp
      · rw [hp, firstNames_append, ← hn, if_neg hnm]
        simp
      · rw [hi1, h3]; exact Int.natCast_nonneg _
      · rw [hi1, hp, h3, Int.toNat_natCast, List.map_append, ← hlen, List.getElem?_append_right
          (Nat.le_refl _)]
        simp
      · rw [hp]; simp

theorem identLexemes_append (a b : List Token) :
    identLexemes (a ++ b) = identLexemes a ++ identLexemes b := by
  simp [identLexemes]

theorem identLexemes_none {ts : List Token} (h : ∀ t ∈ ts, t.type ≠ .Identifier) :
    identLexemes ts = [] := by
  unfold identLexemes
  rw [List.map_eq_nil_iff, List.filter_eq_nil_iff]
  intro t ht
  simpa using h t ht

/-- A round of the scan keeps the invariant. -/
theorem ScanInv.round {acc : List Token} {lx : Lexer} (h : ScanInv acc lx.symbolTable) :
    ScanInv (acc ++ lx.scanStep.1) lx.scanStep.2.1.symbolTable := by
  obtain ⟨hs, hn, hid⟩ := h
  rcases scanStep_table lx with ⟨ht, hno⟩ | ⟨ind, t, hnew, hind, hty, -, hsid, ht⟩
  · rw [ht]
    refine ⟨hs, by rw [identLexemes_append, identLexemes_none hno, List.append_nil]; exact hn, ?_⟩
    intro x hx hxt
    rcases List.mem_append.mp hx with h1 | h1
    · exact hid x h1 hxt
    · exact absurd hxt (hno x h1)
  · obtain ⟨hs', hn', h0, hg, ext, hext⟩ := insert_sound lx.symbolTable (identLexemes acc)
      t.value hs hn
    have hl : identLexemes (acc ++ lx.scanStep.1) = identLexemes acc ++ [t.value] := by
      rw [hnew, identLexemes_append, identLexemes_append,
        @identLexemes_none ind (fun x hx => by rw [hind x hx]; decide)]
      simp [identLexemes, hty]
    rw [ht]
    refine ⟨hs', by rw [hl]; exact hn', ?_⟩
    intro x hx hxt
    rw [hnew] at hx
    rcases List.mem_append.mp hx with h1 | h1
    · obtain ⟨hx0, hxg⟩ := hid x h1 hxt
      refine ⟨hx0, ?_⟩
      rw [hext, List.getElem?_append_left]
      · exact hxg
      · by_contra hc
        rw [List.getElem?_eq_none (by omega)] at hxg
        exact Option.noConfusion hxg
    · rcases List.mem_append.mp h1 with h2 | h2
      · rw [hind x h2] at hxt
        exact absurd hxt (by decide)
      · rw [List.mem_singleton] at h2
        subst h2
        rw [hsid]
        exact ⟨h0, hg⟩

/-- The loop of `tokenize` keeps the invariant. -/
theorem ScanInv.of_scan : ∀ (fuel : Nat) (lx : Lexer) (acc : List Token) (r : List Token × Lexer),
    scan fuel lx acc = some r → ScanInv acc lx.symbolTable → ScanInv r.1 r.2.symbolTable
  | 0, _, _, _, hs, _ => by simp [ComPy.scan] at hs
  | fuel + 1, lx, acc, r, hs, h => by
      have hr := h.round
      rcases hst : lx.scanStep with ⟨new, lx1, done⟩
      rw [hst] at hr
      cases done with
      | true =>
          rw [scan_last hst] at hs
          simp only [Option.some.injEq] at hs
          rw [← hs]
          exact hr
      | false =>
          rw [scan_round hst] at hs
          exact ScanInv.of_scan fuel lx1 (acc ++ new) r hs hr

/-! ## `detectTypes` keeps the names and the ids -/

theorem map_modify_same {α β : Type} (f : α → β) (g : α → α) (h : ∀ a, f (g a) = f a) :
    ∀ (l : List α) (i : Nat), (List.modify g i l).map f = l.map f
  | [], _ => by simp
  | a :: l, 0 => by rw [List.modify_zero_cons]; simp [h]
  | a :: l, i + 1 => by
      rw [List.modify_succ_cons, List.map_cons, List.map_cons, map_modify_same f g h l i]

theorem SymbolTableEntry.refine_pair (e : SymbolTableEntry) (type value : String) :
    ((e.refine type value).name, (e.refine type value).id) = (e.name, e.id) := by
  unfold SymbolTableEntry.refine
  simp only
  split_ifs <;> rfl

theorem SymbolTable.updateType_pairs (t : SymbolTable) (name type value : String) :
    (t.updateType name type value).pairs = t.pairs ∧
    (t.updateType name type value).nameToId = t.nameToId := by
  unfold SymbolTable.updateType
  cases t.nameToId.lookup name with
  | none => exact ⟨rfl, rfl⟩
  | some index =>
      refine ⟨?_, rfl⟩
      exact map_modify_same (fun e => (e.name, e.id)) (fun e => e.refine type value)
        (fun e => e.refine_pair type value) t.entries index.toNat

theorem seedAssign_pairs (t : SymbolTable) (var expr : List Char) :
    (seedAssign t var expr).pairs = t.pairs := by
  unfold seedAssign
  simp only
  split_ifs <;> exact (SymbolTable.updateType_pairs _ _ _ _).1

theorem assignLoop_pairs : ∀ (n : Nat) (text : List Char) (t : SymbolTable),
    (assignLoop n text t).pairs = t.pairs
  | 0, _, _ => rfl
  | n + 1, text, t => by
      unfold assignLoop
      cases searchAssign text with
      | none => rfl
      | some r =>
          obtain ⟨var, expr, after⟩ := r
          simp only
          rw [assignLoop_pairs n after, seedAssign_pairs]

theorem callLoop_pairs : ∀ (n : Nat) (text : List Char) (t : SymbolTable),
    (callLoop n text t).pairs = t.pairs
  | 0, _, _ => rfl
  | n + 1, text, t => by
      unfold callLoop
      cases searchCall text false with
      | none => rfl
      | some r =>
          obtain ⟨funcName, after⟩ := r
          simp only
          rw [callLoop_pairs n after, (SymbolTable.updateType_pairs _ _ _ _).1]

theorem detectTypes_pairs (lx : Lexer) :
    lx.detectTypes.symbolTable.pairs = lx.symbolTable.pairs := by
  unfold Lexer.detectTypes
  show (callLoop _ _ _).pairs = _
  rw [callLoop_pairs, assignLoop_pairs]

/-! ## The round that reads a word -/

theorem scanStep_letter {lx : Lexer} (hp : isIdentStart lx.peek = true) :
    lx.scanStep =
      ((if lx.newLine then [tok .Indent "0" lx.line lx.column] else []) ++
        [({ lx with newLine := false } : Lexer).getIdentifier.1],
       ({ lx with newLine := false } : Lexer).getIdentifier.2, false) := by
  have hp2 : ({ lx with newLine := false } : Lexer).peek = lx.peek := rfl
  have hic := isIdentChar_of_start hp
  rw [scanStep_of (indentPhase_token (isBlank_of_not_space (isspace_of_identChar hic)))
      (skip_none (by rw [hp2]; exact isspace_of_identChar hic)
        (by rw [hp2]; exact ne_of_pred hic (by decide))),
    hp2, if_neg (ne_of_pred hic (by decide)), if_pos hp]

/-- The reader `getIdentifier` on a word. -/
theorem getIdentifier_word {a : Lexer} {w tail : List Char} (hr : a.rest = w ++ tail)
    (hw : ∀ c ∈ w, isIdentChar c = true) (ht : isIdentChar (tail.getD 0 NUL) = false)
    (hf : a.newLine = false) :
    a.getIdentifier =
      if isKeyword (String.mk w) then
        ({ type := .Keyword, value := String.mk w, line := a.line, column := a.column },
         { a with rest := tail, column := a.column + (w.length : Int) })
      else
        ({ type := .Identifier, value := String.mk w, line := a.line, column := a.column,
           symbolId := (a.symbolTable.insert (String.mk w)).1 },
         { a with rest := tail, column := a.column + (w.length : Int),
                  symbolTable := (a.symbolTable.insert (String.mk w)).2 }) := by
  have hc := collectWhile_run isIdentChar w a.rest.length a "" tail hr
    (fun d h => ⟨hw d h, ne_of_pred (hw d h) (by decide)⟩) ht hf (by rw [hr]; simp)
  unfold Lexer.getIdentifier
  simp only
  rw [hc, string_empty_append]

theorem idsFrom_get (n i : Nat) (h : i < n) : (idsFrom 0 n)[i]? = some (i : Int) := by
  unfold idsFrom
  rw [List.getElem?_map, List.getElem?_range' _ _ h]
  simp

/-- C23. A maximal run `w` of letters, digits and `_` that starts with a letter or `_`, where
a token starts: the round of the scan emits one token for it, a Keyword with the lexeme `w`
if `w` is one of the 35 reserved words, and otherwise an Identifier with the lexeme `w` whose
symbolId is what `insert(w)` returns, the table being left as `insert(w)` leaves it. For
every source, after `tokenize`: the names of the entries of the lexer symbol table are the
lexemes of the Identifier tokens in the order of their first occurrence, each once; the ids
of the entries are 0, 1, 2, ... in that order; the symbolId of an Identifier token is the id
of the entry that has its lexeme as name; and two Identifier tokens have the same symbolId iff
they have the same lexeme. -/
theorem identifier_symbol_ids :
    (∀ (lx : Lexer) (c : Char) (r tail : List Char), lx.rest = c :: (r ++ tail) →
      isIdentStart c = true → (∀ d ∈ r, isIdentChar d = true) →
      isIdentChar (tail.getD 0 NUL) = false →
      lx.scanStep =
        ((if lx.newLine then [tok .Indent "0" lx.line lx.column] else []) ++
          [if isKeyword (String.mk (c :: r)) then
             tok .Keyword (String.mk (c :: r)) lx.line lx.column
           else
             { type := .Identifier, value := String.mk (c :: r), line := lx.line,
               column := lx.column,
               symbolId := (lx.symbolTable.insert (String.mk (c :: r))).1 }],
         { lx with
             rest := tail
             column := lx.column + ((c :: r).length : Int)
             newLine := false
             symbolTable :=
               if isKeyword (String.mk (c :: r)) then lx.symbolTable
               else (lx.symbolTable.insert (String.mk (c :: r))).2 },
         false)) ∧
    keywords.length = 35 ∧
    (∀ (source : String), ∃ tokens lx', (Lexer.mk0 source.data).tokenize = some (tokens, lx') ∧
      lx'.symbolTable.entries.map (fun e => e.name) = firstNames (identLexemes tokens) ∧
      lx'.symbolTable.entries.map (fun e => e.id) = idsFrom 0 lx'.symbolTable.entries.length ∧
      (lx'.symbolTable.entries.map (fun e => e.name)).Nodup ∧
      (∀ t ∈ tokens, t.type = .Identifier →
        0 ≤ t.symbolId ∧
        ∃ e, lx'.symbolTable.entries[t.symbolId.toNat]? = some e ∧ e.name = t.value ∧
          e.id = t.symbolId) ∧
      (∀ t1 ∈ tokens, ∀ t2 ∈ tokens, t1.type = .Identifier → t2.type = .Identifier →
        (t1.symbolId = t2.symbolId ↔ t1.value = t2.value))) ∧
    (lexTokens scenarioNames).map (fun t => (t.type, t.value, t.symbolId)) =
      [(.Indent, "0", -1), (.Identifier, "a", 0), (.Identifier, "b", 1), (.Identifier, "a", 0),
       (.Keyword, "if", -1), (.Identifier, "c", 2), (.Identifier, "b", 1),
       (.EOFToken, "EOF", -1)] := by
  refine ⟨fun lx c r tail hr hc hw ht => ?_, by decide, fun source => ?_, by decide!⟩
  · have hp : isIdentStart lx.peek = true := by rw [Lexer.peek_eq_of_rest hr]; exact hc
    have hall : ∀ d ∈ c :: r, isIdentChar d = true := by
      intro d hd
      rcases List.mem_cons.mp hd with rfl | hd
      · exact isIdentChar_of_start hc
      · exact hw d hd
    rw [scanStep_letter hp,
      @getIdentifier_word ({ lx with newLine := false } : Lexer) (c :: r) tail hr hall ht rfl]
    by_cases hk : isKeyword (String.mk (c :: r)) = true
    · simp only [hk, if_true]; rfl
    · simp only [hk, if_false]; rfl
  · obtain ⟨toks, lxe, hs, -, -⟩ :=
      scan_returns ((Lexer.mk0 source.data).rest.length + 1) (startOf (Lexer.mk0 source.data))
        (Nat.lt_succ_self _)
    have h0 : ScanInv [] (startOf (Lexer.mk0 source.data)).symbolTable :=
      ⟨⟨rfl, rfl, rfl⟩, rfl, fun x hx => absurd hx (List.not_mem_nil _)⟩
    obtain ⟨⟨-, hids, -⟩, hnames, htok⟩ := ScanInv.of_scan _ _ _ _ hs h0
    simp only at hids hnames htok
    rw [← detectTypes_pairs] at hids hnames htok
    have e1 : lxe.detectTypes.symbolTable.pairs.map Prod.fst =
        lxe.detectTypes.symbolTable.entries.map (fun e => e.name) := by
      simp [SymbolTable.pairs, Function.comp_def]
    have e2 : lxe.detectTypes.symbolTable.pairs.map Prod.snd =
        lxe.detectTypes.symbolTable.entries.map (fun e => e.id) := by
      simp [SymbolTable.pairs, Function.comp_def]
    have e3 : lxe.detectTypes.symbolTable.pairs.length =
        lxe.detectTypes.symbolTable.entries.length := by simp [SymbolTable.pairs]
    rw [e1] at hnames htok
    rw [e2, e3] at hids
    have hnd : (lxe.detectTypes.symbolTable.entries.map (fun e => e.name)).Nodup := by
      rw [hnames]; exact firstNames_nodup _
    refine ⟨toks, lxe.detectTypes, by rw [tokenize_eq, hs]; rfl, hnames, hids, hnd, ?_, ?_⟩
    · intro t ht hty
      obtain ⟨h0, hg⟩ := htok t ht hty
      refine ⟨h0, ?_⟩
      rw [List.getElem?_map] at hg
      cases he : lxe.detectTypes.symbolTable.entries[t.symbolId.toNat]? with
      | none => rw [he] at hg; exact Option.noConfusion hg
      | some e =>
          rw [he] at hg
          simp only [Option.map_some', Option.some.injEq] at hg
          refine ⟨e, rfl, hg, ?_⟩
          have hlt : t.symbolId.toNat < lxe.detectTypes.symbolTable.entries.length := by
            by_contra hc
            rw [List.getElem?_eq_none (by omega)] at he
            exact Option.noConfusion he
          have h1 : (lxe.detectTypes.symbolTable.entries.map (fun e => e.id))[t.symbolId.toNat]? =
              some e.id := by rw [List.getElem?_map, he]; rfl
          rw [hids, idsFrom_get _ _ hlt] at h1
          simp only [Option.some.injEq] at h1
          rw [← h1]
          exact Int.toNat_of_nonneg h0
    · intro t1 h1 t2 h2 hty1 hty2
      obtain ⟨h10, hg1⟩ := htok t1 h1 hty1
      obtain ⟨h20, hg2⟩ := htok t2 h2 hty2
      constructor
      · intro h
        rw [h, hg2] at hg1
        exact (Option.some.inj hg1).symm
      · intro h
        rw [h] at hg1
        have hlt1 : t1.symbolId.toNat <
            (lxe.detectTypes.symbolTable.entries.map (fun e => e.name)).length := by
          by_contra hc
          rw [List.getElem?_eq_none (by omega)] at hg1
          exact Option.noConfusion hg1
        have hlt2 : t2.symbolId.toNat <
            (lxe.detectTypes.symbolTable.entries.map (fun e => e.name)).length := by
          by_contra hc
          rw [List.getElem?_eq_none (by omega)] at hg2
          exact Option.noConfusion hg2
        rw [List.getElem?_eq_getElem hlt1] at hg1
        rw [List.getElem?_eq_getElem hlt2] at hg2
        have := (List.Nodup.getElem_inj_iff hnd).mp
          ((Option.some.inj hg1).trans (Option.some.inj hg2).symm)
        omega

/-- The call of `tokenize` on a lexer that stands at the end of its text. -/
theorem tokenize_at_end (lx : Lexer) (h : lx.peek = NUL) :
    lx.tokenize =
      some ([tok .Indent "0" lx.line lx.column, tok .EOFToken "EOF" lx.line lx.column],
        ({ lx with newLine := false } : Lexer).detectTypes) := by
  have hp : (startOf lx).peek = NUL := h
  have hp2 : ({ startOf lx with newLine := false } : Lexer).peek = NUL := h
  have hstep : (startOf lx).scanStep =
      ([tok .Indent "0" lx.line lx.column] ++ [tok .EOFToken "EOF" lx.line lx.column],
        ({ lx with newLine := false } : Lexer), true) := by
    rw [scanStep_of (@indentPhase_start (startOf lx) rfl (by rw [hp]; decide))
      (skip_none (by rw [hp2]; decide) (by rw [hp2]; decide)), if_pos hp2]
    rfl
  rw [tokenize_eq, scan_last hstep]
  rfl

/-- C30. For every source, the first call of `tokenize` on a lexer built on it returns, and
a second call on the same lexer returns two tokens only, an IndentMarker of level 0 and
EndOfInput, both at the place where the first call stopped: the cursor, the line and the
column are not set back. On `x = 1` the first call gives five tokens and the second call
two; the symbol table is the same after both. -/
theorem second_tokenize_restarts_nowhere :
    (∀ (source : List Char), ∃ tokens lx1 lx2, (Lexer.mk0 source).tokenize = some (tokens, lx1) ∧
      lx1.tokenize =
        some ([tok .Indent "0" lx1.line lx1.column, tok .EOFToken "EOF" lx1.line lx1.column],
          lx2)) ∧
    (Lexer.mk0 scenarioTwice.data).tokenizeTwice.map
        (fun r => (r.1.1, r.2.1, decide (r.1.2.symbolTable = r.2.2.symbolTable))) =
      some ([tok .Indent "0" 1 1,
             { type := .Identifier, value := "x", line := 1, column := 1, symbolId := 0 },
             tok .Operator "=" 1 3, tok .Number "1" 1 5, tok .EOFToken "EOF" 1 6],
            [tok .Indent "0" 1 6, tok .EOFToken "EOF" 1 6], true) := by
  refine ⟨fun source => ?_, by decide!⟩
  obtain ⟨toks, lxe, hs, -, cs, -, hpk⟩ :=
    scan_returns ((Lexer.mk0 source).rest.length + 1) (startOf (Lexer.mk0 source))
      (Nat.lt_succ_self _)
  have hpk' : lxe.detectTypes.peek = NUL := hpk
  exact ⟨toks, lxe.detectTypes, _, by rw [tokenize_eq, hs]; rfl, tokenize_at_end _ hpk'⟩

theorem Rel.peek_eq {k : Bool} {post post' : List Char}
    {a b : Lexer} (h : Rel k post post' a b) (hl : post.length < a.rest.length) :
    b.peek = a.peek := by
  obtain ⟨⟨r, ha, hb⟩, -⟩ := h
  cases r with
  | nil => rw [ha] at hl; simp at hl
  | cons x r => rw [Lexer.peek_eq_of_rest ha, Lexer.peek_eq_of_rest hb]

theorem Rel.at_end {k : Bool} {post post' : List Char}
    {a b : Lexer} (h : Rel k post post' a b) (hl : a.rest.length ≤ post.length) :
    a.rest = post ∧ b.rest = post' := by
  obtain ⟨⟨r, ha, hb⟩, -⟩ := h
  cases r with
  | nil => exact ⟨ha, hb⟩
  | cons x r => rw [ha] at hl; simp at hl; omega

theorem Rel.peek_end {k : Bool} {post post' : List Char} {a b : Lexer} (h : Rel k post post' a b)
    (hl : a.rest.length ≤ post.length) :
    a.peek = post.getD 0 NUL ∧ b.peek = post'.getD 0 NUL := by
  obtain ⟨ha, hb⟩ := h.at_end hl
  exact ⟨by rw [Lexer.peek, ha], by rw [Lexer.peek, hb]⟩

theorem Rel.post_le {k : Bool} {post post' : List Char}
    {a b : Lexer} (h : Rel k post post' a b) : post.length ≤ a.rest.length := by
  obtain ⟨⟨r, ha, -⟩, -⟩ := h
  rw [ha]; simp

theorem Rel.b_lt {k : Bool} {post post' : List Char}
    {a b : Lexer} (h : Rel k post post' a b) (hl : post.length < a.rest.length) :
    post'.length < b.rest.length := by
  obtain ⟨⟨r, ha, hb⟩, -⟩ := h
  rw [ha] at hl
  rw [hb]
  simp at hl ⊢
  omega

/-- The method `advance` on two lexers at the same place, in front of the same character. -/
theorem Rel.advance_rel {k : Bool} {post post' : List Char} {a b : Lexer} (h : Rel k post post' a b)
    (hl : post.length < a.rest.length) :
    Rel k post post' a.advance.2 b.advance.2 := by
  have hp := h.peek_eq hl
  obtain ⟨⟨r, ha, hb⟩, h1, h2, h3, h4⟩ := h
  cases r with
  | nil => rw [ha] at hl; simp at hl
  | cons x r =>
      have ha' : a.rest = x :: (r ++ post) := ha
      have hb' : b.rest = x :: (r ++ post') := hb
      refine ⟨⟨r, by simp [ha'], by simp [hb']⟩, ?_, ?_, ?_, ?_⟩
      · rw [Lexer.advance_line ha', Lexer.advance_line hb', h1]
      · unfold Lexer.advance
        simp only
        split_ifs <;> exact h2
      · rw [Lexer.advance_newLine ha', Lexer.advance_newLine hb', h3]
      · intro hk
        rw [Lexer.advance_column ha', Lexer.advance_column hb', h4 hk]

theorem advanceWhile_len (p : Char → Bool) : ∀ (n : Nat) (a : Lexer),
    (advanceWhile p n a).rest.length ≤ a.rest.length
  | 0, _ => Nat.le_refl _
  | n + 1, a => by
      unfold advanceWhile
      split_ifs
      · refine Nat.le_trans (advanceWhile_len p n _) ?_
        rw [Lexer.advance_rest]; simp
      · exact Nat.le_refl _

theorem collectWhile_len (p : Char → Bool) : ∀ (n : Nat) (a : Lexer) (v : String),
    (collectWhile p n a v).2.rest.length ≤ a.rest.length
  | 0, _, _ => Nat.le_refl _
  | n + 1, a, v => by
      unfold collectWhile
      split_ifs
      · refine Nat.le_trans (collectWhile_len p n _ _) ?_
        rw [Lexer.advance_rest]; simp
      · exact Nat.le_refl _

theorem advance_len_lt {a : Lexer} (h : a.peek ≠ NUL) :
    a.advance.2.rest.length < a.rest.length := by
  obtain ⟨r, hr⟩ := Lexer.rest_of_peek_ne h
  rw [Lexer.advance_rest, hr]; simp

/-- The loop `while (p(peek())) advance();` on two lexers at the same place: if the first
run does not read past `r`, and stops before the end of `r` or `p` fails on the first
character of `post'`, the second run stops at the same place. -/
theorem advanceWhile_rel {k : Bool} {post post' : List Char}
    (p : Char → Bool) (hp0 : p NUL = false) :
    ∀ (n n' : Nat) (a b : Lexer), Rel k post post' a b → a.rest.length ≤ n →
      b.rest.length ≤ n' → post.length ≤ (advanceWhile p n a).rest.length →
      (post.length < (advanceWhile p n a).rest.length ∨ p (post'.getD 0 NUL) = false) →
      Rel k post post' (advanceWhile p n a) (advanceWhile p n' b) := by
  intro n
  induction n with
  | zero =>
      intro n' a b h hn _ _ hc
      have hz : a.rest.length ≤ post.length := by omega
      have hstop : p b.peek = false := by
        rw [(h.peek_end hz).2]
        rcases hc with hc | hc
        · simp only [advanceWhile] at hc; omega
        · exact hc
      rw [advanceWhile_stop hstop]
      exact h
  | succ n ih =>
      intro n' a b h hn hn' hs hc
      by_cases hl : post.length < a.rest.length
      · have hpk := h.peek_eq hl
        by_cases hp : p a.peek = true
        · have hne : a.peek ≠ NUL := by intro e; rw [e, hp0] at hp; exact Bool.noConfusion hp
          have hbl := h.b_lt hl
          obtain ⟨m, rfl⟩ : ∃ m, n' = m + 1 := ⟨n' - 1, by omega⟩
          have e1 : advanceWhile p (n + 1) a = advanceWhile p n a.advance.2 := by
            conv_lhs => unfold advanceWhile
            rw [if_pos hp]
          have e2 : advanceWhile p (m + 1) b = advanceWhile p m b.advance.2 := by
            conv_lhs => unfold advanceWhile
            rw [if_pos (by rw [hpk]; exact hp)]
          rw [e1] at hs hc ⊢
          rw [e2]
          refine ih m _ _ (h.advance_rel hl) ?_ ?_ hs hc
          · have := advance_len_lt hne; omega
          · rw [Lexer.advance_rest]; simp; omega
        · simp only [Bool.not_eq_true] at hp
          rw [advanceWhile_stop hp, advanceWhile_stop (by rw [hpk]; exact hp)]
          exact h
      · have hz : a.rest.length ≤ post.length := by omega
        obtain ⟨hpa, hpb⟩ := h.peek_end hz
        by_cases hp : p a.peek = true
        · exfalso
          have hne : a.peek ≠ NUL := by intro e; rw [e, hp0] at hp; exact Bool.noConfusion hp
          have e1 : advanceWhile p (n + 1) a = advanceWhile p n a.advance.2 := by
            conv_lhs => unfold advanceWhile
            rw [if_pos hp]
          rw [e1] at hs
          have := advanceWhile_len p n a.advance.2
          have := advance_len_lt hne
          omega
        · simp only [Bool.not_eq_true] at hp
          have e1 := @advanceWhile_stop p a hp (n + 1)
          rw [e1] at hs hc ⊢
          have hstop : p b.peek = false := by
            rw [hpb]
            rcases hc with hc | hc
            · omega
            · exact hc
          rw [advanceWhile_stop hstop]
          exact h

/-- The loop `while (p(peek())) value += advance();` on two lexers at the same place. -/
theorem collectWhile_rel {k : Bool} {post post' : List Char}
    (p : Char → Bool) (hp0 : p NUL = false) :
    ∀ (n n' : Nat) (a b : Lexer) (v : String), Rel k post post' a b → a.rest.length ≤ n →
      b.rest.length ≤ n' → post.length ≤ (collectWhile p n a v).2.rest.length →
      (post.length < (collectWhile p n a v).2.rest.length ∨ p (post'.getD 0 NUL) = false) →
      (collectWhile p n a v).1 = (collectWhile p n' b v).1 ∧
      Rel k post post' (collectWhile p n a v).2 (collectWhile p n' b v).2 := by
  have stop : ∀ (n : Nat) (a : Lexer) (v : String), p a.peek = false →
      collectWhile p n a v = (v, a) := by
    intro n a v h
    cases n with
    | zero => rfl
    | succ n => unfold collectWhile; rw [if_neg (by simp [h])]
  intro n
  induction n with
  | zero =>
      intro n' a b v h hn _ _ hc
      have hz : a.rest.length ≤ post.length := by omega
      have hstop : p b.peek = false := by
        rw [(h.peek_end hz).2]
        rcases hc with hc | hc
        · simp only [collectWhile] at hc; omega
        · exact hc
      rw [stop _ _ _ hstop]
      exact ⟨rfl, h⟩
  | succ n ih =>
      intro n' a b v h hn hn' hs hc
      by_cases hl : post.length < a.rest.length
      · have hpk := h.peek_eq hl
        by_cases hp : p a.peek = true
        · have hne : a.peek ≠ NUL := by intro e; rw [e, hp0] at hp; exact Bool.noConfusion hp
          have hbl := h.b_lt hl
          obtain ⟨m, rfl⟩ : ∃ m, n' = m + 1 := ⟨n' - 1, by omega⟩
          have e1 : collectWhile p (n + 1) a v =
              collectWhile p n a.advance.2 (v.push a.peek) := by
            conv_lhs => unfold collectWhile
            rw [if_pos hp, Lexer.advance_fst]
          have e2 : collectWhile p (m + 1) b v =
              collectWhile p m b.advance.2 (v.push a.peek) := by
            conv_lhs => unfold collectWhile
            rw [if_pos (by rw [hpk]; exact hp), Lexer.advance_fst, hpk]
          rw [e1] at hs hc ⊢
          rw [e2]
          refine ih m _ _ _ (h.advance_rel hl) ?_ ?_ hs hc
          · have := advance_len_lt hne; omega
          · rw [Lexer.advance_rest]; simp; omega
        · simp only [Bool.not_eq_true] at hp
          rw [stop _ _ _ hp, stop _ _ _ (by rw [hpk]; exact hp)]
          exact ⟨rfl, h⟩
      · have hz : a.rest.length ≤ post.length := by omega
        obtain ⟨hpa, hpb⟩ := h.peek_end hz
        by_cases hp : p a.peek = true
        · exfalso
          have hne : a.peek ≠ NUL := by intro e; rw [e, hp0] at hp; exact Bool.noConfusion hp
          have e1 : collectWhile p (n + 1) a v =
              collectWhile p n a.advance.2 (v.push a.peek) := by
            conv_lhs => unfold collectWhile
            rw [if_pos hp, Lexer.advance_fst]
          rw [e1] at hs
          have := collectWhile_len p n a.advance.2 (v.push a.peek)
          have := advance_len_lt hne
          omega
        · simp only [Bool.not_eq_true] at hp
          rw [stop _ _ _ hp] at hs hc ⊢
          have hstop : p b.peek = false := by
            rw [hpb]
            rcases hc with hc | hc
            · simp only at hc; omega
            · exact hc
          rw [stop _ _ _ hstop]
          exact ⟨rfl, h⟩

theorem Inert.of_mem {c : Char} (h : c = '#' ∨ c = ' ' ∨ c = '\t' ∨ c = NUL) : Inert c := by
  rcases h with rfl | rfl | rfl | rfl <;>
    exact ⟨by decide, by decide, by decide, by decide, by decide, by decide, by decide,
      by decide⟩

theorem getIdentifier_rest (a : Lexer) :
    a.getIdentifier.2.rest = (collectWhile isIdentChar a.rest.length a "").2.rest := by
  unfold Lexer.getIdentifier
  simp only
  split_ifs <;> rfl

/-- The reader `getIdentifier` on two lexers at the same place. -/
theorem getIdentifier_rel {k : Bool} {post post' : List Char}
    {a b : Lexer} (h : Rel k post post' a b)
    (hs : post.length ≤ a.getIdentifier.2.rest.length)
    (hi : isIdentChar (post'.getD 0 NUL) = false) :
    TokEq k a.getIdentifier.1 b.getIdentifier.1 ∧
      Rel k post post' a.getIdentifier.2 b.getIdentifier.2 := by
  rw [getIdentifier_rest] at hs
  obtain ⟨hv, hr⟩ := collectWhile_rel isIdentChar isIdentChar_nul a.rest.length b.rest.length
    a b "" h (Nat.le_refl _) (Nat.le_refl _) hs (Or.inr hi)
  have hcol := h.2.2.2.2
  unfold Lexer.getIdentifier
  simp only
  generalize collectWhile isIdentChar a.rest.length a "" = ra at hv hr
  generalize collectWhile isIdentChar b.rest.length b "" = rb at hv hr
  obtain ⟨va, la⟩ := ra
  obtain ⟨vb, lb⟩ := rb
  simp only at hv hr
  subst hv
  obtain ⟨hrest, h1, h2, h3, h4⟩ := hr
  by_cases hk : isKeyword va = true
  · rw [if_pos hk, if_pos hk]
    exact ⟨⟨rfl, rfl, h1, rfl, hcol⟩, hrest, h1, h2, h3, h4⟩
  · rw [if_neg hk, if_neg hk]
    simp only
    rw [h2]
    exact ⟨⟨rfl, rfl, h1, rfl, hcol⟩, hrest, h1, rfl, h3, h4⟩

theorem getOperator_rest (a : Lexer) :
    a.getOperator.2.rest =
      (if (a.peek = '=' ∨ a.peek = '!' ∨ a.peek = '<' ∨ a.peek = '>') ∧ a.advance.2.peek = '='
       then a.advance.2.advance.2 else a.advance.2).rest := by
  unfold Lexer.getOperator
  simp only [Lexer.advance_fst]
  split_ifs <;> rfl

/-- The reader `getOperator` on two lexers at the same place. -/
theorem getOperator_rel {k : Bool} {post post' : List Char} {a b : Lexer} (h : Rel k post post' a b)
    (hl : post.length < a.rest.length) (hs : post.length ≤ a.getOperator.2.rest.length)
    (hi : post'.getD 0 NUL ≠ '=') :
    TokEq k a.getOperator.1 b.getOperator.1 ∧
      Rel k post post' a.getOperator.2 b.getOperator.2 := by
  have hpk := h.peek_eq hl
  have h1 := h.advance_rel hl
  have hcol := h.2.2.2.2
  rw [getOperator_rest] at hs
  by_cases hca : (a.peek = '=' ∨ a.peek = '!' ∨ a.peek = '<' ∨ a.peek = '>') ∧
      a.advance.2.peek = '='
  · rw [if_pos hca] at hs
    have hl1 : post.length < a.advance.2.rest.length := by
      have := advance_len_lt (a := a.advance.2) (by rw [hca.2]; decide)
      omega
    have hcb : (b.peek = '=' ∨ b.peek = '!' ∨ b.peek = '<' ∨ b.peek = '>') ∧
        b.advance.2.peek = '=' := by rw [hpk, h1.peek_eq hl1]; exact hca
    have h2 := h1.advance_rel hl1
    unfold Lexer.getOperator
    simp only [Lexer.advance_fst, if_pos hca, if_pos hcb]
    rw [hpk]
    refine ⟨?_, ?_⟩
    · split_ifs
      · exact ⟨rfl, rfl, h2.2.1, rfl, hcol⟩
      · refine ⟨rfl, ?_, h2.2.1, rfl, hcol⟩
        simp only
        rw [h1.peek_eq hl1]
    · split_ifs <;> exact h2
  · rw [if_neg hca] at hs
    have hcb : ¬ ((b.peek = '=' ∨ b.peek = '!' ∨ b.peek = '<' ∨ b.peek = '>') ∧
        b.advance.2.peek = '=') := by
      by_cases hl1 : post.length < a.advance.2.rest.length
      · rw [hpk, h1.peek_eq hl1]; exact hca
      · have hz : a.advance.2.rest.length ≤ post.length := by omega
        rw [(h1.peek_end hz).2]
        exact fun hc => hi hc.2
    unfold Lexer.getOperator
    simp only [Lexer.advance_fst, if_neg hca, if_neg hcb]
    rw [hpk]
    refine ⟨?_, ?_⟩
    · split_ifs <;> exact ⟨rfl, rfl, h1.2.1, rfl, hcol⟩
    · split_ifs <;> exact h1

theorem getDecimal_eq (lx : Lexer) (v : String) (col : Int) :
    lx.getDecimal v col =
      (((collectWhile isdigit lx.rest.length lx v).2.decimalFraction
          (collectWhile isdigit lx.rest.length lx v).1).2).decimalEnd
        (((collectWhile isdigit lx.rest.length lx v).2.decimalFraction
          (collectWhile isdigit lx.rest.length lx v).1).1) col := by
  unfold Lexer.getDecimal Lexer.decimalEnd Lexer.decimalFraction
  generalize collectWhile isdigit lx.rest.length lx v = r1
  obtain ⟨v1, lx1⟩ := r1
  simp only

theorem collectWhile_step (p : Char → Bool) {a : Lexer} (v : String) (hp : p a.peek = true)
    (hne : a.peek ≠ NUL) :
    collectWhile p a.rest.length a v =
      collectWhile p a.advance.2.rest.length a.advance.2 (v.push a.peek) := by
  obtain ⟨r, hr⟩ := Lexer.rest_of_peek_ne hne
  have e : a.rest.length = a.advance.2.rest.length + 1 := by
    rw [Lexer.advance_rest, hr]; simp
  rw [e]
  conv_lhs => unfold collectWhile
  rw [if_pos hp, Lexer.advance_fst]

theorem collectWhile_len_lt (p : Char → Bool) {a : Lexer} (v : String) (hp : p a.peek = true)
    (hne : a.peek ≠ NUL) :
    (collectWhile p a.rest.length a v).2.rest.length < a.rest.length := by
  rw [collectWhile_step p v hp hne]
  have := collectWhile_len p a.advance.2.rest.length a.advance.2 (v.push a.peek)
  have := advance_len_lt hne
  omega

theorem decimalEnd_len (lx : Lexer) (v : String) (col : Int) :
    (lx.decimalEnd v col).2.rest.length ≤ lx.rest.length := by
  unfold Lexer.decimalEnd
  split_ifs
  · exact collectWhile_len _ _ _ _
  · exact Nat.le_refl _

theorem decimalFraction_len (lx : Lexer) (v : String) :
    (lx.decimalFraction v).2.rest.length ≤ lx.rest.length := by
  unfold Lexer.decimalFraction
  split_ifs
  · refine Nat.le_trans (collectWhile_len _ _ _ _) ?_
    rw [Lexer.advance_rest]; simp
  · exact Nat.le_refl _

theorem decimalEnd_rel {k : Bool} {post post' : List Char}
    {a b : Lexer} (v : String) (sa sb : Int) (h : Rel k post post' a b)
    (hs : post.length ≤ (a.decimalEnd v sa).2.rest.length)
    (hi : Inert (post'.getD 0 NUL)) (hcol : k = true → sa = sb) :
    TokEq k (a.decimalEnd v sa).1 (b.decimalEnd v sb).1 ∧
      Rel k post post' (a.decimalEnd v sa).2 (b.decimalEnd v sb).2 := by
  have hpk : isIdentStart b.peek = isIdentStart a.peek := by
    by_cases hl : post.length < a.rest.length
    · rw [h.peek_eq hl]
    · have hz : a.rest.length ≤ post.length := by omega
      obtain ⟨hpa, hpb⟩ := h.peek_end hz
      rw [hpb, hi.start]
      by_contra hc
      have hst : isIdentStart a.peek = true := by
        cases hx : isIdentStart a.peek with
        | true => rfl
        | false => rw [hx] at hc; exact absurd rfl hc
      have hne : a.peek ≠ NUL := by intro e; rw [e] at hst; revert hst; decide
      have e1 : (a.decimalEnd v sa).2 = (collectWhile isIdentChar a.rest.length a v).2 := by
        unfold Lexer.decimalEnd; rw [if_pos hst]
      rw [e1] at hs
      have := collectWhile_len_lt isIdentChar v (isIdentChar_of_start hst) hne
      omega
  by_cases hst : isIdentStart a.peek = true
  · have e1 : (a.decimalEnd v sa).2 = (collectWhile isIdentChar a.rest.length a v).2 := by
      unfold Lexer.decimalEnd; rw [if_pos hst]
    rw [e1] at hs
    obtain ⟨hv, hr⟩ := collectWhile_rel isIdentChar isIdentChar_nul a.rest.length b.rest.length
      a b v h (Nat.le_refl _) (Nat.le_refl _) hs (Or.inr hi.ident)
    unfold Lexer.decimalEnd
    rw [if_pos hst, if_pos (by rw [hpk]; exact hst)]
    exact ⟨⟨rfl, hv, hr.2.1, rfl, hcol⟩, hr⟩
  · unfold Lexer.decimalEnd
    rw [if_neg hst, if_neg (by rw [hpk]; exact hst)]
    exact ⟨⟨rfl, rfl, h.2.1, rfl, hcol⟩, h⟩

theorem decimalFraction_rel {k : Bool} {post post' : List Char}
    {a b : Lexer} (v : String) (h : Rel k post post' a b)
    (hs : post.length ≤ (a.decimalFraction v).2.rest.length)
    (hi : Inert (post'.getD 0 NUL)) :
    (a.decimalFraction v).1 = (b.decimalFraction v).1 ∧
      Rel k post post' (a.decimalFraction v).2 (b.decimalFraction v).2 := by
  by_cases hd : a.peek = '.'
  · have hne : a.peek ≠ NUL := by rw [hd]; decide
    have e1 : a.decimalFraction v =
        collectWhile isdigit a.advance.2.rest.length a.advance.2 (v.push a.advance.1) := by
      unfold Lexer.decimalFraction; rw [if_pos hd]
    rw [e1] at hs
    have hl : post.length < a.rest.length := by
      have := collectWhile_len isdigit a.advance.2.rest.length a.advance.2 (v.push a.advance.1)
      have := advance_len_lt hne
      omega
    have hpk := h.peek_eq hl
    have e2 : b.decimalFraction v =
        collectWhile isdigit b.advance.2.rest.length b.advance.2 (v.push a.advance.1) := by
      unfold Lexer.decimalFraction
      rw [if_pos (by rw [hpk]; exact hd), Lexer.advance_fst, Lexer.advance_fst, hpk]
    rw [e1, e2]
    exact collectWhile_rel isdigit isdigit_nul _ _ _ _ _ (h.advance_rel hl) (Nat.le_refl _)
      (Nat.le_refl _) hs (Or.inr hi.digit)
  · have hdb : b.peek ≠ '.' := by
      by_cases hl : post.length < a.rest.length
      · rw [h.peek_eq hl]; exact hd
      · rw [(h.peek_end (by omega)).2]; exact hi.dot
    unfold Lexer.decimalFraction
    rw [if_neg hd, if_neg hdb]
    exact ⟨rfl, h⟩

/-- The reader `getDecimal` on two lexers at the same place. -/
theorem getDecimal_rel {k : Bool} {post post' : List Char}
    {a b : Lexer} (v : String) (sa sb : Int) (h : Rel k post post' a b)
    (hs : post.length ≤ (a.getDecimal v sa).2.rest.length)
    (hi : Inert (post'.getD 0 NUL)) (hcol : k = true → sa = sb) :
    TokEq k (a.getDecimal v sa).1 (b.getDecimal v sb).1 ∧
      Rel k post post' (a.getDecimal v sa).2 (b.getDecimal v sb).2 := by
  rw [getDecimal_eq] at hs ⊢
  rw [getDecimal_eq]
  have hs2 := Nat.le_trans hs (decimalEnd_len _ _ _)
  have hs1 := Nat.le_trans hs2 (decimalFraction_len _ _)
  obtain ⟨hv1, hr1⟩ := collectWhile_rel isdigit isdigit_nul a.rest.length b.rest.length
    a b v h (Nat.le_refl _) (Nat.le_refl _) hs1 (Or.inr hi.digit)
  rw [← hv1]
  obtain ⟨hv2, hr2⟩ := decimalFraction_rel (collectWhile isdigit a.rest.length a v).1 hr1 hs2 hi
  rw [← hv2]
  exact decimalEnd_rel _ sa sb hr2 hs hi hcol

theorem getNumber_eq (lx : Lexer) :
    lx.getNumber =
      if lx.peek = '0' then lx.advance.2.afterZero ("".push lx.advance.1) lx.column
      else lx.getDecimal "" lx.column := by
  unfold Lexer.getNumber Lexer.afterZero prefixedResult
  rfl

theorem baseDigits_len (base : Nat) (col : Int) : ∀ (n : Nat) (a : Lexer) (v : String)
    (has : Bool), (baseDigits base col n a v has).2.2.2.rest.length ≤ a.rest.length
  | 0, _, _, _ => Nat.le_refl _
  | n + 1, a, v, has => by
      unfold baseDigits
      by_cases h1 : isalnum a.peek = true
      · rw [if_pos h1]
        simp only
        split_ifs
        · exact Nat.le_refl _
        · refine Nat.le_trans (baseDigits_len base col n _ _ _) ?_
          rw [Lexer.advance_rest]; simp
      · rw [if_neg h1]

theorem baseDigits_bad (base : Nat) (col : Int) : ∀ (n : Nat) (a : Lexer) (v : String)
    (has : Bool) (e : Token), (baseDigits base col n a v has).1 = some e → BadDigit e
  | 0, _, _, _, _, h => by simp [baseDigits] at h
  | n + 1, a, v, has, e, h => by
      unfold baseDigits at h
      by_cases h1 : isalnum a.peek = true
      · rw [if_pos h1] at h
        simp only at h
        split_ifs at h
        · simp only [Option.some.injEq] at h
          rw [← h]
          refine ⟨rfl, ?_⟩
          simp only [String.data_append, List.append_assoc]
          exact List.prefix_append _ _
        · exact baseDigits_bad base col n _ _ _ e h
      · rw [if_neg h1] at h
        exact Option.noConfusion h

/-- The digit loop of a prefixed literal on two lexers at the same place. -/
theorem baseDigits_rel {k : Bool} {post post' : List Char}
    (base : Nat) (sa sb : Int) (hcol : k = true → sa = sb)
    (hi : isalnum (post'.getD 0 NUL) = false) :
    ∀ (n n' : Nat) (a b : Lexer) (v : String) (has : Bool), Rel k post post' a b →
      a.rest.length ≤ n → b.rest.length ≤ n' →
      post.length ≤ (baseDigits base sa n a v has).2.2.2.rest.length →
      (post.length < (baseDigits base sa n a v has).2.2.2.rest.length ∨
        isalnum (post.getD 0 NUL) = false ∨ (baseDigits base sa n a v has).1 = none) →
      Option.Rel (TokEq k) (baseDigits base sa n a v has).1 (baseDigits base sb n' b v has).1 ∧
      (baseDigits base sa n a v has).2.1 = (baseDigits base sb n' b v has).2.1 ∧
      (baseDigits base sa n a v has).2.2.1 = (baseDigits base sb n' b v has).2.2.1 ∧
      Rel k post post' (baseDigits base sa n a v has).2.2.2
        (baseDigits base sb n' b v has).2.2.2 := by
  intro n
  induction n with
  | zero =>
      intro n' a b v has h hn _ _ _
      have hz : a.rest.length ≤ post.length := by omega
      have hstop : isalnum b.peek = false := by rw [(h.peek_end hz).2]; exact hi
      rw [baseDigits_stop base sb n' b v has hstop]
      exact ⟨Option.Rel.none, rfl, rfl, h⟩
  | succ n ih =>
      intro n' a b v has h hn hn' hs hok
      by_cases hl : post.length < a.rest.length
      · have hpk := h.peek_eq hl
        have hbl := h.b_lt hl
        obtain ⟨m, rfl⟩ : ∃ m, n' = m + 1 := ⟨n' - 1, by omega⟩
        by_cases hp : isalnum a.peek = true
        · have hne : a.peek ≠ NUL := by intro e; rw [e] at hp; revert hp; decide
          by_cases hinv : (base = 2 ∧ (a.peek ≠ '0' ∧ a.peek ≠ '1')) ∨
              (base = 8 ∧ (a.peek < '0' ∨ a.peek > '7')) ∨ (base = 16 ∧ ¬ isxdigit a.peek = true)
          · have hinv' : (base = 2 ∧ (b.peek ≠ '0' ∧ b.peek ≠ '1')) ∨
                (base = 8 ∧ (b.peek < '0' ∨ b.peek > '7')) ∨
                (base = 16 ∧ ¬ isxdigit b.peek = true) := by rw [hpk]; exact hinv
            have e1 := baseDigits_invalid base sa n a v has hp hinv
            have e2 := baseDigits_invalid base sb m b v has (by rw [hpk]; exact hp) hinv'
            rw [e1, e2, hpk]
            exact ⟨Option.Rel.some ⟨rfl, rfl, h.2.1, rfl, hcol⟩, rfl, rfl, h⟩
          · have e1 : baseDigits base sa (n + 1) a v has =
                baseDigits base sa n a.advance.2 (v.push a.peek) true := by
              conv_lhs => unfold baseDigits
              simp only [hp, if_true, if_neg hinv, Lexer.advance_fst]
            have e2 : baseDigits base sb (m + 1) b v has =
                baseDigits base sb m b.advance.2 (v.push a.peek) true := by
              conv_lhs => unfold baseDigits
              simp only [hpk, hp, if_true, if_neg hinv, Lexer.advance_fst]
            rw [e1] at hs hok ⊢
            rw [e2]
            refine ih m _ _ _ _ (h.advance_rel hl) ?_ ?_ hs hok
            · have := advance_len_lt hne; omega
            · rw [Lexer.advance_rest]; simp; omega
        · simp only [Bool.not_eq_true] at hp
          rw [baseDigits_stop base sa _ a v has hp,
            baseDigits_stop base sb _ b v has (by rw [hpk]; exact hp)]
          exact ⟨Option.Rel.none, rfl, rfl, h⟩
      · have hz : a.rest.length ≤ post.length := by omega
        obtain ⟨hpa, hpb⟩ := h.peek_end hz
        by_cases hp : isalnum a.peek = true
        · exfalso
          have hne : a.peek ≠ NUL := by intro e; rw [e] at hp; revert hp; decide
          by_cases hinv : (base = 2 ∧ (a.peek ≠ '0' ∧ a.peek ≠ '1')) ∨
              (base = 8 ∧ (a.peek < '0' ∨ a.peek > '7')) ∨ (base = 16 ∧ ¬ isxdigit a.peek = true)
          · have e1 : baseDigits base sa (n + 1) a v has =
                (some { type := .Error,
                        value := "Invalid digit for base " ++ toString base ++ ": " ++ v ++
                          String.singleton a.peek,
                        line := a.line, column := sa }, v, has, a) := by
              conv_lhs => unfold baseDigits
              simp only [hp, if_true, if_pos hinv]
            rw [e1] at hok
            rcases hok with h1 | h1 | h1
            · simp only at h1; omega
            · rw [← hpa, hp] at h1; exact Bool.noConfusion h1
            · exact Option.noConfusion h1
          · have e1 : baseDigits base sa (n + 1) a v has =
                baseDigits base sa n a.advance.2 (v.push a.peek) true := by
              conv_lhs => unfold baseDigits
              simp only [hp, if_true, if_neg hinv, Lexer.advance_fst]
            rw [e1] at hs
            have := baseDigits_len base sa n a.advance.2 (v.push a.peek) true
            have := advance_len_lt hne
            omega
        · simp only [Bool.not_eq_true] at hp
          rw [baseDigits_stop base sa _ a v has hp,
            baseDigits_stop base sb _ b v has (by rw [hpb]; exact hi)]
          exact ⟨Option.Rel.none, rfl, rfl, h⟩

theorem prefixedResult_snd (r : Option Token × String × Bool × Lexer) (col : Int) :
    (prefixedResult r col).2 = r.2.2.2 := by
  obtain ⟨e, v, has, lx⟩ := r
  cases e with
  | some err => rfl
  | none =>
      unfold prefixedResult
      simp only
      split_ifs <;> rfl

theorem prefixedResult_some (r : Option Token × String × Bool × Lexer) (col : Int) (e : Token)
    (h : r.1 = some e) : (prefixedResult r col).1 = e := by
  obtain ⟨e', v, has, lx⟩ := r
  simp only at h
  subst h
  rfl

theorem prefixedResult_rel {k : Bool} {post post' : List Char}
    (r r' : Option Token × String × Bool × Lexer) (sa sb : Int)
    (h1 : Option.Rel (TokEq k) r.1 r'.1) (h2 : r.2.1 = r'.2.1) (h3 : r.2.2.1 = r'.2.2.1)
    (h4 : Rel k post post' r.2.2.2 r'.2.2.2) (hcol : k = true → sa = sb) :
    TokEq k (prefixedResult r sa).1 (prefixedResult r' sb).1 ∧
      Rel k post post' (prefixedResult r sa).2 (prefixedResult r' sb).2 := by
  obtain ⟨e, v, has, lx⟩ := r
  obtain ⟨e', v', has', lx'⟩ := r'
  simp only at h1 h2 h3 h4
  subst h2 h3
  cases h1 with
  | some ht => exact ⟨ht, h4⟩
  | none =>
      unfold prefixedResult
      simp only
      by_cases hh : has = true
      · rw [if_neg (by simp [hh]), if_neg (by simp [hh])]
        exact ⟨⟨rfl, rfl, h4.2.1, rfl, hcol⟩, h4⟩
      · rw [if_pos (by simpa using hh), if_pos (by simpa using hh)]
        exact ⟨⟨rfl, rfl, h4.2.1, rfl, hcol⟩, h4⟩

theorem afterZero_len (lx : Lexer) (v : String) (col : Int) :
    (lx.afterZero v col).2.rest.length ≤ lx.rest.length := by
  unfold Lexer.afterZero
  by_cases hx : tolower lx.peek = 'x' ∨ tolower lx.peek = 'o' ∨ tolower lx.peek = 'b'
  · rw [if_pos hx, prefixedResult_snd]
    refine Nat.le_trans (baseDigits_len _ _ _ _ _ _) ?_
    rw [Lexer.advance_rest]; simp
  · rw [if_neg hx]
    by_cases hd : isdigit lx.peek = true
    · rw [if_pos hd]
      exact collectWhile_len _ _ _ _
    · rw [if_neg hd, getDecimal_eq]
      exact Nat.le_trans (decimalEnd_len _ _ _)
        (Nat.le_trans (decimalFraction_len _ _) (collectWhile_len _ _ _ _))

/-- The lines of `getNumber` after the leading zero, on two lexers at the same place. -/
theorem afterZero_rel {k : Bool} {post post' : List Char}
    {a b : Lexer} (v : String) (sa sb : Int) (h : Rel k post post' a b)
    (hs : post.length ≤ (a.afterZero v sa).2.rest.length)
    (hi : Inert (post'.getD 0 NUL)) (hcol : k = true → sa = sb)
    (hok : post.length < (a.afterZero v sa).2.rest.length ∨ isalnum (post.getD 0 NUL) = false ∨
      ¬ BadDigit (a.afterZero v sa).1) :
    TokEq k (a.afterZero v sa).1 (b.afterZero v sb).1 ∧
      Rel k post post' (a.afterZero v sa).2 (b.afterZero v sb).2 := by
  by_cases hx : tolower a.peek = 'x' ∨ tolower a.peek = 'o' ∨ tolower a.peek = 'b'
  · have hne : a.peek ≠ NUL := by
      intro e; rw [e] at hx; revert hx; decide
    have e1 : a.afterZero v sa =
        prefixedResult
          (baseDigits (if tolower a.peek = 'x' then 16 else if tolower a.peek = 'o' then 8 else 2)
            sa a.advance.2.rest.length a.advance.2 (v.push a.advance.1) false) sa := by
      unfold Lexer.afterZero; rw [if_pos hx]
    rw [e1, prefixedResult_snd] at hs
    have hl : post.length < a.rest.length := by
      have := baseDigits_len
        (if tolower a.peek = 'x' then 16 else if tolower a.peek = 'o' then 8 else 2)
        sa a.advance.2.rest.length a.advance.2 (v.push a.advance.1) false
      have := advance_len_lt hne
      omega
    have hpk := h.peek_eq hl
    have e2 : b.afterZero v sb =
        prefixedResult
          (baseDigits (if tolower a.peek = 'x' then 16 else if tolower a.peek = 'o' then 8 else 2)
            sb b.advance.2.rest.length b.advance.2 (v.push a.advance.1) false) sb := by
      unfold Lexer.afterZero
      rw [hpk, if_pos hx, Lexer.advance_fst, Lexer.advance_fst, hpk]
    have hok' : post.length <
          (baseDigits (if tolower a.peek = 'x' then 16 else if tolower a.peek = 'o' then 8 else 2)
            sa a.advance.2.rest.length a.advance.2 (v.push a.advance.1) false).2.2.2.rest.length ∨
        isalnum (post.getD 0 NUL) = false ∨
        (baseDigits (if tolower a.peek = 'x' then 16 else if tolower a.peek = 'o' then 8 else 2)
            sa a.advance.2.rest.length a.advance.2 (v.push a.advance.1) false).1 = none := by
      rw [e1, prefixedResult_snd] at hok
      rcases hok with h1 | h1 | h1
      · exact Or.inl h1
      · exact Or.inr (Or.inl h1)
      · right; right
        cases he : (baseDigits
            (if tolower a.peek = 'x' then 16 else if tolower a.peek = 'o' then 8 else 2)
            sa a.advance.2.rest.length a.advance.2 (v.push a.advance.1) false).1 with
        | none => rfl
        | some e =>
            exfalso
            apply h1
            rw [prefixedResult_some _ _ e he]
            exact baseDigits_bad _ _ _ _ _ _ e he
    obtain ⟨r1, r2, r3, r4⟩ := baseDigits_rel
      (if tolower a.peek = 'x' then 16 else if tolower a.peek = 'o' then 8 else 2) sa sb hcol
      hi.alnum a.advance.2.rest.length b.advance.2.rest.length a.advance.2 b.advance.2
      (v.push a.advance.1) false (h.advance_rel hl) (Nat.le_refl _) (Nat.le_refl _) hs hok'
    rw [e1, e2]
    exact prefixedResult_rel _ _ sa sb r1 r2 r3 r4 hcol
  · have hxb : ¬ (tolower b.peek = 'x' ∨ tolower b.peek = 'o' ∨ tolower b.peek = 'b') := by
      by_cases hl : post.length < a.rest.length
      · rw [h.peek_eq hl]; exact hx
      · rw [(h.peek_end (by omega)).2]; exact hi.pre
    by_cases hd : isdigit a.peek = true
    · have hne : a.peek ≠ NUL := by intro e; rw [e] at hd; revert hd; decide
      have e1 : (a.afterZero v sa).2 = (collectWhile isdigit a.rest.length a v).2 := by
        unfold Lexer.afterZero; rw [if_neg hx, if_pos hd]
      rw [e1] at hs
      have hl : post.length < a.rest.length := by
        have := collectWhile_len_lt isdigit v hd hne
        omega
      have hpk := h.peek_eq hl
      obtain ⟨hv, hr⟩ := collectWhile_rel isdigit isdigit_nul a.rest.length b.rest.length
        a b v h (Nat.le_refl _) (Nat.le_refl _) hs (Or.inr hi.digit)
      unfold Lexer.afterZero
      rw [if_neg hx, if_neg hxb, if_pos hd, if_pos (by rw [hpk]; exact hd)]
      exact ⟨⟨rfl, by simp only; rw [hv], hr.2.1, rfl, hcol⟩, hr⟩
    · have hdb : ¬ isdigit b.peek = true := by
        by_cases hl : post.length < a.rest.length
        · rw [h.peek_eq hl]; exact hd
        · rw [(h.peek_end (by omega)).2, hi.digit]; simp
      have e1 : a.afterZero v sa = a.getDecimal v sa := by
        unfold Lexer.afterZero; rw [if_neg hx, if_neg hd]
      have e2 : b.afterZero v sb = b.getDecimal v sb := by
        unfold Lexer.afterZero; rw [if_neg hxb, if_neg hdb]
      rw [e1] at hs
      rw [e1, e2]
      exact getDecimal_rel v sa sb h hs hi hcol

/-- The reader `getNumber` on two lexers at the same place, in front of a digit. -/
theorem getNumber_rel {k : Bool} {post post' : List Char} {a b : Lexer} (h : Rel k post post' a b)
    (hl : post.length < a.rest.length) (hs : post.length ≤ a.getNumber.2.rest.length)
    (hi : Inert (post'.getD 0 NUL))
    (hok : post.length < a.getNumber.2.rest.length ∨ isalnum (post.getD 0 NUL) = false ∨
      ¬ BadDigit a.getNumber.1) :
    TokEq k a.getNumber.1 b.getNumber.1 ∧ Rel k post post' a.getNumber.2 b.getNumber.2 := by
  have hpk := h.peek_eq hl
  have hcol := h.2.2.2.2
  rw [getNumber_eq] at hs hok ⊢
  rw [getNumber_eq, hpk]
  by_cases h0 : a.peek = '0'
  · rw [if_pos h0] at hs hok ⊢
    rw [if_pos h0, Lexer.advance_fst, Lexer.advance_fst, hpk]
    rw [Lexer.advance_fst] at hs hok
    exact afterZero_rel _ _ _ (h.advance_rel hl) hs hi hcol hok
  · rw [if_neg h0] at hs ⊢
    rw [if_neg h0]
    exact getDecimal_rel _ _ _ h hs hi hcol

theorem getString_eq (lx : Lexer) : lx.getString = lx.advance.2.stringFrom lx.column := by
  unfold Lexer.getString Lexer.stringFrom
  rfl

theorem stringBody_nul (t : Bool) (col : Int) (n : Nat) (a : Lexer) (v : String)
    (h : a.peek = NUL) :
    stringBody t col (n + 1) a v =
      ({ type := .Error, value := "Unterminated string", line := a.line, column := col }, a) := by
  unfold stringBody
  rw [if_pos h]

theorem stringBody_nl (col : Int) (n : Nat) (a : Lexer) (v : String) (h : a.peek = '\n') :
    stringBody false col (n + 1) a v =
      ({ type := .Error, value := "Unterminated string", line := a.line, column := col }, a) := by
  unfold stringBody
  rw [if_neg (by rw [h]; decide), if_pos (by simp [h])]

theorem stringBody_close3 (col : Int) (n : Nat) (a : Lexer) (v : String) (h : a.atTriple) :
    stringBody true col (n + 1) a v =
      ({ type := .String, value := v, line := a.advance.2.advance.2.advance.2.line,
         column := col }, a.advance.2.advance.2.advance.2) := by
  unfold stringBody
  rw [if_neg (by rw [h.1]; decide), if_neg (by simp), if_pos ⟨rfl, h⟩]

theorem stringBody_close1 (col : Int) (n : Nat) (a : Lexer) (v : String) (h : a.peek = DQUOTE) :
    stringBody false col (n + 1) a v =
      ({ type := .String, value := v, line := a.advance.2.line, column := col },
        a.advance.2) := by
  unfold stringBody
  rw [if_neg (by rw [h]; decide), if_neg (by rw [h]; decide), if_neg (by simp),
    if_pos (by simp [h])]

theorem stringBody_push (t : Bool) (col : Int) (n : Nat) (a : Lexer) (v : String)
    (h0 : a.peek ≠ NUL) (h1 : t = false → a.peek ≠ '\n' ∧ a.peek ≠ DQUOTE)
    (h2 : t = true → ¬ a.atTriple) :
    stringBody t col (n + 1) a v = stringBody t col n a.advance.2 (v.push a.peek) := by
  conv_lhs => unfold stringBody
  cases t with
  | true =>
      have := h2 rfl
      rw [if_neg h0, if_neg (by simp), if_neg (fun hc => this hc.2), if_neg (by simp),
        Lexer.advance_fst]
  | false =>
      have := h1 rfl
      rw [if_neg h0, if_neg (by simp [this.1]), if_neg (by simp), if_neg (by simp [this.2]),
        Lexer.advance_fst]

theorem stringBody_len (t : Bool) (col : Int) : ∀ (n : Nat) (a : Lexer) (v : String),
    (stringBody t col n a v).2.rest.length ≤ a.rest.length
  | 0, _, _ => Nat.le_refl _
  | n + 1, a, v => by
      unfold stringBody
      split_ifs
      · exact Nat.le_refl _
      · exact Nat.le_refl _
      · simp only [Lexer.advance_rest, List.length_tail]; omega
      · simp only [Lexer.advance_rest, List.length_tail]; omega
      · refine Nat.le_trans (stringBody_len t col n _ _) ?_
        rw [Lexer.advance_rest]; simp

theorem atTriple_rest {a : Lexer} (h : a.atTriple) :
    ∃ t, a.rest = DQUOTE :: DQUOTE :: DQUOTE :: t := by
  obtain ⟨h0, h1, h2⟩ := h
  unfold Lexer.peek at h0 h1 h2
  cases hr : a.rest with
  | nil => rw [hr] at h0; exact absurd h0 (by decide)
  | cons x r1 =>
      cases r1 with
      | nil =>
          rw [hr] at h1
          simp only [List.getD_cons_succ, List.getD_nil] at h1
          exact absurd h1 (by decide)
      | cons y r2 =>
          cases r2 with
          | nil =>
              rw [hr] at h2
              simp only [List.getD_cons_succ, List.getD_nil] at h2
              exact absurd h2 (by decide)
          | cons z r3 =>
              rw [hr] at h0 h1 h2
              simp only [List.getD_cons_zero, List.getD_cons_succ] at h0 h1 h2
              rw [h0, h1, h2]
              exact ⟨r3, rfl⟩

theorem triple_lists (r post post' : List Char) (hq : post'.getD 0 NUL ≠ DQUOTE)
    (ha : ((r ++ post).getD 0 NUL = DQUOTE ∧ (r ++ post).getD 1 NUL = DQUOTE ∧
      (r ++ post).getD 2 NUL = DQUOTE) → post.length + 3 ≤ (r ++ post).length) :
    ((r ++ post').getD 0 NUL = DQUOTE ∧ (r ++ post').getD 1 NUL = DQUOTE ∧
      (r ++ post').getD 2 NUL = DQUOTE) ↔
    ((r ++ post).getD 0 NUL = DQUOTE ∧ (r ++ post).getD 1 NUL = DQUOTE ∧
      (r ++ post).getD 2 NUL = DQUOTE) := by
  cases r with
  | nil =>
      simp only [List.nil_append] at ha ⊢
      constructor
      · intro hb; exact absurd hb.1 hq
      · intro hc
        have := ha hc
        omega
  | cons x r1 =>
      cases r1 with
      | nil =>
          simp only [List.cons_append, List.nil_append, List.getD_cons_zero,
            List.getD_cons_succ, List.length_cons] at ha ⊢
          constructor
          · intro hb; exact absurd hb.2.1 hq
          · intro hc
            have := ha hc
            omega
      | cons y r2 =>
          cases r2 with
          | nil =>
              simp only [List.cons_append, List.nil_append, List.getD_cons_zero,
                List.getD_cons_succ, List.length_cons] at ha ⊢
              constructor
              · intro hb; exact absurd hb.2.2 hq
              · intro hc
                have := ha hc
                omega
          | cons z r3 =>
              simp only [List.cons_append, List.getD_cons_zero, List.getD_cons_succ]

/-- The test for the closing quotes gives the same on two lexers at the same place, when
the quotes that the first one sees are all before `post`. -/
theorem Rel.atTriple_iff {k : Bool} {post post' : List Char} {a b : Lexer} (h : Rel k post post' a b)
    (hq : post'.getD 0 NUL ≠ DQUOTE) (ha : a.atTriple → post.length + 3 ≤ a.rest.length) :
    b.atTriple ↔ a.atTriple := by
  obtain ⟨⟨r, hra, hrb⟩, -⟩ := h
  unfold Lexer.atTriple Lexer.peek at ha ⊢
  rw [hra] at ha
  rw [hra, hrb]
  exact triple_lists r post post' hq ha

theorem advance_len (a : Lexer) : a.advance.2.rest.length = a.rest.length - 1 := by
  rw [Lexer.advance_rest]; simp

/-- The loop of `getString` on two lexers at the same place: if the first run ends before
`post`, or ends at `post` with a String token, the second run does the same. -/
theorem stringBody_rel {k : Bool} {post post' : List Char}
    (t : Bool) (sa sb : Int) (hcol : k = true → sa = sb)
    (hq : post'.getD 0 NUL ≠ DQUOTE) :
    ∀ (n n' : Nat) (a b : Lexer) (v : String), Rel k post post' a b → a.rest.length < n →
      b.rest.length < n' → post.length ≤ (stringBody t sa n a v).2.rest.length →
      (post.length < (stringBody t sa n a v).2.rest.length ∨ post'.getD 0 NUL = NUL ∨
        (stringBody t sa n a v).1.type = .String) →
      TokEq k (stringBody t sa n a v).1 (stringBody t sb n' b v).1 ∧
      Rel k post post' (stringBody t sa n a v).2 (stringBody t sb n' b v).2 := by
  intro n
  induction n with
  | zero => intro n' a b v _ hn; exact absurd hn (Nat.not_lt_zero _)
  | succ n ih =>
      intro n' a b v h hn hn' hs hok
      obtain ⟨m, rfl⟩ : ∃ m, n' = m + 1 := ⟨n' - 1, by omega⟩
      have hend : ∀ (tok : Token), tok.type = .Error → stringBody t sa (n + 1) a v = (tok, a) →
          ¬ post.length < a.rest.length → b.peek = NUL := by
        intro tok hty he hl
        rw [he] at hok
        rcases hok with h1 | h1 | h1
        · exact absurd h1 hl
        · rw [(h.peek_end (by omega)).2]; exact h1
        · simp only at h1
          rw [hty] at h1
          exact absurd h1 (by decide)
      by_cases h0 : a.peek = NUL
      · have e1 := stringBody_nul t sa n a v h0
        have hb0 : b.peek = NUL := by
          by_cases hl : post.length < a.rest.length
          · rw [h.peek_eq hl]; exact h0
          · exact hend _ rfl e1 hl
        rw [e1, stringBody_nul t sb m b v hb0]
        exact ⟨⟨rfl, rfl, h.2.1, rfl, hcol⟩, h⟩
      · by_cases hnl : t = false ∧ a.peek = '\n'
        · obtain ⟨rfl, hnl⟩ := hnl
          have e1 := stringBody_nl sa n a v hnl
          rw [e1]
          by_cases hl : post.length < a.rest.length
          · rw [stringBody_nl sb m b v (by rw [h.peek_eq hl]; exact hnl)]
            exact ⟨⟨rfl, rfl, h.2.1, rfl, hcol⟩, h⟩
          · rw [stringBody_nul false sb m b v (hend _ rfl e1 hl)]
            exact ⟨⟨rfl, rfl, h.2.1, rfl, hcol⟩, h⟩
        · by_cases hc3 : t = true ∧ a.atTriple
          · obtain ⟨rfl, hc3⟩ := hc3
            obtain ⟨tl, htl⟩ := atTriple_rest hc3
            have hlen : a.rest.length = tl.length + 3 := by rw [htl]; simp
            have hl3 : a.advance.2.advance.2.advance.2.rest.length = tl.length := by
              rw [advance_len, advance_len, advance_len, hlen]; rfl
            have e1 := stringBody_close3 sa n a v hc3
            have e2 : ∀ (hb3 : b.atTriple), _ := stringBody_close3 sb m b v
            have r3 : post.length + 3 ≤ a.rest.length →
                Rel k post post' a.advance.2.advance.2.advance.2
                  b.advance.2.advance.2.advance.2 := by
              intro hle
              have r1 := h.advance_rel (by omega)
              have r2 := r1.advance_rel (by rw [advance_len]; omega)
              exact r2.advance_rel (by rw [advance_len, advance_len]; omega)
            generalize a.advance.2.advance.2.advance.2 = la3 at e1 r3 hl3
            generalize b.advance.2.advance.2.advance.2 = lb3 at e2 r3
            rw [e1] at hs ⊢
            have hs' : post.length ≤ la3.rest.length := hs
            have hle : post.length + 3 ≤ a.rest.length := by omega
            have hb3 : b.atTriple := (h.atTriple_iff hq (fun _ => hle)).mpr hc3
            rw [e2 hb3]
            exact ⟨⟨rfl, rfl, (r3 hle).2.1, rfl, hcol⟩, r3 hle⟩
          · by_cases hc1 : t = false ∧ a.peek = DQUOTE
            · obtain ⟨rfl, hc1⟩ := hc1
              have e1 := stringBody_close1 sa n a v hc1
              rw [e1] at hs ⊢
              simp only [advance_len] at hs
              have hlt := advance_len_lt h0
              rw [advance_len] at hlt
              have hl : post.length < a.rest.length := by omega
              rw [stringBody_close1 sb m b v (by rw [h.peek_eq hl]; exact hc1)]
              have r1 := h.advance_rel hl
              exact ⟨⟨rfl, rfl, r1.2.1, rfl, hcol⟩, r1⟩
            · have p1 : t = false → a.peek ≠ '\n' ∧ a.peek ≠ DQUOTE :=
                fun ht => ⟨fun e => hnl ⟨ht, e⟩, fun e => hc1 ⟨ht, e⟩⟩
              have p2 : t = true → ¬ a.atTriple := fun ht e => hc3 ⟨ht, e⟩
              have e1 := stringBody_push t sa n a v h0 p1 p2
              rw [e1] at hs hok ⊢
              have hl : post.length < a.rest.length := by
                have := stringBody_len t sa n a.advance.2 (v.push a.peek)
                have := advance_len_lt h0
                omega
              have hpk := h.peek_eq hl
              have p2b : t = true → ¬ b.atTriple := by
                intro ht e
                exact p2 ht ((h.atTriple_iff hq (fun ha => absurd ha (p2 ht))).mp e)
              rw [stringBody_push t sb m b v (by rw [hpk]; exact h0) (by rw [hpk]; exact p1) p2b,
                hpk]
              refine ih m _ _ _ (h.advance_rel hl) ?_ ?_ hs hok
              · have := advance_len_lt h0; omega
              · rw [advance_len]
                have := h.b_lt hl
                omega

theorem stringFrom_len (lx : Lexer) (col : Int) :
    (lx.stringFrom col).2.rest.length ≤ lx.rest.length := by
  unfold Lexer.stringFrom
  split_ifs
  · refine Nat.le_trans (stringBody_len _ _ _ _ _) ?_
    rw [advance_len, advance_len]; omega
  · simp only [advance_len]; omega
  · exact stringBody_len _ _ _ _ _

/-- The lines of `getString` after the opening quote, on two lexers at the same place. -/
theorem stringFrom_rel {k : Bool} {post post' : List Char}
    {a b : Lexer} (sa sb : Int) (h : Rel k post post' a b)
    (hs : post.length ≤ (a.stringFrom sa).2.rest.length)
    (hq : post'.getD 0 NUL ≠ DQUOTE) (hcol : k = true → sa = sb)
    (hok : post.length < (a.stringFrom sa).2.rest.length ∨ post'.getD 0 NUL = NUL ∨
      (a.stringFrom sa).1.type = .String) :
    TokEq k (a.stringFrom sa).1 (b.stringFrom sb).1 ∧
      Rel k post post' (a.stringFrom sa).2 (b.stringFrom sb).2 := by
  have hquote : ∀ {x y : Lexer}, Rel k post post' x y → x.peek ≠ DQUOTE → y.peek ≠ DQUOTE := by
    intro x y hxy hx
    by_cases hl : post.length < x.rest.length
    · rw [hxy.peek_eq hl]; exact hx
    · rw [(hxy.peek_end (by omega)).2]; exact hq
  by_cases h1 : a.peek = DQUOTE
  · have hne : a.peek ≠ NUL := by rw [h1]; decide
    have hl : post.length < a.rest.length := by
      have := stringFrom_len a sa
      by_contra hc
      have hz : a.rest.length ≤ post.length := by omega
      have hlt := advance_len_lt hne
      unfold Lexer.stringFrom at hs
      rw [if_pos h1] at hs
      split_ifs at hs
      · have h3 := stringBody_len true sa (a.advance.2.advance.2.rest.length + 1)
          a.advance.2.advance.2 ""
        have h4 : a.advance.2.advance.2.rest.length ≤ a.advance.2.rest.length := by
          rw [advance_len a.advance.2]; omega
        omega
      · simp only at hs
        omega
    have hb1 : b.peek = DQUOTE := by rw [h.peek_eq hl]; exact h1
    have r1 := h.advance_rel hl
    unfold Lexer.stringFrom at hs hok ⊢
    rw [if_pos h1] at hs hok ⊢
    rw [if_pos hb1]
    generalize a.advance.2 = a2 at hs hok r1 ⊢
    generalize b.advance.2 = b2 at r1 ⊢
    by_cases h2 : a2.peek = DQUOTE
    · have hne2 : a2.peek ≠ NUL := by rw [h2]; decide
      rw [if_pos h2] at hs hok ⊢
      have hl2 : post.length < a2.rest.length := by
        have := stringBody_len true sa (a2.advance.2.rest.length + 1) a2.advance.2 ""
        have := advance_len_lt hne2
        omega
      rw [if_pos (by rw [r1.peek_eq hl2]; exact h2)]
      have r2 := r1.advance_rel hl2
      generalize a2.advance.2 = a3 at hs hok r2 ⊢
      generalize b2.advance.2 = b3 at r2 ⊢
      exact stringBody_rel true sa sb hcol hq _ _ a3 b3 "" r2 (Nat.lt_succ_self _)
        (Nat.lt_succ_self _) hs hok
    · rw [if_neg h2, if_neg (hquote r1 h2)]
      exact ⟨⟨rfl, rfl, r1.2.1, rfl, hcol⟩, r1⟩
  · unfold Lexer.stringFrom at hs hok ⊢
    rw [if_neg h1] at hs hok ⊢
    rw [if_neg (hquote h h1)]
    exact stringBody_rel false sa sb hcol hq _ _ a b "" h (Nat.lt_succ_self _)
      (Nat.lt_succ_self _) hs hok

/-- The reader `getString` on two lexers at the same place, in front of a double quote. -/
theorem getString_rel {k : Bool} {post post' : List Char} {a b : Lexer} (h : Rel k post post' a b)
    (hl : post.length < a.rest.length) (hs : post.length ≤ a.getString.2.rest.length)
    (hq : post'.getD 0 NUL ≠ DQUOTE)
    (hok : post.length < a.getString.2.rest.length ∨ post'.getD 0 NUL = NUL ∨
      a.getString.1.type = .String) :
    TokEq k a.getString.1 b.getString.1 ∧ Rel k post post' a.getString.2 b.getString.2 := by
  rw [getString_eq] at hs hok ⊢
  rw [getString_eq]
  exact stringFrom_rel _ _ (h.advance_rel hl) hs hq h.2.2.2.2 hok

theorem Rel.unflag {k : Bool} {post post' : List Char} {a b : Lexer} (h : Rel k post post' a b) :
    Rel k post post' { a with newLine := false } { b with newLine := false } :=
  ⟨h.1, h.2.1, h.2.2.1, rfl, h.2.2.2.2⟩

theorem Rel.flag {k : Bool} {post post' : List Char} {a b : Lexer} (h : Rel k post post' a b) :
    Rel k post post' { a with newLine := true } { b with newLine := true } :=
  ⟨h.1, h.2.1, h.2.2.1, rfl, h.2.2.2.2⟩

theorem indentPhase_len (a : Lexer) : a.indentPhase.2.rest.length ≤ a.rest.length := by
  unfold Lexer.indentPhase
  split_ifs
  · exact advanceWhile_len _ _ _
  · exact Nat.le_refl _

theorem skip_len (a : Lexer) : a.skipWhitespace.skipComment.rest.length ≤ a.rest.length := by
  unfold Lexer.skipComment Lexer.skipWhitespace
  split_ifs
  · exact Nat.le_trans (advanceWhile_len _ _ _) (advanceWhile_len _ _ _)
  · exact advanceWhile_len _ _ _

/-- The indent phase of a round on two lexers at the same place. -/
theorem indentPhase_rel {k : Bool} {post post' : List Char} {a b : Lexer} (h : Rel k post post' a b)
    (hs : post.length ≤ a.indentPhase.2.rest.length)
    (hc : post.length < a.indentPhase.2.rest.length ∨ isBlank (post'.getD 0 NUL) = false) :
    List.Forall₂ (TokEq k) a.indentPhase.1 b.indentPhase.1 ∧
      Rel k post post' a.indentPhase.2 b.indentPhase.2 := by
  have hnl := h.2.2.2.1
  have hrel : Rel k post post' a.indentPhase.2 b.indentPhase.2 := by
    unfold Lexer.indentPhase at hs hc ⊢
    by_cases hn : a.newLine = true
    · rw [if_pos hn] at hs hc ⊢
      rw [if_pos (by rw [← hnl]; exact hn)]
      exact (advanceWhile_rel isBlank isBlank_nul _ _ a b h (Nat.le_refl _) (Nat.le_refl _)
        hs hc).unflag
    · rw [if_neg hn, if_neg (by rw [← hnl]; exact hn)]
      exact h
  refine ⟨?_, hrel⟩
  obtain ⟨ta, -, wa, hwa, hba, hpa⟩ := indentPhase_spec a
  obtain ⟨tb, -, wb, hwb, hbb, hpb⟩ := indentPhase_spec b
  rw [ta, tb, ← hnl]
  by_cases hn : a.newLine = true
  · rw [if_pos hn, if_pos hn]
    obtain ⟨⟨r, hra, hrb⟩, -⟩ := h
    obtain ⟨⟨r1, hr1a, hr1b⟩, hline, -, -, hcolumn⟩ := hrel
    have ea := hwa.rest_eq
    have eb := hwb.rest_eq
    rw [hra, hr1a, ← List.append_assoc] at ea
    rw [hrb, hr1b, ← List.append_assoc] at eb
    have e1 := List.append_cancel_right ea
    have e2 := List.append_cancel_right eb
    have hw : wa = wb := List.append_cancel_right (e1.symm.trans e2)
    subst hw
    have la : a.getIndentLevel = b.getIndentLevel := by
      unfold Lexer.getIndentLevel
      rw [hwa.rest_eq, hwb.rest_eq,
        indentWidth_blanks wa _ 0 hba (hpa hn),
        indentWidth_blanks wa _ 0 hbb (hpb (by rw [← hnl]; exact hn))]
    refine List.Forall₂.cons ?_ List.Forall₂.nil
    unfold indentToken
    rw [la]
    exact ⟨rfl, rfl, hline, rfl, hcolumn⟩
  · rw [if_neg hn, if_neg hn]
    exact List.Forall₂.nil

/-- The skipping of blanks and of a comment on two lexers at the same place. -/
theorem skip_rel {k : Bool} {post post' : List Char} {a b : Lexer} (h : Rel k post post' a b)
    (hs : post.length ≤ a.skipWhitespace.skipComment.rest.length)
    (hc : post.length < a.skipWhitespace.skipComment.rest.length ∨
      (isInlineSpace (post'.getD 0 NUL) = false ∧ post'.getD 0 NUL ≠ '#' ∧
        isCommentChar (post'.getD 0 NUL) = false)) :
    Rel k post post' a.skipWhitespace.skipComment b.skipWhitespace.skipComment := by
  have hs1 : post.length ≤ a.skipWhitespace.rest.length := by
    refine Nat.le_trans hs ?_
    unfold Lexer.skipComment
    split_ifs
    · exact advanceWhile_len _ _ _
    · exact Nat.le_refl _
  have hc1 : post.length < a.skipWhitespace.rest.length ∨
      isInlineSpace (post'.getD 0 NUL) = false := by
    rcases hc with hc | hc
    · left
      refine Nat.lt_of_lt_of_le hc ?_
      unfold Lexer.skipComment
      split_ifs
      · exact advanceWhile_len _ _ _
      · exact Nat.le_refl _
    · exact Or.inr hc.1
  have r1 : Rel k post post' a.skipWhitespace b.skipWhitespace :=
    advanceWhile_rel isInlineSpace isInlineSpace_nul _ _ a b h (Nat.le_refl _) (Nat.le_refl _)
      hs1 hc1
  generalize a.skipWhitespace = a1 at hs hc r1 ⊢
  generalize b.skipWhitespace = b1 at r1 ⊢
  unfold Lexer.skipComment at hs hc ⊢
  by_cases hh : a1.peek = '#'
  · rw [if_pos hh] at hs hc ⊢
    have hne : a1.peek ≠ NUL := by rw [hh]; decide
    have hl : post.length < a1.rest.length := by
      by_contra hcon
      have e : advanceWhile isCommentChar a1.rest.length a1 =
          advanceWhile isCommentChar a1.advance.2.rest.length a1.advance.2 := by
        obtain ⟨r, hr⟩ := Lexer.rest_of_peek_ne hne
        have e : a1.rest.length = a1.advance.2.rest.length + 1 := by
          rw [Lexer.advance_rest, hr]; simp
        rw [e]
        conv_lhs => unfold advanceWhile
        rw [if_pos (by rw [hh]; decide)]
      rw [e] at hs
      have := advanceWhile_len isCommentChar a1.advance.2.rest.length a1.advance.2
      have := advance_len_lt hne
      omega
    rw [if_pos (by rw [r1.peek_eq hl]; exact hh)]
    refine advanceWhile_rel isCommentChar isCommentChar_nul _ _ a1 b1 r1 (Nat.le_refl _)
      (Nat.le_refl _) hs ?_
    rcases hc with hc | hc
    · exact Or.inl hc
    · exact Or.inr hc.2.2
  · rw [if_neg hh] at hs hc ⊢
    have hb : b1.peek ≠ '#' := by
      by_cases hl : post.length < a1.rest.length
      · rw [r1.peek_eq hl]; exact hh
      · rw [(r1.peek_end (by omega)).2]
        rcases hc with hc | hc
        · omega
        · exact hc.2.1
    rw [if_neg hb]
    exact r1

theorem stringBody_error (t : Bool) (col : Int) : ∀ (n : Nat) (a : Lexer) (v : String),
    (stringBody t col n a v).1.type = .Error → Unterminated (stringBody t col n a v).1
  | 0, _, _ => fun _ => ⟨rfl, rfl⟩
  | n + 1, a, v => by
      unfold stringBody
      split_ifs
      · exact fun _ => ⟨rfl, rfl⟩
      · exact fun _ => ⟨rfl, rfl⟩
      · intro h; exact h.elim
      · intro h; exact h.elim
      · exact stringBody_error t col n _ _

theorem getString_error (a : Lexer) (h : a.getString.1.type = .Error) :
    Unterminated a.getString.1 := by
  rw [getString_eq] at h ⊢
  unfold Lexer.stringFrom at h ⊢
  by_cases h1 : a.advance.2.peek = DQUOTE
  · rw [if_pos h1] at h ⊢
    by_cases h2 : a.advance.2.advance.2.peek = DQUOTE
    · rw [if_pos h2] at h ⊢
      exact stringBody_error _ _ _ _ _ h
    · rw [if_neg h2] at h
      exact absurd h (show TokenType.String ≠ TokenType.Error by decide)
  · rw [if_neg h1] at h ⊢
    exact stringBody_error _ _ _ _ _ h

theorem getString_len (a : Lexer) : a.getString.2.rest.length ≤ a.rest.length := by
  rw [getString_eq]
  exact Nat.le_trans (stringFrom_len _ _) (by rw [advance_len]; omega)

/-- A round of the loop does not go back in the text. -/
theorem scanStep_len2 (a : Lexer) :
    a.scanStep.2.1.rest.length ≤ a.indentPhase.2.skipWhitespace.skipComment.rest.length := by
  have e1 : a.indentPhase = (a.indentPhase.1, a.indentPhase.2) := rfl
  have e2 : a.indentPhase.2.skipWhitespace.skipComment =
      a.indentPhase.2.skipWhitespace.skipComment := rfl
  rw [scanStep_of e1 e2]
  clear e1 e2
  generalize a.indentPhase.2.skipWhitespace.skipComment = a2
  generalize a.indentPhase.1 = ia
  have hadv : a2.advance.2.rest.length ≤ a2.rest.length := by rw [advance_len]; omega
  by_cases h1 : a2.peek = NUL
  · rw [if_pos h1]
  rw [if_neg h1]
  by_cases h2 : isIdentStart a2.peek = true
  · rw [if_pos h2]
    obtain ⟨cs, -, hadv, -⟩ := getIdentifier_ok a2 h2
    rw [hadv.rest_eq]; simp
  rw [if_neg h2]
  by_cases h3 : isdigit a2.peek = true
  · rw [if_pos h3]
    obtain ⟨cs, -, hadv, -⟩ := getNumber_ok a2 h3
    rw [hadv.rest_eq]; simp
  rw [if_neg h3]
  by_cases h4 : a2.peek = DQUOTE
  · rw [if_pos h4]
    exact getString_len a2
  rw [if_neg h4]
  by_cases h5 : a2.peek = '+' ∨ a2.peek = '-' ∨ a2.peek = '*' ∨ a2.peek = '/' ∨ a2.peek = '=' ∨
      a2.peek = '<' ∨ a2.peek = '>' ∨ a2.peek = '!' ∨ a2.peek = '.'
  · rw [if_pos h5]
    obtain ⟨cs, -, hadv, -⟩ := getOperator_ok a2 h5
    rw [hadv.rest_eq]; simp
  rw [if_neg h5]
  by_cases h6 : a2.peek = '(' ∨ a2.peek = ')' ∨ a2.peek = ':' ∨ a2.peek = ','
  · rw [if_pos h6]; exact hadv
  rw [if_neg h6]
  by_cases h7 : a2.peek = '\n'
  · rw [if_pos h7]; exact hadv
  rw [if_neg h7]
  exact hadv

/-- A round of the loop that is not the last one reads at least one character. -/
theorem scanStep_lt (a : Lexer) (h : a.scanStep.2.2 = false) :
    a.scanStep.2.1.rest.length < a.indentPhase.2.skipWhitespace.skipComment.rest.length := by
  have e1 : a.indentPhase = (a.indentPhase.1, a.indentPhase.2) := rfl
  have e2 : a.indentPhase.2.skipWhitespace.skipComment =
      a.indentPhase.2.skipWhitespace.skipComment := rfl
  rw [scanStep_of e1 e2] at h ⊢
  clear e1 e2
  generalize a.indentPhase.2.skipWhitespace.skipComment = a2 at h ⊢
  generalize a.indentPhase.1 = ia at h ⊢
  by_cases h1 : a2.peek = NUL
  · rw [if_pos h1] at h; exact absurd h (show true ≠ false by decide)
  rw [if_neg h1]
  have hadv : a2.advance.2.rest.length < a2.rest.length := advance_len_lt h1
  by_cases h2 : isIdentStart a2.peek = true
  · rw [if_pos h2]
    obtain ⟨cs, hne, hadv, -⟩ := getIdentifier_ok a2 h2
    rw [hadv.rest_eq, List.length_append]
    have := List.length_pos.mpr hne
    show _ < _
    simp only []
    omega
  rw [if_neg h2]
  by_cases h3 : isdigit a2.peek = true
  · rw [if_pos h3]
    obtain ⟨cs, hne, hadv, -⟩ := getNumber_ok a2 h3
    rw [hadv.rest_eq, List.length_append]
    have := List.length_pos.mpr hne
    show _ < _
    simp only []
    omega
  rw [if_neg h3]
  by_cases h4 : a2.peek = DQUOTE
  · rw [if_pos h4]
    obtain ⟨cs, hne, hadv, -⟩ := getString_ok a2 h4
    rw [hadv.rest_eq, List.length_append]
    have := List.length_pos.mpr hne
    show _ < _
    simp only []
    omega
  rw [if_neg h4]
  by_cases h5 : a2.peek = '+' ∨ a2.peek = '-' ∨ a2.peek = '*' ∨ a2.peek = '/' ∨ a2.peek = '=' ∨
      a2.peek = '<' ∨ a2.peek = '>' ∨ a2.peek = '!' ∨ a2.peek = '.'
  · rw [if_pos h5]
    obtain ⟨cs, hne, hadv, -⟩ := getOperator_ok a2 h5
    rw [hadv.rest_eq, List.length_append]
    have := List.length_pos.mpr hne
    show _ < _
    simp only []
    omega
  rw [if_neg h5]
  by_cases h6 : a2.peek = '(' ∨ a2.peek = ')' ∨ a2.peek = ':' ∨ a2.peek = ','
  · rw [if_pos h6]; exact hadv
  rw [if_neg h6]
  by_cases h7 : a2.peek = '\n'
  · rw [if_pos h7]; exact hadv
  rw [if_neg h7]
  exact hadv

theorem getLast_snoc (l : List Token) (t : Token) : (l ++ [t]).getLast? = some t := by
  simp

/-- One round of the loop of `tokenize` on two lexers at the same place of two texts that
agree up to `post` and `post'`: if the round on the first text does not read past the
common part, the round on the second text gives the same tokens. -/
theorem scanStep_rel {k : Bool} {post post' : List Char} {a b : Lexer} (h : Rel k post post' a b)
    (hs : post.length ≤ a.scanStep.2.1.rest.length)
    (hd : post.length < a.indentPhase.2.skipWhitespace.skipComment.rest.length ∨
      (post.getD 0 NUL = NUL ∧ post'.getD 0 NUL = NUL))
    (hi : Inert (post'.getD 0 NUL))
    (hok : post.length < a.scanStep.2.1.rest.length ∨
      ((post'.getD 0 NUL = NUL ∨ ∀ t, a.scanStep.1.getLast? = some t → ¬ Unterminated t) ∧
       (isalnum (post.getD 0 NUL) = false ∨
          ∀ t, a.scanStep.1.getLast? = some t → ¬ BadDigit t))) :
    List.Forall₂ (TokEq k) a.scanStep.1 b.scanStep.1 ∧
      Rel k post post' a.scanStep.2.1 b.scanStep.2.1 ∧ a.scanStep.2.2 = b.scanStep.2.2 := by
  have hs2 : post.length ≤ a.indentPhase.2.skipWhitespace.skipComment.rest.length :=
    Nat.le_trans hs (scanStep_len2 a)
  have hs0 : post.length ≤ a.indentPhase.2.rest.length := Nat.le_trans hs2 (skip_len _)
  have hc0 : post.length < a.indentPhase.2.rest.length ∨ isBlank (post'.getD 0 NUL) = false := by
    rcases hd with hd | hd
    · exact Or.inl (Nat.lt_of_lt_of_le hd (skip_len _))
    · right; rw [hd.2]; rfl
  obtain ⟨hind, r0⟩ := indentPhase_rel h hs0 hc0
  have hc2 : post.length < a.indentPhase.2.skipWhitespace.skipComment.rest.length ∨
      (isInlineSpace (post'.getD 0 NUL) = false ∧ post'.getD 0 NUL ≠ '#' ∧
        isCommentChar (post'.getD 0 NUL) = false) := by
    rcases hd with hd | hd
    · exact Or.inl hd
    · right; rw [hd.2]; exact ⟨rfl, by decide, rfl⟩
  have r2 := skip_rel r0 hs2 hc2
  have hpk : b.indentPhase.2.skipWhitespace.skipComment.peek =
      a.indentPhase.2.skipWhitespace.skipComment.peek := by
    rcases hd with hd | hd
    · exact r2.peek_eq hd
    · by_cases hl : post.length < a.indentPhase.2.skipWhitespace.skipComment.rest.length
      · exact r2.peek_eq hl
      · obtain ⟨pa, pb⟩ := r2.peek_end (by omega)
        rw [pa, pb, hd.1, hd.2]
  have hl : a.indentPhase.2.skipWhitespace.skipComment.peek ≠ NUL →
      post.length < a.indentPhase.2.skipWhitespace.skipComment.rest.length := by
    intro hne
    rcases hd with hd | hd
    · exact hd
    · by_contra hl
      exact hne (by rw [(r2.peek_end (by omega)).1, hd.1])
  have ea1 : a.indentPhase = (a.indentPhase.1, a.indentPhase.2) := rfl
  have ea2 : a.indentPhase.2.skipWhitespace.skipComment =
      a.indentPhase.2.skipWhitespace.skipComment := rfl
  have eb1 : b.indentPhase = (b.indentPhase.1, b.indentPhase.2) := rfl
  have eb2 : b.indentPhase.2.skipWhitespace.skipComment =
      b.indentPhase.2.skipWhitespace.skipComment := rfl
  rw [scanStep_of ea1 ea2] at hs hok ⊢
  rw [scanStep_of eb1 eb2, hpk]
  clear ea1 ea2 eb1 eb2 hs2 hs0 hc0 hc2 hd r0
  generalize a.indentPhase.2.skipWhitespace.skipComment = a2 at hs hok r2 hpk hl ⊢
  generalize b.indentPhase.2.skipWhitespace.skipComment = b2 at r2 hpk ⊢
  generalize a.indentPhase.1 = ia at hs hok hind ⊢
  generalize b.indentPhase.1 = ib at hind ⊢
  have snoc : ∀ {t t' : Token}, TokEq k t t' → List.Forall₂ (TokEq k) (ia ++ [t]) (ib ++ [t']) :=
    fun ht => List.rel_append hind (List.Forall₂.cons ht List.Forall₂.nil)
  have hcol := r2.2.2.2.2
  have hline := r2.2.1
  by_cases h1 : a2.peek = NUL
  · rw [if_pos h1, if_pos h1]
    exact ⟨snoc ⟨rfl, rfl, hline, rfl, hcol⟩, r2, rfl⟩
  rw [if_neg h1] at hs hok ⊢
  rw [if_neg h1]
  have hl := hl h1
  have radv := r2.advance_rel hl
  by_cases h2 : isIdentStart a2.peek = true
  · rw [if_pos h2] at hs hok ⊢
    rw [if_pos h2]
    obtain ⟨ht, hr⟩ := getIdentifier_rel r2 hs hi.ident
    exact ⟨snoc ht, hr, rfl⟩
  rw [if_neg h2] at hs hok ⊢
  rw [if_neg h2]
  by_cases h3 : isdigit a2.peek = true
  · rw [if_pos h3] at hs hok ⊢
    rw [if_pos h3]
    have hok' : post.length < a2.getNumber.2.rest.length ∨ isalnum (post.getD 0 NUL) = false ∨
        ¬ BadDigit a2.getNumber.1 := by
      rcases hok with hok | ⟨-, hok | hok⟩
      · exact Or.inl hok
      · exact Or.inr (Or.inl hok)
      · exact Or.inr (Or.inr (hok _ (getLast_snoc _ _)))
    obtain ⟨ht, hr⟩ := getNumber_rel r2 hl hs hi hok'
    exact ⟨snoc ht, hr, rfl⟩
  rw [if_neg h3] at hs hok ⊢
  rw [if_neg h3]
  by_cases h4 : a2.peek = DQUOTE
  · rw [if_pos h4] at hs hok ⊢
    rw [if_pos h4]
    have hok' : post.length < a2.getString.2.rest.length ∨ post'.getD 0 NUL = NUL ∨
        a2.getString.1.type = .String := by
      rcases hok with hok | ⟨hok | hok, -⟩
      · exact Or.inl hok
      · exact Or.inr (Or.inl hok)
      · right; right
        rcases getString_type a2 with ht | ht
        · exact ht
        · exact absurd (getString_error a2 ht) (hok _ (getLast_snoc _ _))
    obtain ⟨ht, hr⟩ := getString_rel r2 hl hs hi.quote hok'
    exact ⟨snoc ht, hr, rfl⟩
  rw [if_neg h4] at hs hok ⊢
  rw [if_neg h4]
  by_cases h5 : a2.peek = '+' ∨ a2.peek = '-' ∨ a2.peek = '*' ∨ a2.peek = '/' ∨ a2.peek = '=' ∨
      a2.peek = '<' ∨ a2.peek = '>' ∨ a2.peek = '!' ∨ a2.peek = '.'
  · rw [if_pos h5] at hs hok ⊢
    rw [if_pos h5]
    obtain ⟨ht, hr⟩ := getOperator_rel r2 hl hs hi.eq
    exact ⟨snoc ht, hr, rfl⟩
  rw [if_neg h5] at hs hok ⊢
  rw [if_neg h5]
  by_cases h6 : a2.peek = '(' ∨ a2.peek = ')' ∨ a2.peek = ':' ∨ a2.peek = ','
  · rw [if_pos h6, if_pos h6]
    refine ⟨snoc ⟨rfl, ?_, radv.2.1, rfl, hcol⟩, radv, rfl⟩
    show String.singleton a2.advance.1 = String.singleton b2.advance.1
    rw [Lexer.advance_fst, Lexer.advance_fst, hpk]
  rw [if_neg h6, if_neg h6]
  by_cases h7 : a2.peek = '\n'
  · rw [if_pos h7, if_pos h7]
    exact ⟨hind, radv.flag, rfl⟩
  rw [if_neg h7, if_neg h7]
  refine ⟨snoc ⟨rfl, ?_, radv.2.1, rfl, hcol⟩, radv, rfl⟩
  show String.singleton a2.advance.1 = String.singleton b2.advance.1
  rw [Lexer.advance_fst, Lexer.advance_fst, hpk]

theorem rounds_succ {n : Nat} {lx lx' : Lexer} {acc new : List Token}
    (h : rounds (n + 1) lx = some (acc, new, lx')) :
    ∃ acck newk lxk, rounds n lx = some (acck, newk, lxk) ∧ lxk.scanStep.2.2 = false ∧
      acc = acck ++ lxk.scanStep.1 ∧ new = lxk.scanStep.1 ∧ lx' = lxk.scanStep.2.1 := by
  rw [rounds] at h
  cases hk : rounds n lx with
  | none => rw [hk] at h; exact absurd h (by simp)
  | some r =>
      obtain ⟨acck, newk, lxk⟩ := r
      rw [hk] at h
      simp only at h
      by_cases hf : lxk.scanStep.2.2 = true
      · rw [if_pos hf] at h; exact absurd h (by simp)
      · rw [if_neg hf] at h
        simp only [Option.some.injEq, Prod.mk.injEq] at h
        exact ⟨acck, newk, lxk, rfl, by simpa using hf, h.1.symm, h.2.1.symm, h.2.2.symm⟩

theorem scanStep_eta (a : Lexer) (h : a.scanStep.2.2 = false) :
    a.scanStep = (a.scanStep.1, a.scanStep.2.1, false) := by
  rw [← h]

theorem scanStep_eta_last (a : Lexer) (h : a.scanStep.2.2 = true) :
    a.scanStep = (a.scanStep.1, a.scanStep.2.1, true) := by
  rw [← h]

theorem scanStep_lt_start (a : Lexer) (h : a.scanStep.2.2 = false) :
    a.scanStep.2.1.rest.length < a.rest.length :=
  Nat.lt_of_lt_of_le (scanStep_lt a h) (Nat.le_trans (skip_len _) (indentPhase_len a))

theorem scanStep_le_start (a : Lexer) : a.scanStep.2.1.rest.length ≤ a.rest.length :=
  Nat.le_trans (scanStep_len2 a) (Nat.le_trans (skip_len _) (indentPhase_len a))

theorem rounds_len : ∀ (n : Nat) (lx lx' : Lexer) (acc new : List Token),
    rounds n lx = some (acc, new, lx') → lx'.rest.length + n ≤ lx.rest.length
  | 0, lx, lx', acc, new, h => by
      rw [rounds] at h
      simp only [Option.some.injEq, Prod.mk.injEq] at h
      rw [← h.2.2]; omega
  | n + 1, lx, lx', acc, new, h => by
      obtain ⟨acck, newk, lxk, hk, hf, -, -, rfl⟩ := rounds_succ h
      have := rounds_len n lx lxk acck newk hk
      have := scanStep_lt_start lxk hf
      omega

theorem scan_of_rounds : ∀ (n : Nat) (lx lx' : Lexer) (acc new : List Token),
    rounds n lx = some (acc, new, lx') → ∀ (f : Nat) (acc0 : List Token),
      scan (n + f) lx acc0 = scan f lx' (acc0 ++ acc)
  | 0, lx, lx', acc, new, h, f, acc0 => by
      rw [rounds] at h
      simp only [Option.some.injEq, Prod.mk.injEq] at h
      rw [← h.1, ← h.2.2, Nat.zero_add, List.append_nil]
  | n + 1, lx, lx', acc, new, h, f, acc0 => by
      obtain ⟨acck, newk, lxk, hk, hf, rfl, -, rfl⟩ := rounds_succ h
      have e : n + 1 + f = n + (f + 1) := by omega
      rw [e, scan_of_rounds n lx lxk acck newk hk (f + 1) acc0,
        scan_round (scanStep_eta lxk hf) f, List.append_assoc]

theorem lexTokens_of_scan {s : List Char} {A : List Token} {lx' : Lexer}
    (h : scan (s.length + 1) (startOf (Lexer.mk0 s)) [] = some (A, lx')) :
    lexTokens ⟨s⟩ = A := by
  have hr : (Lexer.mk0 s).rest = s := rfl
  have e : (Lexer.mk0 s).tokenize = some (A, lx'.detectTypes) := by
    rw [tokenize_eq, hr, h]; rfl
  unfold lexTokens
  simp only [e]

/-- The rounds before the place where two texts part: as long as the rounds on the first
text stay in the common part, the rounds on the second text give the same tokens. -/
theorem rounds_rel {k : Bool} {post post' : List Char} (hi : Inert (post'.getD 0 NUL)) :
    ∀ (n : Nat) (a b a' : Lexer) (acc new : List Token), Rel k post post' a b →
      rounds n a = some (acc, new, a') → post.length ≤ a'.rest.length →
      (post.length < a'.rest.length ∨
        ((post'.getD 0 NUL = NUL ∨ ∀ t, new.getLast? = some t → ¬ Unterminated t) ∧
         (isalnum (post.getD 0 NUL) = false ∨ ∀ t, new.getLast? = some t → ¬ BadDigit t))) →
      ∃ accb newb b', rounds n b = some (accb, newb, b') ∧
        List.Forall₂ (TokEq k) acc accb ∧ Rel k post post' a' b'
  | 0, a, b, a', acc, new, h, hr, _, _ => by
      rw [rounds] at hr
      simp only [Option.some.injEq, Prod.mk.injEq] at hr
      refine ⟨[], [], b, rfl, ?_, ?_⟩
      · rw [← hr.1]; exact List.Forall₂.nil
      · rw [← hr.2.2]; exact h
  | n + 1, a, b, a', acc, new, h, hr, hs, hok => by
      obtain ⟨acck, newk, ak, hk, hf, rfl, rfl, rfl⟩ := rounds_succ hr
      have hlt := scanStep_lt ak hf
      have hlt' := scanStep_lt_start ak hf
      obtain ⟨accb, newb, bk, hbk, hacc, hrel⟩ :=
        rounds_rel hi n a b ak acck newk h hk (by omega) (Or.inl (by omega))
      obtain ⟨htok, hrel', hflag⟩ := scanStep_rel hrel hs (Or.inl (by omega)) hi hok
      refine ⟨accb ++ bk.scanStep.1, bk.scanStep.1, bk.scanStep.2.1, ?_,
        List.rel_append hacc htok, hrel'⟩
      rw [rounds, hbk]
      simp only
      rw [if_neg (by rw [← hflag, hf]; decide)]

theorem inert_nul : Inert NUL := Inert.of_mem (Or.inr (Or.inr (Or.inr rfl)))

/-- The loop of `tokenize` on two lexers that have the same text left, the same line and
the same symbol table: the second run returns, with the same tokens. -/
theorem scan_rel {k : Bool} : ∀ (fa : Nat) (a b : Lexer) (fb : Nat) (A : List Token) (a' : Lexer),
    Rel k [] [] a b → scan fa a [] = some (A, a') → b.rest.length < fb →
    ∃ B b', scan fb b [] = some (B, b') ∧ List.Forall₂ (TokEq k) A B
  | 0, _, _, _, _, _, _, hs, _ => by rw [scan] at hs; exact absurd hs (by simp)
  | fa + 1, a, b, fb, A, a', h, hs, hb => by
      obtain ⟨fb, rfl⟩ : ∃ m, fb = m + 1 := ⟨fb - 1, by omega⟩
      obtain ⟨htok, hrel, hflag⟩ := scanStep_rel h (Nat.zero_le _) (Or.inr ⟨rfl, rfl⟩)
        inert_nul (Or.inr ⟨Or.inl rfl, Or.inl rfl⟩)
      cases hf : a.scanStep.2.2 with
      | true =>
          rw [scan_last (scanStep_eta_last a hf)] at hs
          simp only [Option.some.injEq, Prod.mk.injEq, List.nil_append] at hs
          refine ⟨b.scanStep.1, b.scanStep.2.1, ?_, ?_⟩
          · rw [scan_last (scanStep_eta_last b (by rw [← hflag, hf]))]; rfl
          · rw [← hs.1]; exact htok
      | false =>
          have hfb : b.scanStep.2.2 = false := by rw [← hflag, hf]
          rw [scan_round (scanStep_eta a hf), scan_acc] at hs
          cases hsa : scan fa a.scanStep.2.1 [] with
          | none => rw [hsa] at hs; exact absurd hs (by simp)
          | some ra =>
              obtain ⟨A1, a1⟩ := ra
              rw [hsa] at hs
              simp only [Option.map_some', Option.some.injEq, Prod.mk.injEq,
                List.nil_append] at hs
              have hlt := scanStep_lt_start b hfb
              obtain ⟨B1, b1, hsb, hAB⟩ :=
                scan_rel fa a.scanStep.2.1 b.scanStep.2.1 fb A1 a1 hrel hsa (by omega)
              refine ⟨b.scanStep.1 ++ B1, b1, ?_, ?_⟩
              · rw [scan_round (scanStep_eta b hfb), scan_acc, hsb]; rfl
              · rw [← hs.1]; exact List.rel_append htok hAB

theorem tokEq_true {t t' : Token} (h : TokEq true t t') : t = t' := by
  obtain ⟨h1, h2, h3, h4, h5⟩ := h
  cases t; cases t'
  simp only [Token.mk.injEq]
  exact ⟨h1, h2, h3, h5 rfl, h4⟩

theorem tokEq_true_list : ∀ {A B : List Token}, List.Forall₂ (TokEq true) A B → A = B
  | _, _, List.Forall₂.nil => rfl
  | _, _, List.Forall₂.cons h t => by rw [tokEq_true h, tokEq_true_list t]

theorem tokEq_map {k : Bool} {A B : List Token} (h : List.Forall₂ (TokEq k) A B) :
    A.map (fun t => (t.type, t.value)) = B.map (fun t => (t.type, t.value)) := by
  induction h with
  | nil => rfl
  | cons h _ ih => rw [List.map_cons, List.map_cons, ih, h.1, h.2.1]

theorem isCommentChar_ne_nl {c : Char} (h : isCommentChar c = true) : c ≠ '\n' := by
  intro hc
  rw [hc] at h
  exact absurd h (by decide)

theorem isInlineSpace_ne_nl {c : Char} (h : isInlineSpace c = true) : c ≠ '\n' := by
  intro hc
  rw [hc] at h
  exact absurd h (by decide)

theorem skipWhitespace_flag {a : Lexer} (h : a.newLine = false) :
    a.skipWhitespace.newLine = false := by
  obtain ⟨cs, hadv, hall, -, -⟩ :=
    advanceWhile_adv isInlineSpace isInlineSpace_nul a.rest.length a (Nat.le_refl _)
  exact hadv.flag_false (fun hm => isInlineSpace_ne_nl (hall _ hm) rfl) h

theorem isCommentChar_of (c : Char) (h : c ≠ '\n' ∧ c ≠ NUL) : isCommentChar c = true := by
  unfold isCommentChar
  simp [h.1, h.2]

/-- The comment skipped on a line to whose end a comment was appended. -/
theorem skipComment_appended {a1 b1 : Lexer} {cm post : List Char}
    (h : Rel true post ('#' :: cm ++ post) a1 b1) (hn : a1.newLine = false)
    (hcm : ∀ c ∈ cm, c ≠ '\n' ∧ c ≠ NUL) (hpost : isCommentChar (post.getD 0 NUL) = false)
    (hend : a1.skipComment.rest = post) :
    ∃ d : Nat, a1.skipComment = { a1 with rest := post, column := a1.column + (d : Int) } ∧
      b1.skipComment =
        { b1 with rest := post, column := b1.column + ((d + (cm.length + 1) : Nat) : Int) } := by
  have hpk := h.peek_eq
  obtain ⟨⟨r1, ha, hb⟩, -, -, hnl, -⟩ := h
  have hbn : b1.newLine = false := by rw [← hnl]; exact hn
  have hsharp : ∀ c ∈ '#' :: cm, isCommentChar c = true ∧ c ≠ '\n' := by
    intro c hc
    rcases List.mem_cons.mp hc with rfl | hc
    · exact ⟨rfl, by decide⟩
    · exact ⟨isCommentChar_of c (hcm c hc), (hcm c hc).1⟩
  by_cases hp : a1.peek = '#'
  · unfold Lexer.skipComment at hend ⊢
    rw [if_pos hp] at hend ⊢
    obtain ⟨cs, hadv, hcs, -, -⟩ :=
      advanceWhile_adv isCommentChar isCommentChar_nul a1.rest.length a1 (Nat.le_refl _)
    have e := hadv.rest_eq
    rw [hend, ha] at e
    have e' : r1 = cs := List.append_cancel_right e
    subst e'
    have hr1 : ∀ c ∈ r1, isCommentChar c = true ∧ c ≠ '\n' :=
      fun c hc => ⟨hcs c hc, isCommentChar_ne_nl (hcs c hc)⟩
    have hne : post.length < a1.rest.length := by
      by_contra hcon
      have hr : r1 = [] := by
        rw [ha] at hcon
        simp only [List.length_append] at hcon
        exact List.length_eq_zero.mp (by omega)
      rw [hr, List.nil_append] at ha
      rw [Lexer.peek, ha] at hp
      rw [hp] at hpost
      exact absurd hpost (by decide)
    have hbp : b1.peek = '#' := by rw [hpk hne]; exact hp
    refine ⟨r1.length, advanceWhile_run isCommentChar r1 _ a1 post ha hr1 hpost hn
      (by rw [ha]; simp), ?_⟩
    rw [if_pos hbp]
    have hb' : b1.rest = (r1 ++ '#' :: cm) ++ post := by rw [hb]; simp
    rw [advanceWhile_run isCommentChar (r1 ++ '#' :: cm) _ b1 post hb'
      (fun c hc => (List.mem_append.mp hc).elim (hr1 c) (hsharp c)) hpost hbn
      (by rw [hb']; simp)]
    simp only [List.length_append, List.length_cons]
  · unfold Lexer.skipComment at hend ⊢
    rw [if_neg hp] at hend ⊢
    have hr : r1 = [] := by
      rw [hend] at ha
      exact List.append_left_eq_self.mp ha.symm
    rw [hr, List.nil_append] at hb
    have hbp : b1.peek = '#' := by rw [Lexer.peek, hb]; rfl
    refine ⟨0, (Lexer.eta_rest hend).symm, ?_⟩
    rw [if_pos hbp, advanceWhile_run isCommentChar ('#' :: cm) _ b1 post hb hsharp hpost hbn
      (by rw [hb]; simp)]
    simp only [List.length_cons, Nat.zero_add]

/-- A round of the loop at the end of a line to which a comment was appended: both runs
are at the end of the line after the skipping, the second one further to the right. -/
theorem skip_appended {a b : Lexer} {cm post : List Char}
    (h : Rel true post ('#' :: cm ++ post) a b)
    (hcm : ∀ c ∈ cm, c ≠ '\n' ∧ c ≠ NUL) (hpost : isCommentChar (post.getD 0 NUL) = false)
    (hend : a.indentPhase.2.skipWhitespace.skipComment.rest = post) :
    a.indentPhase.1 = b.indentPhase.1 ∧
      b.indentPhase.2.skipWhitespace.skipComment.rest = post ∧
      b.indentPhase.2.skipWhitespace.skipComment.line =
        a.indentPhase.2.skipWhitespace.skipComment.line ∧
      b.indentPhase.2.skipWhitespace.skipComment.symbolTable =
        a.indentPhase.2.skipWhitespace.skipComment.symbolTable ∧
      b.indentPhase.2.skipWhitespace.skipComment.column =
        a.indentPhase.2.skipWhitespace.skipComment.column + ((cm.length + 1 : Nat) : Int) := by
  have hs2 : post.length ≤ a.indentPhase.2.skipWhitespace.skipComment.rest.length := by
    rw [hend]
  have hs1 : post.length ≤ a.indentPhase.2.skipWhitespace.rest.length := by
    refine Nat.le_trans hs2 ?_
    unfold Lexer.skipComment
    split_ifs
    · exact advanceWhile_len _ _ _
    · exact Nat.le_refl _
  have hs0 : post.length ≤ a.indentPhase.2.rest.length :=
    Nat.le_trans hs1 (advanceWhile_len _ _ _)
  obtain ⟨hind, r0⟩ := indentPhase_rel h hs0 (Or.inr rfl)
  have r1 : Rel true post ('#' :: cm ++ post) a.indentPhase.2.skipWhitespace
      b.indentPhase.2.skipWhitespace :=
    advanceWhile_rel isInlineSpace isInlineSpace_nul _ _ _ _ r0 (Nat.le_refl _) (Nat.le_refl _)
      hs1 (Or.inr rfl)
  have hn1 : a.indentPhase.2.skipWhitespace.newLine = false :=
    skipWhitespace_flag (indentPhase_spec a).2.1
  obtain ⟨d, ea, eb⟩ := skipComment_appended r1 hn1 hcm hpost hend
  refine ⟨tokEq_true_list hind, ?_, ?_, ?_, ?_⟩
  · rw [eb]
  · rw [ea, eb]; exact r1.2.1.symm
  · rw [ea, eb]; exact r1.2.2.1.symm
  · rw [ea, eb]
    show _ + _ = _ + _ + _
    rw [← r1.2.2.2.2 rfl]
    push_cast
    ring

theorem rel_start (k : Bool) (pre post post' : List Char) :
    Rel k post post' (startOf (Lexer.mk0 (pre ++ post))) (startOf (Lexer.mk0 (pre ++ post'))) :=
  ⟨⟨pre, rfl, rfl⟩, rfl, rfl, rfl, fun _ => rfl⟩

theorem rounds_fuel {s : List Char} {n : Nat} {acc new : List Token} {lx : Lexer}
    (hr : rounds n (startOf (Lexer.mk0 s)) = some (acc, new, lx)) :
    lx.rest.length < s.length + 1 - n := by
  have := rounds_len n _ _ _ _ hr
  have e : (startOf (Lexer.mk0 s)).rest.length = s.length := rfl
  omega

/-- The tokens of a text from the state of the loop after some rounds. -/
theorem lexTokens_rounds {s : List Char} {n : Nat} {acc new A : List Token} {lx lx' : Lexer}
    (hr : rounds n (startOf (Lexer.mk0 s)) = some (acc, new, lx))
    (hA : scan (s.length + 1 - n) lx [] = some (A, lx')) : lexTokens ⟨s⟩ = acc ++ A := by
  have hf := rounds_fuel hr
  have e : s.length + 1 = n + (s.length + 1 - n) := by omega
  refine @lexTokens_of_scan s (acc ++ A) lx' ?_
  rw [e, scan_of_rounds n _ _ _ _ hr, scan_acc, hA]
  rfl

theorem scanStep_at_end (a : Lexer) (h : a.indentPhase.2.skipWhitespace.skipComment.peek = NUL) :
    a.scanStep = (a.indentPhase.1 ++ [eofToken a.indentPhase.2.skipWhitespace.skipComment],
      a.indentPhase.2.skipWhitespace.skipComment, true) := by
  have e1 : a.indentPhase = (a.indentPhase.1, a.indentPhase.2) := rfl
  have e2 : a.indentPhase.2.skipWhitespace.skipComment =
      a.indentPhase.2.skipWhitespace.skipComment := rfl
  rw [scanStep_of e1 e2, if_pos h]
  rfl

theorem scanStep_at_nl (a : Lexer) (h : a.indentPhase.2.skipWhitespace.skipComment.peek = '\n') :
    a.scanStep = (a.indentPhase.1,
      { a.indentPhase.2.skipWhitespace.skipComment.advance.2 with newLine := true }, false) := by
  have e1 : a.indentPhase = (a.indentPhase.1, a.indentPhase.2) := rfl
  have e2 : a.indentPhase.2.skipWhitespace.skipComment =
      a.indentPhase.2.skipWhitespace.skipComment := rfl
  rw [scanStep_of e1 e2, h, if_neg (by decide), if_neg (by decide), if_neg (by decide),
    if_neg (by decide), if_neg (by decide), if_neg (by decide), if_pos rfl]

theorem scanStep_flag_true (a : Lexer) (h : a.scanStep.2.2 = true) :
    a.indentPhase.2.skipWhitespace.skipComment.peek = NUL := by
  by_contra hne
  have e1 : a.indentPhase = (a.indentPhase.1, a.indentPhase.2) := rfl
  have e2 : a.indentPhase.2.skipWhitespace.skipComment =
      a.indentPhase.2.skipWhitespace.skipComment := rfl
  rw [scanStep_of e1 e2, if_neg hne] at h
  clear e1 e2
  split_ifs at h

theorem scan_one_last {a : Lexer} {new : List Token} {a1 : Lexer}
    (h : a.scanStep = (new, a1, true)) {f : Nat} (hf : 0 < f) :
    scan f a [] = some (new, a1) := by
  obtain ⟨m, rfl⟩ : ∃ m, f = m + 1 := ⟨f - 1, by omega⟩
  rw [scan_last h]; rfl

theorem scan_one_round {a : Lexer} {new : List Token} {a1 : Lexer}
    (h : a.scanStep = (new, a1, false)) {f : Nat} (hf : 0 < f) :
    scan f a [] = (scan (f - 1) a1 []).map (fun r => (new ++ r.1, r.2)) := by
  obtain ⟨m, rfl⟩ : ∃ m, f = m + 1 := ⟨f - 1, by omega⟩
  rw [scan_round h, scan_acc]; rfl

/-- The round that reads the newline, on two lexers that are at it on the same line. -/
theorem nl_round_rel {a2 b2 : Lexer} {more : List Char} (ha : a2.rest = '\n' :: more)
    (hb : b2.rest = '\n' :: more) (hl : b2.line = a2.line)
    (ht : b2.symbolTable = a2.symbolTable) :
    Rel true [] [] { a2.advance.2 with newLine := true } { b2.advance.2 with newLine := true } := by
  refine ⟨⟨more, ?_, ?_⟩, ?_, ?_, rfl, fun _ => ?_⟩
  · show a2.advance.2.rest = more ++ []
    rw [Lexer.advance_rest, ha, List.append_nil]; rfl
  · show b2.advance.2.rest = more ++ []
    rw [Lexer.advance_rest, hb, List.append_nil]; rfl
  · show a2.advance.2.line = b2.advance.2.line
    rw [Lexer.advance_line ha, Lexer.advance_line hb, hl]
  · show a2.advance.2.symbolTable = b2.advance.2.symbolTable
    rw [Lexer.advance_table, Lexer.advance_table, ht]
  · show a2.advance.2.column = b2.advance.2.column
    rw [Lexer.advance_column ha, Lexer.advance_column hb]
    unfold stepColumn
    rw [if_pos rfl, if_pos rfl]

theorem nl_round_rest {a2 : Lexer} {more : List Char} (ha : a2.rest = '\n' :: more) :
    ({ a2.advance.2 with newLine := true } : Lexer).rest = more := by
  show a2.advance.2.rest = more
  rw [Lexer.advance_rest, ha]; rfl

/-- C28 (amended). Let a source be `pre ++ post`, where `post` is empty or starts with a
newline, so that `pre` ends with a physical line, and let the loop of `tokenize` come to
the end of that line between two tokens: after some rounds, either the skipping of blanks
and of a comment stops exactly at `post` and the round before did not give the Error token
of an unterminated string (the line does not end inside a string literal), or the loop is
left before `post` (at a NUL byte). Then appending a comment `#` followed by characters
other than newline and NUL to that line leaves every token as it is, except that, when
the loop comes to the end of the last line of the text, the column of the EndOfInput token
grows by the length of the comment. -/
theorem comment_appended (pre cm post : List Char) (n : Nat) (acc new : List Token) (lx : Lexer)
    (hcm : ∀ c ∈ cm, c ≠ '\n' ∧ c ≠ NUL)
    (hpost : post = [] ∨ ∃ more, post = '\n' :: more)
    (hr : rounds n (startOf (Lexer.mk0 (pre ++ post))) = some (acc, new, lx))
    (hend : (lx.indentPhase.2.skipWhitespace.skipComment.rest = post ∧
        ∀ t ∈ new, ¬ Unterminated t) ∨
      (lx.scanStep.2.2 = true ∧ post.length < lx.scanStep.2.1.rest.length)) :
    ∃ init eof, lexTokens ⟨pre ++ post⟩ = init ++ [eof] ∧ eof.type = .EOFToken ∧
      lexTokens ⟨pre ++ ('#' :: cm ++ post)⟩ =
        init ++ [if post = [] ∧ lx.indentPhase.2.skipWhitespace.skipComment.rest = [] then
          { eof with column := eof.column + ((cm.length + 1 : Nat) : Int) } else eof] := by
  have hi : Inert (('#' :: cm ++ post).getD 0 NUL) := Inert.of_mem (Or.inl rfl)
  have hpc : isCommentChar (post.getD 0 NUL) = false := by
    rcases hpost with rfl | ⟨more, rfl⟩ <;> rfl
  have hpa : isalnum (post.getD 0 NUL) = false := by
    rcases hpost with rfl | ⟨more, rfl⟩ <;> rfl
  have ta : ∀ A lx', scan ((pre ++ post).length + 1 - n) lx [] = some (A, lx') →
      lexTokens ⟨pre ++ post⟩ = acc ++ A := fun _ _ h => lexTokens_rounds hr h
  have hfa := rounds_fuel hr
  have hs : post.length ≤ lx.rest.length := by
    rcases hend with ⟨he, -⟩ | ⟨-, he⟩
    · have := Nat.le_trans (skip_len lx.indentPhase.2) (indentPhase_len lx)
      rw [he] at this
      exact this
    · exact Nat.le_trans (Nat.le_of_lt he) (scanStep_le_start lx)
  have hok : post.length < lx.rest.length ∨
      ((('#' :: cm ++ post).getD 0 NUL = NUL ∨
          ∀ t, new.getLast? = some t → ¬ Unterminated t) ∧
       (isalnum (post.getD 0 NUL) = false ∨ ∀ t, new.getLast? = some t → ¬ BadDigit t)) := by
    rcases hend with ⟨-, he⟩ | ⟨-, he⟩
    · exact Or.inr ⟨Or.inr (fun t ht => he t (List.mem_of_getLast?_eq_some ht)), Or.inl hpa⟩
    · exact Or.inl (Nat.lt_of_lt_of_le he (scanStep_le_start lx))
  obtain ⟨accb, newb, lxb, hrb, hacc, hrel⟩ :=
    rounds_rel hi n _ _ lx acc new (rel_start true pre post ('#' :: cm ++ post)) hr hs hok
  have hacc := tokEq_true_list hacc
  subst hacc
  have hfb := rounds_fuel hrb
  have tb : ∀ B lx', scan ((pre ++ ('#' :: cm ++ post)).length + 1 - n) lxb [] = some (B, lx') →
      lexTokens ⟨pre ++ ('#' :: cm ++ post)⟩ = acc ++ B := fun _ _ h => lexTokens_rounds hrb h
  generalize (pre ++ post).length + 1 - n = fa at ta hfa
  generalize (pre ++ ('#' :: cm ++ post)).length + 1 - n = fb at tb hfb
  generalize lexTokens ⟨pre ++ post⟩ = TA at ta ⊢
  generalize lexTokens ⟨pre ++ ('#' :: cm ++ post)⟩ = TB at tb ⊢
  clear hr hrb hok
  rcases hend with ⟨he, -⟩ | ⟨hfl, he⟩
  · obtain ⟨hind, hbr, hbl, hbt, hbc⟩ := skip_appended hrel hcm hpc he
    rcases hpost with rfl | ⟨more, rfl⟩
    · have pa : lx.indentPhase.2.skipWhitespace.skipComment.peek = NUL := by
        rw [Lexer.peek, he]; rfl
      have pb : lxb.indentPhase.2.skipWhitespace.skipComment.peek = NUL := by
        rw [Lexer.peek, hbr]; rfl
      have ta := ta _ _ (scan_one_last (scanStep_at_end lx pa) (by omega))
      have tb := tb _ _ (scan_one_last (scanStep_at_end lxb pb) (by omega))
      refine ⟨acc ++ lx.indentPhase.1,
        eofToken lx.indentPhase.2.skipWhitespace.skipComment, ?_, rfl, ?_⟩
      · rw [ta, List.append_assoc]
      · rw [tb, if_pos ⟨rfl, he⟩, ← hind, List.append_assoc]
        unfold eofToken
        rw [hbl, hbc]
    · have pa : lx.indentPhase.2.skipWhitespace.skipComment.peek = '\n' := by
        rw [Lexer.peek, he]; rfl
      have pb : lxb.indentPhase.2.skipWhitespace.skipComment.peek = '\n' := by
        rw [Lexer.peek, hbr]; rfl
      have hla : ('\n' :: more).length ≤ lx.rest.length := hs
      have hlb : ('\n' :: more).length ≤ lxb.rest.length := by
        have := Nat.le_trans (skip_len lxb.indentPhase.2) (indentPhase_len lxb)
        rw [hbr] at this
        exact this
      simp only [List.length_cons] at hla hlb
      have sa := scan_one_round (scanStep_at_nl lx pa) (Nat.lt_of_le_of_lt (Nat.zero_le _) hfa)
      have sb := scan_one_round (scanStep_at_nl lxb pb) (Nat.lt_of_le_of_lt (Nat.zero_le _) hfb)
      have ra := nl_round_rest he
      have rb := nl_round_rest hbr
      have h3 := nl_round_rel he hbr hbl hbt
      generalize ({ lx.indentPhase.2.skipWhitespace.skipComment.advance.2 with
        newLine := true } : Lexer) = a3 at sa ra h3
      generalize ({ lxb.indentPhase.2.skipWhitespace.skipComment.advance.2 with
        newLine := true } : Lexer) = b3 at sb rb h3
      obtain ⟨A1, a', hA1, ⟨init1, eof1, hshape, heof, -⟩, -⟩ :=
        scan_returns (fa - 1) a3 (by rw [ra]; omega)
      obtain ⟨B1, b', hB1, hAB⟩ := scan_rel _ a3 b3 (fb - 1) A1 a' h3 hA1 (by rw [rb]; omega)
      have hAB := tokEq_true_list hAB
      subst hAB
      rw [hA1] at sa
      rw [hB1] at sb
      have ta := ta _ _ sa
      have tb := tb _ _ sb
      refine ⟨acc ++ lx.indentPhase.1 ++ init1, eof1, ?_, heof, ?_⟩
      · rw [ta, hshape]; simp
      · rw [tb, if_neg (fun hc => List.cons_ne_nil _ _ hc.1), ← hind, hshape]; simp
  · have hlt : post.length < lx.indentPhase.2.skipWhitespace.skipComment.rest.length :=
      Nat.lt_of_lt_of_le he (scanStep_len2 lx)
    obtain ⟨htok, -, hflag⟩ :=
      scanStep_rel hrel (Nat.le_of_lt he) (Or.inl hlt) hi (Or.inl he)
    have htok := tokEq_true_list htok
    have pa := scanStep_flag_true lx hfl
    have ea := scanStep_at_end lx pa
    have eb := scanStep_eta_last lxb (by rw [← hflag]; exact hfl)
    rw [← htok, ea] at eb
    have ta := ta _ _ (scan_one_last ea (by omega))
    have tb := tb _ _ (scan_one_last eb (by omega))
    refine ⟨acc ++ lx.indentPhase.1,
      eofToken lx.indentPhase.2.skipWhitespace.skipComment, ?_, rfl, ?_⟩
    · rw [ta, List.append_assoc]
    · rw [tb, if_neg (fun hc => by rw [hc.2] at hlt; exact Nat.not_lt_zero _ hlt),
        List.append_assoc]

/-- The loop `while (p(peek())) advance();` over characters known to pass the test. -/
theorem advanceWhile_over (p : Char → Bool) : ∀ (cs : List Char) (n : Nat) (lx : Lexer)
    (r : List Char), lx.rest = cs ++ r → (∀ c ∈ cs, p c = true ∧ c ≠ '\n') →
    lx.newLine = false →
    advanceWhile p (cs.length + n) lx =
      advanceWhile p n { lx with rest := r, column := lx.column + (cs.length : Int) }
  | [], n, lx, r, hr, _, _ => by
      simp only [List.nil_append] at hr
      rw [List.length_nil, Lexer.eta_rest hr, Nat.zero_add]
  | c :: cs, n, lx, r, hr, hall, hf => by
      have hc := hall c (List.mem_cons_self _ _)
      have hr' : lx.rest = c :: (cs ++ r) := by simpa using hr
      have e : (c :: cs).length + n = (cs.length + n) + 1 := by
        simp only [List.length_cons]; omega
      rw [e]
      conv_lhs => unfold advanceWhile
      rw [if_pos (by rw [Lexer.peek_eq_of_rest hr']; exact hc.1),
        Lexer.advance_plain hr' hc.2 hf]
      simp only
      rw [advanceWhile_over p cs n ({ lx with rest := cs ++ r, column := lx.column + 1 } : Lexer)
        r rfl (fun d hd => hall d (List.mem_cons_of_mem _ hd)) hf]
      simp only [List.length_cons, Nat.cast_add, Nat.cast_one]
      congr 2
      ring

theorem skipWhitespace_over {lx : Lexer} {g post : List Char} (hr : lx.rest = g ++ post)
    (hg : ∀ c ∈ g, isInlineSpace c = true) (hf : lx.newLine = false) :
    lx.skipWhitespace =
      ({ lx with rest := post, column := lx.column + (g.length : Int) } : Lexer).skipWhitespace := by
  unfold Lexer.skipWhitespace
  have e : lx.rest.length = g.length + post.length := by rw [hr, List.length_append]
  rw [e, advanceWhile_over isInlineSpace g post.length lx post hr
    (fun c hc => ⟨hg c hc, isInlineSpace_ne_nl (hg c hc)⟩) hf]

theorem scanStep_skipped (a a' : Lexer) (ha : a.newLine = false) (ha' : a'.newLine = false)
    (h : a.skipWhitespace = a'.skipWhitespace) : a.scanStep = a'.scanStep := by
  have e2 : a.skipWhitespace.skipComment = a.skipWhitespace.skipComment := rfl
  have e2' : a'.skipWhitespace.skipComment = a.skipWhitespace.skipComment := by rw [h]
  rw [scanStep_of (indentPhase_flat ha) e2, scanStep_of (indentPhase_flat ha') e2']

theorem scan_congr_step {a a' : Lexer} (h : a.scanStep = a'.scanStep) (f : Nat)
    (acc : List Token) : scan f a acc = scan f a' acc := by
  cases f with
  | zero => rfl
  | succ f => rw [scan, scan, h]

/-- C29 (amended). Let the loop of `tokenize` on a source `pre ++ post` stand, after some
rounds, behind a token of the current line (`newLine` is not set), with only blanks `g`
between it and `post`, and let the token read last be neither the Error token of an
invalid digit of a prefixed literal nor that of an unterminated string. Then inserting
spaces and tabs in front of `post` does not change the sequence of token kinds and
lexemes. -/
theorem blanks_inserted (pre ws post g : List Char) (n : Nat) (acc new : List Token)
    (lx : Lexer) (hws : ∀ c ∈ ws, c = ' ' ∨ c = '\t')
    (hr : rounds n (startOf (Lexer.mk0 (pre ++ post))) = some (acc, new, lx))
    (hnl : lx.newLine = false) (hg : lx.rest = g ++ post)
    (hgs : ∀ c ∈ g, isInlineSpace c = true)
    (hbad : ∀ t ∈ new, ¬ BadDigit t) (hstr : ∀ t ∈ new, ¬ Unterminated t) :
    (lexTokens ⟨pre ++ (ws ++ post)⟩).map (fun t => (t.type, t.value)) =
      (lexTokens ⟨pre ++ post⟩).map (fun t => (t.type, t.value)) := by
  cases ws with
  | nil => rw [List.nil_append]
  | cons w ws =>
      have hw : ∀ c ∈ w :: ws, isInlineSpace c = true ∧ c ≠ '\n' := by
        intro c hc
        rcases hws c hc with rfl | rfl <;> exact ⟨rfl, by decide⟩
      have hi : Inert ((w :: ws ++ post).getD 0 NUL) := by
        refine Inert.of_mem ?_
        rcases hws w (List.mem_cons_self _ _) with rfl | rfl
        · exact Or.inr (Or.inl rfl)
        · exact Or.inr (Or.inr (Or.inl rfl))
      have hfa := rounds_fuel hr
      have hs : post.length ≤ lx.rest.length := by rw [hg]; simp
      obtain ⟨accb, newb, lxb, hrb, hacc, hrel⟩ :=
        rounds_rel hi n _ _ lx acc new (rel_start false pre post (w :: ws ++ post)) hr hs
          (Or.inr ⟨Or.inr (fun t ht => hstr t (List.mem_of_getLast?_eq_some ht)),
            Or.inr (fun t ht => hbad t (List.mem_of_getLast?_eq_some ht))⟩)
      have hfb := rounds_fuel hrb
      have ta : ∀ A lx', scan ((pre ++ post).length + 1 - n) lx [] = some (A, lx') →
          lexTokens ⟨pre ++ post⟩ = acc ++ A := fun _ _ h => lexTokens_rounds hr h
      have tb : ∀ B lx', scan ((pre ++ (w :: ws ++ post)).length + 1 - n) lxb [] = some (B, lx') →
          lexTokens ⟨pre ++ (w :: ws ++ post)⟩ = accb ++ B := fun _ _ h => lexTokens_rounds hrb h
      generalize (pre ++ post).length + 1 - n = fa at ta hfa
      generalize (pre ++ (w :: ws ++ post)).length + 1 - n = fb at tb hfb
      generalize lexTokens ⟨pre ++ post⟩ = TA at ta ⊢
      generalize lexTokens ⟨pre ++ (w :: ws ++ post)⟩ = TB at tb ⊢
      clear hr hrb
      obtain ⟨⟨r, hra, hrb⟩, hline, htab, hflag, -⟩ := hrel
      have hrg : r = g := by
        rw [hg] at hra
        exact (List.append_cancel_right hra).symm
      subst hrg
      have hnlb : lxb.newLine = false := by rw [← hflag]; exact hnl
      have hrb' : lxb.rest = (r ++ w :: ws) ++ post := by rw [hrb]; simp
      have ea := scanStep_skipped lx
        ({ lx with rest := post, column := lx.column + (r.length : Int) } : Lexer) hnl hnl
        (skipWhitespace_over hg hgs hnl)
      have eb := scanStep_skipped lxb
        ({ lxb with rest := post, column := lxb.column + ((r ++ w :: ws).length : Int) } : Lexer)
        hnlb hnlb (skipWhitespace_over hrb'
        (fun c hc => (List.mem_append.mp hc).elim (hgs c) (fun h => (hw c h).1)) hnlb)
      have h3 : Rel false [] []
          ({ lx with rest := post, column := lx.column + (r.length : Int) } : Lexer)
          ({ lxb with rest := post, column := lxb.column + ((r ++ w :: ws).length : Int) } :
            Lexer) :=
        ⟨⟨post, (List.append_nil _).symm, (List.append_nil _).symm⟩, hline, htab, hflag,
          fun h => Bool.noConfusion h⟩
      have ra : ({ lx with rest := post, column := lx.column + (r.length : Int) } :
          Lexer).rest = post := rfl
      have rb : ({ lxb with rest := post, column := lxb.column + ((r ++ w :: ws).length : Int) } :
          Lexer).rest = post := rfl
      generalize ({ lx with rest := post, column := lx.column + (r.length : Int) } : Lexer) = a1
        at ea h3 ra
      generalize ({ lxb with rest := post, column := lxb.column + ((r ++ w :: ws).length : Int) } :
        Lexer) = b1 at eb h3 rb
      have hpa : post.length < fa := by rw [hg] at hfa; simp at hfa; omega
      have hpb : post.length < fb := by rw [hrb'] at hfb; simp at hfb; omega
      obtain ⟨A, a', hA, -, -⟩ := scan_returns fa a1 (by rw [ra]; exact hpa)
      obtain ⟨B, b', hB, hAB⟩ := scan_rel fa a1 b1 fb A a' h3 hA (by rw [rb]; exact hpb)
      rw [← scan_congr_step ea] at hA
      rw [← scan_congr_step eb] at hB
      rw [ta _ _ hA, tb _ _ hB]
      exact (tokEq_map (List.rel_append hacc hAB)).symm

/-- The theorem `comment_appended` on the lines `x` and `y`, with the comment `#c` appended
to the first line: the tokens are the same. -/
theorem comment_appended_witness :
    ∃ init eof, lexTokens ⟨['x'] ++ ['\n', 'y']⟩ = init ++ [eof] ∧ eof.type = .EOFToken ∧
      lexTokens ⟨['x'] ++ ('#' :: ['c'] ++ ['\n', 'y'])⟩ =
        init ++ [if ['\n', 'y'] = [] ∧
            scenarioCommentState.2.2.indentPhase.2.skipWhitespace.skipComment.rest = [] then
          { eof with column := eof.column + (((['c'] : List Char).length + 1 : Nat) : Int) }
          else eof] :=
  comment_appended ['x'] ['c'] ['\n', 'y'] 1 scenarioCommentState.1 scenarioCommentState.2.1
    scenarioCommentState.2.2 (by decide) (Or.inr ⟨['y'], rfl⟩) (by decide!)
    (Or.inl ⟨by decide!, fun t ht h =>
      absurd h.1 ((by decide! : ∀ t ∈ scenarioCommentState.2.1, t.type ≠ .Error) t ht)⟩)

/-- On the one line `x`, the comment `#c` moves the EndOfInput token from column 2 to
column 4; and on the lines `x` and `y`, a comment on the first line that holds a NUL byte
ends the token list there. -/
theorem comment_moves_end_of_input :
    (lexTokens ⟨['x']⟩).map (fun t => (t.type, t.value, t.line, t.column)) =
      [(.Indent, "0", 1, 1), (.Identifier, "x", 1, 1), (.EOFToken, "EOF", 1, 2)] ∧
    (lexTokens ⟨['x'] ++ ['#', 'c']⟩).map (fun t => (t.type, t.value, t.line, t.column)) =
      [(.Indent, "0", 1, 1), (.Identifier, "x", 1, 1), (.EOFToken, "EOF", 1, 4)] ∧
    (lexTokens ⟨['x'] ++ ['\n', 'y']⟩).map (fun t => (t.type, t.value)) =
      [(.Indent, "0"), (.Identifier, "x"), (.Indent, "0"), (.Identifier, "y"),
        (.EOFToken, "EOF")] ∧
    (lexTokens ⟨['x'] ++ ['#', NUL] ++ ['\n', 'y']⟩).map (fun t => (t.type, t.value)) =
      [(.Indent, "0"), (.Identifier, "x"), (.EOFToken, "EOF")] := by decide!

/-- The theorem `blanks_inserted` on `x=1`, with a space and a tab inserted between `x`
and `=`. -/
theorem blanks_inserted_witness :
    (lexTokens ⟨['x'] ++ ([' ', '\t'] ++ ['=', '1'])⟩).map (fun t => (t.type, t.value)) =
      (lexTokens ⟨['x'] ++ ['=', '1']⟩).map (fun t => (t.type, t.value)) :=
  blanks_inserted ['x'] [' ', '\t'] ['=', '1'] [] 1 scenarioBlankState.1 scenarioBlankState.2.1
    scenarioBlankState.2.2 (by decide) (by decide!) (by decide!) (by decide!)
    (fun _ h => absurd h (List.not_mem_nil _))
    (fun t ht h =>
      absurd h.1 ((by decide! : ∀ t ∈ scenarioBlankState.2.1, t.type ≠ .Error) t ht))
    (fun t ht h =>
      absurd h.1 ((by decide! : ∀ t ∈ scenarioBlankState.2.1, t.type ≠ .Error) t ht))

/-- On `0x1g` the lexer gives the Error token of an invalid digit and then the Identifier
`g`; with a space between `0x1` and `g` it gives the Number `0x1` and the Identifier `g`. -/
theorem blank_after_invalid_digit :
    (lexTokens ⟨['0', 'x', '1'] ++ ['g']⟩).map (fun t => (t.type, t.value, t.column)) =
      [(.Indent, "0", 1), (.Error, "Invalid digit for base 16: 0x1g", 1),
        (.Identifier, "g", 4), (.EOFToken, "EOF", 5)] ∧
    (lexTokens ⟨['0', 'x', '1'] ++ [' '] ++ ['g']⟩).map (fun t => (t.type, t.value, t.column)) =
      [(.Indent, "0", 1), (.Number, "0x1", 1), (.Identifier, "g", 5),
        (.EOFToken, "EOF", 6)] := by decide!

namespace Parser

/-- Two operators of one level: the node of the second operator carries the token of the
first one at the levels of `or` and `and`, and its own token at the other levels. -/
theorem level_two_token : ∀ l, l < 6 → ∀ (p p1 p2 p3 : Parser) (a b c : ASTNode),
    Returns (levelParser (l + 1)) p a p1 → a.isNull = false →
    opLevel p1.currentToken = some l → Returns (levelParser (l + 1)) p1.advance b p2 →
    b.isNull = false → opLevel p2.currentToken = some l →
    Returns (levelParser (l + 1)) p2.advance c p3 → c.isNull = false →
    opLevel p3.currentToken ≠ some l →
    Returns (levelParser l) p
      (BinaryOpNode (if l < 2 then p1.currentToken else p2.currentToken)
        (BinaryOpNode p1.currentToken a b) c) p3
  | 0, _ => by
      intro p p1 p2 p3 a b c ha na t1 hb nb t2 hc nc t3
      have hl : ∀ fuel op node p, orLoop (fuel + 1) op node p = _ :=
        fun fuel op node p => by rw [orLoop]
      have e := congrFun test_or
      exact @op_level_enter parseLogicalOr parseLogicalAnd orLoop (fun fuel p => by rw [parseLogicalOr]) _ _ _ _ _ ha na
        (op_loop_step hl (by rw [e p1]; simpa using t1) hb nb
          (op_loop_step hl (by rw [e p2]; simpa using t2) hc nc
            (op_loop_stop hl _ _ (by rw [e p3]; simpa using t3))))
  | 1, _ => by
      intro p p1 p2 p3 a b c ha na t1 hb nb t2 hc nc t3
      have hl : ∀ fuel op node p, andLoop (fuel + 1) op node p = _ :=
        fun fuel op node p => by rw [andLoop]
      have e := congrFun test_and
      exact @op_level_enter parseLogicalAnd parseEquality andLoop (fun fuel p => by rw [parseLogicalAnd]) _ _ _ _ _ ha na
        (op_loop_step hl (by rw [e p1]; simpa using t1) hb nb
          (op_loop_step hl (by rw [e p2]; simpa using t2) hc nc
            (op_loop_stop hl _ _ (by rw [e p3]; simpa using t3))))
  | 2, _ => by
      intro p p1 p2 p3 a b c ha na t1 hb nb t2 hc nc t3
      have hl : ∀ fuel node p, equalityLoop (fuel + 1) node p = _ :=
        fun fuel node p => by rw [equalityLoop]
      have e := congrFun test_equality
      exact @level_enter parseEquality parseRelational equalityLoop (fun fuel p => by rw [parseEquality]) _ _ _ _ _ ha na
        (loop_step hl (by rw [e p1]; simpa using t1) hb nb
          (loop_step hl (by rw [e p2]; simpa using t2) hc nc
            (loop_stop hl _ (by rw [e p3]; simpa using t3))))
  | 3, _ => by
      intro p p1 p2 p3 a b c ha na t1 hb nb t2 hc nc t3
      have hl : ∀ fuel node p, relationalLoop (fuel + 1) node p = _ :=
        fun fuel node p => by rw [relationalLoop]
      have e := congrFun test_relational
      exact @level_enter parseRelational parseTerm relationalLoop (fun fuel p => by rw [parseRelational]) _ _ _ _ _ ha na
        (loop_step hl (by rw [e p1]; simpa using t1) hb nb
          (loop_step hl (by rw [e p2]; simpa using t2) hc nc
            (loop_stop hl _ (by rw [e p3]; simpa using t3))))
  | 4, _ => by
      intro p p1 p2 p3 a b c ha na t1 hb nb t2 hc nc t3
      have hl : ∀ fuel node p, termLoop (fuel + 1) node p = _ :=
        fun fuel node p => by rw [termLoop]
      have e := congrFun test_term
      exact @level_enter parseTerm parseFactor termLoop (fun fuel p => by rw [parseTerm]) _ _ _ _ _ ha na
        (loop_step hl (by rw [e p1]; simpa using t1) hb nb
          (loop_step hl (by rw [e p2]; simpa using t2) hc nc
            (loop_stop hl _ (by rw [e p3]; simpa using t3))))
  | 5, _ => by
      intro p p1 p2 p3 a b c ha na t1 hb nb t2 hc nc t3
      have hl : ∀ fuel node p, factorLoop (fuel + 1) node p = _ :=
        fun fuel node p => by rw [factorLoop]
      have e := congrFun test_factor
      exact @level_enter parseFactor parseUnary factorLoop (fun fuel p => by rw [parseFactor]) _ _ _ _ _ ha na
        (loop_step hl (by rw [e p1]; simpa using t1) hb nb
          (loop_step hl (by rw [e p2]; simpa using t2) hc nc
            (loop_stop hl _ (by rw [e p3]; simpa using t3))))
  | l + 6, h => absurd h (by omega)

/-- C31. Three primary operands joined by two operators of one level: `parseExpr` builds
the node of the first operator on the token of the first operator, and the node of the
second operator on the token of the second operator at the levels of `==`, `<`, `+` and
`*`, but on the token of the FIRST operator at the levels of `or` and `and`, where the
token is copied before the loop. On `x = a or b or c` the two `or` stand at the columns 7
and 12 and both BinaryOp nodes carry the token of column 7; the same on
`x = a and b and c` (columns 7 and 13); on `x = a + b + c` the nodes carry the tokens of
the columns 11 and 7. -/
theorem chain_operator_token :
    (∀ (p p1 p2 p3 : Parser) (e1 e2 e3 : ASTNode) (l : Nat), Primary p e1 p1 →
      opLevel p1.currentToken = some l → Primary p1.advance e2 p2 →
      opLevel p2.currentToken = some l → Primary p2.advance e3 p3 →
      opLevel p3.currentToken = none →
      Returns parseExpr p
        (BinaryOpNode (if l < 2 then p1.currentToken else p2.currentToken)
          (BinaryOpNode p1.currentToken e1 e2) e3) p3) ∧
    ((lexTokens scenarioOrChain).filter (fun t => t.value = "or")).map (fun t => t.column) =
      [7, 12] ∧
    (runParser (lexTokens scenarioOrChain)).toOption.map (fun r => r.1.children?.map
      (fun s => (s.children?.getD 1 .null).opColumns)) = some [[("or", 7), ("or", 7)]] ∧
    ((lexTokens scenarioAndChain).filter (fun t => t.value = "and")).map (fun t => t.column) =
      [7, 13] ∧
    (runParser (lexTokens scenarioAndChain)).toOption.map (fun r => r.1.children?.map
      (fun s => (s.children?.getD 1 .null).opColumns)) = some [[("and", 7), ("and", 7)]] ∧
    (runParser (lexTokens scenarioPlusChain)).toOption.map (fun r => r.1.children?.map
      (fun s => (s.children?.getD 1 .null).opColumns)) = some [[("+", 11), ("+", 7)]] := by
  refine ⟨?_, by decide!, by decide!, by decide!, by decide!, by decide!⟩
  intro p p1 p2 p3 e1 e2 e3 l h1 o1 h2 o2 h3 o3
  have hl := opLevel_lt_six o1
  have a := h1.at_level (show l + 1 ≤ 6 by omega)
    (fun m hm => by rw [o1]; simp only [ne_eq, Option.some.injEq]; omega)
  have b := h2.at_level (show l + 1 ≤ 6 by omega)
    (fun m hm => by rw [o2]; simp only [ne_eq, Option.some.injEq]; omega)
  have c := h3.at_level (show l + 1 ≤ 6 by omega) (fun m _ => by rw [o3]; simp)
  have r := level_two_token l hl p p1 p2 p3 e1 e2 e3 a h1.1 o1 b h2.1 o2 c h3.1
    (by rw [o3]; simp)
  have r0 := climb_from (not_null_binary _ _ _) (Nat.zero_le l) (by omega) r
    (fun m _ _ => by rw [o3]; simp)
  exact expr_of_or r0 h1.start.2

theorem expectIndentLoop_run : ∀ (ms : List Token) (m0 t : Token) (r : List Token)
    (expected : Int) (errs : List ParseError),
    (∀ m ∈ m0 :: ms, m.type = .Indent ∧ (stoi m.value).isSome = true) → t.type ≠ .Indent →
    expectIndentLoop (ms ++ t :: r) m0 expected errs =
      .ok (t, r, errs ++ runErrors expected (m0 :: ms))
  | [], m0, t, r, expected, errs, hm, ht => by
      obtain ⟨h0, hs⟩ := hm m0 (List.mem_cons_self _ _)
      obtain ⟨lvl, hl⟩ := Option.isSome_iff_exists.mp hs
      rw [expectIndentLoop]
      simp only [h0, ne_eq, not_true_eq_false, if_false, hl, List.nil_append, ht]
      simp only [runErrors, markerLevel, hl, Option.getD_some, List.append_nil]
      split_ifs <;> simp_all
  | m1 :: ms, m0, t, r, expected, errs, hm, ht => by
      obtain ⟨h0, hs⟩ := hm m0 (List.mem_cons_self _ _)
      obtain ⟨h1, -⟩ := hm m1 (List.mem_cons_of_mem _ (List.mem_cons_self _ _))
      obtain ⟨lvl, hl⟩ := Option.isSome_iff_exists.mp hs
      rw [expectIndentLoop]
      simp only [h0, ne_eq, not_true_eq_false, if_false, hl, List.cons_append, h1, if_true]
      rw [expectIndentLoop_run ms m1 t r lvl _ (fun m hmem => hm m (List.mem_cons_of_mem _ hmem)) ht]
      have e : runErrors expected (m0 :: m1 :: ms) =
          (if lvl ≠ expected then
            [{ line := m0.line, col := m0.column, message := "Incorrect indentation level" }]
           else []) ++ runErrors lvl (m1 :: ms) := by
        rw [runErrors]
        simp only [markerLevel, hl, Option.getD_some]
      rw [e]
      split_ifs <;> simp_all

/-- C32. On a run of IndentMarkers followed by another token, `expectIndent(E)` consumes
the whole run, and it compares the first marker with `E` but every later marker with the
level of the marker before it, since the recursive call passes `actualLevel`; at a token
that is no IndentMarker it records "Expected indentation at start of block" and consumes
nothing. On `if a:`, an empty line, `    b = 1` the block is expected at level 1 and the
markers have the levels 0 and 1: the code records "Incorrect indentation level" for both,
where a comparison of each marker with level 1 gives one error, for the first marker. -/
theorem expectIndent_compares_previous :
    (∀ (p : Parser) (ms r : List Token) (t : Token) (expected : Int),
      p.rest = ms ++ t :: r →
      (∀ m ∈ p.currentToken :: ms, m.type = .Indent ∧ (stoi m.value).isSome = true) →
      t.type ≠ .Indent →
      p.expectIndent expected =
        .ok { p with currentToken := t, rest := r,
                     errors := p.errors ++ runErrors expected (p.currentToken :: ms) }) ∧
    (∀ (p : Parser) (expected : Int), p.currentToken.type ≠ .Indent →
      p.expectIndent expected = .ok (p.errorHere "Expected indentation at start of block")) ∧
    runErrors 1 [tok .Indent "0" 2 1, tok .Indent "1" 3 5] =
      [{ line := 2, col := 1, message := "Incorrect indentation level" },
       { line := 3, col := 5, message := "Incorrect indentation level" }] ∧
    sameLevelErrors 1 [tok .Indent "0" 2 1, tok .Indent "1" 3 5] =
      [{ line := 2, col := 1, message := "Incorrect indentation level" }] ∧
    (lexTokens scenarioBlankAfterIf).map (fun t => (t.type, t.value, t.line, t.column)) =
      [(.Indent, "0", 1, 1), (.Keyword, "if", 1, 1), (.Identifier, "a", 1, 4),
       (.Delimiter, ":", 1, 5), (.Indent, "0", 2, 1), (.Indent, "1", 3, 5),
       (.Identifier, "b", 3, 5), (.Operator, "=", 3, 7), (.Number, "1", 3, 9),
       (.EOFToken, "EOF", 3, 10)] ∧
    (runParser (lexTokens scenarioBlankAfterIf)).toOption.map (fun r => r.2.errors) =
      some [{ line := 2, col := 1, message := "Incorrect indentation level" },
            { line := 3, col := 5, message := "Incorrect indentation level" }] := by
  refine ⟨?_, ?_, by decide!, by decide!, by decide!, by decide!⟩
  · intro p ms r t expected hr hm ht
    unfold expectIndent
    rw [hr, expectIndentLoop_run ms p.currentToken t r expected p.errors hm ht]
  · intro p expected hne
    unfold expectIndent
    rw [expectIndentLoop, if_pos hne]
    rfl

/-- C35. On `if :` followed by a block, `parseIfStmt` builds the If node on the null
pointer that `parseExpr` returned for the condition: the tree that `parseProgram` returns
has an If node whose first child is null, and the same holds for the condition of a
`while` and of an `elif`; `parseForStmt`, in contrast, returns no node when the iterable
is missing. -/
theorem if_condition_null_child :
    (runParser (lexTokens scenarioIfNoCondition)).toOption.map (fun r =>
      (r.1.children?.map (fun s => (s.getNodeType, s.children?.map ASTNode.isNull)),
       r.1.hasNullChild, r.2.errors)) =
      some ([("If", [true, false])], true,
        [{ line := 1, col := 4, message := "Unexpected token in expression" },
         { line := 2, col := 5, message := "Expected ':' after if condition" }]) ∧
    (runParser (lexTokens scenarioWhileNoCondition)).toOption.map (fun r =>
      (r.1.children?.map (fun s => (s.getNodeType, s.children?.map ASTNode.isNull)),
       r.1.hasNullChild)) = some ([("While", [true, false])], true) ∧
    (runParser (lexTokens scenarioElifNoCondition)).toOption.map (fun r =>
      (r.1.children?.map (fun s => s.children?.map
        (fun c => (c.getNodeType, c.children?.map ASTNode.isNull))),
       r.1.hasNullChild)) =
      some ([[("Identifier", []), ("Block", [false]), ("Elif", [true, false])]], true) ∧
    (runParser (lexTokens scenarioForNoIterable)).toOption.map (fun r =>
      (r.1.children?.map ASTNode.getNodeType, r.1.hasNullChild)) =
      some (["Assign"], false) := by
  refine ⟨by decide!, by decide!, by decide!, by decide!⟩

/-- C36. The source `while a:` / `    b = 1` / `    c = 2` parses with no error to one While
whose block holds the two assignments, `b` and `c` both in the scope "while block". With an
empty line between the two statements the lexer emits an IndentMarker of level 0 for that
line; the block loop takes it for the end of the block, so the While holds `b = 1` only,
`c = 2` becomes a second statement of the program with `c` in the scope "global", and the
IndentMarker of `c = 2`, which follows the one of the empty line, gets the error
"Incorrect indentation level". -/
theorem blank_line_ends_block :
    (runParser (lexTokens scenarioBlock)).toOption.map (fun r =>
      r.1.children?.map (fun s => (s.getNodeType, s.children?.map
        (fun c => (c.getNodeType, c.children?.map ASTNode.getNodeType))))) =
      some [("While", [("Identifier", []), ("Block", ["Assign", "Assign"])])] ∧
    (runParser (lexTokens scenarioBlock)).toOption.map (fun r =>
      (r.2.errors, r.2.symbolTable.entries.map (fun e => (e.name, e.scope, e.value)))) =
      some ([], [("b", "while block", "1.000000"), ("c", "while block", "2.000000")]) ∧
    (lexTokens scenarioBlockBlank).map (fun t => (t.type, t.value, t.line)) =
      [(.Indent, "0", 1), (.Keyword, "while", 1), (.Identifier, "a", 1), (.Delimiter, ":", 1),
       (.Indent, "1", 2), (.Identifier, "b", 2), (.Operator, "=", 2), (.Number, "1", 2),
       (.Indent, "0", 3), (.Indent, "1", 4), (.Identifier, "c", 4), (.Operator, "=", 4),
       (.Number, "2", 4), (.EOFToken, "EOF", 4)] ∧
    (runParser (lexTokens scenarioBlockBlank)).toOption.map (fun r =>
      r.1.children?.map (fun s => (s.getNodeType, s.children?.map
        (fun c => (c.getNodeType, c.children?.map ASTNode.getNodeType))))) =
      some [("While", [("Identifier", []), ("Block", ["Assign"])]),
            ("Assign", [("Identifier", []), ("Number", [])])] ∧
    (runParser (lexTokens scenarioBlockBlank)).toOption.map (fun r =>
      (r.2.errors, r.2.symbolTable.entries.map (fun e => (e.name, e.scope, e.value)))) =
      some ([{ line := 4, col := 5, message := "Incorrect indentation level" }],
        [("b", "while block", "1.000000"), ("c", "global", "2.000000")]) := by
  refine ⟨by decide!, by decide!, by decide!, by decide!, by decide!⟩

/-- C38. On `def f():` / `    return` / `x = 1` the token after `return` is the IndentMarker
of the third line. `parseReturnStmt` calls `parseExpr` on it, and `parsePrimary` records
"Unexpected token in expression" at that marker (line 3, column 1) and consumes it; the
body loop of `parseFuncDef` then meets the identifier `x` instead of a marker of level 0 and
goes on: the program has the FunctionDef as its only statement, the Assign of `x = 1` is the
second statement of the function body, and `x` is declared in the scope "f (function)". -/
theorem bare_return_eats_marker :
    (lexTokens scenarioReturnThenStmt).map (fun t => (t.type, t.value, t.line, t.column)) =
      [(.Indent, "0", 1, 1), (.Keyword, "def", 1, 1), (.Identifier, "f", 1, 5),
       (.Delimiter, "(", 1, 6), (.Delimiter, ")", 1, 7), (.Delimiter, ":", 1, 8),
       (.Indent, "1", 2, 5), (.Keyword, "return", 2, 5),
       (.Indent, "0", 3, 1), (.Identifier, "x", 3, 1), (.Operator, "=", 3, 3),
       (.Number, "1", 3, 5), (.EOFToken, "EOF", 3, 6)] ∧
    (runParser (lexTokens scenarioReturnThenStmt)).toOption.map (fun r =>
      r.1.children?.map (fun s => (s.getNodeType, s.children?.map
        (fun c => (c.getNodeType, c.children?.map ASTNode.getNodeType))))) =
      some [("FunctionDef", [("Identifier", []), ("Block", ["Return", "Assign"])])] ∧
    (runParser (lexTokens scenarioReturnThenStmt)).toOption.map (fun r => r.2.errors) =
      some [{ line := 3, col := 1, message := "Unexpected token in expression" }] ∧
    (runParser (lexTokens scenarioReturnThenStmt)).toOption.map (fun r =>
      r.2.symbolTable.entries.map (fun e => (e.name, e.scope, e.role, e.dataType))) =
      some [("f", "global", "function", "void"), ("x", "f (function)", "variable", "int")] := by
  refine ⟨by decide!, by decide!, by decide!, by decide!⟩

end Parser

/-- C40. `getString` saves the column of the opening quote in `startCol` but builds its
token with the member `line` as it stands when the string has been read. For the source
`x = """a` / `b"""`, whose string starts at line 1, column 5, the String token carries
line 2 and column 5; the Error token of the unterminated `x = """a` / `b` carries line 2
and column 5 as well. -/
theorem triple_string_end_line :
    (lexTokens scenarioTripleTwoLines).map (fun t => (t.type, t.value, t.line, t.column)) =
      [(.Indent, "0", 1, 1), (.Identifier, "x", 1, 1), (.Operator, "=", 1, 3),
       (.String, "a\nb", 2, 5), (.EOFToken, "EOF", 2, 5)] ∧
    (lexTokens scenarioTripleOpenTwoLines).map (fun t => (t.type, t.value, t.line, t.column)) =
      [(.Indent, "0", 1, 1), (.Identifier, "x", 1, 1), (.Operator, "=", 1, 3),
       (.Error, "Unterminated string", 2, 5), (.EOFToken, "EOF", 2, 2)] := by
  refine ⟨by decide!, by decide!⟩

namespace Parser

/-! ## What the parsing functions leave when they return -/

theorem NoRemTokens.suffix_tokens {s t : List Token} (h : NoRemTokens t) (hs : s <:+ t) :
    NoRemTokens s := fun x hx => h x (hs.subset hx)

theorem NoRemTokens.later_tokens {q p : Parser} (h : NoRemTokens p.stream) (hl : Later q p) :
    NoRemTokens q.stream := h.suffix_tokens hl.1

theorem NoRemTokens.current {p : Parser} (h : NoRemTokens p.stream) :
    ¬ (p.currentToken.type = .Operator ∧ p.currentToken.value = "%") :=
  h _ (List.mem_cons_self _ _)

theorem syncLoop_suffix : ∀ (rest : List Token) (cur c : Token) (r : List Token),
    syncLoop rest cur = .ok (c, r) → (c :: r) <:+ (cur :: rest)
  | [], cur, c, r, h => by
      unfold syncLoop at h
      split_ifs at h
      simp only [Except.ok.injEq, Prod.mk.injEq] at h
      rw [← h.1, ← h.2]
  | t :: rest, cur, c, r, h => by
      unfold syncLoop at h
      split_ifs at h
      · simp only [Except.ok.injEq, Prod.mk.injEq] at h
        rw [← h.1, ← h.2]
      · exact (syncLoop_suffix rest t c r h).trans (List.suffix_cons _ _)

theorem synchronize_later {p q : Parser} (h : p.synchronize = .ok q) : Later q p := by
  unfold synchronize at h
  cases e : syncLoop p.rest p.currentToken with
  | error f => rw [e] at h; exact Except.noConfusion h
  | ok x =>
      obtain ⟨c, r⟩ := x
      rw [e] at h
      simp only [Except.ok.injEq] at h
      rw [← h]
      exact ⟨syncLoop_suffix _ _ _ _ e, rfl, rfl⟩

theorem expect_later {p q : Parser} {ty : TokenType} {m v : String}
    (h : p.expect ty m v = .ok q) : Later q p := by
  unfold expect at h
  by_cases ht : p.isTok ty v = true
  · rw [accept_fst, if_pos ht, accept_snd_pos ht] at h
    simp only [Except.ok.injEq] at h
    rw [← h]; exact Later.advance p
  · rw [accept_fst, if_neg ht] at h
    exact (synchronize_later h).after (Later.errorHere p m)

theorem accept_later (p : Parser) (ty : TokenType) (v : String) : Later (p.accept ty v).2 p := by
  by_cases ht : p.isTok ty v = true
  · rw [accept_snd_pos ht]; exact Later.advance p
  · rw [accept_snd_neg ht]; exact Later.here p

theorem expectIndentLoop_suffix : ∀ (rest : List Token) (cur : Token) (lvl : Int)
    (errs : List ParseError) (c : Token) (r : List Token) (e : List ParseError),
    expectIndentLoop rest cur lvl errs = .ok (c, r, e) → (c :: r) <:+ (cur :: rest)
  | rest, cur, lvl, errs, c, r, e, h => by
      unfold expectIndentLoop at h
      by_cases hc : cur.type = .Indent
      · rw [if_neg (by simpa using hc)] at h
        cases hs : stoi cur.value with
        | none => rw [hs] at h; exact Except.noConfusion h
        | some a =>
            rw [hs] at h
            simp only at h
            cases rest with
            | nil => exact Except.noConfusion h
            | cons t r0 =>
                simp only at h
                by_cases ht : t.type = .Indent
                · rw [if_pos ht] at h
                  exact (expectIndentLoop_suffix r0 t a _ c r e h).trans (List.suffix_cons _ _)
                · rw [if_neg ht] at h
                  simp only [Except.ok.injEq, Prod.mk.injEq] at h
                  rw [← h.1, ← h.2.1]
                  exact List.suffix_cons _ _
      · rw [if_pos (by simpa using hc)] at h
        simp only [Except.ok.injEq, Prod.mk.injEq] at h
        rw [← h.1, ← h.2.1]
termination_by rest => rest.length

theorem expectIndent_later {p q : Parser} {lvl : Int} (h : p.expectIndent lvl = .ok q) :
    Later q p := by
  unfold expectIndent at h
  cases e : expectIndentLoop p.rest p.currentToken lvl p.errors with
  | error f => rw [e] at h; exact Except.noConfusion h
  | ok x =>
      obtain ⟨c, r, es⟩ := x
      rw [e] at h
      simp only [Except.ok.injEq] at h
      rw [← h]
      exact ⟨expectIndentLoop_suffix _ _ _ _ _ _ _ e, rfl, rfl⟩

theorem Kept.fault_res (pre : Prop) (p : Parser) (f : Fault) : Kept pre p (.error f) := by
  intro n q h
  exact Except.noConfusion h

theorem Kept.ok_res {pre : Prop} {p q : Parser} {n : ASTNode} (hl : Later q p)
    (hn : NoRemTokens p.stream → pre → n.noRemainder = true) : Kept pre p (.ok (n, q)) := by
  intro n' q' e
  simp only [Except.ok.injEq, Prod.mk.injEq] at e
  rw [← e.1, ← e.2]
  exact ⟨hl, hn⟩

theorem Kept.null_res {pre : Prop} {p q : Parser} (hl : Later q p) : Kept pre p (.ok (.null, q)) :=
  Kept.ok_res hl (fun _ _ => rfl)

theorem Kept.weaken {pre pre0 : Prop} {p p0 : Parser} {r : Res ASTNode} (h : Kept pre p r)
    (hl : Later p p0) (hp : NoRemTokens p0.stream → pre0 → pre) : Kept pre0 p0 r := by
  intro n q e
  obtain ⟨h1, h2⟩ := h n q e
  exact ⟨h1.after hl, fun hs h0 => h2 (hs.later_tokens hl) (hp hs h0)⟩

theorem noRemainder_binary {op : Token} {l r : ASTNode} (h : op.value ≠ "%")
    (hl : l.noRemainder = true) (hr : r.noRemainder = true) :
    (BinaryOpNode op l r).noRemainder = true := by
  simp [BinaryOpNode, ASTNode.noRemainder, ASTNode.noRemainderAll, h, hl, hr]

theorem noRemainder_unary (op : Token) {o : ASTNode} (ho : o.noRemainder = true) :
    (UnaryOpNode op o).noRemainder = true := by
  simp [UnaryOpNode, ASTNode.noRemainder, ASTNode.noRemainderAll, ho]

theorem noRemainder_call (t : Token) {args : List ASTNode}
    (h : ASTNode.noRemainderAll args = true) :
    (CallNode t (IdentifierNode t) args).noRemainder = true := by
  simp [CallNode, IdentifierNode, ASTNode.noRemainder, ASTNode.noRemainderAll, h]

theorem noRemainder_number {t : Token} {n : ASTNode} (h : NumberNode t = some n) :
    n.noRemainder = true := by
  unfold NumberNode at h
  cases hs : stod t.value with
  | none => rw [hs] at h; exact Option.noConfusion h
  | some v =>
      rw [hs] at h
      simp only [Option.some.injEq] at h
      rw [← h]
      simp [ASTNode.noRemainder, ASTNode.noRemainderAll]

theorem noRemainderAll_append {a b : List ASTNode} (ha : ASTNode.noRemainderAll a = true)
    (hb : ASTNode.noRemainderAll b = true) : ASTNode.noRemainderAll (a ++ b) = true := by
  induction a with
  | nil => exact hb
  | cons c cs ih =>
      simp only [ASTNode.noRemainderAll, Bool.and_eq_true] at ha
      simp only [List.cons_append, ASTNode.noRemainderAll, Bool.and_eq_true]
      exact ⟨ha.1, ih ha.2⟩

theorem noRemainderAll_single {c : ASTNode} (h : c.noRemainder = true) :
    ASTNode.noRemainderAll [c] = true := by
  simp [ASTNode.noRemainderAll, h]

/-- A level of the precedence climb: the operand parser, then the loop. -/
theorem level_kept {f sub : Nat → Parser → Res ASTNode}
    {loop : Nat → ASTNode → Parser → Res ASTNode} {fuel : Nat}
    (hunf : ∀ fuel p, f (fuel + 1) p =
      match sub fuel p with
      | .error e => .error e
      | .ok (node, p1) => if node.isNull then .ok (.null, p1) else loop fuel node p1)
    (hs : ExprKept sub fuel) (hl : LoopKept loop fuel) : ExprKept f (fuel + 1) := by
  intro p
  rw [hunf]
  cases h1 : sub fuel p with
  | error e => exact Kept.fault_res _ _ e
  | ok r =>
      obtain ⟨node, p1⟩ := r
      obtain ⟨l1, n1⟩ := hs p node p1 h1
      simp only
      split_ifs with hn
      · exact Kept.null_res l1
      · exact (hl node p1).weaken l1 (fun hs _ => n1 hs trivial)

theorem level_kept_op {f sub : Nat → Parser → Res ASTNode}
    {loop : Nat → Token → ASTNode → Parser → Res ASTNode} {fuel : Nat}
    (hunf : ∀ fuel p, f (fuel + 1) p =
      match sub fuel p with
      | .error e => .error e
      | .ok (node, p1) => if node.isNull then .ok (.null, p1) else loop fuel p1.currentToken node p1)
    (hs : ExprKept sub fuel) (hl : OpLoopKept loop fuel) : ExprKept f (fuel + 1) := by
  intro p
  rw [hunf]
  cases h1 : sub fuel p with
  | error e => exact Kept.fault_res _ _ e
  | ok r =>
      obtain ⟨node, p1⟩ := r
      obtain ⟨l1, n1⟩ := hs p node p1 h1
      simp only
      split_ifs with hn
      · exact Kept.null_res l1
      · exact (hl p1.currentToken node p1).weaken l1 (fun hs _ => ⟨n1 hs trivial, Or.inl rfl⟩)

theorem loop_kept {loop : Nat → ASTNode → Parser → Res ASTNode}
    (sub : Nat → Parser → Res ASTNode) (test : Parser → Bool) (msg : String) {fuel : Nat}
    (hunf : ∀ fuel node p, loop (fuel + 1) node p =
      if test p then
        match sub fuel p.advance with
        | .error e => .error e
        | .ok (right, p1) =>
            if right.isNull then .ok (.null, p1.errorHere msg)
            else loop fuel (BinaryOpNode p.currentToken node right) p1
      else .ok (node, p))
    (htest : ∀ p, test p = true → NoRemTokens p.stream → p.currentToken.value ≠ "%")
    (hs : ExprKept sub fuel) (ih : LoopKept loop fuel) : LoopKept loop (fuel + 1) := by
  intro node p
  rw [hunf]
  split_ifs with ht
  · cases h1 : sub fuel p.advance with
    | error e => exact Kept.fault_res _ _ e
    | ok r =>
        obtain ⟨right, p1⟩ := r
        obtain ⟨l1, n1⟩ := hs p.advance right p1 h1
        have l2 : Later p1 p := l1.after (Later.advance p)
        simp only
        split_ifs with hn
        · exact Kept.null_res ((Later.errorHere p1 msg).after l2)
        · exact (ih _ p1).weaken l2 (fun hs hnode =>
            noRemainder_binary (htest p ht hs) hnode (n1 (hs.later_tokens (Later.advance p)) trivial))
  · exact Kept.ok_res (Later.here p) (fun _ h => h)

theorem loop_kept_op {loop : Nat → Token → ASTNode → Parser → Res ASTNode}
    (sub : Nat → Parser → Res ASTNode) (kw msg : String) (hkw : kw ≠ "%") (hne : kw.isEmpty = false)
    {fuel : Nat}
    (hunf : ∀ fuel op node p, loop (fuel + 1) op node p =
      if (p.accept .Keyword kw).1 then
        match sub fuel (p.accept .Keyword kw).2 with
        | .error e => .error e
        | .ok (right, p1) =>
            if right.isNull then .ok (node, p1.errorHere msg)
            else loop fuel op (BinaryOpNode op node right) p1
      else .ok (node, p))
    (hs : ExprKept sub fuel) (ih : OpLoopKept loop fuel) : OpLoopKept loop (fuel + 1) := by
  intro op node p
  rw [hunf]
  split_ifs with ht
  · rw [accept_fst] at ht
    have hv : p.currentToken.value = kw := by
      have := ht
      simp only [isTok, hne, decide_eq_true_eq, Bool.false_eq_true, false_or] at this
      simpa using this.2
    cases h1 : sub fuel (p.accept .Keyword kw).2 with
    | error e => exact Kept.fault_res _ _ e
    | ok r =>
        obtain ⟨right, p1⟩ := r
        obtain ⟨l1, n1⟩ := hs _ right p1 h1
        have l2 : Later p1 p := l1.after (accept_later p .Keyword kw)
        simp only
        split_ifs with hn
        · exact Kept.ok_res ((Later.errorHere p1 msg).after l2) (fun _ h => h.1)
        · have hop : (op = p.currentToken ∨ op.value ≠ "%") → op.value ≠ "%" := by
            rintro (h | h)
            · rw [h, hv]; exact hkw
            · exact h
          exact (ih op _ p1).weaken l2 (fun hs hpre =>
            ⟨noRemainder_binary (hop hpre.2) hpre.1
              (n1 (hs.later_tokens (accept_later p .Keyword kw)) trivial), Or.inr (hop hpre.2)⟩)
  · exact Kept.ok_res (Later.here p) (fun _ h => h.1)

theorem parseFuncCall_kept {fuel : Nat} (ha : ArgsKept fuel) :
    ExprKept parseFuncCall (fuel + 1) := by
  intro p
  unfold parseFuncCall
  simp only
  cases h1 : p.expect .Identifier "Expected function name" with
  | error e => exact Kept.fault_res _ _ e
  | ok p1 =>
      have l1 : Later p1 p := expect_later h1
      have l2 : Later (p1.accept .Delimiter "(").2 p := (accept_later _ _ _).after l1
      simp only
      by_cases h2 : (p1.accept .Delimiter "(").1 = true
      · rw [if_neg (by simp [h2])]
        by_cases h3 : ((p1.accept .Delimiter "(").2.accept .Delimiter ")").1 = true
        · rw [if_pos h3]
          exact Kept.ok_res ((accept_later _ _ _).after l2) (fun _ _ => noRemainder_call _ rfl)
        · rw [if_neg h3]
          cases h4 : parseArgs fuel [] (p1.accept .Delimiter "(").2 with
          | error e => exact Kept.fault_res _ _ e
          | ok r =>
              obtain ⟨args, p3⟩ := r
              obtain ⟨l3, n3⟩ := ha [] _ args p3 h4
              simp only
              by_cases h5 : (p3.accept .Delimiter ")").1 = true
              · rw [if_neg (by simp [h5])]
                exact Kept.ok_res (((accept_later _ _ _).after l3).after l2)
                  (fun hs _ => noRemainder_call _ (n3 (hs.later_tokens l2) rfl))
              · rw [if_pos (by simpa using h5)]
                exact Kept.null_res (((Later.errorHere _ _).after l3).after l2)
      · rw [if_pos (by simpa using h2)]
        exact Kept.null_res ((Later.errorHere _ _).after l1)

theorem parsePrimary_kept {fuel : Nat} (he : ExprKept parseExpr fuel)
    (hfc : ExprKept parseFuncCall fuel) : ExprKept parsePrimary (fuel + 1) := by
  intro p
  unfold parsePrimary
  simp only
  split_ifs with h1 h2 h3 h4 h5 h6
  · cases hnum : NumberNode p.currentToken with
    | some nd => exact Kept.ok_res (Later.advance p) (fun _ _ => noRemainder_number hnum)
    | none => exact Kept.null_res ((Later.errorAt _ _ _ _).after (Later.advance p))
  · exact Kept.ok_res (Later.advance p)
      (fun _ _ => by simp [StringNode, ASTNode.noRemainder, ASTNode.noRemainderAll])
  · exact Kept.ok_res (Later.advance p)
      (fun _ _ => by simp [BooleanNode, ASTNode.noRemainder, ASTNode.noRemainderAll])
  · exact hfc p
  · exact Kept.ok_res (Later.advance p)
      (fun _ _ => by simp [IdentifierNode, ASTNode.noRemainder, ASTNode.noRemainderAll])
  · cases h7 : parseExpr fuel (p.accept .Delimiter "(").2 with
    | error e => exact Kept.fault_res _ _ e
    | ok r =>
        obtain ⟨expr, p1⟩ := r
        obtain ⟨l1, n1⟩ := he _ expr p1 h7
        simp only
        cases h8 : p1.expect .Delimiter "Expected ')' after expression" ")" with
        | error e => exact Kept.fault_res _ _ e
        | ok p2 =>
            exact Kept.ok_res (((expect_later h8).after l1).after (accept_later _ _ _))
              (fun hs _ => n1 (hs.later_tokens (accept_later _ _ _)) trivial)
  · exact Kept.null_res ((Later.advance _).after (Later.errorHere _ _))

theorem parseUnary_kept {fuel : Nat} (hu : ExprKept parseUnary fuel)
    (hp : ExprKept parsePrimary fuel) : ExprKept parseUnary (fuel + 1) := by
  intro p
  unfold parseUnary
  simp only
  split_ifs with h
  · cases h1 : parseUnary fuel p.advance with
    | error e => exact Kept.fault_res _ _ e
    | ok r =>
        obtain ⟨right, p1⟩ := r
        obtain ⟨l1, n1⟩ := hu _ right p1 h1
        simp only
        split_ifs with hn
        · exact Kept.null_res (((Later.errorHere _ _).after l1).after (Later.advance p))
        · exact Kept.ok_res (l1.after (Later.advance p))
            (fun hs _ => noRemainder_unary _ (n1 (hs.later_tokens (Later.advance p)) trivial))
  · exact hp p

theorem parseExpr_kept {fuel : Nat} (h : ExprKept parseLogicalOr fuel) :
    ExprKept parseExpr (fuel + 1) := by
  intro p
  unfold parseExpr
  split_ifs
  · exact Kept.null_res (Later.errorHere _ _)
  · exact h p

theorem parseArgs_kept {fuel : Nat} (he : ExprKept parseExpr fuel) (ih : ArgsKept fuel) :
    ArgsKept (fuel + 1) := by
  intro args p r q h
  unfold parseArgs at h
  cases h1 : parseExpr fuel p with
  | error e => rw [h1] at h; exact Except.noConfusion h
  | ok x =>
      obtain ⟨arg, p1⟩ := x
      obtain ⟨l1, n1⟩ := he p arg p1 h1
      rw [h1] at h
      simp only at h
      split_ifs at h with h2 h3
      · simp only [Except.ok.injEq, Prod.mk.injEq] at h
        rw [← h.1, ← h.2]
        exact ⟨(Later.errorHere _ _).after l1, fun _ ha => ha⟩
      · obtain ⟨l2, n2⟩ := ih _ _ r q h
        have l3 : Later (p1.accept .Delimiter ",").2 p := (accept_later _ _ _).after l1
        exact ⟨l2.after l3, fun hs ha => n2 (hs.later_tokens l3)
          (noRemainderAll_append ha (noRemainderAll_single (n1 hs trivial)))⟩
      · simp only [Except.ok.injEq, Prod.mk.injEq] at h
        rw [← h.1, ← h.2]
        exact ⟨l1, fun hs ha => noRemainderAll_append ha (noRemainderAll_single (n1 hs trivial))⟩

theorem isTok_value_ne {p : Parser} {v : String} (hv : v ≠ "%") (hne : v.isEmpty = false)
    (h : p.isTok .Operator v = true) : p.currentToken.value ≠ "%" := by
  simp only [isTok, hne, decide_eq_true_eq, Bool.false_eq_true, false_or] at h
  have := h.2
  simp only [decide_eq_true_eq] at this
  rw [this]; exact hv

theorem expr_keeps : ∀ fuel, ExprKeeps fuel := by
  intro fuel
  induction fuel with
  | zero =>
      refine ⟨?_, ?_, ?_, ?_, ?_, ?_, ?_, ?_, ?_, ?_, ?_, ?_, ?_, ?_, ?_, ?_, ?_⟩
      all_goals first
        | (intro p n q h; simp [parseFuncCall, parsePrimary, parseUnary, parseFactor, parseTerm,
            parseRelational, parseEquality, parseLogicalAnd, parseLogicalOr, parseExpr] at h)
        | (intro node p n q h; simp [factorLoop, termLoop, relationalLoop, equalityLoop] at h)
        | (intro op node p n q h; simp [andLoop, orLoop] at h)
        | (intro args p r q h; simp [parseArgs] at h)
  | succ fuel ih =>
      have hfc := parseFuncCall_kept ih.args
      have hpr := parsePrimary_kept ih.expr ih.funcCall
      have hun := parseUnary_kept ih.unary ih.primary
      have hfl : LoopKept factorLoop (fuel + 1) :=
        loop_kept parseUnary (fun p => p.isTok .Operator "*" || p.isTok .Operator "/" ||
            p.isTok .Operator "%")
          "Expected right-hand expression after operator"
          (fun fuel node p => by rw [factorLoop])
          (fun p ht hs => by
            simp only [Bool.or_eq_true] at ht
            rcases ht with (ht | ht) | ht
            · exact isTok_value_ne (by decide) (by decide) ht
            · exact isTok_value_ne (by decide) (by decide) ht
            · intro hv
              exact hs.current ⟨isTok_type ht, hv⟩)
          ih.unary ih.factorLoop
      have hfa : ExprKept parseFactor (fuel + 1) :=
        level_kept (fun fuel p => by rw [parseFactor]) ih.unary ih.factorLoop
      have htl : LoopKept termLoop (fuel + 1) :=
        loop_kept parseFactor (fun p => p.isTok .Operator "+" || p.isTok .Operator "-")
          "Expected right-hand expression after operator"
          (fun fuel node p => by rw [termLoop])
          (fun p ht hs => by
            simp only [Bool.or_eq_true] at ht
            rcases ht with ht | ht
            · exact isTok_value_ne (by decide) (by decide) ht
            · exact isTok_value_ne (by decide) (by decide) ht)
          ih.factor ih.termLoop
      have hte : ExprKept parseTerm (fuel + 1) :=
        level_kept (fun fuel p => by rw [parseTerm]) ih.factor ih.termLoop
      have hrl : LoopKept relationalLoop (fuel + 1) :=
        loop_kept parseTerm (fun p => p.isTok .Operator "<" || p.isTok .Operator ">" ||
            p.isTok .Operator "<=" || p.isTok .Operator ">=")
          "Expected right-hand expression after comparison"
          (fun fuel node p => by rw [relationalLoop])
          (fun p ht hs => by
            simp only [Bool.or_eq_true] at ht
            rcases ht with ((ht | ht) | ht) | ht
            · exact isTok_value_ne (by decide) (by decide) ht
            · exact isTok_value_ne (by decide) (by decide) ht
            · exact isTok_value_ne (by decide) (by decide) ht
            · exact isTok_value_ne (by decide) (by decide) ht)
          ih.term ih.relationalLoop
      have hre : ExprKept parseRelational (fuel + 1) :=
        level_kept (fun fuel p => by rw [parseRelational]) ih.term ih.relationalLoop
      have hel : LoopKept equalityLoop (fuel + 1) :=
        loop_kept parseRelational (fun p => p.isTok .Operator "==" || p.isTok .Operator "!=")
          "Expected right-hand expression after operator"
          (fun fuel node p => by rw [equalityLoop])
          (fun p ht hs => by
            simp only [Bool.or_eq_true] at ht
            rcases ht with ht | ht
            · exact isTok_value_ne (by decide) (by decide) ht
            · exact isTok_value_ne (by decide) (by decide) ht)
          ih.relational ih.equalityLoop
      have heq : ExprKept parseEquality (fuel + 1) :=
        level_kept (fun fuel p => by rw [parseEquality]) ih.relational ih.equalityLoop
      have hal : OpLoopKept andLoop (fuel + 1) :=
        loop_kept_op parseEquality "and" "Expected right-hand expression after 'and'"
          (by decide) (by decide)
          (fun fuel op node p => by rw [andLoop]) ih.equality ih.andLoop
      have han : ExprKept parseLogicalAnd (fuel + 1) :=
        level_kept_op (fun fuel p => by rw [parseLogicalAnd]) ih.equality ih.andLoop
      have hol : OpLoopKept orLoop (fuel + 1) :=
        loop_kept_op parseLogicalAnd "or" "Expected right-hand expression after 'or'"
          (by decide) (by decide)
          (fun fuel op node p => by rw [orLoop]) ih.logicalAnd ih.orLoop
      have hor : ExprKept parseLogicalOr (fuel + 1) :=
        level_kept_op (fun fuel p => by rw [parseLogicalOr]) ih.logicalAnd ih.orLoop
      exact ⟨hfc, hpr, hun, hfl, hfa, htl, hte, hrl, hre, hel, heq, hal, han, hol, hor,
        parseExpr_kept ih.logicalOr, parseArgs_kept ih.expr ih.args⟩

/-- Whenever `parseExpr` returns, the table and the indent stack are as they were. -/
theorem parseExpr_later {fuel : Nat} {p q : Parser} {n : ASTNode}
    (h : parseExpr fuel p = .ok (n, q)) : Later q p :=
  ((expr_keeps fuel).expr p n q h).1

theorem parseExpr_noRemainder {fuel : Nat} {p q : Parser} {n : ASTNode}
    (h : parseExpr fuel p = .ok (n, q)) (hs : NoRemTokens p.stream) : n.noRemainder = true :=
  ((expr_keeps fuel).expr p n q h).2 hs trivial

theorem Held.null_later {p q : Parser} (hl : Later q p) (ht : TInv p.symbolTable) :
    Held p .null q := ⟨hl.frame ht, fun _ => rfl⟩

theorem TInv.later_table {p q : Parser} (ht : TInv p.symbolTable) (hl : Later q p) :
    TInv q.symbolTable := by rw [hl.2.1]; exact ht

theorem noRemainder_assign (t : Token) {v : ASTNode} (hv : v.noRemainder = true) :
    (AssignNode t (IdentifierNode t) v).noRemainder = true := by
  simp [AssignNode, IdentifierNode, ASTNode.noRemainder, ASTNode.noRemainderAll, hv]

theorem noRemainder_return (t : Token) {v : ASTNode} (hv : v.noRemainder = true) :
    (ReturnNode t v).noRemainder = true := by
  unfold ReturnNode
  split_ifs <;> simp [ASTNode.noRemainder, ASTNode.noRemainderAll, hv]

theorem noRemainder_block (t : Token) {cs : List ASTNode}
    (h : ASTNode.noRemainderAll cs = true) : (BlockNode t cs).noRemainder = true := by
  simp [BlockNode, ASTNode.noRemainder, h]

theorem noRemainder_elif (t : Token) {c b : ASTNode} (hc : c.noRemainder = true)
    (hb : b.noRemainder = true) : (ElifNode t c b).noRemainder = true := by
  simp [ElifNode, ASTNode.noRemainder, ASTNode.noRemainderAll, hc, hb]

theorem noRemainder_if (t : Token) {c b e : ASTNode} {elifs : List ASTNode}
    (hc : c.noRemainder = true) (hb : b.noRemainder = true) (he : e.noRemainder = true)
    (hs : ASTNode.noRemainderAll elifs = true) : (IfNode t c b e elifs).noRemainder = true := by
  have h1 : ASTNode.noRemainderAll (if e.isNull then [] else [e]) = true := by
    split_ifs
    · rfl
    · exact noRemainderAll_single he
  have h2 : ASTNode.noRemainderAll ([c, b] ++ elifs ++ (if e.isNull then [] else [e])) = true :=
    noRemainderAll_append
      (noRemainderAll_append (by simp [ASTNode.noRemainderAll, hc, hb]) hs) h1
  simp only [IfNode, ASTNode.noRemainder]
  rw [h2]
  simp

theorem noRemainder_for (t : Token) {v i b : ASTNode} (hv : v.noRemainder = true)
    (hi : i.noRemainder = true) (hb : b.noRemainder = true) :
    (ForNode t v i b).noRemainder = true := by
  simp [ForNode, ASTNode.noRemainder, ASTNode.noRemainderAll, hv, hi, hb]

theorem noRemainder_while (t : Token) {c b : ASTNode} (hc : c.noRemainder = true)
    (hb : b.noRemainder = true) : (WhileNode t c b).noRemainder = true := by
  simp [WhileNode, ASTNode.noRemainder, ASTNode.noRemainderAll, hc, hb]

theorem noRemainder_funcDef (t : Token) (name : String) (params : List String) {b : ASTNode}
    (hb : b.noRemainder = true) : (FunctionDefNode t name params b).noRemainder = true := by
  simp [FunctionDefNode, IdentifierNode, ASTNode.noRemainder, ASTNode.noRemainderAll, hb]

theorem parseAssignStmt_held {fuel : Nat} {p q : Parser} {n : ASTNode}
    (ht : TInv p.symbolTable) (h : parseAssignStmt fuel p = .ok (n, q)) : Held p n q := by
  unfold parseAssignStmt at h
  simp only at h
  cases e1 : p.expect .Identifier "Expected identifier for assignment" with
  | error f => rw [e1] at h; exact Except.noConfusion h
  | ok p1 =>
      rw [e1] at h
      simp only at h
      have l1 : Later p1 p := expect_later e1
      cases e2 : (if p1.currentToken.type = .Operator ∧ p1.currentToken.value = "=" then
             p1.expect .Operator "Expected '=' in assignment" "="
           else p1.expect .Assignment "Expected '=' in assignment" "=") with
      | error f => rw [e2] at h; exact Except.noConfusion h
      | ok p2 =>
          rw [e2] at h
          simp only at h
          have l2 : Later p2 p1 := by
            split_ifs at e2
            · exact expect_later e2
            · exact expect_later e2
          have l12 := l2.after l1
          cases e3 : parseExpr fuel p2 with
          | error f => rw [e3] at h; exact Except.noConfusion h
          | ok x =>
              obtain ⟨expr, p3⟩ := x
              rw [e3] at h
              simp only at h
              obtain ⟨l3, n3⟩ := (expr_keeps fuel).expr p2 expr p3 e3
              have l123 := l3.after l12
              by_cases hnull : expr.isNull = true
              · rw [if_pos hnull] at h
                simp only [Except.ok.injEq, Prod.mk.injEq] at h
                rw [← h.1, ← h.2]
                exact Held.null_later ((Later.errorHere _ _).after l123) ht
              · rw [if_neg hnull] at h
                cases ev : p3.evaluateExpression expr with
                | error f => rw [ev] at h; exact Except.noConfusion h
                | ok value =>
                    rw [ev] at h
                    simp only [Except.ok.injEq, Prod.mk.injEq] at h
                    rw [← h.1, ← h.2]
                    exact ⟨(Frame.declare (ht.later_table l123) _ _ _ _).comp (l123.frame ht),
                      fun hs => noRemainder_assign _ (n3 (hs.later_tokens l12) trivial)⟩

theorem parseReturnStmt_held {fuel : Nat} {p q : Parser} {n : ASTNode}
    (ht : TInv p.symbolTable) (h : parseReturnStmt fuel p = .ok (n, q)) : Held p n q := by
  unfold parseReturnStmt at h
  simp only at h
  cases e1 : p.expect .Keyword "Expected 'return' keyword" "return" with
  | error f => rw [e1] at h; exact Except.noConfusion h
  | ok p1 =>
      rw [e1] at h
      simp only at h
      have l1 : Later p1 p := expect_later e1
      cases e2 : parseExpr fuel p1 with
      | error f => rw [e2] at h; exact Except.noConfusion h
      | ok x =>
          obtain ⟨expr, p2⟩ := x
          rw [e2] at h
          simp only [Except.ok.injEq, Prod.mk.injEq] at h
          obtain ⟨l2, n2⟩ := (expr_keeps fuel).expr p1 expr p2 e2
          have l12 := l2.after l1
          rw [← h.1, ← h.2]
          exact ⟨(recordReturn_spec (ht.later_table l12) _ _).1.comp (l12.frame ht),
            fun hs => noRemainder_return _ (n2 (hs.later_tokens l1) trivial)⟩

theorem parseFuncCallStmt_held {fuel : Nat} {p q : Parser} {n : ASTNode}
    (ht : TInv p.symbolTable) (h : parseFuncCallStmt fuel p = .ok (n, q)) : Held p n q := by
  unfold parseFuncCallStmt at h
  simp only at h
  cases e1 : p.expect .Identifier "Expected identifier for function call" with
  | error f => rw [e1] at h; exact Except.noConfusion h
  | ok p1 =>
      rw [e1] at h
      simp only at h
      have l1 : Later p1 p := expect_later e1
      cases e2 : p1.expect .Delimiter "Expected '(' in function call" "(" with
      | error f => rw [e2] at h; exact Except.noConfusion h
      | ok p2 =>
          rw [e2] at h
          simp only at h
          have l12 : Later p2 p := (expect_later e2).after l1
          have key : ∀ (args : List ASTNode) (p5 : Parser),
              (if (p2.accept .Delimiter ")").1 then
                 (.ok ([], (p2.accept .Delimiter ")").2) : Res (List ASTNode))
               else
                 match parseArgs fuel [] p2 with
                 | .error f => .error f
                 | .ok (args, p3) =>
                     match p3.expect .Delimiter "Expected ')' after arguments" ")" with
                     | .error f => .error f
                     | .ok p4 => .ok (args, p4)) = .ok (args, p5) →
              Later p5 p2 ∧ (NoRemTokens p2.stream → ASTNode.noRemainderAll args = true) := by
            intro args p5 hr
            split_ifs at hr
            · simp only [Except.ok.injEq, Prod.mk.injEq] at hr
              rw [← hr.1, ← hr.2]
              exact ⟨accept_later _ _ _, fun _ => rfl⟩
            · cases e3 : parseArgs fuel [] p2 with
              | error f => rw [e3] at hr; exact Except.noConfusion hr
              | ok x =>
                  obtain ⟨args3, p3⟩ := x
                  rw [e3] at hr
                  simp only at hr
                  obtain ⟨l3, n3⟩ := (expr_keeps fuel).args [] p2 args3 p3 e3
                  cases e4 : p3.expect .Delimiter "Expected ')' after arguments" ")" with
                  | error f => rw [e4] at hr; exact Except.noConfusion hr
                  | ok p4 =>
                      rw [e4] at hr
                      simp only [Except.ok.injEq, Prod.mk.injEq] at hr
                      rw [← hr.1, ← hr.2]
                      exact ⟨(expect_later e4).after l3, fun hs => n3 hs rfl⟩
          split at h
          · exact Except.noConfusion h
          · rename_i args p5 heq
            obtain ⟨l5, n5⟩ := key args p5 heq
            have l125 := l5.after l12
            simp only [Except.ok.injEq, Prod.mk.injEq] at h
            rw [← h.1, ← h.2]
            refine ⟨?_, fun hs => noRemainder_call _ (n5 (hs.later_tokens l12))⟩
            split_ifs
            · exact l125.frame ht
            · exact (Frame.declare (ht.later_table l125) _ _ _ _).comp (l125.frame ht)

theorem paramLoop_held : ∀ (fuel : Nat) (names : List String) (p : Parser)
    (r : List String) (q : Parser), TInv p.symbolTable →
    paramLoop fuel names p = .ok (r, q) → Frame q p
  | 0, _, _, _, _, _, h => by
      unfold paramLoop at h
      exact Except.noConfusion h
  | fuel + 1, names, p, r, q, ht, h => by
      unfold paramLoop at h
      by_cases hc : (p.accept .Delimiter ",").1 = true
      · rw [if_pos hc] at h
        simp only at h
        have l1 : Later (p.accept .Delimiter ",").2 p := accept_later _ _ _
        have f1 := l1.frame ht
        by_cases hI : (p.accept .Delimiter ",").2.currentToken.type ≠ .Identifier
        · rw [if_pos hI] at h
          simp only [Except.ok.injEq, Prod.mk.injEq] at h
          rw [← h.2]
          exact ((Later.errorHere _ _).after l1).frame ht
        · rw [if_neg hI] at h
          have f2 := Frame.declare f1.2.2.1 (p.accept .Delimiter ",").2.currentToken.value
            "unknown" "parameter" "unknown"
          have f3 : Frame ((p.accept .Delimiter ",").2.withTable
              ((p.accept .Delimiter ",").2.symbolTable.declare
                (p.accept .Delimiter ",").2.currentToken.value "unknown" "parameter")).advance
              ((p.accept .Delimiter ",").2) := by
            refine ⟨(advance_follows _).trans f2.1, ?_, ?_, ?_⟩
            · simpa using f2.2.1
            · simpa using f2.2.2.1
            · simp
          exact ((paramLoop_held fuel _ _ r q f3.2.2.1 h).comp f3).comp f1
      · rw [if_neg hc] at h
        simp only [Except.ok.injEq, Prod.mk.injEq] at h
        rw [← h.2]
        exact Frame.still ht

theorem parseStmt_held {fuel : Nat} (hif : StmtHeld parseIfStmt fuel)
    (hwh : StmtHeld parseWhileStmt fuel) (hdf : StmtHeld parseFuncDef fuel)
    (hfo : StmtHeld parseForStmt fuel) : StmtHeld parseStmt (fuel + 1) := by
  intro p n q ht h
  have done : ∀ {p1 : Parser}, Later p1 p → (.ok (.null, p1) : Res ASTNode) = .ok (n, q) →
      Held p n q := by
    intro p1 l1 e
    simp only [Except.ok.injEq, Prod.mk.injEq] at e
    rw [← e.1, ← e.2]
    exact Held.null_later l1 ht
  unfold parseStmt at h
  by_cases h1 : p.currentToken.type = .EOFToken
  · rw [if_pos h1] at h
    exact done (Later.here p) h
  rw [if_neg h1] at h
  by_cases h2 : p.currentToken.type = .Identifier ∧ ¬ p.isValidStatementStart
  · rw [if_pos h2] at h
    exact done ((Later.advance _).after (Later.errorHere _ _)) h
  rw [if_neg h2] at h
  split at h
  · split_ifs at h
    · exact hif p n q ht h
    · exact hwh p n q ht h
    · exact hdf p n q ht h
    · exact parseReturnStmt_held ht h
    · exact hfo p n q ht h
    · exact done (Later.here p) h
    · cases es : (p.errorHere
          ("Unexpected token at start of statement: " ++ p.currentToken.value)).synchronize with
      | error f => rw [es] at h; exact Except.noConfusion h
      | ok p1 =>
          rw [es] at h
          exact done ((synchronize_later es).after (Later.errorHere _ _)) h
    · exact done ((Later.advance _).after (Later.errorHere _ _)) h
  · split_ifs at h
    · exact parseFuncCallStmt_held ht h
    · exact parseAssignStmt_held ht h
  · exact done ((Later.advance _).after (Later.errorHere _ _)) h

theorem NoRemTokens.of_frame {q p : Parser} (h : NoRemTokens p.stream) (hf : Frame q p) :
    NoRemTokens q.stream := h.suffix_tokens hf.1

theorem blockLoop_held {fuel : Nat} (hs : StmtHeld parseStmt fuel) (ih : BlockLoopHeld fuel) :
    BlockLoopHeld (fuel + 1) := by
  intro b lvl cs p r q ht h
  unfold blockLoop at h
  by_cases h1 : p.currentToken.type = .EOFToken
  · rw [if_pos h1] at h
    simp only [Except.ok.injEq, Prod.mk.injEq] at h
    rw [← h.1, ← h.2]
    exact ⟨Frame.still ht, fun _ hc => hc⟩
  rw [if_neg h1] at h
  by_cases h2 : p.currentToken.type = .Indent
  · rw [if_pos h2] at h
    cases e1 : stoi p.currentToken.value with
    | none => rw [e1] at h; exact Except.noConfusion h
    | some level =>
        rw [e1] at h
        simp only at h
        by_cases h3 : level ≥ lvl
        · rw [if_pos h3] at h
          cases e2 : p.expectIndent lvl with
          | error f => rw [e2] at h; exact Except.noConfusion h
          | ok p1 =>
              rw [e2] at h
              simp only at h
              have l1 : Later p1 p := expectIndent_later e2
              obtain ⟨f2, n2⟩ := ih b lvl cs p1 r q (ht.later_table l1) h
              exact ⟨f2.comp (l1.frame ht), fun hs hc => n2 (hs.later_tokens l1) hc⟩
        · rw [if_neg h3] at h
          simp only [Except.ok.injEq, Prod.mk.injEq] at h
          rw [← h.1, ← h.2]
          exact ⟨Frame.still ht, fun _ hc => hc⟩
  rw [if_neg h2] at h
  cases e1 : parseStmt fuel p with
  | error f => rw [e1] at h; exact Except.noConfusion h
  | ok x =>
      obtain ⟨stmt, p1⟩ := x
      rw [e1] at h
      simp only at h
      obtain ⟨f1, n1⟩ := hs p stmt p1 ht e1
      by_cases h3 : ¬ stmt.isNull = true
      · rw [if_pos h3] at h
        obtain ⟨f2, n2⟩ := ih b lvl _ p1 r q f1.2.2.1 h
        exact ⟨f2.comp f1, fun hs hc => n2 (hs.of_frame f1)
          (noRemainderAll_append hc (noRemainderAll_single (n1 hs)))⟩
      · rw [if_neg h3] at h
        by_cases h4 : b = true
        · rw [if_pos h4] at h
          simp only [Except.ok.injEq, Prod.mk.injEq] at h
          rw [← h.1, ← h.2]
          exact ⟨f1, fun _ hc => hc⟩
        · rw [if_neg h4] at h
          obtain ⟨f2, n2⟩ := ih b lvl _ p1 r q f1.2.2.1 h
          exact ⟨f2.comp f1, fun hs hc => n2 (hs.of_frame f1) hc⟩

theorem popIndent_tail {p q : Parser} (h : p.popIndent = .ok q) :
    q.stream = p.stream ∧ q.symbolTable = p.symbolTable ∧ q.indentStack = p.indentStack.tail := by
  unfold popIndent at h
  cases hs : p.indentStack with
  | nil => rw [hs] at h; exact Except.noConfusion h
  | cons a s =>
      rw [hs] at h
      simp only [Except.ok.injEq] at h
      rw [← h]
      exact ⟨rfl, rfl, rfl⟩

theorem parseBlockBody_held {fuel : Nat} (hl : BlockLoopHeld fuel) :
    BlockBodyHeld (fuel + 1) := by
  intro b lvl p n q ht h2 h
  unfold parseBlockBody at h
  simp only at h
  cases e1 : blockLoop fuel b lvl [] p with
  | error f => rw [e1] at h; exact Except.noConfusion h
  | ok x =>
      obtain ⟨children, p1⟩ := x
      rw [e1] at h
      simp only at h
      obtain ⟨f1, n1⟩ := hl b lvl [] p children p1 ht e1
      cases e2 : (p1.withTable p1.symbolTable.endScope).popIndent with
      | error f => rw [e2] at h; exact Except.noConfusion h
      | ok p2 =>
          rw [e2] at h
          simp only [Except.ok.injEq, Prod.mk.injEq] at h
          obtain ⟨s2, t2, i2⟩ := popIndent_tail e2
          have hes := endScope_spec f1.2.2.1 (by rw [f1.2.1]; exact h2)
          rw [← h.1, ← h.2]
          refine ⟨?_, ?_, ?_, ?_, fun hs => noRemainder_block _ (n1 hs rfl)⟩
          · exact (Follows.of_stream (s2.trans (withTable_stream _ _))).trans f1.1
          · rw [t2, withTable_symbolTable, hes.1, f1.2.1]
          · rw [t2, withTable_symbolTable]; exact hes.2
          · rw [i2, withTable_indentStack, f1.2.2.2]

theorem TInv.names_ne_nil {t : ParserSymbolTable} (h : TInv t) : t.scopeNames ≠ [] := by
  intro e
  have h1 := h.1
  rw [e] at h1
  exact h.2 (List.length_eq_zero.mp h1)

/-- A block opened the usual way: the level pushed, the IndentMarker read, the scope begun,
then the body, which pops both. -/
theorem openBlock_held {fuel : Nat} (hb : BlockBodyHeld fuel) {b : Bool} {lvl : Int}
    {name : String} {p p4 q : Parser} {node : ASTNode} (ht : TInv p.symbolTable)
    (e4 : (p.pushIndent lvl).expectIndent lvl = .ok p4)
    (e : parseBlockBody fuel b lvl (p4.withTable (p4.symbolTable.beginScope name)) =
      .ok (node, q)) : Held p node q := by
  have l4 : Later p4 (p.pushIndent lvl) := expectIndent_later e4
  have ht4 : TInv p4.symbolTable := by rw [l4.2.1]; exact ht
  have hne := ht4.names_ne_nil
  obtain ⟨fo, hsn, htq, hst, hn⟩ := hb b lvl (p4.withTable (p4.symbolTable.beginScope name))
    node q (ht4.beginScope name)
    (by
      simp only [withTable_symbolTable, ParserSymbolTable.beginScope, List.length_cons]
      have := List.length_pos.mpr hne
      omega) e
  have fo4 : Follows (p4.withTable (p4.symbolTable.beginScope name)) p :=
    (Follows.of_stream rfl).trans (l4.1.trans (Follows.of_stream rfl))
  refine ⟨⟨fo.trans fo4, ?_, htq, ?_⟩, fun hs => hn (hs.suffix_tokens fo4)⟩
  · rw [hsn]
    simp only [withTable_symbolTable, ParserSymbolTable.beginScope, List.tail_cons]
    rw [l4.2.1]
    rfl
  · rw [hst]
    simp only [withTable_indentStack]
    rw [l4.2.2]
    rfl

theorem elifLoop_held {fuel : Nat} (hb : BlockBodyHeld fuel) (ih : ElifLoopHeld fuel) :
    ElifLoopHeld (fuel + 1) := by
  intro lvl cs p r q ht h
  unfold elifLoop at h
  have key : ∀ (o : Option Parser),
      (if p.currentToken.type = .Indent then
         match stoi p.currentToken.value with
         | none => (.error .exception : Except Fault (Option Parser))
         | some currentIndent => if currentIndent ≠ lvl then .ok none else .ok (some p.advance)
       else .ok (some p)) = .ok o → ∀ p0, o = some p0 → Later p0 p := by
    intro o ho p0 e
    split_ifs at ho
    · cases hs : stoi p.currentToken.value with
      | none => rw [hs] at ho; exact Except.noConfusion ho
      | some a =>
          rw [hs] at ho
          simp only at ho
          split_ifs at ho
          · simp only [Except.ok.injEq] at ho
            rw [← ho] at e
            exact Option.noConfusion e
          · simp only [Except.ok.injEq] at ho
            rw [← ho] at e
            simp only [Option.some.injEq] at e
            rw [← e]; exact Later.advance p
    · simp only [Except.ok.injEq] at ho
      rw [← ho] at e
      simp only [Option.some.injEq] at e
      rw [← e]; exact Later.here p
  split at h
  · exact Except.noConfusion h
  · simp only [Except.ok.injEq, Prod.mk.injEq] at h
    rw [← h.1, ← h.2]
    exact ⟨Frame.still ht, fun _ hc => hc⟩
  · rename_i p0 heq
    have l0 : Later p0 p := key _ heq p0 rfl
    by_cases hk : p0.currentToken.type ≠ .Keyword ∨ p0.currentToken.value ≠ "elif"
    · rw [if_pos hk] at h
      simp only [Except.ok.injEq, Prod.mk.injEq] at h
      rw [← h.1, ← h.2]
      exact ⟨l0.frame ht, fun _ hc => hc⟩
    · rw [if_neg hk] at h
      simp only at h
      cases e1 : p0.expect .Keyword "Expected 'elif' keyword" "elif" with
      | error f => rw [e1] at h; exact Except.noConfusion h
      | ok p1 =>
          rw [e1] at h
          simp only at h
          cases e2 : parseExpr fuel p1 with
          | error f => rw [e2] at h; exact Except.noConfusion h
          | ok x =>
              obtain ⟨cond, p2⟩ := x
              rw [e2] at h
              simp only at h
              obtain ⟨l2, n2⟩ := (expr_keeps fuel).expr p1 cond p2 e2
              cases e3 : p2.expect .Delimiter "Expected ':' after elif condition" ":" with
              | error f => rw [e3] at h; exact Except.noConfusion h
              | ok p3 =>
                  rw [e3] at h
                  simp only at h
                  have l1 : Later p1 p := (expect_later e1).after l0
                  have l3 : Later p3 p := ((expect_later e3).after l2).after l1
                  cases e4 : (p3.pushIndent (lvl + 1)).expectIndent (lvl + 1) with
                  | error f => rw [e4] at h; exact Except.noConfusion h
                  | ok p4 =>
                      rw [e4] at h
                      simp only at h
                      cases e5 : parseBlockBody fuel false (lvl + 1)
                          (p4.withTable (p4.symbolTable.beginScope "elif block")) with
                      | error f => rw [e5] at h; exact Except.noConfusion h
                      | ok y =>
                          obtain ⟨blk, p5⟩ := y
                          rw [e5] at h
                          simp only at h
                          obtain ⟨f5, n5⟩ := openBlock_held hb (ht.later_table l3) e4 e5
                          obtain ⟨f6, n6⟩ := ih lvl _ p5 r q f5.2.2.1 h
                          have f50 : Frame p5 p := f5.comp (l3.frame ht)
                          exact ⟨f6.comp f50, fun hs hc => n6 (hs.of_frame f50)
                            (noRemainderAll_append hc (noRemainderAll_single
                              (noRemainder_elif _ (n2 (hs.later_tokens l1) trivial)
                                (n5 (hs.later_tokens l3)))))⟩

theorem parseElseStmt_held {fuel : Nat} (hb : BlockBodyHeld fuel) :
    StmtHeld parseElseStmt (fuel + 1) := by
  intro p n q ht h
  unfold parseElseStmt at h
  cases e1 : p.expect .Keyword "Expected 'else' keyword" "else" with
  | error f => rw [e1] at h; exact Except.noConfusion h
  | ok p1 =>
      rw [e1] at h
      simp only at h
      cases e2 : p1.expect .Delimiter "Expected ':' after else" ":" with
      | error f => rw [e2] at h; exact Except.noConfusion h
      | ok p2 =>
          rw [e2] at h
          simp only at h
          have l2 : Later p2 p := (expect_later e2).after (expect_later e1)
          cases e3 : (p2.pushIndent (p2.currentIndent + 1)).expectIndent (p2.currentIndent + 1) with
          | error f => rw [e3] at h; exact Except.noConfusion h
          | ok p3 =>
              rw [e3] at h
              simp only at h
              obtain ⟨f4, n4⟩ := openBlock_held hb (ht.later_table l2) e3 h
              exact ⟨f4.comp (l2.frame ht), fun hs => n4 (hs.later_tokens l2)⟩

theorem parseWhileStmt_held {fuel : Nat} (hb : BlockBodyHeld fuel) :
    StmtHeld parseWhileStmt (fuel + 1) := by
  intro p n q ht h
  unfold parseWhileStmt at h
  simp only at h
  cases e1 : p.expect .Keyword "Expected 'while' keyword" "while" with
  | error f => rw [e1] at h; exact Except.noConfusion h
  | ok p1 =>
      rw [e1] at h
      simp only at h
      have l1 : Later p1 p := expect_later e1
      cases e2 : parseExpr fuel p1 with
      | error f => rw [e2] at h; exact Except.noConfusion h
      | ok x =>
          obtain ⟨cond, p2⟩ := x
          rw [e2] at h
          simp only at h
          obtain ⟨l2, n2⟩ := (expr_keeps fuel).expr p1 cond p2 e2
          cases e3 : p2.expect .Delimiter "Expected ':' after while condition" ":" with
          | error f => rw [e3] at h; exact Except.noConfusion h
          | ok p3 =>
              rw [e3] at h
              simp only at h
              have l3 : Later p3 p := ((expect_later e3).after l2).after l1
              cases e4 : (p3.pushIndent (p3.currentIndent + 1)).expectIndent
                  (p3.currentIndent + 1) with
              | error f => rw [e4] at h; exact Except.noConfusion h
              | ok p4 =>
                  rw [e4] at h
                  simp only at h
                  cases e5 : parseBlockBody fuel false (p3.currentIndent + 1)
                      (p4.withTable (p4.symbolTable.beginScope "while block")) with
                  | error f => rw [e5] at h; exact Except.noConfusion h
                  | ok y =>
                      obtain ⟨body, p5⟩ := y
                      rw [e5] at h
                      simp only [Except.ok.injEq, Prod.mk.injEq] at h
                      obtain ⟨f5, n5⟩ := openBlock_held hb (ht.later_table l3) e4 e5
                      rw [← h.1, ← h.2]
                      exact ⟨f5.comp (l3.frame ht), fun hs =>
                        noRemainder_while _ (n2 (hs.later_tokens l1) trivial) (n5 (hs.later_tokens l3))⟩

theorem parseForStmt_held {fuel : Nat} (hb : BlockBodyHeld fuel) :
    StmtHeld parseForStmt (fuel + 1) := by
  intro p n q ht h
  unfold parseForStmt at h
  simp only at h
  cases e1 : p.expect .Keyword "Expected 'for' keyword" "for" with
  | error f => rw [e1] at h; exact Except.noConfusion h
  | ok p1 =>
      rw [e1] at h
      simp only at h
      have l1 : Later p1 p := expect_later e1
      cases e2 : parsePrimary fuel p1 with
      | error f => rw [e2] at h; exact Except.noConfusion h
      | ok x =>
          obtain ⟨var, p2⟩ := x
          rw [e2] at h
          simp only at h
          obtain ⟨l2, n2⟩ := (expr_keeps fuel).primary p1 var p2 e2
          have l12 := l2.after l1
          by_cases hv : var.getNodeType ≠ "Identifier"
          · rw [if_pos hv] at h
            simp only [Except.ok.injEq, Prod.mk.injEq] at h
            rw [← h.1, ← h.2]
            exact Held.null_later ((Later.errorHere _ _).after l12) ht
          · rw [if_neg hv] at h
            cases e3 : p2.expect .Keyword "Expected 'in' after loop variable" "in" with
            | error f => rw [e3] at h; exact Except.noConfusion h
            | ok p3 =>
                rw [e3] at h
                simp only at h
                have l3 : Later p3 p := (expect_later e3).after l12
                cases e4 : parseExpr fuel p3 with
                | error f => rw [e4] at h; exact Except.noConfusion h
                | ok y =>
                    obtain ⟨iter, p4⟩ := y
                    rw [e4] at h
                    simp only at h
                    obtain ⟨l4, n4⟩ := (expr_keeps fuel).expr p3 iter p4 e4
                    have l34 := l4.after l3
                    by_cases hi : iter.isNull = true
                    · rw [if_pos hi] at h
                      simp only [Except.ok.injEq, Prod.mk.injEq] at h
                      rw [← h.1, ← h.2]
                      exact Held.null_later ((Later.errorHere _ _).after l34) ht
                    · rw [if_neg hi] at h
                      cases e5 : p4.expect .Delimiter "Expected ':' after for loop header" ":" with
                      | error f => rw [e5] at h; exact Except.noConfusion h
                      | ok p5 =>
                          rw [e5] at h
                          simp only at h
                          have l5 : Later p5 p := (expect_later e5).after l34
                          cases e6 : (p5.pushIndent (p5.currentIndent + 1)).expectIndent
                              (p5.currentIndent + 1) with
                          | error f => rw [e6] at h; exact Except.noConfusion h
                          | ok p6 =>
                              rw [e6] at h
                              simp only at h
                              cases e7 : parseBlockBody fuel false (p5.currentIndent + 1)
                                  (p6.withTable (p6.symbolTable.beginScope "for loop")) with
                              | error f => rw [e7] at h; exact Except.noConfusion h
                              | ok z =>
                                  obtain ⟨body, p7⟩ := z
                                  rw [e7] at h
                                  simp only [Except.ok.injEq, Prod.mk.injEq] at h
                                  obtain ⟨f7, n7⟩ := openBlock_held hb (ht.later_table l5) e6 e7
                                  rw [← h.1, ← h.2]
                                  exact ⟨f7.comp (l5.frame ht), fun hs =>
                                    noRemainder_for _ (n2 (hs.later_tokens l1) trivial)
                                      (n4 (hs.later_tokens l3) trivial) (n7 (hs.later_tokens l5))⟩

theorem parseIfStmt_held {fuel : Nat} (hb : BlockBodyHeld fuel) (hel : ElifLoopHeld fuel)
    (hes : StmtHeld parseElseStmt fuel) : StmtHeld parseIfStmt (fuel + 1) := by
  intro p n q ht h
  unfold parseIfStmt at h
  simp only at h
  cases e1 : p.expect .Keyword "Expected 'if' keyword" "if" with
  | error f => rw [e1] at h; exact Except.noConfusion h
  | ok p1 =>
      rw [e1] at h
      simp only at h
      have l1 : Later p1 p := expect_later e1
      cases e2 : parseExpr fuel p1 with
      | error f => rw [e2] at h; exact Except.noConfusion h
      | ok x =>
          obtain ⟨cond, p2⟩ := x
          rw [e2] at h
          simp only at h
          obtain ⟨l2, n2⟩ := (expr_keeps fuel).expr p1 cond p2 e2
          cases e3 : p2.expect .Delimiter "Expected ':' after if condition" ":" with
          | error f => rw [e3] at h; exact Except.noConfusion h
          | ok p3 =>
              rw [e3] at h
              simp only at h
              have l3 : Later p3 p := ((expect_later e3).after l2).after l1
              cases e4 : (p3.pushIndent (p3.currentIndent + 1)).expectIndent
                  (p3.currentIndent + 1) with
              | error f => rw [e4] at h; exact Except.noConfusion h
              | ok p4 =>
                  rw [e4] at h
                  simp only at h
                  cases e5 : parseBlockBody fuel true (p3.currentIndent + 1)
                      (p4.withTable (p4.symbolTable.beginScope "if block")) with
                  | error f => rw [e5] at h; exact Except.noConfusion h
                  | ok y =>
                      obtain ⟨thenBlock, p5⟩ := y
                      rw [e5] at h
                      simp only at h
                      obtain ⟨f5, n5⟩ := openBlock_held hb (ht.later_table l3) e4 e5
                      have f50 : Frame p5 p := f5.comp (l3.frame ht)
                      cases e6 : elifLoop fuel p3.currentIndent [] p5 with
                      | error f => rw [e6] at h; exact Except.noConfusion h
                      | ok z =>
                          obtain ⟨elifs, p6⟩ := z
                          rw [e6] at h
                          simp only at h
                          obtain ⟨f6, n6⟩ := hel _ [] p5 elifs p6 f5.2.2.1 e6
                          have f60 : Frame p6 p := f6.comp f50
                          have key : ∀ (e : ASTNode) (p7 : Parser),
                              (if p6.currentToken.type = .Indent then
                                 match stoi p6.currentToken.value with
                                 | none => (.error .exception : Res ASTNode)
                                 | some currentIndent =>
                                     if currentIndent = p3.currentIndent then
                                       if p6.advance.currentToken.type = .Keyword ∧
                                          p6.advance.currentToken.value = "else" then
                                         parseElseStmt fuel p6.advance
                                       else .ok (.null, p6.advance)
                                     else .ok (.null, p6)
                               else if p6.currentToken.type = .Keyword ∧
                                   p6.currentToken.value = "else" then
                                 parseElseStmt fuel p6
                               else .ok (.null, p6)) = .ok (e, p7) → Held p6 e p7 := by
                            intro e p7 hr
                            have la : Later p6.advance p6 := Later.advance p6
                            by_cases c1 : p6.currentToken.type = .Indent
                            · rw [if_pos c1] at hr
                              cases hs : stoi p6.currentToken.value with
                              | none => rw [hs] at hr; exact Except.noConfusion hr
                              | some a =>
                                  rw [hs] at hr
                                  simp only at hr
                                  by_cases c2 : a = p3.currentIndent
                                  · rw [if_pos c2] at hr
                                    by_cases c3 : p6.advance.currentToken.type = .Keyword ∧
                                        p6.advance.currentToken.value = "else"
                                    · rw [if_pos c3] at hr
                                      obtain ⟨f7, n7⟩ := hes p6.advance e p7
                                        (f60.2.2.1.later_table la) hr
                                      exact ⟨f7.comp (la.frame f60.2.2.1),
                                        fun hs => n7 (hs.later_tokens la)⟩
                                    · rw [if_neg c3] at hr
                                      simp only [Except.ok.injEq, Prod.mk.injEq] at hr
                                      rw [← hr.1, ← hr.2]
                                      exact Held.null_later la f60.2.2.1
                                  · rw [if_neg c2] at hr
                                    simp only [Except.ok.injEq, Prod.mk.injEq] at hr
                                    rw [← hr.1, ← hr.2]
                                    exact Held.null_later (Later.here _) f60.2.2.1
                            · rw [if_neg c1] at hr
                              by_cases c3 : p6.currentToken.type = .Keyword ∧
                                  p6.currentToken.value = "else"
                              · rw [if_pos c3] at hr
                                exact hes p6 e p7 f60.2.2.1 hr
                              · rw [if_neg c3] at hr
                                simp only [Except.ok.injEq, Prod.mk.injEq] at hr
                                rw [← hr.1, ← hr.2]
                                exact Held.null_later (Later.here _) f60.2.2.1
                          split at h
                          · exact Except.noConfusion h
                          · rename_i e p7 heq
                            obtain ⟨f7, n7⟩ := key e p7 heq
                            simp only [Except.ok.injEq, Prod.mk.injEq] at h
                            rw [← h.1, ← h.2]
                            exact ⟨f7.comp f60, fun hs =>
                              noRemainder_if _ (n2 (hs.later_tokens l1) trivial) (n5 (hs.later_tokens l3))
                                (n7 (hs.of_frame f60)) (n6 (hs.of_frame f50) rfl)⟩

theorem parseFuncDef_held {fuel : Nat} (hb : BlockBodyHeld fuel) :
    StmtHeld parseFuncDef (fuel + 1) := by
  intro p n q ht h
  unfold parseFuncDef at h
  simp only at h
  cases e1 : p.expect .Keyword "Expected 'def' keyword" "def" with
  | error f => rw [e1] at h; exact Except.noConfusion h
  | ok p1 =>
      rw [e1] at h
      simp only at h
      have l1 : Later p1 p := expect_later e1
      cases e2 : p1.expect .Identifier "Expected function name after 'def'" with
      | error f => rw [e2] at h; exact Except.noConfusion h
      | ok p2 =>
          rw [e2] at h
          simp only at h
          have l20 : Later p2 p := (expect_later e2).after l1
          have ht2 : TInv p2.symbolTable := ht.later_table l20
          have hne := ht.names_ne_nil
          obtain ⟨p3, hp3, hs3, ht3, hst3, hr3⟩ : ∃ p3 : Parser,
              p3 = p2.withTable ((p2.symbolTable.declare p1.currentToken.value "function" "function"
                "unknown").beginScope (p1.currentToken.value ++ " (function)")) ∧
              p3.symbolTable.scopeNames =
                (p1.currentToken.value ++ " (function)") :: p.symbolTable.scopeNames ∧
              TInv p3.symbolTable ∧ p3.indentStack = p.indentStack ∧ p3.stream = p2.stream := by
            refine ⟨_, rfl, ?_, ?_, ?_, rfl⟩
            · simp only [withTable_symbolTable, ParserSymbolTable.beginScope]
              rw [(declare_scopeNames ht2 _ _ _ _).1, l20.2.1]
            · exact (declare_scopeNames ht2 _ _ _ _).2.beginScope _
            · simp only [withTable_indentStack]
              exact l20.2.2
          rw [← hp3] at h
          have fo3 : Follows p3 p := (Follows.of_stream hr3).trans l20.1
          cases e4 : p3.expect .Delimiter "Expected '(' after function name" "(" with
          | error f => rw [e4] at h; exact Except.noConfusion h
          | ok p4 =>
              rw [e4] at h
              simp only at h
              have l4 : Later p4 p3 := expect_later e4
              have ht4 : TInv p4.symbolTable := ht3.later_table l4
              have key : ∀ (names : List String) (p5 : Parser),
                  (if p4.currentToken.type = .Identifier then
                     paramLoop fuel [p4.currentToken.value]
                       (p4.withTable (p4.symbolTable.declare p4.currentToken.value "unknown"
                         "parameter")).advance
                   else .ok ([], p4)) = .ok (names, p5) → Frame p5 p4 := by
                intro names p5 hr
                by_cases hI : p4.currentToken.type = .Identifier
                · rw [if_pos hI] at hr
                  have f1 : Frame (p4.withTable (p4.symbolTable.declare p4.currentToken.value
                      "unknown" "parameter")) p4 := Frame.declare ht4 _ _ _ _
                  have f2 : Frame (p4.withTable (p4.symbolTable.declare p4.currentToken.value
                      "unknown" "parameter")).advance p4 := by
                    refine ⟨(advance_follows _).trans f1.1, ?_, ?_, ?_⟩
                    · simpa using f1.2.1
                    · simpa using f1.2.2.1
                    · simp
                  exact (paramLoop_held fuel _ _ names p5 f2.2.2.1 hr).comp f2
                · rw [if_neg hI] at hr
                  simp only [Except.ok.injEq, Prod.mk.injEq] at hr
                  rw [← hr.2]
                  exact Frame.still ht4
              split at h
              · exact Except.noConfusion h
              · rename_i names p5 heq
                have f5 := key names p5 heq
                cases e6 : p5.expect .Delimiter "Expected ')' after parameter list" ")" with
                | error f => rw [e6] at h; exact Except.noConfusion h
                | ok p6 =>
                    rw [e6] at h
                    simp only at h
                    cases e7 : p6.expect .Delimiter "Expected ':' after function definition" ":" with
                    | error f => rw [e7] at h; exact Except.noConfusion h
                    | ok p7 =>
                        rw [e7] at h
                        simp only at h
                        have f73 : Frame p7 p3 :=
                          (((expect_later e7).after (expect_later e6)).frame f5.2.2.1).comp
                            (f5.comp (l4.frame ht3))
                        cases e8 : (p7.pushIndent (p7.currentIndent + 1)).expectIndent
                            (p7.currentIndent + 1) with
                        | error f => rw [e8] at h; exact Except.noConfusion h
                        | ok p8 =>
                            rw [e8] at h
                            simp only at h
                            have l8 : Later p8 (p7.pushIndent (p7.currentIndent + 1)) :=
                              expectIndent_later e8
                            have hs8 : p8.symbolTable.scopeNames =
                                (p1.currentToken.value ++ " (function)") ::
                                  p.symbolTable.scopeNames := by
                              rw [l8.2.1]
                              simp only [pushIndent_symbolTable]
                              rw [f73.2.1, hs3]
                            have ht8 : TInv p8.symbolTable := by
                              rw [l8.2.1]
                              simp only [pushIndent_symbolTable]
                              exact f73.2.2.1
                            have hst8 : p8.indentStack =
                                (p7.currentIndent + 1) :: p.indentStack := by
                              rw [l8.2.2]
                              simp only [pushIndent_indentStack]
                              rw [f73.2.2.2, hst3]
                            have fo8 : Follows p8 p :=
                              l8.1.trans ((Follows.of_stream rfl).trans (f73.1.trans fo3))
                            cases e9 : parseBlockBody fuel false (p7.currentIndent + 1) p8 with
                            | error f => rw [e9] at h; exact Except.noConfusion h
                            | ok y =>
                                obtain ⟨body, p9⟩ := y
                                rw [e9] at h
                                simp only [Except.ok.injEq, Prod.mk.injEq] at h
                                obtain ⟨fo9, hs9, ht9, hst9, n9⟩ := hb false
                                  (p7.currentIndent + 1) p8 body p9 ht8
                                  (by
                                    rw [hs8]
                                    have := List.length_pos.mpr hne
                                    simp only [List.length_cons]
                                    omega) e9
                                rw [← h.1, ← h.2]
                                refine ⟨⟨fo9.trans fo8, ?_, ht9, ?_⟩, fun hs =>
                                  noRemainder_funcDef _ _ _ (n9 (hs.suffix_tokens fo8))⟩
                                · rw [hs9, hs8]; rfl
                                · rw [hst9, hst8]; rfl

theorem stmt_keeps : ∀ fuel, StmtKeeps fuel := by
  intro fuel
  induction fuel with
  | zero =>
      refine ⟨?_, ?_, ?_, ?_, ?_, ?_, ?_, ?_, ?_⟩
      all_goals first
        | (intro p n q _ h; simp [parseStmt, parseElseStmt, parseIfStmt, parseForStmt,
            parseWhileStmt, parseFuncDef] at h)
        | (intro b lvl cs p r q _ h; simp [blockLoop] at h)
        | (intro b lvl p n q _ _ h; simp [parseBlockBody] at h)
        | (intro lvl cs p r q _ h; simp [elifLoop] at h)
  | succ fuel ih =>
      exact ⟨parseStmt_held ih.ifS ih.whileS ih.defS ih.forS, blockLoop_held ih.stmt ih.loop,
        parseBlockBody_held ih.loop, elifLoop_held ih.body ih.elifs, parseElseStmt_held ih.body,
        parseIfStmt_held ih.body ih.elifs ih.elseS, parseForStmt_held ih.body,
        parseWhileStmt_held ih.body, parseFuncDef_held ih.body⟩

theorem programLoop_held : ∀ (fuel : Nat) (cs : List ASTNode) (p : Parser) (r : List ASTNode)
    (q : Parser), TInv p.symbolTable → programLoop fuel cs p = .ok (r, q) →
    Frame q p ∧ (NoRemTokens p.stream → ASTNode.noRemainderAll cs = true →
      ASTNode.noRemainderAll r = true)
  | 0, _, _, _, _, _, h => by
      unfold programLoop at h
      exact Except.noConfusion h
  | fuel + 1, cs, p, r, q, ht, h => by
      unfold programLoop at h
      by_cases h1 : p.currentToken.type = .EOFToken
      · rw [if_pos h1] at h
        simp only [Except.ok.injEq, Prod.mk.injEq] at h
        rw [← h.1, ← h.2]
        exact ⟨Frame.still ht, fun _ hc => hc⟩
      rw [if_neg h1] at h
      cases e1 : (if p.currentToken.type = .Indent then p.expectIndent 0 else .ok p) with
      | error f => rw [e1] at h; exact Except.noConfusion h
      | ok p1 =>
          rw [e1] at h
          simp only at h
          have l1 : Later p1 p := by
            split_ifs at e1
            · exact expectIndent_later e1
            · simp only [Except.ok.injEq] at e1
              rw [← e1]; exact Later.here p
          cases e2 : parseStmt fuel p1 with
          | error f => rw [e2] at h; exact Except.noConfusion h
          | ok x =>
              obtain ⟨stmt, p2⟩ := x
              rw [e2] at h
              simp only at h
              obtain ⟨f2, n2⟩ := (stmt_keeps fuel).stmt p1 stmt p2 (ht.later_table l1) e2
              have f20 : Frame p2 p := f2.comp (l1.frame ht)
              obtain ⟨f3, n3⟩ := programLoop_held fuel _ p2 r q f2.2.2.1 h
              refine ⟨f3.comp f20, fun hs hc => n3 (hs.of_frame f20) ?_⟩
              split_ifs
              · exact hc
              · exact noRemainderAll_append hc (noRemainderAll_single (n2 (hs.later_tokens l1)))

theorem parseProgram_held {fuel : Nat} {p q : Parser} {n : ASTNode} (ht : TInv p.symbolTable)
    (h : parseProgram fuel p = .ok (n, q)) : Held p n q := by
  unfold parseProgram at h
  cases e1 : programLoop fuel [] p with
  | error f => rw [e1] at h; exact Except.noConfusion h
  | ok x =>
      obtain ⟨cs, p1⟩ := x
      rw [e1] at h
      simp only [Except.ok.injEq, Prod.mk.injEq] at h
      obtain ⟨f1, n1⟩ := programLoop_held fuel [] p cs p1 ht e1
      rw [← h.1, ← h.2]
      exact ⟨f1, fun hs => by
        simp only [ProgramNode, ASTNode.noRemainder]
        rw [n1 hs rfl]
        simp⟩

theorem TaggedRes.ok_tagged {n : ASTNode} (q : Parser) (h : n.numberTagged = true) :
    TaggedRes (.ok (n, q)) := by
  intro n' q' e
  simp only [Except.ok.injEq, Prod.mk.injEq] at e
  rw [← e.1]; exact h

theorem TaggedRes.fault_tagged (f : Fault) : TaggedRes (.error f) := by
  intro n q h
  exact Except.noConfusion h

theorem numberTagged_number {t : Token} {n : ASTNode} (h : NumberNode t = some n) :
    n.numberTagged = true := by
  unfold NumberNode at h
  cases hs : stod t.value with
  | none => rw [hs] at h; exact Option.noConfusion h
  | some v =>
      rw [hs] at h
      simp only [Option.some.injEq] at h
      rw [← h]
      simp only [ASTNode.numberTagged]
      split_ifs <;> decide

theorem level_tagged {f sub : Nat → Parser → Res ASTNode}
    {loop : Nat → ASTNode → Parser → Res ASTNode} {fuel : Nat}
    (hunf : ∀ fuel p, f (fuel + 1) p =
      match sub fuel p with
      | .error e => .error e
      | .ok (node, p1) => if node.isNull then .ok (.null, p1) else loop fuel node p1)
    (hs : ExprTagged sub fuel) (hl : LoopTagged loop fuel) : ExprTagged f (fuel + 1) := by
  intro p
  rw [hunf]
  cases h1 : sub fuel p with
  | error e => exact TaggedRes.fault_tagged e
  | ok r =>
      obtain ⟨node, p1⟩ := r
      simp only
      split_ifs with hn
      · exact TaggedRes.ok_tagged p1 rfl
      · exact hl node p1 (hs p node p1 h1)

theorem level_tagged_op {f sub : Nat → Parser → Res ASTNode}
    {loop : Nat → Token → ASTNode → Parser → Res ASTNode} {fuel : Nat}
    (hunf : ∀ fuel p, f (fuel + 1) p =
      match sub fuel p with
      | .error e => .error e
      | .ok (node, p1) => if node.isNull then .ok (.null, p1) else loop fuel p1.currentToken node p1)
    (hs : ExprTagged sub fuel) (hl : OpLoopTagged loop fuel) : ExprTagged f (fuel + 1) := by
  intro p
  rw [hunf]
  cases h1 : sub fuel p with
  | error e => exact TaggedRes.fault_tagged e
  | ok r =>
      obtain ⟨node, p1⟩ := r
      simp only
      split_ifs with hn
      · exact TaggedRes.ok_tagged p1 rfl
      · exact hl _ node p1 (hs p node p1 h1)

theorem loop_tagged {loop : Nat → ASTNode → Parser → Res ASTNode}
    (sub : Nat → Parser → Res ASTNode) (test : Parser → Bool) (msg : String) {fuel : Nat}
    (hunf : ∀ fuel node p, loop (fuel + 1) node p =
      if test p then
        match sub fuel p.advance with
        | .error e => .error e
        | .ok (right, p1) =>
            if right.isNull then .ok (.null, p1.errorHere msg)
            else loop fuel (BinaryOpNode p.currentToken node right) p1
      else .ok (node, p))
    (ih : LoopTagged loop fuel) : LoopTagged loop (fuel + 1) := by
  intro node p hnode
  rw [hunf]
  split_ifs with ht
  · cases h1 : sub fuel p.advance with
    | error e => exact TaggedRes.fault_tagged e
    | ok r =>
        obtain ⟨right, p1⟩ := r
        simp only
        split_ifs with hn
        · exact TaggedRes.ok_tagged _ rfl
        · exact ih _ p1 rfl
  · exact TaggedRes.ok_tagged p hnode

theorem loop_tagged_op {loop : Nat → Token → ASTNode → Parser → Res ASTNode}
    (sub : Nat → Parser → Res ASTNode) (kw msg : String) {fuel : Nat}
    (hunf : ∀ fuel op node p, loop (fuel + 1) op node p =
      if (p.accept .Keyword kw).1 then
        match sub fuel (p.accept .Keyword kw).2 with
        | .error e => .error e
        | .ok (right, p1) =>
            if right.isNull then .ok (node, p1.errorHere msg)
            else loop fuel op (BinaryOpNode op node right) p1
      else .ok (node, p))
    (ih : OpLoopTagged loop fuel) : OpLoopTagged loop (fuel + 1) := by
  intro op node p hnode
  rw [hunf]
  split_ifs with ht
  · cases h1 : sub fuel (p.accept .Keyword kw).2 with
    | error e => exact TaggedRes.fault_tagged e
    | ok r =>
        obtain ⟨right, p1⟩ := r
        simp only
        split_ifs with hn
        · exact TaggedRes.ok_tagged _ hnode
        · exact ih op _ p1 rfl
  · exact TaggedRes.ok_tagged p hnode

theorem parseFuncCall_tagged (fuel : Nat) : ExprTagged parseFuncCall (fuel + 1) := by
  intro p
  unfold parseFuncCall
  simp only
  cases h1 : p.expect .Identifier "Expected function name" with
  | error e => exact TaggedRes.fault_tagged e
  | ok p1 =>
      simp only
      by_cases h2 : (p1.accept .Delimiter "(").1 = true
      · rw [if_neg (by simp [h2])]
        by_cases h3 : ((p1.accept .Delimiter "(").2.accept .Delimiter ")").1 = true
        · rw [if_pos h3]
          exact TaggedRes.ok_tagged _ (by rfl)
        · rw [if_neg h3]
          cases h4 : parseArgs fuel [] (p1.accept .Delimiter "(").2 with
          | error e => exact TaggedRes.fault_tagged e
          | ok r =>
              obtain ⟨args, p3⟩ := r
              simp only
              by_cases h5 : (p3.accept .Delimiter ")").1 = true
              · rw [if_neg (by simp [h5])]
                exact TaggedRes.ok_tagged _ (by rfl)
              · rw [if_pos (by simpa using h5)]
                exact TaggedRes.ok_tagged _ (by rfl)
      · rw [if_pos (by simpa using h2)]
        exact TaggedRes.ok_tagged _ (by rfl)

theorem parsePrimary_tagged {fuel : Nat} (he : ExprTagged parseExpr fuel)
    (hfc : ExprTagged parseFuncCall fuel) : ExprTagged parsePrimary (fuel + 1) := by
  intro p
  unfold parsePrimary
  simp only
  split_ifs with h1 h2 h3 h4 h5 h6
  · cases hnum : NumberNode p.currentToken with
    | some nd => exact TaggedRes.ok_tagged _ (numberTagged_number hnum)
    | none => exact TaggedRes.ok_tagged _ rfl
  · exact TaggedRes.ok_tagged _ rfl
  · exact TaggedRes.ok_tagged _ rfl
  · exact hfc p
  · exact TaggedRes.ok_tagged _ rfl
  · cases h7 : parseExpr fuel (p.accept .Delimiter "(").2 with
    | error e => exact TaggedRes.fault_tagged e
    | ok r =>
        obtain ⟨expr, p1⟩ := r
        simp only
        cases h8 : p1.expect .Delimiter "Expected ')' after expression" ")" with
        | error e => exact TaggedRes.fault_tagged e
        | ok p2 => exact TaggedRes.ok_tagged _ (he _ expr p1 h7)
  · exact TaggedRes.ok_tagged _ rfl

theorem parseUnary_tagged {fuel : Nat} (hp : ExprTagged parsePrimary fuel) :
    ExprTagged parseUnary (fuel + 1) := by
  intro p
  unfold parseUnary
  simp only
  split_ifs with h
  · cases h1 : parseUnary fuel p.advance with
    | error e => exact TaggedRes.fault_tagged e
    | ok r =>
        obtain ⟨right, p1⟩ := r
        simp only
        split_ifs with hn
        · exact TaggedRes.ok_tagged _ rfl
        · exact TaggedRes.ok_tagged _ rfl
  · exact hp p

theorem parseExpr_tagged {fuel : Nat} (h : ExprTagged parseLogicalOr fuel) :
    ExprTagged parseExpr (fuel + 1) := by
  intro p
  unfold parseExpr
  split_ifs
  · exact TaggedRes.ok_tagged _ rfl
  · exact h p

theorem expr_tags : ∀ fuel, ExprTags fuel := by
  intro fuel
  induction fuel with
  | zero =>
      refine ⟨?_, ?_, ?_, ?_, ?_, ?_, ?_, ?_, ?_, ?_, ?_, ?_, ?_, ?_, ?_, ?_⟩
      all_goals first
        | (intro p n q h; simp [parseFuncCall, parsePrimary, parseUnary, parseFactor, parseTerm,
            parseRelational, parseEquality, parseLogicalAnd, parseLogicalOr, parseExpr] at h)
        | (intro node p _ n q h; simp [factorLoop, termLoop, relationalLoop, equalityLoop] at h)
        | (intro op node p _ n q h; simp [andLoop, orLoop] at h)
  | succ fuel ih =>
      have hfl : LoopTagged factorLoop (fuel + 1) :=
        loop_tagged parseUnary (fun p => p.isTok .Operator "*" || p.isTok .Operator "/" ||
            p.isTok .Operator "%")
          "Expected right-hand expression after operator"
          (fun fuel node p => by rw [factorLoop]) ih.factorLoop
      have hfa : ExprTagged parseFactor (fuel + 1) :=
        level_tagged (fun fuel p => by rw [parseFactor]) ih.unary ih.factorLoop
      have htl : LoopTagged termLoop (fuel + 1) :=
        loop_tagged parseFactor (fun p => p.isTok .Operator "+" || p.isTok .Operator "-")
          "Expected right-hand expression after operator"
          (fun fuel node p => by rw [termLoop]) ih.termLoop
      have hte : ExprTagged parseTerm (fuel + 1) :=
        level_tagged (fun fuel p => by rw [parseTerm]) ih.factor ih.termLoop
      have hrl : LoopTagged relationalLoop (fuel + 1) :=
        loop_tagged parseTerm (fun p => p.isTok .Operator "<" || p.isTok .Operator ">" ||
            p.isTok .Operator "<=" || p.isTok .Operator ">=")
          "Expected right-hand expression after comparison"
          (fun fuel node p => by rw [relationalLoop]) ih.relationalLoop
      have hre : ExprTagged parseRelational (fuel + 1) :=
        level_tagged (fun fuel p => by rw [parseRelational]) ih.term ih.relationalLoop
      have hel : LoopTagged equalityLoop (fuel + 1) :=
        loop_tagged parseRelational (fun p => p.isTok .Operator "==" || p.isTok .Operator "!=")
          "Expected right-hand expression after operator"
          (fun fuel node p => by rw [equalityLoop]) ih.equalityLoop
      have heq : ExprTagged parseEquality (fuel + 1) :=
        level_tagged (fun fuel p => by rw [parseEquality]) ih.relational ih.equalityLoop
      have hal : OpLoopTagged andLoop (fuel + 1) :=
        loop_tagged_op parseEquality "and" "Expected right-hand expression after 'and'"
          (fun fuel op node p => by rw [andLoop]) ih.andLoop
      have han : ExprTagged parseLogicalAnd (fuel + 1) :=
        level_tagged_op (fun fuel p => by rw [parseLogicalAnd]) ih.equality ih.andLoop
      have hol : OpLoopTagged orLoop (fuel + 1) :=
        loop_tagged_op parseLogicalAnd "or" "Expected right-hand expression after 'or'"
          (fun fuel op node p => by rw [orLoop]) ih.orLoop
      have hor : ExprTagged parseLogicalOr (fuel + 1) :=
        level_tagged_op (fun fuel p => by rw [parseLogicalOr]) ih.logicalAnd ih.orLoop
      exact ⟨parseFuncCall_tagged fuel, parsePrimary_tagged ih.expr ih.funcCall,
        parseUnary_tagged ih.primary, hfl, hfa, htl, hte, hrl, hre, hel, heq, hal, han, hol, hor,
        parseExpr_tagged ih.logicalOr⟩

theorem parseExpr_numberTagged {fuel : Nat} {p q : Parser} {n : ASTNode}
    (h : parseExpr fuel p = .ok (n, q)) : n.numberTagged = true :=
  (expr_tags fuel).expr p n q h

/-- The type `parseAssignStmt` records, "expr" standing for "unknown", is the type of the
specification. -/
theorem assignType_eq (p : Parser) (expr : ASTNode) (h : expr.numberTagged = true) :
    (if p.getTypeFromNode expr = "unknown" then "expr" else p.getTypeFromNode expr) =
      specAssignType p.symbolTable expr := by
  cases expr with
  | null => simp [getTypeFromNode, specAssignType]
  | node k t cs =>
      cases k with
      | Number v tag =>
          simp only [ASTNode.numberTagged, Bool.or_eq_true, decide_eq_true_eq] at h
          simp only [getTypeFromNode, specAssignType]
          rcases h with h | h <;> rw [h] <;> decide
      | Identifier =>
          simp only [getTypeFromNode, specAssignType]
          cases p.symbolTable.lookupEntry t.value with
          | none => simp
          | some e => simp only
      | Call =>
          simp only [getTypeFromNode, specAssignType]
          cases p.symbolTable.lookupEntry t.value with
          | none => simp
          | some e =>
              simp only
              by_cases hr : e.role = "function"
              · by_cases hd : e.dataType = "unknown"
                · simp [hr, hd]
                · simp [hr, hd]
              · simp [hr]
      | _ => simp [getTypeFromNode, specAssignType]

theorem getCurrentScope_headD {t : ParserSymbolTable} (h : TInv t) :
    t.scopeNames.headD "" = t.getCurrentScope := by
  unfold ParserSymbolTable.getCurrentScope
  cases hs : t.scopeNames with
  | nil => exact absurd hs h.names_ne_nil
  | cons a l => rfl

/-- C33. Whenever `parseAssignStmt`, entered at a name that is not bound in the current
frame, returns an Assign node, it has appended exactly one entry for that name, with role
"variable", in the current scope, and its dataType is the one of the specification for the
right-hand side: the tag of a Number (which is "int" or "float"), "string" for a String,
"boolean" for `True` / `False`, the dataType of the entry of an identifier or of the callee
of a call when that is known, and "expr" whenever the inference gives "unknown", as for
every BinaryOp and UnaryOp. On every token list that ends in EndOfInput, with readable
IndentMarkers and no operator `%`, `parseAssignStmt` does return. -/
theorem assign_recorded_type (fuel : Nat) (p : Parser) (ht : TInv p.symbolTable)
    (hfresh : (p.symbolTable.scopes.headD []).lookup p.currentToken.value = none) :
    (∀ n q, parseAssignStmt fuel p = .ok (n, q) → n.isNull = false →
      ∃ expr value, n = AssignNode p.currentToken (IdentifierNode p.currentToken) expr ∧
        q.symbolTable.entries = p.symbolTable.entries ++
          [{ id := p.symbolTable.nextId, name := p.currentToken.value,
             dataType := specAssignType p.symbolTable expr, value := value,
             role := "variable", scope := p.symbolTable.getCurrentScope }] ∧
        (∀ v tag t cs, expr = .node (.Number v tag) t cs → tag = "int" ∨ tag = "float") ∧
        (∀ t cs, expr = .node .BinaryOp t cs ∨ expr = .node .UnaryOp t cs →
          specAssignType p.symbolTable expr = "expr")) ∧
    (Inv p → 64 * p.rest.length + 10 ≤ fuel → ∃ n q, parseAssignStmt fuel p = .ok (n, q)) := by
  refine ⟨fun n q h hn => ?_, fun hi hf => ?_⟩
  · unfold parseAssignStmt at h
    simp only at h
    cases e1 : p.expect .Identifier "Expected identifier for assignment" with
    | error f => rw [e1] at h; exact Except.noConfusion h
    | ok p1 =>
        rw [e1] at h
        simp only at h
        have l1 : Later p1 p := expect_later e1
        cases e2 : (if p1.currentToken.type = .Operator ∧ p1.currentToken.value = "=" then
               p1.expect .Operator "Expected '=' in assignment" "="
             else p1.expect .Assignment "Expected '=' in assignment" "=") with
        | error f => rw [e2] at h; exact Except.noConfusion h
        | ok p2 =>
            rw [e2] at h
            simp only at h
            have l2 : Later p2 p1 := by
              split_ifs at e2
              · exact expect_later e2
              · exact expect_later e2
            cases e3 : parseExpr fuel p2 with
            | error f => rw [e3] at h; exact Except.noConfusion h
            | ok x =>
                obtain ⟨expr, p3⟩ := x
                rw [e3] at h
                simp only at h
                have l3 : Later p3 p := ((parseExpr_later e3).after l2).after l1
                have htag := parseExpr_numberTagged e3
                by_cases hnull : expr.isNull = true
                · rw [if_pos hnull] at h
                  simp only [Except.ok.injEq, Prod.mk.injEq] at h
                  rw [← h.1] at hn
                  exact absurd hn (by decide)
                · rw [if_neg hnull] at h
                  cases ev : p3.evaluateExpression expr with
                  | error f => rw [ev] at h; exact Except.noConfusion h
                  | ok value =>
                      rw [ev] at h
                      simp only [Except.ok.injEq, Prod.mk.injEq] at h
                      refine ⟨expr, value, h.1.symm, ?_, ?_, ?_⟩
                      · rw [← h.2, withTable_symbolTable, assignType_eq p3 expr htag, l3.2.1,
                          ParserSymbolTable.declare_of_fresh _ _ _ _ _ ht.2 hfresh,
                          getCurrentScope_headD ht]
                      · intro v tag t cs e
                        rw [e] at htag
                        simpa [ASTNode.numberTagged] using htag
                      · rintro t cs (e | e) <;> rw [e] <;> rfl
  · obtain ⟨n, q, e, -⟩ := parseAssignStmt_spec p.rest.length fuel p hi ht le_rfl hf
    exact ⟨n, q, e⟩

/-- The theorem `assign_recorded_type` at `c = a + 1`, where `a` is an int: the entry of
`c` has the dataType "expr". -/
theorem assign_recorded_type_witness :
    TInv assignSumParser.symbolTable ∧
    (assignSumParser.symbolTable.scopes.headD []).lookup assignSumParser.currentToken.value =
      none ∧
    ∃ n q expr value, parseAssignStmt 330 assignSumParser = .ok (n, q) ∧
      n = AssignNode assignSumParser.currentToken
        (IdentifierNode assignSumParser.currentToken) expr ∧
      q.symbolTable.entries = assignSumParser.symbolTable.entries ++
        [{ id := assignSumParser.symbolTable.nextId, name := "c",
           dataType := specAssignType assignSumParser.symbolTable expr, value := value,
           role := "variable", scope := "global" }] ∧
      specAssignType assignSumParser.symbolTable expr = "expr" := by
  have ht : TInv assignSumParser.symbolTable := ⟨rfl, by decide⟩
  have hfresh : (assignSumParser.symbolTable.scopes.headD []).lookup
      assignSumParser.currentToken.value = none := by decide
  have hi : Inv assignSumParser :=
    ⟨⟨[tok .Identifier "c" 1 1, tok .Operator "=" 1 3, tok .Identifier "a" 1 5,
        tok .Operator "+" 1 7, tok .Number "1" 1 9], tok .EOFToken "EOF" 1 10, rfl, rfl⟩,
      by decide, by decide⟩
  obtain ⟨h1, h2⟩ := assign_recorded_type 330 assignSumParser ht hfresh
  obtain ⟨n, q, e⟩ := h2 hi (by decide)
  have hk : (parseAssignStmt 330 assignSumParser).toOption.map
      (fun r => (r.1.isNull, r.1.children?.map ASTNode.kind?)) =
      some (false, [some .Identifier, some .BinaryOp]) := by decide!
  rw [e] at hk
  simp only [Except.toOption, Option.map_some', Option.some.injEq, Prod.mk.injEq] at hk
  obtain ⟨expr, value, en, ee, -, hb⟩ := h1 n q e hk.1
  refine ⟨ht, hfresh, n, q, expr, value, e, en, ee, ?_⟩
  rw [en] at hk
  have hx : expr.kind? = some .BinaryOp := by
    have := hk.2
    simp only [AssignNode, ASTNode.children?, List.map_cons, List.map_nil, List.cons.injEq,
      and_true] at this
    exact this.2
  cases expr with
  | null => exact absurd hx (by simp [ASTNode.kind?])
  | node k t cs =>
      simp only [ASTNode.kind?, Option.some.injEq] at hx
      rw [hx]
      rw [hx] at hb
      exact hb t cs (Or.inl rfl)

end Parser

theorem getOperator_value_ne (lx : Lexer)
    (h : lx.peek = '+' ∨ lx.peek = '-' ∨ lx.peek = '*' ∨ lx.peek = '/' ∨ lx.peek = '=' ∨
      lx.peek = '<' ∨ lx.peek = '>' ∨ lx.peek = '!' ∨ lx.peek = '.') :
    lx.getOperator.1.value ≠ "%" := by
  have hlen : ∀ (c d : Char), (("".push c).push d) ≠ "%" := by
    intro c d e
    have := congrArg String.length e
    simp only [String.length_push] at this
    exact absurd this (by decide)
  have hone : ∀ (c : Char), c ≠ '%' → "".push c ≠ "%" := by
    intro c hc e
    have := congrArg String.data e
    simp only [String.data_push] at this
    exact hc (by simpa using this)
  have hdot : ("." : String) ≠ "%" := by decide
  have hc : lx.peek ≠ '%' := by
    rcases h with h | h | h | h | h | h | h | h | h <;> rw [h] <;> decide
  unfold Lexer.getOperator
  simp only [Lexer.advance_fst]
  split_ifs
  · exact hdot
  · exact hdot
  · exact hlen _ _
  · exact hone _ hc

/-- No round of the scan emits an Operator token with the lexeme `%`. -/
theorem scanStep_no_remainder (lx : Lexer) :
    ∀ t ∈ lx.scanStep.1, ¬ (t.type = .Operator ∧ t.value = "%") := by
  intro t ht
  have hs := @scanStep_of lx lx.indentPhase.2 lx.indentPhase.2.skipWhitespace.skipComment
    lx.indentPhase.1 rfl rfl
  generalize lx.indentPhase.2.skipWhitespace.skipComment = lx2 at hs
  have hind := indentPhase_types lx
  have key : ∀ (x : Token), ¬ (x.type = .Operator ∧ x.value = "%") →
      t ∈ lx.indentPhase.1 ++ [x] → ¬ (t.type = .Operator ∧ t.value = "%") := by
    intro x hx hm
    rcases List.mem_append.mp hm with h1 | h1
    · intro h
      have := hind t h1
      rw [h.1] at this
      exact absurd this (by decide)
    · rw [List.mem_singleton] at h1
      rw [h1]; exact hx
  have byType : ∀ (x : Token), x.type ≠ .Operator → ¬ (x.type = .Operator ∧ x.value = "%") :=
    fun x hx h => hx h.1
  rw [hs] at ht
  split_ifs at ht with h1 h2 h3 h4 h5 h6 h7
  · exact key _ (byType _ (by simp)) ht
  · refine key _ (byType _ ?_) ht
    rcases getIdentifier_type lx2 with h | h <;> rw [h] <;> decide
  · refine key _ (byType _ ?_) ht
    rcases getNumber_type lx2 with h | h <;> rw [h] <;> decide
  · refine key _ (byType _ ?_) ht
    rcases getString_type lx2 with h | h <;> rw [h] <;> decide
  · exact key _ (fun h => getOperator_value_ne lx2 h5 h.2) ht
  · exact key _ (byType _ (by simp)) ht
  · intro h
    have := hind t ht
    rw [h.1] at this
    exact absurd this (by decide)
  · exact key _ (byType _ (by simp)) ht

/-- A round of the scan whose first character, after the blanks and the comment, is `%`:
it emits the Error token `%` and goes one character on. -/
theorem scanStep_percent (lx lx2 : Lexer)
    (h2 : lx.indentPhase.2.skipWhitespace.skipComment = lx2) (hp : lx2.peek = '%') :
    lx.scanStep =
      (lx.indentPhase.1 ++ [{ type := .Error, value := "%", line := lx2.line,
                              column := lx2.column }], lx2.advance.2, false) := by
  have hs := @scanStep_of lx lx.indentPhase.2 lx2 lx.indentPhase.1 rfl h2
  rw [hs]
  have hl : lx2.advance.2.line = lx2.line := by
    unfold Lexer.advance
    simp only [hp]
    split_ifs <;> first | rfl | (exfalso; revert ‹_›; decide)
  simp only [hp, Lexer.advance_fst, hl]
  rfl

theorem lexTokens_no_remainder (source : String) : Parser.NoRemTokens (lexTokens source) :=
  lexTokens_all (fun t => ¬ (t.type = .Operator ∧ t.value = "%")) scanStep_no_remainder source

namespace Parser

theorem noRemainder_of_mem : ∀ {cs : List ASTNode} {c : ASTNode},
    ASTNode.noRemainderAll cs = true → c ∈ cs → c.noRemainder = true
  | [], _, _, hm => absurd hm (List.not_mem_nil _)
  | a :: l, c, h, hm => by
      simp only [ASTNode.noRemainderAll, Bool.and_eq_true] at h
      rcases List.mem_cons.mp hm with e | e
      · rw [e]; exact h.1
      · exact noRemainder_of_mem h.2 e

theorem noRemainder_inside {n tree : ASTNode} (hi : ASTNode.Inside n tree) :
    tree.noRemainder = true → n.noRemainder = true := by
  induction hi with
  | self => exact id
  | child hc _ ih =>
      intro h
      simp only [ASTNode.noRemainder, Bool.and_eq_true] at h
      exact ih (noRemainder_of_mem h.2 hc)

theorem safeFold_of_noRemainder : ∀ (n : ASTNode), n.noRemainder = true → safeFold n = true
  | .null, _ => rfl
  | .node k t cs, h => by
      simp only [ASTNode.noRemainder, Bool.and_eq_true, Bool.not_eq_true', decide_eq_false_iff_not,
        not_and] at h
      cases k with
      | BinaryOp =>
          have hv : t.value ≠ "%" := h.1 rfl
          match cs, h.2 with
          | [], _ => simp [safeFold, hv]
          | [l], h2 =>
              simp only [ASTNode.noRemainderAll, Bool.and_eq_true] at h2
              simp [safeFold, hv, safeFold_of_noRemainder l h2.1]
          | l :: r :: rest, h2 =>
              simp only [ASTNode.noRemainderAll, Bool.and_eq_true] at h2
              simp [safeFold, hv, safeFold_of_noRemainder l h2.1,
                safeFold_of_noRemainder r h2.2.1]
      | UnaryOp =>
          match cs, h.2 with
          | [], _ => simp [safeFold]
          | o :: rest, h2 =>
              simp only [ASTNode.noRemainderAll, Bool.and_eq_true] at h2
              simp [safeFold, safeFold_of_noRemainder o h2.1]
      | _ => simp [safeFold]

theorem NoRemTokens.of_new {tokens : List Token} (h : NoRemTokens tokens)
    (t : ParserSymbolTable) : NoRemTokens (Parser.new tokens t).stream := by
  cases tokens with
  | nil =>
      intro x hx
      have e : x = { type := .Keyword, value := "", line := 0, column := 0 } := by
        simpa [Parser.new, advance, stream] using hx
      rw [e]
      decide
  | cons a l =>
      have e : (Parser.new (a :: l) t).stream = a :: l := rfl
      rw [e]; exact h

theorem new_symbolTable (ts : List Token) (t : ParserSymbolTable) :
    (Parser.new ts t).symbolTable = t := by
  cases ts <;> rfl

theorem new_indentStack (ts : List Token) (t : ParserSymbolTable) :
    (Parser.new ts t).indentStack = [0] := by
  cases ts <;> rfl

/-- C39. No token that `tokenize` returns is an Operator with the lexeme `%`: a round of the
scan whose first character (after the blanks and a comment) is `%` emits the Error token `%`
at the place of that character and goes one character on. So in the tree that the parser
returns on the tokens of any source no BinaryOp node has the operator `%`, and every
expression that `parseExpr` returns on such tokens, which is what `evaluateExpression` is
given, has no `%` among the operators it folds. For `x = 7 % 2` the tokens are
`x`, `=`, `7`, Error `%`, `2`; the tree is the single Assign of 7 to `x`, and the two
tokens `%` and `2` are reported as unexpected. -/
theorem remainder_never_parsed :
    (∀ (source : String), ∀ t ∈ lexTokens source, ¬ (t.type = .Operator ∧ t.value = "%")) ∧
    (∀ (lx lx2 : Lexer), lx.indentPhase.2.skipWhitespace.skipComment = lx2 → lx2.peek = '%' →
      lx.scanStep =
        (lx.indentPhase.1 ++ [{ type := .Error, value := "%", line := lx2.line,
                                column := lx2.column }], lx2.advance.2, false)) ∧
    (∀ (source : String) (tree : ASTNode) (q : Parser),
      runParser (lexTokens source) = .ok (tree, q) →
      ∀ (k : NodeKind) (t : Token) (cs : List ASTNode), ASTNode.Inside (.node k t cs) tree →
        ¬ (k = .BinaryOp ∧ t.value = "%")) ∧
    (∀ (fuel : Nat) (p q : Parser) (n : ASTNode), NoRemTokens p.stream →
      parseExpr fuel p = .ok (n, q) → safeFold n = true) ∧
    (lexTokens scenarioRemainder).map (fun t => (t.type, t.value, t.line, t.column)) =
      [(.Indent, "0", 1, 1), (.Identifier, "x", 1, 1), (.Operator, "=", 1, 3),
       (.Number, "7", 1, 5), (.Error, "%", 1, 7), (.Number, "2", 1, 9),
       (.EOFToken, "EOF", 1, 10)] ∧
    (runParser (lexTokens scenarioRemainder)).toOption.map (fun r =>
      (r.1.children?.map (fun s => (s.getNodeType, s.children?.map ASTNode.getNodeType)),
       r.2.errors.map (fun e => e.message),
       r.2.symbolTable.entries.map (fun e => (e.name, e.dataType, e.value)))) =
      some ([("Assign", ["Identifier", "Number"])],
        ["Unexpected token at start of statement: %",
         "Unexpected token at start of statement: 2"],
        [("x", "int", "7.000000")]) := by
  refine ⟨?_, ?_, ?_, ?_, by decide!, by decide!⟩
  · intro source
    exact lexTokens_no_remainder source
  · intro lx lx2 h2 hp
    exact scanStep_percent lx lx2 h2 hp
  · intro source tree q h k t cs hin hk
    have hs := lexTokens_no_remainder source
    unfold runParser at h
    generalize lexTokens source = ts at h hs
    have hn : tree.noRemainder = true := (parseProgram_held (by rw [new_symbolTable]; exact TInv.fresh) h).2 (hs.of_new {})
    have := noRemainder_inside hin hn
    simp only [ASTNode.noRemainder, Bool.and_eq_true, Bool.not_eq_true',
      decide_eq_false_iff_not] at this
    exact this.1 hk
  · intro fuel p q n hs h
    exact safeFold_of_noRemainder n (parseExpr_noRemainder h hs)

@[simp] theorem liftRes_ok {α : Type} (v : α) : liftRes (.ok v : Except Fault α) = .ok v := rfl

@[simp] theorem liftRes_error {α : Type} (f : Fault) :
    liftRes (.error f : Except Fault α) = .error (.fault f) := rfl

theorem balanced_iff {p : Parser} :
    p.balanced = true ↔ p.symbolTable.scopeNames.length = p.indentStack.length := by
  simp [balanced]

theorem balanced_of_later {q p : Parser} (h : Later q p) (hb : p.balanced = true) :
    q.balanced = true := by
  rw [balanced_iff] at hb ⊢
  rw [h.2.1, h.2.2]; exact hb

theorem balanced_of_frame {q p : Parser} (h : Frame q p) (hb : p.balanced = true) :
    q.balanced = true := by
  rw [balanced_iff] at hb ⊢
  rw [h.2.1, h.2.2.2]; exact hb

/-- The state in which the body of a block is entered: one more scope, one more level. -/
theorem openBlock_pre {p p4 : Parser} {lvl : Int} (name : String) (hb : p.balanced = true)
    (ht : TInv p.symbolTable) (e4 : (p.pushIndent lvl).expectIndent lvl = .ok p4) :
    (p4.withTable (p4.symbolTable.beginScope name)).balanced = true ∧
      TInv (p4.withTable (p4.symbolTable.beginScope name)).symbolTable := by
  have l4 : Later p4 (p.pushIndent lvl) := expectIndent_later e4
  have ht4 : TInv p4.symbolTable := by rw [l4.2.1]; exact ht
  refine ⟨?_, ht4.beginScope name⟩
  rw [balanced_iff] at hb ⊢
  simp only [withTable_symbolTable, withTable_indentStack, ParserSymbolTable.beginScope,
    List.length_cons]
  rw [l4.2.1, l4.2.2]
  simp only [pushIndent_symbolTable, pushIndent_indentStack, List.length_cons]
  omega

theorem parseStmt_checked {fuel : Nat} (ih : StmtChecks fuel) :
    StmtChecked parseStmtChecked parseStmt (fuel + 1) := by
  intro p hb ht
  unfold parseStmtChecked parseStmt
  rw [if_neg (by simp [hb])]
  by_cases h1 : p.currentToken.type = .EOFToken
  · rw [if_pos h1, if_pos h1]; rfl
  rw [if_neg h1, if_neg h1]
  by_cases h2 : p.currentToken.type = .Identifier ∧ ¬ p.isValidStatementStart
  · rw [if_pos h2, if_pos h2]; rfl
  rw [if_neg h2, if_neg h2]
  cases hty : p.currentToken.type with
  | Keyword =>
      simp only
      split_ifs
      · exact ih.ifS p hb ht
      · exact ih.whileS p hb ht
      · exact ih.defS p hb ht
      · rfl
      · exact ih.forS p hb ht
      · rfl
      · cases (p.errorHere
          ("Unexpected token at start of statement: " ++ p.currentToken.value)).synchronize <;> rfl
      · rfl
  | Identifier =>
      simp only
      split_ifs <;> rfl
  | _ => rfl

theorem blockLoop_checked {fuel : Nat} (ih : StmtChecks fuel) :
    ∀ b lvl cs p, p.balanced = true → TInv p.symbolTable →
      blockLoopChecked (fuel + 1) b lvl cs p = liftRes (blockLoop (fuel + 1) b lvl cs p) := by
  intro b lvl cs p hb ht
  unfold blockLoopChecked blockLoop
  by_cases h1 : p.currentToken.type = .EOFToken
  · rw [if_pos h1, if_pos h1]; rfl
  rw [if_neg h1, if_neg h1]
  by_cases h2 : p.currentToken.type = .Indent
  · rw [if_pos h2, if_pos h2]
    cases e1 : stoi p.currentToken.value with
    | none => rfl
    | some level =>
        simp only
        by_cases h3 : level ≥ lvl
        · rw [if_pos h3, if_pos h3]
          cases e2 : p.expectIndent lvl with
          | error f => rfl
          | ok p1 =>
              have l1 : Later p1 p := expectIndent_later e2
              simp only [liftRes_ok]
              exact ih.loop b lvl cs p1 (balanced_of_later l1 hb) (ht.later_table l1)
        · rw [if_neg h3, if_neg h3]; rfl
  rw [if_neg h2, if_neg h2, ih.stmt p hb ht]
  cases e1 : parseStmt fuel p with
  | error f => rfl
  | ok x =>
      obtain ⟨stmt, p1⟩ := x
      obtain ⟨f1, -⟩ := (stmt_keeps fuel).stmt p stmt p1 ht e1
      simp only [liftRes_ok]
      by_cases h3 : ¬ stmt.isNull = true
      · rw [if_pos h3, if_pos h3]
        exact ih.loop b lvl _ p1 (balanced_of_frame f1 hb) f1.2.2.1
      · rw [if_neg h3, if_neg h3]
        by_cases h4 : b = true
        · rw [if_pos h4, if_pos h4]; rfl
        · rw [if_neg h4, if_neg h4]
          exact ih.loop b lvl _ p1 (balanced_of_frame f1 hb) f1.2.2.1

theorem parseBlockBody_checked {fuel : Nat} (ih : StmtChecks fuel) :
    ∀ b lvl p, p.balanced = true → TInv p.symbolTable →
      parseBlockBodyChecked (fuel + 1) b lvl p = liftRes (parseBlockBody (fuel + 1) b lvl p) := by
  intro b lvl p hb ht
  unfold parseBlockBodyChecked parseBlockBody
  simp only
  rw [ih.loop b lvl [] p hb ht]
  cases e1 : blockLoop fuel b lvl [] p with
  | error f => rfl
  | ok x =>
      obtain ⟨children, p1⟩ := x
      simp only [liftRes_ok]
      cases (p1.withTable p1.symbolTable.endScope).popIndent <;> rfl

theorem parseElseStmt_checked {fuel : Nat} (ih : StmtChecks fuel) :
    StmtChecked parseElseStmtChecked parseElseStmt (fuel + 1) := by
  intro p hb ht
  unfold parseElseStmtChecked parseElseStmt
  cases e1 : p.expect .Keyword "Expected 'else' keyword" "else" with
  | error f => rfl
  | ok p1 =>
      simp only [liftRes_ok]
      cases e2 : p1.expect .Delimiter "Expected ':' after else" ":" with
      | error f => rfl
      | ok p2 =>
          simp only [liftRes_ok]
          have l2 : Later p2 p := (expect_later e2).after (expect_later e1)
          cases e3 : (p2.pushIndent (p2.currentIndent + 1)).expectIndent (p2.currentIndent + 1) with
          | error f => rfl
          | ok p3 =>
              simp only [liftRes_ok]
              obtain ⟨b3, t3⟩ := openBlock_pre "else block" (balanced_of_later l2 hb)
                (ht.later_table l2) e3
              exact ih.body false _ _ b3 t3

theorem parseWhileStmt_checked {fuel : Nat} (ih : StmtChecks fuel) :
    StmtChecked parseWhileStmtChecked parseWhileStmt (fuel + 1) := by
  intro p hb ht
  unfold parseWhileStmtChecked parseWhileStmt
  simp only
  cases e1 : p.expect .Keyword "Expected 'while' keyword" "while" with
  | error f => rfl
  | ok p1 =>
      simp only [liftRes_ok]
      cases e2 : parseExpr fuel p1 with
      | error f => rfl
      | ok x =>
          obtain ⟨cond, p2⟩ := x
          simp only [liftRes_ok]
          cases e3 : p2.expect .Delimiter "Expected ':' after while condition" ":" with
          | error f => rfl
          | ok p3 =>
              simp only [liftRes_ok]
              have l3 : Later p3 p :=
                ((expect_later e3).after (parseExpr_later e2)).after (expect_later e1)
              cases e4 : (p3.pushIndent (p3.currentIndent + 1)).expectIndent
                  (p3.currentIndent + 1) with
              | error f => rfl
              | ok p4 =>
                  simp only [liftRes_ok]
                  obtain ⟨b4, t4⟩ := openBlock_pre "while block" (balanced_of_later l3 hb)
                    (ht.later_table l3) e4
                  rw [ih.body false _ _ b4 t4]
                  cases parseBlockBody fuel false (p3.currentIndent + 1)
                    (p4.withTable (p4.symbolTable.beginScope "while block")) with
                  | error f => rfl
                  | ok y => rfl

theorem parseForStmt_checked {fuel : Nat} (ih : StmtChecks fuel) :
    StmtChecked parseForStmtChecked parseForStmt (fuel + 1) := by
  intro p hb ht
  unfold parseForStmtChecked parseForStmt
  simp only
  cases e1 : p.expect .Keyword "Expected 'for' keyword" "for" with
  | error f => rfl
  | ok p1 =>
      simp only [liftRes_ok]
      cases e2 : parsePrimary fuel p1 with
      | error f => rfl
      | ok x =>
          obtain ⟨var, p2⟩ := x
          simp only [liftRes_ok]
          have l2 : Later p2 p := (((expr_keeps fuel).primary p1 var p2 e2).1).after (expect_later e1)
          by_cases hv : var.getNodeType ≠ "Identifier"
          · rw [if_pos hv, if_pos hv]; rfl
          · rw [if_neg hv, if_neg hv]
            cases e3 : p2.expect .Keyword "Expected 'in' after loop variable" "in" with
            | error f => rfl
            | ok p3 =>
                simp only [liftRes_ok]
                cases e4 : parseExpr fuel p3 with
                | error f => rfl
                | ok y =>
                    obtain ⟨iter, p4⟩ := y
                    simp only [liftRes_ok]
                    by_cases hi : iter.isNull = true
                    · rw [if_pos hi, if_pos hi]; rfl
                    · rw [if_neg hi, if_neg hi]
                      cases e5 : p4.expect .Delimiter "Expected ':' after for loop header" ":" with
                      | error f => rfl
                      | ok p5 =>
                          simp only [liftRes_ok]
                          have l5 : Later p5 p :=
                            (((expect_later e5).after (parseExpr_later e4)).after
                              (expect_later e3)).after l2
                          cases e6 : (p5.pushIndent (p5.currentIndent + 1)).expectIndent
                              (p5.currentIndent + 1) with
                          | error f => rfl
                          | ok p6 =>
                              simp only [liftRes_ok]
                              obtain ⟨b6, t6⟩ := openBlock_pre "for loop"
                                (balanced_of_later l5 hb) (ht.later_table l5) e6
                              rw [ih.body false _ _ b6 t6]
                              cases parseBlockBody fuel false (p5.currentIndent + 1)
                                (p6.withTable (p6.symbolTable.beginScope "for loop")) with
                              | error f => rfl
                              | ok z => rfl

theorem elifLoop_checked {fuel : Nat} (ih : StmtChecks fuel) :
    ∀ lvl cs p, p.balanced = true → TInv p.symbolTable →
      elifLoopChecked (fuel + 1) lvl cs p = liftRes (elifLoop (fuel + 1) lvl cs p) := by
  intro lvl cs p hb ht
  unfold elifLoopChecked elifLoop
  have step : ∀ (p0 : Parser), Later p0 p →
      (if p0.currentToken.type ≠ .Keyword ∨ p0.currentToken.value ≠ "elif" then
            (.ok (cs, p0) : CheckedRes (List ASTNode))
          else
            match liftRes (p0.expect .Keyword "Expected 'elif' keyword" "elif") with
            | .error f => .error f
            | .ok p1 =>
              match liftRes (parseExpr fuel p1) with
              | .error f => .error f
              | .ok (elifCondition, p2) =>
                match liftRes (p2.expect .Delimiter "Expected ':' after elif condition" ":") with
                | .error f => .error f
                | .ok p3 =>
                  match liftRes ((p3.pushIndent (lvl + 1)).expectIndent (lvl + 1)) with
                  | .error f => .error f
                  | .ok p4 =>
                    match parseBlockBodyChecked fuel false (lvl + 1)
                        (p4.withTable (p4.symbolTable.beginScope "elif block")) with
                    | .error f => .error f
                    | .ok (elifBlock, p5) =>
                        elifLoopChecked fuel lvl
                          (cs ++ [ElifNode p0.currentToken elifCondition elifBlock]) p5) =
      liftRes
        (if p0.currentToken.type ≠ .Keyword ∨ p0.currentToken.value ≠ "elif" then
            (.ok (cs, p0) : Res (List ASTNode))
          else
            match p0.expect .Keyword "Expected 'elif' keyword" "elif" with
            | .error f => .error f
            | .ok p1 =>
              match parseExpr fuel p1 with
              | .error f => .error f
              | .ok (elifCondition, p2) =>
                match p2.expect .Delimiter "Expected ':' after elif condition" ":" with
                | .error f => .error f
                | .ok p3 =>
                  match (p3.pushIndent (lvl + 1)).expectIndent (lvl + 1) with
                  | .error f => .error f
                  | .ok p4 =>
                    match parseBlockBody fuel false (lvl + 1)
                        (p4.withTable (p4.symbolTable.beginScope "elif block")) with
                    | .error f => .error f
                    | .ok (elifBlock, p5) =>
                        elifLoop fuel lvl
                          (cs ++ [ElifNode p0.currentToken elifCondition elifBlock]) p5) := by
    intro p0 l0
    by_cases hk : p0.currentToken.type ≠ .Keyword ∨ p0.currentToken.value ≠ "elif"
    · rw [if_pos hk, if_pos hk]; rfl
    · rw [if_neg hk, if_neg hk]
      cases e1 : p0.expect .Keyword "Expected 'elif' keyword" "elif" with
      | error f => rfl
      | ok p1 =>
          simp only [liftRes_ok]
          cases e2 : parseExpr fuel p1 with
          | error f => rfl
          | ok x =>
              obtain ⟨cond, p2⟩ := x
              simp only [liftRes_ok]
              cases e3 : p2.expect .Delimiter "Expected ':' after elif condition" ":" with
              | error f => rfl
              | ok p3 =>
                  simp only [liftRes_ok]
                  have l3 : Later p3 p :=
                    (((expect_later e3).after (parseExpr_later e2)).after (expect_later e1)).after l0
                  cases e4 : (p3.pushIndent (lvl + 1)).expectIndent (lvl + 1) with
                  | error f => rfl
                  | ok p4 =>
                      simp only [liftRes_ok]
                      obtain ⟨b4, t4⟩ := openBlock_pre "elif block" (balanced_of_later l3 hb)
                        (ht.later_table l3) e4
                      rw [ih.body false _ _ b4 t4]
                      cases e5 : parseBlockBody fuel false (lvl + 1)
                        (p4.withTable (p4.symbolTable.beginScope "elif block")) with
                      | error f => rfl
                      | ok y =>
                          obtain ⟨blk, p5⟩ := y
                          simp only [liftRes_ok]
                          obtain ⟨f5, -⟩ := openBlock_held (stmt_keeps fuel).body
                            (ht.later_table l3) e4 e5
                          have f50 : Frame p5 p := f5.comp (l3.frame ht)
                          exact ih.elifs lvl _ p5 (balanced_of_frame f50 hb) f50.2.2.1
  by_cases c1 : p.currentToken.type = .Indent
  · simp only [if_pos c1]
    cases hs : stoi p.currentToken.value with
    | none => rfl
    | some a =>
        simp only
        by_cases c2 : a ≠ lvl
        · simp only [if_pos c2]; rfl
        · simp only [if_neg c2]
          exact step p.advance (Later.advance p)
  · simp only [if_neg c1]
    exact step p (Later.here p)

theorem parseIfStmt_checked {fuel : Nat} (ih : StmtChecks fuel) :
    StmtChecked parseIfStmtChecked parseIfStmt (fuel + 1) := by
  intro p hb ht
  unfold parseIfStmtChecked parseIfStmt
  simp only
  cases e1 : p.expect .Keyword "Expected 'if' keyword" "if" with
  | error f => rfl
  | ok p1 =>
      simp only [liftRes_ok]
      cases e2 : parseExpr fuel p1 with
      | error f => rfl
      | ok x =>
          obtain ⟨cond, p2⟩ := x
          simp only [liftRes_ok]
          cases e3 : p2.expect .Delimiter "Expected ':' after if condition" ":" with
          | error f => rfl
          | ok p3 =>
              simp only [liftRes_ok]
              have l3 : Later p3 p :=
                ((expect_later e3).after (parseExpr_later e2)).after (expect_later e1)
              cases e4 : (p3.pushIndent (p3.currentIndent + 1)).expectIndent
                  (p3.currentIndent + 1) with
              | error f => rfl
              | ok p4 =>
                  simp only [liftRes_ok]
                  obtain ⟨b4, t4⟩ := openBlock_pre "if block" (balanced_of_later l3 hb)
                    (ht.later_table l3) e4
                  rw [ih.body true _ _ b4 t4]
                  cases e5 : parseBlockBody fuel true (p3.currentIndent + 1)
                    (p4.withTable (p4.symbolTable.beginScope "if block")) with
                  | error f => rfl
                  | ok y =>
                      obtain ⟨thenBlock, p5⟩ := y
                      simp only [liftRes_ok]
                      obtain ⟨f5, -⟩ := openBlock_held (stmt_keeps fuel).body
                        (ht.later_table l3) e4 e5
                      have f50 : Frame p5 p := f5.comp (l3.frame ht)
                      rw [ih.elifs _ [] p5 (balanced_of_frame f50 hb) f50.2.2.1]
                      cases e6 : elifLoop fuel p3.currentIndent [] p5 with
                      | error f => rfl
                      | ok z =>
                          obtain ⟨elifs, p6⟩ := z
                          simp only [liftRes_ok]
                          obtain ⟨f6, -⟩ := (stmt_keeps fuel).elifs _ [] p5 elifs p6 f5.2.2.1 e6
                          have f60 : Frame p6 p := f6.comp f50
                          have b6 := balanced_of_frame f60 hb
                          have la : Later p6.advance p6 := Later.advance p6
                          by_cases c1 : p6.currentToken.type = .Indent
                          · simp only [if_pos c1]
                            cases hs : stoi p6.currentToken.value with
                            | none => rfl
                            | some a =>
                                simp only
                                by_cases c2 : a = p3.currentIndent
                                · simp only [if_pos c2]
                                  by_cases c3 : p6.advance.currentToken.type = .Keyword ∧
                                      p6.advance.currentToken.value = "else"
                                  · simp only [if_pos c3]
                                    rw [ih.elseS p6.advance (balanced_of_later la b6)
                                      (f60.2.2.1.later_table la)]
                                    cases parseElseStmt fuel p6.advance with
                                    | error f => rfl
                                    | ok w => rfl
                                  · simp only [if_neg c3]; rfl
                                · simp only [if_neg c2]; rfl
                          · simp only [if_neg c1]
                            by_cases c3 : p6.currentToken.type = .Keyword ∧
                                p6.currentToken.value = "else"
                            · simp only [if_pos c3]
                              rw [ih.elseS p6 b6 f60.2.2.1]
                              cases parseElseStmt fuel p6 with
                              | error f => rfl
                              | ok w => rfl
                            · simp only [if_neg c3]; rfl

theorem parseFuncDef_checked {fuel : Nat} (ih : StmtChecks fuel) :
    StmtChecked parseFuncDefChecked parseFuncDef (fuel + 1) := by
  intro p hb ht
  unfold parseFuncDefChecked parseFuncDef
  simp only
  cases e1 : p.expect .Keyword "Expected 'def' keyword" "def" with
  | error f => rfl
  | ok p1 =>
      simp only [liftRes_ok]
      have l1 : Later p1 p := expect_later e1
      cases e2 : p1.expect .Identifier "Expected function name after 'def'" with
      | error f => rfl
      | ok p2 =>
          simp only [liftRes_ok]
          have l20 : Later p2 p := (expect_later e2).after l1
          have ht2 : TInv p2.symbolTable := ht.later_table l20
          obtain ⟨p3, hp3, hs3, ht3, hst3⟩ : ∃ p3 : Parser,
              p3 = p2.withTable ((p2.symbolTable.declare p1.currentToken.value "function" "function"
                "unknown").beginScope (p1.currentToken.value ++ " (function)")) ∧
              p3.symbolTable.scopeNames =
                (p1.currentToken.value ++ " (function)") :: p.symbolTable.scopeNames ∧
              TInv p3.symbolTable ∧ p3.indentStack = p.indentStack := by
            refine ⟨_, rfl, ?_, ?_, ?_⟩
            · simp only [withTable_symbolTable, ParserSymbolTable.beginScope]
              rw [(declare_scopeNames ht2 _ _ _ _).1, l20.2.1]
            · exact (declare_scopeNames ht2 _ _ _ _).2.beginScope _
            · simp only [withTable_indentStack]
              exact l20.2.2
          rw [← hp3]
          cases e4 : p3.expect .Delimiter "Expected '(' after function name" "(" with
          | error f => rfl
          | ok p4 =>
              simp only [liftRes_ok]
              have l4 : Later p4 p3 := expect_later e4
              have ht4 : TInv p4.symbolTable := ht3.later_table l4
              cases e5 : (if p4.currentToken.type = .Identifier then
                     paramLoop fuel [p4.currentToken.value]
                       (p4.withTable (p4.symbolTable.declare p4.currentToken.value "unknown"
                         "parameter")).advance
                   else .ok ([], p4)) with
              | error f => rfl
              | ok x =>
                  obtain ⟨names, p5⟩ := x
                  simp only [liftRes_ok]
                  have f5 : Frame p5 p4 := by
                    by_cases hI : p4.currentToken.type = .Identifier
                    · rw [if_pos hI] at e5
                      have f1 : Frame (p4.withTable (p4.symbolTable.declare p4.currentToken.value
                          "unknown" "parameter")) p4 := Frame.declare ht4 _ _ _ _
                      have f2 : Frame (p4.withTable (p4.symbolTable.declare p4.currentToken.value
                          "unknown" "parameter")).advance p4 := by
                        refine ⟨(advance_follows _).trans f1.1, ?_, ?_, ?_⟩
                        · simpa using f1.2.1
                        · simpa using f1.2.2.1
                        · simp
                      exact (paramLoop_held fuel _ _ names p5 f2.2.2.1 e5).comp f2
                    · rw [if_neg hI] at e5
                      simp only [Except.ok.injEq, Prod.mk.injEq] at e5
                      rw [← e5.2]
                      exact Frame.still ht4
                  cases e6 : p5.expect .Delimiter "Expected ')' after parameter list" ")" with
                  | error f => rfl
                  | ok p6 =>
                      simp only [liftRes_ok]
                      cases e7 : p6.expect .Delimiter "Expected ':' after function definition"
                          ":" with
                      | error f => rfl
                      | ok p7 =>
                          simp only [liftRes_ok]
                          have f73 : Frame p7 p3 :=
                            (((expect_later e7).after (expect_later e6)).frame f5.2.2.1).comp
                              (f5.comp (l4.frame ht3))
                          cases e8 : (p7.pushIndent (p7.currentIndent + 1)).expectIndent
                              (p7.currentIndent + 1) with
                          | error f => rfl
                          | ok p8 =>
                              simp only [liftRes_ok]
                              have l8 : Later p8 (p7.pushIndent (p7.currentIndent + 1)) :=
                                expectIndent_later e8
                              have ht8 : TInv p8.symbolTable := by
                                rw [l8.2.1]
                                simp only [pushIndent_symbolTable]
                                exact f73.2.2.1
                              have b8 : p8.balanced = true := by
                                rw [balanced_iff] at hb ⊢
                                rw [l8.2.1, l8.2.2]
                                simp only [pushIndent_symbolTable, pushIndent_indentStack,
                                  List.length_cons]
                                rw [f73.2.1, hs3, f73.2.2.2, hst3]
                                simp only [List.length_cons]
                                omega
                              rw [ih.body false _ p8 b8 ht8]
                              cases parseBlockBody fuel false (p7.currentIndent + 1) p8 with
                              | error f => rfl
                              | ok y => rfl

theorem stmt_checks : ∀ fuel, StmtChecks fuel := by
  intro fuel
  induction fuel with
  | zero =>
      refine ⟨?_, ?_, ?_, ?_, ?_, ?_, ?_, ?_, ?_⟩
      all_goals first
        | (intro p _ _; rfl)
        | (intro b lvl cs p _ _; rfl)
        | (intro b lvl p _ _; rfl)
  | succ fuel ih =>
      exact ⟨parseStmt_checked ih, blockLoop_checked ih, parseBlockBody_checked ih,
        elifLoop_checked ih, parseElseStmt_checked ih, parseIfStmt_checked ih,
        parseForStmt_checked ih, parseWhileStmt_checked ih, parseFuncDef_checked ih⟩

theorem programLoop_checked : ∀ (fuel : Nat) (cs : List ASTNode) (p : Parser),
    p.balanced = true → TInv p.symbolTable →
    programLoopChecked fuel cs p = liftRes (programLoop fuel cs p)
  | 0, _, _, _, _ => rfl
  | fuel + 1, cs, p, hb, ht => by
      unfold programLoopChecked programLoop
      by_cases h1 : p.currentToken.type = .EOFToken
      · rw [if_pos h1, if_pos h1]; rfl
      rw [if_neg h1, if_neg h1]
      cases e1 : (if p.currentToken.type = .Indent then p.expectIndent 0 else .ok p) with
      | error f => rfl
      | ok p1 =>
          simp only [liftRes_ok]
          have l1 : Later p1 p := by
            split_ifs at e1
            · exact expectIndent_later e1
            · simp only [Except.ok.injEq] at e1
              rw [← e1]; exact Later.here p
          rw [(stmt_checks fuel).stmt p1 (balanced_of_later l1 hb) (ht.later_table l1)]
          cases e2 : parseStmt fuel p1 with
          | error f => rfl
          | ok x =>
              obtain ⟨stmt, p2⟩ := x
              simp only [liftRes_ok]
              obtain ⟨f2, -⟩ := (stmt_keeps fuel).stmt p1 stmt p2 (ht.later_table l1) e2
              have f20 : Frame p2 p := f2.comp (l1.frame ht)
              exact programLoop_checked fuel _ p2 (balanced_of_frame f20 hb) f20.2.2.1

theorem parseProgram_checked (fuel : Nat) (p : Parser) (hb : p.balanced = true)
    (ht : TInv p.symbolTable) : parseProgramChecked fuel p = liftRes (parseProgram fuel p) := by
  unfold parseProgramChecked parseProgram
  rw [programLoop_checked fuel [] p hb ht]
  cases programLoop fuel [] p with
  | error f => rfl
  | ok x => rfl

theorem Frame.sameStacks {q p : Parser} (h : Frame q p) (ht : TInv p.symbolTable) :
    SameStacks q p :=
  ⟨h.2.1, by rw [h.2.2.1.1, ht.1, h.2.1], h.2.2.2⟩

/-- C34. The scope stack mirrors the indent stack. On every token list (ending in
EndOfInput or not) and for every step budget: (1) the parser with the assertion "the two
stacks have the same depth" at each entry of `parseStmt` runs exactly as the parser does,
so the assertion never fails; (2) whenever one of the handlers of `if`, `else`, `for`,
`while`, `def`, or the loop over the `elif` branches, returns, with a node or without one
after a parse error, the names of the scopes, the number of frames and the indent stack are
what they were at its entry; (3) when `parseProgram` returns, the scope stack is
["global"] and the indent stack is [0]; (4) and it does return on a list that ends in
EndOfInput, with readable IndentMarkers and no operator `%`. The last two parts are the
run on a program with nested blocks and parse errors, and the assertion failing when the
run is started with one indent level too many. -/
theorem stacks_mirror (tokens : List Token) (fuel : Nat) :
    parseProgramChecked fuel (Parser.new tokens {}) =
      liftRes (parseProgram fuel (Parser.new tokens {})) ∧
    (∀ (p q : Parser) (n : ASTNode), TInv p.symbolTable →
      (parseIfStmt fuel p = .ok (n, q) ∨ parseElseStmt fuel p = .ok (n, q) ∨
        parseForStmt fuel p = .ok (n, q) ∨ parseWhileStmt fuel p = .ok (n, q) ∨
        parseFuncDef fuel p = .ok (n, q)) → SameStacks q p) ∧
    (∀ (p q : Parser) (lvl : Int) (cs r : List ASTNode), TInv p.symbolTable →
      elifLoop fuel lvl cs p = .ok (r, q) → SameStacks q p) ∧
    (∀ (n : ASTNode) (q : Parser), parseProgram fuel (Parser.new tokens {}) = .ok (n, q) →
      q.symbolTable.scopeNames = ["global"] ∧ q.symbolTable.scopes.length = 1 ∧
        q.indentStack = [0]) ∧
    (EndsEOF tokens → GoodTokens tokens →
      ∃ n q, runParser tokens = .ok (n, q) ∧ q.symbolTable.scopeNames = ["global"] ∧
        q.indentStack = [0]) ∧
    (parseProgramChecked (parseFuel (lexTokens scenarioNested))
        (Parser.new (lexTokens scenarioNested) {})).toOption.map
      (fun r => (r.2.symbolTable.scopeNames, r.2.indentStack, r.2.errors.length)) =
      some (["global"], [0], 6) ∧
    (parseProgramChecked (parseFuel (lexTokens scenarioNested))
        { Parser.new (lexTokens scenarioNested) {} with indentStack := [0, 0] }).failedCheck =
      true := by
  have hb : (Parser.new tokens {}).balanced = true := by
    rw [balanced_iff, new_symbolTable, new_indentStack]; rfl
  have ht : TInv (Parser.new tokens {}).symbolTable := by
    rw [new_symbolTable]; exact TInv.fresh
  have fin : ∀ (n : ASTNode) (q : Parser),
      parseProgram fuel (Parser.new tokens {}) = .ok (n, q) →
      q.symbolTable.scopeNames = ["global"] ∧ q.symbolTable.scopes.length = 1 ∧
        q.indentStack = [0] := by
    intro n q h
    obtain ⟨s1, s2, s3⟩ := (parseProgram_held ht h).1.sameStacks ht
    rw [new_symbolTable] at s1 s2
    rw [new_indentStack] at s3
    exact ⟨s1, s2, s3⟩
  refine ⟨parseProgram_checked fuel _ hb ht, ?_, ?_, fin, ?_, by decide!, by decide!⟩
  · intro p q n htp h
    rcases h with h | h | h | h | h
    · exact ((stmt_keeps fuel).ifS p n q htp h).1.sameStacks htp
    · exact ((stmt_keeps fuel).elseS p n q htp h).1.sameStacks htp
    · exact ((stmt_keeps fuel).forS p n q htp h).1.sameStacks htp
    · exact ((stmt_keeps fuel).whileS p n q htp h).1.sameStacks htp
    · exact ((stmt_keeps fuel).defS p n q htp h).1.sameStacks htp
  · intro p q lvl cs r htp h
    exact ((stmt_keeps fuel).elifs lvl cs p r q htp h).1.sameStacks htp
  · intro he hg
    have hs := new_stream he.ne_nil {}
    have hi : Inv (Parser.new tokens {}) := by
      unfold Inv
      rw [hs]
      exact ⟨he, hg⟩
    have hlen : (Parser.new tokens {}).rest.length + 1 = tokens.length := by
      have := congrArg List.length hs
      simpa [stream] using this
    obtain ⟨cs, q, e, f⟩ := parseProgram_spec (parseFuel tokens) (Parser.new tokens {}) hi ht
      (by rw [new_symbolTable]; decide) (by unfold parseFuel; omega)
    refine ⟨_, q, e, ?_, ?_⟩
    · rw [f.2.1, new_symbolTable]
    · rw [f.2.2.2, new_indentStack]

/-- A round of the block loop at a statement for which `parseStmt` gives no node, in a block
other than the one of an `if`: the loop goes on, with the children it had. -/
theorem blockLoop_null_step {fuel : Nat} {lvl : Int} {cs : List ASTNode} {p p1 : Parser}
    {stmt : ASTNode} (h1 : p.currentToken.type ≠ .EOFToken) (h2 : p.currentToken.type ≠ .Indent)
    (hs : parseStmt fuel p = .ok (stmt, p1)) (hn : stmt.isNull = true) :
    blockLoop (fuel + 1) false lvl cs p = blockLoop fuel false lvl cs p1 := by
  rw [blockLoop, if_neg h1, if_neg h2, hs]
  simp [hn]

/-- A round of the block loop at a statement for which `parseStmt` gives a node: the node is
attached to the block. -/
theorem blockLoop_node_step {fuel : Nat} {b : Bool} {lvl : Int} {cs : List ASTNode}
    {p p1 : Parser} {stmt : ASTNode} (h1 : p.currentToken.type ≠ .EOFToken)
    (h2 : p.currentToken.type ≠ .Indent) (hs : parseStmt fuel p = .ok (stmt, p1))
    (hn : stmt.isNull = false) :
    blockLoop (fuel + 1) b lvl cs p = blockLoop fuel b lvl (cs ++ [stmt]) p1 := by
  rw [blockLoop, if_neg h1, if_neg h2, hs]
  simp [hn]

/-- A round of the block loop at an IndentMarker of the level of the block or deeper: the
marker is read and the loop goes on. -/
theorem blockLoop_marker_step {fuel : Nat} {b : Bool} {lvl level : Int} {cs : List ASTNode}
    {p p1 : Parser} (h2 : p.currentToken.type = .Indent)
    (hl : stoi p.currentToken.value = some level) (hge : level ≥ lvl)
    (he : p.expectIndent lvl = .ok p1) :
    blockLoop (fuel + 1) b lvl cs p = blockLoop fuel b lvl cs p1 := by
  have h1 : p.currentToken.type ≠ .EOFToken := by rw [h2]; decide
  rw [blockLoop, if_neg h1, if_pos h2, hl]
  simp only [if_pos hge, he]

/-- The marker of a line of the expected level, followed by the first token of the line:
`expectIndent` reads the marker and records nothing. -/
theorem expectIndent_level {p : Parser} {lvl : Int} {t : Token} {r : List Token}
    (h2 : p.currentToken.type = .Indent) (hl : stoi p.currentToken.value = some lvl)
    (hr : p.rest = t :: r) (ht : t.type ≠ .Indent) :
    p.expectIndent lvl = .ok (p.moveTo t r) := by
  unfold expectIndent expectIndentLoop
  rw [if_neg (by simp [h2]), hl, hr]
  simp only [ne_eq, not_true_eq_false, if_false, if_neg ht]
  cases p
  simp only [moveTo]

/-- C37 (amended). Error recovery is the same in the blocks of `elif`, `else`, `for`, `while`
and `def`, whose loop is `blockLoop` with `breakOnNull = false`. When `parseStmt` gives no
node for a statement of the block and stops at the IndentMarker of the next line, of the
level of the block, the loop reads the marker without an error and parses the next
statement with the scope stack and the indent stack of the block, and the node of that
statement is attached to the children of the block. So for a statement in error followed by
`d = 1` in each of the five kinds of block, the Assign is a child of the Block and `d` is
declared in the scope of the block. -/
theorem recovery_in_blocks :
    (∀ (fuel : Nat) (lvl : Int) (cs : List ASTNode) (p p1 p3 : Parser) (s1 s2 : ASTNode)
        (t : Token) (r : List Token),
      TInv p.symbolTable → p.currentToken.type ≠ .EOFToken → p.currentToken.type ≠ .Indent →
      parseStmt (fuel + 2) p = .ok (s1, p1) → s1.isNull = true →
      p1.currentToken.type = .Indent → stoi p1.currentToken.value = some lvl →
      p1.rest = t :: r → t.type ≠ .Indent → t.type ≠ .EOFToken →
      parseStmt fuel (p1.moveTo t r) = .ok (s2, p3) → s2.isNull = false →
      blockLoop (fuel + 3) false lvl cs p = blockLoop fuel false lvl (cs ++ [s2]) p3 ∧
        (p1.moveTo t r).symbolTable.scopeNames = p.symbolTable.scopeNames ∧
        (p1.moveTo t r).indentStack = p.indentStack ∧
        (p1.moveTo t r).errors = p1.errors) ∧
    treeAfter scenarioRecoverWhile =
      some "Program(While(Identifier, Block(Assign(Identifier, Number))))" ∧
    scopesAfter scenarioRecoverWhile = some ([("d", "while block")], 2) ∧
    treeAfter scenarioRecoverFor =
      some "Program(For(Identifier, Identifier, Block(Assign(Identifier, Number))))" ∧
    scopesAfter scenarioRecoverFor = some ([("d", "for loop")], 2) ∧
    treeAfter scenarioRecoverDef =
      some "Program(FunctionDef(Identifier, Block(Assign(Identifier, Number))))" ∧
    scopesAfter scenarioRecoverDef = some ([("f", "global"), ("d", "f (function)")], 2) ∧
    treeAfter scenarioRecoverElse =
      some ("Program(If(Identifier, Block(Assign(Identifier, Number)), " ++
        "Block(Assign(Identifier, Number))))") ∧
    scopesAfter scenarioRecoverElse = some ([("x", "if block"), ("d", "else block")], 2) ∧
    treeAfter scenarioRecoverElif =
      some ("Program(If(Identifier, Block(Assign(Identifier, Number)), " ++
        "Elif(Identifier, Block(Assign(Identifier, Number)))))") ∧
    scopesAfter scenarioRecoverElif = some ([("x", "if block"), ("d", "elif block")], 2) := by
  refine ⟨?_, by decide!, by decide!, by decide!, by decide!, by decide!, by decide!, by decide!,
    by decide!, by decide!, by decide!⟩
  intro fuel lvl cs p p1 p3 s1 s2 t r htp h1 h2 hs1 hn1 hi hl hr ht hte hs2 hn2
  obtain ⟨f1, -⟩ := (stmt_keeps (fuel + 2)).stmt p s1 p1 htp hs1
  have e1 := @blockLoop_null_step (fuel + 2) lvl cs p p1 s1 h1 h2 hs1 hn1
  have e2 := @blockLoop_marker_step (fuel + 1) false lvl lvl cs p1 (p1.moveTo t r) hi hl
    (le_refl _) (expectIndent_level hi hl hr ht)
  have e3 := @blockLoop_node_step fuel false lvl cs (p1.moveTo t r) p3 s2 hte ht hs2 hn2
  exact ⟨e1.trans (e2.trans e3), f1.2.1, f1.2.2.2, rfl⟩

/-- In the block of an `if` the statement in error ends the block: `d = 1`, of the same
level, is a statement of the program, `d` is declared in the scope "global", and the
IndentMarker of its line is reported as an incorrect indentation. -/
theorem if_block_ends_at_error :
    treeAfter scenarioRecoverIf =
      some "Program(If(Identifier, Block), Assign(Identifier, Number))" ∧
    scopesAfter scenarioRecoverIf = some ([("d", "global")], 3) ∧
    (runParser (lexTokens scenarioRecoverIf)).toOption.map
      (fun r => r.2.errors.map (fun e => (e.line, e.col, e.message))) =
      some [(2, 5, "Invalid statement starting with identifier: b"),
            (2, 7, "Invalid statement starting with identifier: c"),
            (3, 5, "Incorrect indentation level")] := by
  refine ⟨by decide!, by decide!, by decide!⟩

end Parser

/-- C7. The six-line chain of scenario 3 ends with one entry for `b` per branch, scopes
"if block", "elif block", "else block", ids 0, 1, 2, and no error. With a comment line
(or an empty line) between the then-block and the `elif`, the lexer emits an IndentMarker
of level 0 for that line too; the elif loop of `parseIfStmt` consumes one marker and then
requires the keyword `elif`, finds the second marker and ends the chain. The `elif` and the
`else` then reach `parseStmt` at the top level: four errors are recorded, the table ends
with two entries for `b`, scopes "if block" and "global", and no entry has the scope
"elif block" or "else block". The same comment line before the `else` is harmless, because
the check for `else` consumes a marker of its own after the one the elif loop took. -/
theorem comment_line_detaches_elif :
    (runParser (lexTokens scenarioIf)).toOption.map
        (fun r => (r.2.errors, r.2.symbolTable.entries.map entrySummary)) =
      some ([], [(0, "b", "if block"), (1, "b", "elif block"), (2, "b", "else block")]) ∧
    (lexTokens scenarioIfCommentElif).map (fun t => (t.type, t.value, t.line)) =
      [(.Indent, "0", 1), (.Keyword, "if", 1), (.Identifier, "a", 1), (.Operator, "==", 1),
       (.Number, "1", 1), (.Delimiter, ":", 1),
       (.Indent, "1", 2), (.Identifier, "b", 2), (.Operator, "=", 2), (.Number, "2", 2),
       (.Indent, "0", 3),
       (.Indent, "0", 4), (.Keyword, "elif", 4), (.Identifier, "a", 4), (.Operator, "==", 4),
       (.Number, "2", 4), (.Delimiter, ":", 4),
       (.Indent, "1", 5), (.Identifier, "b", 5), (.Operator, "=", 5), (.Number, "3", 5),
       (.Indent, "0", 6), (.Keyword, "else", 6), (.Delimiter, ":", 6),
       (.Indent, "1", 7), (.Identifier, "b", 7), (.Operator, "=", 7), (.Number, "4", 7),
       (.EOFToken, "EOF", 7)] ∧
    (runParser (lexTokens scenarioIfCommentElif)).toOption.map (fun r => r.2.errors) =
      some [{ line := 4, col := 1, message := "Unexpected token at start of statement: elif" },
            { line := 5, col := 5, message := "Incorrect indentation level" },
            { line := 6, col := 1, message := "Unexpected token at start of statement: else" },
            { line := 7, col := 5, message := "Incorrect indentation level" }] ∧
    (runParser (lexTokens scenarioIfCommentElif)).toOption.map
        (fun r => r.2.symbolTable.entries.map (fun e => (entrySummary e, e.value))) =
      some [((0, "b", "if block"), "2.000000"), ((1, "b", "global"), "4.000000")] ∧
    (runParser (lexTokens scenarioIfCommentElif)).toOption.map (fun r =>
      r.1.children?.map (fun s => (s.getNodeType, s.children?.map ASTNode.getNodeType))) =
      some [("If", ["BinaryOp", "Block"]), ("Assign", ["Identifier", "Number"]),
            ("Assign", ["Identifier", "Number"])] ∧
    (runParser (lexTokens scenarioIfBlankElif)).toOption.map
        (fun r => (r.2.errors.length, r.2.symbolTable.entries.map entrySummary)) =
      some (4, [(0, "b", "if block"), (1, "b", "global")]) ∧
    (runParser (lexTokens scenarioIfCommentElse)).toOption.map
        (fun r => (r.2.errors, r.2.symbolTable.entries.map entrySummary)) =
      some ([], [(0, "b", "if block"), (1, "b", "elif block"), (2, "b", "else block")]) := by
  refine ⟨by decide!, by decide!, by decide!, by decide!, by decide!, by decide!, by decide!⟩

namespace ParserSymbolTable

/-- The text of a double is never the word "unknown". -/
theorem doubleToString_ne_unknown (d : Dbl) : doubleToString d ≠ "unknown" := by
  cases d with
  | fin s m e =>
      intro h
      have hd : '.' ∈ (doubleToString (.fin s m e)).data := by
        simp only [doubleToString, String.data_append]
        simp
      rw [h] at hd
      exact absurd hd (by decide)
  | inf s => cases s <;> decide
  | nan s => cases s <;> decide

/-- In a well-formed table, a name bound in the current frame is looked up there. -/
theorem lookupEntry_of_head {t : ParserSymbolTable} (hw : WellFormed t) (name : String)
    (id : Int) (hb : (t.scopes.headD []).lookup name = some id) :
    t.lookupEntry name = t.entries[id.toNat]? := by
  obtain ⟨-, -, h3, h4, -, -⟩ := hw
  unfold lookupEntry
  rw [lookupEntryIn_eq t.entries name t.scopes
    (fun frame hf n hn => ⟨(h3 frame hf name n hn).1,
      (h3 frame hf name n hn).2.choose, (h3 frame hf name n hn).2.choose_spec.1⟩)]
  cases hs : t.scopes with
  | nil => exact absurd hs h4
  | cons f outer =>
      rw [hs] at hb
      simp only [List.headD_cons] at hb
      simp only [findId, hb]

/-- The entry that `lookupEntry` finds for a name right after `declare` of that name: the
refined entry when the name was bound in the current frame, the new entry otherwise. -/
theorem lookupEntry_declare {t : ParserSymbolTable} (hw : WellFormed t)
    (name type role value : String) :
    (t.declare name type role value).lookupEntry name =
      match (t.scopes.headD []).lookup name with
      | some id => (t.entries[id.toNat]?).map (fun e => refineEntry e type role value)
      | none => some { id := t.nextId, name := name, dataType := type, value := value,
                       role := role, scope := t.scopeNames.headD "" } := by
  have hw' : WellFormed (t.declare name type role value) :=
    hw.after_step (Step.declare t name type role value)
  obtain ⟨-, h2, -, h4, -, -⟩ := hw
  cases hb : (t.scopes.headD []).lookup name with
  | some id =>
      have hb' : ((t.declare name type role value).scopes.headD []).lookup name = some id := by
        rw [declare_of_bound t name type role value id hb]
        exact hb
      rw [lookupEntry_of_head hw' name id hb', declare_of_bound t name type role value id hb]
      simp only [List.getElem?_modify, if_true, Option.map_eq_map]
  | none =>
      have e := declare_of_fresh t name type role value h4 hb
      have hb' : ((t.declare name type role value).scopes.headD []).lookup name =
          some t.nextId := by
        rw [e]
        simp only [List.headD_cons]
        rw [lookup_append_single, hb]
        simp
      rw [lookupEntry_of_head hw' name t.nextId hb', e]
      simp only [h2, Int.toNat_ofNat]
      simp

/-- The value found for a name after `declare` with a value other than "unknown", or of a
name not yet bound in the current frame, is the declared value. -/
theorem stored_after_declare {t : ParserSymbolTable} (hw : WellFormed t)
    (name type role value : String)
    (h : value ≠ "unknown" ∨ (t.scopes.headD []).lookup name = none) :
    ((t.declare name type role value).lookupEntry name).map (fun e => e.value) =
      some value := by
  rw [lookupEntry_declare hw]
  cases hb : (t.scopes.headD []).lookup name with
  | none => rfl
  | some id =>
      have hv : value ≠ "unknown" := by
        rcases h with h | h
        · exact h
        · rw [hb] at h; exact Option.noConfusion h
      obtain ⟨-, -, h3, h4, -, -⟩ := hw
      have hmem : t.scopes.headD [] ∈ t.scopes := by
        cases hs : t.scopes with
        | nil => exact absurd hs h4
        | cons f outer => simp
      obtain ⟨-, e, he, -⟩ := h3 _ hmem name id hb
      simp only [he, Option.map_some', refineEntry_eq, hv, ne_eq, not_false_eq_true, if_true]

/-- The value found for a name bound in the current frame is unchanged by `declare` with
the value "unknown". -/
theorem stored_after_declare_unknown {t : ParserSymbolTable} (hw : WellFormed t)
    (name type role : String) (id : Int) (hb : (t.scopes.headD []).lookup name = some id) :
    ((t.declare name type role "unknown").lookupEntry name).map (fun e => e.value) =
      (t.lookupEntry name).map (fun e => e.value) := by
  rw [lookupEntry_declare hw, lookupEntry_of_head hw name id hb]
  simp only [hb, Option.map_map]
  congr 1
  funext e
  simp only [Function.comp_apply, refineEntry_eq, ne_eq, not_true_eq_false, if_false]

end ParserSymbolTable

/-- C10 (amended). For every assignment `NAME = LIT` that ends its line (the token after
LIT is an IndentMarker or EndOfInput), where LIT is a single literal token, the parser
returns and has declared NAME with a value that depends on the kind of LIT: for a Number
that `std::stod` reads as the double `d`, the text `std::to_string(d)` (six decimals),
with the type "float" when the lexeme has a dot and "int" otherwise; for a String and for
`True` / `False`, the lexeme itself, with the types "string" and "boolean". In a table
reached by the operations of the table, the value then stored for NAME (the value of the
entry that `lookupEntry` finds) is that text for a Number and the lexeme for `True` /
`False` and for a String, with one exception: the String lexeme `unknown` assigned to a
name already bound in the current scope leaves the stored value as it was, because
`declare` does not write the value "unknown" into an entry that exists. -/
theorem assign_literal_stored (fuel : Nat) (p : Parser) (eq lit next : Token)
    (rest : List Token) (hname : p.currentToken.type = .Identifier)
    (hrest : p.rest = eq :: lit :: next :: rest) (heq : eq.type = .Operator ∧ eq.value = "=")
    (hnext : Parser.endsLine next) (hf : 9 ≤ fuel) :
    (∀ d, lit.type = .Number → stod lit.value = some d →
      ∃ n q, Parser.parseAssignStmt fuel p = .ok (n, q) ∧
        q.symbolTable = p.symbolTable.declare p.currentToken.value
          (if lit.value.data.contains '.' then "float" else "int") "variable"
          (doubleToString d) ∧
        (ParserSymbolTable.Reachable p.symbolTable →
          (q.symbolTable.lookupEntry p.currentToken.value).map (fun e => e.value) =
            some (doubleToString d))) ∧
    (lit.type = .String →
      ∃ n q, Parser.parseAssignStmt fuel p = .ok (n, q) ∧
        q.symbolTable = p.symbolTable.declare p.currentToken.value "string" "variable"
          lit.value ∧
        (ParserSymbolTable.Reachable p.symbolTable →
          (lit.value ≠ "unknown" ∨
              (p.symbolTable.scopes.headD []).lookup p.currentToken.value = none →
            (q.symbolTable.lookupEntry p.currentToken.value).map (fun e => e.value) =
              some lit.value) ∧
          (lit.value = "unknown" →
            (p.symbolTable.scopes.headD []).lookup p.currentToken.value ≠ none →
            (q.symbolTable.lookupEntry p.currentToken.value).map (fun e => e.value) =
              (p.symbolTable.lookupEntry p.currentToken.value).map (fun e => e.value)))) ∧
    (lit.type = .Keyword → lit.value = "True" ∨ lit.value = "False" →
      ∃ n q, Parser.parseAssignStmt fuel p = .ok (n, q) ∧
        q.symbolTable = p.symbolTable.declare p.currentToken.value "boolean" "variable"
          lit.value ∧
        (ParserSymbolTable.Reachable p.symbolTable →
          (q.symbolTable.lookupEntry p.currentToken.value).map (fun e => e.value) =
            some lit.value)) := by
  obtain ⟨f, rfl⟩ : ∃ f, fuel = f + 9 := ⟨fuel - 9, by omega⟩
  have hadv : ({ p with currentToken := lit, rest := next :: rest } : Parser).advance =
      { p with currentToken := next, rest := rest } := rfl
  refine ⟨fun d hty hd => ?_, fun hty => ?_, fun hty hv => ?_⟩
  · obtain ⟨n, q, h1, h2⟩ :=
      Parser.parseAssignStmt_atom f p eq lit next rest hname hrest heq hnext
        (.node (.Number d (if lit.value.data.contains '.' then "float" else "int")) lit [])
        (if lit.value.data.contains '.' then "float" else "int") (doubleToString d) rfl
        (by rw [Parser.parsePrimary]; simp only [hty, if_true, NumberNode, hd, hadv])
        (by rw [hty]; decide) (by rw [hty]; simp) (by rw [hty]; simp)
        (by intro q; simp [Parser.evaluateExpression, Parser.getValueFromNode])
        (by intro q; simp [Parser.getTypeFromNode])
        (by split_ifs <;> decide)
    refine ⟨n, q, h1, h2, fun hr => ?_⟩
    rw [h2]
    exact ParserSymbolTable.stored_after_declare hr.wellFormed _ _ _ _
      (Or.inl (ParserSymbolTable.doubleToString_ne_unknown d))
  · obtain ⟨n, q, h1, h2⟩ :=
      Parser.parseAssignStmt_atom f p eq lit next rest hname hrest heq hnext
        (StringNode lit) "string" lit.value rfl
        (by rw [Parser.parsePrimary]; simp [hty, hadv])
        (by rw [hty]; decide) (by rw [hty]; simp) (by rw [hty]; simp)
        (by intro q; simp [StringNode, Parser.evaluateExpression, Parser.getValueFromNode])
        (by intro q; simp [StringNode, Parser.getTypeFromNode])
        (by decide)
    refine ⟨n, q, h1, h2, fun hr => ⟨fun h => ?_, fun hu hb => ?_⟩⟩
    · rw [h2]
      exact ParserSymbolTable.stored_after_declare hr.wellFormed _ _ _ _ h
    · rw [h2, hu]
      cases hl : (p.symbolTable.scopes.headD []).lookup p.currentToken.value with
      | none => exact absurd hl hb
      | some id =>
          exact ParserSymbolTable.stored_after_declare_unknown hr.wellFormed _ _ _ id hl
  · obtain ⟨n, q, h1, h2⟩ :=
      Parser.parseAssignStmt_atom f p eq lit next rest hname hrest heq hnext
        (BooleanNode lit) "boolean" lit.value rfl
        (by rw [Parser.parsePrimary]; simp [hty, hv, hadv])
        (by rw [hty]; decide) (by rw [hty]; simp)
        (by
          rintro ⟨-, h⟩
          rcases hv with hv | hv <;> rw [hv] at h <;> exact absurd h (by decide))
        (by intro q; simp [BooleanNode, Parser.evaluateExpression])
        (by intro q; simp [BooleanNode, Parser.getTypeFromNode])
        (by decide)
    refine ⟨n, q, h1, h2, fun hr => ?_⟩
    rw [h2]
    refine ParserSymbolTable.stored_after_declare hr.wellFormed _ _ _ _ (Or.inl ?_)
    rcases hv with hv | hv <;> rw [hv] <;> decide

theorem assign_literal_stored_witness :
    ParserSymbolTable.Reachable assignParser.symbolTable ∧
    ∃ n q, Parser.parseAssignStmt 9 assignParser = .ok (n, q) ∧
      q.symbolTable = assignParser.symbolTable.declare "b" "int" "variable" "2.000000" ∧
      (q.symbolTable.lookupEntry "b").map (fun e => e.value) = some "2.000000" := by
  have h := (assign_literal_stored 9 assignParser (tok .Operator "=" 1 3) (tok .Number "2" 1 5)
    (tok .EOFToken "EOF" 1 6) [] rfl rfl ⟨rfl, rfl⟩ (Or.inr rfl) le_rfl).1
    (.fin false 4503599627370496 (-51)) rfl (by decide!)
  have e : doubleToString (.fin false 4503599627370496 (-51)) = "2.000000" := by decide!
  rw [e] at h
  obtain ⟨n, q, h1, h2, h3⟩ := h
  exact ⟨ParserSymbolTable.Reachable.init, n, q, h1, h2, h3 ParserSymbolTable.Reachable.init⟩

/-- The value stored for `b` by `b = 2` is "2.000000", the text of the double, and not
the lexeme "2"; likewise "3.000000" and "4.000000" for `b = 3` and `b = 4`. And after
`x = 1`, the assignment `x = "unknown"` of a String literal leaves the one entry of `x`
with the value "1.000000" (and the type "int"): the lexeme `unknown` is not stored. -/
theorem assign_number_stored_text :
    [lexTokens "b = 2", lexTokens "b = 3", lexTokens "b = 4"].map
      (fun ts => (runParser ts).toOption.map
        (fun r => r.2.symbolTable.entries.map (fun e => (e.name, e.value)))) =
      [some [("b", "2.000000")], some [("b", "3.000000")], some [("b", "4.000000")]] ∧
    (lexTokens scenarioAssignUnknown).map (fun t => (t.type, t.value, t.line)) =
      [(.Indent, "0", 1), (.Identifier, "x", 1), (.Operator, "=", 1), (.Number, "1", 1),
       (.Indent, "0", 2), (.Identifier, "x", 2), (.Operator, "=", 2),
       (.String, "unknown", 2), (.EOFToken, "EOF", 2)] ∧
    (runParser (lexTokens scenarioAssignUnknown)).toOption.map
      (fun r => (r.2.errors, r.2.symbolTable.entries,
        (r.2.symbolTable.lookupEntry "x").map (fun e => e.value))) =
      some ([], [{ id := 0, name := "x", dataType := "int", value := "1.000000",
                   role := "variable", scope := "global" }], some "1.000000") := by
  refine ⟨by decide!, by decide!, by decide!⟩

namespace Parser

/-- A binary operator token is not an opening parenthesis. -/
theorem opLevel_not_paren {t : Token} {l : Nat} (h : opLevel t = some l) : t.value ≠ "(" := by
  intro hv
  have hn : opLevel t = none := by
    unfold opLevel
    simp [hv]
  rw [hn] at h
  exact Option.noConfusion h

/-- A literal or a name, not followed by `(` when it is a name, is a primary operand. -/
theorem primary_atom (p : Parser) (x t : Token) (r : List Token) (a : ASTNode)
    (ha : atomNode x = some a) (hcall : x.type = .Identifier → t.value ≠ "(") :
    Primary (p.moveTo x (t :: r)) a (p.moveTo t r) := by
  unfold atomNode at ha
  by_cases c1 : x.type = .Number
  · rw [if_pos c1] at ha
    refine ⟨?_, 1, fun fuel hf => ?_⟩
    · unfold NumberNode at ha
      cases hs : stod x.value with
      | none => rw [hs] at ha; exact Option.noConfusion ha
      | some d => rw [hs] at ha; rw [← Option.some.inj ha]; rfl
    · obtain ⟨n, rfl⟩ : ∃ n, fuel = n + 1 := ⟨fuel - 1, by omega⟩
      rw [parsePrimary]
      simp only [moveTo_currentToken, c1, if_true, ha, moveTo_advance]
  · rw [if_neg c1] at ha
    by_cases c2 : x.type = .String
    · rw [if_pos c2] at ha
      refine ⟨by rw [← Option.some.inj ha]; rfl, 1, fun fuel hf => ?_⟩
      obtain ⟨n, rfl⟩ : ∃ n, fuel = n + 1 := ⟨fuel - 1, by omega⟩
      rw [parsePrimary]
      simp only [moveTo_currentToken, moveTo_advance]
      rw [if_neg c1, if_pos c2, Option.some.inj ha]
    · rw [if_neg c2] at ha
      by_cases c3 : x.type = .Keyword ∧ (x.value = "True" ∨ x.value = "False")
      · rw [if_pos c3] at ha
        refine ⟨by rw [← Option.some.inj ha]; rfl, 1, fun fuel hf => ?_⟩
        obtain ⟨n, rfl⟩ : ∃ n, fuel = n + 1 := ⟨fuel - 1, by omega⟩
        rw [parsePrimary]
        simp only [moveTo_currentToken, moveTo_advance]
        rw [if_neg c1, if_neg c2, if_pos c3, Option.some.inj ha]
      · rw [if_neg c3] at ha
        by_cases c4 : x.type = .Identifier
        · rw [if_pos c4] at ha
          refine ⟨by rw [← Option.some.inj ha]; rfl, 1, fun fuel hf => ?_⟩
          obtain ⟨n, rfl⟩ : ∃ n, fuel = n + 1 := ⟨fuel - 1, by omega⟩
          rw [← Option.some.inj ha]
          exact parsePrimary_identifier n p x t r c4 (hcall c4)
        · rw [if_neg c4] at ha
          exact Option.noConfusion ha

/-- Two operands around an operator of a lower level than the one that follows the second
operand's own operand: `a lo b hi c`. -/
theorem climb_lo_hi (p p1 p2 p3 : Parser) (a b c : ASTNode) (lo hi : Nat)
    (h1 : Primary p a p1) (o1 : opLevel p1.currentToken = some lo)
    (h2 : Primary p1.advance b p2) (o2 : opLevel p2.currentToken = some hi) (hlt : lo < hi)
    (h3 : Primary p2.advance c p3) (o3 : opLevel p3.currentToken = none) :
    Returns parseExpr p
      (BinaryOpNode p1.currentToken a (BinaryOpNode p2.currentToken b c)) p3 := by
  have hh := opLevel_lt_six o2
  have ra := h1.at_level (show lo + 1 ≤ 6 by omega)
    (fun m hm => by rw [o1]; simp only [ne_eq, Option.some.injEq]; omega)
  have rb := h2.at_level (show hi + 1 ≤ 6 by omega)
    (fun m hm => by rw [o2]; simp only [ne_eq, Option.some.injEq]; omega)
  have rc := h3.at_level (show hi + 1 ≤ 6 by omega) (fun m _ => by rw [o3]; simp)
  have inner := (level_facts hi hh).one rb h2.1 (by simp [o2]) rc h3.1 (by simp [o3])
  have inner' := climb_from (not_null_binary _ _ _) (show lo + 1 ≤ hi by omega) (by omega)
    inner (fun m _ _ => by rw [o3]; simp)
  have outer := (level_facts lo (by omega)).one ra h1.1 (by simp [o1]) inner'
    (not_null_binary _ _ _) (by simp [o3])
  exact expr_of_or (climb_from (not_null_binary _ _ _) (Nat.zero_le lo) (by omega) outer
    (fun m _ _ => by rw [o3]; simp)) h1.start.2

/-- The operator of the higher level first: `a hi b lo c`. -/
theorem climb_hi_lo (p p1 p2 p3 : Parser) (a b c : ASTNode) (lo hi : Nat)
    (h1 : Primary p a p1) (o1 : opLevel p1.currentToken = some hi)
    (h2 : Primary p1.advance b p2) (o2 : opLevel p2.currentToken = some lo) (hlt : lo < hi)
    (h3 : Primary p2.advance c p3) (o3 : opLevel p3.currentToken = none) :
    Returns parseExpr p
      (BinaryOpNode p2.currentToken (BinaryOpNode p1.currentToken a b) c) p3 := by
  have hh := opLevel_lt_six o1
  have ra := h1.at_level (show hi + 1 ≤ 6 by omega)
    (fun m hm => by rw [o1]; simp only [ne_eq, Option.some.injEq]; omega)
  have rb := h2.at_level (show hi + 1 ≤ 6 by omega)
    (fun m hm => by rw [o2]; simp only [ne_eq, Option.some.injEq]; omega)
  have rc := h3.at_level (show lo + 1 ≤ 6 by omega) (fun m _ => by rw [o3]; simp)
  have inner := (level_facts hi hh).one ra h1.1 (by simp [o1]) rb h2.1
    (by rw [o2]; simp only [Option.some.injEq, decide_eq_false_iff_not]; omega)
  have inner' := climb_from (not_null_binary _ _ _) (show lo + 1 ≤ hi by omega) (by omega)
    inner (fun m h1 h2 => by rw [o2]; simp only [ne_eq, Option.some.injEq]; omega)
  have outer := (level_facts lo (by omega)).one inner' (not_null_binary _ _ _)
    (by simp [o2]) rc h3.1 (by simp [o3])
  exact expr_of_or (climb_from (not_null_binary _ _ _) (Nat.zero_le lo) (by omega) outer
    (fun m _ _ => by rw [o3]; simp)) h1.start.2

/-- A prefix operator, its operand, then a binary operator: `- a op c`. -/
theorem climb_prefix (p p1 p2 : Parser) (a c : ASTNode) (l : Nat)
    (hp : isPrefixOp p.currentToken) (h1 : Primary p.advance a p1)
    (o1 : opLevel p1.currentToken = some l)
    (h2 : Primary p1.advance c p2) (o2 : opLevel p2.currentToken = none) :
    Returns parseExpr p (BinaryOpNode p1.currentToken (UnaryOpNode p.currentToken a) c) p2 := by
  have hl := opLevel_lt_six o1
  have ua := unary_prefix hp h1.unary h1.1
  have ua' := climb_from (not_null_unary _ _) (show l + 1 ≤ 6 by omega) (le_refl 6) ua
    (fun m hm _ => by rw [o1]; simp only [ne_eq, Option.some.injEq]; omega)
  have rc := h2.at_level (show l + 1 ≤ 6 by omega) (fun m _ => by rw [o2]; simp)
  have outer := (level_facts l hl).one ua' (not_null_unary _ _) (by simp [o1]) rc h2.1
    (by simp [o2])
  refine expr_of_or (climb_from (not_null_binary _ _ _) (Nat.zero_le l) (by omega) outer
    (fun m _ _ => by rw [o2]; simp)) ?_
  rcases hp with ⟨ht, -⟩ | ⟨ht, -⟩ <;> rw [ht] <;> decide

/-- Two primary operands around one binary operator: `a op b`. -/
theorem climb_single (p p1 p2 : Parser) (a b : ASTNode) (l : Nat)
    (h1 : Primary p a p1) (o1 : opLevel p1.currentToken = some l)
    (h2 : Primary p1.advance b p2) (o2 : opLevel p2.currentToken = none) :
    Returns parseExpr p (BinaryOpNode p1.currentToken a b) p2 := by
  have hl := opLevel_lt_six o1
  have ra := h1.at_level (show l + 1 ≤ 6 by omega)
    (fun m hm => by rw [o1]; simp only [ne_eq, Option.some.injEq]; omega)
  have rb := h2.at_level (show l + 1 ≤ 6 by omega) (fun m _ => by rw [o2]; simp)
  have outer := (level_facts l hl).one ra h1.1 (by simp [o1]) rb h2.1 (by simp [o2])
  exact expr_of_or (climb_from (not_null_binary _ _ _) (Nat.zero_le l) (by omega) outer
    (fun m _ _ => by rw [o2]; simp)) h1.start.2

/-- The closing parenthesis is no binary operator. -/
theorem opLevel_close {t : Token} (h : t.type = .Delimiter ∧ t.value = ")") :
    opLevel t = none := by
  unfold opLevel
  simp [h.1]

/-- A parenthesised operation `( a op b )` over two literals or names is a primary
operand. -/
theorem primary_group (p : Parser) (o x op y cl t : Token) (r : List Token) (a b : ASTNode)
    (l : Nat) (ho : o.type = .Delimiter ∧ o.value = "(") (ha : atomNode x = some a)
    (hop : opLevel op = some l) (hb : atomNode y = some b)
    (hc : cl.type = .Delimiter ∧ cl.value = ")") :
    Primary (p.moveTo o (x :: op :: y :: cl :: t :: r)) (BinaryOpNode op a b)
      (p.moveTo t r) := by
  have h1 := primary_atom p x op (y :: cl :: t :: r) a ha (fun _ => opLevel_not_paren hop)
  have h2 := primary_atom p y cl (t :: r) b hb (fun _ => by rw [hc.2]; decide)
  have e := climb_single (p.moveTo x (op :: y :: cl :: t :: r))
    (p.moveTo op (y :: cl :: t :: r)) (p.moveTo cl (t :: r)) a b l h1 hop h2 (opLevel_close hc)
  exact ⟨not_null_binary _ _ _,
    @primary_paren (p.moveTo o (x :: op :: y :: cl :: t :: r)) (p.moveTo cl (t :: r)) _ ho e hc⟩

/-- C15. The precedence order of `parseExpr` is or < and < equality < relational <
additive < multiplicative < prefix operators. For primary operands `a`, `b`, `c` and
binary operators of the levels `lo` < `hi`, followed by a token that is no binary
operator: `a lo b hi c` parses to BinaryOp(lo, a, BinaryOp(hi, b, c)) and `a hi b lo c`
to BinaryOp(lo, BinaryOp(hi, a, b), c); a prefix `-` or `not` takes its primary operand
before any binary operator does; and a parenthesised expression is what `parsePrimary`
returns, so it is a primary operand. The same on the tokens alone, for operands that are
literals or names (`atomNode`): from the token lists `x lo y hi z`, `x hi y lo z`,
`u x op z` with a prefix operator `u`, `( x lo y ) hi z` and `x hi ( y lo z )`,
`parseExpr` returns, given enough fuel, the trees above and stops at the token that
follows; between parentheses the operator of the lower level binds first. And on sources:
each pair of adjacent levels in both orders, the prefix operators, the parentheses and
one expression with an operator of every level parse with no error to the trees
written. -/
theorem precedence_order :
    (∀ (p p1 p2 p3 : Parser) (a b c : ASTNode) (lo hi : Nat),
      Primary p a p1 → opLevel p1.currentToken = some lo →
      Primary p1.advance b p2 → opLevel p2.currentToken = some hi → lo < hi →
      Primary p2.advance c p3 → opLevel p3.currentToken = none →
      Returns parseExpr p
        (BinaryOpNode p1.currentToken a (BinaryOpNode p2.currentToken b c)) p3) ∧
    (∀ (p p1 p2 p3 : Parser) (a b c : ASTNode) (lo hi : Nat),
      Primary p a p1 → opLevel p1.currentToken = some hi →
      Primary p1.advance b p2 → opLevel p2.currentToken = some lo → lo < hi →
      Primary p2.advance c p3 → opLevel p3.currentToken = none →
      Returns parseExpr p
        (BinaryOpNode p2.currentToken (BinaryOpNode p1.currentToken a b) c) p3) ∧
    (∀ (p p1 p2 : Parser) (a c : ASTNode) (l : Nat),
      isPrefixOp p.currentToken → Primary p.advance a p1 →
      opLevel p1.currentToken = some l →
      Primary p1.advance c p2 → opLevel p2.currentToken = none →
      Returns parseExpr p
        (BinaryOpNode p1.currentToken (UnaryOpNode p.currentToken a) c) p2) ∧
    (∀ (p q : Parser) (e : ASTNode),
      p.currentToken.type = .Delimiter ∧ p.currentToken.value = "(" →
      Returns parseExpr p.advance e q →
      q.currentToken.type = .Delimiter ∧ q.currentToken.value = ")" →
      Returns parsePrimary p e q.advance) ∧
    (∀ (p : Parser) (x lo y hi z t : Token) (r : List Token) (a b c : ASTNode) (i j : Nat),
      atomNode x = some a → atomNode y = some b → atomNode z = some c →
      opLevel lo = some i → opLevel hi = some j → i < j →
      opLevel t = none → (z.type = .Identifier → t.value ≠ "(") →
      Returns parseExpr (p.moveTo x (lo :: y :: hi :: z :: t :: r))
        (BinaryOpNode lo a (BinaryOpNode hi b c)) (p.moveTo t r)) ∧
    (∀ (p : Parser) (x hi y lo z t : Token) (r : List Token) (a b c : ASTNode) (i j : Nat),
      atomNode x = some a → atomNode y = some b → atomNode z = some c →
      opLevel lo = some i → opLevel hi = some j → i < j →
      opLevel t = none → (z.type = .Identifier → t.value ≠ "(") →
      Returns parseExpr (p.moveTo x (hi :: y :: lo :: z :: t :: r))
        (BinaryOpNode lo (BinaryOpNode hi a b) c) (p.moveTo t r)) ∧
    (∀ (p : Parser) (u x op z t : Token) (r : List Token) (a c : ASTNode) (l : Nat),
      isPrefixOp u → atomNode x = some a → atomNode z = some c → opLevel op = some l →
      opLevel t = none → (z.type = .Identifier → t.value ≠ "(") →
      Returns parseExpr (p.moveTo u (x :: op :: z :: t :: r))
        (BinaryOpNode op (UnaryOpNode u a) c) (p.moveTo t r)) ∧
    (∀ (p : Parser) (o x lo y cl hi z t : Token) (r : List Token) (a b c : ASTNode)
        (i j : Nat),
      o.type = .Delimiter ∧ o.value = "(" → cl.type = .Delimiter ∧ cl.value = ")" →
      atomNode x = some a → atomNode y = some b → atomNode z = some c →
      opLevel lo = some i → opLevel hi = some j →
      opLevel t = none → (z.type = .Identifier → t.value ≠ "(") →
      Returns parseExpr (p.moveTo o (x :: lo :: y :: cl :: hi :: z :: t :: r))
        (BinaryOpNode hi (BinaryOpNode lo a b) c) (p.moveTo t r)) ∧
    (∀ (p : Parser) (x hi o y lo z cl t : Token) (r : List Token) (a b c : ASTNode)
        (i j : Nat),
      o.type = .Delimiter ∧ o.value = "(" → cl.type = .Delimiter ∧ cl.value = ")" →
      atomNode x = some a → atomNode y = some b → atomNode z = some c →
      opLevel lo = some i → opLevel hi = some j → opLevel t = none →
      Returns parseExpr (p.moveTo x (hi :: o :: y :: lo :: z :: cl :: t :: r))
        (BinaryOpNode hi a (BinaryOpNode lo b c)) (p.moveTo t r)) ∧
    ["x = a or b and c", "x = a and b or c", "x = a and b == c", "x = a == b and c",
     "x = a == b < c", "x = a < b == c", "x = a < b + c", "x = a + b < c",
     "x = a + b * c", "x = a * b + c"].map exprsOf =
      [some (["(a or (b and c))"], 0), some (["((a and b) or c)"], 0),
       some (["(a and (b == c))"], 0), some (["((a == b) and c)"], 0),
       some (["(a == (b < c))"], 0), some (["((a < b) == c)"], 0),
       some (["(a < (b + c))"], 0), some (["((a + b) < c)"], 0),
       some (["(a + (b * c))"], 0), some (["((a * b) + c)"], 0)] ∧
    ["x = -a * b", "x = a * -b", "x = not a or b", "x = (a + b) * c", "x = a * (b + c)",
     "x = 1 + 2 * 3"].map exprsOf =
      [some (["((- a) * b)"], 0), some (["(a * (- b))"], 0), some (["((not a) or b)"], 0),
       some (["((a + b) * c)"], 0), some (["(a * (b + c))"], 0),
       some (["(1 + (2 * 3))"], 0)] ∧
    exprsOf "x = a or b and c == d < e + f * -g" =
      some (["(a or (b and (c == (d < (e + (f * (- g)))))))"], 0) ∧
    exprsOf "x = -a * b + c < d == e and f or g" =
      some (["(((((((- a) * b) + c) < d) == e) and f) or g)"], 0) := by
  refine ⟨climb_lo_hi, climb_hi_lo, climb_prefix, fun p q e ho h hc => primary_paren ho h hc,
    ?_, ?_, ?_, ?_, ?_, by decide!, by decide!, by decide!, by decide!⟩
  · intro p x lo y hi z t r a b c i j ha hb hc hlo hhi hlt ht hcall
    exact climb_lo_hi (p.moveTo x (lo :: y :: hi :: z :: t :: r))
      (p.moveTo lo (y :: hi :: z :: t :: r)) (p.moveTo hi (z :: t :: r)) (p.moveTo t r)
      a b c i j (primary_atom p x lo _ a ha (fun _ => opLevel_not_paren hlo)) hlo
      (primary_atom p y hi _ b hb (fun _ => opLevel_not_paren hhi)) hhi hlt
      (primary_atom p z t r c hc hcall) ht
  · intro p x hi y lo z t r a b c i j ha hb hc hlo hhi hlt ht hcall
    exact climb_hi_lo (p.moveTo x (hi :: y :: lo :: z :: t :: r))
      (p.moveTo hi (y :: lo :: z :: t :: r)) (p.moveTo lo (z :: t :: r)) (p.moveTo t r)
      a b c i j (primary_atom p x hi _ a ha (fun _ => opLevel_not_paren hhi)) hhi
      (primary_atom p y lo _ b hb (fun _ => opLevel_not_paren hlo)) hlo hlt
      (primary_atom p z t r c hc hcall) ht
  · intro p u x op z t r a c l hu ha hc hop ht hcall
    exact climb_prefix (p.moveTo u (x :: op :: z :: t :: r)) (p.moveTo op (z :: t :: r))
      (p.moveTo t r) a c l hu (primary_atom p x op _ a ha (fun _ => opLevel_not_paren hop))
      hop (primary_atom p z t r c hc hcall) ht
  · intro p o x lo y cl hi z t r a b c i j ho hcl ha hb hc hlo hhi ht hcall
    exact climb_single (p.moveTo o (x :: lo :: y :: cl :: hi :: z :: t :: r))
      (p.moveTo hi (z :: t :: r)) (p.moveTo t r) _ c j
      (primary_group p o x lo y cl hi (z :: t :: r) a b i ho ha hlo hb hcl) hhi
      (primary_atom p z t r c hc hcall) ht
  · intro p x hi o y lo z cl t r a b c i j ho hcl ha hb hc hlo hhi ht
    exact climb_single (p.moveTo x (hi :: o :: y :: lo :: z :: cl :: t :: r))
      (p.moveTo hi (o :: y :: lo :: z :: cl :: t :: r)) (p.moveTo t r) a _ j
      (primary_atom p x hi _ a ha (fun _ => opLevel_not_paren hhi)) hhi
      (primary_group p o y lo z cl t r b c i ho hb hlo hc hcl) ht

/-- The tokens of `a + b * c`, with `+` of level 4 and `*` of level 5. -/
theorem precedence_order_witness :
    atomNode (tok .Identifier "a" 1 1) = some (IdentifierNode (tok .Identifier "a" 1 1)) ∧
    opLevel (tok .Operator "+" 1 3) = some 4 ∧ opLevel (tok .Operator "*" 1 7) = some 5 ∧
    opLevel (tok .EOFToken "EOF" 1 10) = none ∧
    Returns parseExpr (Parser.new precedenceTokens {})
      (BinaryOpNode (tok .Operator "+" 1 3) (IdentifierNode (tok .Identifier "a" 1 1))
        (BinaryOpNode (tok .Operator "*" 1 7) (IdentifierNode (tok .Identifier "b" 1 5))
          (IdentifierNode (tok .Identifier "c" 1 9))))
      ((Parser.new precedenceTokens {}).moveTo (tok .EOFToken "EOF" 1 10) []) ∧
    (parseExpr 12 (Parser.new precedenceTokens {})).toOption.map
      (fun r => (r.1.exprText, r.2.currentToken.value, r.2.errors.length)) =
      some ("(a + (b * c))", "EOF", 0) :=
  ⟨rfl, by decide, by decide, by decide,
    precedence_order.2.2.2.2.1 (Parser.new precedenceTokens {}) (tok .Identifier "a" 1 1)
      (tok .Operator "+" 1 3) (tok .Identifier "b" 1 5) (tok .Operator "*" 1 7)
      (tok .Identifier "c" 1 9) (tok .EOFToken "EOF" 1 10) [] _ _ _ 4 5 rfl rfl rfl
      (by decide) (by decide) (by decide) (by decide) (fun _ => by decide),
    by decide!⟩

end Parser

end ComPy
